import Mathlib

/-!
# SXFoundation: the ownership kernel

A shallow embedding of `SXObject`, `SXArray`, `SXAutoreleasePool` and
`SXPoolManager` (namespace `spalx` of the C++ sources).

* An object lives in a heap cell; a pointer is a natural number (type `Nat`)
  and `0` is `nullptr`.  Addresses are never reused, so a pointer to a destroyed object
  stays recognisable as dangling.
* `m_referenceCount` is an `unsigned int`: every increment and decrement is
  taken modulo `2 ^ 32` (`wrap`).
* `m_count` and `m_capacity` of `SXArray` are kept as natural numbers. The sum
  `m_capacity + SX_ARRAY_DEFAULT_CAPACITY_INCREMENT` of a resize is the
  `unsigned int` sum of the program as long as it does not exceed `UINT_MAX`:
  the arrays of the kernel (pool stacks, registration sequences) stay far below
  that size, and the statements about arrays of client code assume it where the
  buffer grows.
* Dereferencing `nullptr` or a destroyed object is reported as
  `Outcome.undefined`.
* `release` can cascade through destructors; the cascade is driven by a fuel
  argument and running out of it is reported as `Outcome.outOfFuel`.
* The heap carries a chronological log of the calls of `release` and of the
  destructions, so that statements about "how many releases" can be made.
* The mutex of `sharedPoolManager` is not modelled: all runs are sequential.
-/

namespace spalx

/-- Result of running a piece of the program. -/
inductive Outcome (α : Type) where
  | ok (a : α)
  | undefined
  | outOfFuel
  deriving DecidableEq, Repr

namespace Outcome

/-- Sequencing: a fault of the first computation is the fault of the whole. -/
def bind {α β : Type} (x : Outcome α) (f : α → Outcome β) : Outcome β :=
  match x with
  | ok a => f a
  | undefined => undefined
  | outOfFuel => outOfFuel

/-- The computation ended normally. -/
def isOk {α : Type} (x : Outcome α) : Bool :=
  match x with
  | ok _ => true
  | _ => false

end Outcome

instance : Monad Outcome where
  pure := Outcome.ok
  bind := Outcome.bind

/-- The integer instantiations of the class template `SXNumber<T>` (the
instantiations for `float` and `double` are not modelled). -/
inductive NumberType where
  | char
  | unsignedChar
  | short
  | unsignedShort
  | int
  | unsignedInt
  | long
  | unsignedLong
  | longLong
  | unsignedLongLong
  | bool
  deriving DecidableEq, Repr

/-- Fields that the concrete classes add to `SXObject`. -/
inductive Body where
  /-- A plain `SXObject`. -/
  | object
  /-- `SXArray`: `m_capacity`, `m_count`, `m_pArray`. -/
  | array (m_capacity : Nat) (m_count : Nat) (m_pArray : List Nat)
  /-- `SXAutoreleasePool`: `m_pObjects`. -/
  | pool (m_pObjects : Nat)
  /-- `SXString`: the characters of `m_string`. -/
  | string (m_string : List Char)
  /-- `SXNumber<T>`: the type `T` and `m_value`. -/
  | number (type : NumberType) (m_value : Int)
  /-- `SXData`: the bytes of `*m_pBytes`. -/
  | data (m_pBytes : List Nat)
  /-- `SXDictionary`: the entries of `*m_pMap`, in iteration order (a new key
  is put last). -/
  | dictionary (m_pMap : List (List Char × Nat))
  /-- `SXSet`: the members of `*m_pSet`, in iteration order (a new member is
  put last). -/
  | set (m_pSet : List Nat)
  deriving DecidableEq, Repr

/-- A live object: the `SXObject` part and the fields of its class. -/
structure Cell where
  m_referenceCount : Nat
  body : Body
  deriving DecidableEq, Repr

/-- Logged calls. -/
inductive Event where
  /-- `release()` was called on `p` while its count was `before`. -/
  | release (p : Nat) (before : Nat)
  /-- The object at `p` was deleted (`delete this`). -/
  | destroy (p : Nat)
  deriving DecidableEq, Repr

/-- The heap: cell `p - 1` of `cells` is the object at address `p`, `none` once
it has been destroyed. -/
structure Heap where
  cells : List (Option Cell)
  trace : List Event
  deriving DecidableEq, Repr

namespace Heap

/-- The empty heap. -/
def empty : Heap := ⟨[], []⟩

/-- Dereference `p`: `none` for `nullptr` and for dangling pointers. -/
def read (h : Heap) (p : Nat) : Option Cell :=
  if p = 0 then none else h.cells.getD (p - 1) none

/-- Store into the object at `p`. -/
def write (h : Heap) (p : Nat) (c : Cell) : Heap :=
  if p = 0 then h else { h with cells := h.cells.set (p - 1) (some c) }

/-- Give the memory of `p` back. -/
def free (h : Heap) (p : Nat) : Heap :=
  if p = 0 then h else { h with cells := h.cells.set (p - 1) none }

/-- The operator `new`: a fresh address holding `c`. -/
def alloc (h : Heap) (c : Cell) : Heap × Nat :=
  ({ h with cells := h.cells ++ [some c] }, h.cells.length + 1)

/-- Append an event to the log. -/
def log (h : Heap) (e : Event) : Heap :=
  { h with trace := h.trace ++ [e] }

/-- The address `p` lies inside the allocated part of the heap. -/
def valid (h : Heap) (p : Nat) : Prop := p ≠ 0 ∧ p ≤ h.cells.length

instance (h : Heap) (p : Nat) : Decidable (h.valid p) := by
  unfold valid; infer_instance

/-- Reference count of the object at `p`, if it is alive. -/
def retainCount (h : Heap) (p : Nat) : Option Nat :=
  (h.read p).map Cell.m_referenceCount

/-- The object at `p` is alive. -/
def alive (h : Heap) (p : Nat) : Bool :=
  (h.read p).isSome

/-- The sequence `m_pArray[0 .. m_count)` of the array at `a`
(empty when `a` is not a live array). -/
def elements (h : Heap) (a : Nat) : List Nat :=
  match h.read a with
  | some ⟨_, .array _ count arr⟩ => arr.take count
  | _ => []

end Heap

/-- The value of `SX_ARRAY_DEFAULT_CAPACITY_INCREMENT`. -/
def SX_ARRAY_DEFAULT_CAPACITY_INCREMENT : Nat := 10

/-- The largest `unsigned int`. -/
def UINT_MAX : Nat := 4294967295

/-- Arithmetic of `unsigned int`: results are taken modulo `UINT_MAX + 1`. -/
def wrap (n : Nat) : Nat := n % (UINT_MAX + 1)

/-! ## SXObject -/

namespace SXObject

/-- The statement `new SXObject()`: the count starts at 1. -/
def new (h : Heap) : Heap × Nat :=
  h.alloc ⟨1, .object⟩

/-- The method `SXObject::retain`. -/
def retain (h : Heap) (this : Nat) : Outcome Heap :=
  match h.read this with
  | some c => .ok (h.write this { c with m_referenceCount := wrap (c.m_referenceCount + 1) })
  | none => .undefined

/-- The method `SXObject::retainCount`. -/
def retainCount (h : Heap) (this : Nat) : Outcome Nat :=
  match h.read this with
  | some c => .ok c.m_referenceCount
  | none => .undefined

mutual

/-- The method `SXObject::release`: decrement, and `delete this` at zero. -/
def release : Nat → Heap → Nat → Outcome Heap
  | 0, _, _ => .outOfFuel
  | fuel + 1, h, this =>
    match h.read this with
    | none => .undefined
    | some c =>
      let n := wrap (c.m_referenceCount + UINT_MAX)
      let h1 := (h.write this { c with m_referenceCount := n }).log (.release this c.m_referenceCount)
      if n = 0 then delete fuel h1 this else .ok h1
termination_by structural fuel => fuel

/-- The statement `delete this`: the destructor of the dynamic class, then the
memory is given back. -/
def delete : Nat → Heap → Nat → Outcome Heap
  | 0, _, _ => .outOfFuel
  | fuel + 1, h, this =>
    match h.read this with
    | none => .undefined
    | some c =>
      let h0 := h.log (.destroy this)
      match c.body with
      | .object => .ok (h0.free this)
      | .pool pObjects =>
        -- ~SXAutoreleasePool: if (m_pObjects) { m_pObjects->release(); m_pObjects = nullptr; }
        if pObjects ≠ 0 then
          match release fuel h0 pObjects with
          | .ok h1 => .ok (h1.free this)
          | .undefined => .undefined
          | .outOfFuel => .outOfFuel
        else .ok (h0.free this)
      | .array _ _ _ =>
        -- ~SXArray: removeAllObjects(); delete[] m_pArray;
        match removeAllObjectsFrom fuel h0 this 0 with
        | .ok h1 => .ok (h1.free this)
        | .undefined => .undefined
        | .outOfFuel => .outOfFuel
      | .string _ => .ok (h0.free this)
      | .number _ _ => .ok (h0.free this)
      | .data _ => .ok (h0.free this)
      | .dictionary m_pMap =>
        -- ~SXDictionary: removeAllObjects(); delete m_pMap;
        match releaseEach fuel h0 (m_pMap.map Prod.snd) with
        | .ok h1 => .ok (h1.free this)
        | .undefined => .undefined
        | .outOfFuel => .outOfFuel
      | .set m_pSet =>
        -- ~SXSet: removeAllObjects(); delete m_pSet;
        match releaseEach fuel h0 m_pSet with
        | .ok h1 => .ok (h1.free this)
        | .undefined => .undefined
        | .outOfFuel => .outOfFuel
termination_by structural fuel => fuel

/-- The loops of `SXDictionary::removeAllObjects` and `SXSet::removeAllObjects`:
`release()` is called on every stored pointer, in iteration order. -/
def releaseEach : Nat → Heap → List Nat → Outcome Heap
  | 0, _, _ => .outOfFuel
  | _ + 1, h, [] => .ok h
  | fuel + 1, h, p :: ps =>
    match release fuel h p with
    | .ok h1 => releaseEach fuel h1 ps
    | .undefined => .undefined
    | .outOfFuel => .outOfFuel
termination_by structural fuel => fuel

/-- The loop of `SXArray::removeAllObjects`, entered at index `i`, followed by
`m_count = 0`. -/
def removeAllObjectsFrom : Nat → Heap → Nat → Nat → Outcome Heap
  | 0, _, _, _ => .outOfFuel
  | fuel + 1, h, this, i =>
    match h.read this with
    | some ⟨rc, .array cap count arr⟩ =>
      if i < count then
        let pObject := arr.getD i 0
        if pObject ≠ 0 then
          match release fuel h pObject with
          | .ok h1 =>
            -- m_pArray[i] = nullptr
            match h1.read this with
            | some ⟨rc1, .array cap1 count1 arr1⟩ =>
              removeAllObjectsFrom fuel (h1.write this ⟨rc1, .array cap1 count1 (arr1.set i 0)⟩) this (i + 1)
            | _ => .undefined
          | .undefined => .undefined
          | .outOfFuel => .outOfFuel
        else removeAllObjectsFrom fuel h this (i + 1)
      else .ok (h.write this ⟨rc, .array cap 0 arr⟩)
    | _ => .undefined
termination_by structural fuel => fuel

end

end SXObject

/-! ## SXArray -/

namespace SXArray

/-- The statement `new SXArray()`: count 0, the default capacity, and a buffer
of that many null pointers. -/
def new (h : Heap) : Heap × Nat :=
  h.alloc ⟨1, .array SX_ARRAY_DEFAULT_CAPACITY_INCREMENT 0
    (List.replicate SX_ARRAY_DEFAULT_CAPACITY_INCREMENT 0)⟩

/-- The copy loop of `resizeArray`: `pArr[i] = m_pArray[i]` for `i < m_count`,
into a zero-initialised buffer of the new capacity. -/
def copyElements (m_count : Nat) (m_pArray : List Nat) (capacity : Nat) : List Nat :=
  (List.range m_count).foldl (fun pArr i => pArr.set i (m_pArray.getD i 0))
    (List.replicate capacity 0)

/-- The method `SXArray::resizeArray`: the copy loop stores `m_count` pointers
into the new buffer, which is a write behind the buffer when `m_count` exceeds
the new capacity. -/
def resizeArray (h : Heap) (this : Nat) (capacity : Nat) : Outcome Heap :=
  match h.read this with
  | some ⟨rc, .array _ count arr⟩ =>
    if count ≤ capacity then
      .ok (h.write this ⟨rc, .array capacity count (copyElements count arr capacity)⟩)
    else .undefined
  | _ => .undefined

/-- The method `SXArray::initWithCapacity`. -/
def initWithCapacity (h : Heap) (this : Nat) (capacity : Nat) : Outcome (Heap × Bool) := do
  let h1 ← resizeArray h this capacity
  match h1.read this with
  | some ⟨rc, .array cap _ arr⟩ => .ok (h1.write this ⟨rc, .array cap 0 arr⟩, true)
  | _ => .undefined

/-- The method `SXArray::init`. -/
def init (h : Heap) (this : Nat) : Outcome (Heap × Bool) :=
  initWithCapacity h this SX_ARRAY_DEFAULT_CAPACITY_INCREMENT

/-- The method `SXArray::count`. -/
def count (h : Heap) (this : Nat) : Outcome Nat :=
  match h.read this with
  | some ⟨_, .array _ count _⟩ => .ok count
  | _ => .undefined

/-- The loop of `SXArray::indexOfObject` from index `i` on, with `n` slots left
to inspect; `none` stands for `UINT_MAX`. -/
def indexOfObjectFrom (m_pArray : List Nat) (pObject : Nat) : Nat → Nat → Option Nat
  | 0, _ => none
  | n + 1, i => if m_pArray.getD i 0 = pObject then some i
                else indexOfObjectFrom m_pArray pObject n (i + 1)

/-- The method `SXArray::indexOfObject`; `none` stands for `UINT_MAX`. -/
def indexOfObject (h : Heap) (this : Nat) (pObject : Nat) : Outcome (Option Nat) :=
  match h.read this with
  | some ⟨_, .array _ count arr⟩ => .ok (indexOfObjectFrom arr pObject count 0)
  | _ => .undefined

/-- The method `SXArray::lastObject`. -/
def lastObject (h : Heap) (this : Nat) : Outcome Nat :=
  match h.read this with
  | some ⟨_, .array _ count arr⟩ => .ok (if count > 0 then arr.getD (count - 1) 0 else 0)
  | _ => .undefined

/-- The method `SXArray::objectAtIndex`. -/
def objectAtIndex (h : Heap) (this : Nat) (index : Nat) : Outcome Nat :=
  match h.read this with
  | some ⟨_, .array _ count arr⟩ => .ok (if index < count then arr.getD index 0 else 0)
  | _ => .undefined

/-- The statement `m_pArray[m_count++] = pObject`. -/
def storeAtCount (h : Heap) (this : Nat) (pObject : Nat) : Outcome Heap :=
  match h.read this with
  | some ⟨rc, .array cap count arr⟩ =>
    .ok (h.write this ⟨rc, .array cap (count + 1) (arr.set count pObject)⟩)
  | _ => .undefined

/-- The method `SXArray::addObject`. The new capacity of a full array is the
sum `m_capacity + 10` in the natural numbers, which is the `unsigned int` sum
of the program as long as it does not exceed `UINT_MAX`; the theorems on
arrays that grow state this bound. -/
def addObject (h : Heap) (this : Nat) (pObject : Nat) : Outcome Heap :=
  if pObject ≠ 0 then
    match h.read this with
    | some ⟨_, .array cap count _⟩ =>
      (if count = cap then resizeArray h this (cap + SX_ARRAY_DEFAULT_CAPACITY_INCREMENT)
       else .ok h).bind fun h1 =>
      (SXObject.retain h1 pObject).bind fun h2 =>
      storeAtCount h2 this pObject
    | _ => .undefined
  else .ok h

/-- The loop of `SXArray::reorderArrayAtIndex`:
`m_pArray[i - 1] = m_pArray[i]` for `index + 1 <= i < m_count`. -/
def reorderLoop (m_count : Nat) (index : Nat) (m_pArray : List Nat) : List Nat :=
  (List.range (m_count - (index + 1))).foldl
    (fun arr k => arr.set (index + k) (arr.getD (index + 1 + k) 0)) m_pArray

/-- The method `SXArray::reorderArrayAtIndex`. -/
def reorderArrayAtIndex (h : Heap) (this : Nat) (index : Nat) : Outcome Heap :=
  match h.read this with
  | some ⟨rc, .array cap count arr⟩ =>
    .ok (h.write this ⟨rc, .array cap count (reorderLoop count index arr)⟩)
  | _ => .undefined

/-- The tail shared by `removeObject` and `removeObjectAtIndex`:
`m_pArray[index] = nullptr; reorderArrayAtIndex(index); m_count--`. -/
def closeGap (h : Heap) (this : Nat) (index : Nat) : Outcome Heap :=
  match h.read this with
  | some ⟨rc, .array cap count arr⟩ => do
    let h1 ← reorderArrayAtIndex (h.write this ⟨rc, .array cap count (arr.set index 0)⟩) this index
    match h1.read this with
    | some ⟨rc1, .array cap1 count1 arr1⟩ => .ok (h1.write this ⟨rc1, .array cap1 (count1 - 1) arr1⟩)
    | _ => .undefined
  | _ => .undefined

/-- The method `SXArray::removeObject`. -/
def removeObject (fuel : Nat) (h : Heap) (this : Nat) (pObject : Nat) : Outcome Heap := do
  let index ← indexOfObject h this pObject
  match index with
  | some i => do
    let h1 ← SXObject.release fuel h pObject
    closeGap h1 this i
  | none => .ok h

/-- The method `SXArray::removeLastObject`. -/
def removeLastObject (fuel : Nat) (h : Heap) (this : Nat) : Outcome Heap :=
  match h.read this with
  | some ⟨_, .array _ count arr⟩ =>
    if count > 0 then do
      let pObject := arr.getD (count - 1) 0
      let h1 ← SXObject.release fuel h pObject
      -- m_pArray[m_count - 1] = nullptr; m_count--
      match h1.read this with
      | some ⟨rc1, .array cap1 count1 arr1⟩ =>
        .ok (h1.write this ⟨rc1, .array cap1 (count1 - 1) (arr1.set (count1 - 1) 0)⟩)
      | _ => .undefined
    else .ok h
  | _ => .undefined

/-- The method `SXArray::removeAllObjects`. -/
def removeAllObjects (fuel : Nat) (h : Heap) (this : Nat) : Outcome Heap :=
  SXObject.removeAllObjectsFrom fuel h this 0

end SXArray

/-! ## SXAutoreleasePool -/

namespace SXAutoreleasePool

/-- The statement `new SXAutoreleasePool()`: the pool is allocated, then its
constructor creates and initialises `m_pObjects`. -/
def new (h : Heap) : Outcome (Heap × Nat) := do
  let (h1, this) := h.alloc ⟨1, .pool 0⟩
  let (h2, pObjects) := SXArray.new h1
  match h2.read this with
  | some c =>
    let h3 := h2.write this { c with body := .pool pObjects }
    let (h4, _) ← SXArray.init h3 pObjects
    .ok (h4, this)
  | none => .undefined

/-- The member `m_pObjects` of the pool at `this`. -/
def objects (h : Heap) (this : Nat) : Outcome Nat :=
  match h.read this with
  | some ⟨_, .pool pObjects⟩ => .ok pObjects
  | _ => .undefined

/-- The method `SXAutoreleasePool::addObject`. -/
def addObject (h : Heap) (this : Nat) (pObject : Nat) : Outcome Heap := do
  let pObjects ← objects h this
  SXArray.addObject h pObjects pObject

/-- The method `SXAutoreleasePool::removeObject`. -/
def removeObject (fuel : Nat) (h : Heap) (this : Nat) (pObject : Nat) : Outcome Heap := do
  let pObjects ← objects h this
  SXArray.removeObject fuel h pObjects pObject

/-- The method `SXAutoreleasePool::clear`. -/
def clear (fuel : Nat) (h : Heap) (this : Nat) : Outcome Heap := do
  let pObjects ← objects h this
  SXArray.removeAllObjects fuel h pObjects

end SXAutoreleasePool

/-! ## SXPoolManager -/

/-- The members of the pool manager. -/
structure SXPoolManager where
  m_pPools : Nat
  m_pCurrentPool : Nat
  deriving DecidableEq, Repr

/-- The program state: the heap and the static `SXPoolManager::pInstance`
(`none` is `nullptr`). -/
structure State where
  heap : Heap
  pInstance : Option SXPoolManager
  deriving DecidableEq, Repr

namespace SXPoolManager

/-- The state at program start: nothing allocated, no manager. -/
def initial : State := ⟨Heap.empty, none⟩

/-- The method `SXPoolManager::push`, run on the instance. -/
def push (fuel : Nat) (s : State) : Outcome State :=
  match s.pInstance with
  | some m => do
    let (h1, pPool) ← SXAutoreleasePool.new s.heap
    let m1 : SXPoolManager := { m with m_pCurrentPool := pPool }
    let h2 ← SXArray.addObject h1 m1.m_pPools pPool
    let h3 ← SXObject.release fuel h2 pPool
    .ok ⟨h3, some m1⟩
  | none => .undefined

/-- The cast `dynamic_cast<SXAutoreleasePool*>`. -/
def asPool (h : Heap) (p : Nat) : Outcome Nat :=
  if p = 0 then .ok 0
  else match h.read p with
    | some ⟨_, .pool _⟩ => .ok p
    | some _ => .ok 0
    | none => .undefined

/-- The method `SXPoolManager::pop`, run on the instance. -/
def pop (fuel : Nat) (s : State) : Outcome State :=
  match s.pInstance with
  | some m =>
    if m.m_pCurrentPool ≠ 0 then do
      let h1 ← SXArray.removeLastObject fuel s.heap m.m_pPools
      let last ← SXArray.lastObject h1 m.m_pPools
      let cur ← asPool h1 last
      .ok ⟨h1, some { m with m_pCurrentPool := cur }⟩
    else .ok s
  | none => .undefined

/-- The method `SXPoolManager::addObject`, run on the instance. -/
def addObject (s : State) (pObject : Nat) : Outcome State :=
  match s.pInstance with
  | some m => do
    let h1 ← SXAutoreleasePool.addObject s.heap m.m_pCurrentPool pObject
    .ok { s with heap := h1 }
  | none => .undefined

/-- The method `SXPoolManager::removeObject`, run on the instance. -/
def removeObject (fuel : Nat) (s : State) (pObject : Nat) : Outcome State :=
  match s.pInstance with
  | some m => do
    let h1 ← SXAutoreleasePool.removeObject fuel s.heap m.m_pCurrentPool pObject
    .ok { s with heap := h1 }
  | none => .undefined

/-- The constructor `SXPoolManager::SXPoolManager`, storing the new manager in
`pInstance`. -/
def create (fuel : Nat) (s : State) : Outcome State := do
  let (h1, pPools) := SXArray.new s.heap
  let (h2, _) ← SXArray.initWithCapacity h1 pPools 1
  push fuel ⟨h2, some ⟨pPools, 0⟩⟩

/-- The function `SXPoolManager::sharedPoolManager`: create the manager on the
first call. -/
def sharedPoolManager (fuel : Nat) (s : State) : Outcome State :=
  match s.pInstance with
  | some _ => .ok s
  | none => create fuel s

/-- The function `SXPoolManager::purgePoolManager`: the destructor releases
`m_pPools`, then `pInstance` is reset. -/
def purgePoolManager (fuel : Nat) (s : State) : Outcome State :=
  match s.pInstance with
  | some m =>
    if m.m_pPools ≠ 0 then do
      let h1 ← SXObject.release fuel s.heap m.m_pPools
      .ok ⟨h1, none⟩
    else .ok ⟨s.heap, none⟩
  | none => .ok s

end SXPoolManager

/-- The method `SXObject::autorelease`; the result carries the returned
pointer. -/
def SXObject.autorelease (fuel : Nat) (s : State) (this : Nat) : Outcome (State × Nat) := do
  let s1 ← SXPoolManager.sharedPoolManager fuel s
  let s2 ← SXPoolManager.addObject s1 this
  let h3 ← SXObject.release fuel s2.heap this
  .ok ({ s2 with heap := h3 }, this)

/-! # Specification vocabulary -/

namespace SXObject

/-- A run of `n` calls of `retain()` on `this`. -/
def retainTimes : Nat → Heap → Nat → Outcome Heap
  | 0, h, _ => .ok h
  | n + 1, h, this => (retain h this).bind (fun h1 => retainTimes n h1 this)

/-- A run of `k` calls of `release()` on `this`, each with the given fuel. -/
def releaseTimes (fuel : Nat) : Nat → Heap → Nat → Outcome Heap
  | 0, h, _ => .ok h
  | k + 1, h, this => (release fuel h this).bind (fun h1 => releaseTimes fuel k h1 this)

end SXObject

/-- Every stored reference count fits an `unsigned int`. -/
def Heap.bounded (h : Heap) : Prop :=
  ∀ c ∈ h.cells, ∀ x ∈ c, x.m_referenceCount ≤ UINT_MAX

instance (h : Heap) : Decidable h.bounded := by
  unfold Heap.bounded; infer_instance

/-- The log `evs` holds a call of `release()` on `q` made at count 1, directly
followed by the destruction of `q`. -/
def ReleasedToZero (q : Nat) (evs : List Event) : Prop :=
  [Event.release q 1, Event.destroy q] <:+: evs

instance (q : Nat) (evs : List Event) : Decidable (ReleasedToZero q evs) := by
  unfold ReleasedToZero; infer_instance

/-- The objects on which `release()` was called, in the order of the calls. -/
def releasedObjects (evs : List Event) : List Nat :=
  evs.filterMap (fun e => match e with
    | .release p _ => some p
    | .destroy _ => none)

/-- The objects that were destroyed, in the order of destruction. -/
def destroyedObjects (evs : List Event) : List Nat :=
  evs.filterMap (fun e => match e with
    | .release _ _ => none
    | .destroy p => some p)

/-- The events of a log that concern the object `o`. -/
def eventsOf (o : Nat) (evs : List Event) : List Event :=
  evs.filter (fun e => match e with
    | .release p _ => p = o
    | .destroy p => p = o)

/-- The calls that client code can make on the ownership kernel. A method of
the pool manager is reached through `SXPoolManager::sharedPoolManager()`. -/
inductive Call where
  /-- `new SXObject()`. -/
  | construct
  | retain (o : Nat)
  | release (o : Nat)
  | autorelease (o : Nat)
  | push
  | pop
  | addObject (o : Nat)
  | removeObject (o : Nat)
  | sharedPoolManager
  | purgePoolManager
  deriving DecidableEq, Repr

/-- Run one call. -/
def Call.run (fuel : Nat) : Call → State → Outcome State
  | .construct, s => .ok { s with heap := (SXObject.new s.heap).1 }
  | .retain o, s => (SXObject.retain s.heap o).bind (fun h => .ok { s with heap := h })
  | .release o, s => (SXObject.release fuel s.heap o).bind (fun h => .ok { s with heap := h })
  | .autorelease o, s => (SXObject.autorelease fuel s o).bind (fun r => .ok r.1)
  | .push, s => (SXPoolManager.sharedPoolManager fuel s).bind (SXPoolManager.push fuel)
  | .pop, s => (SXPoolManager.sharedPoolManager fuel s).bind (SXPoolManager.pop fuel)
  | .addObject o, s =>
    (SXPoolManager.sharedPoolManager fuel s).bind (fun s1 => SXPoolManager.addObject s1 o)
  | .removeObject o, s =>
    (SXPoolManager.sharedPoolManager fuel s).bind (fun s1 => SXPoolManager.removeObject fuel s1 o)
  | .sharedPoolManager, s => SXPoolManager.sharedPoolManager fuel s
  | .purgePoolManager, s => SXPoolManager.purgePoolManager fuel s

/-- Run a sequence of calls, stopping at the first fault. -/
def runCalls (fuel : Nat) : List Call → State → Outcome State
  | [], s => .ok s
  | c :: cs, s => (c.run fuel s).bind (runCalls fuel cs)

/-- The heap `h2` arises from `h1` with every death accounted for: the counts
stay in range, the log only grows, and each object alive in `h1` and destroyed
in `h2` was released at count 1 directly before its destruction. -/
def Accounted (h1 h2 : Heap) : Prop :=
  h1.bounded → h2.bounded ∧ ∃ evs, h2.trace = h1.trace ++ evs ∧
    ∀ q, (h1.read q).isSome → h2.read q = none → ReleasedToZero q evs

/-- What `delete this` leaves behind: the log starts with the destruction of
`this`, and every other death is accounted for. -/
def SXObject.DeleteAccounted (h : Heap) (this : Nat) (h2 : Heap) : Prop :=
  h.bounded → h2.bounded ∧ ∃ evs, h2.trace = h.trace ++ Event.destroy this :: evs ∧
    ∀ q, q ≠ this → (h.read q).isSome → h2.read q = none → ReleasedToZero q evs

/-- The registration sequence of the pool at `pool` (empty when `pool` is not a
live pool). -/
def Heap.registrations (h : Heap) (pool : Nat) : List Nat :=
  match h.read pool with
  | some ⟨_, .pool pObjects⟩ => h.elements pObjects
  | _ => []

/-- The pools of the manager's stack, bottom first (empty without a manager). -/
def State.pools (s : State) : List Nat :=
  match s.pInstance with
  | some m => s.heap.elements m.m_pPools
  | none => []

/-- The member `m_pCurrentPool` of the manager (`nullptr` without a manager). -/
def State.currentPool (s : State) : Nat :=
  match s.pInstance with
  | some m => m.m_pCurrentPool
  | none => 0

/-- All registrations held by the pools of the stack, bottom pool first. -/
def State.registrations (s : State) : List Nat :=
  s.pools.flatMap s.heap.registrations

/-- The unused slots of an array after one more element has been appended:
when there is no unused slot left the buffer first grows by
`SX_ARRAY_DEFAULT_CAPACITY_INCREMENT` null slots. -/
def SXArray.spare (junk : List Nat) : List Nat :=
  (if junk = [] then List.replicate SX_ARRAY_DEFAULT_CAPACITY_INCREMENT 0 else junk).tail

/-- The state right after the first `SXPoolManager::sharedPoolManager()` of a
program: the manager (pools array at address 1) with its initial pool (address
2, registrations in the array at address 3). -/
def freshManager : State :=
  ⟨⟨[some ⟨1, .array 1 1 [2]⟩, some ⟨1, .pool 3⟩,
      some ⟨1, .array 10 0 [0, 0, 0, 0, 0, 0, 0, 0, 0, 0]⟩], [.release 2 2]⟩,
    some ⟨1, 2⟩⟩

/-- The fresh manager plus one newly constructed `SXObject` (address 4). -/
def freshManagerWithObject : State :=
  { freshManager with heap := (SXObject.new freshManager.heap).1 }

/-- The factory `SXArray::createWithCapacity`; the result carries the returned
pointer. -/
def SXArray.createWithCapacity (fuel : Nat) (s : State) (capacity : Nat) : Outcome (State × Nat) :=
  let r := SXArray.new s.heap
  (SXArray.initWithCapacity r.1 r.2 capacity).bind fun i =>
    if i.2 then
      (SXObject.autorelease fuel ⟨i.1, s.pInstance⟩ r.2).bind fun a => .ok (a.1, r.2)
    else
      -- delete pArray; pArray = nullptr;
      (SXObject.delete fuel i.1 r.2).bind fun h3 => .ok (⟨h3, s.pInstance⟩, 0)

/-- The factory `SXArray::create`. -/
def SXArray.create (fuel : Nat) (s : State) : Outcome (State × Nat) :=
  SXArray.createWithCapacity fuel s SX_ARRAY_DEFAULT_CAPACITY_INCREMENT

/-- A program run: the manager is created with its initial pool P0, an array X
comes from the factory `SXArray::create`, `push()` creates P1, X is (optionally
retained and then) autoreleased again, and, as asked for, P1 is popped and the
manager is purged, which drains P0. The result carries the address of X. -/
def nestedAutorelease (fuel : Nat) (extraRetain popP1 drainP0 : Bool) : Outcome (State × Nat) :=
  (SXPoolManager.sharedPoolManager fuel SXPoolManager.initial).bind fun s1 =>
  (SXArray.create fuel s1).bind fun c =>
  (SXPoolManager.push fuel c.1).bind fun s3 =>
  (if extraRetain then SXObject.retain s3.heap c.2 else .ok s3.heap).bind fun h3 =>
  (SXObject.autorelease fuel { s3 with heap := h3 } c.2).bind fun a =>
  (if popP1 then SXPoolManager.pop fuel a.1 else .ok a.1).bind fun s5 =>
  (if drainP0 then SXPoolManager.purgePoolManager fuel s5 else .ok s5).bind fun s6 =>
  .ok (s6, c.2)

/-- A program run: on a fresh manager an `SXObject` is constructed, (optionally
retained once and then) autoreleased twice into the initial pool. The result
carries the address of the object. -/
def doubleAutorelease (fuel : Nat) (extraRetain : Bool) : Outcome (State × Nat) :=
  (SXPoolManager.sharedPoolManager fuel SXPoolManager.initial).bind fun s1 =>
  let r := SXObject.new s1.heap
  (if extraRetain then SXObject.retain r.1 r.2 else .ok r.1).bind fun h2 =>
  (SXObject.autorelease fuel { s1 with heap := h2 } r.2).bind fun a1 =>
  (SXObject.autorelease fuel a1.1 r.2).bind fun a2 =>
  .ok (a2.1, r.2)

/-! ## Representation of a well-formed pool stack -/

/-- One pool of the stack: the address of the `SXAutoreleasePool`, the address
of its `m_pObjects`, the registration sequence and the unused slots behind it. -/
structure PoolRep where
  pool : Nat
  objects : Nat
  regs : List Nat
  junk : List Nat
  deriving DecidableEq, Repr

/-- The heap holds the pool `r`: both the pool and its array have count 1, and
the buffer of the array is `regs` followed by the unused slots. -/
def PoolRep.holds (h : Heap) (r : PoolRep) : Prop :=
  h.read r.pool = some ⟨1, .pool r.objects⟩ ∧
  h.read r.objects =
    some ⟨1, .array (r.regs.length + r.junk.length) r.regs.length (r.regs ++ r.junk)⟩

/-- Ownership of a list of registrations: every registered object is a live
plain `SXObject` whose count covers the number of its registrations. -/
def Owned (h : Heap) (regs : List Nat) : Prop :=
  ∀ o ∈ regs, ∃ c, h.read o = some ⟨c, .object⟩ ∧ regs.count o ≤ c ∧ c ≤ UINT_MAX

/-- The pools `st` are laid out in the heap, pairwise distinct, and own their
registrations. -/
def PoolsOk (h : Heap) (st : List PoolRep) : Prop :=
  (∀ r ∈ st, r.holds h) ∧ (st.map PoolRep.pool).Nodup ∧ (st.map PoolRep.objects).Nodup ∧
  Owned h (st.flatMap PoolRep.regs)

/-- The state holds an active manager whose stack is `st` (bottom first), with
unused slots `mjunk` behind the pools in `m_pPools`; the current pool is the
top of the stack (`nullptr` for the empty stack). -/
def Rep (s : State) (st : List PoolRep) (mjunk : List Nat) : Prop :=
  ∃ m, s.pInstance = some m ∧
    s.heap.read m.m_pPools =
      some ⟨1, .array (st.length + mjunk.length) st.length (st.map PoolRep.pool ++ mjunk)⟩ ∧
    m.m_pCurrentPool = (st.map PoolRep.pool).getLastD 0 ∧
    m.m_pPools ∉ st.map PoolRep.objects ∧
    s.heap.bounded ∧
    PoolsOk s.heap st

/-- The effect of `release()` on a live plain `SXObject`, as a function on
heaps (other pointers are left alone). -/
def releasePlain (h : Heap) (o : Nat) : Heap :=
  match h.read o with
  | some ⟨c, .object⟩ =>
    if c = 1 then (((h.write o ⟨0, .object⟩).log (.release o 1)).log (.destroy o)).free o
    else (h.write o ⟨c - 1, .object⟩).log (.release o c)
  | _ => h

/-- The events that `releasePlain` logs. -/
def stepEvents (h : Heap) (o : Nat) : List Event :=
  match h.read o with
  | some ⟨c, .object⟩ => if c = 1 then [.release o 1, .destroy o] else [.release o c]
  | _ => []

/-- The events logged when the plain objects `regs` are released in order. -/
def plainEvents : Heap → List Nat → List Event
  | _, [] => []
  | h, o :: rest => stepEvents h o ++ plainEvents (releasePlain h o) rest

/-- Two heaps of the same size hold the same objects outside the addresses
`xs`. -/
def SameReads (xs : List Nat) (h1 h2 : Heap) : Prop :=
  h1.cells.length = h2.cells.length ∧ ∀ q, q ∉ xs → h1.read q = h2.read q

/-- The plain objects `regs` released in order. -/
def drainPlain (h : Heap) (regs : List Nat) : Heap :=
  regs.foldl releasePlain h

/-- The states reached from a fresh manager (the result of the first
`sharedPoolManager()` on a state without manager) by `push()` and `pop()`. -/
inductive PushPopReachable : State → Prop where
  | fresh (fuel : Nat) (s0 s : State) : s0.pInstance = none → s0.heap.bounded →
      SXPoolManager.sharedPoolManager fuel s0 = .ok s → PushPopReachable s
  | push (fuel : Nat) (s s2 : State) : PushPopReachable s →
      SXPoolManager.push fuel s = .ok s2 → PushPopReachable s2
  | pop (fuel : Nat) (s s2 : State) : PushPopReachable s →
      SXPoolManager.pop fuel s = .ok s2 → PushPopReachable s2

/-- The calls are `push()` and `pop()` only, and starting at stack depth
`depth` no `pop()` is made at depth 1 or 0: each `pop()` removes a pool that a
`push()` has put above the bottom pool. -/
def keepsBottomPool : Nat → List Call → Bool
  | _, [] => true
  | depth, .push :: cs => keepsBottomPool (depth + 1) cs
  | depth, .pop :: cs => decide (1 < depth) && keepsBottomPool (depth - 1) cs
  | _, _ :: _ => false

/-- The stack depth after a sequence of `push()` and `pop()` calls that starts
at depth `depth`. -/
def depthAfter : Nat → List Call → Nat
  | depth, [] => depth
  | depth, .push :: cs => depthAfter (depth + 1) cs
  | depth, .pop :: cs => depthAfter (depth - 1) cs
  | depth, _ :: cs => depthAfter depth cs

/-- A state with two pools: the manager's initial pool (address 2, array 3) and
a pushed pool (address 5, array 6); the plain object at address 4 has count 2
and one registration in each pool. -/
def nestedPools : State :=
  ⟨⟨[some ⟨1, .array 11 2 [2, 5, 0, 0, 0, 0, 0, 0, 0, 0, 0]⟩,
      some ⟨1, .pool 3⟩,
      some ⟨1, .array 10 1 [4, 0, 0, 0, 0, 0, 0, 0, 0, 0]⟩,
      some ⟨2, .object⟩,
      some ⟨1, .pool 6⟩,
      some ⟨1, .array 10 1 [4, 0, 0, 0, 0, 0, 0, 0, 0, 0]⟩],
    [.release 2 2, .release 4 2, .release 5 2, .release 4 3]⟩,
    some ⟨1, 5⟩⟩

/-- The bottom pool of `nestedPools`. -/
def nestedPoolsBottom : PoolRep := ⟨2, 3, [4], [0, 0, 0, 0, 0, 0, 0, 0, 0]⟩

/-- The top pool of `nestedPools`. -/
def nestedPoolsTop : PoolRep := ⟨5, 6, [4], [0, 0, 0, 0, 0, 0, 0, 0, 0]⟩

/-- The events logged when one pool is destroyed: the pool and its array are
released at count 1 and destroyed, then the registrations are released. -/
def poolEvents (h : Heap) (r : PoolRep) : List Event :=
  [.release r.pool 1, .destroy r.pool, .release r.objects 1, .destroy r.objects] ++
    plainEvents h r.regs

/-- The events logged when the pools `st` are destroyed one after the other,
first pool of the list first. -/
def stackEvents : Heap → List PoolRep → List Event
  | _, [] => []
  | h, r :: rest => poolEvents h r ++ stackEvents (drainPlain h r.regs) rest

/-- The addresses of the pools `st` and of their arrays. -/
def poolCells (st : List PoolRep) : List Nat :=
  st.flatMap (fun r => [r.pool, r.objects])

/-- A state with two pools and two objects: the plain object at address 4 is
registered in the manager's initial pool (address 2, array 3), the plain object
at address 7 in the pushed pool (address 5, array 6). -/
def stackedPools : State :=
  ⟨⟨[some ⟨1, .array 11 2 [2, 5, 0, 0, 0, 0, 0, 0, 0, 0, 0]⟩,
      some ⟨1, .pool 3⟩,
      some ⟨1, .array 10 1 [4, 0, 0, 0, 0, 0, 0, 0, 0, 0]⟩,
      some ⟨1, .object⟩,
      some ⟨1, .pool 6⟩,
      some ⟨1, .array 10 1 [7, 0, 0, 0, 0, 0, 0, 0, 0, 0]⟩,
      some ⟨1, .object⟩],
    [.release 2 2, .release 4 2, .release 5 2, .release 7 2]⟩,
    some ⟨1, 5⟩⟩

/-- The bottom pool of `stackedPools`. -/
def stackedPoolsBottom : PoolRep := ⟨2, 3, [4], [0, 0, 0, 0, 0, 0, 0, 0, 0]⟩

/-- The top pool of `stackedPools`. -/
def stackedPoolsTop : PoolRep := ⟨5, 6, [7], [0, 0, 0, 0, 0, 0, 0, 0, 0]⟩

/-- A state whose initial pool (address 2, array 3) holds the registrations
`[4, 5, 4]`: the plain object at address 4 has count 2, the one at address 5
count 1. -/
def duplicateRegistrations : State :=
  ⟨⟨[some ⟨1, .array 1 1 [2]⟩,
      some ⟨1, .pool 3⟩,
      some ⟨1, .array 10 3 [4, 5, 4, 0, 0, 0, 0, 0, 0, 0]⟩,
      some ⟨2, .object⟩,
      some ⟨1, .object⟩],
    [.release 2 2, .release 4 2, .release 5 2, .release 4 3]⟩,
    some ⟨1, 2⟩⟩

/-- The heaps `h1` and `h2` hold objects with the same fields (reference counts
aside) at every address outside `xs`. -/
def SameBodies (xs : List Nat) (h1 h2 : Heap) : Prop :=
  ∀ q, q ∉ xs → (h1.read q).map Cell.body = (h2.read q).map Cell.body

/-- The array `m_pObjects` of the pool at `p` (null when `p` is not a live
pool). -/
def Heap.poolArray (h : Heap) (p : Nat) : Nat :=
  match h.read p with
  | some ⟨_, .pool pObjects⟩ => pObjects
  | _ => 0

/-- The objects of the manager: the pools array, the pools of the stack and
their arrays. They are private members without accessor (`m_pPools`,
`m_pCurrentPool`, `m_pObjects`), so client code holds no pointer to them. -/
def State.internals (s : State) : List Nat :=
  match s.pInstance with
  | some m => m.m_pPools :: (s.pools ++ s.pools.map s.heap.poolArray)
  | none => []

/-- The calls of client code on its objects (of any class) and on the pool
stack that the ownership discipline admits in the state `s`: `release()` and
`autorelease()` only on an object whose count exceeds the number of its
registrations (the caller owns a reference), `pop()` only at depth above 1.
With `noOverflow`, `retain()` is admitted only below the largest count. -/
def OwnedCall (noOverflow : Bool) (s : State) : Call → Prop
  | .construct => True
  | .retain o => o ∉ s.internals ∧
      ∃ c body, s.heap.read o = some ⟨c, body⟩ ∧ (noOverflow = true → c < UINT_MAX)
  | .release o => o ∉ s.internals ∧
      ∃ c body, s.heap.read o = some ⟨c, body⟩ ∧ s.registrations.count o < c
  | .autorelease o => o ∉ s.internals ∧
      ∃ c body, s.heap.read o = some ⟨c, body⟩ ∧ s.registrations.count o < c
  | .push => True
  | .pop => 1 < s.pools.length
  | .addObject _ => False
  | .removeObject _ => False
  | .sharedPoolManager => False
  | .purgePoolManager => False

/-- The pool ownership invariant: the count of every live object covers the
registrations of it held by the pools of the stack, and every registered
object is alive. -/
def PoolOwnership (s : State) : Prop :=
  (∀ o c, s.heap.retainCount o = some c → s.registrations.count o ≤ c) ∧
  (∀ o ∈ s.registrations, s.heap.alive o = true)

/-- The fresh manager with the plain object at address 4 (count 1) registered
in the initial pool. -/
def registeredObject : State :=
  ⟨⟨[some ⟨1, .array 1 1 [2]⟩, some ⟨1, .pool 3⟩,
      some ⟨1, .array 10 1 [4, 0, 0, 0, 0, 0, 0, 0, 0, 0]⟩, some ⟨1, .object⟩],
    [.release 2 2, .release 4 2]⟩, some ⟨1, 2⟩⟩

/-! ## SXArray: insertion and bulk operations -/

namespace SXArray

/-- The method `SXArray::containsObject`. -/
def containsObject (h : Heap) (this : Nat) (pObject : Nat) : Outcome Bool :=
  (indexOfObject h this pObject).bind fun i => .ok i.isSome

/-- The loop of `SXArray::insertObject` that makes room:
`m_pArray[i] = m_pArray[i - 1]` for `i = m_count` down to `index + 1`. -/
def shiftRight (m_count : Nat) (index : Nat) (m_pArray : List Nat) : List Nat :=
  (List.range (m_count - index)).foldl
    (fun arr k => arr.set (m_count - k) (arr.getD (m_count - k - 1) 0)) m_pArray

/-- The method `SXArray::insertObject`. As in `addObject`, the new capacity of
a full array is the sum `m_capacity + 10` in the natural numbers, the
`unsigned int` sum of the program as long as it does not exceed `UINT_MAX`. -/
def insertObject (h : Heap) (this : Nat) (pObject : Nat) (index : Nat) : Outcome Heap :=
  match h.read this with
  | some ⟨_, .array cap count _⟩ =>
    if index > count then .ok h
    else
      (if count = cap then resizeArray h this (cap + SX_ARRAY_DEFAULT_CAPACITY_INCREMENT)
       else .ok h).bind fun h1 =>
      match h1.read this with
      | some ⟨rc1, .array cap1 count1 arr1⟩ =>
        (SXObject.retain
          (h1.write this ⟨rc1, .array cap1 count1 (shiftRight count1 index arr1)⟩) pObject).bind
        fun h2 =>
          -- m_pArray[index] = pObject; m_count++
          match h2.read this with
          | some ⟨rc2, .array cap2 count2 arr2⟩ =>
            .ok (h2.write this ⟨rc2, .array cap2 (count2 + 1) (arr2.set index pObject)⟩)
          | _ => .undefined
      | _ => .undefined
  | _ => .undefined

/-- The loop `for (i = 0; i < pOtherArray->count(); i++) addObject((*pOtherArray)[i])`
of `addObjectsFromArray` and of `initWithArray`, entered at index `i`. -/
def addObjectsFromArrayFrom : Nat → Heap → Nat → Nat → Nat → Outcome Heap
  | 0, _, _, _, _ => .outOfFuel
  | fuel + 1, h, this, pOtherArray, i =>
    match h.read pOtherArray with
    | some ⟨_, .array _ count arr⟩ =>
      if i < count then
        (addObject h this (arr.getD i 0)).bind fun h1 =>
          addObjectsFromArrayFrom fuel h1 this pOtherArray (i + 1)
      else .ok h
    | _ => .undefined

/-- The method `SXArray::initWithArray`; its last statement is `return false`. -/
def initWithArray (fuel : Nat) (h : Heap) (this : Nat) (pOtherArray : Nat) :
    Outcome (Heap × Bool) :=
  match h.read pOtherArray with
  | some ⟨_, .array _ count _⟩ =>
    (initWithCapacity h this count).bind fun r =>
      (if r.2 then addObjectsFromArrayFrom fuel r.1 this pOtherArray 0 else .ok r.1).bind
        fun h2 => .ok (h2, false)
  | _ => .undefined

/-- The loop `for (i = 0; i < pOtherArray->count(); i++) removeObject((*pOtherArray)[i])`
of `removeObjectsInArray`, entered at index `i`. -/
def removeObjectsInArrayFrom : Nat → Heap → Nat → Nat → Nat → Outcome Heap
  | 0, _, _, _, _ => .outOfFuel
  | fuel + 1, h, this, pOtherArray, i =>
    match h.read pOtherArray with
    | some ⟨_, .array _ count arr⟩ =>
      if i < count then
        (removeObject fuel h this (arr.getD i 0)).bind fun h1 =>
          removeObjectsInArrayFrom fuel h1 this pOtherArray (i + 1)
      else .ok h
    | _ => .undefined

/-- The method `SXArray::removeObjectsInArray`. -/
def removeObjectsInArray (fuel : Nat) (h : Heap) (this : Nat) (pOtherArray : Nat) :
    Outcome Heap :=
  removeObjectsInArrayFrom fuel h this pOtherArray 0

end SXArray

/-- Two arrays and one plain object (address 3, count 4): the array at address
1 holds it twice, the array at address 2 once. -/
def twoArrays : Heap :=
  ⟨[some ⟨1, .array 10 2 [3, 3, 0, 0, 0, 0, 0, 0, 0, 0]⟩,
    some ⟨1, .array 10 1 [3, 0, 0, 0, 0, 0, 0, 0, 0, 0]⟩,
    some ⟨4, .object⟩], []⟩

/-! ## SXString: conversions

`SXString` keeps its text in `m_string`; the conversions below read only that
member. The library functions `std::stoi` and `std::stoul` are not part of the
repository; they are modelled after the C++ standard, which defines them
through `strtol` and `strtoul` with base 10: leading white space is skipped, an
optional sign is read, then the longest run of decimal digits; without a digit
`std::invalid_argument` is thrown, and `std::out_of_range` when the value does
not fit the result type. -/

namespace SXString

/-- The exceptions that `std::stoi` and `std::stoul` throw. -/
inductive Exception where
  | invalid_argument
  | out_of_range
  deriving DecidableEq, Repr

/-- The value of `INT_MAX` (32-bit `int`). -/
def INT_MAX : Int := 2147483647

/-- The value of `INT_MIN`. -/
def INT_MIN : Int := -2147483648

/-- The value of `ULONG_MAX` (64-bit `unsigned long`). -/
def ULONG_MAX : Nat := 18446744073709551615

/-- The function `isspace` in the "C" locale. -/
def isspace (c : Char) : Bool :=
  c = ' ' || c.toNat = 9 || c.toNat = 10 || c.toNat = 11 || c.toNat = 12 || c.toNat = 13

/-- The character is a decimal digit. -/
def isdigit (c : Char) : Bool := 48 ≤ c.toNat && c.toNat ≤ 57

/-- The number that a run of decimal digits denotes. -/
def digitsValue (ds : List Char) : Nat :=
  ds.foldl (fun n c => 10 * n + (c.toNat - 48)) 0

/-- An optional sign in front of the digits: whether it is a minus sign, and
the rest of the text. -/
def readSign : List Char → Bool × List Char
  | '-' :: cs => (true, cs)
  | '+' :: cs => (false, cs)
  | cs => (false, cs)

/-- The subject sequence of `strtol` / `strtoul` with base 10: the sign and the
magnitude, or `none` when no digit follows the white space and the sign. -/
def parseDecimal (s : List Char) : Option (Bool × Nat) :=
  let r := readSign (s.dropWhile isspace)
  let ds := r.2.takeWhile isdigit
  if ds = [] then none else some (r.1, digitsValue ds)

/-- The function `std::stoi`. -/
def stoi (s : List Char) : Except Exception Int :=
  match parseDecimal s with
  | none => .error .invalid_argument
  | some (neg, n) =>
    let v : Int := if neg then -(n : Int) else (n : Int)
    if INT_MIN ≤ v ∧ v ≤ INT_MAX then .ok v else .error .out_of_range

/-- The function `std::stoul`: a minus sign negates the value in the unsigned
type. -/
def stoul (s : List Char) : Except Exception Nat :=
  match parseDecimal s with
  | none => .error .invalid_argument
  | some (neg, n) =>
    if n ≤ ULONG_MAX then .ok (if neg then (ULONG_MAX + 1 - n) % (ULONG_MAX + 1) else n)
    else .error .out_of_range

/-- The method `SXString::intValue`. -/
def intValue (m_string : List Char) : Except Exception Int :=
  if m_string.isEmpty then .ok 0 else stoi m_string

/-- The method `SXString::ulValue`. -/
def ulValue (m_string : List Char) : Except Exception Nat :=
  if m_string.isEmpty then .ok 0 else stoul m_string

/-- The method `SXString::boolValue`: `(intValue() != 0) || (m_string == "true")`,
the left operand first. -/
def boolValue (m_string : List Char) : Except Exception Bool :=
  if m_string.isEmpty then .ok false
  else
    match intValue m_string with
    | .error e => .error e
    | .ok v => .ok (v != 0 || m_string == "true".toList)

end SXString

/-! ## Value classes: SXString, SXNumber, SXData, SXDictionary, SXSet -/

/-- The characters of the C string that starts with `s`: those before the first
NUL. Constructing a `std::string` from a `const char*`, and comparing one with
a `const char*`, read exactly these. -/
def cstr (s : List Char) : List Char := s.takeWhile (fun c => c ≠ Char.ofNat 0)

namespace SXString

/-- The statement `new SXString(pString)`. -/
def new (h : Heap) (pString : List Char) : Heap × Nat :=
  h.alloc ⟨1, .string (cstr pString)⟩

/-- The method `SXString::getCString`. -/
def getCString (h : Heap) (this : Nat) : Outcome (List Char) :=
  match h.read this with
  | some ⟨_, .string m_string⟩ => .ok (cstr m_string)
  | _ => .undefined

/-- The factory `SXString::create`; the result carries the returned pointer. -/
def create (fuel : Nat) (s : State) (pString : List Char) : Outcome (State × Nat) :=
  let r := new s.heap pString
  if r.2 ≠ 0 then
    (SXObject.autorelease fuel ⟨r.1, s.pInstance⟩ r.2).bind fun a => .ok (a.1, r.2)
  else .ok (⟨r.1, s.pInstance⟩, r.2)

end SXString

namespace SXNumber

/-- The statement `new SXNumber<T>(value)`; `value` is the mathematical value of
the argument of type `T`. -/
def new (h : Heap) (type : NumberType) (value : Int) : Heap × Nat :=
  h.alloc ⟨1, .number type value⟩

/-- The method `SXNumber<T>::getValue`. -/
def getValue (h : Heap) (this : Nat) : Outcome Int :=
  match h.read this with
  | some ⟨_, .number _ m_value⟩ => .ok m_value
  | _ => .undefined

/-- The factory `SXNumber<T>::create`; the result carries the returned
pointer. -/
def create (fuel : Nat) (s : State) (type : NumberType) (value : Int) : Outcome (State × Nat) :=
  let r := new s.heap type value
  if r.2 ≠ 0 then
    (SXObject.autorelease fuel ⟨r.1, s.pInstance⟩ r.2).bind fun a => .ok (a.1, r.2)
  else .ok (⟨r.1, s.pInstance⟩, r.2)

end SXNumber

namespace SXData

/-- The statement `new SXData()`: an empty byte vector. -/
def new (h : Heap) : Heap × Nat :=
  h.alloc ⟨1, .data []⟩

/-- The method `SXData::initWithData`. -/
def initWithData (h : Heap) (this : Nat) (rData : List Nat) : Outcome (Heap × Bool) :=
  match h.read this with
  | some ⟨rc, .data _⟩ => .ok (h.write this ⟨rc, .data rData⟩, true)
  | _ => .undefined

/-- The method `SXData::length`. -/
def length (h : Heap) (this : Nat) : Outcome Nat :=
  match h.read this with
  | some ⟨_, .data m_pBytes⟩ => .ok m_pBytes.length
  | _ => .undefined

/-- The factory `SXData::create`; the result carries the returned pointer. -/
def create (fuel : Nat) (s : State) : Outcome (State × Nat) :=
  let r := new s.heap
  if r.2 ≠ 0 then
    (SXObject.autorelease fuel ⟨r.1, s.pInstance⟩ r.2).bind fun a => .ok (a.1, r.2)
  else .ok (⟨r.1, s.pInstance⟩, r.2)

end SXData

namespace SXDictionary

/-- The statement `new SXDictionary()`: an empty map. -/
def new (h : Heap) : Heap × Nat :=
  h.alloc ⟨1, .dictionary []⟩

/-- The operator `std::unordered_map::operator[]`: the value stored under
`rKey`; an absent key is first inserted with a null value. -/
def subscript (m_pMap : List (List Char × Nat)) (rKey : List Char) :
    List (List Char × Nat) × Nat :=
  match m_pMap.lookup rKey with
  | some v => (m_pMap, v)
  | none => (m_pMap ++ [(rKey, 0)], 0)

/-- The assignment `(*m_pMap)[rKey] = pObject`. -/
def assign (m_pMap : List (List Char × Nat)) (rKey : List Char) (pObject : Nat) :
    List (List Char × Nat) :=
  (subscript m_pMap rKey).1.map fun e => if e.1 = rKey then (e.1, pObject) else e

/-- The call `m_pMap->erase(rKey)`. -/
def erase (m_pMap : List (List Char × Nat)) (rKey : List Char) : List (List Char × Nat) :=
  m_pMap.filter fun e => e.1 ≠ rKey

/-- The factory `SXDictionary::create`; the result carries the returned
pointer. -/
def create (fuel : Nat) (s : State) : Outcome (State × Nat) :=
  let r := new s.heap
  if r.2 ≠ 0 then
    (SXObject.autorelease fuel ⟨r.1, s.pInstance⟩ r.2).bind fun a => .ok (a.1, r.2)
  else .ok (⟨r.1, s.pInstance⟩, r.2)

/-- The method `SXDictionary::count`. -/
def count (h : Heap) (this : Nat) : Outcome Nat :=
  match h.read this with
  | some ⟨_, .dictionary m_pMap⟩ => .ok m_pMap.length
  | _ => .undefined

/-- The method `SXDictionary::objectForKey`: `return (*m_pMap)[rKey]`; the
result carries the returned pointer. -/
def objectForKey (h : Heap) (this : Nat) (rKey : List Char) : Outcome (Heap × Nat) :=
  match h.read this with
  | some ⟨rc, .dictionary m_pMap⟩ =>
    .ok (h.write this ⟨rc, .dictionary (subscript m_pMap rKey).1⟩, (subscript m_pMap rKey).2)
  | _ => .undefined

/-- The method `SXDictionary::removeObjectForKey`. -/
def removeObjectForKey (fuel : Nat) (h : Heap) (this : Nat) (rKey : List Char) : Outcome Heap :=
  (objectForKey h this rKey).bind fun r =>
    if r.2 ≠ 0 then
      (SXObject.release fuel r.1 r.2).bind fun h2 =>
        match h2.read this with
        | some ⟨rc, .dictionary m_pMap⟩ => .ok (h2.write this ⟨rc, .dictionary (erase m_pMap rKey)⟩)
        | _ => .undefined
    else .ok r.1

/-- The method `SXDictionary::setObject`. -/
def setObject (fuel : Nat) (h : Heap) (this : Nat) (pObject : Nat) (rKey : List Char) :
    Outcome Heap :=
  (removeObjectForKey fuel h this rKey).bind fun h1 =>
  (SXObject.retain h1 pObject).bind fun h2 =>
    match h2.read this with
    | some ⟨rc, .dictionary m_pMap⟩ => .ok (h2.write this ⟨rc, .dictionary (assign m_pMap rKey pObject)⟩)
    | _ => .undefined

end SXDictionary

namespace SXSet

/-- The statement `new SXSet()`: an empty set. -/
def new (h : Heap) : Heap × Nat :=
  h.alloc ⟨1, .set []⟩

/-- The factory `SXSet::create`; the result carries the returned pointer. -/
def create (fuel : Nat) (s : State) : Outcome (State × Nat) :=
  let r := new s.heap
  if r.2 ≠ 0 then
    (SXObject.autorelease fuel ⟨r.1, s.pInstance⟩ r.2).bind fun a => .ok (a.1, r.2)
  else .ok (⟨r.1, s.pInstance⟩, r.2)

/-- The method `SXSet::count`. -/
def count (h : Heap) (this : Nat) : Outcome Nat :=
  match h.read this with
  | some ⟨_, .set m_pSet⟩ => .ok m_pSet.length
  | _ => .undefined

/-- The method `SXSet::containsObject`. -/
def containsObject (h : Heap) (this : Nat) (pObject : Nat) : Outcome Bool :=
  match h.read this with
  | some ⟨_, .set m_pSet⟩ => .ok (decide (pObject ∈ m_pSet))
  | _ => .undefined

/-- The method `SXSet::addObject`. -/
def addObject (h : Heap) (this : Nat) (pObject : Nat) : Outcome Heap :=
  (containsObject h this pObject).bind fun b =>
    if b then .ok h
    else
      (SXObject.retain h pObject).bind fun h1 =>
        match h1.read this with
        | some ⟨rc, .set m_pSet⟩ => .ok (h1.write this ⟨rc, .set (m_pSet ++ [pObject])⟩)
        | _ => .undefined

end SXSet

/-! ## The virtual methods `isEqual` and `copy` -/

namespace SXObject

mutual

/-- The virtual method `isEqual`, dispatched on the class of `this`:
`SXString`, `SXNumber<T>` and `SXArray` override it, every other class inherits
`SXObject::isEqual`, which is `this == pObject`. A `dynamic_cast` of a null
pointer yields null. -/
def isEqual : Nat → Heap → Nat → Nat → Outcome Bool
  | 0, _, _, _ => .outOfFuel
  | fuel + 1, h, this, pObject =>
    match h.read this with
    | none => .undefined
    | some ⟨_, .string m_string⟩ =>
      if pObject = 0 then .ok false
      else
        match h.read pObject with
        | none => .undefined
        | some ⟨_, .string other⟩ => .ok (decide (m_string = cstr other))
        | some _ => .ok false
    | some ⟨_, .number type m_value⟩ =>
      if pObject = 0 then .ok false
      else
        match h.read pObject with
        | none => .undefined
        | some ⟨_, .number type2 value2⟩ => .ok (decide (type2 = type ∧ value2 = m_value))
        | some _ => .ok false
    | some ⟨_, .array _ m_count _⟩ =>
      if pObject = 0 then .ok false
      else
        match h.read pObject with
        | none => .undefined
        | some ⟨_, .array _ count2 _⟩ =>
          if count2 ≠ m_count then .ok false
          else isEqualFrom fuel h this pObject 0
        | some _ => .ok false
    | some _ => .ok (decide (this = pObject))
termination_by structural fuel => fuel

/-- The loop of `SXArray::isEqual` from index `i` on. -/
def isEqualFrom : Nat → Heap → Nat → Nat → Nat → Outcome Bool
  | 0, _, _, _, _ => .outOfFuel
  | fuel + 1, h, this, pOtherArray, i =>
    match SXArray.count h this with
    | .ok m_count =>
      if i < m_count then
        match SXArray.objectAtIndex h this i, SXArray.objectAtIndex h pOtherArray i with
        | .ok x, .ok y =>
          match isEqual fuel h x y with
          | .ok true => isEqualFrom fuel h this pOtherArray (i + 1)
          | .ok false => .ok false
          | .undefined => .undefined
          | .outOfFuel => .outOfFuel
        | .outOfFuel, _ => .outOfFuel
        | _, .outOfFuel => .outOfFuel
        | _, _ => .undefined
      else .ok true
    | .undefined => .undefined
    | .outOfFuel => .outOfFuel
termination_by structural fuel => fuel

end

mutual

/-- The virtual method `copy`, dispatched on the class of `this`; the result
carries the returned pointer. `SXObject::copy`, which `SXAutoreleasePool`
inherits, returns `nullptr`. -/
def copy : Nat → Heap → Nat → Outcome (Heap × Nat)
  | 0, _, _ => .outOfFuel
  | fuel + 1, h, this =>
    match h.read this with
    | none => .undefined
    | some ⟨_, .object⟩ => .ok (h, 0)
    | some ⟨_, .pool _⟩ => .ok (h, 0)
    | some ⟨_, .string m_string⟩ =>
      -- new SXString(m_string.c_str())
      .ok (SXString.new h m_string)
    | some ⟨_, .number type m_value⟩ => .ok (SXNumber.new h type m_value)
    | some ⟨_, .data m_pBytes⟩ =>
      match SXData.initWithData (SXData.new h).1 (SXData.new h).2 m_pBytes with
      | .ok (h1, true) => .ok (h1, (SXData.new h).2)
      | .ok (h1, false) =>
        match delete fuel h1 (SXData.new h).2 with
        | .ok h2 => .ok (h2, 0)
        | .undefined => .undefined
        | .outOfFuel => .outOfFuel
      | .undefined => .undefined
      | .outOfFuel => .outOfFuel
    | some ⟨_, .array m_capacity _ _⟩ =>
      match SXArray.initWithCapacity (SXArray.new h).1 (SXArray.new h).2 m_capacity with
      | .ok (h1, true) =>
        match copyFrom fuel h1 this (SXArray.new h).2 0 with
        | .ok h2 => .ok (h2, (SXArray.new h).2)
        | .undefined => .undefined
        | .outOfFuel => .outOfFuel
      | .ok (h1, false) =>
        match delete fuel h1 (SXArray.new h).2 with
        | .ok h2 => .ok (h2, 0)
        | .undefined => .undefined
        | .outOfFuel => .outOfFuel
      | .undefined => .undefined
      | .outOfFuel => .outOfFuel
    | some ⟨_, .dictionary m_pMap⟩ =>
      match copyEntries fuel (SXDictionary.new h).1 (SXDictionary.new h).2 m_pMap with
      | .ok h2 => .ok (h2, (SXDictionary.new h).2)
      | .undefined => .undefined
      | .outOfFuel => .outOfFuel
    | some ⟨_, .set m_pSet⟩ =>
      match copyMembers fuel (SXSet.new h).1 (SXSet.new h).2 m_pSet with
      | .ok h2 => .ok (h2, (SXSet.new h).2)
      | .undefined => .undefined
      | .outOfFuel => .outOfFuel
termination_by structural fuel => fuel

/-- The loop of `SXArray::copy` from index `i` on: copy the element, add the
copy to `pArray`, release the copy. -/
def copyFrom : Nat → Heap → Nat → Nat → Nat → Outcome Heap
  | 0, _, _, _, _ => .outOfFuel
  | fuel + 1, h, this, pArray, i =>
    match SXArray.count h this with
    | .ok m_count =>
      if i < m_count then
        match SXArray.objectAtIndex h this i with
        | .ok x =>
          match copy fuel h x with
          | .ok (h1, pTmpObject) =>
            match SXArray.addObject h1 pArray pTmpObject with
            | .ok h2 =>
              match release fuel h2 pTmpObject with
              | .ok h3 => copyFrom fuel h3 this pArray (i + 1)
              | .undefined => .undefined
              | .outOfFuel => .outOfFuel
            | .undefined => .undefined
            | .outOfFuel => .outOfFuel
          | .undefined => .undefined
          | .outOfFuel => .outOfFuel
        | .undefined => .undefined
        | .outOfFuel => .outOfFuel
      else .ok h
    | .undefined => .undefined
    | .outOfFuel => .outOfFuel
termination_by structural fuel => fuel

/-- The loop of `SXDictionary::copy` over the entries that are still to be
visited: copy the value, store the copy under the key, release the copy. -/
def copyEntries : Nat → Heap → Nat → List (List Char × Nat) → Outcome Heap
  | 0, _, _, _ => .outOfFuel
  | _ + 1, h, _, [] => .ok h
  | fuel + 1, h, pDictionary, (key, value) :: rest =>
    match copy fuel h value with
    | .ok (h1, pTmpObject) =>
      match SXDictionary.setObject fuel h1 pDictionary pTmpObject key with
      | .ok h2 =>
        match release fuel h2 pTmpObject with
        | .ok h3 => copyEntries fuel h3 pDictionary rest
        | .undefined => .undefined
        | .outOfFuel => .outOfFuel
      | .undefined => .undefined
      | .outOfFuel => .outOfFuel
    | .undefined => .undefined
    | .outOfFuel => .outOfFuel
termination_by structural fuel => fuel

/-- The loop of `SXSet::copy` over the members that are still to be visited:
copy the member, add the copy, release the copy. -/
def copyMembers : Nat → Heap → Nat → List Nat → Outcome Heap
  | 0, _, _, _ => .outOfFuel
  | _ + 1, h, _, [] => .ok h
  | fuel + 1, h, pSet, pObj :: rest =>
    match copy fuel h pObj with
    | .ok (h1, pTmpObject) =>
      match SXSet.addObject h1 pSet pTmpObject with
      | .ok h2 =>
        match release fuel h2 pTmpObject with
        | .ok h3 => copyMembers fuel h3 pSet rest
        | .undefined => .undefined
        | .outOfFuel => .outOfFuel
      | .undefined => .undefined
      | .outOfFuel => .outOfFuel
    | .undefined => .undefined
    | .outOfFuel => .outOfFuel
termination_by structural fuel => fuel

end

end SXObject
/-! ## Vocabulary for `copy` and `isEqual` -/

/-- The objects a container holds a reference to: the elements of an array, the
values of a dictionary, the members of a set. -/
def Body.children : Body → List Nat
  | .array _ m_count m_pArray => m_pArray.take m_count
  | .dictionary m_pMap => m_pMap.map Prod.snd
  | .set m_pSet => m_pSet
  | _ => []

/-- The class of the object overrides `isEqual`: `SXString`, `SXNumber<T>` and
`SXArray` do. -/
def Body.overridesIsEqual : Body → Bool
  | .string _ => true
  | .number _ _ => true
  | .array _ _ _ => true
  | _ => false

/-- The class of the object overrides `copy`, and the container is well formed:
the buffer of an array has `m_capacity` slots of which `m_count` are in use,
the keys of a dictionary are pairwise distinct. With `strict` only the classes
that also override `isEqual` are admitted. -/
def Body.copyable (strict : Bool) : Body → Prop
  | .string _ => True
  | .number _ _ => True
  | .array m_capacity m_count m_pArray => m_pArray.length = m_capacity ∧ m_count ≤ m_capacity
  | .data _ => strict = false
  | .dictionary m_pMap => strict = false ∧ (m_pMap.map Prod.fst).Nodup
  | .set _ => strict = false
  | .object => False
  | .pool _ => False

/-- A copyable value: a live object of a copyable class whose children are
copyable values. With `strict` these are the strings, the integer numbers and
the arrays of such values. -/
inductive Copyable (strict : Bool) (h : Heap) : Nat → Prop where
  | node (v rc : Nat) (body : Body) :
    h.read v = some ⟨rc, body⟩ → body.copyable strict →
    (∀ x, x ∈ body.children → Copyable strict h x) → Copyable strict h v

/-- The part of an object that `copy` carries over by value: `cb` is what the
copy of an object with body `vb` holds, the pointers to children left aside. -/
def Body.copyOf (vb cb : Body) : Prop :=
  match vb, cb with
  | .string s, .string t => t = cstr s
  | .number type value, .number type2 value2 => type2 = type ∧ value2 = value
  | .data bytes, .data bytes2 => bytes2 = bytes
  | .array _ n _, .array _ n2 _ => n2 = n
  | .dictionary m, .dictionary m2 => m2.map Prod.fst = m.map Prod.fst
  | .set _, .set _ => True
  | _, _ => False

/-- The heap `h` extends `h0`: every address of `h0` holds in `h` what it holds
in `h0`. -/
def Heap.Extends (h0 h : Heap) : Prop :=
  h0.cells.length ≤ h.cells.length ∧ ∀ q, q ≤ h0.cells.length → h.read q = h0.read q

/-- The object `c` is a deep copy of `v`: `v` and everything below it lies at
addresses up to `vhi`, `c` and everything below it at addresses above `clo`;
`c` has count 1 and carries the contents of `v`, and its children are pairwise
distinct deep copies of the children of `v`, in the same order. -/
inductive Copied (strict : Bool) (h : Heap) (vhi clo : Nat) : Nat → Nat → Prop where
  | node (c v rc : Nat) (vb cb : Body) :
    v ≤ vhi → clo < c → h.read v = some ⟨rc, vb⟩ → h.read c = some ⟨1, cb⟩ →
    vb.copyable strict → vb.copyOf cb →
    cb.children.length = vb.children.length → cb.children.Nodup →
    (∀ i, i < vb.children.length →
      Copied strict h vhi clo (cb.children.getD i 0) (vb.children.getD i 0)) →
    Copied strict h vhi clo c v

/-- The `create` factories of the classes. -/
inductive Factory where
  /-- `SXString::create(pString)` -/
  | string (pString : List Char)
  /-- `SXNumber<T>::create(value)` -/
  | number (type : NumberType) (value : Int)
  /-- `SXArray::create()` -/
  | array
  /-- `SXArray::createWithCapacity(capacity)` -/
  | arrayWithCapacity (capacity : Nat)
  /-- `SXDictionary::create()` -/
  | dictionary
  /-- `SXSet::create()` -/
  | set
  /-- `SXData::create()` -/
  | data
  deriving DecidableEq, Repr

/-- Run a factory; the result carries the returned pointer. -/
def Factory.create (fuel : Nat) (s : State) : Factory → Outcome (State × Nat)
  | .string pString => SXString.create fuel s pString
  | .number type value => SXNumber.create fuel s type value
  | .array => SXArray.create fuel s
  | .arrayWithCapacity capacity => SXArray.createWithCapacity fuel s capacity
  | .dictionary => SXDictionary.create fuel s
  | .set => SXSet.create fuel s
  | .data => SXData.create fuel s

/-- The contents of a newly created object. -/
def Factory.body : Factory → Body
  | .string pString => .string (cstr pString)
  | .number type value => .number type value
  | .array => .array SX_ARRAY_DEFAULT_CAPACITY_INCREMENT 0
      (List.replicate SX_ARRAY_DEFAULT_CAPACITY_INCREMENT 0)
  | .arrayWithCapacity capacity => .array capacity 0 (List.replicate capacity 0)
  | .dictionary => .dictionary []
  | .set => .set []
  | .data => .data []

/-- A heap of values: the array at address 1 holds the string "ab" (address 2),
the `int` number 5 (address 3) and the array at address 4, which holds the
string again; address 5 is a plain object, address 6 an array holding it;
address 7 is a dictionary, address 8 a set and address 9 a data object. -/
def valuesHeap : Heap :=
  ⟨[some ⟨1, .array 10 3 [2, 3, 4, 0, 0, 0, 0, 0, 0, 0]⟩, some ⟨1, .string ['a', 'b']⟩,
    some ⟨2, .number .int 5⟩, some ⟨1, .array 10 1 [2, 0, 0, 0, 0, 0, 0, 0, 0, 0]⟩,
    some ⟨1, .object⟩, some ⟨1, .array 10 1 [5, 0, 0, 0, 0, 0, 0, 0, 0, 0]⟩,
    some ⟨1, .dictionary [(['k'], 2), (['l'], 3)]⟩, some ⟨1, .set [2, 3]⟩,
    some ⟨1, .data [1, 2]⟩], []⟩

/-- The lists `cs` and `vs` are matched element by element: `cs` holds pairwise
distinct deep copies of the objects of `vs`, in the same order. -/
def CopiedAll (strict : Bool) (h : Heap) (vhi clo : Nat) (cs vs : List Nat) : Prop :=
  cs.length = vs.length ∧ cs.Nodup ∧ (∀ c ∈ cs, c ≤ h.cells.length) ∧
  ∀ j, j < vs.length → Copied strict h vhi clo (cs.getD j 0) (vs.getD j 0)

/-- With `fuel`, in every heap that extends `h0`, `copy()` on `x` returns a new
object, at the next free address, that is a deep copy of `x`, and leaves the
objects that exist alone. -/
def CopiesWith (strict : Bool) (h0 : Heap) (x : Nat) (fuel : Nat) : Prop :=
  ∀ h, h0.Extends h →
    ∃ h2, SXObject.copy fuel h x = .ok (h2, h.cells.length + 1) ∧ h.Extends h2 ∧
      Copied strict h2 h0.cells.length h.cells.length (h.cells.length + 1) x

/-- A dictionary (address 1) with the entries "k" -> object 2 and "m" -> object
3; the dictionary holds the only reference to object 2 (count 1), object 3 has
a second owner (count 2), and object 4 (count 1) is not stored. -/
def dictionaryHeap : Heap :=
  ⟨[some ⟨1, .dictionary [(['k'], 2), (['m'], 3)]⟩, some ⟨1, .object⟩, some ⟨2, .object⟩,
    some ⟨1, .object⟩], []⟩

/-- The method `SXSet::removeObject`. -/
def SXSet.removeObject (fuel : Nat) (h : Heap) (this : Nat) (pObject : Nat) : Outcome Heap :=
  (SXSet.containsObject h this pObject).bind fun b =>
    if b then
      (SXObject.release fuel h pObject).bind fun h1 =>
        match h1.read this with
        | some ⟨rc, .set m_pSet⟩ => .ok (h1.write this ⟨rc, .set (m_pSet.erase pObject)⟩)
        | _ => .undefined
    else .ok h

/-- Calling `addObject(pObject)` on the set `n` times in a row. -/
def SXSet.addObjectTimes : Nat → Heap → Nat → Nat → Outcome Heap
  | 0, h, _, _ => .ok h
  | n + 1, h, this, pObject =>
    (SXSet.addObject h this pObject).bind fun h1 => SXSet.addObjectTimes n h1 this pObject

/-- A set (address 1) that holds object 2 (count 2); object 3 (count 1) is not
a member. -/
def setHeap : Heap :=
  ⟨[some ⟨1, .set [2]⟩, some ⟨2, .object⟩, some ⟨1, .object⟩], []⟩

/-- The method `SXArray::removeObjectAtIndex`. -/
def SXArray.removeObjectAtIndex (fuel : Nat) (h : Heap) (this : Nat) (index : Nat) :
    Outcome Heap :=
  match h.read this with
  | some ⟨_, .array _ count arr⟩ =>
    if index < count then
      (SXObject.release fuel h (arr.getD index 0)).bind fun h1 => SXArray.closeGap h1 this index
    else .ok h
  | _ => .undefined

/-- The calls that change the contents of an array. -/
inductive ArrayCall where
  | addObject (pObject : Nat)
  | insertObject (pObject : Nat) (index : Nat)
  | removeObject (pObject : Nat)
  | removeObjectAtIndex (index : Nat)
  | removeLastObject
  | removeAllObjects
  deriving DecidableEq, Repr

/-- Run a call on the array at `this`. -/
def ArrayCall.run (fuel : Nat) (h : Heap) (this : Nat) : ArrayCall → Outcome Heap
  | .addObject pObject => SXArray.addObject h this pObject
  | .insertObject pObject index => SXArray.insertObject h this pObject index
  | .removeObject pObject => SXArray.removeObject fuel h this pObject
  | .removeObjectAtIndex index => SXArray.removeObjectAtIndex fuel h this index
  | .removeLastObject => SXArray.removeLastObject fuel h this
  | .removeAllObjects => SXArray.removeAllObjects fuel h this

/-- Every object of `h2` existed in `h` with the same contents (the reference
count aside). -/
def KeepsBodies (h h2 : Heap) : Prop :=
  ∀ q c2, h2.read q = some c2 → ∃ c, h.read q = some c ∧ c.body = c2.body

/-! ## SXNotificationCenter

The center keeps a dictionary from notification names to arrays of selectors.
An `SXSelector` is an `SXObject` whose callable is client code: a selector is
a plain object, a call `(*pSelector)(pUserInfo)` is recorded as the pair of the
selector and the argument, and the code behind the selectors is the parameter
`cb` of the model, a function on heaps that may change the heap in any way. -/

/-- The member `m_pObservers` of the notification center. -/
structure SXNotificationCenter where
  m_pObservers : Nat
  deriving DecidableEq, Repr

namespace SXNotificationCenter

/-- The constructor: `m_pObservers = new SXDictionary()`. -/
def new (h : Heap) : Heap × SXNotificationCenter :=
  ((SXDictionary.new h).1, ⟨(SXDictionary.new h).2⟩)

/-- The cast `dynamic_cast<SXArray*>`. -/
def asArray (h : Heap) (p : Nat) : Outcome Nat :=
  if p = 0 then .ok 0
  else match h.read p with
    | some ⟨_, .array _ _ _⟩ => .ok p
    | some _ => .ok 0
    | none => .undefined

/-- The lookup `dynamic_cast<SXArray*>((*m_pObservers)[pName])`; the key is
the `std::string` made from `pName`. -/
def observers (h : Heap) (this : SXNotificationCenter) (pName : List Char) :
    Outcome (Heap × Nat) :=
  (SXDictionary.objectForKey h this.m_pObservers (cstr pName)).bind fun r =>
    (asArray r.1 r.2).bind fun p => .ok (r.1, p)

/-- The method `SXNotificationCenter::addObserver`. -/
def addObserver (fuel : Nat) (h : Heap) (this : SXNotificationCenter) (pSelector : Nat)
    (pName : List Char) : Outcome Heap :=
  (observers h this pName).bind fun r =>
    if r.2 = 0 then
      (SXArray.init (SXArray.new r.1).1 (SXArray.new r.1).2).bind fun i =>
      (SXDictionary.setObject fuel i.1 this.m_pObservers (SXArray.new r.1).2 (cstr pName)).bind
        fun h3 =>
      (SXObject.release fuel h3 (SXArray.new r.1).2).bind fun h4 =>
      SXArray.addObject h4 (SXArray.new r.1).2 pSelector
    else SXArray.addObject r.1 r.2 pSelector

/-- The method `SXNotificationCenter::removeObserver`. -/
def removeObserver (fuel : Nat) (h : Heap) (this : SXNotificationCenter) (pSelector : Nat)
    (pName : List Char) : Outcome Heap :=
  (observers h this pName).bind fun r =>
    if r.2 ≠ 0 then SXArray.removeObject fuel r.1 r.2 pSelector else .ok r.1

end SXNotificationCenter

/-- The calls that change the registrations of the notification center. -/
inductive CenterCall where
  | addObserver (pSelector : Nat) (pName : List Char)
  | removeObserver (pSelector : Nat) (pName : List Char)
  deriving DecidableEq, Repr

/-- Run a call on the center. -/
def CenterCall.run (fuel : Nat) (h : Heap) (this : SXNotificationCenter) :
    CenterCall → Outcome Heap
  | .addObserver pSelector pName => SXNotificationCenter.addObserver fuel h this pSelector pName
  | .removeObserver pSelector pName =>
    SXNotificationCenter.removeObserver fuel h this pSelector pName

/-- The effect of a call on the registrations, as the specification has it:
`addObserver` appends the (non-null) selector to the list of its name,
`removeObserver` removes its first occurrence from that list. -/
def CenterCall.apply (R : List Char → List Nat) : CenterCall → List Char → List Nat
  | .addObserver pSelector pName => fun key =>
    if key = cstr pName ∧ pSelector ≠ 0 then R key ++ [pSelector] else R key
  | .removeObserver pSelector pName => fun key =>
    if key = cstr pName then (R key).erase pSelector else R key

/-- The number of registrations of `s` under the keys of `m`. -/
def totalRegistrations (m : List (List Char × Nat)) (R : List Char → List Nat) (s : Nat) : Nat :=
  (m.map fun e => (R e.1).count s).sum

/-- Three selectors (addresses 1, 2 and 3, count 1 each) and a new center whose
dictionary is at address 4. -/
def centerHeap : Heap :=
  ⟨[some ⟨1, .object⟩, some ⟨1, .object⟩, some ⟨1, .object⟩, some ⟨1, .dictionary []⟩], []⟩

/-! ## Reference counting: who holds a reference to whom -/

/-- The pointers on which the destructor of an object with these fields calls
`release()`, in the order of the calls: the references that the object
holds. -/
def Body.owned : Body → List Nat
  | .array _ m_count m_pArray => (m_pArray.take m_count).filter (fun p => p ≠ 0)
  | .pool m_pObjects => if m_pObjects ≠ 0 then [m_pObjects] else []
  | .dictionary m_pMap => m_pMap.map Prod.snd
  | .set m_pSet => m_pSet
  | _ => []

/-- The number of references to `o` that the object at `p` holds. -/
def Heap.refsFrom (h : Heap) (p o : Nat) : Nat :=
  match h.read p with
  | some c => c.body.owned.count o
  | none => 0

/-- The addresses of the heap. -/
def Heap.addresses (h : Heap) : List Nat := (List.range h.cells.length).map (· + 1)

/-- The number of references to `o` held by the objects of the heap outside
`skip`. -/
def Heap.inrefs (skip : List Nat) (h : Heap) (o : Nat) : Nat :=
  (h.addresses.map fun p => if p ∈ skip then 0 else h.refsFrom p o).sum

/-- The heap is well counted, the objects of `skip` aside: the count of every
live object is the number of references to it held by the live objects outside
`skip` plus the number `ext o` of references held elsewhere (by the caller, by
the objects of `skip`), and fits an `unsigned int`; every reference held by an
object outside `skip` points to a live object; an object of `skip` is in the
course of its destruction (count 0) or one of the references to it is held
elsewhere. -/
structure Counted (skip : List Nat) (h : Heap) (ext : Nat → Nat) : Prop where
  nodup : skip.Nodup
  valid : ∀ d ∈ skip, h.valid d
  bounded : ∀ p c, h.read p = some c → c.m_referenceCount ≤ UINT_MAX
  alive : ∀ p c, p ∉ skip → h.read p = some c → ∀ o ∈ c.body.owned, (h.read o).isSome = true
  balance : ∀ o c, h.read o = some c → h.inrefs skip o + ext o = c.m_referenceCount
  guarded : ∀ d ∈ skip, ∀ c, h.read d = some c → c.m_referenceCount = 0 ∨ 1 ≤ ext d

/-- The references held elsewhere after one of them has been given up for every
entry of `os`. -/
def dropTokens (ext : Nat → Nat) (os : List Nat) : Nat → Nat :=
  fun o => ext o - os.count o

/-- What calls of `release()` on the pointers `os`, each giving up a reference
held elsewhere, leave behind in a well-counted heap: the heap `h2` is well
counted again, no object has come to life, an object to which no live object
outside `skip` holds a reference (and which is not among `os`) is untouched, no
reference has been added, an object to which a reference is still held
elsewhere is alive, and the log has grown by calls of `release()` that hold
the calls on `os` in their order and, for every object, as many calls as
references to it were given up (those of `os` and those that destroyed objects
held). -/
structure Released (skip : List Nat) (h : Heap) (ext : Nat → Nat) (os : List Nat)
    (h2 : Heap) : Prop where
  counted : Counted skip h2 (dropTokens ext os)
  length : h2.cells.length = h.cells.length
  frame : ∀ q, q ∉ os → h.inrefs skip q = 0 → h2.read q = h.read q
  mono : ∀ q, h2.inrefs skip q ≤ h.inrefs skip q
  kept : ∀ q, (h.read q).isSome = true → 1 ≤ dropTokens ext os q → (h2.read q).isSome = true
  trace : ∃ evs, h2.trace = h.trace ++ evs ∧ os.Sublist (releasedObjects evs) ∧
    ∀ q, (releasedObjects evs).count q + h2.inrefs skip q = os.count q + h.inrefs skip q

/-- What the loop of `SXArray::removeAllObjects` on the array `this`, which
gives up the references `os` held in its slots, leaves behind in a well-counted
heap: as for `Released`, where the array itself has count 0 elements and its
reference count is the old one unless a call of `release()` reached it. -/
structure Emptied (skip : List Nat) (h : Heap) (ext : Nat → Nat) (this : Nat) (os : List Nat)
    (h2 : Heap) : Prop where
  counted : Counted skip h2 (dropTokens ext os)
  length : h2.cells.length = h.cells.length
  frame : ∀ q, q ≠ this → q ∉ os → h.inrefs skip q = 0 → h2.read q = h.read q
  mono : ∀ q, h2.inrefs skip q ≤ h.inrefs skip q
  kept : ∀ q, (h.read q).isSome = true → 1 ≤ dropTokens ext os q → (h2.read q).isSome = true
  trace : ∃ evs, h2.trace = h.trace ++ evs ∧ os.Sublist (releasedObjects evs) ∧
    ∀ q, (releasedObjects evs).count q + h2.inrefs skip q = os.count q + h.inrefs skip q
  emptied : ∀ rc cap count arr, h.read this = some ⟨rc, .array cap count arr⟩ →
    ∃ rc2 arr2, h2.read this = some ⟨rc2, .array cap 0 arr2⟩ ∧ arr2.length = arr.length ∧
      (this ∉ os → h.inrefs skip this = 0 → rc2 = rc)

/-- The conditions of `Counted` at the address `p`, as a test. -/
def Heap.countedAt (skip : List Nat) (h : Heap) (ext : Nat → Nat) (p : Nat) : Bool :=
  match h.read p with
  | none => true
  | some c =>
    decide (c.m_referenceCount ≤ UINT_MAX) &&
    (decide (p ∈ skip) || c.body.owned.all fun o => (h.read o).isSome) &&
    decide (h.inrefs skip p + ext p = c.m_referenceCount) &&
    (!decide (p ∈ skip) || decide (c.m_referenceCount = 0) || decide (1 ≤ ext p))

/-- The conditions of `Counted`, as a test over the addresses of the heap. -/
def Heap.counted (skip : List Nat) (h : Heap) (ext : Nat → Nat) : Bool :=
  decide skip.Nodup && skip.all (fun d => decide (h.valid d)) &&
    h.addresses.all (h.countedAt skip ext)

/-- The number of references to `o` that the objects `chain` hold in their
fields. -/
def Heap.heldBy (h : Heap) (chain : List Nat) (o : Nat) : Nat :=
  (chain.map fun d => h.refsFrom d o).sum

/-- Every object of the list is alive and is held from outside the heap
(`ext`) or by an object further down the list: the list leads from an object
through its owners to a reference held outside. -/
def Heap.Held (h : Heap) (ext : Nat → Nat) : List Nat → Prop
  | [] => True
  | a :: rest => (h.read a).isSome = true ∧ 1 ≤ ext a + h.heldBy rest a ∧ Heap.Held h ext rest

/-- A release pool (address 1) that the caller holds, with the registrations
`[3, 5]` in its array (address 2): an array (address 3) whose only reference is
the registration and which holds a string (address 4), and a plain object
(address 5) that the caller holds as well. -/
def poolWithContainer : Heap :=
  ⟨[some ⟨1, .pool 2⟩, some ⟨1, .array 4 2 [3, 5, 0, 0]⟩, some ⟨1, .array 1 1 [4]⟩,
    some ⟨1, .string ['a']⟩, some ⟨2, .object⟩], []⟩

/-- A dictionary (address 1) that the caller holds, with the entry "m" -> array
2; the dictionary holds the only reference to the array, and the array holds
the plain object 3, which the caller holds as well (count 2). -/
def dictionaryWithHolder : Heap :=
  ⟨[some ⟨1, .dictionary [(['m'], 2)]⟩, some ⟨1, .array 1 1 [3]⟩, some ⟨2, .object⟩], []⟩

/-- The fresh manager plus an array (address 4) that the caller holds and that
holds the only reference to a string (address 5). -/
def freshManagerWithArray : State :=
  ⟨⟨[some ⟨1, .array 1 1 [2]⟩, some ⟨1, .pool 3⟩,
      some ⟨1, .array 10 0 [0, 0, 0, 0, 0, 0, 0, 0, 0, 0]⟩,
      some ⟨1, .array 1 1 [5]⟩, some ⟨1, .string ['a']⟩], [.release 2 2]⟩,
    some ⟨1, 2⟩⟩

/-- The state holds an active manager whose stack is `st` (bottom first), with
unused slots `mjunk` behind the pools in `m_pPools`; the current pool is the
top of the stack (`nullptr` for the empty stack). The registrations of the
pools are objects of any class. -/
def Stack (s : State) (st : List PoolRep) (mjunk : List Nat) : Prop :=
  ∃ m, s.pInstance = some m ∧
    s.heap.read m.m_pPools =
      some ⟨1, .array (st.length + mjunk.length) st.length (st.map PoolRep.pool ++ mjunk)⟩ ∧
    m.m_pCurrentPool = (st.map PoolRep.pool).getLastD 0 ∧
    m.m_pPools ∉ st.map PoolRep.objects ∧
    (∀ r ∈ st, r.holds s.heap) ∧
    (st.map PoolRep.pool).Nodup ∧ (st.map PoolRep.objects).Nodup

/-- The manager with the stack `st` in a well-counted heap: the count of every
live object is the number of references that live containers hold to it (the
pools array to the pools, a pool to its array, the array of a pool to its
registrations, any container to its elements) plus the number `ext o` of
references held by client code; the reference to the pools array is held by
the manager, and no registration is null. -/
def Managed (s : State) (st : List PoolRep) (mjunk : List Nat) (ext : Nat → Nat) : Prop :=
  Stack s st mjunk ∧ Counted [] s.heap ext ∧
  (∀ m, s.pInstance = some m → 1 ≤ ext m.m_pPools) ∧ ∀ r ∈ st, 0 ∉ r.regs

/-- A state with two pools that hold objects of several classes: the initial
pool (address 2, array 3) holds the string at address 4; the pushed pool
(address 5, array 6) holds the array at address 7, whose one element is the
string 4 and whose only reference is the registration, and the plain object at
address 8, to which client code holds a reference as well. -/
def stackedValues : State :=
  ⟨⟨[some ⟨1, .array 11 2 [2, 5, 0, 0, 0, 0, 0, 0, 0, 0, 0]⟩,
      some ⟨1, .pool 3⟩,
      some ⟨1, .array 10 1 [4, 0, 0, 0, 0, 0, 0, 0, 0, 0]⟩,
      some ⟨2, .string ['a']⟩,
      some ⟨1, .pool 6⟩,
      some ⟨1, .array 10 2 [7, 8, 0, 0, 0, 0, 0, 0, 0, 0]⟩,
      some ⟨1, .array 1 1 [4]⟩,
      some ⟨2, .object⟩],
    [.release 2 2, .release 5 2]⟩,
    some ⟨1, 5⟩⟩

/-- The bottom pool of `stackedValues`. -/
def stackedValuesBottom : PoolRep := ⟨2, 3, [4], [0, 0, 0, 0, 0, 0, 0, 0, 0]⟩

/-- The top pool of `stackedValues`. -/
def stackedValuesTop : PoolRep := ⟨5, 6, [7, 8], [0, 0, 0, 0, 0, 0, 0, 0]⟩

/-- The references that the manager and client code hold in `stackedValues`:
one to the pools array and one to the plain object at address 8. -/
def stackedValuesHeld : Nat → Nat := fun o => if o = 1 then 1 else if o = 8 then 1 else 0

/-- A state with one pool (address 2, array 3) that holds the array at address
4 and the string at address 5; the array holds the string, and neither has a
reference other than these. -/
def managerWithValues : State :=
  ⟨⟨[some ⟨1, .array 1 1 [2]⟩,
      some ⟨1, .pool 3⟩,
      some ⟨1, .array 10 2 [4, 5, 0, 0, 0, 0, 0, 0, 0, 0]⟩,
      some ⟨1, .array 1 1 [5]⟩,
      some ⟨2, .string ['a']⟩],
    [.release 2 2]⟩,
    some ⟨1, 2⟩⟩

/-- The pool of `managerWithValues`. -/
def managerWithValuesPool : PoolRep := ⟨2, 3, [4, 5], [0, 0, 0, 0, 0, 0, 0, 0]⟩

/-- The references that the manager and client code hold in
`managerWithValues`: the one to the pools array. -/
def managerWithValuesHeld : Nat → Nat := fun o => if o = 1 then 1 else 0

/-- The log `evs` is that of the pools `st` destroyed one after the other,
first pool of the list first: for each pool the release at count 1 and the
destruction of the pool and of its array, then the calls of `release()` made
while the array is destroyed, which hold the registrations of the pool in
their order and reach no pool further up the list and no array of such a
pool. -/
def drainedInOrder : List PoolRep → List Event → Prop
  | [], evs => evs = []
  | r :: rest, evs => ∃ e1 e2,
    evs = [.release r.pool 1, .destroy r.pool, .release r.objects 1, .destroy r.objects] ++
      e1 ++ e2 ∧
    r.regs.Sublist (releasedObjects e1) ∧
    (∀ q ∈ rest, q.pool ∉ r.pool :: r.objects :: releasedObjects e1 ∧
      q.objects ∉ r.pool :: r.objects :: releasedObjects e1) ∧
    drainedInOrder rest e2

/-- The states reached by admitted calls from a fresh manager: the manager is
created by the first access, in a heap whose objects, constructed before, hold
no references (plain objects, strings, numbers, data, empty containers); then
come the admitted calls and the `create` factories of the classes, which
construct an object and call `autorelease()` on it. -/
inductive OwnerReachable (noOverflow : Bool) : State → Prop where
  | fresh (fuel : Nat) (s0 s : State) : s0.pInstance = none → s0.heap.bounded →
      (∀ q x, s0.heap.read q = some x → x.body.owned = []) →
      SXPoolManager.sharedPoolManager fuel s0 = .ok s → OwnerReachable noOverflow s
  | step (fuel : Nat) (c : Call) (s s2 : State) : OwnerReachable noOverflow s →
      OwnedCall noOverflow s c → c.run fuel s = .ok s2 → OwnerReachable noOverflow s2
  | create (fuel : Nat) (f : Factory) (s s2 : State) (o : Nat) : OwnerReachable noOverflow s →
      (∀ capacity, f = .arrayWithCapacity capacity → capacity ≤ UINT_MAX) →
      f.create fuel s = .ok (s2, o) → OwnerReachable noOverflow s2

/-- The calls of client code on its objects and on the pool stack that the
ownership discipline admits in a state whose heap holds objects of any class,
containers among them: `release()` and `autorelease()` only on an object whose
count exceeds the number of references that live containers (the arrays of the
pools among them) hold to it, so that the caller owns a reference; `retain()`
only below the largest count; `pop()` only at depth above 1. -/
def HeldCall (s : State) : Call → Prop
  | .construct => True
  | .retain o => o ∉ s.internals ∧ ∃ c body, s.heap.read o = some ⟨c, body⟩ ∧ c < UINT_MAX
  | .release o => o ∉ s.internals ∧
      ∃ c body, s.heap.read o = some ⟨c, body⟩ ∧ s.heap.inrefs [] o < c
  | .autorelease o => o ∉ s.internals ∧
      ∃ c body, s.heap.read o = some ⟨c, body⟩ ∧ s.heap.inrefs [] o < c
  | .push => True
  | .pop => 1 < s.pools.length
  | .addObject _ => False
  | .removeObject _ => False
  | .sharedPoolManager => False
  | .purgePoolManager => False

/-- The states reached from a manager with a non-empty stack in a well-counted
heap, whose objects are of any class, by admitted calls and by the `create`
factories of the classes. -/
inductive HolderReachable : State → Prop where
  | start (s : State) (st : List PoolRep) (mjunk : List Nat) (ext : Nat → Nat) :
      Managed s st mjunk ext → 1 ≤ st.length → HolderReachable s
  | step (fuel : Nat) (c : Call) (s s2 : State) : HolderReachable s →
      HeldCall s c → c.run fuel s = .ok s2 → HolderReachable s2
  | create (fuel : Nat) (f : Factory) (s s2 : State) (o : Nat) : HolderReachable s →
      (∀ capacity, f = .arrayWithCapacity capacity → capacity ≤ UINT_MAX) →
      f.create fuel s = .ok (s2, o) → HolderReachable s2


/-- A manager with one pool (address 2, array 3) next to an array of client
code (address 4) and a plain object (address 5): the object was constructed,
added to the array and autoreleased, so its count of 2 stands for the
reference of the array and the one of the pool. -/
def heldInArray : State :=
  ⟨⟨[some ⟨1, .array 1 1 [2]⟩,
      some ⟨1, .pool 3⟩,
      some ⟨1, .array 10 1 [5, 0, 0, 0, 0, 0, 0, 0, 0, 0]⟩,
      some ⟨1, .array 1 1 [5]⟩,
      some ⟨2, .object⟩],
    [.release 2 2]⟩,
    some ⟨1, 2⟩⟩

/-- The pool of `heldInArray`. -/
def heldInArrayPool : PoolRep := ⟨2, 3, [5], [0, 0, 0, 0, 0, 0, 0, 0, 0]⟩

/-- The references that the manager and client code hold in `heldInArray`:
the one to the pools array and the one to the array at address 4. -/
def heldInArrayHeld : Nat → Nat := fun o => if o = 1 then 1 else if o = 4 then 1 else 0

/-! # Lemmas and theorems -/

/-! ## Heap lemmas -/

namespace Heap

theorem valid_of_read {h : Heap} {p : Nat} {c : Cell} (hr : h.read p = some c) : h.valid p := by
  unfold read at hr
  constructor
  · intro h0; simp [h0] at hr
  · by_contra hlt
    have : h.cells.length ≤ p - 1 := by omega
    split at hr
    · simp at hr
    · simp [List.getD_eq_getElem?_getD, List.getElem?_eq_none this] at hr

@[simp] theorem valid_write (h : Heap) (p q : Nat) (c : Cell) :
    (h.write p c).valid q ↔ h.valid q := by
  unfold write valid; split <;> simp

@[simp] theorem valid_free (h : Heap) (p q : Nat) : (h.free p).valid q ↔ h.valid q := by
  unfold free valid; split <;> simp

@[simp] theorem valid_log (h : Heap) (e : Event) (q : Nat) : (h.log e).valid q ↔ h.valid q := by
  simp [log, valid]

theorem read_write (h : Heap) (p q : Nat) (c : Cell) :
    (h.write p c).read q = if q = p ∧ h.valid p then some c else h.read q := by
  unfold write read valid
  by_cases hp : p = 0
  · simp [hp]
  · by_cases hq : q = 0
    · have h0 : ¬ (0 = p) := fun e => hp e.symm
      simp [hp, hq, h0]
    · simp only [hp, hq, if_false, List.getD_eq_getElem?_getD, List.getElem?_set]
      by_cases hqp : q = p
      · subst hqp
        by_cases hlt : q - 1 < h.cells.length
        · have : q ≤ h.cells.length := by omega
          simp [hlt, this, hq]
        · have : ¬ q ≤ h.cells.length := by omega
          simp [hlt, this]
          simp [List.getElem?_eq_none (Nat.le_of_not_lt hlt)]
      · have : ¬ (p - 1 = q - 1) := by omega
        simp [this, hqp]

theorem read_free (h : Heap) (p q : Nat) :
    (h.free p).read q = if q = p then none else h.read q := by
  unfold free read
  by_cases hp : p = 0
  · subst hp; by_cases hq : q = 0 <;> simp [hq]
  · by_cases hq : q = 0
    · simp [hp, hq]
    · simp only [hp, hq, if_false, List.getD_eq_getElem?_getD, List.getElem?_set]
      by_cases hqp : q = p
      · subst hqp
        by_cases hlt : q - 1 < h.cells.length
        · simp [hlt]
        · simp [hlt, List.getElem?_eq_none (Nat.le_of_not_lt hlt)]
      · have : ¬ (p - 1 = q - 1) := by omega
        simp [this, hqp]

@[simp] theorem read_log (h : Heap) (e : Event) (q : Nat) : (h.log e).read q = h.read q := rfl

@[simp] theorem trace_write (h : Heap) (p : Nat) (c : Cell) : (h.write p c).trace = h.trace := by
  unfold write; split <;> rfl

@[simp] theorem trace_free (h : Heap) (p : Nat) : (h.free p).trace = h.trace := by
  unfold free; split <;> rfl

@[simp] theorem trace_log (h : Heap) (e : Event) : (h.log e).trace = h.trace ++ [e] := rfl

@[simp] theorem length_write (h : Heap) (p : Nat) (c : Cell) :
    (h.write p c).cells.length = h.cells.length := by
  unfold write; split <;> simp

@[simp] theorem length_free (h : Heap) (p : Nat) : (h.free p).cells.length = h.cells.length := by
  unfold free; split <;> simp

@[simp] theorem length_log (h : Heap) (e : Event) : (h.log e).cells.length = h.cells.length := rfl

@[simp] theorem alloc_snd (h : Heap) (c : Cell) : (h.alloc c).2 = h.cells.length + 1 := rfl

@[simp] theorem trace_alloc (h : Heap) (c : Cell) : (h.alloc c).1.trace = h.trace := rfl

@[simp] theorem length_alloc (h : Heap) (c : Cell) :
    (h.alloc c).1.cells.length = h.cells.length + 1 := by simp [alloc]

theorem read_alloc (h : Heap) (c : Cell) (q : Nat) :
    (h.alloc c).1.read q = if q = h.cells.length + 1 then some c else h.read q := by
  unfold alloc read
  by_cases hq : q = 0
  · simp [hq]
  · simp only [hq, if_false, List.getD_eq_getElem?_getD]
    by_cases hn : q = h.cells.length + 1
    · subst hn; simp
    · simp only [hn, if_false]
      by_cases hlt : q - 1 < h.cells.length
      · simp [List.getElem?_append_left hlt]
      · have h1 : h.cells.length ≤ q - 1 := by omega
        have h2 : (h.cells ++ [some c]).length ≤ q - 1 := by simp; omega
        simp [List.getElem?_eq_none h1, List.getElem?_eq_none h2]

theorem valid_alloc (h : Heap) (c : Cell) (q : Nat) :
    (h.alloc c).1.valid q ↔ (h.valid q ∨ q = h.cells.length + 1) := by
  simp [valid, alloc]; omega

theorem read_of_not_valid {h : Heap} {p : Nat} (hp : ¬ h.valid p) : h.read p = none := by
  cases hr : h.read p with
  | none => rfl
  | some c => exact absurd (valid_of_read hr) hp

end Heap

/-! ## SXObject: retain and release -/

theorem wrap_pred (c : Nat) (h1 : 1 ≤ c) (h2 : c ≤ UINT_MAX) : wrap (c + UINT_MAX) = c - 1 := by
  unfold wrap UINT_MAX at *; omega

theorem wrap_succ (c : Nat) (h2 : c < UINT_MAX) : wrap (c + 1) = c + 1 := by
  unfold wrap UINT_MAX at *; omega

theorem wrap_le (c : Nat) : wrap c ≤ UINT_MAX := by
  unfold wrap UINT_MAX; omega

theorem wrap_pred_eq_zero (c : Nat) (h2 : c ≤ UINT_MAX) : wrap (c + UINT_MAX) = 0 ↔ c = 1 := by
  unfold wrap UINT_MAX at *; omega

namespace SXObject

theorem release_zero (h : Heap) (this : Nat) : release 0 h this = .outOfFuel := rfl

theorem release_succ (fuel : Nat) (h : Heap) (this : Nat) :
    release (fuel + 1) h this =
      match h.read this with
      | none => .undefined
      | some c =>
        if wrap (c.m_referenceCount + UINT_MAX) = 0 then
          delete fuel ((h.write this { c with m_referenceCount := wrap (c.m_referenceCount + UINT_MAX) }).log
            (.release this c.m_referenceCount)) this
        else .ok ((h.write this { c with m_referenceCount := wrap (c.m_referenceCount + UINT_MAX) }).log
            (.release this c.m_referenceCount)) := rfl

theorem release_keeps (fuel : Nat) (h : Heap) (this c : Nat) (body : Body)
    (hr : h.read this = some ⟨c, body⟩) (h2 : 2 ≤ c) (h3 : c ≤ UINT_MAX) :
    release (fuel + 1) h this = .ok ((h.write this ⟨c - 1, body⟩).log (.release this c)) := by
  have e : wrap (c + UINT_MAX) = c - 1 := wrap_pred c (by omega) h3
  have : c - 1 ≠ 0 := by omega
  simp [release_succ, hr, e, this]

theorem delete_object (fuel : Nat) (h : Heap) (this c : Nat)
    (hr : h.read this = some ⟨c, .object⟩) :
    delete (fuel + 1) h this = .ok ((h.log (.destroy this)).free this) := by
  simp [delete, hr]

theorem release_object_last (fuel : Nat) (h : Heap) (this : Nat)
    (hr : h.read this = some ⟨1, .object⟩) :
    release (fuel + 2) h this =
      .ok ((((h.write this ⟨0, .object⟩).log (.release this 1)).log (.destroy this)).free this) := by
  have hv := Heap.valid_of_read hr
  have e : wrap (1 + UINT_MAX) = 0 := by decide
  rw [release_succ, hr]
  simp only [e, if_true]
  rw [delete_object fuel _ this 0]
  simp [Heap.read_write, hv]

theorem retain_eq (h : Heap) (this c : Nat) (body : Body) (hr : h.read this = some ⟨c, body⟩) :
    retain h this = .ok (h.write this ⟨wrap (c + 1), body⟩) := by
  simp [retain, hr]

end SXObject

namespace Outcome

@[simp] theorem bind_ok {α β : Type} (a : α) (f : α → Outcome β) : (ok a).bind f = f a := rfl
@[simp] theorem bind_undefined {α β : Type} (f : α → Outcome β) :
    (undefined : Outcome α).bind f = undefined := rfl
@[simp] theorem bind_outOfFuel {α β : Type} (f : α → Outcome β) :
    (outOfFuel : Outcome α).bind f = outOfFuel := rfl
@[simp] theorem bind_eq {α β : Type} (x : Outcome α) (f : α → Outcome β) : (x >>= f) = x.bind f := rfl
@[simp] theorem pure_eq {α : Type} (a : α) : (pure a : Outcome α) = ok a := rfl

theorem bind_eq_ok {α β : Type} {x : Outcome α} {f : α → Outcome β} {b : β}
    (h : x.bind f = ok b) : ∃ a, x = ok a ∧ f a = ok b := by
  cases x with
  | ok a => exact ⟨a, rfl, h⟩
  | undefined => simp at h
  | outOfFuel => simp at h

end Outcome

namespace SXObject

theorem retainTimes_object (n : Nat) : ∀ (h : Heap) (this c : Nat) (body : Body),
    h.read this = some ⟨c, body⟩ → c + n ≤ UINT_MAX →
    ∃ h1, retainTimes n h this = .ok h1 ∧ h1.read this = some ⟨c + n, body⟩ := by
  induction n with
  | zero => intro h this c body hr _; exact ⟨h, rfl, hr⟩
  | succ n ih =>
    intro h this c body hr hb
    have hv := Heap.valid_of_read hr
    have hw : (h.write this ⟨wrap (c + 1), body⟩).read this = some ⟨c + 1, body⟩ := by
      simp [Heap.read_write, hv, wrap_succ c (by omega)]
    obtain ⟨h1, e1, r1⟩ := ih _ this (c + 1) body hw (by omega)
    refine ⟨h1, ?_, ?_⟩
    · simp [retainTimes, retain_eq h this c body hr, e1]
    · rw [r1]; congr 2; omega

theorem releaseTimes_keeps (fuel k : Nat) : ∀ (h : Heap) (this c : Nat) (body : Body),
    h.read this = some ⟨c, body⟩ → k < c → c ≤ UINT_MAX →
    ∃ h1, releaseTimes (fuel + 1) k h this = .ok h1 ∧ h1.read this = some ⟨c - k, body⟩ := by
  induction k with
  | zero => intro h this c body hr _ _; exact ⟨h, rfl, hr⟩
  | succ k ih =>
    intro h this c body hr hk hb
    have hv := Heap.valid_of_read hr
    have hw : ((h.write this ⟨c - 1, body⟩).log (.release this c)).read this = some ⟨c - 1, body⟩ := by
      simp [Heap.read_write, hv]
    obtain ⟨h1, e1, r1⟩ := ih _ this (c - 1) body hw (by omega) (by omega)
    refine ⟨h1, ?_, ?_⟩
    · simp [releaseTimes, release_keeps fuel h this c body hr (by omega) hb, e1]
    · rw [r1]; congr 2; omega

theorem releaseTimes_succ_last (fuel : Nat) (k : Nat) : ∀ (h : Heap) (this : Nat),
    releaseTimes fuel (k + 1) h this =
      (releaseTimes fuel k h this).bind (fun h1 => release fuel h1 this) := by
  induction k with
  | zero =>
    intro h this
    cases e : release fuel h this <;> simp [releaseTimes, e]
  | succ k ih =>
    intro h this
    rw [releaseTimes]
    cases e : release fuel h this with
    | ok h1 => simp [ih h1 this]; rw [releaseTimes]; simp [e]
    | undefined => simp; rw [releaseTimes]; simp [e]
    | outOfFuel => simp; rw [releaseTimes]; simp [e]

end SXObject

namespace SXObject

theorem read_new (h : Heap) : (new h).1.read (new h).2 = some ⟨1, .object⟩ := by
  simp [new, Heap.read_alloc]

/-- C5: a freshly constructed object has count 1; after `n` calls of `retain()`
(with `n + 1 < 2 ^ 32`) the count is `n + 1`; of a following run of `n + 1`
calls of `release()` the first `k <= n` leave it alive with count `n + 1 - k`
and the last one destroys it. -/
theorem retain_release_balance (h : Heap) (n fuel : Nat) (hn : n + 1 < 2 ^ 32) :
    retainCount (new h).1 (new h).2 = .ok 1 ∧
    ∃ h1, retainTimes n (new h).1 (new h).2 = .ok h1 ∧
      retainCount h1 (new h).2 = .ok (n + 1) ∧
      (∀ k, k ≤ n → ∃ h2, releaseTimes (fuel + 2) k h1 (new h).2 = .ok h2 ∧
        retainCount h2 (new h).2 = .ok (n + 1 - k)) ∧
      ∃ h3, releaseTimes (fuel + 2) (n + 1) h1 (new h).2 = .ok h3 ∧
        h3.read (new h).2 = none ∧ retainCount h3 (new h).2 = .undefined := by
  have hb : 1 + n ≤ UINT_MAX := by
    have : UINT_MAX + 1 = 2 ^ 32 := by norm_num [UINT_MAX]
    omega
  have hr := read_new h
  refine ⟨by simp [retainCount, hr], ?_⟩
  obtain ⟨h1, e1, r1⟩ := retainTimes_object n _ _ 1 .object hr hb
  have r1' : h1.read (new h).2 = some ⟨n + 1, .object⟩ := by rw [r1]; congr 2; omega
  refine ⟨h1, e1, by simp [retainCount, r1'], ?_, ?_⟩
  · intro k hk
    obtain ⟨h2, e2, r2⟩ := releaseTimes_keeps (fuel + 1) k h1 _ (n + 1) .object r1' (by omega) (by omega)
    exact ⟨h2, e2, by simp [retainCount, r2]⟩
  · obtain ⟨h2, e2, r2⟩ := releaseTimes_keeps (fuel + 1) n h1 _ (n + 1) .object r1' (by omega) (by omega)
    have r2' : h2.read (new h).2 = some ⟨1, .object⟩ := by rw [r2]; congr 2; omega
    have hv := Heap.valid_of_read r2'
    have e3 : releaseTimes (fuel + 2) (n + 1) h1 (new h).2 = .ok
        ((((h2.write (new h).2 ⟨0, .object⟩).log (.release (new h).2 1)).log
          (.destroy (new h).2)).free (new h).2) := by
      rw [releaseTimes_succ_last, e2]
      simp only [Outcome.bind_ok]
      exact release_object_last fuel h2 _ r2'
    exact ⟨_, e3, by simp [Heap.read_free], by simp [retainCount, Heap.read_free]⟩

/-- Instance of `retain_release_balance`: three retains and four releases on
an object constructed in the empty heap. -/
theorem retain_release_balance_witness :
    3 + 1 < 2 ^ 32 ∧
    (retainCount (new Heap.empty).1 (new Heap.empty).2 = .ok 1 ∧
    ∃ h1, retainTimes 3 (new Heap.empty).1 (new Heap.empty).2 = .ok h1 ∧
      retainCount h1 (new Heap.empty).2 = .ok (3 + 1) ∧
      (∀ k, k ≤ 3 → ∃ h2, releaseTimes (0 + 2) k h1 (new Heap.empty).2 = .ok h2 ∧
        retainCount h2 (new Heap.empty).2 = .ok (3 + 1 - k)) ∧
      ∃ h3, releaseTimes (0 + 2) (3 + 1) h1 (new Heap.empty).2 = .ok h3 ∧
        h3.read (new Heap.empty).2 = none ∧ retainCount h3 (new Heap.empty).2 = .undefined) :=
  ⟨by norm_num, retain_release_balance Heap.empty 3 0 (by norm_num)⟩

end SXObject

/-! ## Destruction happens through `release` only -/

namespace Heap

theorem bounded_read {h : Heap} (hb : h.bounded) {p : Nat} {c : Cell} (hr : h.read p = some c) :
    c.m_referenceCount ≤ UINT_MAX := by
  unfold read at hr
  split at hr
  · simp at hr
  · rw [List.getD_eq_getElem?_getD] at hr
    cases hg : h.cells[p - 1]? with
    | none => simp [hg] at hr
    | some x =>
      simp [hg] at hr
      have hm : x ∈ h.cells := List.getElem?_mem hg
      exact hb x hm c (by simp [hr])

theorem bounded_write {h : Heap} (hb : h.bounded) (p : Nat) {c : Cell}
    (hc : c.m_referenceCount ≤ UINT_MAX) : (h.write p c).bounded := by
  unfold write
  split
  · exact hb
  · intro x hx y hy
    rcases List.mem_or_eq_of_mem_set hx with h1 | h1
    · exact hb x h1 y hy
    · subst h1; simp at hy; subst hy; exact hc

theorem bounded_free {h : Heap} (hb : h.bounded) (p : Nat) : (h.free p).bounded := by
  unfold free
  split
  · exact hb
  · intro x hx y hy
    rcases List.mem_or_eq_of_mem_set hx with h1 | h1
    · exact hb x h1 y hy
    · subst h1; simp at hy

theorem bounded_log {h : Heap} (hb : h.bounded) (e : Event) : (h.log e).bounded := hb

theorem bounded_alloc {h : Heap} (hb : h.bounded) {c : Cell}
    (hc : c.m_referenceCount ≤ UINT_MAX) : (h.alloc c).1.bounded := by
  intro x hx y hy
  simp [alloc] at hx
  rcases hx with h1 | h1
  · exact hb x h1 y hy
  · subst h1; simp at hy; subst hy; exact hc

end Heap

theorem ReleasedToZero.append_left {q : Nat} {evs : List Event} (h : ReleasedToZero q evs)
    (pre : List Event) : ReleasedToZero q (pre ++ evs) :=
  List.IsInfix.trans h (List.suffix_append pre evs).isInfix

theorem ReleasedToZero.append_right {q : Nat} {evs : List Event} (h : ReleasedToZero q evs)
    (post : List Event) : ReleasedToZero q (evs ++ post) :=
  List.IsInfix.trans h (List.prefix_append evs post).isInfix

namespace Accounted

theorem refl (h : Heap) : Accounted h h :=
  fun hb => ⟨hb, [], by simp, fun q h1 h2 => by simp [h2] at h1⟩

theorem trans {h1 h2 h3 : Heap} (a : Accounted h1 h2) (b : Accounted h2 h3) : Accounted h1 h3 := by
  intro hb
  obtain ⟨hb2, e1, t1, d1⟩ := a hb
  obtain ⟨hb3, e2, t2, d2⟩ := b hb2
  refine ⟨hb3, e1 ++ e2, by simp [t2, t1], ?_⟩
  intro q hq hd
  cases hm : h2.read q with
  | none => exact (d1 q hq hm).append_right e2
  | some c => exact (d2 q (by simp [hm]) hd).append_left e1

theorem write (h : Heap) (p : Nat) (c : Cell) (hc : c.m_referenceCount ≤ UINT_MAX) :
    Accounted h (h.write p c) := by
  intro hb
  refine ⟨Heap.bounded_write hb p hc, [], by simp, ?_⟩
  intro q hq hd
  rw [Heap.read_write] at hd
  split at hd
  · simp at hd
  · simp [hd] at hq

theorem log (h : Heap) (e : Event) : Accounted h (h.log e) :=
  fun hb => ⟨hb, [e], by simp, fun q h1 h2 => by rw [Heap.read_log] at h2; simp [h2] at h1⟩

theorem alloc (h : Heap) (c : Cell) (hc : c.m_referenceCount ≤ UINT_MAX) :
    Accounted h (h.alloc c).1 := by
  intro hb
  refine ⟨Heap.bounded_alloc hb hc, [], by simp, ?_⟩
  intro q hq hd
  rw [Heap.read_alloc] at hd
  split at hd
  · simp at hd
  · simp [hd] at hq

end Accounted

namespace SXObject

theorem delete_succ (fuel : Nat) (h : Heap) (this : Nat) :
    delete (fuel + 1) h this =
      match h.read this with
      | none => .undefined
      | some c =>
        match c.body with
        | .object => .ok ((h.log (.destroy this)).free this)
        | .pool pObjects =>
          if pObjects ≠ 0 then
            match release fuel (h.log (.destroy this)) pObjects with
            | .ok h1 => .ok (h1.free this)
            | .undefined => .undefined
            | .outOfFuel => .outOfFuel
          else .ok ((h.log (.destroy this)).free this)
        | .array _ _ _ =>
          match removeAllObjectsFrom fuel (h.log (.destroy this)) this 0 with
          | .ok h1 => .ok (h1.free this)
          | .undefined => .undefined
          | .outOfFuel => .outOfFuel
        | .string _ => .ok ((h.log (.destroy this)).free this)
        | .number _ _ => .ok ((h.log (.destroy this)).free this)
        | .data _ => .ok ((h.log (.destroy this)).free this)
        | .dictionary m_pMap =>
          match releaseEach fuel (h.log (.destroy this)) (m_pMap.map Prod.snd) with
          | .ok h1 => .ok (h1.free this)
          | .undefined => .undefined
          | .outOfFuel => .outOfFuel
        | .set m_pSet =>
          match releaseEach fuel (h.log (.destroy this)) m_pSet with
          | .ok h1 => .ok (h1.free this)
          | .undefined => .undefined
          | .outOfFuel => .outOfFuel := rfl

theorem releaseEach_succ_cons (fuel : Nat) (h : Heap) (p : Nat) (ps : List Nat) :
    releaseEach (fuel + 1) h (p :: ps) =
      match release fuel h p with
      | .ok h1 => releaseEach fuel h1 ps
      | .undefined => .undefined
      | .outOfFuel => .outOfFuel := rfl

theorem releaseEach_succ_nil (fuel : Nat) (h : Heap) : releaseEach (fuel + 1) h [] = .ok h := rfl

theorem removeAllObjectsFrom_succ (fuel : Nat) (h : Heap) (this i : Nat) :
    removeAllObjectsFrom (fuel + 1) h this i =
      match h.read this with
      | some ⟨rc, .array cap count arr⟩ =>
        if i < count then
          if arr.getD i 0 ≠ 0 then
            match release fuel h (arr.getD i 0) with
            | .ok h1 =>
              match h1.read this with
              | some ⟨rc1, .array cap1 count1 arr1⟩ =>
                removeAllObjectsFrom fuel (h1.write this ⟨rc1, .array cap1 count1 (arr1.set i 0)⟩) this (i + 1)
              | _ => .undefined
            | .undefined => .undefined
            | .outOfFuel => .outOfFuel
          else removeAllObjectsFrom fuel h this (i + 1)
        else .ok (h.write this ⟨rc, .array cap 0 arr⟩)
      | _ => .undefined := rfl

theorem deleteAccounted_of_free {h h1 : Heap} {this : Nat}
    (a : Accounted (h.log (.destroy this)) h1) : DeleteAccounted h this (h1.free this) := by
  intro hb
  obtain ⟨hb1, evs, t1, d1⟩ := a hb
  refine ⟨Heap.bounded_free hb1 this, evs, by simp [t1], ?_⟩
  intro q hq ha hd
  rw [Heap.read_free] at hd
  simp [hq] at hd
  exact d1 q (by simpa using ha) hd

theorem accounted_cascade (fuel : Nat) :
    (∀ h p h2, release fuel h p = .ok h2 → Accounted h h2) ∧
    (∀ h p h2, delete fuel h p = .ok h2 → DeleteAccounted h p h2) ∧
    (∀ h a i h2, removeAllObjectsFrom fuel h a i = .ok h2 → Accounted h h2) ∧
    (∀ h ps h2, releaseEach fuel h ps = .ok h2 → Accounted h h2) := by
  induction fuel with
  | zero =>
    refine ⟨?_, ?_, ?_, ?_⟩
    · intro h p h2 e; simp [release] at e
    · intro h p h2 e; simp [delete] at e
    · intro h a i h2 e; simp [removeAllObjectsFrom] at e
    · intro h ps h2 e; simp [releaseEach] at e
  | succ fuel ih =>
    obtain ⟨ihr, ihd, ihl, ihe⟩ := ih
    refine ⟨?_, ?_, ?_, ?_⟩
    · intro h p h2 e
      rw [release_succ] at e
      cases hr : h.read p with
      | none => simp [hr] at e
      | some c =>
        simp only [hr] at e
        have acc1 : Accounted h ((h.write p { c with m_referenceCount := wrap (c.m_referenceCount + UINT_MAX) }).log
            (.release p c.m_referenceCount)) :=
          (Accounted.write h p _ (wrap_le _)).trans (Accounted.log _ _)
        split at e
        · rename_i hz
          intro hb
          have hc := Heap.bounded_read hb hr
          have hc1 : c.m_referenceCount = 1 := (wrap_pred_eq_zero _ hc).1 hz
          obtain ⟨hb1, -⟩ := acc1 hb
          obtain ⟨hb2, evs, t2, d2⟩ := ihd _ _ _ e hb1
          refine ⟨hb2, Event.release p 1 :: Event.destroy p :: evs, by simp [t2, hc1], ?_⟩
          intro q hq hd
          by_cases hqp : q = p
          · subst hqp
            exact (List.prefix_append [Event.release q 1, Event.destroy q] evs).isInfix
          · have := d2 q hqp (by simpa [Heap.read_write, hqp] using hq) hd
            exact this.append_left [Event.release p 1, Event.destroy p]
        · simp at e; subst e; exact acc1
    · intro h p h2 e
      rw [delete_succ] at e
      cases hr : h.read p with
      | none => simp [hr] at e
      | some c =>
        simp only [hr] at e
        split at e
        · simp at e; subst e; exact deleteAccounted_of_free (Accounted.refl _)
        · split at e
          · split at e
            · rename_i h1 e1
              simp at e; subst e; exact deleteAccounted_of_free (ihr _ _ _ e1)
            · simp at e
            · simp at e
          · simp at e; subst e; exact deleteAccounted_of_free (Accounted.refl _)
        · split at e
          · rename_i h1 e1
            simp at e; subst e; exact deleteAccounted_of_free (ihl _ _ _ _ e1)
          · simp at e
          · simp at e
        · simp at e; subst e; exact deleteAccounted_of_free (Accounted.refl _)
        · simp at e; subst e; exact deleteAccounted_of_free (Accounted.refl _)
        · simp at e; subst e; exact deleteAccounted_of_free (Accounted.refl _)
        · split at e
          · rename_i h1 e1
            simp at e; subst e; exact deleteAccounted_of_free (ihe _ _ _ e1)
          · simp at e
          · simp at e
        · split at e
          · rename_i h1 e1
            simp at e; subst e; exact deleteAccounted_of_free (ihe _ _ _ e1)
          · simp at e
          · simp at e
    · intro h a i h2 e
      rw [removeAllObjectsFrom_succ] at e
      split at e
      · rename_i rc cap count arr hr
        split at e
        · split at e
          · split at e
            · rename_i h1 e1
              split at e
              · rename_i rc1 cap1 count1 arr1 hr1
                intro hb
                have a1 := ihr _ _ _ e1
                have hb1 := (a1 hb).1
                have hrc : rc1 ≤ UINT_MAX := Heap.bounded_read hb1 hr1
                have a2 : Accounted h1 (h1.write a ⟨rc1, .array cap1 count1 (arr1.set i 0)⟩) :=
                  Accounted.write _ _ _ hrc
                exact (a1.trans (a2.trans (ihl _ _ _ _ e))) hb
              · simp at e
            · simp at e
            · simp at e
          · exact ihl _ _ _ _ e
        · simp at e; subst e
          intro hb
          have hrc : rc ≤ UINT_MAX := Heap.bounded_read hb hr
          exact Accounted.write _ _ _ hrc hb
      · simp at e
    · intro h ps h2 e
      cases ps with
      | nil =>
        rw [releaseEach_succ_nil] at e
        cases e
        exact Accounted.refl _
      | cons p ps =>
        rw [releaseEach_succ_cons] at e
        split at e
        · rename_i h1 e1
          exact (ihr _ _ _ e1).trans (ihe _ _ _ e)
        · simp at e
        · simp at e

theorem accounted_release {fuel : Nat} {h h2 : Heap} {p : Nat} (e : release fuel h p = .ok h2) :
    Accounted h h2 := (accounted_cascade fuel).1 h p h2 e

theorem accounted_removeAllObjectsFrom {fuel : Nat} {h h2 : Heap} {a i : Nat}
    (e : removeAllObjectsFrom fuel h a i = .ok h2) : Accounted h h2 :=
  (accounted_cascade fuel).2.2.1 h a i h2 e

end SXObject

theorem Accounted.write_same {h : Heap} {p rc : Nat} {b : Body} (hr : h.read p = some ⟨rc, b⟩)
    (b2 : Body) : Accounted h (h.write p ⟨rc, b2⟩) := by
  intro hb
  have hrc : rc ≤ UINT_MAX := Heap.bounded_read hb hr
  exact Accounted.write _ _ _ hrc hb

namespace SXObject

theorem accounted_retain {h h2 : Heap} {p : Nat} (e : retain h p = .ok h2) : Accounted h h2 := by
  unfold retain at e
  split at e
  · simp at e; subst e; exact Accounted.write _ _ _ (wrap_le _)
  · simp at e

end SXObject

namespace SXArray

theorem accounted_array_resizeArray {h h2 : Heap} {a cap : Nat} (e : resizeArray h a cap = .ok h2) :
    Accounted h h2 := by
  unfold resizeArray at e
  split at e
  · rename_i hr
    split at e
    · simp at e; subst e; exact Accounted.write_same hr _
    · simp at e
  · simp at e

theorem accounted_array_initWithCapacity {h : Heap} {a cap : Nat} {r : Heap × Bool}
    (e : initWithCapacity h a cap = .ok r) : Accounted h r.1 := by
  unfold initWithCapacity at e
  simp only [Outcome.bind_eq] at e
  obtain ⟨h1, e1, e2⟩ := Outcome.bind_eq_ok e
  split at e2
  · rename_i hr; simp at e2; subst e2
    exact (accounted_array_resizeArray e1).trans (Accounted.write_same hr _)
  · simp at e2

theorem accounted_array_addObject {h h2 : Heap} {a o : Nat} (e : addObject h a o = .ok h2) :
    Accounted h h2 := by
  unfold addObject at e
  split at e
  · split at e
    · try simp only [Outcome.bind_eq] at e
      obtain ⟨h1, e1, e2⟩ := Outcome.bind_eq_ok e
      obtain ⟨h3, e3, e4⟩ := Outcome.bind_eq_ok e2
      have a1 : Accounted h h1 := by
        split at e1
        · exact accounted_array_resizeArray e1
        · simp at e1; subst e1; exact Accounted.refl _
      unfold storeAtCount at e4
      split at e4
      · rename_i hr; simp at e4; subst e4
        exact a1.trans ((SXObject.accounted_retain e3).trans (Accounted.write_same hr _))
      · simp at e4
    · simp at e
  · simp at e; subst e; exact Accounted.refl _

theorem accounted_array_closeGap {h h2 : Heap} {a i : Nat} (e : closeGap h a i = .ok h2) :
    Accounted h h2 := by
  unfold closeGap at e
  split at e
  · rename_i hr
    try simp only [Outcome.bind_eq] at e
    obtain ⟨h1, e1, e2⟩ := Outcome.bind_eq_ok e
    unfold reorderArrayAtIndex at e1
    split at e1
    · rename_i hr1; simp at e1; subst e1
      split at e2
      · rename_i hr2; simp at e2; subst e2
        exact (Accounted.write_same hr _).trans ((Accounted.write_same hr1 _).trans
          (Accounted.write_same hr2 _))
      · simp at e2
    · simp at e1
  · simp at e

theorem accounted_array_removeObject {fuel : Nat} {h h2 : Heap} {a o : Nat}
    (e : removeObject fuel h a o = .ok h2) : Accounted h h2 := by
  unfold removeObject at e
  simp only [Outcome.bind_eq] at e
  obtain ⟨idx, e1, e2⟩ := Outcome.bind_eq_ok e
  split at e2
  · try simp only [Outcome.bind_eq] at e2
    obtain ⟨h1, e3, e4⟩ := Outcome.bind_eq_ok e2
    exact (SXObject.accounted_release e3).trans (accounted_array_closeGap e4)
  · simp at e2; subst e2; exact Accounted.refl _

theorem accounted_array_removeLastObject {fuel : Nat} {h h2 : Heap} {a : Nat}
    (e : removeLastObject fuel h a = .ok h2) : Accounted h h2 := by
  unfold removeLastObject at e
  split at e
  · split at e
    · try simp only [Outcome.bind_eq] at e
      obtain ⟨h1, e1, e2⟩ := Outcome.bind_eq_ok e
      split at e2
      · rename_i hr; simp at e2; subst e2
        exact (SXObject.accounted_release e1).trans (Accounted.write_same hr _)
      · simp at e2
    · simp at e; subst e; exact Accounted.refl _
  · simp at e

end SXArray

namespace SXAutoreleasePool

theorem accounted_pool_new {h : Heap} {r : Heap × Nat} (e : new h = .ok r) : Accounted h r.1 := by
  unfold new at e
  simp only [Outcome.bind_eq, SXArray.new, SXArray.init] at e
  split at e
  · rename_i c hr
    obtain ⟨r1, e1, e2⟩ := Outcome.bind_eq_ok e
    simp at e2; subst e2
    refine (Accounted.alloc h ⟨1, .pool 0⟩ (by decide)).trans ((Accounted.alloc _
      ⟨1, .array SX_ARRAY_DEFAULT_CAPACITY_INCREMENT 0 (List.replicate SX_ARRAY_DEFAULT_CAPACITY_INCREMENT 0)⟩
      (by decide)).trans ?_)
    refine Accounted.trans ?_ (SXArray.accounted_array_initWithCapacity e1)
    exact Accounted.write_same hr _
  · simp at e

theorem accounted_pool_addObject {h h2 : Heap} {p o : Nat} (e : addObject h p o = .ok h2) :
    Accounted h h2 := by
  unfold addObject at e
  simp only [Outcome.bind_eq] at e
  obtain ⟨a, _, e2⟩ := Outcome.bind_eq_ok e
  exact SXArray.accounted_array_addObject e2

theorem accounted_pool_removeObject {fuel : Nat} {h h2 : Heap} {p o : Nat}
    (e : removeObject fuel h p o = .ok h2) : Accounted h h2 := by
  unfold removeObject at e
  simp only [Outcome.bind_eq] at e
  obtain ⟨a, _, e2⟩ := Outcome.bind_eq_ok e
  exact SXArray.accounted_array_removeObject e2

end SXAutoreleasePool

namespace SXPoolManager

theorem accounted_manager_push {fuel : Nat} {s s2 : State} (e : push fuel s = .ok s2) :
    Accounted s.heap s2.heap := by
  unfold push at e
  split at e
  · try simp only [Outcome.bind_eq] at e
    obtain ⟨r, e1, e2⟩ := Outcome.bind_eq_ok e
    obtain ⟨h2, e3, e4⟩ := Outcome.bind_eq_ok e2
    obtain ⟨h3, e5, e6⟩ := Outcome.bind_eq_ok e4
    simp at e6; subst e6
    exact (SXAutoreleasePool.accounted_pool_new e1).trans ((SXArray.accounted_array_addObject e3).trans
      (SXObject.accounted_release e5))
  · simp at e

theorem accounted_manager_pop {fuel : Nat} {s s2 : State} (e : pop fuel s = .ok s2) :
    Accounted s.heap s2.heap := by
  unfold pop at e
  split at e
  · split at e
    · try simp only [Outcome.bind_eq] at e
      obtain ⟨h1, e1, e2⟩ := Outcome.bind_eq_ok e
      obtain ⟨l, e3, e4⟩ := Outcome.bind_eq_ok e2
      obtain ⟨c, e5, e6⟩ := Outcome.bind_eq_ok e4
      simp at e6; subst e6
      exact SXArray.accounted_array_removeLastObject e1
    · simp at e; subst e; exact Accounted.refl _
  · simp at e

theorem accounted_manager_addObject {s s2 : State} {o : Nat} (e : addObject s o = .ok s2) :
    Accounted s.heap s2.heap := by
  unfold addObject at e
  split at e
  · try simp only [Outcome.bind_eq] at e
    obtain ⟨h1, e1, e2⟩ := Outcome.bind_eq_ok e
    simp at e2; subst e2
    exact SXAutoreleasePool.accounted_pool_addObject e1
  · simp at e

theorem accounted_manager_removeObject {fuel : Nat} {s s2 : State} {o : Nat}
    (e : removeObject fuel s o = .ok s2) : Accounted s.heap s2.heap := by
  unfold removeObject at e
  split at e
  · try simp only [Outcome.bind_eq] at e
    obtain ⟨h1, e1, e2⟩ := Outcome.bind_eq_ok e
    simp at e2; subst e2
    exact SXAutoreleasePool.accounted_pool_removeObject e1
  · simp at e

theorem accounted_manager_create {fuel : Nat} {s s2 : State} (e : create fuel s = .ok s2) :
    Accounted s.heap s2.heap := by
  unfold create at e
  simp only [Outcome.bind_eq, SXArray.new] at e
  obtain ⟨r, e1, e2⟩ := Outcome.bind_eq_ok e
  have a1 := SXArray.accounted_array_initWithCapacity e1
  have a2 := accounted_manager_push e2
  exact (Accounted.alloc s.heap
    ⟨1, .array SX_ARRAY_DEFAULT_CAPACITY_INCREMENT 0 (List.replicate SX_ARRAY_DEFAULT_CAPACITY_INCREMENT 0)⟩
    (by decide)).trans (a1.trans a2)

theorem accounted_manager_sharedPoolManager {fuel : Nat} {s s2 : State}
    (e : sharedPoolManager fuel s = .ok s2) : Accounted s.heap s2.heap := by
  unfold sharedPoolManager at e
  split at e
  · simp at e; subst e; exact Accounted.refl _
  · exact accounted_manager_create e

theorem accounted_manager_purgePoolManager {fuel : Nat} {s s2 : State}
    (e : purgePoolManager fuel s = .ok s2) : Accounted s.heap s2.heap := by
  unfold purgePoolManager at e
  split at e
  · split at e
    · try simp only [Outcome.bind_eq] at e
      obtain ⟨h1, e1, e2⟩ := Outcome.bind_eq_ok e
      simp at e2; subst e2
      exact SXObject.accounted_release e1
    · simp at e; subst e; exact Accounted.refl _
  · simp at e; subst e; exact Accounted.refl _

end SXPoolManager

theorem SXObject.accounted_autorelease {fuel : Nat} {s : State} {o : Nat} {r : State × Nat}
    (e : SXObject.autorelease fuel s o = .ok r) : Accounted s.heap r.1.heap := by
  unfold SXObject.autorelease at e
  try simp only [Outcome.bind_eq] at e
  obtain ⟨s1, e1, e2⟩ := Outcome.bind_eq_ok e
  obtain ⟨s2, e3, e4⟩ := Outcome.bind_eq_ok e2
  obtain ⟨h3, e5, e6⟩ := Outcome.bind_eq_ok e4
  simp at e6; subst e6
  exact (SXPoolManager.accounted_manager_sharedPoolManager e1).trans
    ((SXPoolManager.accounted_manager_addObject e3).trans (SXObject.accounted_release e5))

theorem Call.accounted_run {fuel : Nat} {c : Call} {s s2 : State} (e : c.run fuel s = .ok s2) :
    Accounted s.heap s2.heap := by
  cases c with
  | construct =>
    simp [Call.run, SXObject.new] at e; subst e
    exact Accounted.alloc s.heap ⟨1, .object⟩ (by decide)
  | retain o =>
    obtain ⟨h1, e1, e2⟩ := Outcome.bind_eq_ok e
    simp at e2; subst e2; exact SXObject.accounted_retain e1
  | release o =>
    obtain ⟨h1, e1, e2⟩ := Outcome.bind_eq_ok e
    simp at e2; subst e2; exact SXObject.accounted_release e1
  | autorelease o =>
    obtain ⟨r, e1, e2⟩ := Outcome.bind_eq_ok e
    simp at e2; subst e2; exact SXObject.accounted_autorelease e1
  | push =>
    obtain ⟨s1, e1, e2⟩ := Outcome.bind_eq_ok e
    exact (SXPoolManager.accounted_manager_sharedPoolManager e1).trans (SXPoolManager.accounted_manager_push e2)
  | pop =>
    obtain ⟨s1, e1, e2⟩ := Outcome.bind_eq_ok e
    exact (SXPoolManager.accounted_manager_sharedPoolManager e1).trans (SXPoolManager.accounted_manager_pop e2)
  | addObject o =>
    obtain ⟨s1, e1, e2⟩ := Outcome.bind_eq_ok e
    exact (SXPoolManager.accounted_manager_sharedPoolManager e1).trans (SXPoolManager.accounted_manager_addObject e2)
  | removeObject o =>
    obtain ⟨s1, e1, e2⟩ := Outcome.bind_eq_ok e
    exact (SXPoolManager.accounted_manager_sharedPoolManager e1).trans
      (SXPoolManager.accounted_manager_removeObject e2)
  | sharedPoolManager => exact SXPoolManager.accounted_manager_sharedPoolManager e
  | purgePoolManager => exact SXPoolManager.accounted_manager_purgePoolManager e

namespace SXObject

theorem delete_ok_dead {fuel : Nat} {h h2 : Heap} {p : Nat} (e : delete fuel h p = .ok h2) :
    h2.read p = none := by
  cases fuel with
  | zero => simp [delete] at e
  | succ fuel =>
    rw [delete_succ] at e
    split at e
    · simp at e
    · split at e
      · simp at e; subst e; simp [Heap.read_free]
      · split at e
        · split at e
          · simp at e; subst e; simp [Heap.read_free]
          · simp at e
          · simp at e
        · simp at e; subst e; simp [Heap.read_free]
      · split at e
        · simp at e; subst e; simp [Heap.read_free]
        · simp at e
        · simp at e
      · simp at e; subst e; simp [Heap.read_free]
      · simp at e; subst e; simp [Heap.read_free]
      · simp at e; subst e; simp [Heap.read_free]
      · split at e
        · simp at e; subst e; simp [Heap.read_free]
        · simp at e
        · simp at e
      · split at e
        · simp at e; subst e; simp [Heap.read_free]
        · simp at e
        · simp at e

end SXObject

/-! ## SXArray: storage lemmas -/

namespace SXArray

theorem foldl_set_length (f : Nat → Nat) (l : List Nat) : ∀ init : List Nat,
    (l.foldl (fun pArr i => pArr.set i (f i)) init).length = init.length := by
  induction l with
  | nil => intro init; rfl
  | cons a l ih => intro init; simp [ih]

theorem copyElements_length (arr : List Nat) (capacity n : Nat) :
    (copyElements n arr capacity).length = capacity := by
  unfold copyElements
  rw [foldl_set_length (fun i => arr.getD i 0)]
  simp

theorem copyElements_succ (arr : List Nat) (capacity n : Nat) :
    copyElements (n + 1) arr capacity = (copyElements n arr capacity).set n (arr.getD n 0) := by
  unfold copyElements
  rw [List.range_succ, List.foldl_append]
  rfl

theorem copyElements_getElem? (arr : List Nat) (capacity : Nat) (n : Nat) (i : Nat) :
    (copyElements n arr capacity)[i]? =
      if i < capacity then (if i < n then some (arr.getD i 0) else some 0) else none := by
  induction n with
  | zero =>
    simp [copyElements]
    by_cases h : i < capacity
    · simp [h, List.getElem?_replicate]
    · simp [h, List.getElem?_replicate]
  | succ n ih =>
    rw [copyElements_succ, List.getElem?_set, copyElements_length, ih]
    by_cases hc : i < capacity
    · by_cases hin : n = i
      · subst hin; simp [hc]
      · by_cases h1 : i < n
        · have : i < n + 1 := by omega
          simp [h1, this, hin, hc]
        · have : ¬ i < n + 1 := by omega
          simp [h1, this, hin, hc]
    · by_cases hin : n = i
      · subst hin; simp [hc]
      · simp [hin, hc]

theorem copyElements_eq (arr : List Nat) (capacity n : Nat) (h1 : n ≤ arr.length)
    (h2 : n ≤ capacity) :
    copyElements n arr capacity = arr.take n ++ List.replicate (capacity - n) 0 := by
  apply List.ext_getElem?
  intro i
  rw [copyElements_getElem?]
  have hlen : (arr.take n).length = n := by simp [h1]
  by_cases hi : i < n
  · have hc : i < capacity := by omega
    have hl : i < arr.length := by omega
    rw [List.getElem?_append_left (by omega), List.getElem?_take]
    simp [hi, hc, List.getD_eq_getElem?_getD, List.getElem?_eq_getElem hl]
  · rw [List.getElem?_append_right (by omega), hlen, List.getElem?_replicate]
    by_cases hc : i < capacity
    · have : i - n < capacity - n := by omega
      simp [hi, hc, this]
    · have : ¬ i - n < capacity - n := by omega
      simp [hc, this]

theorem take_succ_set (l : List Nat) (n o : Nat) (h : n < l.length) :
    (l.set n o).take (n + 1) = l.take n ++ [o] := by
  induction l generalizing n with
  | nil => simp at h
  | cons a l ih =>
    cases n with
    | zero => simp
    | succ n => simp at h; simp [ih n h]

end SXArray

namespace SXArray

theorem resize_then_set (regs junk : List Nat) (o : Nat) (hj : junk = []) :
    (copyElements regs.length (regs ++ junk) (regs.length + junk.length + SX_ARRAY_DEFAULT_CAPACITY_INCREMENT)).set
      regs.length o = regs ++ o :: spare junk := by
  subst hj
  rw [copyElements_eq _ _ _ (by simp) (by simp)]
  simp [spare, SX_ARRAY_DEFAULT_CAPACITY_INCREMENT, List.replicate]

theorem set_first_junk (regs junk : List Nat) (o : Nat) (hj : junk ≠ []) :
    (regs ++ junk).set regs.length o = regs ++ o :: spare junk := by
  cases junk with
  | nil => exact absurd rfl hj
  | cons j js => simp [spare]

theorem spare_length (junk : List Nat) :
    (spare junk).length + 1 =
      if junk = [] then SX_ARRAY_DEFAULT_CAPACITY_INCREMENT else junk.length := by
  cases junk with
  | nil => simp [spare, SX_ARRAY_DEFAULT_CAPACITY_INCREMENT]
  | cons j js => simp [spare]

/-- Retaining `o` and storing it behind the last element. -/
theorem retain_store_reads (h : Heap) (a o rcA c cap count : Nat) (arr : List Nat) (body : Body)
    (ha : h.read a = some ⟨rcA, .array cap count arr⟩) (ho : h.read o = some ⟨c, body⟩) :
    ∃ h2, ((SXObject.retain h o).bind fun h1 => storeAtCount h1 a o) = .ok h2 ∧
      h2.trace = h.trace ∧ h2.cells.length = h.cells.length ∧
      (∀ q, q ≠ a → q ≠ o → h2.read q = h.read q) ∧
      (o ≠ a → h2.read o = some ⟨wrap (c + 1), body⟩) ∧
      h2.read a = some ⟨if o = a then wrap (rcA + 1) else rcA,
        .array cap (count + 1) (arr.set count o)⟩ := by
  have hva := Heap.valid_of_read ha
  have hvo := Heap.valid_of_read ho
  by_cases hoa : o = a
  · subst hoa
    rw [ha] at ho; cases ho
    refine ⟨(h.write o ⟨wrap (rcA + 1), .array cap count arr⟩).write o
      ⟨wrap (rcA + 1), .array cap (count + 1) (arr.set count o)⟩, ?_, ?_, ?_, ?_, ?_, ?_⟩
    · simp [SXObject.retain, ha, storeAtCount, Heap.read_write, hva]
    · simp
    · simp
    · intro q hq _; simp [Heap.read_write, hq]
    · intro hne; exact absurd rfl hne
    · simp [Heap.read_write, hva]
  · have hao : a ≠ o := Ne.symm hoa
    refine ⟨(h.write o ⟨wrap (c + 1), body⟩).write a
      ⟨rcA, .array cap (count + 1) (arr.set count o)⟩, ?_, ?_, ?_, ?_, ?_, ?_⟩
    · simp [SXObject.retain, ho, ha, storeAtCount, Heap.read_write, hva, hvo, hao]
    · simp
    · simp
    · intro q hq hq2; simp [Heap.read_write, hq, hq2]
    · intro _; simp [Heap.read_write, hva, hvo, hoa]
    · simp [Heap.read_write, hva, hvo, hoa]

/-- The array cell after `addObject(o)`. -/
theorem addObject_reads (h : Heap) (a o rcA c : Nat) (regs junk : List Nat) (body : Body)
    (ha : h.read a = some ⟨rcA, .array (regs.length + junk.length) regs.length (regs ++ junk)⟩)
    (ho : h.read o = some ⟨c, body⟩) :
    ∃ h2, addObject h a o = .ok h2 ∧ h2.trace = h.trace ∧ h2.cells.length = h.cells.length ∧
      (∀ q, q ≠ a → q ≠ o → h2.read q = h.read q) ∧
      (o ≠ a → h2.read o = some ⟨wrap (c + 1), body⟩) ∧
      h2.read a = some ⟨if o = a then wrap (rcA + 1) else rcA,
        .array (regs.length + 1 + (spare junk).length) (regs.length + 1) (regs ++ o :: spare junk)⟩ := by
  have hva := Heap.valid_of_read ha
  have hvo := Heap.valid_of_read ho
  have ho0 : o ≠ 0 := hvo.1
  have hsl := spare_length junk
  by_cases hj : junk = []
  · have hcc : regs.length = regs.length + junk.length := by simp [hj]
    have hcap : regs.length + junk.length + SX_ARRAY_DEFAULT_CAPACITY_INCREMENT =
        regs.length + 1 + (spare junk).length := by simp [hj] at hsl ⊢; omega
    have ha1 : (h.write a ⟨rcA, .array (regs.length + junk.length + SX_ARRAY_DEFAULT_CAPACITY_INCREMENT)
        regs.length (copyElements regs.length (regs ++ junk)
          (regs.length + junk.length + SX_ARRAY_DEFAULT_CAPACITY_INCREMENT))⟩).read a = some ⟨rcA, .array
        (regs.length + junk.length + SX_ARRAY_DEFAULT_CAPACITY_INCREMENT)
        regs.length (copyElements regs.length (regs ++ junk)
          (regs.length + junk.length + SX_ARRAY_DEFAULT_CAPACITY_INCREMENT))⟩ := by
      simp [Heap.read_write, hva]
    have ho1 : ∃ c1 body1, (h.write a ⟨rcA, .array (regs.length + junk.length + SX_ARRAY_DEFAULT_CAPACITY_INCREMENT)
        regs.length (copyElements regs.length (regs ++ junk)
          (regs.length + junk.length + SX_ARRAY_DEFAULT_CAPACITY_INCREMENT))⟩).read o = some ⟨c1, body1⟩ ∧
        (o ≠ a → c1 = c ∧ body1 = body) := by
      by_cases hoa : o = a
      · exact ⟨_, _, by rw [hoa]; exact ha1, fun hne => absurd hoa hne⟩
      · exact ⟨c, body, by simp [Heap.read_write, hoa, ho], fun _ => ⟨rfl, rfl⟩⟩
    obtain ⟨c1, body1, ho1, hcb⟩ := ho1
    obtain ⟨h2, e, t, l, fr, r1, r2⟩ := retain_store_reads _ a o rcA c1 _ _ _ body1 ha1 ho1
    refine ⟨h2, ?_, by simpa using t, by simpa using l, ?_, ?_, ?_⟩
    · simp only [addObject, ho0, ne_eq, not_false_eq_true, if_true, ha]
      rw [if_pos hcc]
      have hle : regs.length ≤ regs.length + junk.length + SX_ARRAY_DEFAULT_CAPACITY_INCREMENT := by
        omega
      simp only [resizeArray, ha, hle, if_true, Outcome.bind_ok]
      exact e
    · intro q hq hq2; rw [fr q hq hq2]; simp [Heap.read_write, hq]
    · intro hne; rw [r1 hne, (hcb hne).1, (hcb hne).2]
    · rw [r2, resize_then_set regs junk o hj, hcap]
  · have hcc : ¬ regs.length = regs.length + junk.length := by
      have : junk.length ≠ 0 := by simpa using hj
      omega
    have hcap : regs.length + junk.length = regs.length + 1 + (spare junk).length := by
      simp [hj] at hsl; omega
    obtain ⟨h2, e, t, l, fr, r1, r2⟩ := retain_store_reads h a o rcA c _ _ _ body ha ho
    refine ⟨h2, ?_, t, l, fr, r1, ?_⟩
    · simp only [addObject, ho0, ne_eq, not_false_eq_true, if_true, ha]
      rw [if_neg hcc]
      simp only [Outcome.bind_ok]
      exact e
    · rw [r2, set_first_junk regs junk o hj, hcap]

end SXArray

theorem wrap_succ_pred (c : Nat) (h1 : 1 ≤ c) (h2 : c ≤ UINT_MAX) :
    wrap (wrap (c + 1) + UINT_MAX) = c := by
  unfold wrap UINT_MAX at *; omega

theorem take_length_succ_append (regs sp : List Nat) (o : Nat) :
    (regs ++ o :: sp).take (regs.length + 1) = regs ++ [o] := by
  induction regs with
  | nil => simp
  | cons a l ih => simp [ih]

namespace SXObject

theorem release_alive (fuel : Nat) (h : Heap) (this rc : Nat) (body : Body)
    (hr : h.read this = some ⟨rc, body⟩) (hne : wrap (rc + UINT_MAX) ≠ 0) :
    release (fuel + 1) h this =
      .ok ((h.write this ⟨wrap (rc + UINT_MAX), body⟩).log (.release this rc)) := by
  simp [release_succ, hr, hne]

/-- C1: on a live object `o` with count `c >= 1`, with a manager whose current
pool is a live pool (the stack is not empty), `autorelease()` returns `o`,
appends one registration of `o` behind the registrations of that pool and
leaves `o` alive with count `c`; the manager is unchanged. -/
theorem autorelease_registers (fuel : Nat) (s : State) (m : SXPoolManager)
    (o c rcP pObjects rcA cap count : Nat) (arr : List Nat) (body : Body)
    (hm : s.pInstance = some m)
    (hpool : s.heap.read m.m_pCurrentPool = some ⟨rcP, .pool pObjects⟩)
    (harr : s.heap.read pObjects = some ⟨rcA, .array cap count arr⟩)
    (hcount : count ≤ cap) (hcap : arr.length = cap)
    (hlive : s.heap.read o = some ⟨c, body⟩) (hc1 : 1 ≤ c) (hmax : c < 2 ^ 32) :
    ∃ s2, autorelease (fuel + 1) s o = .ok (s2, o) ∧
      s2.pInstance = s.pInstance ∧
      s2.heap.registrations m.m_pCurrentPool = s.heap.registrations m.m_pCurrentPool ++ [o] ∧
      s2.heap.retainCount o = some c ∧
      (∃ body2, s2.heap.read o = some ⟨c, body2⟩) := by
  have hb : c ≤ UINT_MAX := by
    have : UINT_MAX + 1 = 2 ^ 32 := by norm_num [UINT_MAX]
    omega
  -- the buffer as elements followed by unused slots
  have harr2 : s.heap.read pObjects = some ⟨rcA, .array ((arr.take count).length + (arr.drop count).length)
      (arr.take count).length (arr.take count ++ arr.drop count)⟩ := by
    rw [harr]
    have h1 : (arr.take count).length = count := by simp; omega
    have h2 : (arr.drop count).length = cap - count := by simp [hcap]
    rw [List.take_append_drop, h1, h2]
    congr 3
    omega
  have hlen : (arr.take count).length = count := by simp; omega
  obtain ⟨h2, e2, t2, l2, fr, r1, r2⟩ :=
    SXArray.addObject_reads s.heap pObjects o rcA c _ _ body harr2 hlive
  have hPA : m.m_pCurrentPool ≠ pObjects := by
    intro heq; rw [heq, harr] at hpool; cases hpool
  -- the object after addObject
  have ho2 : ∃ body2, h2.read o = some ⟨wrap (c + 1), body2⟩ ∧
      (o = m.m_pCurrentPool → body2 = .pool pObjects) ∧
      (o = pObjects → body2 = .array ((arr.take count).length + 1 + (SXArray.spare (arr.drop count)).length)
        ((arr.take count).length + 1) (arr.take count ++ o :: SXArray.spare (arr.drop count))) := by
    by_cases hoa : o = pObjects
    · subst hoa
      rw [harr] at hlive; cases hlive
      exact ⟨_, by rw [r2]; simp, fun h => absurd h.symm hPA, fun _ => rfl⟩
    · refine ⟨body, r1 hoa, ?_, fun h => absurd h hoa⟩
      intro hop; subst hop; rw [hpool] at hlive; cases hlive; rfl
  obtain ⟨body2, ho2, hbP, hbA⟩ := ho2
  have hv2 := Heap.valid_of_read ho2
  have hw : wrap (wrap (c + 1) + UINT_MAX) = c := wrap_succ_pred c hc1 hb
  have hne : wrap (wrap (c + 1) + UINT_MAX) ≠ 0 := by rw [hw]; omega
  have e3 := release_alive fuel h2 o _ body2 ho2 hne
  rw [hw] at e3
  refine ⟨⟨(h2.write o ⟨c, body2⟩).log (.release o (wrap (c + 1))), s.pInstance⟩, ?_, rfl, ?_, ?_, ?_⟩
  · simp [autorelease, SXPoolManager.sharedPoolManager, hm, SXPoolManager.addObject,
      SXAutoreleasePool.addObject, SXAutoreleasePool.objects, hpool, e2, e3]
  · -- registrations of the current pool
    have hP3 : ((h2.write o ⟨c, body2⟩).log (.release o (wrap (c + 1)))).read m.m_pCurrentPool =
        some ⟨if m.m_pCurrentPool = o then c else rcP, .pool pObjects⟩ := by
      by_cases hop : m.m_pCurrentPool = o
      · simp [Heap.read_write, hop, hv2, hbP hop.symm]
      · simp [Heap.read_write, hop, fr _ hPA hop, hpool]
    have hA3 : ∃ rc3, ((h2.write o ⟨c, body2⟩).log (.release o (wrap (c + 1)))).read pObjects =
        some ⟨rc3, .array ((arr.take count).length + 1 + (SXArray.spare (arr.drop count)).length)
        ((arr.take count).length + 1) (arr.take count ++ o :: SXArray.spare (arr.drop count))⟩ := by
      by_cases hoa : pObjects = o
      · exact ⟨c, by simp [Heap.read_write, hoa, hv2, hbA hoa.symm]⟩
      · exact ⟨_, by simp only [Heap.read_log, Heap.read_write, hoa, false_and, if_false]; exact r2⟩
    obtain ⟨rc3, hA3⟩ := hA3
    simp only [Heap.registrations, hP3, hpool, Heap.elements, hA3, harr]
    exact take_length_succ_append _ _ _
  · simp [Heap.retainCount, Heap.read_write, hv2]
  · exact ⟨body2, by simp [Heap.read_write, hv2]⟩

end SXObject

/-! ## The state after the first access to the manager -/

theorem freshManager_eq (fuel : Nat) :
    SXPoolManager.sharedPoolManager (fuel + 1) SXPoolManager.initial = .ok freshManager := rfl

theorem freshManagerWithObject_eq (fuel : Nat) :
    runCalls (fuel + 1) [.sharedPoolManager, .construct] SXPoolManager.initial =
      .ok freshManagerWithObject := rfl

namespace SXObject

/-- Instance of `autorelease_registers`: a freshly constructed object (count 1,
address 4) is autoreleased into the initial pool of a fresh manager; its count
is 1 afterwards. -/
theorem autorelease_registers_witness :
    freshManagerWithObject.pInstance = some ⟨1, 2⟩ ∧
    freshManagerWithObject.heap.read 2 = some ⟨1, .pool 3⟩ ∧
    freshManagerWithObject.heap.read 3 = some ⟨1, .array 10 0 [0, 0, 0, 0, 0, 0, 0, 0, 0, 0]⟩ ∧
    0 ≤ 10 ∧ [0, 0, 0, 0, 0, 0, 0, 0, 0, 0].length = 10 ∧
    freshManagerWithObject.heap.read 4 = some ⟨1, .object⟩ ∧ 1 ≤ 1 ∧ 1 < 2 ^ 32 ∧
    ∃ s2, autorelease (0 + 1) freshManagerWithObject 4 = .ok (s2, 4) ∧
      s2.pInstance = freshManagerWithObject.pInstance ∧
      s2.heap.registrations 2 = freshManagerWithObject.heap.registrations 2 ++ [4] ∧
      s2.heap.retainCount 4 = some 1 ∧
      (∃ body2, s2.heap.read 4 = some ⟨1, body2⟩) :=
  ⟨rfl, rfl, rfl, by decide, rfl, rfl, by decide, by norm_num,
    autorelease_registers 0 freshManagerWithObject ⟨1, 2⟩ 4 1 1 3 1 10 0
      [0, 0, 0, 0, 0, 0, 0, 0, 0, 0] .object rfl rfl rfl (by decide) rfl rfl (by decide)
      (by norm_num)⟩

end SXObject

/-! ## Releasing plain objects -/

theorem release_plain (fuel : Nat) (h : Heap) (o c : Nat) (hr : h.read o = some ⟨c, .object⟩)
    (h1 : 1 ≤ c) (h2 : c ≤ UINT_MAX) :
    SXObject.release (fuel + 2) h o = .ok (releasePlain h o) := by
  by_cases hc : c = 1
  · subst hc
    rw [SXObject.release_object_last fuel h o hr]
    simp [releasePlain, hr]
  · rw [SXObject.release_keeps (fuel + 1) h o c .object hr (by omega) h2]
    simp [releasePlain, hr, hc]

theorem releasePlain_trace (h : Heap) (o : Nat) :
    (releasePlain h o).trace = h.trace ++ stepEvents h o := by
  unfold releasePlain stepEvents
  split
  · split <;> simp
  · simp

theorem releasePlain_length (h : Heap) (o : Nat) :
    (releasePlain h o).cells.length = h.cells.length := by
  unfold releasePlain
  split
  · split <;> simp
  · rfl

theorem releasePlain_read_ne (h : Heap) (o q : Nat) (hq : q ≠ o) :
    (releasePlain h o).read q = h.read q := by
  unfold releasePlain
  split
  · split <;> simp [Heap.read_write, Heap.read_free, hq]
  · rfl

theorem releasePlain_read_self (h : Heap) (o c : Nat) (hr : h.read o = some ⟨c, .object⟩) :
    (releasePlain h o).read o = if c = 1 then none else some ⟨c - 1, .object⟩ := by
  have hv := Heap.valid_of_read hr
  unfold releasePlain
  rw [hr]
  by_cases hc : c = 1
  · simp [hc, Heap.read_free]
  · simp [hc, Heap.read_write, hv]

theorem releasePlain_bounded (h : Heap) (o : Nat) (hb : h.bounded) : (releasePlain h o).bounded := by
  unfold releasePlain
  split
  · rename_i c hr
    have hc : c ≤ UINT_MAX := Heap.bounded_read hb hr
    split
    · exact Heap.bounded_free (Heap.bounded_log (Heap.bounded_log
        (Heap.bounded_write hb o (by decide)) _) _) o
    · exact Heap.bounded_log (Heap.bounded_write hb o (by show c - 1 ≤ UINT_MAX; omega)) _
  · exact hb

namespace SameReads

theorem same (xs : List Nat) (h : Heap) : SameReads xs h h := ⟨rfl, fun _ _ => rfl⟩

theorem symm {xs : List Nat} {h1 h2 : Heap} (a : SameReads xs h1 h2) : SameReads xs h2 h1 :=
  ⟨a.1.symm, fun q hq => (a.2 q hq).symm⟩

theorem andThen {xs : List Nat} {h1 h2 h3 : Heap} (a : SameReads xs h1 h2) (b : SameReads xs h2 h3) :
    SameReads xs h1 h3 :=
  ⟨a.1.trans b.1, fun q hq => (a.2 q hq).trans (b.2 q hq)⟩

theorem mono {xs ys : List Nat} {h1 h2 : Heap} (a : SameReads xs h1 h2) (hsub : ∀ x ∈ xs, x ∈ ys) :
    SameReads ys h1 h2 :=
  ⟨a.1, fun q hq => a.2 q (fun hx => hq (hsub q hx))⟩

theorem write_left (xs : List Nat) (h : Heap) (p : Nat) (c : Cell) (hp : p ∈ xs) :
    SameReads xs (h.write p c) h :=
  ⟨by simp, fun q hq => by
    have : q ≠ p := fun e => hq (e ▸ hp)
    simp [Heap.read_write, this]⟩

theorem free_left (xs : List Nat) (h : Heap) (p : Nat) (hp : p ∈ xs) :
    SameReads xs (h.free p) h :=
  ⟨by simp, fun q hq => by
    have : q ≠ p := fun e => hq (e ▸ hp)
    simp [Heap.read_free, this]⟩

theorem log_left (xs : List Nat) (h : Heap) (e : Event) : SameReads xs (h.log e) h :=
  ⟨rfl, fun _ _ => rfl⟩

theorem valid_iff {xs : List Nat} {h1 h2 : Heap} (a : SameReads xs h1 h2) (p : Nat) :
    h1.valid p ↔ h2.valid p := by
  unfold Heap.valid; rw [a.1]

theorem releasePlain {xs : List Nat} {h1 h2 : Heap} (a : SameReads xs h1 h2) (o : Nat)
    (ho : o ∉ xs) : SameReads xs (releasePlain h1 o) (releasePlain h2 o) := by
  refine ⟨by rw [releasePlain_length, releasePlain_length, a.1], ?_⟩
  intro q hq
  by_cases hqo : q = o
  · subst hqo
    have e := a.2 q hq
    cases hr : h2.read q with
    | none =>
      rw [hr] at e
      simp [spalx.releasePlain, hr, e]
    | some cell =>
      rw [hr] at e
      obtain ⟨c, body⟩ := cell
      cases body with
      | object => rw [releasePlain_read_self h1 q c e, releasePlain_read_self h2 q c hr]
      | array a b d => simp [spalx.releasePlain, hr, e]
      | pool p => simp [spalx.releasePlain, hr, e]
      | string t => simp [spalx.releasePlain, hr, e]
      | number t v => simp [spalx.releasePlain, hr, e]
      | data bs => simp [spalx.releasePlain, hr, e]
      | dictionary m => simp [spalx.releasePlain, hr, e]
      | set xs => simp [spalx.releasePlain, hr, e]
  · rw [releasePlain_read_ne _ _ _ hqo, releasePlain_read_ne _ _ _ hqo]
    exact a.2 q hq

theorem stepEvents {xs : List Nat} {h1 h2 : Heap} (a : SameReads xs h1 h2) (o : Nat)
    (ho : o ∉ xs) : stepEvents h1 o = stepEvents h2 o := by
  unfold spalx.stepEvents
  rw [a.2 o ho]

end SameReads

theorem drainPlain_nil (h : Heap) : drainPlain h [] = h := rfl

theorem drainPlain_cons (h : Heap) (o : Nat) (rest : List Nat) :
    drainPlain h (o :: rest) = drainPlain (releasePlain h o) rest := rfl

theorem drainPlain_append (h : Heap) (l1 l2 : List Nat) :
    drainPlain h (l1 ++ l2) = drainPlain (drainPlain h l1) l2 := by
  simp [drainPlain, List.foldl_append]

theorem plainEvents_append (l1 l2 : List Nat) : ∀ h : Heap,
    plainEvents h (l1 ++ l2) = plainEvents h l1 ++ plainEvents (drainPlain h l1) l2 := by
  induction l1 with
  | nil => intro h; simp [plainEvents, drainPlain]
  | cons a l ih => intro h; simp [plainEvents, drainPlain_cons, ih]

theorem drainPlain_trace (regs : List Nat) : ∀ h : Heap,
    (drainPlain h regs).trace = h.trace ++ plainEvents h regs := by
  induction regs with
  | nil => intro h; simp [drainPlain, plainEvents]
  | cons a l ih =>
    intro h
    rw [drainPlain_cons, ih, releasePlain_trace, plainEvents, List.append_assoc]

theorem drainPlain_length (regs : List Nat) : ∀ h : Heap,
    (drainPlain h regs).cells.length = h.cells.length := by
  induction regs with
  | nil => intro h; rfl
  | cons a l ih => intro h; rw [drainPlain_cons, ih, releasePlain_length]

theorem drainPlain_bounded (regs : List Nat) : ∀ h : Heap, h.bounded →
    (drainPlain h regs).bounded := by
  induction regs with
  | nil => intro h hb; exact hb
  | cons a l ih => intro h hb; rw [drainPlain_cons]; exact ih _ (releasePlain_bounded h a hb)

theorem drainPlain_read_of_not_mem (regs : List Nat) : ∀ (h : Heap) (q : Nat), q ∉ regs →
    (drainPlain h regs).read q = h.read q := by
  induction regs with
  | nil => intro h q _; rfl
  | cons a l ih =>
    intro h q hq
    simp at hq
    rw [drainPlain_cons, ih _ q hq.2, releasePlain_read_ne _ _ _ hq.1]

theorem Owned.head {h : Heap} {a : Nat} {rest : List Nat} (ho : Owned h (a :: rest)) :
    ∃ c, h.read a = some ⟨c, .object⟩ ∧ rest.count a + 1 ≤ c ∧ c ≤ UINT_MAX := by
  obtain ⟨c, hr, hc, hm⟩ := ho a (by simp)
  exact ⟨c, hr, by simpa using hc, hm⟩

theorem Owned.released_head {h : Heap} {a : Nat} {rest : List Nat} (ho : Owned h (a :: rest)) :
    Owned (releasePlain h a) rest := by
  obtain ⟨ca, hra, hca, hma⟩ := ho.head
  intro o hmem
  by_cases hoa : o = a
  · subst hoa
    have hpos : 0 < rest.count o := List.count_pos_iff.2 hmem
    refine ⟨ca - 1, ?_, by omega, by omega⟩
    rw [releasePlain_read_self h o ca hra]
    have : ca ≠ 1 := by omega
    simp [this]
  · obtain ⟨c, hr, hc, hm⟩ := ho o (by simp [hmem])
    refine ⟨c, by rw [releasePlain_read_ne _ _ _ hoa]; exact hr, ?_, hm⟩
    rw [List.count_cons_of_ne hoa] at hc
    exact hc

theorem Owned.nil (h : Heap) : Owned h [] := fun o ho => by simp at ho

theorem drainPlain_read_owned (regs : List Nat) : ∀ (h : Heap), Owned h regs →
    ∀ o c, h.read o = some ⟨c, .object⟩ →
    (drainPlain h regs).read o =
      if 0 < regs.count o ∧ c = regs.count o then none else some ⟨c - regs.count o, .object⟩ := by
  induction regs with
  | nil => intro h _ o c hr; simp [drainPlain, hr]
  | cons a l ih =>
    intro h hown o c hr
    obtain ⟨ca, hra, hca, hma⟩ := hown.head
    rw [drainPlain_cons]
    by_cases hoa : o = a
    · subst hoa
      rw [hra] at hr; cases hr
      by_cases h1 : c = 1
      · subst h1
        have hz : l.count o = 0 := by omega
        have hnm : o ∉ l := List.count_eq_zero.1 hz
        rw [drainPlain_read_of_not_mem l _ o hnm, releasePlain_read_self h o 1 hra]
        simp [hz]
      · have hr1 : (releasePlain h o).read o = some ⟨c - 1, .object⟩ := by
          rw [releasePlain_read_self h o c hra]; simp [h1]
        rw [ih _ hown.released_head o (c - 1) hr1]
        simp only [List.count_cons_self]
        by_cases hz : l.count o = 0
        · have : ¬ (c = 0 + 1) := by omega
          simp [hz, this]
        · have hp : 0 < l.count o := by omega
          by_cases he : c - 1 = l.count o
          · have : c = l.count o + 1 := by omega
            simp [hp, he, this]
          · have : ¬ c = l.count o + 1 := by omega
            simp [he, this]
            omega
    · have hr1 : (releasePlain h a).read o = some ⟨c, .object⟩ := by
        rw [releasePlain_read_ne _ _ _ hoa]; exact hr
      rw [ih _ hown.released_head o c hr1, List.count_cons_of_ne hoa]

theorem drainPlain_sameReads (regs : List Nat) : ∀ (xs : List Nat) (h1 h2 : Heap),
    SameReads xs h1 h2 → (∀ o ∈ regs, o ∉ xs) →
    SameReads xs (drainPlain h1 regs) (drainPlain h2 regs) ∧
      plainEvents h1 regs = plainEvents h2 regs := by
  induction regs with
  | nil => intro xs h1 h2 a _; exact ⟨a, rfl⟩
  | cons o l ih =>
    intro xs h1 h2 a hx
    have ho : o ∉ xs := hx o (by simp)
    obtain ⟨s1, e1⟩ := ih xs _ _ (a.releasePlain o ho) (fun q hq => hx q (by simp [hq]))
    exact ⟨s1, by simp [plainEvents, a.stepEvents o ho, e1]⟩

theorem releasedObjects_append (l1 l2 : List Event) :
    releasedObjects (l1 ++ l2) = releasedObjects l1 ++ releasedObjects l2 := by
  simp [releasedObjects]

theorem destroyedObjects_append (l1 l2 : List Event) :
    destroyedObjects (l1 ++ l2) = destroyedObjects l1 ++ destroyedObjects l2 := by
  simp [destroyedObjects]

theorem eventsOf_append (o : Nat) (l1 l2 : List Event) :
    eventsOf o (l1 ++ l2) = eventsOf o l1 ++ eventsOf o l2 := by
  simp [eventsOf]

theorem releasedObjects_stepEvents (h : Heap) (o c : Nat) (hr : h.read o = some ⟨c, .object⟩) :
    releasedObjects (stepEvents h o) = [o] := by
  unfold stepEvents
  rw [hr]
  by_cases hc : c = 1 <;> simp [hc, releasedObjects]

theorem releasedObjects_plainEvents (regs : List Nat) : ∀ (h : Heap), Owned h regs →
    releasedObjects (plainEvents h regs) = regs := by
  induction regs with
  | nil => intro h _; rfl
  | cons a l ih =>
    intro h hown
    obtain ⟨ca, hra, -, -⟩ := hown.head
    rw [plainEvents, releasedObjects_append, releasedObjects_stepEvents h a ca hra, ih _ hown.released_head]
    rfl

theorem eventsOf_stepEvents_ne (h : Heap) (o q : Nat) (hq : q ≠ o) :
    eventsOf q (stepEvents h o) = [] := by
  unfold stepEvents
  have : ¬ o = q := fun e => hq e.symm
  split
  · split <;> simp [eventsOf, this]
  · rfl

theorem eventsOf_plainEvents_of_not_mem (regs : List Nat) : ∀ (h : Heap) (q : Nat), q ∉ regs →
    eventsOf q (plainEvents h regs) = [] := by
  induction regs with
  | nil => intro h q _; rfl
  | cons a l ih =>
    intro h q hq
    simp at hq
    rw [plainEvents, eventsOf_append, eventsOf_stepEvents_ne h a q hq.1, ih _ q hq.2]
    rfl

theorem Owned.transfer {h h2 : Heap} {regs xs : List Nat} (ho : Owned h regs)
    (a : SameReads xs h2 h) (hx : ∀ o ∈ regs, o ∉ xs) : Owned h2 regs := by
  intro o hmem
  obtain ⟨c, hr, hc, hm⟩ := ho o hmem
  exact ⟨c, by rw [a.2 o (hx o hmem)]; exact hr, hc, hm⟩

theorem Owned.not_array {h : Heap} {regs : List Nat} (ho : Owned h regs) {a rc cap count : Nat}
    {arr : List Nat} (ha : h.read a = some ⟨rc, .array cap count arr⟩) : a ∉ regs := by
  intro hmem
  obtain ⟨c, hr, -, -⟩ := ho a hmem
  rw [ha] at hr; cases hr

theorem Owned.not_pool {h : Heap} {regs : List Nat} (ho : Owned h regs) {p rc a : Nat}
    (hp : h.read p = some ⟨rc, .pool a⟩) : p ∉ regs := by
  intro hmem
  obtain ⟨c, hr, -, -⟩ := ho p hmem
  rw [hp] at hr; cases hr

theorem Owned.not_dead {h : Heap} {regs : List Nat} (ho : Owned h regs) {p : Nat}
    (hp : h.read p = none) : p ∉ regs := by
  intro hmem
  obtain ⟨c, hr, -, -⟩ := ho p hmem
  rw [hp] at hr; cases hr

/-- The loop of `removeAllObjects` over plain objects that the array owns. -/
theorem removeAllObjectsFrom_plain (regs : List Nat) : ∀ (fuel : Nat) (h : Heap)
    (a rcA cap : Nat) (pre junk : List Nat),
    h.read a = some ⟨rcA, .array cap (pre.length + regs.length) (pre ++ regs ++ junk)⟩ →
    Owned h regs →
    ∃ h2, SXObject.removeAllObjectsFrom (fuel + regs.length + 2) h a pre.length = .ok h2 ∧
      h2.trace = h.trace ++ plainEvents h regs ∧
      SameReads [a] h2 (drainPlain h regs) ∧
      h2.read a = some ⟨rcA, .array cap 0 (pre ++ List.replicate regs.length 0 ++ junk)⟩ := by
  induction regs with
  | nil =>
    intro fuel h a rcA cap pre junk ha _
    have hv := Heap.valid_of_read ha
    refine ⟨h.write a ⟨rcA, .array cap 0 (pre ++ [] ++ junk)⟩, ?_, by simp [plainEvents],
      SameReads.write_left _ _ _ _ (by simp), by simp [Heap.read_write, hv]⟩
    rw [show fuel + ([] : List Nat).length + 2 = (fuel + 1) + 1 by simp,
      SXObject.removeAllObjectsFrom_succ]
    simp [ha]
  | cons o rest ih =>
    intro fuel h a rcA cap pre junk ha hown
    have hv := Heap.valid_of_read ha
    obtain ⟨c, hro, hc, hm⟩ := hown.head
    have ho0 : o ≠ 0 := (Heap.valid_of_read hro).1
    have hoa : o ≠ a := by intro e; rw [e, ha] at hro; cases hro
    have hao : a ≠ o := Ne.symm hoa
    have hrel := release_plain (fuel + rest.length) h o c hro (by omega) hm
    have hget : (pre ++ o :: rest ++ junk).getD pre.length 0 = o := by
      rw [List.getD_eq_getElem?_getD, List.append_assoc,
        List.getElem?_append_right (Nat.le_refl _)]
      simp
    have hset : (pre ++ o :: rest ++ junk).set pre.length 0 = (pre ++ [0]) ++ rest ++ junk := by
      simp
    have ha1 : (releasePlain h o).read a =
        some ⟨rcA, .array cap (pre.length + (o :: rest).length) (pre ++ o :: rest ++ junk)⟩ := by
      rw [releasePlain_read_ne _ _ _ hao]; exact ha
    -- the heap after the first round
    have hsr : SameReads [a] ((releasePlain h o).write a
        ⟨rcA, .array cap (pre.length + (o :: rest).length) ((pre ++ [0]) ++ rest ++ junk)⟩)
        (releasePlain h o) := SameReads.write_left _ _ _ _ (by simp)
    have hnot : ∀ q ∈ rest, q ∉ [a] := by
      intro q hq hqa
      simp at hqa
      subst hqa
      exact hown.not_array ha (by simp [hq])
    have hown2 := (hown.released_head).transfer hsr hnot
    have ha2 : ((releasePlain h o).write a
        ⟨rcA, .array cap (pre.length + (o :: rest).length) ((pre ++ [0]) ++ rest ++ junk)⟩).read a =
        some ⟨rcA, .array cap ((pre ++ [0]).length + rest.length) ((pre ++ [0]) ++ rest ++ junk)⟩ := by
      have hv1 : (releasePlain h o).valid a := Heap.valid_of_read ha1
      simp [Heap.read_write, hv1]
      omega
    obtain ⟨h2, e2, t2, s2, r2⟩ := ih fuel _ a rcA cap (pre ++ [0]) junk ha2 hown2
    obtain ⟨s3, ev3⟩ := drainPlain_sameReads rest [a] _ _ hsr hnot
    refine ⟨h2, ?_, ?_, s2.andThen s3, ?_⟩
    · rw [show fuel + (o :: rest).length + 2 = (fuel + rest.length + 2) + 1 by simp; omega,
        SXObject.removeAllObjectsFrom_succ]
      simp only [ha, hget]
      have hlt : pre.length < pre.length + (o :: rest).length := by simp
      rw [if_pos hlt, if_pos ho0, hrel]
      simp only [ha1, hset]
      have : (pre ++ [0]).length = pre.length + 1 := by simp
      rw [this] at e2
      exact e2
    · rw [t2, ev3]
      simp [releasePlain_trace, plainEvents]
    · rw [r2]
      simp [List.replicate_succ]

theorem PoolRep.holds.ne {h : Heap} {r : PoolRep} (hr : r.holds h) : r.pool ≠ r.objects := by
  intro e
  have h1 := hr.1
  rw [e, hr.2] at h1
  cases h1

/-- Releasing the last reference to a pool: the pool and its array are
destroyed and every registration is released once, in order. -/
theorem release_pool (fuel : Nat) (h : Heap) (r : PoolRep) (hr : r.holds h)
    (hown : Owned h r.regs) :
    ∃ h2, SXObject.release (fuel + r.regs.length + 6) h r.pool = .ok h2 ∧
      h2.trace = h.trace ++ [.release r.pool 1, .destroy r.pool, .release r.objects 1,
        .destroy r.objects] ++ plainEvents h r.regs ∧
      SameReads [r.pool, r.objects] h2 (drainPlain h r.regs) ∧
      h2.read r.pool = none ∧ h2.read r.objects = none := by
  obtain ⟨hP, hA⟩ := hr
  have hne : r.pool ≠ r.objects := PoolRep.holds.ne ⟨hP, hA⟩
  have hne2 : r.objects ≠ r.pool := Ne.symm hne
  have hvP := Heap.valid_of_read hP
  have hvA := Heap.valid_of_read hA
  have hA0 : r.objects ≠ 0 := hvA.1
  have e0 : wrap (1 + UINT_MAX) = 0 := by decide
  -- the heap in which the loop over the registrations starts
  let hl : Heap := ((((h.write r.pool ⟨0, .pool r.objects⟩).log (.release r.pool 1)).log
    (.destroy r.pool)).write r.objects
      ⟨0, .array (r.regs.length + r.junk.length) r.regs.length (r.regs ++ r.junk)⟩).log
        (.release r.objects 1) |>.log (.destroy r.objects)
  have hsl : SameReads [r.pool, r.objects] hl h := by
    refine ⟨by simp [hl], ?_⟩
    intro q hq
    simp at hq
    simp [hl, Heap.read_write, hq.1, hq.2]
  have hlA2 : hl.read r.objects =
      some ⟨0, .array (r.regs.length + r.junk.length) (([] : List Nat).length + r.regs.length)
        ([] ++ r.regs ++ r.junk)⟩ := by
    simp [hl, Heap.read_write, hvA]
  have hnot : ∀ o ∈ r.regs, o ∉ [r.pool, r.objects] := by
    intro o ho hmem
    simp at hmem
    rcases hmem with e | e
    · subst e; exact hown.not_pool hP ho
    · subst e; exact hown.not_array hA ho
  have hownl : Owned hl r.regs := hown.transfer hsl hnot
  obtain ⟨h3, e3, t3, s3, r3⟩ :=
    removeAllObjectsFrom_plain r.regs fuel hl r.objects 0 _ [] r.junk hlA2 hownl
  obtain ⟨s4, ev4⟩ := drainPlain_sameReads r.regs [r.pool, r.objects] hl h hsl hnot
  refine ⟨(h3.free r.objects).free r.pool, ?_, ?_, ?_, ?_, ?_⟩
  · rw [show fuel + r.regs.length + 6 = (fuel + r.regs.length + 5) + 1 by omega,
      SXObject.release_succ, hP]
    simp only [e0, if_true]
    rw [show fuel + r.regs.length + 5 = (fuel + r.regs.length + 4) + 1 by omega,
      SXObject.delete_succ]
    simp only [Heap.read_log, Heap.read_write, hvP, and_self, if_true, ne_eq, hA0,
      not_false_eq_true]
    rw [show fuel + r.regs.length + 4 = (fuel + r.regs.length + 3) + 1 by omega,
      SXObject.release_succ]
    simp only [Heap.read_log, Heap.read_write, hne2, false_and, if_false, hA, e0, if_true]
    rw [show fuel + r.regs.length + 3 = (fuel + r.regs.length + 2) + 1 by omega,
      SXObject.delete_succ]
    simp only [Heap.read_log, Heap.read_write, Heap.valid_log, Heap.valid_write, hvA, and_self,
      if_true]
    simp only [List.length_nil] at e3
    rw [e3]
  · simp [t3, ev4, hl]
  · refine SameReads.andThen ?_ s4
    refine SameReads.andThen (SameReads.free_left _ _ _ (by simp)) ?_
    refine SameReads.andThen (SameReads.free_left _ _ _ (by simp)) ?_
    exact s3.mono (by simp)
  · simp [Heap.read_free]
  · simp [Heap.read_free, hne2]

theorem Owned.sub {h : Heap} {big small : List Nat} (ho : Owned h big)
    (hmem : ∀ o ∈ small, o ∈ big) (hcount : ∀ o, small.count o ≤ big.count o) : Owned h small := by
  intro o hm
  obtain ⟨c, hr, hc, hmx⟩ := ho o (hmem o hm)
  exact ⟨c, hr, Nat.le_trans (hcount o) hc, hmx⟩

theorem flatMap_regs_split (l1 l2 : List PoolRep) (r : PoolRep) :
    (l1 ++ r :: l2).flatMap PoolRep.regs =
      l1.flatMap PoolRep.regs ++ r.regs ++ l2.flatMap PoolRep.regs := by
  simp [List.flatMap_append]

theorem PoolsOk.owned_one {h : Heap} {l1 l2 : List PoolRep} {r : PoolRep}
    (hok : PoolsOk h (l1 ++ r :: l2)) : Owned h r.regs := by
  refine hok.2.2.2.sub ?_ ?_
  · intro o ho; rw [flatMap_regs_split]; simp [ho]
  · intro o; rw [flatMap_regs_split]; simp [List.count_append]; omega

/-- After one pool of a well-formed stack has been destroyed, the remaining
pools are still well-formed. -/
theorem PoolsOk.remove {h h2 : Heap} {l1 l2 : List PoolRep} {r : PoolRep}
    (hok : PoolsOk h (l1 ++ r :: l2))
    (hs : SameReads [r.pool, r.objects] h2 (drainPlain h r.regs)) : PoolsOk h2 (l1 ++ l2) := by
  obtain ⟨hholds, hnp, hno, hown⟩ := hok
  have hownr : Owned h r.regs := PoolsOk.owned_one ⟨hholds, hnp, hno, hown⟩
  have hr : r.holds h := hholds r (by simp)
  have hnp2 : (l1.map PoolRep.pool ++ r.pool :: l2.map PoolRep.pool).Nodup := by simpa using hnp
  have hno2 : (l1.map PoolRep.objects ++ r.objects :: l2.map PoolRep.objects).Nodup := by
    simpa using hno
  have hframe : ∀ q, q ≠ r.pool → q ≠ r.objects → q ∉ r.regs → h2.read q = h.read q := by
    intro q h1 h2' h3
    rw [hs.2 q (by simp [h1, h2']), drainPlain_read_of_not_mem _ _ _ h3]
  refine ⟨?_, ?_, ?_, ?_⟩
  · intro r2 hr2
    have hmem : r2 ∈ l1 ++ r :: l2 := by
      simp at hr2 ⊢; tauto
    have hh := hholds r2 hmem
    have hP2 : r2.pool ≠ r.pool := by
      intro e
      have hm : r.pool ∈ l1.map PoolRep.pool ∨ r.pool ∈ l2.map PoolRep.pool := by
        simp at hr2
        rcases hr2 with h1 | h1
        · exact Or.inl (by rw [← e]; exact List.mem_map_of_mem _ h1)
        · exact Or.inr (by rw [← e]; exact List.mem_map_of_mem _ h1)
      have := List.nodup_append.1 hnp2
      rcases hm with h1 | h1
      · exact this.2.2 h1 (by simp)
      · exact (List.nodup_cons.1 this.2.1).1 h1
    have hA2 : r2.objects ≠ r.objects := by
      intro e
      have hm : r.objects ∈ l1.map PoolRep.objects ∨ r.objects ∈ l2.map PoolRep.objects := by
        simp at hr2
        rcases hr2 with h1 | h1
        · exact Or.inl (by rw [← e]; exact List.mem_map_of_mem _ h1)
        · exact Or.inr (by rw [← e]; exact List.mem_map_of_mem _ h1)
      have := List.nodup_append.1 hno2
      rcases hm with h1 | h1
      · exact this.2.2 h1 (by simp)
      · exact (List.nodup_cons.1 this.2.1).1 h1
    have hPA : r2.pool ≠ r.objects := by
      intro e; have := hh.1; rw [e, hr.2] at this; cases this
    have hAP : r2.objects ≠ r.pool := by
      intro e; have := hh.2; rw [e, hr.1] at this; cases this
    exact ⟨by rw [hframe _ hP2 hPA (hownr.not_pool hh.1)]; exact hh.1,
      by rw [hframe _ hAP hA2 (hownr.not_array hh.2)]; exact hh.2⟩
  · have := List.nodup_append.1 hnp2
    simp only [List.map_append]
    exact List.nodup_append.2 ⟨this.1, (List.nodup_cons.1 this.2.1).2,
      fun a h1 h2' => this.2.2 h1 (List.mem_cons_of_mem _ h2')⟩
  · have := List.nodup_append.1 hno2
    simp only [List.map_append]
    exact List.nodup_append.2 ⟨this.1, (List.nodup_cons.1 this.2.1).2,
      fun a h1 h2' => this.2.2 h1 (List.mem_cons_of_mem _ h2')⟩
  · intro o ho
    have hmem : o ∈ (l1 ++ r :: l2).flatMap PoolRep.regs := by
      rw [flatMap_regs_split]
      rw [List.flatMap_append, List.mem_append] at ho
      rcases ho with h1 | h1
      · exact List.mem_append_left _ (List.mem_append_left _ h1)
      · exact List.mem_append_right _ h1
    obtain ⟨c, hro, hc, hm⟩ := hown o hmem
    rw [flatMap_regs_split] at hc
    simp only [List.count_append] at hc
    have hk : 0 < ((l1 ++ l2).flatMap PoolRep.regs).count o := List.count_pos_iff.2 ho
    simp only [List.flatMap_append, List.count_append] at hk ⊢
    have hoP : o ≠ r.pool := by intro e; rw [e, hr.1] at hro; cases hro
    have hoA : o ≠ r.objects := by intro e; rw [e, hr.2] at hro; cases hro
    refine ⟨c - r.regs.count o, ?_, by omega, by omega⟩
    rw [hs.2 o (by simp [hoP, hoA]), drainPlain_read_owned _ _ hownr o c hro]
    have : ¬ (0 < r.regs.count o ∧ c = r.regs.count o) := by omega
    rw [if_neg this]

theorem PoolsOk.of_sameReads {h h2 : Heap} {st : List PoolRep} {xs : List Nat}
    (hok : PoolsOk h st) (a : SameReads xs h2 h)
    (hx : ∀ r ∈ st, r.pool ∉ xs ∧ r.objects ∉ xs)
    (hxr : ∀ o ∈ st.flatMap PoolRep.regs, o ∉ xs) : PoolsOk h2 st := by
  obtain ⟨hholds, hnp, hno, hown⟩ := hok
  refine ⟨?_, hnp, hno, hown.transfer a hxr⟩
  intro r hr
  have := hholds r hr
  exact ⟨by rw [a.2 _ (hx r hr).1]; exact this.1, by rw [a.2 _ (hx r hr).2]; exact this.2⟩

theorem PoolsOk.avoid_array {h : Heap} {st : List PoolRep} (hok : PoolsOk h st)
    {a rc cap count : Nat} {arr : List Nat} (ha : h.read a = some ⟨rc, .array cap count arr⟩)
    (hno : a ∉ st.map PoolRep.objects) :
    (∀ r ∈ st, r.pool ∉ [a] ∧ r.objects ∉ [a]) ∧ (∀ o ∈ st.flatMap PoolRep.regs, o ∉ [a]) := by
  refine ⟨?_, ?_⟩
  · intro r hr
    have hh := hok.1 r hr
    refine ⟨?_, ?_⟩
    · intro hmem
      simp at hmem
      have h1 := hh.1
      rw [hmem, ha] at h1
      cases h1
    · intro hmem; simp at hmem; apply hno; rw [← hmem]; exact List.mem_map_of_mem _ hr
  · intro o ho hmem
    simp at hmem
    subst hmem
    exact hok.2.2.2.not_array ha ho

/-! ## The manager on a well-formed stack -/

theorem Rep.pools {s : State} {st : List PoolRep} {mjunk : List Nat} (hrep : Rep s st mjunk) :
    s.pools = st.map PoolRep.pool := by
  obtain ⟨m, hm, hM, -⟩ := hrep
  simp [State.pools, hm, Heap.elements, hM]

theorem Rep.currentPool {s : State} {st : List PoolRep} {mjunk : List Nat}
    (hrep : Rep s st mjunk) : s.currentPool = (st.map PoolRep.pool).getLastD 0 := by
  obtain ⟨m, hm, -, hcur, -⟩ := hrep
  simp [State.currentPool, hm, hcur]

theorem PoolRep.holds.regs_eq {h : Heap} {r : PoolRep} (hr : r.holds h) :
    h.registrations r.pool = r.regs := by
  simp [Heap.registrations, hr.1, Heap.elements, hr.2]

theorem Rep.registrations {s : State} {st : List PoolRep} {mjunk : List Nat}
    (hrep : Rep s st mjunk) {r : PoolRep} (hr : r ∈ st) :
    s.heap.registrations r.pool = r.regs := by
  obtain ⟨m, -, -, -, -, -, hok⟩ := hrep
  exact (hok.1 r hr).regs_eq

theorem getLastD_map_append_singleton (st : List PoolRep) (top : PoolRep) :
    ((st ++ [top]).map PoolRep.pool).getLastD 0 = top.pool := by
  simp [List.getLastD_eq_getLast?]

theorem getD_last_pool (st : List PoolRep) (top : PoolRep) (rest : List Nat) :
    ((st ++ [top]).map PoolRep.pool ++ rest).getD ((st ++ [top]).length - 1) 0 = top.pool := by
  have hlen : (st ++ [top]).length = st.length + 1 := by simp
  rw [List.getD_eq_getElem?_getD, hlen, Nat.add_sub_cancel, List.map_append, List.append_assoc,
    List.getElem?_append_right (by simp)]
  simp

/-- `pop()` on a well-formed stack of depth at least 1: the top pool and its
array are destroyed, its registrations are released once each in order, and
the rest of the stack is as before. -/
theorem pop_rep (fuel : Nat) (s : State) (st : List PoolRep) (top : PoolRep) (mjunk : List Nat)
    (hrep : Rep s (st ++ [top]) mjunk) :
    ∃ s2, SXPoolManager.pop (fuel + top.regs.length + 6) s = .ok s2 ∧
      Rep s2 st (0 :: mjunk) ∧
      s2.heap.trace = s.heap.trace ++ [.release top.pool 1, .destroy top.pool,
        .release top.objects 1, .destroy top.objects] ++ plainEvents s.heap top.regs ∧
      (∀ q, q ∉ [s.currentPool, top.objects] → (∀ m, s.pInstance = some m → q ≠ m.m_pPools) →
        s2.heap.read q = (drainPlain s.heap top.regs).read q) ∧
      s2.heap.read top.pool = none ∧ s2.heap.read top.objects = none ∧
      (∀ m, s.pInstance = some m →
        s2.pInstance = some ⟨m.m_pPools, (st.map PoolRep.pool).getLastD 0⟩) := by
  obtain ⟨m, hm, hM, hcur, hMo, hb, hok⟩ := hrep
  have hcur2 : m.m_pCurrentPool = top.pool := by rw [hcur, getLastD_map_append_singleton]
  have hok' : PoolsOk s.heap (st ++ top :: []) := hok
  have htop : top.holds s.heap := hok.1 top (by simp)
  have hown : Owned s.heap top.regs := PoolsOk.owned_one hok'
  have hP0 : top.pool ≠ 0 := (Heap.valid_of_read htop.1).1
  have hMP : m.m_pPools ≠ top.pool := by intro e; rw [e, htop.1] at hM; cases hM
  have hMA : m.m_pPools ≠ top.objects := by
    intro e; apply hMo; rw [e]; simp
  have hMr : m.m_pPools ∉ top.regs := hown.not_array hM
  obtain ⟨h1, e1, t1, s1, d1, d2⟩ := release_pool fuel s.heap top htop hown
  have hM1 : h1.read m.m_pPools = s.heap.read m.m_pPools := by
    rw [s1.2 _ (by simp [hMP, hMA]), drainPlain_read_of_not_mem _ _ _ hMr]
  have hvM1 : h1.valid m.m_pPools := Heap.valid_of_read (hM1.trans hM)
  have hlen : (st ++ [top]).length = st.length + 1 := by simp
  have hget : ((st ++ [top]).map PoolRep.pool ++ mjunk).getD ((st ++ [top]).length - 1) 0 =
      top.pool := getD_last_pool st top mjunk
  have hset : ((st ++ [top]).map PoolRep.pool ++ mjunk).set ((st ++ [top]).length - 1) 0 =
      st.map PoolRep.pool ++ 0 :: mjunk := by
    rw [hlen, Nat.add_sub_cancel, List.map_append, List.append_assoc]
    simp
  let h2 : Heap := h1.write m.m_pPools
    ⟨1, .array ((st ++ [top]).length + mjunk.length) st.length (st.map PoolRep.pool ++ 0 :: mjunk)⟩
  have hM2 : h2.read m.m_pPools = some ⟨1, .array (st.length + (0 :: mjunk).length) st.length
      (st.map PoolRep.pool ++ 0 :: mjunk)⟩ := by
    simp [h2, Heap.read_write, hvM1]; omega
  have hM1' : h1.read m.m_pPools = some ⟨1, .array ((st ++ [top]).length + mjunk.length)
      (st ++ [top]).length ((st ++ [top]).map PoolRep.pool ++ mjunk)⟩ := hM1.trans hM
  have hok1 : PoolsOk h1 st := by
    have := PoolsOk.remove hok' s1
    simpa using this
  have hMo1 : m.m_pPools ∉ st.map PoolRep.objects := by
    intro hmem; apply hMo; rw [List.map_append]; exact List.mem_append_left _ hmem
  have hav := hok1.avoid_array hM1' hMo1
  have hok2 : PoolsOk h2 st :=
    hok1.of_sameReads (SameReads.write_left _ _ _ _ (by simp)) hav.1 hav.2
  have hb1 : h1.bounded := ((SXObject.accounted_release e1) hb).1
  have hb2 : h2.bounded := Heap.bounded_write hb1 _ (Nat.le_of_lt_succ (by decide : 1 < UINT_MAX + 1))
  -- the new current pool
  have hlast : SXArray.lastObject h2 m.m_pPools = .ok ((st.map PoolRep.pool).getLastD 0) := by
    simp only [SXArray.lastObject, hM2]
    congr 1
    rcases List.eq_nil_or_concat' st with hnil | ⟨l, b, hl⟩
    · subst hnil; simp
    · subst hl
      have hpos : (l ++ [b]).length > 0 := by simp
      rw [if_pos hpos, getD_last_pool, getLastD_map_append_singleton]
  have hcast : SXPoolManager.asPool h2 ((st.map PoolRep.pool).getLastD 0) =
      .ok ((st.map PoolRep.pool).getLastD 0) := by
    rcases List.eq_nil_or_concat' st with hnil | ⟨l, b, hl⟩
    · subst hnil; simp [SXPoolManager.asPool]
    · subst hl
      have hb' := hok2.1 b (by simp)
      have hb0 : b.pool ≠ 0 := (Heap.valid_of_read hb'.1).1
      rw [getLastD_map_append_singleton]
      simp [SXPoolManager.asPool, hb0, hb'.1]
  refine ⟨⟨h2, some { m with m_pCurrentPool := (st.map PoolRep.pool).getLastD 0 }⟩, ?_, ?_, ?_,
    ?_, ?_, ?_, ?_⟩
  · have hc0 : m.m_pCurrentPool ≠ 0 := by rw [hcur2]; exact hP0
    have hrl : SXArray.removeLastObject (fuel + top.regs.length + 6) s.heap m.m_pPools =
        .ok h2 := by
      simp only [SXArray.removeLastObject, hM]
      have hpos : (st ++ [top]).length > 0 := by simp
      rw [if_pos hpos]
      simp only [Outcome.bind_eq, hget, e1, Outcome.bind_ok, hM1', hset]
      have : (st ++ [top]).length - 1 = st.length := by simp
      rw [this]
    simp only [SXPoolManager.pop, hm, ne_eq, hc0, not_false_eq_true, if_true, Outcome.bind_eq,
      hrl, Outcome.bind_ok, hlast, hcast]
  · exact ⟨_, rfl, hM2, rfl, hMo1, hb2, hok2⟩
  · simp [h2, t1]
  · intro q hq hqM
    have hqM' : q ≠ m.m_pPools := hqM m hm
    simp [State.currentPool, hm, hcur2] at hq
    simp only [h2, Heap.read_write, hqM', false_and, if_false]
    exact s1.2 q (by simp [hq.1, hq.2])
  · simp [h2, Heap.read_write, Ne.symm hMP, d1]
  · simp [h2, Heap.read_write, Ne.symm hMA, d2]
  · intro m2 hm2
    rw [hm] at hm2
    cases hm2
    rfl

theorem pop_empty (fuel : Nat) (s : State) (mjunk : List Nat) (hrep : Rep s [] mjunk) :
    SXPoolManager.pop fuel s = .ok s := by
  obtain ⟨m, hm, -, hcur, -⟩ := hrep
  simp at hcur
  simp [SXPoolManager.pop, hm, hcur]

/-- The statement `new SXAutoreleasePool()`: two fresh cells, the pool and its
empty array. -/
theorem new_pool (h : Heap) :
    ∃ h2, SXAutoreleasePool.new h = .ok (h2, h.cells.length + 1) ∧
      h2.read (h.cells.length + 1) = some ⟨1, .pool (h.cells.length + 2)⟩ ∧
      h2.read (h.cells.length + 2) =
        some ⟨1, .array 10 0 [0, 0, 0, 0, 0, 0, 0, 0, 0, 0]⟩ ∧
      (∀ q, q ≠ h.cells.length + 1 → q ≠ h.cells.length + 2 → h2.read q = h.read q) ∧
      h2.trace = h.trace ∧ h2.cells.length = h.cells.length + 2 := by
  have hrep : List.replicate 10 0 = [0, 0, 0, 0, 0, 0, 0, 0, 0, 0] := rfl
  have hcopy : SXArray.copyElements 0 [0, 0, 0, 0, 0, 0, 0, 0, 0, 0] 10 =
      [0, 0, 0, 0, 0, 0, 0, 0, 0, 0] := rfl
  have hvP2 : ((h.alloc ⟨1, .pool 0⟩).1.alloc ⟨1, .array 10 0 [0, 0, 0, 0, 0, 0, 0, 0, 0, 0]⟩).1.valid
      (h.cells.length + 1) := by
    simp [Heap.valid_alloc, Heap.valid]
  have hvA : ((h.alloc ⟨1, .pool 0⟩).1.alloc ⟨1, .array 10 0 [0, 0, 0, 0, 0, 0, 0, 0, 0, 0]⟩).1.valid
      (h.cells.length + 2) := by
    simp [Heap.valid_alloc]
  refine ⟨((((h.alloc ⟨1, .pool 0⟩).1.alloc ⟨1, .array 10 0 [0, 0, 0, 0, 0, 0, 0, 0, 0, 0]⟩).1.write
      (h.cells.length + 1) ⟨1, .pool (h.cells.length + 2)⟩).write (h.cells.length + 2)
      ⟨1, .array 10 0 [0, 0, 0, 0, 0, 0, 0, 0, 0, 0]⟩).write (h.cells.length + 2)
      ⟨1, .array 10 0 [0, 0, 0, 0, 0, 0, 0, 0, 0, 0]⟩, ?_, ?_, ?_, ?_, ?_, ?_⟩
  · simp only [SXAutoreleasePool.new, SXArray.new, SXArray.init, SXArray.initWithCapacity,
      SXArray.resizeArray, SX_ARRAY_DEFAULT_CAPACITY_INCREMENT, Outcome.bind_eq, Heap.alloc_snd,
      Heap.length_alloc, Heap.read_alloc, Heap.read_write, hrep]
    simp [Heap.read_write, Heap.read_alloc, Heap.valid_alloc, Heap.valid, hcopy]
  · simp [Heap.read_write, hvP2]
  · simp [Heap.read_write, hvA]
  · intro q h1 h2
    simp [Heap.read_write, Heap.read_alloc, h1, h2]
  · simp
  · simp

theorem PoolsOk.frame {h h2 : Heap} {st : List PoolRep} {xs : List Nat} (hok : PoolsOk h st)
    (hfr : ∀ q c, h.read q = some c → q ∉ xs → h2.read q = some c)
    (hx : ∀ r ∈ st, r.pool ∉ xs ∧ r.objects ∉ xs)
    (hxr : ∀ o ∈ st.flatMap PoolRep.regs, o ∉ xs) : PoolsOk h2 st := by
  obtain ⟨hholds, hnp, hno, hown⟩ := hok
  refine ⟨?_, hnp, hno, ?_⟩
  · intro r hr
    have := hholds r hr
    exact ⟨hfr _ _ this.1 (hx r hr).1, hfr _ _ this.2 (hx r hr).2⟩
  · intro o ho
    obtain ⟨c, hr, hc, hm⟩ := hown o ho
    exact ⟨c, hfr _ _ hr (hxr o ho), hc, hm⟩

theorem PoolsOk.valid_pool {h : Heap} {st : List PoolRep} (hok : PoolsOk h st) {p : Nat}
    (hp : p ∈ st.map PoolRep.pool) : h.valid p := by
  obtain ⟨r, hr, rfl⟩ := List.mem_map.1 hp
  exact Heap.valid_of_read (hok.1 r hr).1

theorem PoolsOk.valid_objects {h : Heap} {st : List PoolRep} (hok : PoolsOk h st) {p : Nat}
    (hp : p ∈ st.map PoolRep.objects) : h.valid p := by
  obtain ⟨r, hr, rfl⟩ := List.mem_map.1 hp
  exact Heap.valid_of_read (hok.1 r hr).2

theorem not_valid_succ (h : Heap) (k : Nat) : ¬ h.valid (h.cells.length + (k + 1)) := by
  intro hv; have := hv.2; omega

/-- Appending an empty pool in fresh cells keeps the stack well-formed. -/
theorem PoolsOk.push {h h2 : Heap} {st : List PoolRep} (hok : PoolsOk h st)
    (hold : PoolsOk h2 st) (p a : Nat) (hp : ¬ h.valid p) (ha : ¬ h.valid a)
    (hP : h2.read p = some ⟨1, .pool a⟩)
    (hA : h2.read a = some ⟨1, .array 10 0 [0, 0, 0, 0, 0, 0, 0, 0, 0, 0]⟩) :
    PoolsOk h2 (st ++ [PoolRep.mk p a [] [0, 0, 0, 0, 0, 0, 0, 0, 0, 0]]) := by
  obtain ⟨hholds, hnp, hno, hown⟩ := hold
  refine ⟨?_, ?_, ?_, ?_⟩
  · intro r hr
    simp at hr
    rcases hr with hr | hr
    · exact hholds r hr
    · subst hr; exact ⟨hP, hA⟩
  · rw [List.map_append, List.nodup_append]
    refine ⟨hnp, by simp, ?_⟩
    intro x hx1 hx2
    simp at hx2
    subst hx2
    exact hp (hok.valid_pool hx1)
  · rw [List.map_append, List.nodup_append]
    refine ⟨hno, by simp, ?_⟩
    intro x hx1 hx2
    simp at hx2
    subst hx2
    exact ha (hok.valid_objects hx1)
  · have : (st ++ [PoolRep.mk p a [] [0, 0, 0, 0, 0, 0, 0, 0, 0, 0]]).flatMap PoolRep.regs =
        st.flatMap PoolRep.regs := by simp [List.flatMap_append]
    rw [this]; exact hown

/-- `push()` on a well-formed stack: a new empty pool in two fresh cells
becomes the top of the stack and the current pool; nothing else changes. -/
theorem push_rep (fuel : Nat) (s : State) (st : List PoolRep) (mjunk : List Nat)
    (hrep : Rep s st mjunk) :
    ∃ s2, SXPoolManager.push (fuel + 1) s = .ok s2 ∧
      Rep s2 (st ++ [PoolRep.mk (s.heap.cells.length + 1) (s.heap.cells.length + 2) []
        [0, 0, 0, 0, 0, 0, 0, 0, 0, 0]]) (SXArray.spare mjunk) ∧
      s2.heap.trace = s.heap.trace ++ [.release (s.heap.cells.length + 1) 2] ∧
      (∀ q c, s.heap.read q = some c → (∀ m, s.pInstance = some m → q ≠ m.m_pPools) →
        s2.heap.read q = some c) ∧
      s2.heap.cells.length = s.heap.cells.length + 2 ∧
      (∀ m, s.pInstance = some m →
        s2.pInstance = some ⟨m.m_pPools, s.heap.cells.length + 1⟩) := by
  obtain ⟨m, hm, hM, hcur, hMo, hb, hok⟩ := hrep
  obtain ⟨hn, en, rP, rA, frn, tn, ln⟩ := new_pool s.heap
  have hvM := Heap.valid_of_read hM
  have hMP : m.m_pPools ≠ s.heap.cells.length + 1 := by
    intro e; exact not_valid_succ s.heap 0 (e ▸ hvM)
  have hMA : m.m_pPools ≠ s.heap.cells.length + 2 := by
    intro e; exact not_valid_succ s.heap 1 (e ▸ hvM)
  have hMn : hn.read m.m_pPools = some ⟨1, .array ((st.map PoolRep.pool).length + mjunk.length)
      (st.map PoolRep.pool).length (st.map PoolRep.pool ++ mjunk)⟩ := by
    rw [frn _ hMP hMA, hM]; simp
  obtain ⟨h5, e5, t5, l5, fr5, r5o, r5a⟩ :=
    SXArray.addObject_reads hn m.m_pPools (s.heap.cells.length + 1) 1 1 _ mjunk _ hMn rP
  have hPM : s.heap.cells.length + 1 ≠ m.m_pPools := Ne.symm hMP
  have r5P := r5o hPM
  have hw2 : wrap (1 + 1) = 2 := by decide
  rw [hw2] at r5P
  have e6 := SXObject.release_keeps fuel h5 _ 2 _ r5P (by decide) (by decide)
  have hv5P := Heap.valid_of_read r5P
  refine ⟨⟨(h5.write (s.heap.cells.length + 1) ⟨2 - 1, .pool (s.heap.cells.length + 2)⟩).log
    (.release (s.heap.cells.length + 1) 2), some { m with m_pCurrentPool := s.heap.cells.length + 1 }⟩,
    ?_, ?_, ?_, ?_, ?_, ?_⟩
  · simp only [SXPoolManager.push, hm, Outcome.bind_eq, en, Outcome.bind_ok, e5, e6]
  · have hfr : ∀ q c, s.heap.read q = some c → q ≠ m.m_pPools →
        ((h5.write (s.heap.cells.length + 1) ⟨2 - 1, .pool (s.heap.cells.length + 2)⟩).log
          (.release (s.heap.cells.length + 1) 2)).read q = some c := by
      intro q c hq hqM
      have hv := Heap.valid_of_read hq
      have h1 : q ≠ s.heap.cells.length + 1 := by intro e; exact not_valid_succ s.heap 0 (e ▸ hv)
      have h2 : q ≠ s.heap.cells.length + 2 := by intro e; exact not_valid_succ s.heap 1 (e ▸ hv)
      simp only [Heap.read_log, Heap.read_write, h1, false_and, if_false]
      rw [fr5 q hqM h1, frn q h1 h2, hq]
    have hav := hok.avoid_array hM hMo
    have hold : PoolsOk ((h5.write (s.heap.cells.length + 1)
        ⟨2 - 1, .pool (s.heap.cells.length + 2)⟩).log (.release (s.heap.cells.length + 1) 2)) st := by
      refine @PoolsOk.frame _ _ _ [m.m_pPools] hok ?_ hav.1 hav.2
      intro q c hq hqM
      simp at hqM
      exact hfr q c hq hqM
    have hA6 : ((h5.write (s.heap.cells.length + 1)
        ⟨2 - 1, .pool (s.heap.cells.length + 2)⟩).log (.release (s.heap.cells.length + 1) 2)).read
        (s.heap.cells.length + 2) = some ⟨1, .array 10 0 [0, 0, 0, 0, 0, 0, 0, 0, 0, 0]⟩ := by
      have h1 : s.heap.cells.length + 2 ≠ s.heap.cells.length + 1 := by omega
      simp only [Heap.read_log, Heap.read_write, h1, false_and, if_false]
      rw [fr5 _ (Ne.symm hMA) h1, rA]
    have hP6 : ((h5.write (s.heap.cells.length + 1)
        ⟨2 - 1, .pool (s.heap.cells.length + 2)⟩).log (.release (s.heap.cells.length + 1) 2)).read
        (s.heap.cells.length + 1) = some ⟨1, .pool (s.heap.cells.length + 2)⟩ := by
      simp [Heap.read_write, hv5P]
    have hok2 := PoolsOk.push hok hold (s.heap.cells.length + 1) (s.heap.cells.length + 2)
      (not_valid_succ s.heap 0) (not_valid_succ s.heap 1) hP6 hA6
    refine ⟨_, rfl, ?_, ?_, ?_, ?_, hok2⟩
    · simp only [Heap.read_log, Heap.read_write, hMP, false_and, if_false]
      rw [r5a, if_neg hPM]
      simp
    · simp [List.getLastD_eq_getLast?]
    · rw [List.map_append]
      intro hmem
      rcases List.mem_append.1 hmem with h1 | h1
      · exact hMo h1
      · simp at h1; exact hMA h1
    · exact ((@SXPoolManager.accounted_manager_push (fuel + 1) s _
        (by simp only [SXPoolManager.push, hm, Outcome.bind_eq, en, Outcome.bind_ok, e5, e6])) hb).1
  · simp [t5, tn]
  · intro q c hq hqM
    have hv := Heap.valid_of_read hq
    have h1 : q ≠ s.heap.cells.length + 1 := by intro e; exact not_valid_succ s.heap 0 (e ▸ hv)
    have h2 : q ≠ s.heap.cells.length + 2 := by intro e; exact not_valid_succ s.heap 1 (e ▸ hv)
    simp only [Heap.read_log, Heap.read_write, h1, false_and, if_false]
    rw [fr5 q (hqM m hm) h1, frn q h1 h2, hq]
  · simp [l5, ln]
  · intro m2 hm2
    rw [hm] at hm2
    cases hm2
    rfl

/-! ## More fuel never changes a result -/

namespace SXObject

theorem cascade_mono (fuel : Nat) :
    (∀ h p h2, release fuel h p = .ok h2 → ∀ k, release (fuel + k) h p = .ok h2) ∧
    (∀ h p h2, delete fuel h p = .ok h2 → ∀ k, delete (fuel + k) h p = .ok h2) ∧
    (∀ h a i h2, removeAllObjectsFrom fuel h a i = .ok h2 →
      ∀ k, removeAllObjectsFrom (fuel + k) h a i = .ok h2) ∧
    (∀ h ps h2, releaseEach fuel h ps = .ok h2 →
      ∀ k, releaseEach (fuel + k) h ps = .ok h2) := by
  induction fuel with
  | zero =>
    refine ⟨?_, ?_, ?_, ?_⟩
    · intro h p h2 e; simp [release] at e
    · intro h p h2 e; simp [delete] at e
    · intro h a i h2 e; simp [removeAllObjectsFrom] at e
    · intro h ps h2 e; simp [releaseEach] at e
  | succ fuel ih =>
    obtain ⟨ihr, ihd, ihl, ihe⟩ := ih
    refine ⟨?_, ?_, ?_, ?_⟩
    · intro h p h2 e k
      rw [show fuel + 1 + k = (fuel + k) + 1 by omega, release_succ]
      rw [release_succ] at e
      cases hr : h.read p with
      | none => simp [hr] at e
      | some c =>
        simp only [hr] at e ⊢
        split at e
        · rename_i hz; rw [if_pos hz]; exact ihd _ _ _ e k
        · rename_i hz; rw [if_neg hz]; exact e
    · intro h p h2 e k
      rw [show fuel + 1 + k = (fuel + k) + 1 by omega, delete_succ]
      rw [delete_succ] at e
      cases hr : h.read p with
      | none => simp [hr] at e
      | some c =>
        simp only [hr] at e ⊢
        split at e
        · exact e
        · split at e
          · rename_i hz
            rw [if_pos hz]
            split at e
            · rename_i h1 e1; rw [ihr _ _ _ e1 k]; exact e
            · simp at e
            · simp at e
          · rename_i hz; rw [if_neg hz]; exact e
        · split at e
          · rename_i h1 e1; rw [ihl _ _ _ _ e1 k]; exact e
          · simp at e
          · simp at e
        · exact e
        · exact e
        · exact e
        · split at e
          · rename_i h1 e1; rw [ihe _ _ _ e1 k]; exact e
          · simp at e
          · simp at e
        · split at e
          · rename_i h1 e1; rw [ihe _ _ _ e1 k]; exact e
          · simp at e
          · simp at e
    · intro h a i h2 e k
      rw [show fuel + 1 + k = (fuel + k) + 1 by omega, removeAllObjectsFrom_succ]
      rw [removeAllObjectsFrom_succ] at e
      cases hr : h.read a with
      | none => simp [hr] at e
      | some cell =>
        obtain ⟨rc, body⟩ := cell
        cases body with
        | object => simp [hr] at e
        | pool p => simp [hr] at e
        | string s => simp [hr] at e
        | number t v => simp [hr] at e
        | data bs => simp [hr] at e
        | dictionary m => simp [hr] at e
        | set xs => simp [hr] at e
        | array cap count arr =>
          simp only [hr] at e ⊢
          split at e
          · rename_i hlt
            rw [if_pos hlt]
            split at e
            · rename_i hz
              rw [if_pos hz]
              split at e
              · rename_i h1 e1
                rw [ihr _ _ _ e1 k]
                simp only
                cases hr1 : h1.read a with
                | none => simp [hr1] at e
                | some cell1 =>
                  obtain ⟨rc1, body1⟩ := cell1
                  cases body1 with
                  | object => simp [hr1] at e
                  | pool p => simp [hr1] at e
                  | string s => simp [hr1] at e
                  | number t v => simp [hr1] at e
                  | data bs => simp [hr1] at e
                  | dictionary m => simp [hr1] at e
                  | set xs => simp [hr1] at e
                  | array cap1 count1 arr1 =>
                    simp only [hr1] at e ⊢
                    exact ihl _ _ _ _ e k
              · simp at e
              · simp at e
            · rename_i hz; rw [if_neg hz]; exact ihl _ _ _ _ e k
          · rename_i hlt; rw [if_neg hlt]; exact e
    · intro h ps h2 e k
      rw [show fuel + 1 + k = (fuel + k) + 1 by omega]
      cases ps with
      | nil =>
        rw [releaseEach_succ_nil] at e ⊢
        exact e
      | cons p ps =>
        rw [releaseEach_succ_cons] at e ⊢
        split at e
        · rename_i h1 e1
          rw [ihr _ _ _ e1 k]
          exact ihe _ _ _ e k
        · simp at e
        · simp at e

theorem release_mono {fuel : Nat} {h h2 : Heap} {p : Nat} (e : release fuel h p = .ok h2)
    (k : Nat) : release (fuel + k) h p = .ok h2 := (cascade_mono fuel).1 h p h2 e k

theorem removeAllObjectsFrom_mono {fuel : Nat} {h h2 : Heap} {a i : Nat}
    (e : removeAllObjectsFrom fuel h a i = .ok h2) (k : Nat) :
    removeAllObjectsFrom (fuel + k) h a i = .ok h2 := (cascade_mono fuel).2.2.1 h a i h2 e k

theorem release_mono_le {fuel fuel2 : Nat} {h h2 : Heap} {p : Nat}
    (e : release fuel h p = .ok h2) (hle : fuel ≤ fuel2) : release fuel2 h p = .ok h2 := by
  have := release_mono e (fuel2 - fuel)
  rwa [Nat.add_sub_cancel' hle] at this

end SXObject

theorem SXArray.removeLastObject_mono {fuel : Nat} {h h2 : Heap} {a : Nat}
    (e : SXArray.removeLastObject fuel h a = .ok h2) (k : Nat) :
    SXArray.removeLastObject (fuel + k) h a = .ok h2 := by
  unfold SXArray.removeLastObject at e ⊢
  split at e
  · rename_i hr
    split at e
    · rename_i hpos
      rw [if_pos hpos]
      simp only [Outcome.bind_eq] at e ⊢
      obtain ⟨h1, e1, e2⟩ := Outcome.bind_eq_ok e
      rw [SXObject.release_mono e1 k]
      exact e2
    · rename_i hpos; rw [if_neg hpos]; exact e
  · simp at e

theorem SXArray.array_removeObject_mono {fuel : Nat} {h h2 : Heap} {a o : Nat}
    (e : SXArray.removeObject fuel h a o = .ok h2) (k : Nat) :
    SXArray.removeObject (fuel + k) h a o = .ok h2 := by
  unfold SXArray.removeObject at e ⊢
  simp only [Outcome.bind_eq] at e ⊢
  obtain ⟨idx, e1, e2⟩ := Outcome.bind_eq_ok e
  rw [e1]
  simp only [Outcome.bind_ok]
  cases idx with
  | none => exact e2
  | some i =>
    simp only [Outcome.bind_eq] at e2 ⊢
    obtain ⟨h1, e3, e4⟩ := Outcome.bind_eq_ok e2
    rw [SXObject.release_mono e3 k]
    exact e4

namespace SXPoolManager

theorem push_mono {fuel : Nat} {s s2 : State} (e : push fuel s = .ok s2) (k : Nat) :
    push (fuel + k) s = .ok s2 := by
  unfold push at e ⊢
  split at e
  · simp only [Outcome.bind_eq] at e ⊢
    obtain ⟨r, e1, e2⟩ := Outcome.bind_eq_ok e
    obtain ⟨h2, e3, e4⟩ := Outcome.bind_eq_ok e2
    obtain ⟨h3, e5, e6⟩ := Outcome.bind_eq_ok e4
    rw [e1]; simp only [Outcome.bind_ok]
    rw [e3]; simp only [Outcome.bind_ok]
    rw [SXObject.release_mono e5 k]
    exact e6
  · simp at e

theorem pop_mono {fuel : Nat} {s s2 : State} (e : pop fuel s = .ok s2) (k : Nat) :
    pop (fuel + k) s = .ok s2 := by
  unfold pop at e ⊢
  split at e
  · split at e
    · rename_i hz
      rw [if_pos hz]
      simp only [Outcome.bind_eq] at e ⊢
      obtain ⟨h1, e1, e2⟩ := Outcome.bind_eq_ok e
      rw [SXArray.removeLastObject_mono e1 k]
      exact e2
    · rename_i hz; rw [if_neg hz]; exact e
  · simp at e

theorem removeObject_mono {fuel : Nat} {s s2 : State} {o : Nat}
    (e : removeObject fuel s o = .ok s2) (k : Nat) : removeObject (fuel + k) s o = .ok s2 := by
  unfold removeObject at e ⊢
  split at e
  · simp only [Outcome.bind_eq, SXAutoreleasePool.removeObject] at e ⊢
    obtain ⟨h1, e1, e2⟩ := Outcome.bind_eq_ok e
    obtain ⟨a, e3, e4⟩ := Outcome.bind_eq_ok e1
    rw [e3]; simp only [Outcome.bind_ok]
    rw [SXArray.array_removeObject_mono e4 k]
    exact e2
  · simp at e

theorem create_mono {fuel : Nat} {s s2 : State} (e : create fuel s = .ok s2) (k : Nat) :
    create (fuel + k) s = .ok s2 := by
  unfold create at e ⊢
  simp only [Outcome.bind_eq] at e ⊢
  obtain ⟨r, e1, e2⟩ := Outcome.bind_eq_ok e
  rw [e1]; simp only [Outcome.bind_ok]
  exact push_mono e2 k

theorem sharedPoolManager_mono {fuel : Nat} {s s2 : State}
    (e : sharedPoolManager fuel s = .ok s2) (k : Nat) :
    sharedPoolManager (fuel + k) s = .ok s2 := by
  unfold sharedPoolManager at e ⊢
  split at e
  · exact e
  · exact create_mono e k

theorem purgePoolManager_mono {fuel : Nat} {s s2 : State}
    (e : purgePoolManager fuel s = .ok s2) (k : Nat) :
    purgePoolManager (fuel + k) s = .ok s2 := by
  unfold purgePoolManager at e ⊢
  split at e
  · split at e
    · rename_i hz
      rw [if_pos hz]
      simp only [Outcome.bind_eq] at e ⊢
      obtain ⟨h1, e1, e2⟩ := Outcome.bind_eq_ok e
      rw [SXObject.release_mono e1 k]
      exact e2
    · rename_i hz; rw [if_neg hz]; exact e
  · exact e

end SXPoolManager

theorem SXObject.autorelease_mono {fuel : Nat} {s : State} {o : Nat} {r : State × Nat}
    (e : SXObject.autorelease fuel s o = .ok r) (k : Nat) :
    SXObject.autorelease (fuel + k) s o = .ok r := by
  unfold SXObject.autorelease at e ⊢
  simp only [Outcome.bind_eq] at e ⊢
  obtain ⟨s1, e1, e2⟩ := Outcome.bind_eq_ok e
  obtain ⟨s2, e3, e4⟩ := Outcome.bind_eq_ok e2
  obtain ⟨h3, e5, e6⟩ := Outcome.bind_eq_ok e4
  rw [SXPoolManager.sharedPoolManager_mono e1 k]; simp only [Outcome.bind_ok]
  rw [e3]; simp only [Outcome.bind_ok]
  rw [SXObject.release_mono e5 k]
  exact e6

theorem Call.run_mono {fuel : Nat} {c : Call} {s s2 : State} (e : c.run fuel s = .ok s2)
    (k : Nat) : c.run (fuel + k) s = .ok s2 := by
  cases c with
  | construct => exact e
  | retain o => exact e
  | release o =>
    obtain ⟨h1, e1, e2⟩ := Outcome.bind_eq_ok e
    simp only [Call.run, SXObject.release_mono e1 k]; exact e2
  | autorelease o =>
    obtain ⟨r, e1, e2⟩ := Outcome.bind_eq_ok e
    simp only [Call.run, SXObject.autorelease_mono e1 k]; exact e2
  | push =>
    obtain ⟨s1, e1, e2⟩ := Outcome.bind_eq_ok e
    simp only [Call.run, SXPoolManager.sharedPoolManager_mono e1 k, Outcome.bind_ok]
    exact SXPoolManager.push_mono e2 k
  | pop =>
    obtain ⟨s1, e1, e2⟩ := Outcome.bind_eq_ok e
    simp only [Call.run, SXPoolManager.sharedPoolManager_mono e1 k, Outcome.bind_ok]
    exact SXPoolManager.pop_mono e2 k
  | addObject o =>
    obtain ⟨s1, e1, e2⟩ := Outcome.bind_eq_ok e
    simp only [Call.run, SXPoolManager.sharedPoolManager_mono e1 k, Outcome.bind_ok]
    exact e2
  | removeObject o =>
    obtain ⟨s1, e1, e2⟩ := Outcome.bind_eq_ok e
    simp only [Call.run, SXPoolManager.sharedPoolManager_mono e1 k, Outcome.bind_ok]
    exact SXPoolManager.removeObject_mono e2 k
  | sharedPoolManager => exact SXPoolManager.sharedPoolManager_mono e k
  | purgePoolManager => exact SXPoolManager.purgePoolManager_mono e k

/-- Two runs of the same call that both return agree, whatever their fuel. -/
theorem Call.run_deterministic {f1 f2 : Nat} {c : Call} {s a b : State}
    (e1 : c.run f1 s = .ok a) (e2 : c.run f2 s = .ok b) : a = b := by
  have h1 := Call.run_mono e1 f2
  have h2 := Call.run_mono e2 f1
  rw [Nat.add_comm] at h2
  rw [h1] at h2
  cases h2
  rfl

/-! ## Creation of the manager -/

/-- The constructor of the manager on a state without manager: the pools array
and the initial pool with its array are allocated in three fresh cells. -/
theorem create_rep (fuel : Nat) (s : State) (hb : s.heap.bounded) :
    ∃ s2, SXPoolManager.create (fuel + 1) s = .ok s2 ∧
      Rep s2 [PoolRep.mk (s.heap.cells.length + 2) (s.heap.cells.length + 3) []
        [0, 0, 0, 0, 0, 0, 0, 0, 0, 0]] [] ∧
      s2.pInstance = some ⟨s.heap.cells.length + 1, s.heap.cells.length + 2⟩ ∧
      s2.heap.trace = s.heap.trace ++ [.release (s.heap.cells.length + 2) 2] ∧
      (∀ q c, s.heap.read q = some c → s2.heap.read q = some c) := by
  have hcopy : ∀ arr : List Nat, SXArray.copyElements 0 arr 1 = [0] := fun _ => rfl
  have hrep10 : List.replicate 10 0 = [0, 0, 0, 0, 0, 0, 0, 0, 0, 0] := rfl
  -- the heap after `m_pPools = new SXArray(); m_pPools->initWithCapacity(1)`
  let h2 : Heap := (((s.heap.alloc ⟨1, .array 10 0 [0, 0, 0, 0, 0, 0, 0, 0, 0, 0]⟩).1.write
    (s.heap.cells.length + 1) ⟨1, .array 1 0 [0]⟩).write (s.heap.cells.length + 1)
    ⟨1, .array 1 0 [0]⟩)
  have hinit : SXArray.initWithCapacity (SXArray.new s.heap).1 (SXArray.new s.heap).2 1 =
      .ok (h2, true) := by
    simp [SXArray.initWithCapacity, SXArray.new, SXArray.resizeArray, hrep10,
      SX_ARRAY_DEFAULT_CAPACITY_INCREMENT, Heap.read_alloc, Heap.read_write, Heap.valid_alloc,
      hcopy, h2]
  have hl2 : h2.cells.length = s.heap.cells.length + 1 := by simp [h2]
  have hM2 : h2.read (s.heap.cells.length + 1) = some ⟨1, .array 1 0 [0]⟩ := by
    simp [h2, Heap.read_write, Heap.valid_alloc]
  have hfr2 : ∀ q c, s.heap.read q = some c → h2.read q = some c := by
    intro q c hq
    have hv := Heap.valid_of_read hq
    have h1 : q ≠ s.heap.cells.length + 1 := by intro e; exact not_valid_succ s.heap 0 (e ▸ hv)
    simp [h2, Heap.read_write, Heap.read_alloc, h1, hq]
  have hb2 : h2.bounded :=
    Heap.bounded_write (Heap.bounded_write (Heap.bounded_alloc hb (by decide)) _ (by decide)) _
      (by decide)
  have hrep0 : Rep ⟨h2, some ⟨s.heap.cells.length + 1, 0⟩⟩ [] [0] := by
    refine ⟨_, rfl, ?_, rfl, by simp, hb2, ?_⟩
    · simpa using hM2
    · exact ⟨by simp, by simp, by simp, Owned.nil _⟩
  obtain ⟨s2, e2, r2, t2, fr2, l2, p2⟩ := push_rep fuel _ [] [0] hrep0
  have hsp : SXArray.spare [0] = [] := rfl
  simp only [hl2, List.nil_append, hsp] at r2 t2
  refine ⟨s2, ?_, r2, ?_, ?_, ?_⟩
  · simp only [SXPoolManager.create, Outcome.bind_eq, hinit, Outcome.bind_ok]
    exact e2
  · have := p2 _ rfl
    simp only [hl2] at this
    exact this
  · simpa [h2] using t2
  · intro q c hq
    have hq2 := hfr2 q c hq
    refine fr2 q c hq2 ?_
    intro m hm
    have hv := Heap.valid_of_read hq
    simp at hm
    subst hm
    intro e
    exact not_valid_succ s.heap 0 (by rw [e] at hv; exact hv)

/-- C13: on a state without manager (program start, or after
`purgePoolManager()`) `sharedPoolManager()` creates a manager whose stack holds
exactly one pool, which is empty, alive and the current pool; every further
`sharedPoolManager()` returns the same state. -/
theorem sharedPoolManager_lazy_init (fuel : Nat) (s0 : State) (hnone : s0.pInstance = none)
    (hb : s0.heap.bounded) :
    ∃ s, SXPoolManager.sharedPoolManager (fuel + 1) s0 = .ok s ∧
      s.pInstance = some ⟨s0.heap.cells.length + 1, s0.heap.cells.length + 2⟩ ∧
      s.pools = [s0.heap.cells.length + 2] ∧
      s.currentPool = s0.heap.cells.length + 2 ∧
      s.heap.read (s0.heap.cells.length + 2) = some ⟨1, .pool (s0.heap.cells.length + 3)⟩ ∧
      s.heap.registrations (s0.heap.cells.length + 2) = [] ∧
      (∀ q c, s0.heap.read q = some c → s.heap.read q = some c) ∧
      (∀ fuel2, SXPoolManager.sharedPoolManager fuel2 s = .ok s) := by
  obtain ⟨s, e, r, p, t, fr⟩ := create_rep fuel s0 hb
  refine ⟨s, by simp [SXPoolManager.sharedPoolManager, hnone, e], p, ?_, ?_, ?_, ?_, fr, ?_⟩
  · simpa using r.pools
  · simpa using r.currentPool
  · obtain ⟨m, -, -, -, -, -, hok⟩ := r
    exact (hok.1 (PoolRep.mk (s0.heap.cells.length + 2) (s0.heap.cells.length + 3) []
      [0, 0, 0, 0, 0, 0, 0, 0, 0, 0]) (by simp)).1
  · exact r.registrations (r := PoolRep.mk (s0.heap.cells.length + 2) (s0.heap.cells.length + 3) []
      [0, 0, 0, 0, 0, 0, 0, 0, 0, 0]) (by simp)
  · intro fuel2
    simp [SXPoolManager.sharedPoolManager, p]

/-- Instance of `sharedPoolManager_lazy_init`: the program start. -/
theorem sharedPoolManager_lazy_init_witness :
    SXPoolManager.initial.pInstance = none ∧ SXPoolManager.initial.heap.bounded ∧
    ∃ s, SXPoolManager.sharedPoolManager (0 + 1) SXPoolManager.initial = .ok s ∧
      s.pInstance = some ⟨SXPoolManager.initial.heap.cells.length + 1,
        SXPoolManager.initial.heap.cells.length + 2⟩ ∧
      s.pools = [SXPoolManager.initial.heap.cells.length + 2] ∧
      s.currentPool = SXPoolManager.initial.heap.cells.length + 2 ∧
      s.heap.read (SXPoolManager.initial.heap.cells.length + 2) =
        some ⟨1, .pool (SXPoolManager.initial.heap.cells.length + 3)⟩ ∧
      s.heap.registrations (SXPoolManager.initial.heap.cells.length + 2) = [] ∧
      (∀ q c, SXPoolManager.initial.heap.read q = some c → s.heap.read q = some c) ∧
      (∀ fuel2, SXPoolManager.sharedPoolManager fuel2 s = .ok s) :=
  ⟨rfl, by decide, sharedPoolManager_lazy_init 0 SXPoolManager.initial rfl (by decide)⟩

theorem rep_of_fresh {fuel : Nat} {s0 s : State} (hnone : s0.pInstance = none)
    (hb : s0.heap.bounded) (e : SXPoolManager.sharedPoolManager fuel s0 = .ok s) :
    Rep s [PoolRep.mk (s0.heap.cells.length + 2) (s0.heap.cells.length + 3) []
      [0, 0, 0, 0, 0, 0, 0, 0, 0, 0]] [] := by
  obtain ⟨s2, e2, r, -⟩ := create_rep fuel s0 hb
  have e' : SXPoolManager.create fuel s0 = .ok s := by
    simpa [SXPoolManager.sharedPoolManager, hnone] using e
  have := SXPoolManager.create_mono e' 1
  rw [e2] at this
  cases this
  exact r

theorem rep_freshManager :
    Rep freshManager [PoolRep.mk 2 3 [] [0, 0, 0, 0, 0, 0, 0, 0, 0, 0]] [] :=
  @rep_of_fresh 1 SXPoolManager.initial freshManager rfl (by decide) rfl

/-- The stack of a state reached by `push()` and `pop()` alone is well-formed
and all its pools are empty. -/
theorem PushPopReachable.has_rep {s : State} (hr : PushPopReachable s) :
    ∃ st mjunk, Rep s st mjunk ∧ ∀ r ∈ st, r.regs = [] := by
  induction hr with
  | fresh fuel s0 s hnone hb e =>
    exact ⟨_, _, rep_of_fresh hnone hb e, by simp⟩
  | push fuel s s2 _ e ih =>
    obtain ⟨st, mj, hrep, hempty⟩ := ih
    obtain ⟨s3, e3, r3, -⟩ := push_rep fuel s st mj hrep
    have := SXPoolManager.push_mono e 1
    rw [e3] at this
    cases this
    refine ⟨_, _, r3, ?_⟩
    intro r hr
    simp at hr
    rcases hr with hr | hr
    · exact hempty r hr
    · subst hr; rfl
  | pop fuel s s2 _ e ih =>
    obtain ⟨st, mj, hrep, hempty⟩ := ih
    rcases List.eq_nil_or_concat' st with hnil | ⟨l, top, hl⟩
    · subst hnil
      rw [pop_empty fuel s mj hrep] at e
      cases e
      exact ⟨_, _, hrep, hempty⟩
    · subst hl
      obtain ⟨s3, e3, r3, -⟩ := pop_rep fuel s l top mj hrep
      have htop : top.regs = [] := hempty top (by simp)
      have := SXPoolManager.pop_mono e (top.regs.length + 6)
      rw [Nat.add_assoc] at e3
      rw [e3] at this
      cases this
      exact ⟨_, _, r3, fun r hr => hempty r (by simp [hr])⟩

theorem Rep.lastObject {s : State} {st : List PoolRep} {mjunk : List Nat} (hrep : Rep s st mjunk) :
    ∀ m, s.pInstance = some m →
      SXArray.lastObject s.heap m.m_pPools = .ok m.m_pCurrentPool := by
  intro m2 hm2
  obtain ⟨m, hm, hM, hcur, -⟩ := hrep
  rw [hm] at hm2; cases hm2
  simp only [SXArray.lastObject, hM, hcur]
  congr 1
  rcases List.eq_nil_or_concat' st with hnil | ⟨l, b, hl⟩
  · subst hnil; simp
  · subst hl
    have hpos : (l ++ [b]).length > 0 := by simp
    rw [if_pos hpos, getD_last_pool, getLastD_map_append_singleton]

theorem Rep.pool_ne_zero {s : State} {st : List PoolRep} {mjunk : List Nat}
    (hrep : Rep s st mjunk) {p : Nat} (hp : p ∈ st.map PoolRep.pool) : p ≠ 0 := by
  obtain ⟨m, -, -, -, -, -, hok⟩ := hrep
  exact (hok.valid_pool hp).1

theorem Rep.current_facts {s : State} {st : List PoolRep} {mjunk : List Nat}
    (hrep : Rep s st mjunk) :
    (s.pools ≠ [] → s.pools.getLast? = some s.currentPool) ∧
    (s.currentPool = 0 ↔ s.pools = []) := by
  rw [hrep.pools, hrep.currentPool]
  rcases List.eq_nil_or_concat' st with hnil | ⟨l, b, hl⟩
  · subst hnil; simp
  · subst hl
    have hb0 : b.pool ≠ 0 := hrep.pool_ne_zero (by simp)
    rw [getLastD_map_append_singleton]
    simp [hb0]

/-- C10: in every state reached from a fresh manager by `push()` and `pop()`
the current pool is the top of the stack: `m_pCurrentPool` is what
`lastObject()` of the pools array returns, it is the last pool whenever the
array is not empty, and it is null exactly when the array holds no pool.
In these states `push()` and `pop()` always return. -/
theorem current_pool_is_top (s : State) (hr : PushPopReachable s) :
    (∀ m, s.pInstance = some m →
      SXArray.lastObject s.heap m.m_pPools = .ok m.m_pCurrentPool) ∧
    (s.pools ≠ [] → s.pools.getLast? = some s.currentPool) ∧
    (s.currentPool = 0 ↔ s.pools = []) ∧
    (∀ fuel, ∃ s2, SXPoolManager.push (fuel + 1) s = .ok s2) ∧
    (∀ fuel, ∃ s2, SXPoolManager.pop (fuel + 6) s = .ok s2) := by
  obtain ⟨st, mj, hrep, hempty⟩ := hr.has_rep
  refine ⟨hrep.lastObject, hrep.current_facts.1, hrep.current_facts.2, ?_, ?_⟩
  · intro fuel
    obtain ⟨s2, e, -⟩ := push_rep fuel s st mj hrep
    exact ⟨s2, e⟩
  · intro fuel
    rcases List.eq_nil_or_concat' st with hnil | ⟨l, top, hl⟩
    · subst hnil
      exact ⟨s, pop_empty _ s mj hrep⟩
    · subst hl
      obtain ⟨s2, e, -⟩ := pop_rep fuel s l top mj hrep
      have htop : top.regs = [] := hempty top (by simp)
      rw [htop] at e
      exact ⟨s2, e⟩

/-- Instance of `current_pool_is_top`: the fresh manager at program start. -/
theorem current_pool_is_top_witness :
    PushPopReachable freshManager ∧
    ((∀ m, freshManager.pInstance = some m →
      SXArray.lastObject freshManager.heap m.m_pPools = .ok m.m_pCurrentPool) ∧
    (freshManager.pools ≠ [] → freshManager.pools.getLast? = some freshManager.currentPool) ∧
    (freshManager.currentPool = 0 ↔ freshManager.pools = []) ∧
    (∀ fuel, ∃ s2, SXPoolManager.push (fuel + 1) freshManager = .ok s2) ∧
    (∀ fuel, ∃ s2, SXPoolManager.pop (fuel + 6) freshManager = .ok s2)) :=
  ⟨PushPopReachable.fresh 1 SXPoolManager.initial freshManager rfl (by decide) rfl,
    current_pool_is_top freshManager
      (PushPopReachable.fresh 1 SXPoolManager.initial freshManager rfl (by decide) rfl)⟩

theorem Rep.owned_top {s : State} {st : List PoolRep} {top : PoolRep} {mjunk : List Nat}
    (hrep : Rep s (st ++ [top]) mjunk) : Owned s.heap top.regs := by
  obtain ⟨m, -, -, -, -, -, hok⟩ := hrep
  exact @PoolsOk.owned_one _ _ [] _ hok

theorem releasedObjects_pool_events (h : Heap) (r : PoolRep) (hown : Owned h r.regs) :
    releasedObjects ([.release r.pool 1, .destroy r.pool, .release r.objects 1,
      .destroy r.objects] ++ plainEvents h r.regs) = r.pool :: r.objects :: r.regs := by
  rw [releasedObjects_append, releasedObjects_plainEvents _ _ hown]
  simp [releasedObjects]

theorem nestedPools_eq (fuel : Nat) :
    runCalls (fuel + 1) [.sharedPoolManager, .construct, .autorelease 4, .push, .retain 4,
      .autorelease 4] SXPoolManager.initial = .ok nestedPools := rfl

theorem rep_nestedPools :
    Rep nestedPools ([] ++ [nestedPoolsBottom, nestedPoolsTop]) [0, 0, 0, 0, 0, 0, 0, 0, 0] := by
  refine ⟨⟨1, 5⟩, rfl, rfl, rfl, by decide, by decide, ?_, by decide, by decide, ?_⟩
  · intro r hr
    simp at hr
    rcases hr with hr | hr <;> subst hr <;> exact ⟨rfl, rfl⟩
  · intro o ho
    simp [nestedPoolsBottom, nestedPoolsTop] at ho
    subst ho
    exact ⟨2, rfl, by decide, by decide⟩

/-- C8 (as stated) fails: `pop()` on the fresh manager, whose stack has depth
1, returns a state whose stack is empty and whose current pool is null; the
pool at address 2 has been destroyed. -/
theorem pop_at_depth_one_is_not_a_no_op :
    freshManager.pools = [2] ∧ freshManager.currentPool = 2 ∧
    ∃ s2, SXPoolManager.pop 6 freshManager = .ok s2 ∧
      s2.pools = [] ∧ s2.currentPool = 0 ∧ s2.heap.read 2 = none ∧ s2 ≠ freshManager :=
  ⟨rfl, rfl, _, rfl, rfl, rfl, rfl, by decide⟩

/-- C9 (as stated) fails: after the first access to the manager, one `pop()`
leaves the stack empty and the current pool null, and a following
`addObject`, `removeObject` or `autorelease()` dereferences the null pool. -/
theorem pop_after_first_access_empties_stack :
    ∃ s, runCalls 6 [.sharedPoolManager, .construct, .pop] SXPoolManager.initial = .ok s ∧
      s.pools = [] ∧ s.currentPool = 0 ∧ s.heap.read 4 = some ⟨1, .object⟩ ∧
      (Call.addObject 4).run 6 s = .undefined ∧
      (Call.removeObject 4).run 6 s = .undefined ∧
      (Call.autorelease 4).run 6 s = .undefined :=
  ⟨_, rfl, rfl, rfl, rfl, rfl, rfl, rfl⟩

theorem Rep.shared {s : State} {st : List PoolRep} {mjunk : List Nat} (hrep : Rep s st mjunk)
    (fuel : Nat) : SXPoolManager.sharedPoolManager fuel s = .ok s := by
  obtain ⟨m, hm, -⟩ := hrep
  simp [SXPoolManager.sharedPoolManager, hm]

theorem Rep.current_alive {s : State} {st : List PoolRep} {top : PoolRep} {mjunk : List Nat}
    (hrep : Rep s (st ++ [top]) mjunk) :
    s.currentPool = top.pool ∧ top.pool ≠ 0 ∧
    s.heap.read top.pool = some ⟨1, .pool top.objects⟩ ∧
    s.heap.read top.objects =
      some ⟨1, .array (top.regs.length + top.junk.length) top.regs.length (top.regs ++ top.junk)⟩ := by
  have hc := hrep.currentPool
  rw [getLastD_map_append_singleton] at hc
  obtain ⟨m, -, -, -, -, -, hok⟩ := hrep
  have hh := hok.1 top (by simp)
  exact ⟨hc, (Heap.valid_of_read hh.1).1, hh.1, hh.2⟩

theorem runCalls_keepsBottomPool (fuel : Nat) (calls : List Call) :
    ∀ (depth : Nat) (s : State) (st : List PoolRep) (mjunk : List Nat),
    Rep s st mjunk → (∀ r ∈ st, r.regs = []) → st.length = depth → 1 ≤ depth →
    keepsBottomPool depth calls = true →
    ∃ s2 st2 mjunk2, runCalls (fuel + 6) calls s = .ok s2 ∧ Rep s2 st2 mjunk2 ∧
      (∀ r ∈ st2, r.regs = []) ∧ st2.length = depthAfter depth calls ∧ 1 ≤ st2.length := by
  induction calls with
  | nil =>
    intro depth s st mj hrep hempty hlen hd _
    exact ⟨s, st, mj, rfl, hrep, hempty, by simpa [depthAfter] using hlen, by omega⟩
  | cons c cs ih =>
    intro depth s st mj hrep hempty hlen hd hk
    cases c with
    | push =>
      simp only [keepsBottomPool] at hk
      obtain ⟨s1, e1, r1, -⟩ := push_rep (fuel + 5) s st mj hrep
      have hempty1 : ∀ r ∈ st ++ [PoolRep.mk (s.heap.cells.length + 1) (s.heap.cells.length + 2) []
          [0, 0, 0, 0, 0, 0, 0, 0, 0, 0]], r.regs = [] := by
        intro r hr
        simp at hr
        rcases hr with hr | hr
        · exact hempty r hr
        · subst hr; rfl
      obtain ⟨s2, st2, mj2, e2, r2, he2, hl2, hd2⟩ :=
        ih (depth + 1) s1 _ _ r1 hempty1 (by simp [hlen]) (by omega) hk
      refine ⟨s2, st2, mj2, ?_, r2, he2, by simpa [depthAfter] using hl2, hd2⟩
      simp only [runCalls, Call.run, hrep.shared, Outcome.bind_ok, e1, e2]
    | pop =>
      simp only [keepsBottomPool, Bool.and_eq_true, decide_eq_true_eq] at hk
      rcases List.eq_nil_or_concat' st with hnil | ⟨l, top, hl⟩
      · subst hnil; simp at hlen; omega
      · subst hl
        obtain ⟨s1, e1, r1, -⟩ := pop_rep fuel s l top mj hrep
        have htop : top.regs = [] := hempty top (by simp)
        rw [htop] at e1
        simp only [List.length_nil, Nat.add_zero] at e1
        have hlen1 : l.length = depth - 1 := by simp at hlen; omega
        obtain ⟨s2, st2, mj2, e2, r2, he2, hl2, hd2⟩ :=
          ih (depth - 1) s1 l _ r1 (fun r hr => hempty r (by simp [hr])) hlen1 (by omega) hk.2
        refine ⟨s2, st2, mj2, ?_, r2, he2, by simpa [depthAfter] using hl2, hd2⟩
        simp only [runCalls, Call.run, hrep.shared, Outcome.bind_ok, e1, e2]
    | construct => simp [keepsBottomPool] at hk
    | retain o => simp [keepsBottomPool] at hk
    | release o => simp [keepsBottomPool] at hk
    | autorelease o => simp [keepsBottomPool] at hk
    | addObject o => simp [keepsBottomPool] at hk
    | removeObject o => simp [keepsBottomPool] at hk
    | sharedPoolManager => simp [keepsBottomPool] at hk
    | purgePoolManager => simp [keepsBottomPool] at hk

/-- C9 (amended): after the manager's first access, every finite sequence of
`push()` and `pop()` calls in which no `pop()` is made at depth 1 returns and
leaves the stack with at least one pool (one plus the pushes minus the pops)
and a current pool that is a live pool with a live array, so that a following
`addObject` / `removeObject` / `autorelease()` acts on an existing pool. -/
theorem push_pop_keeps_a_pool (fuel fuel0 : Nat) (calls : List Call) (s0 s : State)
    (hnone : s0.pInstance = none) (hb : s0.heap.bounded)
    (hfirst : SXPoolManager.sharedPoolManager fuel0 s0 = .ok s)
    (hcalls : keepsBottomPool 1 calls = true) :
    ∃ s2, runCalls (fuel + 6) calls s = .ok s2 ∧
      s2.pools.length = depthAfter 1 calls ∧ 1 ≤ s2.pools.length ∧
      s2.currentPool ≠ 0 ∧ s2.pools.getLast? = some s2.currentPool ∧
      ∃ pObjects cap count arr,
        s2.heap.read s2.currentPool = some ⟨1, .pool pObjects⟩ ∧
        s2.heap.read pObjects = some ⟨1, .array cap count arr⟩ := by
  have hrep := rep_of_fresh hnone hb hfirst
  obtain ⟨s2, st2, mj2, e2, r2, -, hl2, hd2⟩ :=
    runCalls_keepsBottomPool fuel calls 1 s _ _ hrep (by simp) rfl (by omega) hcalls
  rcases List.eq_nil_or_concat' st2 with hnil | ⟨l, top, hl⟩
  · subst hnil; simp at hd2
  · subst hl
    obtain ⟨hc, h0, hP, hA⟩ := r2.current_alive
    have hp := r2.pools
    refine ⟨s2, e2, by rw [hp]; simpa using hl2, by rw [hp]; simp,
      by rw [hc]; exact h0, ?_, _, _, _, _, by rw [hc]; exact hP, hA⟩
    exact r2.current_facts.1 (by rw [hp]; simp)

/-- Instance of `push_pop_keeps_a_pool`: push, push, pop, pop, push from the
program start. -/
theorem push_pop_keeps_a_pool_witness :
    SXPoolManager.initial.pInstance = none ∧ SXPoolManager.initial.heap.bounded ∧
    SXPoolManager.sharedPoolManager 1 SXPoolManager.initial = .ok freshManager ∧
    keepsBottomPool 1 [.push, .push, .pop, .pop, .push] = true ∧
    ∃ s2, runCalls (0 + 6) [.push, .push, .pop, .pop, .push] freshManager = .ok s2 ∧
      s2.pools.length = depthAfter 1 [.push, .push, .pop, .pop, .push] ∧ 1 ≤ s2.pools.length ∧
      s2.currentPool ≠ 0 ∧ s2.pools.getLast? = some s2.currentPool ∧
      ∃ pObjects cap count arr,
        s2.heap.read s2.currentPool = some ⟨1, .pool pObjects⟩ ∧
        s2.heap.read pObjects = some ⟨1, .array cap count arr⟩ :=
  ⟨rfl, by decide, rfl, rfl,
    push_pop_keeps_a_pool 0 1 [.push, .push, .pop, .pop, .push] SXPoolManager.initial
      freshManager rfl (by decide) rfl rfl⟩

theorem Rep.current_not_fresh {s : State} {st : List PoolRep} {mjunk : List Nat}
    (hrep : Rep s st mjunk) (k : Nat) : s.currentPool ≠ s.heap.cells.length + (k + 1) := by
  rw [hrep.currentPool]
  rcases List.eq_nil_or_concat' st with hnil | ⟨l, b, hl⟩
  · subst hnil; simp; omega
  · subst hl
    rw [getLastD_map_append_singleton]
    obtain ⟨m, -, -, -, -, -, hok⟩ := hrep
    have hv := hok.valid_pool (p := b.pool) (by simp)
    intro e
    exact not_valid_succ s.heap k (by rw [e] at hv; exact hv)

/-! ## Tearing the manager down -/

theorem stackEvents_sameReads (st : List PoolRep) : ∀ (xs : List Nat) (h1 h2 : Heap),
    SameReads xs h1 h2 → (∀ o ∈ st.flatMap PoolRep.regs, o ∉ xs) →
    stackEvents h1 st = stackEvents h2 st := by
  induction st with
  | nil => intro xs h1 h2 _ _; rfl
  | cons r rest ih =>
    intro xs h1 h2 a hx
    have hx1 : ∀ o ∈ r.regs, o ∉ xs := fun o ho => hx o (by simp [ho])
    have hx2 : ∀ o ∈ rest.flatMap PoolRep.regs, o ∉ xs := fun o ho => by
      apply hx o
      rw [List.flatMap_cons]
      exact List.mem_append_right _ ho
    obtain ⟨s1, e1⟩ := drainPlain_sameReads r.regs xs h1 h2 a hx1
    simp only [stackEvents, poolEvents, e1, ih xs _ _ s1 hx2]

theorem PoolsOk.tail {h h2 : Heap} {r : PoolRep} {rest : List PoolRep}
    (hok : PoolsOk h (r :: rest))
    (hs : SameReads [r.pool, r.objects] h2 (drainPlain h r.regs)) : PoolsOk h2 rest := by
  have := @PoolsOk.remove _ _ [] rest r (by simpa using hok) hs
  simpa using this

theorem PoolsOk.head_holds {h : Heap} {r : PoolRep} {rest : List PoolRep}
    (hok : PoolsOk h (r :: rest)) : r.holds h ∧ Owned h r.regs :=
  ⟨hok.1 r (by simp), @PoolsOk.owned_one h [] rest r (by simpa using hok)⟩

theorem releasedObjects_stackEvents (st : List PoolRep) : ∀ h : Heap, PoolsOk h st →
    releasedObjects (stackEvents h st) =
      st.flatMap (fun r => r.pool :: r.objects :: r.regs) := by
  induction st with
  | nil => intro h _; rfl
  | cons r rest ih =>
    intro h hok
    have hh := hok.head_holds
    have hok2 : PoolsOk (drainPlain h r.regs) rest := hok.tail (SameReads.same _ _)
    rw [stackEvents, releasedObjects_append, poolEvents, releasedObjects_pool_events _ _ hh.2,
      ih _ hok2]
    simp

theorem poolCells_cons (r : PoolRep) (rest : List PoolRep) :
    poolCells (r :: rest) = r.pool :: r.objects :: poolCells rest := by
  simp [poolCells]

/-- The loop of `removeAllObjects` over the pools array of a well-formed
stack: the pools are destroyed in index order, bottom pool first. -/
theorem removeAllObjectsFrom_pools (st : List PoolRep) : ∀ (fuel : Nat) (h : Heap)
    (a rcA cap : Nat) (pre junk : List Nat),
    h.read a = some ⟨rcA, .array cap (pre.length + st.length)
      (pre ++ st.map PoolRep.pool ++ junk)⟩ →
    PoolsOk h st → a ∉ st.map PoolRep.objects →
    st.length + (st.flatMap PoolRep.regs).length + 7 ≤ fuel →
    ∃ h2, SXObject.removeAllObjectsFrom fuel h a pre.length = .ok h2 ∧
      h2.trace = h.trace ++ stackEvents h st ∧
      SameReads (a :: poolCells st) h2 (drainPlain h (st.flatMap PoolRep.regs)) ∧
      (∀ q ∈ poolCells st, h2.read q = none) ∧
      h2.read a = some ⟨rcA, .array cap 0 (pre ++ List.replicate st.length 0 ++ junk)⟩ := by
  induction st with
  | nil =>
    intro fuel h a rcA cap pre junk ha _ _ hf
    have hv := Heap.valid_of_read ha
    obtain ⟨f, rfl⟩ : ∃ f, fuel = f + 1 := ⟨fuel - 1, by simp at hf; omega⟩
    refine ⟨h.write a ⟨rcA, .array cap 0 (pre ++ [] ++ junk)⟩, ?_, by simp [stackEvents],
      ?_, by simp [poolCells], by simp [Heap.read_write, hv]⟩
    · rw [SXObject.removeAllObjectsFrom_succ]
      simp [ha]
    · simpa [poolCells, drainPlain] using SameReads.write_left [a] h a _ (by simp)
  | cons r rest ih =>
    intro fuel h a rcA cap pre junk ha hok hao hf
    have hv := Heap.valid_of_read ha
    obtain ⟨hr, hown⟩ := hok.head_holds
    have hP0 : r.pool ≠ 0 := (Heap.valid_of_read hr.1).1
    have haP : a ≠ r.pool := by intro e; rw [e, hr.1] at ha; cases ha
    have haA : a ≠ r.objects := by intro e; apply hao; rw [e]; simp
    have har : a ∉ r.regs := hown.not_array ha
    have hflat : ((r :: rest).flatMap PoolRep.regs).length =
        r.regs.length + (rest.flatMap PoolRep.regs).length := by simp
    obtain ⟨f, rfl⟩ : ∃ f, fuel = f + 1 := ⟨fuel - 1, by simp at hf; omega⟩
    simp only [List.length_cons] at hf
    -- the first pool is destroyed
    obtain ⟨h1, e1, t1, s1, d1, d2⟩ := release_pool 0 h r hr hown
    have e1' : SXObject.release f h r.pool = .ok h1 :=
      SXObject.release_mono_le e1 (by omega)
    have ha1 : h1.read a = some ⟨rcA, .array cap (pre.length + (r :: rest).length)
        (pre ++ (r :: rest).map PoolRep.pool ++ junk)⟩ := by
      rw [s1.2 a (by simp [haP, haA]), drainPlain_read_of_not_mem _ _ _ har]; exact ha
    have hv1 := Heap.valid_of_read ha1
    have hok1 : PoolsOk h1 rest := hok.tail s1
    have hao1 : a ∉ rest.map PoolRep.objects := by
      intro hm; apply hao; simp at hm ⊢; tauto
    have hav := hok1.avoid_array ha1 hao1
    -- the slot of the pool is nulled
    let h1w : Heap := h1.write a ⟨rcA, .array cap (pre.length + (r :: rest).length)
      ((pre ++ [0]) ++ rest.map PoolRep.pool ++ junk)⟩
    have hsw : SameReads [a] h1w h1 := SameReads.write_left _ _ _ _ (by simp)
    have hok1w : PoolsOk h1w rest := hok1.of_sameReads hsw hav.1 hav.2
    have ha1w : h1w.read a = some ⟨rcA, .array cap ((pre ++ [0]).length + rest.length)
        ((pre ++ [0]) ++ rest.map PoolRep.pool ++ junk)⟩ := by
      simp [h1w, Heap.read_write, hv1]; omega
    obtain ⟨h2, e2, t2, s2, dd2, r2⟩ := ih f h1w a rcA cap (pre ++ [0]) junk ha1w hok1w hao1
      (by omega)
    -- the ghost heap: only the registrations are released
    have hs1w : SameReads [a, r.pool, r.objects] h1w (drainPlain h r.regs) :=
      (hsw.mono (by simp)).andThen (s1.mono (by simp))
    have hregs_avoid : ∀ o ∈ rest.flatMap PoolRep.regs, o ∉ [a, r.pool, r.objects] := by
      intro o ho hmem
      obtain ⟨c, hro, -, -⟩ := hok1w.2.2.2 o ho
      simp at hmem
      rcases hmem with e | e | e
      · subst e; rw [ha1w] at hro; cases hro
      · subst e
        have : h1w.read r.pool = none := by simp [h1w, Heap.read_write, Ne.symm haP, d1]
        rw [this] at hro; cases hro
      · subst e
        have : h1w.read r.objects = none := by simp [h1w, Heap.read_write, Ne.symm haA, d2]
        rw [this] at hro; cases hro
    have hev := stackEvents_sameReads rest _ _ _ hs1w hregs_avoid
    obtain ⟨s3, -⟩ := drainPlain_sameReads (rest.flatMap PoolRep.regs) _ _ _ hs1w hregs_avoid
    have hget : (pre ++ (r :: rest).map PoolRep.pool ++ junk).getD pre.length 0 = r.pool := by
      rw [List.getD_eq_getElem?_getD, List.append_assoc,
        List.getElem?_append_right (Nat.le_refl _)]
      simp
    have hset : (pre ++ (r :: rest).map PoolRep.pool ++ junk).set pre.length 0 =
        (pre ++ [0]) ++ rest.map PoolRep.pool ++ junk := by simp
    refine ⟨h2, ?_, ?_, ?_, ?_, ?_⟩
    · rw [SXObject.removeAllObjectsFrom_succ]
      simp only [ha, hget]
      have hlt : pre.length < pre.length + (r :: rest).length := by simp
      rw [if_pos hlt, if_pos hP0, e1']
      simp only [ha1, hset]
      have : (pre ++ [0]).length = pre.length + 1 := by simp
      rw [this] at e2
      exact e2
    · rw [t2, hev]
      simp [h1w, t1, stackEvents, poolEvents]
    · have hd : drainPlain h ((r :: rest).flatMap PoolRep.regs) =
          drainPlain (drainPlain h r.regs) (rest.flatMap PoolRep.regs) := by
        rw [List.flatMap_cons, drainPlain_append]
      rw [hd]
      refine SameReads.andThen (s2.mono ?_) (s3.mono ?_)
      · intro x hx; simp only [poolCells_cons, List.mem_cons] at hx ⊢; tauto
      · intro x hx; simp only [poolCells_cons, List.mem_cons, List.mem_singleton,
          List.not_mem_nil, or_false] at hx ⊢; tauto
    · intro q hq
      simp only [poolCells_cons, List.mem_cons] at hq
      have hdead : ∀ p, p ≠ a → h1.read p = none → p ∉ poolCells rest → h2.read p = none := by
        intro p hpa hp hnc
        have hpw : h1w.read p = none := by simp [h1w, Heap.read_write, hpa, hp]
        rw [s2.2 p (by simp [hpa, hnc]),
          drainPlain_read_of_not_mem _ _ _ (hok1w.2.2.2.not_dead hpw)]
        exact hpw
      by_cases hqc : q ∈ poolCells rest
      · exact dd2 q hqc
      · rcases hq with e | e | e
        · subst e; exact hdead _ (Ne.symm haP) d1 hqc
        · subst e; exact hdead _ (Ne.symm haA) d2 hqc
        · exact absurd e hqc
    · rw [r2]
      simp [List.replicate_succ]


/-- The teardown of a well-formed manager: the pools array is released at
count 1 and destroyed, its pools are destroyed bottom pool first, and the
singleton is reset. -/
theorem purge_rep (s : State) (st : List PoolRep) (mjunk : List Nat) (hrep : Rep s st mjunk)
    (fuel : Nat) (hf : st.length + (st.flatMap PoolRep.regs).length + 9 ≤ fuel) :
    ∃ m h2, s.pInstance = some m ∧
      SXPoolManager.purgePoolManager fuel s = .ok ⟨h2, none⟩ ∧
      h2.trace = s.heap.trace ++ [.release m.m_pPools 1, .destroy m.m_pPools] ++
        stackEvents s.heap st ∧
      SameReads (m.m_pPools :: poolCells st) h2 (drainPlain s.heap (st.flatMap PoolRep.regs)) ∧
      h2.read m.m_pPools = none ∧ (∀ q ∈ poolCells st, h2.read q = none) := by
  obtain ⟨m, hm, hM, -, hno, -, hok⟩ := hrep
  have hv := Heap.valid_of_read hM
  have hM0 : m.m_pPools ≠ 0 := hv.1
  have e0 : wrap (1 + UINT_MAX) = 0 := by decide
  let hl : Heap := ((s.heap.write m.m_pPools
    ⟨0, .array (st.length + mjunk.length) st.length (st.map PoolRep.pool ++ mjunk)⟩).log
      (.release m.m_pPools 1)).log (.destroy m.m_pPools)
  have hsl : SameReads [m.m_pPools] hl s.heap := by
    refine ⟨by simp [hl], ?_⟩
    intro q hq
    simp at hq
    simp [hl, Heap.read_write, hq]
  have hav := hok.avoid_array hM hno
  have hokl : PoolsOk hl st := hok.of_sameReads hsl hav.1 hav.2
  have hlM : hl.read m.m_pPools = some ⟨0, .array (st.length + mjunk.length)
      (([] : List Nat).length + st.length) ([] ++ st.map PoolRep.pool ++ mjunk)⟩ := by
    simp [hl, Heap.read_write, hv]
  obtain ⟨f, rfl⟩ : ∃ f, fuel = f + 2 := ⟨fuel - 2, by omega⟩
  obtain ⟨h3, e3, t3, s3, d3, -⟩ :=
    removeAllObjectsFrom_pools st f hl m.m_pPools 0 _ [] mjunk hlM hokl hno (by omega)
  have hev := stackEvents_sameReads st _ _ _ hsl hav.2
  obtain ⟨s4, -⟩ := drainPlain_sameReads (st.flatMap PoolRep.regs) _ _ _ hsl hav.2
  have hMc : m.m_pPools ∉ poolCells st := by
    intro hmem
    simp only [poolCells, List.mem_flatMap] at hmem
    obtain ⟨r, hr, hq⟩ := hmem
    have := hav.1 r hr
    simp at hq this
    rcases hq with e | e
    · exact this.1 e.symm
    · exact this.2 e.symm
  refine ⟨m, h3.free m.m_pPools, hm, ?_, ?_, ?_, by simp [Heap.read_free], ?_⟩
  · unfold SXPoolManager.purgePoolManager
    simp only [hm, ne_eq, hM0, not_false_eq_true, if_true]
    rw [SXObject.release_succ, hM]
    simp only [e0, if_true]
    rw [SXObject.delete_succ]
    simp only [Heap.read_log, Heap.read_write, hv, and_self, if_true]
    simp only [List.length_nil] at e3
    rw [e3]
    rfl
  · simp [t3, hev, hl]
  · refine SameReads.andThen (SameReads.free_left _ _ _ (by simp)) ?_
    exact s3.andThen (s4.mono (by simp))
  · intro q hq
    have hne : q ≠ m.m_pPools := fun e => hMc (e ▸ hq)
    simp [Heap.read_free, hne, d3 q hq]


theorem stackedPools_eq (fuel : Nat) :
    runCalls (fuel + 1) [.sharedPoolManager, .construct, .autorelease 4, .push, .construct,
      .autorelease 7] SXPoolManager.initial = .ok stackedPools := rfl

theorem rep_stackedPools :
    Rep stackedPools [stackedPoolsBottom, stackedPoolsTop] [0, 0, 0, 0, 0, 0, 0, 0, 0] := by
  refine ⟨⟨1, 5⟩, rfl, rfl, rfl, by decide, by decide, ?_, by decide, by decide, ?_⟩
  · intro r hr
    simp at hr
    rcases hr with hr | hr <;> subst hr <;> exact ⟨rfl, rfl⟩
  · intro o ho
    simp [stackedPoolsBottom, stackedPoolsTop] at ho
    rcases ho with ho | ho <;> subst ho <;> exact ⟨1, rfl, by decide, by decide⟩

theorem stackEvents_append (l1 l2 : List PoolRep) : ∀ h : Heap,
    stackEvents h (l1 ++ l2) =
      stackEvents h l1 ++ stackEvents (drainPlain h (l1.flatMap PoolRep.regs)) l2 := by
  induction l1 with
  | nil => intro h; simp [stackEvents, drainPlain]
  | cons r rest ih =>
    intro h
    simp [stackEvents, ih, drainPlain_append]

theorem PoolsOk.drained (l1 l2 : List PoolRep) : ∀ h : Heap, PoolsOk h (l1 ++ l2) →
    releasedObjects (stackEvents h l1) = l1.flatMap (fun r => r.pool :: r.objects :: r.regs) ∧
    PoolsOk (drainPlain h (l1.flatMap PoolRep.regs)) l2 := by
  induction l1 with
  | nil => intro h hok; exact ⟨rfl, by simpa [drainPlain] using hok⟩
  | cons r rest ih =>
    intro h hok
    have hok' : PoolsOk h (r :: (rest ++ l2)) := by simpa using hok
    have hh := hok'.head_holds
    obtain ⟨e, hok2⟩ := ih _ (hok'.tail (SameReads.same _ _))
    refine ⟨?_, ?_⟩
    · rw [stackEvents, releasedObjects_append, poolEvents,
        releasedObjects_pool_events _ _ hh.2, e]
      simp
    · rw [List.flatMap_cons, drainPlain_append]; exact hok2

theorem Rep.all_registrations {s : State} {st : List PoolRep} {mjunk : List Nat}
    (hrep : Rep s st mjunk) : s.registrations = st.flatMap PoolRep.regs := by
  have hreg : ∀ r ∈ st, s.heap.registrations r.pool = r.regs := fun r hr => hrep.registrations hr
  rw [State.registrations, hrep.pools]
  clear hrep
  induction st with
  | nil => rfl
  | cons r rest ih =>
    simp only [List.map_cons, List.flatMap_cons]
    rw [hreg r (by simp), ih (fun q hq => hreg q (by simp [hq]))]

theorem count_flatMap_cells (o : Nat) (st : List PoolRep)
    (hne : ∀ r ∈ st, o ≠ r.pool ∧ o ≠ r.objects) :
    (st.flatMap (fun r => r.pool :: r.objects :: r.regs)).count o =
      (st.flatMap PoolRep.regs).count o := by
  induction st with
  | nil => rfl
  | cons r rest ih =>
    have h1 := hne r (by simp)
    simp only [List.flatMap_cons, List.count_append, List.cons_append]
    rw [List.count_cons_of_ne h1.1, List.count_cons_of_ne h1.2, List.count_append,
      ih (fun q hq => hne q (by simp [hq]))]

theorem releasedToZero_stackEvents (st : List PoolRep) : ∀ (h : Heap) (r : PoolRep), r ∈ st →
    ReleasedToZero r.pool (stackEvents h st) := by
  induction st with
  | nil => intro h r hr; simp at hr
  | cons a rest ih =>
    intro h r hr
    simp only [List.mem_cons] at hr
    rcases hr with e | hr
    · subst e
      refine ⟨[], [.release r.objects 1, .destroy r.objects] ++ plainEvents h r.regs ++
        stackEvents (drainPlain h r.regs) rest, ?_⟩
      simp [stackEvents, poolEvents]
    · obtain ⟨pre, post, e⟩ := ih (drainPlain h a.regs) r hr
      refine ⟨poolEvents h a ++ pre, post, ?_⟩
      rw [stackEvents, ← e]
      simp


/-- C14 (as stated) fails: in a reachable state whose bottom pool (address 2)
holds the object 4 and whose top pool (address 5) holds the object 7,
`purgePoolManager()` releases the registration of the bottom pool before the
registration of the top pool. -/
theorem purge_releases_bottom_pool_first :
    runCalls 20 [.sharedPoolManager, .construct, .autorelease 4, .push, .construct,
      .autorelease 7] SXPoolManager.initial = .ok stackedPools ∧
    stackedPools.pools = [2, 5] ∧ stackedPools.currentPool = 5 ∧
    stackedPools.heap.registrations 2 = [4] ∧ stackedPools.heap.registrations 5 = [7] ∧
    ∃ s2, SXPoolManager.purgePoolManager 20 stackedPools = .ok s2 ∧
      s2.heap.trace = stackedPools.heap.trace ++
        [.release 1 1, .destroy 1, .release 2 1, .destroy 2, .release 3 1, .destroy 3,
          .release 4 1, .destroy 4, .release 5 1, .destroy 5, .release 6 1, .destroy 6,
          .release 7 1, .destroy 7] ∧
      releasedObjects (s2.heap.trace.drop stackedPools.heap.trace.length) =
        [1, 2, 3, 4, 5, 6, 7] :=
  ⟨rfl, rfl, rfl, rfl, rfl, _, rfl, rfl, rfl⟩

/-! ## Sequences: `addObject` -/

/-- The method `SXArray::addObject` on an array whose buffer has `m_capacity`
slots: the sequence grows by the new element, also when the buffer is full. -/
theorem SXArray.addObject_elements (h : Heap) (a o rcA cap count c : Nat) (arr : List Nat)
    (body : Body) (ha : h.read a = some ⟨rcA, .array cap count arr⟩)
    (hlen : arr.length = cap) (hcount : count ≤ cap) (ho : h.read o = some ⟨c, body⟩) :
    ∃ h2, SXArray.addObject h a o = .ok h2 ∧
      h.elements a = arr.take count ∧ (h.elements a).length = count ∧
      h2.elements a = h.elements a ++ [o] ∧
      (∃ cap2 arr2, h2.read a = some ⟨if o = a then wrap (rcA + 1) else rcA,
          .array cap2 (count + 1) arr2⟩ ∧
        arr2.length = cap2 ∧ count + 1 ≤ cap2 ∧
        cap2 = if count = cap then cap + SX_ARRAY_DEFAULT_CAPACITY_INCREMENT else cap) ∧
      (h2.read o).isSome ∧
      (o ≠ a → h2.read o = some ⟨wrap (c + 1), body⟩) ∧
      (∀ q, q ≠ a → q ≠ o → h2.read q = h.read q) ∧
      h2.trace = h.trace ∧ h2.cells.length = h.cells.length := by
  have hsplit : arr = arr.take count ++ arr.drop count := (List.take_append_drop count arr).symm
  have hl1 : (arr.take count).length = count := by simp [hlen, hcount]
  have hl2 : (arr.drop count).length = cap - count := by simp [hlen]
  have ha' : h.read a = some ⟨rcA, .array ((arr.take count).length + (arr.drop count).length)
      (arr.take count).length (arr.take count ++ arr.drop count)⟩ := by
    rw [← hsplit, hl1, hl2, ha]
    congr 3
    omega
  obtain ⟨h2, e, t, l, fr, ro, ra⟩ := SXArray.addObject_reads h a o rcA c _ _ body ha' ho
  have hel : h.elements a = arr.take count := by simp [Heap.elements, ha]
  have hsp := SXArray.spare_length (arr.drop count)
  have ra' : h2.read a = some ⟨if o = a then wrap (rcA + 1) else rcA,
      .array (count + 1 + (SXArray.spare (arr.drop count)).length) (count + 1)
        (arr.take count ++ o :: SXArray.spare (arr.drop count))⟩ := by rw [ra, hl1]
  refine ⟨h2, e, hel, by rw [hel, hl1], ?_, ⟨_, _, ra', ?_, ?_, ?_⟩, ?_, ro, fr, t, l⟩
  · rw [hel]
    simp only [Heap.elements, ra]
    rw [show arr.take count ++ o :: SXArray.spare (arr.drop count) =
      (arr.take count ++ [o]) ++ SXArray.spare (arr.drop count) by simp]
    rw [List.take_left' (by simp)]
  · simp [hl1]; omega
  · omega
  · by_cases hc : count = cap
    · have : arr.drop count = [] := by
        apply List.eq_nil_of_length_eq_zero; rw [hl2]; omega
      have hsp0 := SXArray.spare_length ([] : List Nat)
      rw [if_pos rfl] at hsp0
      rw [this, if_pos hc]
      omega
    · have : arr.drop count ≠ [] := by
        intro e0; rw [e0] at hl2; simp at hl2; omega
      rw [if_neg this, hl2] at hsp
      rw [if_neg hc]
      omega
  · by_cases hoa : o = a
    · subst hoa; rw [ra]; rfl
    · rw [ro hoa]; rfl


/-- The method `SXAutoreleasePool::addObject`: the registration sequence grows
by the new element. -/
theorem SXAutoreleasePool.addObject_registrations (h : Heap) (p a o rcP rcA cap count c : Nat)
    (arr : List Nat) (body : Body) (hp : h.read p = some ⟨rcP, .pool a⟩)
    (ha : h.read a = some ⟨rcA, .array cap count arr⟩)
    (hlen : arr.length = cap) (hcount : count ≤ cap) (ho : h.read o = some ⟨c, body⟩) :
    ∃ h2, SXAutoreleasePool.addObject h p o = .ok h2 ∧
      SXArray.addObject h a o = .ok h2 ∧
      h.registrations p = h.elements a ∧ h2.registrations p = h2.elements a ∧
      (∃ rcP2, h2.read p = some ⟨rcP2, .pool a⟩) := by
  obtain ⟨h2, e, -, -, -, -, -, ro, fr, -, -⟩ :=
    SXArray.addObject_elements h a o rcA cap count c arr body ha hlen hcount ho
  have hpa : p ≠ a := by intro e0; rw [e0, ha] at hp; cases hp
  have hp2 : ∃ rcP2, h2.read p = some ⟨rcP2, .pool a⟩ := by
    by_cases hpo : p = o
    · subst hpo
      rw [hp] at ho; cases ho
      exact ⟨_, ro hpa⟩
    · exact ⟨rcP, by rw [fr p hpa hpo]; exact hp⟩
  obtain ⟨rcP2, hp2⟩ := hp2
  refine ⟨h2, ?_, e, by simp [Heap.registrations, hp], by simp [Heap.registrations, hp2],
    _, hp2⟩
  simp [SXAutoreleasePool.addObject, SXAutoreleasePool.objects, hp, e]

/-- C17 (as stated) fails: registering the new object at address 4 (count 1)
with the initial pool through `SXAutoreleasePool::addObject` raises its count
to 2. -/
theorem pool_addObject_changes_count :
    freshManagerWithObject.heap.read 2 = some ⟨1, .pool 3⟩ ∧
    freshManagerWithObject.heap.retainCount 4 = some 1 ∧
    ∃ h2, SXAutoreleasePool.addObject freshManagerWithObject.heap 2 4 = .ok h2 ∧
      h2.registrations 2 = [4] ∧ h2.retainCount 4 = some 2 ∧
      h2.retainCount 4 ≠ freshManagerWithObject.heap.retainCount 4 :=
  ⟨rfl, rfl, _, rfl, rfl, rfl, by decide⟩

/-- C17 (amended): `addObject(o)` of a release pool retains `o`: for a pool
with an array whose buffer has `m_capacity` slots and a live object `o` other
than that array, the count of `o` afterwards is the count before plus one
(wrapped at `2 ^ 32`), so it differs from the count before, and the count of
every other object is unchanged. -/
theorem pool_addObject_retains (h : Heap) (p a o rcP rcA cap count c : Nat) (arr : List Nat)
    (body : Body) (hp : h.read p = some ⟨rcP, .pool a⟩)
    (ha : h.read a = some ⟨rcA, .array cap count arr⟩)
    (hlen : arr.length = cap) (hcount : count ≤ cap) (ho : h.read o = some ⟨c, body⟩)
    (hoa : o ≠ a) :
    ∃ h2, SXAutoreleasePool.addObject h p o = .ok h2 ∧
      h.retainCount o = some c ∧
      h2.retainCount o = some (wrap (c + 1)) ∧
      (c < UINT_MAX → h2.retainCount o = some (c + 1)) ∧
      (c ≤ UINT_MAX → h2.retainCount o ≠ h.retainCount o) ∧
      (∀ q, q ≠ o → h2.retainCount q = h.retainCount q) ∧
      h2.trace = h.trace := by
  obtain ⟨h2, e, -, -, -, ⟨cap2, arr2, ha2, -⟩, -, ro, fr, t, -⟩ :=
    SXArray.addObject_elements h a o rcA cap count c arr body ha hlen hcount ho
  have r0 : h.retainCount o = some c := by simp [Heap.retainCount, ho]
  have r2 : h2.retainCount o = some (wrap (c + 1)) := by simp [Heap.retainCount, ro hoa]
  refine ⟨h2, ?_, r0, r2, ?_, ?_, ?_, t⟩
  · simp [SXAutoreleasePool.addObject, SXAutoreleasePool.objects, hp, e]
  · intro hc; rw [r2, wrap_succ c hc]
  · intro hc
    rw [r0, r2]
    intro e0
    have := Option.some.inj e0
    unfold wrap UINT_MAX at *
    omega
  · intro q hq
    by_cases hqa : q = a
    · subst hqa
      simp [Heap.retainCount, ha2, ha, hoa]
    · simp [Heap.retainCount, fr q hqa hq]

/-- Instance of `pool_addObject_retains`: the new object at address 4 is
registered with the initial pool of the fresh manager. -/
theorem pool_addObject_retains_witness :
    (freshManagerWithObject.heap.read 2 = some ⟨1, .pool 3⟩ ∧
      freshManagerWithObject.heap.read 3 =
        some ⟨1, .array 10 0 [0, 0, 0, 0, 0, 0, 0, 0, 0, 0]⟩ ∧
      freshManagerWithObject.heap.read 4 = some ⟨1, .object⟩) ∧
    ∃ h2, SXAutoreleasePool.addObject freshManagerWithObject.heap 2 4 = .ok h2 ∧
      freshManagerWithObject.heap.retainCount 4 = some 1 ∧
      h2.retainCount 4 = some (wrap (1 + 1)) ∧
      (1 < UINT_MAX → h2.retainCount 4 = some (1 + 1)) ∧
      (1 ≤ UINT_MAX → h2.retainCount 4 ≠ freshManagerWithObject.heap.retainCount 4) ∧
      (∀ q, q ≠ 4 → h2.retainCount q = freshManagerWithObject.heap.retainCount q) ∧
      h2.trace = freshManagerWithObject.heap.trace :=
  ⟨⟨rfl, rfl, rfl⟩, pool_addObject_retains freshManagerWithObject.heap 2 3 4 1 1 10 0 1
    [0, 0, 0, 0, 0, 0, 0, 0, 0, 0] .object rfl rfl rfl (Nat.zero_le 10) rfl (by decide)⟩


/-! ## Sequences: `clear` -/

theorem owned_nestedPools_top : Owned nestedPools.heap (nestedPools.heap.registrations 5) := by
  show Owned nestedPools.heap [4]
  intro o ho
  simp at ho
  subst ho
  exact ⟨2, rfl, by decide, by decide⟩

/-! ## Sequences: `removeObject` -/

theorem exists_first_occurrence (o : Nat) : ∀ l : List Nat, o ∈ l →
    ∃ l1 l2, l = l1 ++ o :: l2 ∧ o ∉ l1 := by
  intro l
  induction l with
  | nil => intro hm; simp at hm
  | cons x xs ih =>
    intro hm
    by_cases hx : x = o
    · exact ⟨[], xs, by simp [hx], by simp⟩
    · have hm2 : o ∈ xs := by
        simp only [List.mem_cons] at hm
        rcases hm with e | e
        · exact absurd e.symm hx
        · exact e
      obtain ⟨l1, l2, e, hn⟩ := ih hm2
      refine ⟨x :: l1, l2, by simp [e], ?_⟩
      simp only [List.mem_cons, not_or]
      exact ⟨fun e0 => hx e0.symm, hn⟩

theorem erase_first_occurrence (o : Nat) (l1 l2 : List Nat) (hn : o ∉ l1) :
    (l1 ++ o :: l2).erase o = l1 ++ l2 := by
  rw [List.erase_append_right _ hn]
  simp

/-- The search loop of `indexOfObject` passes over slots that differ from the
object. -/
theorem SXArray.indexOfObjectFrom_skip (o : Nat) (rest : List Nat) (n : Nat) :
    ∀ (l1 pre : List Nat), o ∉ l1 →
    SXArray.indexOfObjectFrom (pre ++ l1 ++ rest) o (l1.length + n) pre.length =
      SXArray.indexOfObjectFrom (pre ++ l1 ++ rest) o n (pre.length + l1.length) := by
  intro l1
  induction l1 with
  | nil => intro pre _; simp
  | cons x xs ih =>
    intro pre hn
    simp only [List.mem_cons, not_or] at hn
    have hget : (pre ++ x :: xs ++ rest).getD pre.length 0 = x := by
      rw [List.getD_eq_getElem?_getD, List.append_assoc,
        List.getElem?_append_right (Nat.le_refl _)]
      simp
    have hx : ¬ x = o := fun e => hn.1 e.symm
    rw [show (x :: xs).length + n = (xs.length + n) + 1 by simp; omega,
      SXArray.indexOfObjectFrom, hget, if_neg hx]
    have := ih (pre ++ [x]) hn.2
    have e1 : pre ++ [x] ++ xs ++ rest = pre ++ x :: xs ++ rest := by simp
    have e2 : (pre ++ [x]).length = pre.length + 1 := by simp
    rw [e1, e2] at this
    rw [this]
    congr 1
    simp only [List.length_cons]
    omega

theorem SXArray.indexOfObjectFrom_found (o : Nat) (l1 l2 junk : List Nat) (hn : o ∉ l1) :
    SXArray.indexOfObjectFrom (l1 ++ o :: l2 ++ junk) o (l1.length + 1 + l2.length) 0 =
      some l1.length := by
  have := SXArray.indexOfObjectFrom_skip o (o :: l2 ++ junk) (l2.length + 1) l1 [] hn
  simp only [List.nil_append, List.length_nil, Nat.zero_add] at this
  rw [show l1.length + 1 + l2.length = l1.length + (l2.length + 1) by omega,
    show l1 ++ o :: l2 ++ junk = l1 ++ (o :: l2 ++ junk) by simp, this,
    SXArray.indexOfObjectFrom]
  have hget : (l1 ++ (o :: l2 ++ junk)).getD l1.length 0 = o := by
    rw [List.getD_eq_getElem?_getD, List.getElem?_append_right (Nat.le_refl _)]
    simp
  rw [hget, if_pos rfl]

theorem SXArray.indexOfObjectFrom_absent (o : Nat) (regs junk : List Nat) (hn : o ∉ regs) :
    SXArray.indexOfObjectFrom (regs ++ junk) o regs.length 0 = none := by
  have := SXArray.indexOfObjectFrom_skip o junk 0 regs [] hn
  simp only [List.nil_append, List.length_nil, Nat.zero_add, Nat.add_zero] at this
  rw [this, SXArray.indexOfObjectFrom]

/-- The loop of `reorderArrayAtIndex`: the elements behind `index` move one slot
to the left, and the last of them stays behind in its old slot. -/
theorem SXArray.reorderLoop_shift (junk : List Nat) : ∀ (l2 l1 : List Nat) (x : Nat),
    SXArray.reorderLoop (l1.length + 1 + l2.length) l1.length (l1 ++ x :: l2 ++ junk) =
      l1 ++ l2 ++ l2.getLastD x :: junk := by
  intro l2
  induction l2 with
  | nil =>
    intro l1 x
    simp [SXArray.reorderLoop]
  | cons y ys ih =>
    intro l1 x
    have ih2 := ih (l1 ++ [y]) y
    unfold SXArray.reorderLoop at ih2 ⊢
    have hn : l1.length + 1 + (y :: ys).length - (l1.length + 1) = ys.length + 1 := by
      simp
    have hn2 : (l1 ++ [y]).length + 1 + ys.length - ((l1 ++ [y]).length + 1) = ys.length := by
      simp
    rw [hn2] at ih2
    rw [hn, List.range_succ_eq_map, List.foldl_cons, List.foldl_map]
    have hget : (l1 ++ x :: (y :: ys) ++ junk).getD (l1.length + 1 + 0) 0 = y := by
      rw [List.getD_eq_getElem?_getD, List.append_assoc,
        List.getElem?_append_right (by omega)]
      simp
    have hset : (l1 ++ x :: (y :: ys) ++ junk).set (l1.length + 0) y =
        (l1 ++ [y]) ++ y :: ys ++ junk := by
      simp
    rw [hget, hset]
    have hf : (fun (arr : List Nat) (k : Nat) =>
        arr.set (l1.length + (k + 1)) (arr.getD (l1.length + 1 + (k + 1)) 0)) =
        (fun (arr : List Nat) (k : Nat) =>
          arr.set ((l1 ++ [y]).length + k) (arr.getD ((l1 ++ [y]).length + 1 + k) 0)) := by
      funext arr k
      have e1 : l1.length + (k + 1) = (l1 ++ [y]).length + k := by simp; omega
      have e2 : l1.length + 1 + (k + 1) = (l1 ++ [y]).length + 1 + k := by simp; omega
      rw [e1, e2]
    simp only [Nat.succ_eq_add_one] at hf ⊢
    rw [hf, ih2]
    cases ys with
    | nil => simp
    | cons z zs =>
      simp only [List.getLast?_cons_cons, List.append_assoc, List.singleton_append,
        List.cons_append, List.getLastD_eq_getLast?]
      rw [List.getLast?_eq_getLast _ (List.cons_ne_nil z zs)]
      rfl


/-- One call of `release()` on an object that either holds a further reference
or is a plain `SXObject`. -/
theorem release_once (fuel : Nat) (h : Heap) (o c : Nat) (body : Body)
    (ho : h.read o = some ⟨c, body⟩) (hc : c ≤ UINT_MAX)
    (hcb : 2 ≤ c ∨ (c = 1 ∧ body = .object)) :
    ∃ h1, SXObject.release (fuel + 2) h o = .ok h1 ∧
      h1.trace = h.trace ++ (if c = 1 then [.release o 1, .destroy o] else [.release o c]) ∧
      h1.read o = (if c = 1 then none else some ⟨c - 1, body⟩) ∧
      (∀ q, q ≠ o → h1.read q = h.read q) ∧ h1.cells.length = h.cells.length := by
  have hv := Heap.valid_of_read ho
  rcases hcb with h2 | ⟨h1, hb⟩
  · have hne : c ≠ 1 := by omega
    refine ⟨_, SXObject.release_keeps (fuel + 1) h o c body ho h2 hc, ?_, ?_, ?_, ?_⟩
    · simp [hne]
    · simp [hne, Heap.read_write, hv]
    · intro q hq; simp [Heap.read_write, hq]
    · simp
  · subst h1; subst hb
    refine ⟨_, SXObject.release_object_last fuel h o ho, ?_, ?_, ?_, ?_⟩
    · simp
    · simp [Heap.read_free]
    · intro q hq; simp [Heap.read_free, Heap.read_write, hq]
    · simp

theorem Heap.write_write (h : Heap) (p : Nat) (c1 c2 : Cell) :
    (h.write p c1).write p c2 = h.write p c2 := by
  unfold Heap.write
  by_cases hp : p = 0
  · simp [hp]
  · simp [hp, List.set_set]

theorem SXArray.closeGap_shift (h : Heap) (a rc cap x : Nat) (l1 l2 junk : List Nat)
    (ha : h.read a = some ⟨rc, .array cap (l1.length + 1 + l2.length) (l1 ++ x :: l2 ++ junk)⟩) :
    SXArray.closeGap h a l1.length =
      .ok (h.write a ⟨rc, .array cap (l1.length + l2.length) (l1 ++ l2 ++ l2.getLastD 0 :: junk)⟩) := by
  have hv := Heap.valid_of_read ha
  have hset : (l1 ++ x :: l2 ++ junk).set l1.length 0 = l1 ++ 0 :: l2 ++ junk := by simp
  have hcnt : l1.length + 1 + l2.length - 1 = l1.length + l2.length := by omega
  unfold SXArray.closeGap
  simp only [ha, hset, SXArray.reorderArrayAtIndex, Heap.read_write, hv, and_self, if_true,
    Outcome.bind, bind, SXArray.reorderLoop_shift, hcnt, Heap.valid_write, Heap.write_write]

/-- The method `SXArray::removeObject` when the object does not occur. -/
theorem SXArray.removeObject_absent (fuel : Nat) (h : Heap) (a o rcA cap count : Nat)
    (arr : List Nat) (ha : h.read a = some ⟨rcA, .array cap count arr⟩)
    (hlen : arr.length = cap) (hcount : count ≤ cap) (hn : o ∉ h.elements a) :
    SXArray.removeObject fuel h a o = .ok h := by
  have hel : h.elements a = arr.take count := by simp [Heap.elements, ha]
  rw [hel] at hn
  have hl1 : (arr.take count).length = count := by simp [hlen, hcount]
  have := SXArray.indexOfObjectFrom_absent o (arr.take count) (arr.drop count) hn
  rw [List.take_append_drop, hl1] at this
  unfold SXArray.removeObject
  simp only [SXArray.indexOfObject, ha, this, Outcome.bind, bind]


theorem duplicateRegistrations_eq (fuel : Nat) :
    runCalls (fuel + 1) [.sharedPoolManager, .construct, .construct, .autorelease 4,
      .autorelease 5, .retain 4, .autorelease 4] SXPoolManager.initial =
      .ok duplicateRegistrations := rfl

/-! ## The manager's calls act on the top pool -/

theorem SameBodies.elements {xs : List Nat} {h1 h2 : Heap} (hs : SameBodies xs h1 h2) {a : Nat}
    (ha : a ∉ xs) : h1.elements a = h2.elements a := by
  have := hs a ha
  unfold Heap.elements
  cases e1 : h1.read a with
  | none =>
    rw [e1] at this
    cases e2 : h2.read a with
    | none => rfl
    | some c2 => rw [e2] at this; cases this
  | some c1 =>
    rw [e1] at this
    cases e2 : h2.read a with
    | none => rw [e2] at this; cases this
    | some c2 =>
      rw [e2] at this
      obtain ⟨rc1, b1⟩ := c1
      obtain ⟨rc2, b2⟩ := c2
      simp at this
      subst this
      cases b1 <;> rfl

theorem SameBodies.same_registrations {xs : List Nat} {h1 h2 : Heap} (hs : SameBodies xs h1 h2)
    {p a rc : Nat} (hp : h2.read p = some ⟨rc, .pool a⟩) (hpx : p ∉ xs) (hax : a ∉ xs) :
    h1.registrations p = h2.registrations p := by
  have := hs p hpx
  rw [hp] at this
  cases e1 : h1.read p with
  | none => rw [e1] at this; cases this
  | some c1 =>
    rw [e1] at this
    obtain ⟨rc1, b1⟩ := c1
    simp at this
    subst this
    simp only [Heap.registrations, e1, hp]
    exact hs.elements hax

theorem SameBodies.compose {xs : List Nat} {h1 h2 h3 : Heap} (a : SameBodies xs h1 h2)
    (b : SameBodies xs h2 h3) : SameBodies xs h1 h3 :=
  fun q hq => (a q hq).trans (b q hq)

theorem SameBodies.of_write {h : Heap} {o c c2 : Nat} {body : Body}
    (ho : h.read o = some ⟨c, body⟩) (xs : List Nat) :
    SameBodies xs (h.write o ⟨c2, body⟩) h := by
  intro q _
  by_cases hq : q = o
  · subst hq; simp [Heap.read_write, Heap.valid_of_read ho, ho]
  · simp [Heap.read_write, hq]

theorem SXArray.addObject_sameBodies (h h2 : Heap) (a o rcA cap count c : Nat) (arr : List Nat)
    (body : Body) (ha : h.read a = some ⟨rcA, .array cap count arr⟩)
    (hlen : arr.length = cap) (hcount : count ≤ cap) (ho : h.read o = some ⟨c, body⟩)
    (e : SXArray.addObject h a o = .ok h2) : SameBodies [a] h2 h := by
  obtain ⟨h2', e', -, -, -, -, -, ro, fr, -, -⟩ :=
    SXArray.addObject_elements h a o rcA cap count c arr body ha hlen hcount ho
  rw [e] at e'
  cases e'
  intro q hq
  simp at hq
  by_cases hqo : q = o
  · subst hqo; rw [ro hq, ho]; rfl
  · rw [fr q hq hqo]


theorem Rep.lower_pools_same {s : State} {st : List PoolRep} {mjunk : List Nat}
    (hrep : Rep s st mjunk) {h2 : Heap} {xs : List Nat} (hs : SameBodies xs h2 s.heap)
    (hM : ∀ m, s.pInstance = some m → m.m_pPools ∉ xs) :
    (State.mk h2 s.pInstance).pools = s.pools ∧
    ∀ r ∈ st, r.pool ∉ xs → r.objects ∉ xs →
      h2.registrations r.pool = s.heap.registrations r.pool := by
  obtain ⟨m, hm, hMr, -, -, -, hok⟩ := hrep
  refine ⟨?_, ?_⟩
  · simp only [State.pools, hm]
    exact hs.elements (hM m hm)
  · intro r hr h1 h2'
    exact hs.same_registrations (hok.1 r hr).1 h1 h2'

theorem Rep.avoid_top_objects {s : State} {st : List PoolRep} {top : PoolRep} {mjunk : List Nat}
    (hrep : Rep s (st ++ [top]) mjunk) :
    (∀ m, s.pInstance = some m → m.m_pPools ≠ top.objects) ∧
    ∀ r ∈ st, r.pool ≠ top.objects ∧ r.objects ≠ top.objects := by
  obtain ⟨m, hm, hMr, -, hno, -, hok⟩ := hrep
  have htop := hok.1 top (by simp)
  refine ⟨?_, ?_⟩
  · intro m' hm' e
    rw [hm] at hm'
    cases hm'
    apply hno
    rw [e]
    simp
  · intro r hr
    have hh := hok.1 r (by simp [hr])
    refine ⟨?_, ?_⟩
    · intro e
      have h1 := hh.1
      rw [e, htop.2] at h1
      cases h1
    · intro e
      have hnd := hok.2.2.1
      rw [List.map_append, List.nodup_append] at hnd
      exact hnd.2.2 (List.mem_map.2 ⟨r, hr, rfl⟩) (by simp [e])

theorem Rep.avoid_plain {s : State} {st : List PoolRep} {mjunk : List Nat}
    (hrep : Rep s st mjunk) {o c : Nat} (ho : s.heap.read o = some ⟨c, .object⟩) :
    (∀ m, s.pInstance = some m → m.m_pPools ≠ o) ∧
    ∀ r ∈ st, r.pool ≠ o ∧ r.objects ≠ o := by
  obtain ⟨m, hm, hMr, -, -, -, hok⟩ := hrep
  refine ⟨?_, ?_⟩
  · intro m' hm' e
    rw [hm] at hm'
    cases hm'
    rw [e, ho] at hMr
    cases hMr
  · intro r hr
    have hh := hok.1 r hr
    refine ⟨?_, ?_⟩
    · intro e
      have h1 := hh.1
      rw [e, ho] at h1
      cases h1
    · intro e
      have h1 := hh.2
      rw [e, ho] at h1
      cases h1


/-! ## Scenarios: autoreleasing an object twice -/

/-- C2 (as stated) fails: the array X (address 4) comes from the factory
`SXArray::create` with count 1 and a registration in P0 (address 2); after
`push()` and a second `autorelease()` it still has count 1 but is registered in
P0 and in P1 (address 5). The `pop()` of P1 releases X at count 1 and destroys
it; P0 keeps a registration of the destroyed object, and draining P0 (by
`purgePoolManager()`) dereferences it. -/
theorem nested_autorelease_destroyed_by_pop :
    (∃ s, nestedAutorelease 20 false false false = .ok (s, 4) ∧
      s.pools = [2, 5] ∧ s.heap.retainCount 4 = some 1 ∧
      s.heap.registrations 2 = [4] ∧ s.heap.registrations 5 = [4]) ∧
    (∃ s2, nestedAutorelease 20 false true false = .ok (s2, 4) ∧
      s2.pools = [2] ∧ s2.heap.read 4 = none ∧ s2.heap.retainCount 4 ≠ some 1 ∧
      s2.heap.registrations 2 = [4] ∧
      s2.heap.trace.drop 4 = [.release 5 1, .destroy 5, .release 6 1, .destroy 6,
        .release 4 1, .destroy 4]) ∧
    nestedAutorelease 20 false true true = .undefined :=
  ⟨⟨⟨⟨[some ⟨1, .array 11 2 [2, 5, 0, 0, 0, 0, 0, 0, 0, 0, 0]⟩, some ⟨1, .pool 3⟩,
        some ⟨1, .array 10 1 [4, 0, 0, 0, 0, 0, 0, 0, 0, 0]⟩,
        some ⟨1, .array 10 0 [0, 0, 0, 0, 0, 0, 0, 0, 0, 0]⟩, some ⟨1, .pool 6⟩,
        some ⟨1, .array 10 1 [4, 0, 0, 0, 0, 0, 0, 0, 0, 0]⟩],
      [.release 2 2, .release 4 2, .release 5 2, .release 4 2]⟩, some ⟨1, 5⟩⟩,
      by decide!, rfl, rfl, rfl, rfl⟩,
    ⟨⟨⟨[some ⟨1, .array 11 1 [2, 0, 0, 0, 0, 0, 0, 0, 0, 0, 0]⟩, some ⟨1, .pool 3⟩,
        some ⟨1, .array 10 1 [4, 0, 0, 0, 0, 0, 0, 0, 0, 0]⟩, none, none, none],
      [.release 2 2, .release 4 2, .release 5 2, .release 4 2, .release 5 1, .destroy 5,
        .release 6 1, .destroy 6, .release 4 1, .destroy 4]⟩, some ⟨1, 2⟩⟩,
      by decide!, rfl, rfl, by decide, rfl, rfl⟩,
    by decide!⟩

/-- C2 (amended): when X is retained once before the second `autorelease()`
(which hands that reference to P1), X has count 2 with one registration in
each pool; the `pop()` of P1 destroys P1 and its array only and leaves X alive
with count 1, registered in P0; X is destroyed when P0 is drained by
`purgePoolManager()`. -/
theorem nested_autorelease_with_retain :
    (∃ s, nestedAutorelease 20 true false false = .ok (s, 4) ∧
      s.pools = [2, 5] ∧ s.heap.retainCount 4 = some 2 ∧
      s.heap.registrations 2 = [4] ∧ s.heap.registrations 5 = [4]) ∧
    (∃ s2, nestedAutorelease 20 true true false = .ok (s2, 4) ∧
      s2.pools = [2] ∧ s2.heap.retainCount 4 = some 1 ∧
      s2.heap.registrations 2 = [4] ∧
      s2.heap.trace.drop 4 = [.release 5 1, .destroy 5, .release 6 1, .destroy 6,
        .release 4 2] ∧
      destroyedObjects s2.heap.trace = [5, 6]) ∧
    (∃ s3, nestedAutorelease 20 true true true = .ok (s3, 4) ∧
      s3.pInstance = none ∧ s3.heap.read 4 = none ∧
      s3.heap.trace.drop 9 = [.release 1 1, .destroy 1, .release 2 1, .destroy 2,
        .release 3 1, .destroy 3, .release 4 1, .destroy 4] ∧
      destroyedObjects s3.heap.trace = [5, 6, 1, 2, 3, 4]) :=
  ⟨⟨⟨⟨[some ⟨1, .array 11 2 [2, 5, 0, 0, 0, 0, 0, 0, 0, 0, 0]⟩, some ⟨1, .pool 3⟩,
        some ⟨1, .array 10 1 [4, 0, 0, 0, 0, 0, 0, 0, 0, 0]⟩,
        some ⟨2, .array 10 0 [0, 0, 0, 0, 0, 0, 0, 0, 0, 0]⟩, some ⟨1, .pool 6⟩,
        some ⟨1, .array 10 1 [4, 0, 0, 0, 0, 0, 0, 0, 0, 0]⟩],
      [.release 2 2, .release 4 2, .release 5 2, .release 4 3]⟩, some ⟨1, 5⟩⟩,
      by decide!, rfl, rfl, rfl, rfl⟩,
    ⟨⟨⟨[some ⟨1, .array 11 1 [2, 0, 0, 0, 0, 0, 0, 0, 0, 0, 0]⟩, some ⟨1, .pool 3⟩,
        some ⟨1, .array 10 1 [4, 0, 0, 0, 0, 0, 0, 0, 0, 0]⟩,
        some ⟨1, .array 10 0 [0, 0, 0, 0, 0, 0, 0, 0, 0, 0]⟩, none, none],
      [.release 2 2, .release 4 2, .release 5 2, .release 4 3, .release 5 1, .destroy 5,
        .release 6 1, .destroy 6, .release 4 2]⟩, some ⟨1, 2⟩⟩,
      by decide!, rfl, rfl, rfl, rfl, rfl⟩,
    ⟨⟨⟨[none, none, none, none, none, none],
      [.release 2 2, .release 4 2, .release 5 2, .release 4 3, .release 5 1, .destroy 5,
        .release 6 1, .destroy 6, .release 4 2, .release 1 1, .destroy 1, .release 2 1,
        .destroy 2, .release 3 1, .destroy 3, .release 4 1, .destroy 4]⟩, none⟩,
      by decide!, rfl, rfl, rfl, rfl⟩⟩

/-- C3 (as stated) fails: a freshly constructed object (address 4) that is
autoreleased twice with no retain has count 1 and two registrations in the
pool at address 2. One `release()` already destroys it, so the drain of the
pool (by `clear()`, `pop()` or `purgePoolManager()`) applies its second release
to a destroyed object. -/
theorem double_autorelease_over_releases :
    ∃ s, doubleAutorelease 20 false = .ok (s, 4) ∧
      s.heap.retainCount 4 = some 1 ∧ s.heap.registrations 2 = [4, 4] ∧
      (∃ h1, SXObject.release 20 s.heap 4 = .ok h1 ∧ h1.read 4 = none) ∧
      SXAutoreleasePool.clear 20 s.heap 2 = .undefined ∧
      SXPoolManager.pop 20 s = .undefined ∧
      SXPoolManager.purgePoolManager 20 s = .undefined :=
  ⟨⟨⟨[some ⟨1, .array 1 1 [2]⟩, some ⟨1, .pool 3⟩,
      some ⟨1, .array 10 2 [4, 4, 0, 0, 0, 0, 0, 0, 0, 0]⟩, some ⟨1, .object⟩],
      [.release 2 2, .release 4 2, .release 4 2]⟩, some ⟨1, 2⟩⟩,
    by decide!, rfl, rfl, ⟨_, rfl, rfl⟩, by decide!, by decide!, by decide!⟩

/-- C3 (amended): a freshly constructed object (address 4) that is retained
once and then autoreleased twice into the pool at address 2 has count 2 and
two registrations; draining the pool (by `clear()` or by `pop()`) applies
exactly two releases to it, at counts 2 and 1, and destroys it at the second. -/
theorem double_autorelease_with_retain (fuel : Nat) :
    ∃ s, doubleAutorelease (fuel + 20) true = .ok (s, 4) ∧
      s.heap.retainCount 4 = some 2 ∧ s.heap.registrations 2 = [4, 4] ∧
      (∃ h2, SXAutoreleasePool.clear (fuel + 20) s.heap 2 = .ok h2 ∧
        h2.trace = s.heap.trace ++ [.release 4 2, .release 4 1, .destroy 4] ∧
        eventsOf 4 (h2.trace.drop s.heap.trace.length) =
          [.release 4 2, .release 4 1, .destroy 4] ∧
        h2.read 4 = none ∧ h2.registrations 2 = []) ∧
      (∃ s2, SXPoolManager.pop (fuel + 20) s = .ok s2 ∧
        s2.heap.trace = s.heap.trace ++ [.release 2 1, .destroy 2, .release 3 1, .destroy 3,
          .release 4 2, .release 4 1, .destroy 4] ∧
        eventsOf 4 (s2.heap.trace.drop s.heap.trace.length) =
          [.release 4 2, .release 4 1, .destroy 4] ∧
        s2.heap.read 4 = none) :=
  ⟨_, rfl, rfl, rfl, ⟨_, rfl, rfl, rfl, rfl, rfl⟩, ⟨_, rfl, rfl, rfl, rfl⟩⟩


/-! ## The pool ownership invariant -/

theorem registeredObject_eq (fuel : Nat) :
    runCalls (fuel + 1) [.sharedPoolManager, .construct, .autorelease 4] SXPoolManager.initial =
      .ok registeredObject := rfl

theorem Rep.count_le {s : State} {st : List PoolRep} {mjunk : List Nat} (hrep : Rep s st mjunk)
    {o c : Nat} {body : Body} (ho : s.heap.read o = some ⟨c, body⟩) :
    (st.flatMap PoolRep.regs).count o ≤ c := by
  obtain ⟨m, -, -, -, -, -, hok⟩ := hrep
  by_cases hmem : o ∈ st.flatMap PoolRep.regs
  · obtain ⟨c', hr, hc, -⟩ := hok.2.2.2 o hmem
    rw [ho] at hr
    cases hr
    exact hc
  · rw [List.count_eq_zero_of_not_mem hmem]
    exact Nat.zero_le _

/-- A well-formed stack stays well-formed when only a plain object changes and
its new count still covers its registrations (or it is destroyed while
unregistered). -/
theorem Rep.frame_plain {s : State} {st : List PoolRep} {mjunk : List Nat}
    (hrep : Rep s st mjunk) {o c : Nat} (ho : s.heap.read o = some ⟨c, .object⟩) {h2 : Heap}
    (hfr : ∀ q, q ≠ o → h2.read q = s.heap.read q) (hb : h2.bounded)
    (h2o : (o ∉ st.flatMap PoolRep.regs) ∨
      ∃ c2, h2.read o = some ⟨c2, .object⟩ ∧ (st.flatMap PoolRep.regs).count o ≤ c2 ∧
        c2 ≤ UINT_MAX) :
    Rep ⟨h2, s.pInstance⟩ st mjunk := by
  obtain ⟨hMo, hlo⟩ := hrep.avoid_plain ho
  obtain ⟨m, hm, hMr, hcur, hno, -, hok⟩ := hrep
  refine ⟨m, hm, ?_, hcur, hno, hb, ?_, hok.2.1, hok.2.2.1, ?_⟩
  · show h2.read m.m_pPools = _
    rw [hfr _ (hMo m hm)]; exact hMr
  · intro r hr
    have hh := hok.1 r hr
    have := hlo r hr
    exact ⟨by rw [hfr _ this.1]; exact hh.1, by rw [hfr _ this.2]; exact hh.2⟩
  · intro x hx
    by_cases hxo : x = o
    · subst hxo
      rcases h2o with hn | ⟨c2, h1, h2', h3⟩
      · exact absurd hx hn
      · exact ⟨c2, h1, h2', h3⟩
    · obtain ⟨c', hr, hc, hmx⟩ := hok.2.2.2 x hx
      exact ⟨c', by rw [hfr x hxo]; exact hr, hc, hmx⟩

theorem Rep.bounded {s : State} {st : List PoolRep} {mjunk : List Nat} (hrep : Rep s st mjunk) :
    s.heap.bounded := by
  obtain ⟨m, -, -, -, -, hb, -⟩ := hrep
  exact hb

theorem Rep.construct {s : State} {st : List PoolRep} {mjunk : List Nat}
    (hrep : Rep s st mjunk) : Rep { s with heap := (SXObject.new s.heap).1 } st mjunk := by
  obtain ⟨m, hm, hMr, hcur, hno, hb, hok⟩ := hrep
  have hfr : ∀ q c, s.heap.read q = some c → (SXObject.new s.heap).1.read q = some c := by
    intro q c hq
    have hv := Heap.valid_of_read hq
    have hne : q ≠ s.heap.cells.length + 1 := by
      have := hv.2
      omega
    simp only [SXObject.new, Heap.read_alloc, hne, if_false]
    exact hq
  refine ⟨m, hm, hfr _ _ hMr, hcur, hno, Heap.bounded_alloc hb (by decide), ?_⟩
  exact @PoolsOk.frame _ _ _ [] hok (fun q c hq _ => hfr q c hq) (by simp) (by simp)


/-- Autoreleasing a plain object of which the caller owns a reference keeps the
stack well-formed: the top pool holds one more registration. -/
theorem autorelease_rep (fuel : Nat) (s : State) (st : List PoolRep) (top : PoolRep)
    (mjunk : List Nat) (o c : Nat) (hrep : Rep s (st ++ [top]) mjunk)
    (ho : s.heap.read o = some ⟨c, .object⟩)
    (hg : ((st ++ [top]).flatMap PoolRep.regs).count o < c) :
    ∃ s2, SXObject.autorelease (fuel + 1) s o = .ok (s2, o) ∧
      Rep s2 (st ++ [PoolRep.mk top.pool top.objects (top.regs ++ [o])
        (SXArray.spare top.junk)]) mjunk := by
  obtain ⟨hcur, hP0, hP, hA⟩ := hrep.current_alive
  obtain ⟨hMa, hla⟩ := hrep.avoid_top_objects
  obtain ⟨hMo, hlo⟩ := hrep.avoid_plain ho
  have hb := hrep.bounded
  have hcm : c ≤ UINT_MAX := Heap.bounded_read hb ho
  have hc1 : 1 ≤ c := by omega
  have hrep' := hrep
  obtain ⟨m, hm, hMr, hmc, hno, -, hok⟩ := hrep'
  have hmcur : m.m_pCurrentPool = top.pool := by
    have := hcur
    simp only [State.currentPool, hm] at this
    exact this
  have hoa : o ≠ top.objects := by intro e; rw [e, hA] at ho; cases ho
  have hoP : o ≠ top.pool := by intro e; rw [e, hP] at ho; cases ho
  have hPA : top.pool ≠ top.objects := by intro e; rw [e, hA] at hP; cases hP
  obtain ⟨h2, e2, -, -, fr, ro, ra⟩ :=
    SXArray.addObject_reads s.heap top.objects o 1 c top.regs top.junk .object hA ho
  have ho2 := ro hoa
  have hv2 := Heap.valid_of_read ho2
  have hw : wrap (wrap (c + 1) + UINT_MAX) = c := wrap_succ_pred c hc1 hcm
  have hne : wrap (wrap (c + 1) + UINT_MAX) ≠ 0 := by rw [hw]; omega
  have e3 := SXObject.release_alive fuel h2 o _ .object ho2 hne
  rw [hw] at e3
  have hrun : SXObject.autorelease (fuel + 1) s o =
      .ok (⟨(h2.write o ⟨c, .object⟩).log (.release o (wrap (c + 1))), s.pInstance⟩, o) := by
    simp only [SXObject.autorelease, SXPoolManager.sharedPoolManager, hm,
      SXPoolManager.addObject, hmcur, SXAutoreleasePool.addObject, SXAutoreleasePool.objects,
      hP, e2, bind, Outcome.bind, e3]
  have hb3 : ((h2.write o ⟨c, .object⟩).log (.release o (wrap (c + 1)))).bounded :=
    (SXObject.accounted_autorelease hrun hb).1
  have F1 : ∀ q, q ≠ top.objects → q ≠ o →
      ((h2.write o ⟨c, .object⟩).log (.release o (wrap (c + 1)))).read q = s.heap.read q := by
    intro q h1 h2'
    simp [Heap.read_write, h2', fr q h1 h2']
  have F2 : ((h2.write o ⟨c, .object⟩).log (.release o (wrap (c + 1)))).read o =
      some ⟨c, .object⟩ := by
    simp [Heap.read_write, hv2]
  have F3 : ((h2.write o ⟨c, .object⟩).log (.release o (wrap (c + 1)))).read top.objects =
      some ⟨1, .array ((top.regs ++ [o]).length + (SXArray.spare top.junk).length)
        (top.regs ++ [o]).length ((top.regs ++ [o]) ++ SXArray.spare top.junk)⟩ := by
    simp only [Heap.read_log, Heap.read_write, Ne.symm hoa, false_and, if_false, ra]
    simp [hoa]
  refine ⟨_, hrun, m, hm, ?_, ?_, ?_, hb3, ?_, ?_, ?_, ?_⟩
  · show Heap.read _ m.m_pPools = _
    rw [F1 _ (hMa m hm) (hMo m hm), hMr]
    simp
  · rw [hmc]; simp
  · simpa using hno
  · intro r hr
    simp only [List.mem_append, List.mem_singleton] at hr
    rcases hr with hr | hr
    · have hh := hok.1 r (by simp [hr])
      have h1 := hla r hr
      have h2' := hlo r (by simp [hr])
      exact ⟨by rw [F1 _ h1.1 h2'.1]; exact hh.1, by rw [F1 _ h1.2 h2'.2]; exact hh.2⟩
    · subst hr
      exact ⟨by rw [F1 _ hPA (Ne.symm hoP)]; exact hP, F3⟩
  · have := hok.2.1
    simpa using this
  · have := hok.2.2.1
    simpa using this
  · intro x hx
    have hflat : (st ++ [PoolRep.mk top.pool top.objects (top.regs ++ [o])
        (SXArray.spare top.junk)]).flatMap PoolRep.regs =
        (st ++ [top]).flatMap PoolRep.regs ++ [o] := by simp
    rw [hflat] at hx ⊢
    by_cases hxo : x = o
    · subst hxo
      have h1 : List.count x [x] = 1 := by simp
      refine ⟨c, F2, ?_, hcm⟩
      rw [List.count_append, h1]
      omega
    · have hx' : x ∈ (st ++ [top]).flatMap PoolRep.regs := by
        simp only [List.mem_append, List.mem_singleton] at hx
        rcases hx with hx | hx
        · exact hx
        · exact absurd hx hxo
      obtain ⟨c', hr, hc, hmx⟩ := hok.2.2.2 x hx'
      have hxa : x ≠ top.objects := by intro e; rw [e, hA] at hr; cases hr
      refine ⟨c', by rw [F1 x hxa hxo]; exact hr, ?_, hmx⟩
      have h0 : List.count x [o] = 0 := by simp [List.count_cons, hxo, Ne.symm hxo]
      rw [List.count_append, h0]
      exact hc


theorem Rep.poolOwnership {s : State} {st : List PoolRep} {mjunk : List Nat}
    (hrep : Rep s st mjunk) : PoolOwnership s := by
  have hregs := hrep.all_registrations
  refine ⟨?_, ?_⟩
  · intro o c hc
    rw [hregs]
    simp only [Heap.retainCount, Option.map_eq_some'] at hc
    obtain ⟨cell, hr, rfl⟩ := hc
    exact @Rep.count_le _ _ _ hrep _ cell.m_referenceCount cell.body hr
  · intro o ho
    rw [hregs] at ho
    obtain ⟨m, -, -, -, -, -, hok⟩ := hrep
    obtain ⟨c, hr, -, -⟩ := hok.2.2.2 o ho
    simp [Heap.alive, hr]

theorem reachable_registeredObject (b : Bool) : OwnerReachable b registeredObject :=
  .step 1 (.autorelease 4) freshManagerWithObject registeredObject
    (.step 1 .construct freshManager freshManagerWithObject
      (.fresh 1 SXPoolManager.initial freshManager rfl (by decide)
        (fun q x hq => by simp [SXPoolManager.initial, Heap.empty, Heap.read] at hq) rfl)
      trivial rfl)
    ⟨by decide, 1, .object, rfl, by decide⟩ rfl

theorem wrap_wrap_succ (x : Nat) : wrap (wrap x + 1) = wrap (x + 1) := by
  unfold wrap UINT_MAX
  omega

theorem OwnerReachable.retain_many {s : State} {o c : Nat} (hr : OwnerReachable false s)
    (ho : s.heap.read o = some ⟨c, .object⟩) (hi : o ∉ s.internals) :
    ∀ n, OwnerReachable false ⟨s.heap.write o ⟨wrap (c + (n + 1)), .object⟩, s.pInstance⟩ := by
  have hv := Heap.valid_of_read ho
  have hint : ∀ x, (State.mk (s.heap.write o ⟨x, .object⟩) s.pInstance).internals =
      s.internals := by
    intro x
    have hsb : SameBodies [] (s.heap.write o ⟨x, .object⟩) s.heap :=
      SameBodies.of_write ho []
    cases hp : s.pInstance with
    | none => simp [State.internals, hp]
    | some m =>
      have hpools : (State.mk (s.heap.write o ⟨x, .object⟩) s.pInstance).pools = s.pools := by
        simp only [State.pools, hp]
        exact hsb.elements (by simp)
      simp only [State.internals, hp] at hpools ⊢
      rw [hpools]
      congr 2
      apply List.map_congr_left
      intro p _
      have := hsb p (by simp)
      unfold Heap.poolArray
      cases h1 : (s.heap.write o ⟨x, .object⟩).read p with
      | none =>
        rw [h1] at this
        cases h2 : s.heap.read p with
        | none => rfl
        | some y => rw [h2] at this; cases this
      | some y1 =>
        rw [h1] at this
        cases h2 : s.heap.read p with
        | none => rw [h2] at this; cases this
        | some y =>
          rw [h2] at this
          obtain ⟨c1, b1⟩ := y1
          obtain ⟨c2, b2⟩ := y
          simp at this
          subst this
          cases b1 <;> rfl
  intro n
  induction n with
  | zero =>
    refine .step 0 (.retain o) s _ hr ⟨hi, c, .object, ho, by simp⟩ ?_
    simp [Call.run, SXObject.retain, ho, Outcome.bind]
  | succ n ih =>
    refine .step 0 (.retain o) _ _ ih ⟨by rw [hint]; exact hi, wrap (c + (n + 1)), .object, ?_,
      by simp⟩ ?_
    · simp [Heap.read_write, hv]
    · simp only [Call.run, SXObject.retain, Heap.read_write, hv, and_self, if_true,
        Outcome.bind, Heap.write_write, wrap_wrap_succ]
      rfl


/-! ## Sequences: `insertObject` -/

/-- C25 (the code diverges from its documentation): `initWithArray` on a newly
constructed array (address 4) with the first array of `twoArrays` fills the new
array with the two elements of the other array, in order, and returns `false`;
no call of `initWithArray` returns `true`. -/
theorem initWithArray_returns_false :
    (∃ h2, SXArray.initWithArray 3 (SXArray.new twoArrays).1 (SXArray.new twoArrays).2 1 =
        .ok (h2, false) ∧
      h2.elements (SXArray.new twoArrays).2 = twoArrays.elements 1 ∧
      h2.elements (SXArray.new twoArrays).2 = [3, 3]) ∧
    ∀ fuel h this pOtherArray r,
      SXArray.initWithArray fuel h this pOtherArray = .ok r → r.2 = false := by
  refine ⟨⟨_, rfl, rfl, rfl⟩, ?_⟩
  intro fuel h this pOtherArray r e
  unfold SXArray.initWithArray at e
  split at e
  · obtain ⟨r1, -, e2⟩ := Outcome.bind_eq_ok e
    obtain ⟨h2, -, e3⟩ := Outcome.bind_eq_ok e2
    cases e3
    rfl
  · cases e

/-- C29 (the code diverges from its documentation): the first array of
`twoArrays` holds the object 3 twice, the second array holds it once; after
`removeObjectsInArray` the first array still holds the object 3, which is
contained in the second array. -/
theorem removeObjectsInArray_leaves_duplicate :
    twoArrays.elements 1 = [3, 3] ∧ twoArrays.elements 2 = [3] ∧
    ∃ h2, SXArray.removeObjectsInArray 4 twoArrays 1 2 = .ok h2 ∧
      h2.elements 1 = [3] ∧ h2.elements 2 = [3] ∧
      SXArray.containsObject h2 1 3 = .ok true ∧
      h2.retainCount 3 = some 3 :=
  ⟨rfl, rfl, _, rfl, rfl, rfl, rfl, rfl⟩


/-! ## SXString: conversions -/

namespace SXString

theorem dropWhile_isspace_append (ws x : List Char) (hws : ∀ c ∈ ws, isspace c = true) :
    (ws ++ x).dropWhile isspace = x.dropWhile isspace := by
  induction ws with
  | nil => rfl
  | cons w ws ih =>
    have hw := hws w (by simp)
    simp only [List.cons_append, List.dropWhile_cons, hw, if_true]
    exact ih (fun c hc => hws c (by simp [hc]))

theorem takeWhile_isdigit_append (ds rest : List Char) (hds : ∀ c ∈ ds, isdigit c = true)
    (hrest : ∀ c, rest.head? = some c → isdigit c = false) :
    (ds ++ rest).takeWhile isdigit = ds := by
  induction ds with
  | nil =>
    cases rest with
    | nil => rfl
    | cons r rs => simp [List.takeWhile_cons, hrest r rfl]
  | cons d ds ih =>
    have hd := hds d (by simp)
    simp only [List.cons_append, List.takeWhile_cons, hd, if_true]
    rw [ih (fun c hc => hds c (by simp [hc]))]

theorem isdigit_not_space (c : Char) (h : isdigit c = true) : isspace c = false := by
  simp only [isdigit, Bool.and_eq_true, decide_eq_true_eq] at h
  simp only [isspace, Bool.or_eq_false_iff, decide_eq_false_iff_not]
  have h32 : c ≠ ' ' := by
    intro e
    rw [e] at h
    have : (' ' : Char).toNat = 32 := rfl
    omega
  refine ⟨⟨⟨⟨⟨h32, ?_⟩, ?_⟩, ?_⟩, ?_⟩, ?_⟩ <;> omega

theorem isdigit_not_sign (c : Char) (h : isdigit c = true) : c ≠ '-' ∧ c ≠ '+' := by
  simp only [isdigit, Bool.and_eq_true, decide_eq_true_eq] at h
  refine ⟨?_, ?_⟩
  · intro e
    rw [e] at h
    have : ('-' : Char).toNat = 45 := rfl
    omega
  · intro e
    rw [e] at h
    have : ('+' : Char).toNat = 43 := rfl
    omega

/-- The text is white space, an optional sign, at least one digit, then
anything that does not begin with a digit: `parseDecimal` reads the sign and
the digits. -/
theorem parseDecimal_number (ws sign ds rest : List Char)
    (hws : ∀ c ∈ ws, isspace c = true)
    (hsign : sign = [] ∨ sign = ['+'] ∨ sign = ['-'])
    (hds : ∀ c ∈ ds, isdigit c = true) (hne : ds ≠ [])
    (hrest : ∀ c, rest.head? = some c → isdigit c = false) :
    parseDecimal (ws ++ sign ++ ds ++ rest) =
      some (decide (sign = ['-']), digitsValue ds) := by
  obtain ⟨d, ds', rfl⟩ := List.exists_cons_of_ne_nil hne
  have hd := hds d (by simp)
  have hdsp := isdigit_not_space d hd
  have hdsg := isdigit_not_sign d hd
  have htw := takeWhile_isdigit_append (d :: ds') rest hds hrest
  unfold parseDecimal
  rw [List.append_assoc, List.append_assoc, dropWhile_isspace_append ws _ hws]
  rcases hsign with rfl | rfl | rfl
  · have h1 : ([] ++ (d :: ds' ++ rest)).dropWhile isspace = d :: ds' ++ rest := by
      simp [List.dropWhile_cons, hdsp]
    have h2 : readSign (d :: ds' ++ rest) = (false, d :: ds' ++ rest) := by
      simp only [List.cons_append]
      unfold readSign
      split
      · rename_i heq; cases heq; exact absurd rfl hdsg.1
      · rename_i heq; cases heq; exact absurd rfl hdsg.2
      · rfl
    rw [h1, h2]
    simp only [htw]
    simp
  · have h1 : (['+'] ++ (d :: ds' ++ rest)).dropWhile isspace = '+' :: (d :: ds' ++ rest) := by
      have : isspace '+' = false := rfl
      simp [List.dropWhile_cons, this]
    have h2 : readSign ('+' :: (d :: ds' ++ rest)) = (false, d :: ds' ++ rest) := rfl
    rw [h1, h2]
    simp only [htw]
    simp
  · have h1 : (['-'] ++ (d :: ds' ++ rest)).dropWhile isspace = '-' :: (d :: ds' ++ rest) := by
      have : isspace '-' = false := rfl
      simp [List.dropWhile_cons, this]
    have h2 : readSign ('-' :: (d :: ds' ++ rest)) = (true, d :: ds' ++ rest) := rfl
    rw [h1, h2]
    simp only [htw]
    simp

/-- The text begins with a character that is no white space, no sign and no
digit: `parseDecimal` finds no number. -/
theorem parseDecimal_no_number (c : Char) (rest : List Char) (hsp : isspace c = false)
    (hdg : isdigit c = false) (hm : c ≠ '-') (hp : c ≠ '+') :
    parseDecimal (c :: rest) = none := by
  unfold parseDecimal
  have h1 : (c :: rest).dropWhile isspace = c :: rest := by simp [List.dropWhile_cons, hsp]
  have h2 : readSign (c :: rest) = (false, c :: rest) := by
    unfold readSign
    split
    · rename_i heq; cases heq; exact absurd rfl hm
    · rename_i heq; cases heq; exact absurd rfl hp
    · rfl
  rw [h1, h2]
  simp [List.takeWhile_cons, hdg]

end SXString


namespace SXString

/-- The text is white space and an optional sign, and what follows does not
begin with a digit (nor, without a sign, with white space or a sign):
`parseDecimal` finds no number. -/
theorem parseDecimal_no_digits (ws sign rest : List Char)
    (hws : ∀ c ∈ ws, isspace c = true)
    (hsign : sign = [] ∨ sign = ['+'] ∨ sign = ['-'])
    (hrest : ∀ c, rest.head? = some c → isdigit c = false ∧
      (sign = [] → isspace c = false ∧ c ≠ '-' ∧ c ≠ '+')) :
    parseDecimal (ws ++ sign ++ rest) = none := by
  have htw : rest.takeWhile isdigit = [] := by
    cases rest with
    | nil => rfl
    | cons r rs => simp [List.takeWhile_cons, (hrest r rfl).1]
  unfold parseDecimal
  rw [List.append_assoc, dropWhile_isspace_append ws _ hws]
  rcases hsign with rfl | rfl | rfl
  · cases rest with
    | nil => rfl
    | cons r rs =>
      obtain ⟨hd, hx⟩ := hrest r rfl
      obtain ⟨hsp, hm, hp⟩ := hx rfl
      have h1 : ([] ++ r :: rs).dropWhile isspace = r :: rs := by
        simp [List.dropWhile_cons, hsp]
      have h2 : readSign (r :: rs) = (false, r :: rs) := by
        unfold readSign
        split
        · rename_i heq; cases heq; exact absurd rfl hm
        · rename_i heq; cases heq; exact absurd rfl hp
        · rfl
      rw [h1, h2]
      simp [List.takeWhile_cons, hd]
  · have h1 : (['+'] ++ rest).dropWhile isspace = '+' :: rest := by
      have : isspace '+' = false := rfl
      simp [List.dropWhile_cons, this]
    have h2 : readSign ('+' :: rest) = (false, rest) := rfl
    rw [h1, h2]
    simp only [htw]
    simp
  · have h1 : (['-'] ++ rest).dropWhile isspace = '-' :: rest := by
      have : isspace '-' = false := rfl
      simp [List.dropWhile_cons, this]
    have h2 : readSign ('-' :: rest) = (true, rest) := rfl
    rw [h1, h2]
    simp only [htw]
    simp

end SXString

/-- C26 (as stated) fails: for the text "abc" the three conversions end with
the exception `std::invalid_argument` of `std::stoi` / `std::stoul`, and for a
number that is too large with `std::out_of_range`. -/
theorem conversions_throw :
    SXString.intValue "abc".toList = .error .invalid_argument ∧
    SXString.ulValue "abc".toList = .error .invalid_argument ∧
    SXString.boolValue "abc".toList = .error .invalid_argument ∧
    SXString.intValue "99999999999".toList = .error .out_of_range ∧
    SXString.ulValue "99999999999999999999999".toList = .error .out_of_range ∧
    SXString.boolValue "99999999999".toList = .error .out_of_range :=
  ⟨rfl, rfl, rfl, rfl, rfl, rfl⟩

/-- C26 (amended): every text is white space `ws`, an optional sign and then
either at least one decimal digit `ds` followed by a rest that does not begin
with a digit, or a text `rest2` that does not begin with a digit.
`intValue()`, `ulValue()` and `boolValue()` return 0, 0 and `false` for the
empty text. With digits, `intValue()` returns the signed number when it fits
`int` and throws `std::out_of_range` when it does not, `boolValue()` returns
whether the number is not 0 and throws when `intValue()` throws, and
`ulValue()` returns the number (negated modulo `ULONG_MAX + 1` behind a minus
sign) when the digits denote at most `ULONG_MAX` and throws
`std::out_of_range` otherwise; what follows the digits is ignored. Without
digits, a text that is not empty makes `intValue()` and `ulValue()` throw
`std::invalid_argument`, and `boolValue()` too when the text is not "true". -/
theorem conversions_return_or_throw (ws sign ds rest : List Char)
    (hws : ∀ c ∈ ws, SXString.isspace c = true)
    (hsign : sign = [] ∨ sign = ['+'] ∨ sign = ['-'])
    (hds : ∀ c ∈ ds, SXString.isdigit c = true) (hne : ds ≠ [])
    (hrest : ∀ c, rest.head? = some c → SXString.isdigit c = false) :
    (SXString.intValue [] = .ok 0 ∧ SXString.ulValue [] = .ok 0 ∧
      SXString.boolValue [] = .ok false) ∧
    ((SXString.INT_MIN ≤ (if sign = ['-'] then -(SXString.digitsValue ds : Int)
          else (SXString.digitsValue ds : Int)) ∧
        (if sign = ['-'] then -(SXString.digitsValue ds : Int)
          else (SXString.digitsValue ds : Int)) ≤ SXString.INT_MAX) →
      SXString.intValue (ws ++ sign ++ ds ++ rest) =
        .ok (if sign = ['-'] then -(SXString.digitsValue ds : Int)
          else (SXString.digitsValue ds : Int)) ∧
      SXString.boolValue (ws ++ sign ++ ds ++ rest) =
        .ok (decide (SXString.digitsValue ds ≠ 0))) ∧
    (¬ (SXString.INT_MIN ≤ (if sign = ['-'] then -(SXString.digitsValue ds : Int)
          else (SXString.digitsValue ds : Int)) ∧
        (if sign = ['-'] then -(SXString.digitsValue ds : Int)
          else (SXString.digitsValue ds : Int)) ≤ SXString.INT_MAX) →
      SXString.intValue (ws ++ sign ++ ds ++ rest) = .error .out_of_range ∧
      SXString.boolValue (ws ++ sign ++ ds ++ rest) = .error .out_of_range) ∧
    (SXString.digitsValue ds ≤ SXString.ULONG_MAX →
      SXString.ulValue (ws ++ sign ++ ds ++ rest) =
        .ok (if sign = ['-'] then
          (SXString.ULONG_MAX + 1 - SXString.digitsValue ds) % (SXString.ULONG_MAX + 1)
          else SXString.digitsValue ds)) ∧
    (SXString.ULONG_MAX < SXString.digitsValue ds →
      SXString.ulValue (ws ++ sign ++ ds ++ rest) = .error .out_of_range) ∧
    (∀ rest2 : List Char,
      (∀ c, rest2.head? = some c → SXString.isdigit c = false ∧
        (sign = [] → SXString.isspace c = false ∧ c ≠ '-' ∧ c ≠ '+')) →
      ws ++ sign ++ rest2 ≠ [] →
      SXString.intValue (ws ++ sign ++ rest2) = .error .invalid_argument ∧
      SXString.ulValue (ws ++ sign ++ rest2) = .error .invalid_argument ∧
      (ws ++ sign ++ rest2 ≠ "true".toList →
        SXString.boolValue (ws ++ sign ++ rest2) = .error .invalid_argument)) := by
  have hp := SXString.parseDecimal_number ws sign ds rest hws hsign hds hne hrest
  obtain ⟨d, ds', hdd⟩ := List.exists_cons_of_ne_nil hne
  have hnonempty : (ws ++ sign ++ ds ++ rest).isEmpty = false := by
    rw [hdd]
    cases ws <;> cases sign <;> simp
  have hdmem : d ∈ ws ++ sign ++ ds ++ rest := by rw [hdd]; simp
  have hnot_true : (ws ++ sign ++ ds ++ rest == "true".toList) = false := by
    rw [beq_eq_false_iff_ne]
    intro e
    rw [e] at hdmem
    have hd := hds d (by rw [hdd]; simp)
    have h4 : d = 't' ∨ d = 'r' ∨ d = 'u' ∨ d = 'e' := by simpa using hdmem
    rcases h4 with rfl | rfl | rfl | rfl <;> exact absurd hd (by decide)
  refine ⟨⟨rfl, rfl, rfl⟩, ?_, ?_, ?_, ?_, ?_⟩
  · intro hr
    have hi : SXString.intValue (ws ++ sign ++ ds ++ rest) =
        .ok (if sign = ['-'] then -(SXString.digitsValue ds : Int)
          else (SXString.digitsValue ds : Int)) := by
      simp only [SXString.intValue, hnonempty, SXString.stoi, hp]
      simp [hr]
    refine ⟨hi, ?_⟩
    simp only [SXString.boolValue, hnonempty, hi, hnot_true, Bool.or_false]
    by_cases hs : sign = ['-'] <;> by_cases h0 : SXString.digitsValue ds = 0 <;> simp [hs, h0]
  · intro hr
    have hi : SXString.intValue (ws ++ sign ++ ds ++ rest) = .error .out_of_range := by
      simp only [SXString.intValue, hnonempty, SXString.stoi, hp]
      simp [hr]
    refine ⟨hi, ?_⟩
    simp only [SXString.boolValue, hnonempty, hi]
    simp
  · intro hr
    simp only [SXString.ulValue, hnonempty, SXString.stoul, hp]
    simp [hr]
  · intro hr
    have : ¬ SXString.digitsValue ds ≤ SXString.ULONG_MAX := by omega
    simp only [SXString.ulValue, hnonempty, SXString.stoul, hp]
    simp [this]
  · intro rest2 hrest2 hne2
    have hn := SXString.parseDecimal_no_digits ws sign rest2 hws hsign hrest2
    have hemp : (ws ++ sign ++ rest2).isEmpty = false := by
      cases hx : ws ++ sign ++ rest2 with
      | nil => exact absurd hx hne2
      | cons a b => rfl
    have hi : SXString.intValue (ws ++ sign ++ rest2) = .error .invalid_argument := by
      simp only [SXString.intValue, hemp, SXString.stoi, hn]
      rfl
    refine ⟨hi, ?_, ?_⟩
    · simp only [SXString.ulValue, hemp, SXString.stoul, hn]
      rfl
    · intro _
      simp only [SXString.boolValue, hemp, hi]
      simp

/-- Instance of `conversions_return_or_throw`: the texts "  -12x" and " +x". -/
theorem conversions_return_or_throw_witness :
    SXString.intValue "  -12x".toList = .ok (-12) ∧
    SXString.boolValue "  -12x".toList = .ok true ∧
    SXString.ulValue "  -12x".toList = .ok 18446744073709551604 ∧
    SXString.intValue "  -x".toList = .error .invalid_argument ∧
    SXString.ulValue "  -x".toList = .error .invalid_argument ∧
    SXString.boolValue "  -x".toList = .error .invalid_argument :=
  have h := conversions_return_or_throw [' ', ' '] ['-'] ['1', '2'] ['x']
    (by decide) (by decide) (by decide) (by decide) (by decide)
  have h2 := h.2.2.2.2.2 ['x'] (by decide) (by decide)
  ⟨(h.2.1 (by decide)).1, (h.2.1 (by decide)).2, h.2.2.2.1 (by decide),
    h2.1, h2.2.1, h2.2.2 (by decide)⟩

/-! ## The virtual method `isEqual` -/

namespace SXObject

theorem isEqual_default (fuel : Nat) (h : Heap) (this pObject c : Nat) (body : Body)
    (hr : h.read this = some ⟨c, body⟩) (hb : body.overridesIsEqual = false) :
    isEqual (fuel + 1) h this pObject = .ok (decide (this = pObject)) := by
  cases body <;> simp [Body.overridesIsEqual] at hb <;> simp [isEqual, hr]

/-- C27: an object whose class does not override `isEqual` (a plain `SXObject`,
a pool, a dictionary, a set, a data object) compares by identity, whatever it
and the other object hold: `o.isEqual(o)` is true, and `o.isEqual(p)` is false
for every other pointer `p`, the null pointer included. -/
theorem isEqual_default_is_identity (fuel : Nat) (h : Heap) (o c : Nat) (body : Body)
    (hr : h.read o = some ⟨c, body⟩) (hb : body.overridesIsEqual = false) :
    isEqual (fuel + 1) h o o = .ok true ∧
    (∀ p, p ≠ o → isEqual (fuel + 1) h o p = .ok false) ∧
    isEqual (fuel + 1) h o 0 = .ok false := by
  have ho : o ≠ 0 := (Heap.valid_of_read hr).1
  refine ⟨?_, ?_, ?_⟩
  · rw [isEqual_default fuel h o o c body hr hb]; simp
  · intro p hp
    rw [isEqual_default fuel h o p c body hr hb]
    simp [Ne.symm hp]
  · rw [isEqual_default fuel h o 0 c body hr hb]
    simp [ho]

/-- Instance of `isEqual_default_is_identity`: the dictionary at address 7 of
`valuesHeap`. -/
theorem isEqual_default_is_identity_witness :
    valuesHeap.read 7 = some ⟨1, .dictionary [(['k'], 2), (['l'], 3)]⟩ ∧
    (Body.dictionary [(['k'], 2), (['l'], 3)]).overridesIsEqual = false ∧
    (isEqual (0 + 1) valuesHeap 7 7 = .ok true ∧
    (∀ p, p ≠ 7 → isEqual (0 + 1) valuesHeap 7 p = .ok false) ∧
    isEqual (0 + 1) valuesHeap 7 0 = .ok false) :=
  ⟨rfl, rfl, isEqual_default_is_identity 0 valuesHeap 7 1 _ rfl rfl⟩

end SXObject


/-! ## The `create` factories -/

/-- Autoreleasing an object with count 1 that is neither the current pool nor
its registration array: it is appended to the registrations, keeps count 1, and
nothing else changes. -/
theorem autorelease_counted (fuel : Nat) (s : State) (m : SXPoolManager) (top : PoolRep)
    (o : Nat) (body : Body)
    (hm : s.pInstance = some m) (hcur : m.m_pCurrentPool = top.pool)
    (htop : top.holds s.heap) (ho : s.heap.read o = some ⟨1, body⟩)
    (hoa : o ≠ top.objects) :
    ∃ s2, SXObject.autorelease (fuel + 1) s o = .ok (s2, o) ∧
      s2.pInstance = s.pInstance ∧
      s2.heap.read o = some ⟨1, body⟩ ∧
      s2.heap.read top.objects =
        some ⟨1, .array (top.regs.length + 1 + (SXArray.spare top.junk).length)
          (top.regs.length + 1) (top.regs ++ o :: SXArray.spare top.junk)⟩ ∧
      (∀ q, q ≠ o → q ≠ top.objects → s2.heap.read q = s.heap.read q) ∧
      s2.heap.cells.length = s.heap.cells.length := by
  obtain ⟨hP, hA⟩ := htop
  obtain ⟨h2, e2, _, l2, fr, r1, r2⟩ :=
    SXArray.addObject_reads s.heap top.objects o 1 1 top.regs top.junk body hA ho
  have ho2 : h2.read o = some ⟨2, body⟩ := by
    rw [r1 hoa]; rfl
  have hv2 := Heap.valid_of_read ho2
  have e3 := SXObject.release_keeps fuel h2 o 2 body ho2 (by omega) (by simp [UINT_MAX])
  refine ⟨⟨(h2.write o ⟨2 - 1, body⟩).log (.release o 2), s.pInstance⟩, ?_, rfl, ?_, ?_, ?_, ?_⟩
  · simp [SXObject.autorelease, SXPoolManager.sharedPoolManager, hm, SXPoolManager.addObject,
      SXAutoreleasePool.addObject, SXAutoreleasePool.objects, hcur, hP, e2, e3]
  · simp [Heap.read_write, hv2]
  · have hne : top.objects ≠ o := fun h => hoa h.symm
    simp only [Heap.read_log, Heap.read_write, hne, false_and, if_false]
    rw [r2]; simp [hoa]
  · intro q hq1 hq2
    simp only [Heap.read_log, Heap.read_write, hq1, false_and, if_false]
    exact fr q hq2 hq1
  · simp [l2]

theorem take_length_append (l t : List Nat) : (l ++ t).take l.length = l :=
  List.take_left' rfl

theorem registrations_of_holds {h : Heap} {r : PoolRep} (hr : r.holds h) :
    h.registrations r.pool = r.regs := by
  simp [Heap.registrations, Heap.elements, hr.1, hr.2]

/-- Constructing an object with count 1 at a fresh address, possibly
initialising it, and autoreleasing it: the object is registered once, behind
the registrations of the current pool, and no other pool is touched. -/
theorem autorelease_constructed (fuel : Nat) (s : State) (m : SXPoolManager) (top : PoolRep)
    (h1 : Heap) (body : Body)
    (hm : s.pInstance = some m) (hcur : m.m_pCurrentPool = top.pool)
    (htop : top.holds s.heap) (hlive : ∀ o ∈ top.regs, s.heap.alive o = true)
    (hnew : h1.read (s.heap.cells.length + 1) = some ⟨1, body⟩)
    (hold : ∀ q, q ≠ s.heap.cells.length + 1 → h1.read q = s.heap.read q) :
    ∃ s2, SXObject.autorelease (fuel + 1) ⟨h1, s.pInstance⟩ (s.heap.cells.length + 1) =
        .ok (s2, s.heap.cells.length + 1) ∧
      s2.pInstance = s.pInstance ∧
      s.heap.read (s.heap.cells.length + 1) = none ∧
      s2.heap.read (s.heap.cells.length + 1) = some ⟨1, body⟩ ∧
      s2.heap.registrations top.pool = top.regs ++ [s.heap.cells.length + 1] ∧
      (s2.heap.registrations top.pool).count (s.heap.cells.length + 1) = 1 ∧
      (∀ r : PoolRep, r.holds s.heap → r.objects ≠ top.objects →
        (∀ o ∈ r.regs, s.heap.alive o = true) →
        s2.heap.registrations r.pool = r.regs ∧ s.heap.cells.length + 1 ∉ r.regs) := by
  have hfresh : s.heap.read (s.heap.cells.length + 1) = none := by
    simp [Heap.read]
  have hnotin : ∀ regs : List Nat, (∀ o ∈ regs, s.heap.alive o = true) →
      s.heap.cells.length + 1 ∉ regs := by
    intro regs hl hmem
    have := hl _ hmem
    simp [Heap.alive, hfresh] at this
  have hne : ∀ q c, s.heap.read q = some c → q ≠ s.heap.cells.length + 1 := by
    intro q c hq heq
    rw [heq, hfresh] at hq; cases hq
  have htop1 : top.holds h1 := by
    refine ⟨?_, ?_⟩
    · rw [hold _ (hne _ _ htop.1)]; exact htop.1
    · rw [hold _ (hne _ _ htop.2)]; exact htop.2
  obtain ⟨s2, e, hi, ro, ra, fr, _⟩ :=
    autorelease_counted fuel ⟨h1, s.pInstance⟩ m top (s.heap.cells.length + 1) body hm hcur htop1
      hnew (fun h => hne _ _ htop.2 h.symm)
  have hP2 : s2.heap.read top.pool = some ⟨1, .pool top.objects⟩ := by
    rw [fr _ (hne _ _ htop.1) (fun h => by
      have h1 := htop.1; rw [h, htop.2] at h1; cases h1)]
    exact htop1.1
  have hregs : s2.heap.registrations top.pool = top.regs ++ [s.heap.cells.length + 1] := by
    simp [Heap.registrations, Heap.elements, hP2, ra, take_length_succ_append]
  refine ⟨s2, e, hi, hfresh, ro, hregs, ?_, ?_⟩
  · rw [hregs, List.count_append, List.count_eq_zero_of_not_mem (hnotin _ hlive)]
    simp
  · intro r hr hro hl
    refine ⟨?_, hnotin _ hl⟩
    have hrP : r.pool ≠ top.objects := by
      intro h
      have h1 := hr.1; rw [h, htop.2] at h1; cases h1
    have r1 : s2.heap.read r.pool = some ⟨1, .pool r.objects⟩ := by
      rw [fr _ (hne _ _ hr.1) hrP, hold _ (hne _ _ hr.1)]; exact hr.1
    have r2 : s2.heap.read r.objects = s.heap.read r.objects := by
      rw [fr _ (hne _ _ hr.2) hro, hold _ (hne _ _ hr.2)]
    simp [Heap.registrations, Heap.elements, r1, r2, hr.2]


theorem alloc_new_cell (h : Heap) (c : Cell) :
    (h.alloc c).1.read (h.cells.length + 1) = some c ∧
    (∀ q, q ≠ h.cells.length + 1 → (h.alloc c).1.read q = h.read q) ∧
    (h.alloc c).2 = h.cells.length + 1 := by
  refine ⟨by simp [Heap.read_alloc], ?_, rfl⟩
  intro q hq
  simp [Heap.read_alloc, hq]

theorem initWithCapacity_new (h : Heap) (capacity : Nat) :
    ∃ h1, SXArray.initWithCapacity (SXArray.new h).1 (SXArray.new h).2 capacity = .ok (h1, true) ∧
      (SXArray.new h).2 = h.cells.length + 1 ∧
      h1.read (h.cells.length + 1) = some ⟨1, .array capacity 0 (List.replicate capacity 0)⟩ ∧
      (∀ q, q ≠ h.cells.length + 1 → h1.read q = h.read q) ∧
      h1.cells.length = h.cells.length + 1 ∧ h1.trace = h.trace := by
  obtain ⟨ha, hadef⟩ : ∃ ha, ha = (SXArray.new h).1 := ⟨_, rfl⟩
  have a1 : ha.read (h.cells.length + 1) = some ⟨1, .array SX_ARRAY_DEFAULT_CAPACITY_INCREMENT 0
      (List.replicate SX_ARRAY_DEFAULT_CAPACITY_INCREMENT 0)⟩ := by
    rw [hadef]; simp [SXArray.new, Heap.read_alloc]
  have a2 : ∀ q, q ≠ h.cells.length + 1 → ha.read q = h.read q := by
    intro q hq
    rw [hadef]; simp [SXArray.new, Heap.read_alloc, hq]
  have a3 : ha.cells.length = h.cells.length + 1 := by rw [hadef]; simp [SXArray.new]
  have a4 : ha.trace = h.trace := by rw [hadef]; simp [SXArray.new]
  have hp : (SXArray.new h).2 = h.cells.length + 1 := rfl
  have hv : ha.valid (h.cells.length + 1) := Heap.valid_of_read a1
  rw [hp, ← hadef]
  have e1 : SXArray.resizeArray ha (h.cells.length + 1) capacity =
      .ok (ha.write (h.cells.length + 1) ⟨1, .array capacity 0 (List.replicate capacity 0)⟩) := by
    simp [SXArray.resizeArray, a1, SXArray.copyElements]
  have r1 : (ha.write (h.cells.length + 1) ⟨1, .array capacity 0 (List.replicate capacity 0)⟩).read
      (h.cells.length + 1) = some ⟨1, .array capacity 0 (List.replicate capacity 0)⟩ := by
    simp [Heap.read_write, hv]
  refine ⟨(ha.write (h.cells.length + 1) ⟨1, .array capacity 0 (List.replicate capacity 0)⟩).write
    (h.cells.length + 1) ⟨1, .array capacity 0 (List.replicate capacity 0)⟩, ?_, rfl, ?_, ?_, ?_, ?_⟩
  · simp only [SXArray.initWithCapacity, e1, bind, Outcome.bind, r1]
  · simp [Heap.read_write, hv]
  · intro q hq
    simp [Heap.read_write, hq, a2 q hq]
  · simp [a3]
  · simp [a4]

/-- C24: with a live manager whose current pool is the live pool `top`, every
`create` factory returns a new object (an address that held nothing before),
with `retainCount() == 1` and the contents of a new instance, registered
exactly once in the current pool, behind the registrations that were there;
the registration sequence of every other pool is unchanged and does not hold
the new object. Registered pointers are assumed to point to live objects. -/
theorem create_registers_once (fuel : Nat) (s : State) (m : SXPoolManager) (top : PoolRep)
    (f : Factory)
    (hm : s.pInstance = some m) (hcur : m.m_pCurrentPool = top.pool)
    (htop : top.holds s.heap) (hlive : ∀ o ∈ top.regs, s.heap.alive o = true) :
    ∃ s2, f.create (fuel + 1) s = .ok (s2, s.heap.cells.length + 1) ∧
      s2.pInstance = s.pInstance ∧
      s.heap.read (s.heap.cells.length + 1) = none ∧
      s2.heap.read (s.heap.cells.length + 1) = some ⟨1, f.body⟩ ∧
      SXObject.retainCount s2.heap (s.heap.cells.length + 1) = .ok 1 ∧
      s2.heap.registrations top.pool = top.regs ++ [s.heap.cells.length + 1] ∧
      (s2.heap.registrations top.pool).count (s.heap.cells.length + 1) = 1 ∧
      (∀ r : PoolRep, r.holds s.heap → r.objects ≠ top.objects →
        (∀ o ∈ r.regs, s.heap.alive o = true) →
        s2.heap.registrations r.pool = r.regs ∧ s.heap.cells.length + 1 ∉ r.regs) := by
  have key : ∀ (h1 : Heap) (body : Body),
      h1.read (s.heap.cells.length + 1) = some ⟨1, body⟩ →
      (∀ q, q ≠ s.heap.cells.length + 1 → h1.read q = s.heap.read q) →
      body = f.body →
      (∀ s2, SXObject.autorelease (fuel + 1) ⟨h1, s.pInstance⟩ (s.heap.cells.length + 1) =
          .ok (s2, s.heap.cells.length + 1) →
        f.create (fuel + 1) s = .ok (s2, s.heap.cells.length + 1)) →
      ∃ s2, f.create (fuel + 1) s = .ok (s2, s.heap.cells.length + 1) ∧
        s2.pInstance = s.pInstance ∧
        s.heap.read (s.heap.cells.length + 1) = none ∧
        s2.heap.read (s.heap.cells.length + 1) = some ⟨1, f.body⟩ ∧
        SXObject.retainCount s2.heap (s.heap.cells.length + 1) = .ok 1 ∧
        s2.heap.registrations top.pool = top.regs ++ [s.heap.cells.length + 1] ∧
        (s2.heap.registrations top.pool).count (s.heap.cells.length + 1) = 1 ∧
        (∀ r : PoolRep, r.holds s.heap → r.objects ≠ top.objects →
          (∀ o ∈ r.regs, s.heap.alive o = true) →
          s2.heap.registrations r.pool = r.regs ∧ s.heap.cells.length + 1 ∉ r.regs) := by
    intro h1 body hnew hold hb hrun
    obtain ⟨s2, e, hi, hf, ro, hregs, hcnt, hoth⟩ :=
      autorelease_constructed fuel s m top h1 body hm hcur htop hlive hnew hold
    subst hb
    exact ⟨s2, hrun s2 e, hi, hf, ro, by simp [SXObject.retainCount, ro], hregs, hcnt, hoth⟩
  cases f with
  | string pString =>
    obtain ⟨a1, a2, _⟩ := alloc_new_cell s.heap ⟨1, .string (cstr pString)⟩
    refine key _ _ a1 a2 rfl ?_
    intro s2 e
    simp only [Factory.create, SXString.create, SXString.new, Heap.alloc_snd]
    rw [if_pos (by omega), e]
    rfl
  | number type value =>
    obtain ⟨a1, a2, _⟩ := alloc_new_cell s.heap ⟨1, .number type value⟩
    refine key _ _ a1 a2 rfl ?_
    intro s2 e
    simp only [Factory.create, SXNumber.create, SXNumber.new, Heap.alloc_snd]
    rw [if_pos (by omega), e]
    rfl
  | array =>
    obtain ⟨h1, e1, e2, a1, a2, _⟩ := initWithCapacity_new s.heap SX_ARRAY_DEFAULT_CAPACITY_INCREMENT
    refine key h1 _ a1 a2 rfl ?_
    intro s2 e
    simp only [Factory.create, SXArray.create, SXArray.createWithCapacity]
    rw [e1]
    simp only [Outcome.bind, if_true]
    rw [e2, e]
  | arrayWithCapacity capacity =>
    obtain ⟨h1, e1, e2, a1, a2, _⟩ := initWithCapacity_new s.heap capacity
    refine key h1 _ a1 a2 rfl ?_
    intro s2 e
    simp only [Factory.create, SXArray.createWithCapacity]
    rw [e1]
    simp only [Outcome.bind, if_true]
    rw [e2, e]
  | dictionary =>
    obtain ⟨a1, a2, _⟩ := alloc_new_cell s.heap ⟨1, .dictionary []⟩
    refine key _ _ a1 a2 rfl ?_
    intro s2 e
    simp only [Factory.create, SXDictionary.create, SXDictionary.new, Heap.alloc_snd]
    rw [if_pos (by omega), e]
    rfl
  | set =>
    obtain ⟨a1, a2, _⟩ := alloc_new_cell s.heap ⟨1, .set []⟩
    refine key _ _ a1 a2 rfl ?_
    intro s2 e
    simp only [Factory.create, SXSet.create, SXSet.new, Heap.alloc_snd]
    rw [if_pos (by omega), e]
    rfl
  | data =>
    obtain ⟨a1, a2, _⟩ := alloc_new_cell s.heap ⟨1, .data []⟩
    refine key _ _ a1 a2 rfl ?_
    intro s2 e
    simp only [Factory.create, SXData.create, SXData.new, Heap.alloc_snd]
    rw [if_pos (by omega), e]
    rfl

/-- Instance of `create_registers_once`: `SXString::create("hi")` with a fresh
manager, whose initial pool (address 2) has no registration yet. -/
theorem create_registers_once_witness :
    freshManager.pInstance = some ⟨1, 2⟩ ∧
    (PoolRep.mk 2 3 [] [0, 0, 0, 0, 0, 0, 0, 0, 0, 0]).holds freshManager.heap ∧
    ∃ s2, (Factory.string ['h', 'i']).create (0 + 1) freshManager =
        .ok (s2, freshManager.heap.cells.length + 1) ∧
      s2.pInstance = freshManager.pInstance ∧
      freshManager.heap.read (freshManager.heap.cells.length + 1) = none ∧
      s2.heap.read (freshManager.heap.cells.length + 1) =
        some ⟨1, (Factory.string ['h', 'i']).body⟩ ∧
      SXObject.retainCount s2.heap (freshManager.heap.cells.length + 1) = .ok 1 ∧
      s2.heap.registrations (PoolRep.mk 2 3 [] [0, 0, 0, 0, 0, 0, 0, 0, 0, 0]).pool =
        (PoolRep.mk 2 3 [] [0, 0, 0, 0, 0, 0, 0, 0, 0, 0]).regs ++
          [freshManager.heap.cells.length + 1] ∧
      (s2.heap.registrations (PoolRep.mk 2 3 [] [0, 0, 0, 0, 0, 0, 0, 0, 0, 0]).pool).count
        (freshManager.heap.cells.length + 1) = 1 ∧
      (∀ r : PoolRep, r.holds freshManager.heap →
        r.objects ≠ (PoolRep.mk 2 3 [] [0, 0, 0, 0, 0, 0, 0, 0, 0, 0]).objects →
        (∀ o ∈ r.regs, freshManager.heap.alive o = true) →
        s2.heap.registrations r.pool = r.regs ∧ freshManager.heap.cells.length + 1 ∉ r.regs) :=
  ⟨rfl, ⟨rfl, rfl⟩,
    create_registers_once 0 freshManager ⟨1, 2⟩ (PoolRep.mk 2 3 [] [0, 0, 0, 0, 0, 0, 0, 0, 0, 0])
      (Factory.string ['h', 'i']) rfl rfl ⟨rfl, rfl⟩ (by simp)⟩


/-! ## Deep copies -/

theorem uniform_bound (n : Nat) (P : Nat → Nat → Prop)
    (h : ∀ i, i < n → ∃ N, ∀ fuel, N ≤ fuel → P i fuel) :
    ∃ N, ∀ i, i < n → ∀ fuel, N ≤ fuel → P i fuel := by
  induction n with
  | zero => exact ⟨0, fun i hi => absurd hi (Nat.not_lt_zero i)⟩
  | succ n ih =>
    obtain ⟨N1, h1⟩ := ih (fun i hi => h i (by omega))
    obtain ⟨N2, h2⟩ := h n (by omega)
    refine ⟨max N1 N2, ?_⟩
    intro i hi fuel hf
    by_cases hin : i < n
    · exact h1 i hin fuel (le_trans (le_max_left _ _) hf)
    · have : i = n := by omega
      subst this
      exact h2 fuel (le_trans (le_max_right _ _) hf)

theorem uniform_bound_mem (l : List Nat) (P : Nat → Nat → Prop)
    (h : ∀ x, x ∈ l → ∃ N, ∀ fuel, N ≤ fuel → P x fuel) :
    ∃ N, ∀ x, x ∈ l → ∀ fuel, N ≤ fuel → P x fuel := by
  induction l with
  | nil => exact ⟨0, fun x hx => by simp at hx⟩
  | cons a l ih =>
    obtain ⟨N1, h1⟩ := ih (fun x hx => h x (List.mem_cons_of_mem _ hx))
    obtain ⟨N2, h2⟩ := h a (List.mem_cons_self _ _)
    refine ⟨max N1 N2, ?_⟩
    intro x hx fuel hf
    rcases List.mem_cons.1 hx with rfl | hx
    · exact h2 fuel (le_trans (le_max_right _ _) hf)
    · exact h1 x hx fuel (le_trans (le_max_left _ _) hf)

namespace Heap

theorem Extends.extends_self (h : Heap) : h.Extends h := ⟨le_refl _, fun _ _ => rfl⟩

theorem Extends.extends_trans {h0 h1 h2 : Heap} (a : h0.Extends h1) (b : h1.Extends h2) :
    h0.Extends h2 :=
  ⟨le_trans a.1 b.1, fun q hq => by rw [b.2 q (le_trans hq a.1), a.2 q hq]⟩

theorem Extends.read_live {h0 h : Heap} (a : h0.Extends h) {q : Nat} {c : Cell}
    (hr : h0.read q = some c) : h.read q = some c := by
  rw [a.2 q (valid_of_read hr).2]; exact hr

theorem read_beyond (h : Heap) (q : Nat) (hq : h.cells.length < q) : h.read q = none := by
  apply read_of_not_valid
  intro hv
  have := hv.2
  omega

theorem le_of_read {h : Heap} {q : Nat} {c : Cell} (hr : h.read q = some c) :
    q ≤ h.cells.length := (valid_of_read hr).2

end Heap

theorem Copied.widen {strict : Bool} {h : Heap} {vhi clo c v : Nat}
    (hc : Copied strict h vhi clo c v) (vhi2 clo2 : Nat) (h1 : vhi ≤ vhi2) (h2 : clo2 ≤ clo) :
    Copied strict h vhi2 clo2 c v := by
  induction hc with
  | node c v rc vb cb a1 a2 a3 a4 a5 a6 a7 a8 _ ih =>
    exact Copied.node c v rc vb cb (le_trans a1 h1) (lt_of_le_of_lt h2 a2) a3 a4 a5 a6 a7 a8 ih

theorem Copied.carry {strict : Bool} {h h2 : Heap} {vhi clo c v : Nat}
    (hc : Copied strict h vhi clo c v)
    (hag : ∀ q cell, h.read q = some cell → (q ≤ vhi ∨ clo < q) → h2.read q = some cell) :
    Copied strict h2 vhi clo c v := by
  induction hc with
  | node c v rc vb cb a1 a2 a3 a4 a5 a6 a7 a8 _ ih =>
    exact Copied.node c v rc vb cb a1 a2 (hag _ _ a3 (Or.inl a1)) (hag _ _ a4 (Or.inr a2))
      a5 a6 a7 a8 ih

theorem Copied.read_copy {strict : Bool} {h : Heap} {vhi clo c v : Nat}
    (hc : Copied strict h vhi clo c v) :
    clo < c ∧ v ≤ vhi ∧ ∃ cb, h.read c = some ⟨1, cb⟩ := by
  cases hc with
  | node c v rc vb cb a1 a2 a3 a4 a5 a6 a7 a8 a9 => exact ⟨a2, a1, cb, a4⟩

theorem CopiedAll.empty (strict : Bool) (h : Heap) (vhi clo : Nat) :
    CopiedAll strict h vhi clo [] [] :=
  ⟨rfl, List.nodup_nil, fun c hc => by simp at hc, fun j hj => by simp at hj⟩

theorem CopiedAll.carry_all {strict : Bool} {h h2 : Heap} {vhi clo : Nat} {cs vs : List Nat}
    (hc : CopiedAll strict h vhi clo cs vs) (hl : h.cells.length ≤ h2.cells.length)
    (hag : ∀ q cell, h.read q = some cell → (q ≤ vhi ∨ clo < q) → h2.read q = some cell) :
    CopiedAll strict h2 vhi clo cs vs :=
  ⟨hc.1, hc.2.1, fun c hm => le_trans (hc.2.2.1 c hm) hl, fun j hj => (hc.2.2.2 j hj).carry hag⟩

theorem getD_append_left (l t : List Nat) (j : Nat) (hj : j < l.length) :
    (l ++ t).getD j 0 = l.getD j 0 := by
  simp [List.getD_eq_getElem?_getD, List.getElem?_append_left hj]

theorem getD_append_length (l : List Nat) (x : Nat) (t : List Nat) :
    (l ++ x :: t).getD l.length 0 = x := by
  induction l with
  | nil => rfl
  | cons a l ih => simpa using ih

theorem CopiedAll.snoc {strict : Bool} {h : Heap} {vhi clo : Nat} {cs vs : List Nat} {c v : Nat}
    (hc : CopiedAll strict h vhi clo cs vs) (hcv : Copied strict h vhi clo c v)
    (hnew : ∀ x ∈ cs, x < c) :
    CopiedAll strict h vhi clo (cs ++ [c]) (vs ++ [v]) := by
  obtain ⟨h1, h2, h3, h4⟩ := hc
  refine ⟨by simp [h1], ?_, ?_, ?_⟩
  · rw [List.nodup_append]
    refine ⟨h2, List.nodup_singleton _, ?_⟩
    intro x hx hx2
    simp at hx2
    have := hnew x hx
    omega
  · intro x hx
    rcases List.mem_append.1 hx with hx | hx
    · exact h3 x hx
    · simp at hx
      subst hx
      obtain ⟨_, _, cb, hr⟩ := hcv.read_copy
      exact Heap.le_of_read hr
  · intro j hj
    simp at hj
    by_cases hjl : j < vs.length
    · rw [getD_append_left cs [c] j (by omega), getD_append_left vs [v] j hjl]
      exact h4 j hjl
    · have hje : j = vs.length := by omega
      subst hje
      rw [getD_append_length vs v []]
      rw [← h1, getD_append_length cs c []]
      exact hcv

/-- One round of a copy loop: the element copy `tmp` was made in `h1`, and `h3`
differs from `h1` only in the container `pC`. -/
theorem CopiedAll.step {strict : Bool} {h0 h h1 h3 : Heap} {pC x : Nat} {cs vs : List Nat}
    (hext0 : h0.Extends h) (hext : h.Extends h1)
    (hcp : Copied strict h1 h0.cells.length h.cells.length (h.cells.length + 1) x)
    (hp0 : h0.cells.length < pC) (hp : pC ≤ h.cells.length)
    (hothers : ∀ q, q ≠ pC → h3.read q = h1.read q) (hlen : h3.cells.length = h1.cells.length)
    (hall : CopiedAll strict h h0.cells.length pC cs vs) :
    h0.Extends h3 ∧
    CopiedAll strict h3 h0.cells.length pC (cs ++ [h.cells.length + 1]) (vs ++ [x]) ∧
    (∀ q, q ≤ h.cells.length → q ≠ pC → h3.read q = h.read q) ∧
    h.cells.length ≤ h3.cells.length := by
  have hag1 : ∀ q cell, h.read q = some cell → (q ≤ h0.cells.length ∨ pC < q) →
      h1.read q = some cell := fun q cell hr _ => hext.read_live hr
  have hag3 : ∀ q cell, h1.read q = some cell → (q ≤ h0.cells.length ∨ pC < q) →
      h3.read q = some cell := by
    intro q cell hr hq
    rw [hothers q (by omega)]; exact hr
  refine ⟨?_, ?_, ?_, ?_⟩
  · refine ⟨by have := hext0.1; have := hext.1; omega, ?_⟩
    intro q hq
    rw [hothers q (by omega), hext.2 q (le_trans hq hext0.1), hext0.2 q hq]
  · have a1 : CopiedAll strict h3 h0.cells.length pC cs vs :=
      (hall.carry_all hext.1 hag1).carry_all (le_of_eq hlen.symm) hag3
    have a2 : Copied strict h3 h0.cells.length pC (h.cells.length + 1) x :=
      (hcp.widen _ _ (le_refl _) hp).carry hag3
    refine a1.snoc a2 ?_
    intro y hy
    have := hall.2.2.1 y hy
    omega
  · intro q hq hne
    rw [hothers q hne, hext.2 q hq]
  · have := hext.1; omega


theorem wrap_two : wrap (1 + 1) = 2 := by decide

/-- Adding a new copy to an array and releasing it: only the array changes. -/
theorem SXArray.array_addObject_release (fuel : Nat) (h1 : Heap) (pC tmp : Nat) (cs junk : List Nat)
    (cb : Body)
    (hpC : h1.read pC = some ⟨1, .array (cs.length + junk.length) cs.length (cs ++ junk)⟩)
    (htmp : h1.read tmp = some ⟨1, cb⟩) (hne : tmp ≠ pC) :
    ∃ h2 h3, SXArray.addObject h1 pC tmp = .ok h2 ∧ SXObject.release (fuel + 1) h2 tmp = .ok h3 ∧
      (∀ q, q ≠ pC → h3.read q = h1.read q) ∧ h3.cells.length = h1.cells.length ∧
      h3.read pC = some ⟨1, .array ((cs ++ [tmp]).length + (SXArray.spare junk).length)
        (cs ++ [tmp]).length ((cs ++ [tmp]) ++ SXArray.spare junk)⟩ := by
  obtain ⟨h2, e2, _, l2, fr, r1, r2⟩ := SXArray.addObject_reads h1 pC tmp 1 1 cs junk cb hpC htmp
  have ho2 : h2.read tmp = some ⟨2, cb⟩ := by rw [r1 hne, wrap_two]
  have hv2 := Heap.valid_of_read ho2
  have e3 := SXObject.release_keeps fuel h2 tmp 2 cb ho2 (by omega) (by simp [UINT_MAX])
  refine ⟨h2, _, e2, e3, ?_, ?_, ?_⟩
  · intro q hq
    by_cases hqt : q = tmp
    · subst hqt
      simp [Heap.read_write, hv2, htmp]
    · simp only [Heap.read_log, Heap.read_write, hqt, false_and, if_false]
      exact fr q hq hqt
  · simp [l2]
  · have hne2 : pC ≠ tmp := fun h => hne h.symm
    simp only [Heap.read_log, Heap.read_write, hne2, false_and, if_false]
    rw [r2]
    simp [hne]

namespace SXDictionary

theorem lookup_absent (m : List (List Char × Nat)) (key : List Char)
    (hk : key ∉ m.map Prod.fst) : m.lookup key = none := by
  induction m with
  | nil => rfl
  | cons e m ih =>
    obtain ⟨k, v⟩ := e
    simp only [List.map_cons, List.mem_cons, not_or] at hk
    have hne : (key == k) = false := by simpa using hk.1
    simp [List.lookup, hne, ih hk.2]

theorem lookup_last (m : List (List Char × Nat)) (key : List Char) (v : Nat)
    (hk : key ∉ m.map Prod.fst) : (m ++ [(key, v)]).lookup key = some v := by
  induction m with
  | nil => simp [List.lookup]
  | cons e m ih =>
    obtain ⟨k, w⟩ := e
    simp only [List.map_cons, List.mem_cons, not_or] at hk
    have hne : (key == k) = false := by simpa using hk.1
    simp [List.lookup, hne, ih hk.2]

theorem subscript_absent (m : List (List Char × Nat)) (key : List Char)
    (hk : key ∉ m.map Prod.fst) : subscript m key = (m ++ [(key, 0)], 0) := by
  simp [subscript, lookup_absent m key hk]

theorem map_assign_absent (m : List (List Char × Nat)) (key : List Char) (p : Nat)
    (hk : key ∉ m.map Prod.fst) :
    m.map (fun e => if e.1 = key then (e.1, p) else e) = m := by
  induction m with
  | nil => rfl
  | cons e m ih =>
    simp only [List.map_cons, List.mem_cons, not_or] at hk
    have hne : ¬ e.1 = key := fun h => hk.1 h.symm
    simp [hne, ih hk.2]

theorem assign_last (m : List (List Char × Nat)) (key : List Char) (v p : Nat)
    (hk : key ∉ m.map Prod.fst) : assign (m ++ [(key, v)]) key p = m ++ [(key, p)] := by
  simp [assign, subscript, lookup_last m key v hk, map_assign_absent m key p hk]

/-- Storing a new copy under a key that is not in the dictionary, and releasing
the copy: only the dictionary changes. -/
theorem setObject_release (fuelS fuel : Nat) (h1 : Heap) (pC tmp : Nat)
    (m : List (List Char × Nat)) (key : List Char) (cb : Body)
    (hpC : h1.read pC = some ⟨1, .dictionary m⟩)
    (htmp : h1.read tmp = some ⟨1, cb⟩) (hne : tmp ≠ pC) (hk : key ∉ m.map Prod.fst) :
    ∃ h2 h3, setObject fuelS h1 pC tmp key = .ok h2 ∧ SXObject.release (fuel + 1) h2 tmp = .ok h3 ∧
      (∀ q, q ≠ pC → h3.read q = h1.read q) ∧ h3.cells.length = h1.cells.length ∧
      h3.read pC = some ⟨1, .dictionary (m ++ [(key, tmp)])⟩ := by
  have hvC := Heap.valid_of_read hpC
  have hvT := Heap.valid_of_read htmp
  have hne2 : pC ≠ tmp := fun h => hne h.symm
  obtain ⟨ha, hadef⟩ : ∃ ha, ha = h1.write pC ⟨1, .dictionary (m ++ [(key, 0)])⟩ := ⟨_, rfl⟩
  have e1 : removeObjectForKey fuelS h1 pC key = .ok ha := by
    simp [removeObjectForKey, objectForKey, hpC, subscript_absent m key hk, Outcome.bind, hadef]
  have raT : ha.read tmp = some ⟨1, cb⟩ := by
    rw [hadef]; simp [Heap.read_write, hne, htmp]
  obtain ⟨hb, hbdef⟩ : ∃ hb, hb = ha.write tmp ⟨2, cb⟩ := ⟨_, rfl⟩
  have e2 : SXObject.retain ha tmp = .ok hb := by
    simp [SXObject.retain, raT, wrap_two, hbdef]
  have hvaT : ha.valid tmp := Heap.valid_of_read raT
  have rbC : hb.read pC = some ⟨1, .dictionary (m ++ [(key, 0)])⟩ := by
    rw [hbdef, hadef]; simp [Heap.read_write, hne2, hvC]
  obtain ⟨hc, hcdef⟩ : ∃ hc, hc = hb.write pC ⟨1, .dictionary (m ++ [(key, tmp)])⟩ := ⟨_, rfl⟩
  have e3 : setObject fuelS h1 pC tmp key = .ok hc := by
    simp [setObject, e1, e2, Outcome.bind, rbC, assign_last m key 0 tmp hk, hcdef]
  have hvbC : hb.valid pC := Heap.valid_of_read rbC
  have rcT : hc.read tmp = some ⟨2, cb⟩ := by
    rw [hcdef, hbdef]; simp [Heap.read_write, hne, hvaT]
  have e4 := SXObject.release_keeps fuel hc tmp 2 cb rcT (by omega) (by simp [UINT_MAX])
  have hvcT : hc.valid tmp := Heap.valid_of_read rcT
  refine ⟨hc, _, e3, e4, ?_, ?_, ?_⟩
  · intro q hq
    by_cases hqt : q = tmp
    · subst hqt
      simp [Heap.read_write, hvcT, htmp]
    · simp only [Heap.read_log, Heap.read_write, hqt, false_and, if_false]
      rw [hcdef, hbdef, hadef]
      simp [Heap.read_write, hq, hqt]
  · rw [hcdef, hbdef, hadef]; simp
  · simp only [Heap.read_log, Heap.read_write, hne2, false_and, if_false]
    rw [hcdef]; simp [Heap.read_write, hvbC]

end SXDictionary

/-- Adding a new copy to a set and releasing it: only the set changes. -/
theorem SXSet.set_addObject_release (fuel : Nat) (h1 : Heap) (pC tmp : Nat) (xs : List Nat)
    (cb : Body) (hpC : h1.read pC = some ⟨1, .set xs⟩)
    (htmp : h1.read tmp = some ⟨1, cb⟩) (hne : tmp ≠ pC) (hk : tmp ∉ xs) :
    ∃ h2 h3, SXSet.addObject h1 pC tmp = .ok h2 ∧ SXObject.release (fuel + 1) h2 tmp = .ok h3 ∧
      (∀ q, q ≠ pC → h3.read q = h1.read q) ∧ h3.cells.length = h1.cells.length ∧
      h3.read pC = some ⟨1, .set (xs ++ [tmp])⟩ := by
  have hvC := Heap.valid_of_read hpC
  have hvT := Heap.valid_of_read htmp
  have hne2 : pC ≠ tmp := fun h => hne h.symm
  obtain ⟨hb, hbdef⟩ : ∃ hb, hb = h1.write tmp ⟨2, cb⟩ := ⟨_, rfl⟩
  have e2 : SXObject.retain h1 tmp = .ok hb := by
    simp [SXObject.retain, htmp, wrap_two, hbdef]
  have rbC : hb.read pC = some ⟨1, .set xs⟩ := by
    rw [hbdef]; simp [Heap.read_write, hne2, hpC]
  obtain ⟨hc, hcdef⟩ : ∃ hc, hc = hb.write pC ⟨1, .set (xs ++ [tmp])⟩ := ⟨_, rfl⟩
  have e3 : SXSet.addObject h1 pC tmp = .ok hc := by
    simp [SXSet.addObject, SXSet.containsObject, hpC, hk, e2, Outcome.bind, rbC, hcdef]
  have hvbC : hb.valid pC := Heap.valid_of_read rbC
  have rcT : hc.read tmp = some ⟨2, cb⟩ := by
    rw [hcdef, hbdef]; simp [Heap.read_write, hne, hvT]
  have e4 := SXObject.release_keeps fuel hc tmp 2 cb rcT (by omega) (by simp [UINT_MAX])
  have hvcT : hc.valid tmp := Heap.valid_of_read rcT
  refine ⟨hc, _, e3, e4, ?_, ?_, ?_⟩
  · intro q hq
    by_cases hqt : q = tmp
    · subst hqt
      simp [Heap.read_write, hvcT, htmp]
    · simp only [Heap.read_log, Heap.read_write, hqt, false_and, if_false]
      rw [hcdef, hbdef]
      simp [Heap.read_write, hq, hqt]
  · rw [hcdef, hbdef]; simp
  · simp only [Heap.read_log, Heap.read_write, hne2, false_and, if_false]
    rw [hcdef]; simp [Heap.read_write, hvbC]


theorem take_succ_getD (l : List Nat) (i : Nat) (hi : i < l.length) :
    l.take (i + 1) = l.take i ++ [l.getD i 0] := by
  rw [List.take_succ]
  simp [List.getD_eq_getElem?_getD, List.getElem?_eq_getElem hi]

theorem getD_take (l : List Nat) (n i : Nat) (hi : i < n) : (l.take n).getD i 0 = l.getD i 0 := by
  simp [List.getD_eq_getElem?_getD, List.getElem?_take, hi]

namespace SXObject

theorem copyFrom_succ (fuel : Nat) (h : Heap) (this pArray i : Nat) :
    copyFrom (fuel + 1) h this pArray i =
      match SXArray.count h this with
      | .ok m_count =>
        if i < m_count then
          match SXArray.objectAtIndex h this i with
          | .ok x =>
            match copy fuel h x with
            | .ok (h1, pTmpObject) =>
              match SXArray.addObject h1 pArray pTmpObject with
              | .ok h2 =>
                match release fuel h2 pTmpObject with
                | .ok h3 => copyFrom fuel h3 this pArray (i + 1)
                | .undefined => .undefined
                | .outOfFuel => .outOfFuel
              | .undefined => .undefined
              | .outOfFuel => .outOfFuel
            | .undefined => .undefined
            | .outOfFuel => .outOfFuel
          | .undefined => .undefined
          | .outOfFuel => .outOfFuel
        else .ok h
      | .undefined => .undefined
      | .outOfFuel => .outOfFuel := rfl

theorem copyEntries_nil (fuel : Nat) (h : Heap) (pDictionary : Nat) :
    copyEntries (fuel + 1) h pDictionary [] = .ok h := rfl

theorem copyEntries_cons (fuel : Nat) (h : Heap) (pDictionary : Nat) (key : List Char)
    (value : Nat) (rest : List (List Char × Nat)) :
    copyEntries (fuel + 1) h pDictionary ((key, value) :: rest) =
      match copy fuel h value with
      | .ok (h1, pTmpObject) =>
        match SXDictionary.setObject fuel h1 pDictionary pTmpObject key with
        | .ok h2 =>
          match release fuel h2 pTmpObject with
          | .ok h3 => copyEntries fuel h3 pDictionary rest
          | .undefined => .undefined
          | .outOfFuel => .outOfFuel
        | .undefined => .undefined
        | .outOfFuel => .outOfFuel
      | .undefined => .undefined
      | .outOfFuel => .outOfFuel := rfl

theorem copyMembers_nil (fuel : Nat) (h : Heap) (pSet : Nat) :
    copyMembers (fuel + 1) h pSet [] = .ok h := rfl

theorem copyMembers_cons (fuel : Nat) (h : Heap) (pSet : Nat) (pObj : Nat) (rest : List Nat) :
    copyMembers (fuel + 1) h pSet (pObj :: rest) =
      match copy fuel h pObj with
      | .ok (h1, pTmpObject) =>
        match SXSet.addObject h1 pSet pTmpObject with
        | .ok h2 =>
          match release fuel h2 pTmpObject with
          | .ok h3 => copyMembers fuel h3 pSet rest
          | .undefined => .undefined
          | .outOfFuel => .outOfFuel
        | .undefined => .undefined
        | .outOfFuel => .outOfFuel
      | .undefined => .undefined
      | .outOfFuel => .outOfFuel := rfl

/-- The loop of `SXArray::copy` on an array whose elements can be copied. -/
theorem copyFrom_total (strict : Bool) (h0 : Heap) (v rc cap n : Nat) (arr : List Nat)
    (hv0 : h0.read v = some ⟨rc, .array cap n arr⟩) (hn : n ≤ arr.length) (N0 : Nat)
    (hN : ∀ i, i < n → ∀ fuel, N0 ≤ fuel → CopiesWith strict h0 (arr.getD i 0) fuel)
    (pArray : Nat) (hp0 : h0.cells.length < pArray) :
    ∀ k i, i + k = n → ∀ (h : Heap) (cs junk : List Nat), h0.Extends h →
      pArray ≤ h.cells.length →
      h.read pArray = some ⟨1, .array (cs.length + junk.length) cs.length (cs ++ junk)⟩ →
      CopiedAll strict h h0.cells.length pArray cs (arr.take i) →
      ∀ fuel, N0 + k + 2 ≤ fuel →
      ∃ h2 cs2 junk2, copyFrom fuel h v pArray i = .ok h2 ∧
        h.cells.length ≤ h2.cells.length ∧
        (∀ q, q ≤ h.cells.length → q ≠ pArray → h2.read q = h.read q) ∧
        h2.read pArray =
          some ⟨1, .array (cs2.length + junk2.length) cs2.length (cs2 ++ junk2)⟩ ∧
        CopiedAll strict h2 h0.cells.length pArray cs2 (arr.take n) := by
  intro k
  induction k with
  | zero =>
    intro i hik h cs junk hext hple hpA hall fuel hf
    have hin : i = n := by omega
    subst hin
    obtain ⟨f, rfl⟩ : ∃ f, fuel = f + 1 := ⟨fuel - 1, by omega⟩
    refine ⟨h, cs, junk, ?_, le_refl _, fun _ _ _ => rfl, hpA, hall⟩
    rw [copyFrom_succ]
    simp [SXArray.count, hext.read_live hv0]
  | succ k ih =>
    intro i hik h cs junk hext hple hpA hall fuel hf
    have hin : i < n := by omega
    obtain ⟨f, rfl⟩ : ∃ f, fuel = f + 1 := ⟨fuel - 1, by omega⟩
    obtain ⟨f2, hf2⟩ : ∃ f2, f = f2 + 1 := ⟨f - 1, by omega⟩
    obtain ⟨h1, e1, hext1, hcp⟩ := hN i hin f (by omega) h hext
    obtain ⟨_, _, cb, htmp⟩ := hcp.read_copy
    have hpA1 : h1.read pArray =
        some ⟨1, .array (cs.length + junk.length) cs.length (cs ++ junk)⟩ :=
      hext1.read_live hpA
    obtain ⟨h2, h3, e2, e3, hothers, hlen, hpA3⟩ :=
      SXArray.array_addObject_release f2 h1 pArray (h.cells.length + 1) cs junk cb hpA1 htmp (by omega)
    obtain ⟨hext3, hall3, hframe, hle3⟩ :=
      CopiedAll.step hext hext1 hcp hp0 hple hothers hlen hall
    rw [← take_succ_getD arr i (by omega)] at hall3
    obtain ⟨h4, cs4, junk4, e4, hle4, hframe4, hpA4, hall4⟩ :=
      ih (i + 1) (by omega) h3 (cs ++ [h.cells.length + 1]) (SXArray.spare junk) hext3
        (by omega) hpA3 hall3 f (by omega)
    refine ⟨h4, cs4, junk4, ?_, by omega, ?_, hpA4, hall4⟩
    · rw [copyFrom_succ]
      simp only [SXArray.count, SXArray.objectAtIndex, hext.read_live hv0, hin, if_true, e1, e2]
      rw [hf2] at e4 ⊢
      rw [e3]
      exact e4
    · intro q hq hne
      rw [hframe4 q (by omega) hne, hframe q hq hne]

/-- The loop of `SXDictionary::copy` over entries whose values can be copied
and whose keys are not in the new dictionary yet. -/
theorem copyEntries_total (strict : Bool) (h0 : Heap) (N0 : Nat) (pDictionary : Nat)
    (hp0 : h0.cells.length < pDictionary) :
    ∀ (rest done : List (List Char × Nat)) (h : Heap) (m : List (List Char × Nat)),
      (∀ e, e ∈ rest → ∀ fuel, N0 ≤ fuel → CopiesWith strict h0 e.2 fuel) →
      ((done ++ rest).map Prod.fst).Nodup →
      h0.Extends h → pDictionary ≤ h.cells.length →
      h.read pDictionary = some ⟨1, .dictionary m⟩ →
      m.map Prod.fst = done.map Prod.fst →
      CopiedAll strict h h0.cells.length pDictionary (m.map Prod.snd) (done.map Prod.snd) →
      ∀ fuel, N0 + rest.length + 2 ≤ fuel →
      ∃ h2 m2, copyEntries fuel h pDictionary rest = .ok h2 ∧
        h.cells.length ≤ h2.cells.length ∧
        (∀ q, q ≤ h.cells.length → q ≠ pDictionary → h2.read q = h.read q) ∧
        h2.read pDictionary = some ⟨1, .dictionary m2⟩ ∧
        m2.map Prod.fst = (done ++ rest).map Prod.fst ∧
        CopiedAll strict h2 h0.cells.length pDictionary (m2.map Prod.snd)
          ((done ++ rest).map Prod.snd) := by
  intro rest
  induction rest with
  | nil =>
    intro done h m _ _ hext hple hpD hkeys hall fuel hf
    obtain ⟨f, rfl⟩ : ∃ f, fuel = f + 1 := ⟨fuel - 1, by omega⟩
    refine ⟨h, m, copyEntries_nil f h pDictionary, le_refl _, fun _ _ _ => rfl, hpD, ?_, ?_⟩
    · simpa using hkeys
    · simpa using hall
  | cons e rest ih =>
    intro done h m hN hnd hext hple hpD hkeys hall fuel hf
    obtain ⟨key, value⟩ := e
    simp only [List.length_cons] at hf
    obtain ⟨f, rfl⟩ : ∃ f, fuel = f + 1 := ⟨fuel - 1, by omega⟩
    obtain ⟨f2, hf2⟩ : ∃ f2, f = f2 + 1 := ⟨f - 1, by omega⟩
    obtain ⟨h1, e1, hext1, hcp⟩ := hN (key, value) (List.mem_cons_self _ _) f (by omega) h hext
    obtain ⟨_, _, cb, htmp⟩ := hcp.read_copy
    have hpD1 : h1.read pDictionary = some ⟨1, .dictionary m⟩ := hext1.read_live hpD
    have hk : key ∉ m.map Prod.fst := by
      rw [hkeys]
      intro hmem
      rw [List.map_append, List.nodup_append] at hnd
      exact hnd.2.2 hmem (by simp)
    have e2' := SXDictionary.setObject_release f f2 h1 pDictionary (h.cells.length + 1) m key cb
      hpD1 htmp (by omega) hk
    obtain ⟨h2, h3, e2, e3, hothers, hlen, hpD3⟩ := e2'
    obtain ⟨hext3, hall3, hframe, hle3⟩ :=
      CopiedAll.step hext hext1 hcp hp0 hple hothers hlen hall
    have hall3' : CopiedAll strict h3 h0.cells.length pDictionary
        ((m ++ [(key, h.cells.length + 1)]).map Prod.snd)
        ((done ++ [(key, value)]).map Prod.snd) := by
      simpa using hall3
    obtain ⟨h4, m4, e4, hle4, hframe4, hpD4, hkeys4, hall4⟩ :=
      ih (done ++ [(key, value)]) h3 (m ++ [(key, h.cells.length + 1)])
        (fun e he => hN e (List.mem_cons_of_mem _ he)) (by simpa using hnd) hext3
        (by omega) hpD3 (by simp [hkeys]) hall3' f (by omega)
    refine ⟨h4, m4, ?_, by omega, ?_, hpD4, by simpa using hkeys4, by simpa using hall4⟩
    · rw [copyEntries_cons]
      simp only [e1, e2]
      rw [hf2] at e4 ⊢
      simp only [e3]
      exact e4
    · intro q hq hne
      rw [hframe4 q (by omega) hne, hframe q hq hne]

/-- The loop of `SXSet::copy` over members that can be copied. -/
theorem copyMembers_total (strict : Bool) (h0 : Heap) (N0 : Nat) (pSet : Nat)
    (hp0 : h0.cells.length < pSet) :
    ∀ (rest done : List Nat) (h : Heap) (xs : List Nat),
      (∀ x, x ∈ rest → ∀ fuel, N0 ≤ fuel → CopiesWith strict h0 x fuel) →
      h0.Extends h → pSet ≤ h.cells.length →
      h.read pSet = some ⟨1, .set xs⟩ →
      CopiedAll strict h h0.cells.length pSet xs done →
      ∀ fuel, N0 + rest.length + 2 ≤ fuel →
      ∃ h2 xs2, copyMembers fuel h pSet rest = .ok h2 ∧
        h.cells.length ≤ h2.cells.length ∧
        (∀ q, q ≤ h.cells.length → q ≠ pSet → h2.read q = h.read q) ∧
        h2.read pSet = some ⟨1, .set xs2⟩ ∧
        CopiedAll strict h2 h0.cells.length pSet xs2 (done ++ rest) := by
  intro rest
  induction rest with
  | nil =>
    intro done h xs _ hext hple hpS hall fuel hf
    obtain ⟨f, rfl⟩ : ∃ f, fuel = f + 1 := ⟨fuel - 1, by omega⟩
    exact ⟨h, xs, copyMembers_nil f h pSet, le_refl _, fun _ _ _ => rfl, hpS, by simpa using hall⟩
  | cons x rest ih =>
    intro done h xs hN hext hple hpS hall fuel hf
    simp only [List.length_cons] at hf
    obtain ⟨f, rfl⟩ : ∃ f, fuel = f + 1 := ⟨fuel - 1, by omega⟩
    obtain ⟨f2, hf2⟩ : ∃ f2, f = f2 + 1 := ⟨f - 1, by omega⟩
    obtain ⟨h1, e1, hext1, hcp⟩ := hN x (List.mem_cons_self _ _) f (by omega) h hext
    obtain ⟨_, _, cb, htmp⟩ := hcp.read_copy
    have hpS1 : h1.read pSet = some ⟨1, .set xs⟩ := hext1.read_live hpS
    have hk : h.cells.length + 1 ∉ xs := by
      intro hmem
      have := hall.2.2.1 _ hmem
      omega
    obtain ⟨h2, h3, e2, e3, hothers, hlen, hpS3⟩ :=
      SXSet.set_addObject_release f2 h1 pSet (h.cells.length + 1) xs cb hpS1 htmp (by omega) hk
    obtain ⟨hext3, hall3, hframe, hle3⟩ :=
      CopiedAll.step hext hext1 hcp hp0 hple hothers hlen hall
    obtain ⟨h4, xs4, e4, hle4, hframe4, hpS4, hall4⟩ :=
      ih (done ++ [x]) h3 (xs ++ [h.cells.length + 1])
        (fun y hy => hN y (List.mem_cons_of_mem _ hy)) hext3 (by omega) hpS3 hall3 f (by omega)
    refine ⟨h4, xs4, ?_, by omega, ?_, hpS4, by simpa using hall4⟩
    · rw [copyMembers_cons]
      simp only [e1]
      rw [hf2] at e4 ⊢
      simp only [e2, e3]
      exact e4
    · intro q hq hne
      rw [hframe4 q (by omega) hne, hframe q hq hne]

end SXObject


theorem getD_mem_take (l : List Nat) (n i : Nat) (hi : i < n) (hn : n ≤ l.length) :
    l.getD i 0 ∈ l.take n := by
  have hlt : i < (l.take n).length := by simp; omega
  have : (l.take n).getD i 0 ∈ l.take n := by
    rw [List.getD_eq_getElem _ _ hlt]
    exact List.getElem_mem _
  rwa [getD_take l n i hi] at this

theorem Heap.Extends.of_alloc (h : Heap) (c : Cell) : h.Extends (h.alloc c).1 := by
  refine ⟨by simp, ?_⟩
  intro q hq
  rw [Heap.read_alloc, if_neg (by omega)]

/-- A new container whose children are deep copies of the children of `v` is
a deep copy of `v`. -/
theorem Copied.of_children {strict : Bool} {h0 h h2 : Heap} {v rc : Nat} {vb cb : Body}
    (hext0 : h0.Extends h) (hext : h.Extends h2) (hv0 : h0.read v = some ⟨rc, vb⟩)
    (hc : h2.read (h.cells.length + 1) = some ⟨1, cb⟩)
    (hcopyable : vb.copyable strict) (hof : vb.copyOf cb)
    (hall : CopiedAll strict h2 h0.cells.length (h.cells.length + 1) cb.children vb.children) :
    Copied strict h2 h0.cells.length h.cells.length (h.cells.length + 1) v := by
  refine Copied.node _ v rc vb cb (Heap.le_of_read hv0) (by omega)
    (hext.read_live (hext0.read_live hv0)) hc hcopyable hof hall.1 hall.2.1 ?_
  intro i hi
  exact (hall.2.2.2 i hi).widen _ _ (le_refl _) (by omega)

namespace SXObject

/-- On a copyable value, `copy()` returns, with enough fuel, a deep copy at a
new address. -/
theorem copy_total (strict : Bool) (h0 : Heap) (v : Nat) (hv : Copyable strict h0 v) :
    ∃ N, ∀ fuel, N ≤ fuel → CopiesWith strict h0 v fuel := by
  induction hv with
  | node v rc body hr hcopy _ ih =>
    obtain ⟨N0, hN0⟩ := uniform_bound_mem body.children (CopiesWith strict h0) ih
    refine ⟨N0 + body.children.length + 4, ?_⟩
    intro fuel hf h hext
    obtain ⟨f, rfl⟩ : ∃ f, fuel = f + 1 := ⟨fuel - 1, by omega⟩
    have hrv := hext.read_live hr
    cases body with
    | object => exact absurd hcopy (by simp [Body.copyable])
    | pool p => exact absurd hcopy (by simp [Body.copyable])
    | string s =>
      refine ⟨(h.alloc ⟨1, .string (cstr s)⟩).1, ?_, Heap.Extends.of_alloc _ _, ?_⟩
      · simp [copy, hrv, SXString.new, Heap.alloc]
      · have hc : (h.alloc ⟨1, .string (cstr s)⟩).1.read (h.cells.length + 1) =
            some ⟨1, .string (cstr s)⟩ := by simp [Heap.read_alloc]
        refine Copied.of_children hext (Heap.Extends.of_alloc _ _) hr hc hcopy
          (by simp [Body.copyOf]) ?_
        exact CopiedAll.empty _ _ _ _
    | number t val =>
      refine ⟨(h.alloc ⟨1, .number t val⟩).1, ?_, Heap.Extends.of_alloc _ _, ?_⟩
      · simp [copy, hrv, SXNumber.new, Heap.alloc]
      · have hc : (h.alloc ⟨1, .number t val⟩).1.read (h.cells.length + 1) =
            some ⟨1, .number t val⟩ := by simp [Heap.read_alloc]
        refine Copied.of_children hext (Heap.Extends.of_alloc _ _) hr hc hcopy
          (by simp [Body.copyOf]) ?_
        exact CopiedAll.empty _ _ _ _
    | data bytes =>
      obtain ⟨a1, a2, a3⟩ := alloc_new_cell h ⟨1, .data []⟩
      have hva := Heap.valid_of_read a1
      have hext2 : h.Extends ((h.alloc ⟨1, .data []⟩).1.write (h.cells.length + 1)
          ⟨1, .data bytes⟩) := by
        refine ⟨by simp, ?_⟩
        intro q hq
        rw [Heap.read_write, if_neg (by omega), a2 q (by omega)]
      refine ⟨(h.alloc ⟨1, .data []⟩).1.write (h.cells.length + 1) ⟨1, .data bytes⟩, ?_, hext2, ?_⟩
      · simp only [copy, hrv, SXData.new, SXData.initWithData, Heap.alloc_snd, a1]
      · have hc : ((h.alloc ⟨1, .data []⟩).1.write (h.cells.length + 1) ⟨1, .data bytes⟩).read
            (h.cells.length + 1) = some ⟨1, .data bytes⟩ := by simp [Heap.read_write, hva]
        refine Copied.of_children hext hext2 hr hc hcopy (by simp [Body.copyOf]) ?_
        exact CopiedAll.empty _ _ _ _
    | array cap n arr =>
      obtain ⟨hlen, hncap⟩ := hcopy
      have hnl : n ≤ arr.length := by omega
      have hcl : (Body.array cap n arr).children.length = n := by
        simp [Body.children]; omega
      rw [hcl] at hf
      obtain ⟨h1, e1, e2, a1, a2, l1, _⟩ := initWithCapacity_new h cap
      have hext1 : h.Extends h1 := by
        refine ⟨by omega, ?_⟩
        intro q hq
        exact a2 q (by omega)
      have hpA : h1.read (h.cells.length + 1) = some ⟨1, .array
          (([] : List Nat).length + (List.replicate cap 0).length) ([] : List Nat).length
          ([] ++ List.replicate cap 0)⟩ := by
        rw [a1]; simp
      have hN : ∀ i, i < n → ∀ fuel, N0 ≤ fuel → CopiesWith strict h0 (arr.getD i 0) fuel :=
        fun i hi => hN0 _ (getD_mem_take arr n i hi hnl)
      obtain ⟨h2, cs2, junk2, e3, hle, hframe, hpA2, hall⟩ :=
        copyFrom_total strict h0 v rc cap n arr hr hnl N0 hN (h.cells.length + 1)
          (by have := hext.1; omega) n 0 (by omega) h1 [] (List.replicate cap 0)
          (hext.extends_trans hext1) (by omega) hpA (by simpa using CopiedAll.empty _ _ _ _)
          f (by omega)
      have hext2 : h.Extends h2 := by
        refine ⟨by omega, ?_⟩
        intro q hq
        rw [hframe q (by omega) (by omega), a2 q (by omega)]
      refine ⟨h2, ?_, hext2, ?_⟩
      · simp only [copy, hrv]
        rw [e1]
        simp only [e3, e2]
      · refine Copied.of_children hext hext2 hr hpA2 ⟨hlen, hncap⟩ ?_ ?_
        · have := hall.1
          simp at this
          simp only [Body.copyOf]
          omega
        · simpa [Body.children, take_length_append] using hall
    | dictionary m =>
      have hcopy2 := hcopy
      obtain ⟨_, hnd⟩ := hcopy
      have hcl : (Body.dictionary m).children.length = m.length := by simp [Body.children]
      rw [hcl] at hf
      obtain ⟨a1, a2, a3⟩ := alloc_new_cell h ⟨1, .dictionary []⟩
      have hext1 := Heap.Extends.of_alloc h ⟨1, .dictionary []⟩
      have hN : ∀ e, e ∈ m → ∀ fuel, N0 ≤ fuel → CopiesWith strict h0 e.2 fuel := by
        intro e he
        exact hN0 _ (by simp only [Body.children]; exact List.mem_map_of_mem Prod.snd he)
      obtain ⟨h2, m2, e3, hle, hframe, hpD2, hkeys, hall⟩ :=
        copyEntries_total strict h0 N0 (h.cells.length + 1) (by have := hext.1; omega) m []
          (h.alloc ⟨1, .dictionary []⟩).1 [] hN (by simpa using hnd) (hext.extends_trans hext1)
          (by simp) a1 rfl (by simpa using CopiedAll.empty _ _ _ _) f (by omega)
      have hext2 : h.Extends h2 := by
        refine ⟨by simp at hle; omega, ?_⟩
        intro q hq
        rw [hframe q (by simp; omega) (by omega), a2 q (by omega)]
      refine ⟨h2, ?_, hext2, ?_⟩
      · simp only [copy, hrv, SXDictionary.new, Heap.alloc_snd]
        simp only [e3]
      · refine Copied.of_children hext hext2 hr hpD2 hcopy2 ?_ ?_
        · simpa [Body.copyOf] using hkeys
        · simpa [Body.children] using hall
    | set xs =>
      have hcl : (Body.set xs).children.length = xs.length := by simp [Body.children]
      rw [hcl] at hf
      obtain ⟨a1, a2, a3⟩ := alloc_new_cell h ⟨1, .set []⟩
      have hext1 := Heap.Extends.of_alloc h ⟨1, .set []⟩
      have hN : ∀ x, x ∈ xs → ∀ fuel, N0 ≤ fuel → CopiesWith strict h0 x fuel :=
        fun x hx => hN0 _ (by simpa [Body.children] using hx)
      obtain ⟨h2, xs2, e3, hle, hframe, hpS2, hall⟩ :=
        copyMembers_total strict h0 N0 (h.cells.length + 1) (by have := hext.1; omega) xs []
          (h.alloc ⟨1, .set []⟩).1 [] hN (hext.extends_trans hext1)
          (by simp) a1 (CopiedAll.empty _ _ _ _) f (by omega)
      have hext2 : h.Extends h2 := by
        refine ⟨by simp at hle; omega, ?_⟩
        intro q hq
        rw [hframe q (by simp; omega) (by omega), a2 q (by omega)]
      refine ⟨h2, ?_, hext2, ?_⟩
      · simp only [copy, hrv, SXSet.new, Heap.alloc_snd]
        simp only [e3]
      · refine Copied.of_children hext hext2 hr hpS2 hcopy trivial ?_
        simpa [Body.children] using hall

end SXObject


namespace SXObject

theorem isEqualFrom_succ (fuel : Nat) (h : Heap) (this pOtherArray i : Nat) :
    isEqualFrom (fuel + 1) h this pOtherArray i =
      match SXArray.count h this with
      | .ok m_count =>
        if i < m_count then
          match SXArray.objectAtIndex h this i, SXArray.objectAtIndex h pOtherArray i with
          | .ok x, .ok y =>
            match isEqual fuel h x y with
            | .ok true => isEqualFrom fuel h this pOtherArray (i + 1)
            | .ok false => .ok false
            | .undefined => .undefined
            | .outOfFuel => .outOfFuel
          | .outOfFuel, _ => .outOfFuel
          | _, .outOfFuel => .outOfFuel
          | _, _ => .undefined
        else .ok true
      | .undefined => .undefined
      | .outOfFuel => .outOfFuel := rfl

/-- The loop of `SXArray::isEqual` on two arrays of the same count whose
elements are equal index by index. -/
theorem isEqualFrom_total (h : Heap) (c v rcC rcV capC capV n : Nat) (arrC arrV : List Nat)
    (hc : h.read c = some ⟨rcC, .array capC n arrC⟩)
    (hv : h.read v = some ⟨rcV, .array capV n arrV⟩) (N0 : Nat)
    (hN : ∀ i, i < n → ∀ fuel, N0 ≤ fuel →
      isEqual fuel h (arrC.getD i 0) (arrV.getD i 0) = .ok true) :
    ∀ k i, i + k = n → ∀ fuel, N0 + k + 1 ≤ fuel → isEqualFrom fuel h c v i = .ok true := by
  intro k
  induction k with
  | zero =>
    intro i hik fuel hf
    obtain ⟨f, rfl⟩ : ∃ f, fuel = f + 1 := ⟨fuel - 1, by omega⟩
    have : ¬ i < n := by omega
    rw [isEqualFrom_succ]
    simp [SXArray.count, hc, this]
  | succ k ih =>
    intro i hik fuel hf
    obtain ⟨f, rfl⟩ : ∃ f, fuel = f + 1 := ⟨fuel - 1, by omega⟩
    have hin : i < n := by omega
    rw [isEqualFrom_succ]
    simp only [SXArray.count, SXArray.objectAtIndex, hc, hv, hin, if_true,
      hN i hin f (by omega)]
    exact ih (i + 1) (by omega) f (by omega)

/-- A deep copy of a string, a number or an array of such values is equal to
the original: `c.isEqual(v)` returns true. -/
theorem isEqual_copied (h : Heap) (vhi clo c v : Nat) (hc : Copied true h vhi clo c v) :
    ∃ N, ∀ fuel, N ≤ fuel → isEqual fuel h c v = .ok true := by
  induction hc with
  | node c v rc vb cb a1 a2 a3 a4 a5 a6 a7 a8 _ ih =>
    obtain ⟨N0, hN0⟩ := uniform_bound vb.children.length
      (fun i fuel => isEqual fuel h (cb.children.getD i 0) (vb.children.getD i 0) = .ok true) ih
    have hv0 : v ≠ 0 := (Heap.valid_of_read a3).1
    refine ⟨N0 + vb.children.length + 2, ?_⟩
    intro fuel hf
    obtain ⟨f, rfl⟩ : ∃ f, fuel = f + 1 := ⟨fuel - 1, by omega⟩
    cases vb with
    | object => exact absurd a5 (by simp [Body.copyable])
    | pool p => exact absurd a5 (by simp [Body.copyable])
    | data b => exact absurd a5 (by simp [Body.copyable])
    | dictionary m => exact absurd a5 (by simp [Body.copyable])
    | set xs => exact absurd a5 (by simp [Body.copyable])
    | string s =>
      cases cb <;> simp [Body.copyOf] at a6
      subst a6
      simp [isEqual, a4, a3, hv0]
    | number t val =>
      cases cb <;> simp [Body.copyOf] at a6
      obtain ⟨rfl, rfl⟩ := a6
      simp [isEqual, a4, a3, hv0]
    | array cap n arr =>
      cases cb with
      | array cap2 n2 arr2 =>
        simp only [Body.copyOf] at a6
        subst a6
        obtain ⟨hlen, hncap⟩ := a5
        have hcl : (Body.array cap n2 arr).children.length = n2 := by
          simp [Body.children]; omega
        rw [hcl] at hf hN0
        have hN : ∀ i, i < n2 → ∀ fuel, N0 ≤ fuel →
            isEqual fuel h (arr2.getD i 0) (arr.getD i 0) = .ok true := by
          intro i hi fuel hfl
          have := hN0 i hi fuel hfl
          simp only [Body.children] at this
          rwa [getD_take _ _ _ hi, getD_take _ _ _ hi] at this
        have e := isEqualFrom_total h c v 1 rc cap2 cap n2 arr2 arr a4 a3 N0 hN n2 0 (by omega)
          f (by omega)
        simp [isEqual, a4, a3, hv0, e]
      | object => simp [Body.copyOf] at a6
      | pool p => simp [Body.copyOf] at a6
      | string s => simp [Body.copyOf] at a6
      | number t val => simp [Body.copyOf] at a6
      | data b => simp [Body.copyOf] at a6
      | dictionary m => simp [Body.copyOf] at a6
      | set xs => simp [Body.copyOf] at a6

end SXObject


theorem mem_take_getD (l : List Nat) (n x : Nat) (hx : x ∈ l.take n) :
    ∃ i, i < n ∧ x = l.getD i 0 := by
  obtain ⟨i, hi, hxi⟩ := List.getElem_of_mem hx
  have hin : i < n := by simp at hi; omega
  refine ⟨i, hin, ?_⟩
  rw [← getD_take l n i hin, List.getD_eq_getElem _ _ hi, hxi]

theorem valuesHeap_string (strict : Bool) : Copyable strict valuesHeap 2 :=
  Copyable.node 2 1 (.string ['a', 'b']) rfl trivial (fun x hx => by simp [Body.children] at hx)

theorem valuesHeap_number (strict : Bool) : Copyable strict valuesHeap 3 :=
  Copyable.node 3 2 (.number .int 5) rfl trivial (fun x hx => by simp [Body.children] at hx)

theorem valuesHeap_inner (strict : Bool) : Copyable strict valuesHeap 4 := by
  refine Copyable.node 4 1 (.array 10 1 [2, 0, 0, 0, 0, 0, 0, 0, 0, 0]) rfl
    ⟨rfl, by decide⟩ ?_
  intro x hx
  simp [Body.children] at hx
  subst hx
  exact valuesHeap_string strict

theorem valuesHeap_array (strict : Bool) : Copyable strict valuesHeap 1 := by
  refine Copyable.node 1 1 (.array 10 3 [2, 3, 4, 0, 0, 0, 0, 0, 0, 0]) rfl
    ⟨rfl, by decide⟩ ?_
  intro x hx
  simp [Body.children] at hx
  rcases hx with rfl | rfl | rfl
  · exact valuesHeap_string strict
  · exact valuesHeap_number strict
  · exact valuesHeap_inner strict

theorem valuesHeap_dictionary : Copyable false valuesHeap 7 := by
  refine Copyable.node 7 1 (.dictionary [(['k'], 2), (['l'], 3)]) rfl ⟨rfl, by decide⟩ ?_
  intro x hx
  simp [Body.children] at hx
  rcases hx with rfl | rfl
  · exact valuesHeap_string false
  · exact valuesHeap_number false

namespace SXObject

/-- C21: for every string, every number of an integer type and every array
whose elements are (recursively) such values, `copy()` returns, with enough
fuel, a new instance `c`, at an address that held nothing before and so
distinct from `v`, and `c.isEqual(v)` returns, with enough fuel, true. -/
theorem copy_isEqual_round_trip (h : Heap) (v : Nat) (hv : Copyable true h v) :
    ∃ N, ∀ fuel, N ≤ fuel →
      ∃ h2 c, copy fuel h v = .ok (h2, c) ∧ c ≠ v ∧ h.read c = none ∧ h2.alive c = true ∧
        ∃ M, ∀ fuel2, M ≤ fuel2 → isEqual fuel2 h2 c v = .ok true := by
  obtain ⟨N1, h1⟩ := copy_total true h v hv
  refine ⟨N1, ?_⟩
  intro fuel hf
  obtain ⟨h2, e, _, hcp⟩ := h1 fuel hf h (Heap.Extends.extends_self h)
  obtain ⟨_, hvle, cb, hrc⟩ := hcp.read_copy
  refine ⟨h2, _, e, by omega, Heap.read_beyond h _ (by omega), ?_, isEqual_copied h2 _ _ _ _ hcp⟩
  simp [Heap.alive, hrc]

/-- Instance of `copy_isEqual_round_trip`: the array at address 1 of
`valuesHeap`, which holds a string, a number and an array with the string. -/
theorem copy_isEqual_round_trip_witness :
    Copyable true valuesHeap 1 ∧
    ∃ N, ∀ fuel, N ≤ fuel →
      ∃ h2 c, copy fuel valuesHeap 1 = .ok (h2, c) ∧ c ≠ 1 ∧ valuesHeap.read c = none ∧
        h2.alive c = true ∧ ∃ M, ∀ fuel2, M ≤ fuel2 → isEqual fuel2 h2 c 1 = .ok true :=
  ⟨valuesHeap_array true, copy_isEqual_round_trip valuesHeap 1 (valuesHeap_array true)⟩

/-- C23: for every well-formed array `a` whose elements are copyable values,
`copy()` returns, with enough fuel, a new array `c` with `retainCount() == 1`
and the count of `a`; the element of `c` at each index is a new object,
distinct from the element of `a` at that index, with `retainCount() == 1`,
held by `c` at that index only; and every object that existed before, `a` and
its elements included, is unchanged, reference counts included. -/
theorem array_copy_is_deep (h : Heap) (a rc cap n : Nat) (arr : List Nat)
    (ha : h.read a = some ⟨rc, .array cap n arr⟩) (hwf : arr.length = cap ∧ n ≤ cap)
    (hel : ∀ i, i < n → Copyable false h (arr.getD i 0)) :
    ∃ N, ∀ fuel, N ≤ fuel →
      ∃ h2 c, copy fuel h a = .ok (h2, c) ∧ h.read c = none ∧
        retainCount h2 c = .ok 1 ∧ SXArray.count h2 c = .ok n ∧
        (∀ i, i < n → ∃ e, SXArray.objectAtIndex h2 c i = .ok e ∧ e ≠ arr.getD i 0 ∧
          h.read e = none ∧ retainCount h2 e = .ok 1 ∧
          ∀ j, j < n → j ≠ i → SXArray.objectAtIndex h2 c j ≠ .ok e) ∧
        (∀ q, q ≤ h.cells.length → h2.read q = h.read q) ∧
        h2.read a = h.read a ∧
        (∀ i, i < n → retainCount h2 (arr.getD i 0) = retainCount h (arr.getD i 0)) := by
  have hv : Copyable false h a := by
    refine Copyable.node a rc _ ha hwf ?_
    intro x hx
    obtain ⟨i, hi, rfl⟩ := mem_take_getD arr n x hx
    exact hel i hi
  obtain ⟨N1, h1⟩ := copy_total false h a hv
  refine ⟨N1, ?_⟩
  intro fuel hf
  obtain ⟨h2, e, hext, hcp⟩ := h1 fuel hf h (Heap.Extends.extends_self h)
  have ha2 : h2.read a = h.read a := hext.2 a (Heap.le_of_read ha)
  refine ⟨h2, _, e, Heap.read_beyond h _ (by omega), ?_⟩
  cases hcp with
  | node c v rc2 vb cb a1 a2 a3 a4 a5 a6 a7 a8 a9 =>
    rw [ha2, ha] at a3
    cases a3
    cases cb <;> simp [Body.copyOf] at a6
    rename_i cap2 n2 arr2
    subst a6
    have hcl : (Body.array cap n2 arr).children.length = n2 := by
      simp [Body.children]; omega
    rw [hcl] at a7 a9
    have helts : ∀ i, i < n2 → ∃ cbi,
        h.cells.length < arr2.getD i 0 ∧ arr.getD i 0 ≤ h.cells.length ∧
        h2.read (arr2.getD i 0) = some ⟨1, cbi⟩ := by
      intro i hi
      have h9 := a9 i hi
      simp only [Body.children] at h9
      rw [getD_take _ _ _ hi, getD_take _ _ _ hi] at h9
      obtain ⟨b1, b2, cbi, b3⟩ := h9.read_copy
      exact ⟨cbi, b1, b2, b3⟩
    refine ⟨by simp [retainCount, a4], by simp [SXArray.count, a4], ?_, hext.2, ha2, ?_⟩
    · intro i hi
      obtain ⟨cbi, b1, b2, b3⟩ := helts i hi
      refine ⟨arr2.getD i 0, by simp [SXArray.objectAtIndex, a4, hi], by omega,
        Heap.read_beyond h _ b1, by simp only [retainCount, b3], ?_⟩
      intro j hj hji
      simp only [SXArray.objectAtIndex, a4, hj, if_true]
      intro heq
      have heq2 : arr2.getD j 0 = arr2.getD i 0 := by simpa using heq
      have hlen : (Body.array cap2 n2 arr2).children.length = n2 := a7
      have hjl : j < (arr2.take n2).length := by
        simp only [Body.children] at hlen; omega
      have hil : i < (arr2.take n2).length := by
        simp only [Body.children] at hlen; omega
      have hnd : (arr2.take n2).Nodup := a8
      rw [← getD_take arr2 n2 j hj, ← getD_take arr2 n2 i hi,
        List.getD_eq_getElem _ _ hjl, List.getD_eq_getElem _ _ hil] at heq2
      exact hji ((List.Nodup.getElem_inj_iff hnd).1 heq2)
    · intro i hi
      obtain ⟨cbi, b1, b2, b3⟩ := helts i hi
      simp only [retainCount]
      rw [hext.2 _ b2]

/-- Instance of `array_copy_is_deep`: the array at address 1 of `valuesHeap`. -/
theorem array_copy_is_deep_witness :
    valuesHeap.read 1 = some ⟨1, .array 10 3 [2, 3, 4, 0, 0, 0, 0, 0, 0, 0]⟩ ∧
    ([2, 3, 4, 0, 0, 0, 0, 0, 0, 0].length = 10 ∧ 3 ≤ 10) ∧
    (∀ i, i < 3 → Copyable false valuesHeap ([2, 3, 4, 0, 0, 0, 0, 0, 0, 0].getD i 0)) ∧
    ∃ N, ∀ fuel, N ≤ fuel →
      ∃ h2 c, copy fuel valuesHeap 1 = .ok (h2, c) ∧ valuesHeap.read c = none ∧
        retainCount h2 c = .ok 1 ∧ SXArray.count h2 c = .ok 3 ∧
        (∀ i, i < 3 → ∃ e, SXArray.objectAtIndex h2 c i = .ok e ∧
          e ≠ [2, 3, 4, 0, 0, 0, 0, 0, 0, 0].getD i 0 ∧
          valuesHeap.read e = none ∧ retainCount h2 e = .ok 1 ∧
          ∀ j, j < 3 → j ≠ i → SXArray.objectAtIndex h2 c j ≠ .ok e) ∧
        (∀ q, q ≤ valuesHeap.cells.length → h2.read q = valuesHeap.read q) ∧
        h2.read 1 = valuesHeap.read 1 ∧
        (∀ i, i < 3 → retainCount h2 ([2, 3, 4, 0, 0, 0, 0, 0, 0, 0].getD i 0) =
          retainCount valuesHeap ([2, 3, 4, 0, 0, 0, 0, 0, 0, 0].getD i 0)) :=
  have hel : ∀ i, i < 3 → Copyable false valuesHeap ([2, 3, 4, 0, 0, 0, 0, 0, 0, 0].getD i 0) := by
    intro i hi
    interval_cases i
    · exact valuesHeap_string false
    · exact valuesHeap_number false
    · exact valuesHeap_inner false
  ⟨rfl, ⟨rfl, by decide⟩, hel,
    array_copy_is_deep valuesHeap 1 1 10 3 [2, 3, 4, 0, 0, 0, 0, 0, 0, 0] rfl ⟨rfl, by decide⟩ hel⟩

end SXObject


namespace SXObject

/-- C22, counterexample: the copies of the dictionary (address 7), the set
(address 8) and the data object (address 9) of `valuesHeap` are not equal to
their originals: `copy().isEqual(v)` returns false for each of them. -/
theorem container_copy_not_equal :
    (∃ h2 c, copy 4 valuesHeap 7 = .ok (h2, c) ∧ isEqual 4 h2 c 7 = .ok false) ∧
    (∃ h2 c, copy 4 valuesHeap 8 = .ok (h2, c) ∧ isEqual 4 h2 c 8 = .ok false) ∧
    (∃ h2 c, copy 4 valuesHeap 9 = .ok (h2, c) ∧ isEqual 4 h2 c 9 = .ok false) :=
  ⟨⟨_, _, rfl, rfl⟩, ⟨_, _, rfl, rfl⟩, ⟨_, _, rfl, rfl⟩⟩

theorem Body.copyOf_overrides {vb cb : Body} (h : vb.copyOf cb) :
    cb.overridesIsEqual = vb.overridesIsEqual := by
  cases vb <;> cases cb <;> simp [Body.copyOf] at h <;> rfl

/-- C22, amended: for every dictionary (with pairwise distinct keys), set and
data object `v` whose stored objects are copyable values, `copy()` returns,
with enough fuel, a new instance `c` with count 1 that carries the contents of
`v`: the same bytes, the same keys, and as many stored objects, pairwise
distinct, the one at each position a deep copy (at a new address) of the stored
object of `v` at that position. But `isEqual` is the inherited identity
comparison: `c.isEqual(v)` and `v.isEqual(c)` are false, and only
`c.isEqual(c)` is true. -/
theorem container_copy_compares_by_identity (h : Heap) (v rc : Nat) (body : Body)
    (hr : h.read v = some ⟨rc, body⟩) (hb : body.overridesIsEqual = false)
    (hv : Copyable false h v) :
    ∃ N, ∀ fuel, N ≤ fuel →
      ∃ h2 c cb, copy fuel h v = .ok (h2, c) ∧ c ≠ v ∧ h.read c = none ∧
        h2.read c = some ⟨1, cb⟩ ∧ body.copyOf cb ∧
        cb.children.length = body.children.length ∧ cb.children.Nodup ∧
        (∀ i, i < body.children.length →
          h.read (cb.children.getD i 0) = none ∧
          Copied false h2 h.cells.length h.cells.length (cb.children.getD i 0)
            (body.children.getD i 0)) ∧
        isEqual (fuel + 1) h2 c v = .ok false ∧
        isEqual (fuel + 1) h2 v c = .ok false ∧
        isEqual (fuel + 1) h2 c c = .ok true := by
  obtain ⟨N1, h1⟩ := copy_total false h v hv
  refine ⟨N1, ?_⟩
  intro fuel hf
  obtain ⟨h2, e, hext, hcp⟩ := h1 fuel hf h (Heap.Extends.extends_self h)
  have hr2 : h2.read v = some ⟨rc, body⟩ := hext.read_live hr
  have hvle := Heap.le_of_read hr
  cases hcp with
  | node c v2 rc2 vb cb a1 a2 a3 a4 a5 a6 a7 a8 a9 =>
    rw [hr2] at a3
    cases a3
    have hcb : cb.overridesIsEqual = false := by rw [Body.copyOf_overrides a6]; exact hb
    have hne : h.cells.length + 1 ≠ v := by omega
    refine ⟨h2, _, cb, e, hne, Heap.read_beyond h _ (by omega), a4, a6, a7, a8, ?_, ?_, ?_, ?_⟩
    · intro i hi
      refine ⟨?_, a9 i hi⟩
      cases a9 i hi with
      | node c3 v3 rc3 vb3 cb3 b1 b2 b3 b4 b5 b6 b7 b8 b9 =>
        exact Heap.read_beyond h _ b2
    · rw [isEqual_default fuel h2 _ v 1 cb a4 hcb]
      simp [hne]
    · rw [isEqual_default fuel h2 v _ rc body hr2 hb]
      simp [Ne.symm hne]
    · rw [isEqual_default fuel h2 _ _ 1 cb a4 hcb]
      simp

/-- Instance of `container_copy_compares_by_identity`: the dictionary at
address 7 of `valuesHeap`. -/
theorem container_copy_compares_by_identity_witness :
    valuesHeap.read 7 = some ⟨1, .dictionary [(['k'], 2), (['l'], 3)]⟩ ∧
    (Body.dictionary [(['k'], 2), (['l'], 3)]).overridesIsEqual = false ∧
    Copyable false valuesHeap 7 ∧
    ∃ N, ∀ fuel, N ≤ fuel →
      ∃ h2 c cb, copy fuel valuesHeap 7 = .ok (h2, c) ∧ c ≠ 7 ∧ valuesHeap.read c = none ∧
        h2.read c = some ⟨1, cb⟩ ∧ (Body.dictionary [(['k'], 2), (['l'], 3)]).copyOf cb ∧
        cb.children.length = (Body.dictionary [(['k'], 2), (['l'], 3)]).children.length ∧
        cb.children.Nodup ∧
        (∀ i, i < (Body.dictionary [(['k'], 2), (['l'], 3)]).children.length →
          valuesHeap.read (cb.children.getD i 0) = none ∧
          Copied false h2 valuesHeap.cells.length valuesHeap.cells.length
            (cb.children.getD i 0)
            ((Body.dictionary [(['k'], 2), (['l'], 3)]).children.getD i 0)) ∧
        isEqual (fuel + 1) h2 c 7 = .ok false ∧
        isEqual (fuel + 1) h2 7 c = .ok false ∧
        isEqual (fuel + 1) h2 c c = .ok true :=
  ⟨rfl, rfl, valuesHeap_dictionary,
    container_copy_compares_by_identity valuesHeap 7 1 _ rfl rfl valuesHeap_dictionary⟩

end SXObject


/-! ## SXSet -/

namespace SXSet

theorem addObject_member (h : Heap) (this o rc : Nat) (xs : List Nat)
    (hs : h.read this = some ⟨rc, .set xs⟩) (hm : o ∈ xs) : addObject h this o = .ok h := by
  simp [addObject, containsObject, hs, hm, Outcome.bind]

theorem addObjectTimes_member (h : Heap) (this o rc : Nat) (xs : List Nat)
    (hs : h.read this = some ⟨rc, .set xs⟩) (hm : o ∈ xs) (n : Nat) :
    addObjectTimes n h this o = .ok h := by
  induction n with
  | zero => rfl
  | succ n ih => simp [addObjectTimes, addObject_member h this o rc xs hs hm, Outcome.bind, ih]

/-- C33: `addObject(o)` on a set of which `o` is a member changes nothing;
when `o` is not a member it adds `o`, which raises `count()` and the reference
count of `o` by exactly 1 and touches no other object; so any number `n >= 1`
of `addObject(o)` calls in a row leaves the state of the first one: the set
retains a member once however often it is added. -/
theorem set_addObject_distinct (h : Heap) (this o rc c : Nat) (xs : List Nat) (body : Body)
    (hs : h.read this = some ⟨rc, .set xs⟩) (ho : h.read o = some ⟨c, body⟩)
    (hne : o ≠ this) (hc : c < UINT_MAX) :
    (o ∈ xs → addObject h this o = .ok h) ∧
    (o ∉ xs → ∃ h2, addObject h this o = .ok h2 ∧
      count h2 this = .ok (xs.length + 1) ∧ containsObject h2 this o = .ok true ∧
      SXObject.retainCount h2 o = .ok (c + 1) ∧
      h2.read this = some ⟨rc, .set (xs ++ [o])⟩ ∧
      (∀ q, q ≠ this → q ≠ o → h2.read q = h.read q) ∧
      ∀ n, addObjectTimes (n + 1) h this o = .ok h2) := by
  refine ⟨addObject_member h this o rc xs hs, ?_⟩
  intro hn
  have hvS := Heap.valid_of_read hs
  have hvO := Heap.valid_of_read ho
  have hne2 : this ≠ o := fun e => hne e.symm
  obtain ⟨hb, hbdef⟩ : ∃ hb, hb = h.write o ⟨c + 1, body⟩ := ⟨_, rfl⟩
  have e2 : SXObject.retain h o = .ok hb := by
    simp [SXObject.retain, ho, wrap_succ c hc, hbdef]
  have rbS : hb.read this = some ⟨rc, .set xs⟩ := by
    rw [hbdef]; simp [Heap.read_write, hne2, hs]
  obtain ⟨hc2, hcdef⟩ : ∃ hc2, hc2 = hb.write this ⟨rc, .set (xs ++ [o])⟩ := ⟨_, rfl⟩
  have e3 : addObject h this o = .ok hc2 := by
    simp [addObject, containsObject, hs, hn, e2, Outcome.bind, rbS, hcdef]
  have hvbS : hb.valid this := Heap.valid_of_read rbS
  have rS : hc2.read this = some ⟨rc, .set (xs ++ [o])⟩ := by
    rw [hcdef]; simp [Heap.read_write, hvbS]
  have rO : hc2.read o = some ⟨c + 1, body⟩ := by
    rw [hcdef, hbdef]; simp [Heap.read_write, hne, hvO]
  refine ⟨hc2, e3, by simp [count, rS], by simp [containsObject, rS],
    by simp [SXObject.retainCount, rO], rS, ?_, ?_⟩
  · intro q hq1 hq2
    rw [hcdef, hbdef]; simp [Heap.read_write, hq1, hq2]
  · intro n
    simp only [addObjectTimes, e3, Outcome.bind]
    exact addObjectTimes_member hc2 this o rc (xs ++ [o]) rS (by simp) n

/-- Instance of `set_addObject_distinct`: the set at address 1 of `setHeap` and
object 3, which is not a member. -/
theorem set_addObject_distinct_witness :
    setHeap.read 1 = some ⟨1, .set [2]⟩ ∧ setHeap.read 3 = some ⟨1, .object⟩ ∧ 3 ≠ 1 ∧
    1 < UINT_MAX ∧
    (3 ∈ [2] → addObject setHeap 1 3 = .ok setHeap) ∧
    (3 ∉ [2] → ∃ h2, addObject setHeap 1 3 = .ok h2 ∧
      count h2 1 = .ok ([2].length + 1) ∧ containsObject h2 1 3 = .ok true ∧
      SXObject.retainCount h2 3 = .ok (1 + 1) ∧
      h2.read 1 = some ⟨1, .set ([2] ++ [3])⟩ ∧
      (∀ q, q ≠ 1 → q ≠ 3 → h2.read q = setHeap.read q) ∧
      ∀ n, addObjectTimes (n + 1) setHeap 1 3 = .ok h2) :=
  ⟨rfl, rfl, by decide, by decide,
    set_addObject_distinct setHeap 1 3 1 1 [2] .object rfl rfl (by decide) (by decide)⟩

end SXSet


/-! ## SXDictionary -/

namespace SXDictionary

/-- C32, failing run: in `dictionaryHeap` the key "z" is absent and `count()` is
2; `objectForKey("z")` returns null but leaves an entry "z" -> null behind, so
`count()` is 3 afterwards and "z" is among the keys; `removeObjectForKey("z")`
on the original dictionary does the same. -/
theorem objectForKey_inserts_null_entry :
    count dictionaryHeap 1 = .ok 2 ∧
    (∃ h2, objectForKey dictionaryHeap 1 ['z'] = .ok (h2, 0) ∧ count h2 1 = .ok 3 ∧
      h2.read 1 = some ⟨1, .dictionary [(['k'], 2), (['m'], 3), (['z'], 0)]⟩) ∧
    (∃ h2, removeObjectForKey 1 dictionaryHeap 1 ['z'] = .ok h2 ∧ count h2 1 = .ok 3 ∧
      h2.read 1 = some ⟨1, .dictionary [(['k'], 2), (['m'], 3), (['z'], 0)]⟩) :=
  ⟨rfl, ⟨_, rfl, rfl, rfl⟩, ⟨_, rfl, rfl, rfl⟩⟩

/-- C38, failing run: in `dictionaryHeap` the key "k" maps to object 2, whose
only reference is the dictionary's (count 1). `setObject(object 2, "k")` first
runs `removeObjectForKey("k")`, which releases and so destroys object 2, and
then calls `retain()` on the destroyed object: undefined behaviour. -/
theorem setObject_same_object_last_reference :
    dictionaryHeap.read 2 = some ⟨1, .object⟩ ∧
    (∃ h1, removeObjectForKey 3 dictionaryHeap 1 ['k'] = .ok h1 ∧ h1.read 2 = none ∧
      SXObject.retain h1 2 = .undefined) ∧
    setObject 3 dictionaryHeap 1 2 ['k'] = .undefined ∧
    setObject 100 dictionaryHeap 1 2 ['k'] = .undefined :=
  ⟨rfl, ⟨_, rfl, rfl, rfl⟩, rfl, rfl⟩

end SXDictionary

/-- C36, failing run: the array at address 6 of `valuesHeap` holds the plain
object at address 5. `copy()` on the object returns null, `addObject(nullptr)`
does nothing, and the loop of `SXArray::copy` then calls `release()` on the null
pointer, so the copy of the array does not return. -/
theorem SXObject.array_copy_releases_null :
    valuesHeap.read 6 = some ⟨1, .array 10 1 [5, 0, 0, 0, 0, 0, 0, 0, 0, 0]⟩ ∧
    valuesHeap.read 5 = some ⟨1, .object⟩ ∧
    SXObject.copy 2 valuesHeap 5 = .ok (valuesHeap, 0) ∧
    (∀ h : Heap, SXArray.addObject h 11 0 = .ok h) ∧
    (∀ h : Heap, SXObject.release 2 h 0 = .undefined) ∧
    SXObject.copy 3 valuesHeap 6 = .undefined ∧
    SXObject.copy 100 valuesHeap 6 = .undefined :=
  ⟨rfl, rfl, rfl, fun _ => rfl, fun h => by simp [SXObject.release_succ, Heap.read], rfl, rfl⟩

/-- C39, failing run: for the string "true" `boolValue()` evaluates
`intValue()` first, and `std::stoi("true")` throws `std::invalid_argument`; the
comparison with "true" is never reached. -/
theorem SXString.boolValue_true_throws :
    SXString.intValue "true".toList = .error .invalid_argument ∧
    SXString.boolValue "true".toList = .error .invalid_argument ∧
    SXString.boolValue [] = .ok false ∧
    SXString.boolValue "12".toList = .ok true ∧
    SXString.boolValue "0".toList = .ok false :=
  ⟨rfl, rfl, rfl, rfl, rfl⟩


namespace SXDictionary

theorem lookup_none_iff (m : List (List Char × Nat)) (key : List Char) :
    m.lookup key = none ↔ key ∉ m.map Prod.fst := by
  induction m with
  | nil => simp
  | cons e m ih =>
    obtain ⟨k, v⟩ := e
    by_cases hk : key = k
    · subst hk; simp [List.lookup]
    · have hne : (key == k) = false := by simpa using hk
      simp [List.lookup, hne, ih, hk]

theorem subscript_present (m : List (List Char × Nat)) (key : List Char) (v : Nat)
    (hl : m.lookup key = some v) : subscript m key = (m, v) := by
  simp [subscript, hl]

theorem lookup_cons (m : List (List Char × Nat)) (k key : List Char) (v : Nat) :
    ((k, v) :: m).lookup key = if key = k then some v else m.lookup key := by
  by_cases hk : key = k
  · subst hk; simp [List.lookup]
  · have hne : (key == k) = false := by simpa using hk
    simp [List.lookup, hne, hk]

theorem erase_cons (m : List (List Char × Nat)) (k key : List Char) (v : Nat) :
    erase ((k, v) :: m) key = if k = key then erase m key else (k, v) :: erase m key := by
  by_cases hk : k = key
  · simp [erase, List.filter_cons, hk]
  · simp [erase, List.filter_cons, hk]

theorem map_assign_cons (m : List (List Char × Nat)) (k key : List Char) (v p : Nat) :
    ((k, v) :: m).map (fun e => if e.1 = key then (e.1, p) else e) =
      (if k = key then (k, p) else (k, v)) ::
        m.map (fun e => if e.1 = key then (e.1, p) else e) := by
  simp

theorem not_mem_keys_erase (m : List (List Char × Nat)) (key : List Char) :
    key ∉ (erase m key).map Prod.fst := by
  induction m with
  | nil => simp [erase]
  | cons e m ih =>
    obtain ⟨k, v⟩ := e
    rw [erase_cons]
    by_cases hk : k = key
    · rw [if_pos hk]; exact ih
    · rw [if_neg hk]
      simp only [List.map_cons, List.mem_cons, not_or]
      exact ⟨fun h => hk h.symm, ih⟩

theorem erase_absent (m : List (List Char × Nat)) (key : List Char)
    (hk : key ∉ m.map Prod.fst) : erase m key = m := by
  induction m with
  | nil => rfl
  | cons e m ih =>
    obtain ⟨k, v⟩ := e
    simp only [List.map_cons, List.mem_cons, not_or] at hk
    rw [erase_cons, if_neg (fun h => hk.1 h.symm), ih hk.2]

theorem lookup_erase_ne (m : List (List Char × Nat)) (key k2 : List Char) (hne : k2 ≠ key) :
    (erase m key).lookup k2 = m.lookup k2 := by
  induction m with
  | nil => rfl
  | cons e m ih =>
    obtain ⟨k, v⟩ := e
    rw [erase_cons, lookup_cons]
    by_cases hk : k = key
    · rw [if_pos hk, ih, if_neg (by rw [hk]; exact hne)]
    · rw [if_neg hk, lookup_cons, ih]

theorem length_erase (m : List (List Char × Nat)) (key : List Char) (v : Nat)
    (hnd : (m.map Prod.fst).Nodup) (hl : m.lookup key = some v) :
    (erase m key).length + 1 = m.length := by
  induction m with
  | nil => simp at hl
  | cons e m ih =>
    obtain ⟨k, w⟩ := e
    simp only [List.map_cons, List.nodup_cons] at hnd
    rw [erase_cons]
    rw [lookup_cons] at hl
    by_cases hk : k = key
    · subst hk
      rw [if_pos rfl, erase_absent m k hnd.1]
      simp
    · rw [if_neg hk]
      rw [if_neg (fun h => hk h.symm)] at hl
      have := ih hnd.2 hl
      simp only [List.length_cons]
      omega

theorem assign_absent (m : List (List Char × Nat)) (key : List Char) (p : Nat)
    (hk : key ∉ m.map Prod.fst) : assign m key p = m ++ [(key, p)] := by
  simp [assign, subscript_absent m key hk, map_assign_absent m key p hk]

theorem lookup_append_ne (m : List (List Char × Nat)) (key k2 : List Char) (p : Nat)
    (hne : k2 ≠ key) : (m ++ [(key, p)]).lookup k2 = m.lookup k2 := by
  induction m with
  | nil =>
    rw [List.nil_append, lookup_cons, if_neg hne]
  | cons e m ih =>
    obtain ⟨k, v⟩ := e
    rw [List.cons_append, lookup_cons, lookup_cons, ih]

theorem lookup_map_assign (m : List (List Char × Nat)) (key : List Char) (v p : Nat)
    (hl : m.lookup key = some v) :
    (m.map fun e => if e.1 = key then (e.1, p) else e).lookup key = some p := by
  induction m with
  | nil => simp at hl
  | cons e m ih =>
    obtain ⟨k, w⟩ := e
    rw [map_assign_cons]
    rw [lookup_cons] at hl
    by_cases hk : k = key
    · subst hk
      rw [if_pos rfl, lookup_cons, if_pos rfl]
    · rw [if_neg hk, lookup_cons, if_neg (fun h => hk h.symm)]
      rw [if_neg (fun h => hk h.symm)] at hl
      exact ih hl

theorem lookup_map_assign_ne (m : List (List Char × Nat)) (key k2 : List Char) (p : Nat)
    (hne : k2 ≠ key) :
    (m.map fun e => if e.1 = key then (e.1, p) else e).lookup k2 = m.lookup k2 := by
  induction m with
  | nil => rfl
  | cons e m ih =>
    obtain ⟨k, w⟩ := e
    rw [map_assign_cons, lookup_cons]
    by_cases hk : k = key
    · subst hk
      rw [if_pos rfl, lookup_cons, ih]
      simp [hne]
    · rw [if_neg hk, lookup_cons, ih]

/-- The map after `(*m_pMap)[rKey] = pObject`: the key maps to the object, every
other key is as before, and the size grows by one exactly when the key was
absent. -/
theorem assign_spec (m : List (List Char × Nat)) (key : List Char) (p : Nat) :
    (assign m key p).lookup key = some p ∧
    (∀ k2, k2 ≠ key → (assign m key p).lookup k2 = m.lookup k2) ∧
    (assign m key p).length = if m.lookup key = none then m.length + 1 else m.length := by
  cases hl : m.lookup key with
  | none =>
    have hk := (lookup_none_iff m key).1 hl
    rw [assign_absent m key p hk]
    exact ⟨lookup_last m key p hk, fun k2 hne => lookup_append_ne m key k2 p hne, by simp⟩
  | some v =>
    simp only [assign, subscript_present m key v hl]
    exact ⟨lookup_map_assign m key v p hl, fun k2 hne => lookup_map_assign_ne m key k2 p hne,
      by simp⟩

theorem objectForKey_present (h : Heap) (d rcD : Nat) (m : List (List Char × Nat))
    (key : List Char) (v : Nat) (hd : h.read d = some ⟨rcD, .dictionary m⟩)
    (hl : m.lookup key = some v) :
    ∃ h1, objectForKey h d key = .ok (h1, v) ∧ (∀ q, h1.read q = h.read q) ∧
      h1.trace = h.trace ∧ h1.cells.length = h.cells.length := by
  refine ⟨h.write d ⟨rcD, .dictionary m⟩, ?_, ?_, by simp, by simp⟩
  · simp [objectForKey, hd, subscript_present m key v hl]
  · intro q
    rw [Heap.read_write]
    split
    · rename_i hq; rw [hq.1, hd]
    · rfl

end SXDictionary


namespace SXDictionary

theorem removeObjectForKey_absent (fuel : Nat) (h : Heap) (d rcD : Nat)
    (m : List (List Char × Nat)) (key : List Char)
    (hd : h.read d = some ⟨rcD, .dictionary m⟩) (hl : m.lookup key = none) :
    ∃ h1, removeObjectForKey fuel h d key = .ok h1 ∧
      h1.read d = some ⟨rcD, .dictionary (m ++ [(key, 0)])⟩ ∧
      (∀ q, q ≠ d → h1.read q = h.read q) ∧ h1.trace = h.trace := by
  have hk := (lookup_none_iff m key).1 hl
  have hv := Heap.valid_of_read hd
  refine ⟨h.write d ⟨rcD, .dictionary (m ++ [(key, 0)])⟩, ?_, ?_, ?_, by simp⟩
  · simp [removeObjectForKey, objectForKey, hd, subscript_absent m key hk, Outcome.bind]
  · simp [Heap.read_write, hv]
  · intro q hq
    simp [Heap.read_write, hq]

theorem removeObjectForKey_present (fuel : Nat) (h : Heap) (d rcD p cp : Nat) (bp : Body)
    (m : List (List Char × Nat)) (key : List Char)
    (hd : h.read d = some ⟨rcD, .dictionary m⟩) (hl : m.lookup key = some p)
    (hp0 : p ≠ 0) (hpd : p ≠ d) (hp : h.read p = some ⟨cp, bp⟩) (hc : cp ≤ UINT_MAX)
    (hcb : 2 ≤ cp ∨ (cp = 1 ∧ bp = .object)) :
    ∃ h1, removeObjectForKey (fuel + 2) h d key = .ok h1 ∧
      h1.read d = some ⟨rcD, .dictionary (erase m key)⟩ ∧
      h1.read p = (if cp = 1 then none else some ⟨cp - 1, bp⟩) ∧
      (∀ q, q ≠ d → q ≠ p → h1.read q = h.read q) ∧
      h1.trace = h.trace ++ (if cp = 1 then [.release p 1, .destroy p] else [.release p cp]) := by
  obtain ⟨ha, e1, r1, t1, _⟩ := objectForKey_present h d rcD m key p hd hl
  have hpa : ha.read p = some ⟨cp, bp⟩ := by rw [r1]; exact hp
  obtain ⟨hb, e2, t2, rp, fr, _⟩ := release_once fuel ha p cp bp hpa hc hcb
  have hdp : d ≠ p := fun e => hpd e.symm
  have rbD : hb.read d = some ⟨rcD, .dictionary m⟩ := by rw [fr d hdp, r1]; exact hd
  have hvb := Heap.valid_of_read rbD
  refine ⟨hb.write d ⟨rcD, .dictionary (erase m key)⟩, ?_, ?_, ?_, ?_, ?_⟩
  · simp [removeObjectForKey, e1, Outcome.bind, hp0, e2, rbD]
  · simp [Heap.read_write, hvb]
  · rw [Heap.read_write, if_neg (fun hh => hpd hh.1), rp]
  · intro q hq1 hq2
    rw [Heap.read_write, if_neg (fun hh => hq1 hh.1), fr q hq2, r1]
  · rw [Heap.trace_write, t2, t1]

/-- C31, counterexample: in `dictionaryHeap` object 3 (count 2) is stored under
"m"; after `setObject(object 3, "m")` its reference count is 2, as before, not
one higher. In `dictionaryWithHolder` the array 2 is stored under "m" and
holds object 3 (count 2); after `setObject(object 3, "m")` the array is
destroyed, its destructor has released object 3, and the count of object 3 is
2, as before, not one higher. -/
theorem setObject_same_object_keeps_count :
    ((∃ h0, objectForKey dictionaryHeap 1 ['m'] = .ok (h0, 3)) ∧
      SXObject.retainCount dictionaryHeap 3 = .ok 2 ∧
      ∃ h2, setObject 3 dictionaryHeap 1 3 ['m'] = .ok h2 ∧
        SXObject.retainCount h2 3 = .ok 2) ∧
    ((∃ h0, objectForKey dictionaryWithHolder 1 ['m'] = .ok (h0, 2)) ∧
      dictionaryWithHolder.elements 2 = [3] ∧
      SXObject.retainCount dictionaryWithHolder 3 = .ok 2 ∧
      ∃ h2, setObject 5 dictionaryWithHolder 1 3 ['m'] = .ok h2 ∧
        SXObject.retainCount h2 3 = .ok 2 ∧ h2.read 2 = none) :=
  ⟨⟨⟨_, rfl⟩, rfl, _, rfl, rfl⟩, ⟨_, rfl⟩, rfl, rfl, _, rfl, rfl, rfl⟩

theorem dictionaryHeap_stored (p : Nat)
    (hp : List.lookup ['m'] [(['k'], 2), (['m'], 3)] = some p) (_ : p ≠ 0) :
    p ≠ 1 ∧ ∃ cp bp, dictionaryHeap.read p = some ⟨cp, bp⟩ ∧
      cp ≤ UINT_MAX ∧ (2 ≤ cp ∨ (cp = 1 ∧ bp = .object ∧ p ≠ 4)) := by
  have h3 : p = 3 := by
    have : List.lookup ['m'] [(['k'], 2), (['m'], 3)] = some 3 := by decide
    rw [this] at hp
    exact (Option.some.inj hp).symm
  subst h3
  exact ⟨by decide, 2, .object, rfl, by decide, Or.inl (le_refl _)⟩

end SXDictionary


/-! ## Adding and removing again -/

namespace SXArray

end SXArray

theorem KeepsBodies.keeps_self (h : Heap) : KeepsBodies h h := fun _ c2 hq => ⟨c2, hq, rfl⟩

theorem KeepsBodies.chain {h1 h2 h3 : Heap} (a : KeepsBodies h1 h2) (b : KeepsBodies h2 h3) :
    KeepsBodies h1 h3 := by
  intro q c3 hq
  obtain ⟨c2, h2q, e2⟩ := b q c3 hq
  obtain ⟨c1, h1q, e1⟩ := a q c2 h2q
  exact ⟨c1, h1q, e1.trans e2⟩

theorem KeepsBodies.of_free {h h1 : Heap} (a : KeepsBodies h h1) (p : Nat) :
    KeepsBodies h (h1.free p) := by
  intro q c2 hq
  rw [Heap.read_free] at hq
  split at hq
  · cases hq
  · exact a q c2 hq

theorem KeepsBodies.of_log (h : Heap) (e : Event) : KeepsBodies h (h.log e) :=
  fun _ c2 hq => ⟨c2, hq, rfl⟩

theorem KeepsBodies.write_same_body (h : Heap) (p : Nat) (c c2 : Cell) (hr : h.read p = some c)
    (hb : c.body = c2.body) : KeepsBodies h (h.write p c2) := by
  intro q cq hq
  rw [Heap.read_write] at hq
  split at hq
  · rename_i hqp
    cases hq
    rw [hqp.1]
    exact ⟨c, hr, hb⟩
  · exact ⟨cq, hq, rfl⟩

namespace SXObject

theorem cascade_bodies (fuel : Nat) :
    (∀ h p h2, release fuel h p = .ok h2 → KeepsBodies h h2) ∧
    (∀ h p h2, delete fuel h p = .ok h2 → KeepsBodies h h2) ∧
    (∀ h a i h2, removeAllObjectsFrom fuel h a i = .ok h2 →
      (∀ q c2, q ≠ a → h2.read q = some c2 → ∃ c, h.read q = some c ∧ c.body = c2.body) ∧
      (∀ rc cap n arr, h.read a = some ⟨rc, .array cap n arr⟩ →
        ∃ rc2 arr2, h2.read a = some ⟨rc2, .array cap 0 arr2⟩ ∧ arr2.length = arr.length)) ∧
    (∀ h ps h2, releaseEach fuel h ps = .ok h2 → KeepsBodies h h2) := by
  induction fuel with
  | zero =>
    refine ⟨?_, ?_, ?_, ?_⟩
    · intro h p h2 e; simp [release] at e
    · intro h p h2 e; simp [delete] at e
    · intro h a i h2 e; simp [removeAllObjectsFrom] at e
    · intro h ps h2 e; simp [releaseEach] at e
  | succ fuel ih =>
    obtain ⟨ihr, ihd, ihl, ihe⟩ := ih
    refine ⟨?_, ?_, ?_, ?_⟩
    · intro h p h2 e
      rw [release_succ] at e
      cases hr : h.read p with
      | none => simp [hr] at e
      | some c =>
        simp only [hr] at e
        have hw : KeepsBodies h ((h.write p ⟨wrap (c.m_referenceCount + UINT_MAX), c.body⟩).log
            (.release p c.m_referenceCount)) :=
          (KeepsBodies.write_same_body h p c ⟨wrap (c.m_referenceCount + UINT_MAX), c.body⟩ hr rfl).chain
            (KeepsBodies.of_log _ _)
        split at e
        · exact hw.chain (ihd _ _ _ e)
        · cases e; exact hw
    · intro h p h2 e
      rw [delete_succ] at e
      cases hr : h.read p with
      | none => simp [hr] at e
      | some c =>
        simp only [hr] at e
        have hl : KeepsBodies h (h.log (.destroy p)) := KeepsBodies.of_log _ _
        split at e
        · cases e; exact hl.of_free p
        · split at e
          · split at e
            · rename_i h1 e1
              cases e
              exact (hl.chain (ihr _ _ _ e1)).of_free p
            · simp at e
            · simp at e
          · cases e; exact hl.of_free p
        · split at e
          · rename_i h1 e1
            cases e
            intro q c2 hq
            rw [Heap.read_free] at hq
            split at hq
            · cases hq
            · rename_i hqp
              exact (ihl _ _ _ _ e1).1 q c2 hqp hq
          · simp at e
          · simp at e
        · cases e; exact hl.of_free p
        · cases e; exact hl.of_free p
        · cases e; exact hl.of_free p
        · split at e
          · rename_i h1 e1
            cases e
            exact (hl.chain (ihe _ _ _ e1)).of_free p
          · simp at e
          · simp at e
        · split at e
          · rename_i h1 e1
            cases e
            exact (hl.chain (ihe _ _ _ e1)).of_free p
          · simp at e
          · simp at e
    · intro h a i h2 e
      rw [removeAllObjectsFrom_succ] at e
      cases hr : h.read a with
      | none => simp [hr] at e
      | some c =>
        obtain ⟨rc, body⟩ := c
        cases body with
        | object => simp [hr] at e
        | pool p => simp [hr] at e
        | string s => simp [hr] at e
        | number t v => simp [hr] at e
        | data bs => simp [hr] at e
        | dictionary m => simp [hr] at e
        | set xs => simp [hr] at e
        | array cap count arr =>
          simp only [hr] at e
          have hva := Heap.valid_of_read hr
          split at e
          · split at e
            · split at e
              · rename_i h1 e1
                have k1 := ihr _ _ _ e1
                cases hr1 : h1.read a with
                | none => simp [hr1] at e
                | some c1 =>
                  obtain ⟨rc1, body1⟩ := c1
                  obtain ⟨c0, hc0, hb0⟩ := k1 a _ hr1
                  rw [hr] at hc0
                  cases hc0
                  simp only at hb0
                  subst hb0
                  simp only [hr1] at e
                  have hv1 := Heap.valid_of_read hr1
                  obtain ⟨f1, f2⟩ := ihl _ _ _ _ e
                  refine ⟨?_, ?_⟩
                  · intro q c2 hqa hq
                    obtain ⟨c, hc, hb⟩ := f1 q c2 hqa hq
                    rw [Heap.read_write, if_neg (fun hh => hqa hh.1)] at hc
                    obtain ⟨c', hc', hb'⟩ := k1 q c hc
                    exact ⟨c', hc', hb'.trans hb⟩
                  · intro rc0 cap0 n0 arr0 h0
                    cases h0
                    obtain ⟨rc2, arr2, g1, g2⟩ := f2 rc1 cap count (arr.set i 0)
                      (by simp [Heap.read_write, hv1])
                    exact ⟨rc2, arr2, g1, by simpa using g2⟩
              · simp at e
              · simp at e
            · obtain ⟨f1, f2⟩ := ihl _ _ _ _ e
              exact ⟨f1, fun rc0 cap0 n0 arr0 h0 => f2 rc0 cap0 n0 arr0 (hr.trans h0)⟩
          · cases e
            refine ⟨?_, ?_⟩
            · intro q c2 hqa hq
              rw [Heap.read_write, if_neg (fun hh => hqa hh.1)] at hq
              exact ⟨c2, hq, rfl⟩
            · intro rc0 cap0 n0 arr0 h0
              cases h0
              exact ⟨rc, arr, by simp [Heap.read_write, hva], rfl⟩
    · intro h ps h2 e
      cases ps with
      | nil =>
        rw [releaseEach_succ_nil] at e
        cases e
        exact KeepsBodies.keeps_self _
      | cons p ps =>
        rw [releaseEach_succ_cons] at e
        split at e
        · rename_i h1 e1
          exact (ihr _ _ _ e1).chain (ihe _ _ _ e)
        · simp at e
        · simp at e

theorem release_keeps_bodies {fuel : Nat} {h h2 : Heap} {p : Nat}
    (e : release fuel h p = .ok h2) : KeepsBodies h h2 := (cascade_bodies fuel).1 h p h2 e

end SXObject


namespace SXArray

end SXArray


namespace SXArray

end SXArray


namespace SXArray

end SXArray


/-! ## SXNotificationCenter -/

theorem total_nil (R : List Char → List Nat) (s : Nat) : totalRegistrations [] R s = 0 := rfl

namespace SXDictionary

end SXDictionary


namespace SXNotificationCenter

end SXNotificationCenter


namespace SXNotificationCenter

end SXNotificationCenter


namespace SXNotificationCenter

end SXNotificationCenter


namespace SXNotificationCenter

end SXNotificationCenter


namespace SXNotificationCenter

end SXNotificationCenter


namespace SXNotificationCenter

end SXNotificationCenter

theorem sum_map_ite_eq (L : List Nat) (hnd : L.Nodup) (a v : Nat) :
    (L.map fun p => if p = a then v else 0).sum = if a ∈ L then v else 0 := by
  induction L with
  | nil => simp
  | cons x L ih =>
    simp only [List.nodup_cons] at hnd
    rw [List.map_cons, List.sum_cons, ih hnd.2]
    by_cases hx : x = a
    · subst hx
      simp [hnd.1]
    · have : ¬ a = x := fun e => hx e.symm
      simp [hx, this]

namespace Heap

theorem mem_addresses (h : Heap) (p : Nat) : p ∈ h.addresses ↔ h.valid p := by
  unfold addresses valid
  simp only [List.mem_map, List.mem_range]
  constructor
  · rintro ⟨i, hi, rfl⟩
    omega
  · intro hp
    exact ⟨p - 1, by omega, by omega⟩

theorem nodup_addresses (h : Heap) : h.addresses.Nodup := by
  unfold addresses
  exact (List.nodup_range _).map (fun a b e => by simpa using e)

theorem addresses_congr {h h2 : Heap} (e : h2.cells.length = h.cells.length) :
    h2.addresses = h.addresses := by
  unfold addresses; rw [e]

/-- The references are counted alike in two heaps of the same size whose
objects outside `skip` hold the same references to `o`. -/
theorem inrefs_congr {k : List Nat} {h h2 : Heap} {o : Nat}
    (e : h2.cells.length = h.cells.length)
    (hr : ∀ p, p ∉ k → h2.refsFrom p o = h.refsFrom p o) :
    h2.inrefs k o = h.inrefs k o := by
  unfold inrefs
  rw [addresses_congr e]
  congr 1
  apply List.map_congr_left
  intro p _
  by_cases hp : p ∈ k
  · simp [hp]
  · simp [hp, hr p hp]

/-- Setting the object at `a` aside takes the references that it holds out of
the count. -/
theorem inrefs_peel (skip : List Nat) (h : Heap) (a o : Nat) (hv : h.valid a)
    (ha : a ∉ skip) : h.inrefs skip o = h.refsFrom a o + h.inrefs (a :: skip) o := by
  unfold inrefs
  have h1 : (fun p => if p ∈ skip then 0 else h.refsFrom p o) =
      fun p => (if p = a then h.refsFrom a o else 0) +
        (if p ∈ a :: skip then 0 else h.refsFrom p o) := by
    funext p
    by_cases hpa : p = a
    · subst hpa; simp [ha]
    · by_cases hps : p ∈ skip
      · simp [hpa, hps]
      · simp [hpa, hps]
  rw [h1, List.sum_map_add, sum_map_ite_eq _ (nodup_addresses h),
    if_pos ((mem_addresses h a).2 hv)]

theorem inrefs_cons_le (skip : List Nat) (h : Heap) (a o : Nat) :
    h.inrefs (a :: skip) o ≤ h.inrefs skip o := by
  unfold inrefs
  apply List.sum_le_sum
  intro p _
  by_cases hpa : p = a
  · subst hpa; simp
  · by_cases hps : p ∈ skip
    · simp [hpa, hps]
    · simp [hpa, hps]

theorem refsFrom_le_inrefs (skip : List Nat) (h : Heap) (a o : Nat) (ha : a ∉ skip) :
    h.refsFrom a o ≤ h.inrefs skip o := by
  by_cases hv : h.valid a
  · rw [inrefs_peel skip h a o hv ha]; omega
  · have : h.refsFrom a o = 0 := by
      unfold refsFrom; rw [read_of_not_valid hv]
    omega

theorem refsFrom_of_read {h : Heap} {p : Nat} {c : Cell} (hr : h.read p = some c) (o : Nat) :
    h.refsFrom p o = c.body.owned.count o := by
  unfold refsFrom; rw [hr]

theorem refsFrom_of_none {h : Heap} {p : Nat} (hr : h.read p = none) (o : Nat) :
    h.refsFrom p o = 0 := by
  unfold refsFrom; rw [hr]

end Heap


theorem dropTokens_nil (ext : Nat → Nat) : dropTokens ext [] = ext := by
  funext o; simp [dropTokens]

theorem dropTokens_cons (ext : Nat → Nat) (o : Nat) (os : List Nat) :
    dropTokens (dropTokens ext [o]) os = dropTokens ext (o :: os) := by
  funext x
  simp only [dropTokens, List.count_cons, List.count_nil]
  omega

theorem dropTokens_append (ext : Nat → Nat) (os ps : List Nat) :
    dropTokens (dropTokens ext os) ps = dropTokens ext (os ++ ps) := by
  funext x
  simp only [dropTokens, List.count_append]
  omega

namespace Heap

theorem refsFrom_write (h : Heap) (p q o : Nat) (c : Cell) :
    (h.write p c).refsFrom q o =
      if q = p ∧ h.valid p then c.body.owned.count o else h.refsFrom q o := by
  unfold refsFrom
  rw [read_write]
  by_cases hq : q = p ∧ h.valid p
  · rw [if_pos hq, if_pos hq]
  · rw [if_neg hq, if_neg hq]

theorem refsFrom_free (h : Heap) (p q o : Nat) :
    (h.free p).refsFrom q o = if q = p then 0 else h.refsFrom q o := by
  unfold refsFrom
  rw [read_free]
  by_cases hq : q = p
  · rw [if_pos hq, if_pos hq]
  · rw [if_neg hq, if_neg hq]

theorem inrefs_log (skip : List Nat) (h : Heap) (e : Event) (o : Nat) :
    (h.log e).inrefs skip o = h.inrefs skip o := rfl

/-- Writing to an object of `skip` does not change the count of references. -/
theorem inrefs_write_skip (skip : List Nat) (h : Heap) (p o : Nat) (c : Cell) (hp : p ∈ skip) :
    (h.write p c).inrefs skip o = h.inrefs skip o := by
  apply inrefs_congr (by simp)
  intro q hq
  rw [refsFrom_write]
  have : q ≠ p := fun e => hq (e ▸ hp)
  simp [this]

/-- Writing an object back with the same fields does not change the count of
references. -/
theorem inrefs_write_same (skip : List Nat) (h : Heap) (p o : Nat) (c c2 : Cell)
    (hr : h.read p = some c) (hb : c2.body = c.body) :
    (h.write p c2).inrefs skip o = h.inrefs skip o := by
  apply inrefs_congr (by simp)
  intro q _
  rw [refsFrom_write]
  split
  · rename_i hq
    rw [hq.1, refsFrom_of_read hr, hb]
  · rfl

/-- Once the object at `p` is destroyed, the references are those of the other
objects. -/
theorem inrefs_free (skip : List Nat) (h : Heap) (p o : Nat) (hv : h.valid p) (hp : p ∉ skip) :
    (h.free p).inrefs skip o = h.inrefs (p :: skip) o := by
  have hv2 : (h.free p).valid p := by simpa [valid] using hv
  rw [inrefs_peel skip (h.free p) p o hv2 hp, refsFrom_free, if_pos rfl, Nat.zero_add]
  apply inrefs_congr (by simp)
  intro q hq
  rw [refsFrom_free]
  have : q ≠ p := fun e => hq (by simp [e])
  simp [this]

end Heap


/-! ## The cascade of destructors in a well-counted heap -/

theorem releasedObjects_app (l1 l2 : List Event) :
    releasedObjects (l1 ++ l2) = releasedObjects l1 ++ releasedObjects l2 := by
  simp [releasedObjects, List.filterMap_append]

namespace Counted

/-- Being well counted depends on the objects only. -/
theorem of_reads {skip : List Nat} {h h2 : Heap} {ext : Nat → Nat} (c : Counted skip h ext)
    (hl : h2.cells.length = h.cells.length) (hr : ∀ q, h2.read q = h.read q) :
    Counted skip h2 ext := by
  have hin : ∀ o, h2.inrefs skip o = h.inrefs skip o := fun o =>
    Heap.inrefs_congr hl (fun p _ => by unfold Heap.refsFrom; rw [hr])
  refine ⟨c.nodup, ?_, ?_, ?_, ?_, ?_⟩
  · intro d hd
    have := c.valid d hd
    unfold Heap.valid at this ⊢
    omega
  · intro p x hp; rw [hr] at hp; exact c.bounded p x hp
  · intro p x hs hp o ho; rw [hr] at hp ⊢; exact c.alive p x hs hp o ho
  · intro o x ho; rw [hr] at ho; rw [hin]; exact c.balance o x ho
  · intro d hd x hx; rw [hr] at hx; exact c.guarded d hd x hx

theorem logged {skip : List Nat} {h : Heap} {ext : Nat → Nat} (c : Counted skip h ext) (e : Event) :
    Counted skip (h.log e) ext :=
  c.of_reads rfl (fun _ => rfl)

/-- The object `p` gives up one reference held elsewhere and stays alive. -/
theorem drop_one {skip : List Nat} {h : Heap} {ext : Nat → Nat} (c : Counted skip h ext)
    {p n : Nat} {b : Body} (hr : h.read p = some ⟨n, b⟩) (hn : 2 ≤ n) (he : 1 ≤ ext p)
    (hs : p ∈ skip → 2 ≤ ext p) :
    Counted skip (h.write p ⟨n - 1, b⟩) (dropTokens ext [p]) := by
  have hv := Heap.valid_of_read hr
  have hin : ∀ o, (h.write p ⟨n - 1, b⟩).inrefs skip o = h.inrefs skip o := fun o =>
    Heap.inrefs_write_same skip h p o ⟨n, b⟩ ⟨n - 1, b⟩ hr rfl
  refine ⟨c.nodup, ?_, ?_, ?_, ?_, ?_⟩
  · intro d hd
    have := c.valid d hd
    unfold Heap.valid at this ⊢
    simpa using this
  · intro q x hq
    rw [Heap.read_write] at hq
    split at hq
    · cases hq
      have := c.bounded p _ hr
      simp only at this ⊢
      omega
    · exact c.bounded q x hq
  · intro q x hs2 hq o ho
    have ho2 : (h.read o).isSome = true := by
      rw [Heap.read_write] at hq
      split at hq
      · rename_i hqp
        cases hq
        rw [hqp.1] at hs2
        exact c.alive p _ hs2 hr o ho
      · exact c.alive q x hs2 hq o ho
    rw [Heap.read_write]
    split
    · rfl
    · exact ho2
  · intro o x ho
    rw [hin]
    rw [Heap.read_write] at ho
    split at ho
    · rename_i hop
      cases ho
      have := c.balance p _ hr
      rw [hop.1]
      simp only [dropTokens, List.count_cons_self, List.count_nil] at this ⊢
      omega
    · rename_i hop
      have hne : o ≠ p := fun e => hop ⟨e, hv⟩
      have := c.balance o x ho
      have hc : [p].count o = 0 := by simp [List.count_cons, Ne.symm hne]
      simp only [dropTokens, hc]
      omega
  · intro d hd x hx
    rw [Heap.read_write] at hx
    split at hx
    · rename_i hdp
      cases hx
      right
      have := hs (hdp.1 ▸ hd)
      rw [hdp.1]
      simp only [dropTokens, List.count_cons_self, List.count_nil]
      omega
    · rename_i hdp
      have hne : d ≠ p := fun e => hdp ⟨e, hv⟩
      have hc : [p].count d = 0 := by simp [List.count_cons, Ne.symm hne]
      rcases c.guarded d hd x hx with h0 | h1
      · exact Or.inl h0
      · right; simp only [dropTokens, hc]; omega

end Counted

namespace SXObject

/-- A call of `release()` that gives up a reference held elsewhere on an object
with further references. -/
theorem release_counted_keep {skip : List Nat} {h : Heap} {ext : Nat → Nat}
    (c : Counted skip h ext) {p n : Nat} {b : Body} (hr : h.read p = some ⟨n, b⟩) (hn : 2 ≤ n)
    (he : 1 ≤ ext p) (hs : p ∈ skip → 2 ≤ ext p) (fuel : Nat) :
    release (fuel + 1) h p = .ok ((h.write p ⟨n - 1, b⟩).log (.release p n)) ∧
    Released skip h ext [p] ((h.write p ⟨n - 1, b⟩).log (.release p n)) := by
  have hb := c.bounded p _ hr
  have hv := Heap.valid_of_read hr
  have hin : ∀ o, (h.write p ⟨n - 1, b⟩).inrefs skip o = h.inrefs skip o := fun o =>
    Heap.inrefs_write_same skip h p o ⟨n, b⟩ ⟨n - 1, b⟩ hr rfl
  refine ⟨release_keeps fuel h p n b hr hn hb, ?_⟩
  refine ⟨(c.drop_one hr hn he hs).logged _, by simp, ?_, ?_, ?_, ?_⟩
  · intro q hq _
    have hne : q ≠ p := by simpa using hq
    rw [Heap.read_log, Heap.read_write]
    simp [hne]
  · intro q
    rw [Heap.inrefs_log, hin]
  · intro q hq _
    rw [Heap.read_log, Heap.read_write]
    split
    · rfl
    · exact hq
  · refine ⟨[.release p n], by simp, by simp [releasedObjects], ?_⟩
    intro q
    rw [Heap.inrefs_log, hin]
    simp [releasedObjects]

end SXObject


namespace Counted

/-- The references that the fields of the dying object `p` hold are handed to
its destructor: `p` joins the objects that are set aside. -/
theorem dying {skip : List Nat} {h : Heap} {ext : Nat → Nat} (c : Counted skip h ext)
    {p : Nat} {b : Body} (hr : h.read p = some ⟨1, b⟩) (he : 1 ≤ ext p) (hs : p ∉ skip) :
    Counted (p :: skip) (h.write p ⟨0, b⟩)
        (fun o => (if o = p then 0 else ext o) + b.owned.count o) ∧
      p ∉ b.owned ∧
      (∀ d ∈ p :: skip, d ∈ b.owned →
        b.owned.count d + 1 ≤ (if d = p then 0 else ext d) + b.owned.count d) ∧
      (∀ o ∈ b.owned, ((h.write p ⟨0, b⟩).read o).isSome = true) ∧
      (∀ o, (h.write p ⟨0, b⟩).inrefs (p :: skip) o + b.owned.count o = h.inrefs skip o) := by
  have hv := Heap.valid_of_read hr
  have hbal := c.balance p _ hr
  simp only at hbal
  have hin0 : h.inrefs skip p = 0 := by omega
  have hpo : p ∉ b.owned := by
    intro hm
    have h1 := Heap.refsFrom_le_inrefs skip h p p hs
    rw [Heap.refsFrom_of_read hr] at h1
    have := List.count_pos_iff.2 hm
    simp only at h1
    omega
  have hin : ∀ o, (h.write p ⟨0, b⟩).inrefs (p :: skip) o = h.inrefs (p :: skip) o := fun o =>
    Heap.inrefs_write_skip (p :: skip) h p o _ (by simp)
  have hpeel : ∀ o, h.inrefs skip o = b.owned.count o + h.inrefs (p :: skip) o := fun o => by
    rw [Heap.inrefs_peel skip h p o hv hs, Heap.refsFrom_of_read hr]
  have hal : ∀ o, (h.read o).isSome = true → ((h.write p ⟨0, b⟩).read o).isSome = true := by
    intro o ho
    rw [Heap.read_write]
    split
    · rfl
    · exact ho
  refine ⟨⟨?_, ?_, ?_, ?_, ?_, ?_⟩, hpo, ?_, ?_, ?_⟩
  · exact List.nodup_cons.2 ⟨hs, c.nodup⟩
  · intro d hd
    have : h.valid d := by
      rcases List.mem_cons.1 hd with e | e
      · rw [e]; exact hv
      · exact c.valid d e
    unfold Heap.valid at this ⊢
    simpa using this
  · intro q x hq
    rw [Heap.read_write] at hq
    split at hq
    · cases hq; exact Nat.zero_le _
    · exact c.bounded q x hq
  · intro q x hq2 hq o ho
    have hqp : q ≠ p := fun e => hq2 (by simp [e])
    have hqs : q ∉ skip := fun e => hq2 (by simp [e])
    rw [Heap.read_write] at hq
    simp only [hqp, false_and, if_false] at hq
    exact hal o (c.alive q x hqs hq o ho)
  · intro o x ho
    rw [hin]
    rw [Heap.read_write] at ho
    split at ho
    · rename_i hop
      cases ho
      rw [hop.1]
      have := hpeel p
      have h0 : b.owned.count p = 0 := List.count_eq_zero_of_not_mem hpo
      simp only [if_true]
      omega
    · rename_i hop
      have hne : o ≠ p := fun e => hop ⟨e, hv⟩
      have := c.balance o x ho
      have := hpeel o
      simp only [hne, if_false]
      omega
  · intro d hd x hx
    rw [Heap.read_write] at hx
    split at hx
    · cases hx; exact Or.inl rfl
    · rename_i hdp
      have hne : d ≠ p := fun e => hdp ⟨e, hv⟩
      have hds : d ∈ skip := by
        rcases List.mem_cons.1 hd with e | e
        · exact absurd e hne
        · exact e
      rcases c.guarded d hds x hx with h0 | h1
      · exact Or.inl h0
      · right; simp only [hne, if_false]; omega
  · intro d hd hdo
    have hne : d ≠ p := fun e => hpo (e ▸ hdo)
    have hds : d ∈ skip := by
      rcases List.mem_cons.1 hd with e | e
      · exact absurd e hne
      · exact e
    have hda := c.alive p _ hs hr d hdo
    obtain ⟨x, hx⟩ := Option.isSome_iff_exists.1 hda
    have h1 := Heap.refsFrom_le_inrefs skip h p d hs
    rw [Heap.refsFrom_of_read hr] at h1
    have hpos := List.count_pos_iff.2 hdo
    have hb2 := c.balance d x hx
    simp only at h1
    rcases c.guarded d hds x hx with h0 | h1'
    · omega
    · simp only [hne, if_false]; omega
  · intro o ho
    exact hal o (c.alive p _ hs hr o ho)
  · intro o
    rw [hin, hpeel]
    omega

/-- Once the destructor of `p` has given up every reference that `p` held, the
memory of `p` is given back. -/
theorem buried {skip : List Nat} {h : Heap} {ext ext2 : Nat → Nat} {p : Nat}
    (c : Counted (p :: skip) h ext) {x : Cell} (hr : h.read p = some x)
    (h0 : x.m_referenceCount = 0) (he : ∀ o, o ≠ p → ext2 o = ext o) :
    Counted skip (h.free p) ext2 := by
  have hv := Heap.valid_of_read hr
  have hnd := List.nodup_cons.1 c.nodup
  have hbal := c.balance p x hr
  have hin0 : h.inrefs (p :: skip) p = 0 := by omega
  refine ⟨hnd.2, ?_, ?_, ?_, ?_, ?_⟩
  · intro d hd
    have := c.valid d (by simp [hd])
    unfold Heap.valid at this ⊢
    simpa using this
  · intro q y hq
    rw [Heap.read_free] at hq
    split at hq
    · cases hq
    · exact c.bounded q y hq
  · intro q y hq2 hq o ho
    rw [Heap.read_free] at hq
    split at hq
    · cases hq
    · rename_i hqp
      have hq3 : q ∉ p :: skip := by simp [hqp, hq2]
      have hop : o ≠ p := by
        intro e
        have h1 := Heap.refsFrom_le_inrefs (p :: skip) h q p hq3
        rw [Heap.refsFrom_of_read hq] at h1
        have := List.count_pos_iff.2 (e ▸ ho)
        omega
      rw [Heap.read_free]
      simp only [hop, if_false]
      exact c.alive q y hq3 hq o ho
  · intro o y ho
    rw [Heap.read_free] at ho
    split at ho
    · cases ho
    · rename_i hop
      rw [Heap.inrefs_free skip h p o hv hnd.1, he o hop]
      exact c.balance o y ho
  · intro d hd y hy
    rw [Heap.read_free] at hy
    split at hy
    · cases hy
    · rename_i hdp
      rw [he d hdp]
      exact c.guarded d (by simp [hd]) y hy

end Counted


theorem Released.append {skip : List Nat} {h h1 h2 : Heap} {ext : Nat → Nat} {os ps : List Nat}
    (r1 : Released skip h ext os h1) (r2 : Released skip h1 (dropTokens ext os) ps h2) :
    Released skip h ext (os ++ ps) h2 := by
  obtain ⟨evs1, t1, s1, a1⟩ := r1.trace
  obtain ⟨evs2, t2, s2, a2⟩ := r2.trace
  refine ⟨?_, ?_, ?_, ?_, ?_, ?_⟩
  · rw [← dropTokens_append]; exact r2.counted
  · rw [r2.length, r1.length]
  · intro q hq h0
    have hq1 : q ∉ os := fun e => hq (List.mem_append_left _ e)
    have hq2 : q ∉ ps := fun e => hq (List.mem_append_right _ e)
    have := r1.mono q
    rw [r2.frame q hq2 (by omega), r1.frame q hq1 h0]
  · intro q
    exact Nat.le_trans (r2.mono q) (r1.mono q)
  · intro q hq h1'
    rw [← dropTokens_append] at h1'
    apply r2.kept q _ h1'
    apply r1.kept q hq
    simp only [dropTokens] at h1' ⊢
    omega
  · refine ⟨evs1 ++ evs2, ?_, ?_, ?_⟩
    · rw [t2, t1, List.append_assoc]
    · rw [releasedObjects_app]; exact s1.append s2
    · intro q
      have := a1 q
      have := a2 q
      rw [releasedObjects_app, List.count_append, List.count_append]
      omega

theorem Released.none (skip : List Nat) (h : Heap) (ext : Nat → Nat) (c : Counted skip h ext) :
    Released skip h ext [] h := by
  refine ⟨by rw [dropTokens_nil]; exact c, rfl, fun _ _ _ => rfl, fun _ => Nat.le_refl _,
    fun _ hq _ => hq, ⟨[], by simp, by simp [releasedObjects], fun q => by simp [releasedObjects]⟩⟩

/-- Storing into the fields of an object that is set aside, the count kept. -/
theorem Counted.write_skip {skip : List Nat} {h : Heap} {ext : Nat → Nat} (c : Counted skip h ext)
    {p rc : Nat} {b B : Body} (hp : p ∈ skip) (hr : h.read p = some ⟨rc, b⟩) :
    Counted skip (h.write p ⟨rc, B⟩) ext := by
  have hv := Heap.valid_of_read hr
  refine ⟨c.nodup, ?_, ?_, ?_, ?_, ?_⟩
  · intro d hd
    have := c.valid d hd
    unfold Heap.valid at this ⊢
    simpa using this
  · intro q x hq
    rw [Heap.read_write] at hq
    split at hq
    · cases hq; exact c.bounded p ⟨rc, b⟩ hr
    · exact c.bounded q x hq
  · intro q x hq2 hq o ho
    have hqp : q ≠ p := fun e => hq2 (e ▸ hp)
    rw [Heap.read_write] at hq
    simp only [hqp, false_and, if_false] at hq
    rw [Heap.read_write]
    split
    · rfl
    · exact c.alive q x hq2 hq o ho
  · intro o x ho
    rw [Heap.inrefs_write_skip skip h p o _ hp]
    rw [Heap.read_write] at ho
    split at ho
    · rename_i hop
      cases ho
      rw [hop.1]
      exact c.balance p ⟨rc, b⟩ hr
    · exact c.balance o x ho
  · intro d hd x hx
    rw [Heap.read_write] at hx
    split at hx
    · rename_i hdp
      cases hx
      rw [hdp.1]
      exact c.guarded p hp ⟨rc, b⟩ hr
    · exact c.guarded d hd x hx

namespace SXArray

theorem slots_end (arr : List Nat) (count i : Nat) (hi : count ≤ i) :
    (arr.take count).drop i = [] := by
  apply List.drop_eq_nil_of_le
  rw [List.length_take]
  omega

theorem slots_step (arr : List Nat) (count i : Nat) (hi : i < count) :
    ((arr.take count).drop i).filter (fun p => p ≠ 0) =
      (if arr.getD i 0 ≠ 0 then [arr.getD i 0] else []) ++
        ((arr.take count).drop (i + 1)).filter (fun p => p ≠ 0) := by
  by_cases hl : i < arr.length
  · have hl2 : i < (arr.take count).length := by rw [List.length_take]; omega
    rw [List.drop_eq_getElem_cons hl2]
    have e : (arr.take count)[i] = arr.getD i 0 := by
      rw [List.getElem_take]
      simp [List.getD_eq_getElem?_getD, hl]
    rw [e]
    generalize arr.getD i 0 = x
    by_cases h0 : x = 0
    · simp [h0]
    · simp [h0]
  · have e : arr.getD i 0 = 0 := by
      rw [List.getD_eq_getElem?_getD, List.getElem?_eq_none (Nat.le_of_not_lt hl)]
      rfl
    have e1 : (arr.take count).drop i = [] := by
      apply List.drop_eq_nil_of_le
      rw [List.length_take]; omega
    have e2 : (arr.take count).drop (i + 1) = [] := by
      apply List.drop_eq_nil_of_le
      rw [List.length_take]; omega
    rw [e, e1, e2]
    rfl

theorem slots_set (arr : List Nat) (count i v : Nat) :
    ((arr.set i v).take count).drop (i + 1) = (arr.take count).drop (i + 1) := by
  apply List.ext_getElem?
  intro n
  simp only [List.getElem?_drop, List.getElem?_take]
  split
  · rw [List.getElem?_set_ne (by omega)]
  · rfl

end SXArray


namespace SXObject

theorem releaseEach_mono_le {fuel fuel2 : Nat} {h h2 : Heap} {os : List Nat}
    (e : releaseEach fuel h os = .ok h2) (hle : fuel ≤ fuel2) :
    releaseEach fuel2 h os = .ok h2 := by
  have := (cascade_mono fuel).2.2.2 h os h2 e (fuel2 - fuel)
  rwa [Nat.add_sub_cancel' hle] at this

theorem removeAllObjectsFrom_mono_le {fuel fuel2 : Nat} {h h2 : Heap} {a i : Nat}
    (e : removeAllObjectsFrom fuel h a i = .ok h2) (hle : fuel ≤ fuel2) :
    removeAllObjectsFrom fuel2 h a i = .ok h2 := by
  have := removeAllObjectsFrom_mono e (fuel2 - fuel)
  rwa [Nat.add_sub_cancel' hle] at this

/-- The loop of the destructors of `SXDictionary` and `SXSet` returns when every
released pointer carries a reference of its own. -/
theorem releaseEach_counted {skip : List Nat} {L : Nat}
    (IH : ∀ (h : Heap) (ext : Nat → Nat) (p : Nat) (x : Cell), h.cells.length = L →
      Counted skip h ext → h.read p = some x → 1 ≤ ext p → (p ∈ skip → 2 ≤ ext p) →
      ∃ fuel h2, release fuel h p = .ok h2 ∧ Released skip h ext [p] h2) :
    ∀ (os : List Nat) (h : Heap) (ext : Nat → Nat), h.cells.length = L → Counted skip h ext →
      (∀ o, os.count o ≤ ext o) → (∀ o ∈ os, (h.read o).isSome = true) →
      (∀ d ∈ skip, d ∈ os → os.count d + 1 ≤ ext d) →
      ∃ fuel h2, releaseEach fuel h os = .ok h2 ∧ Released skip h ext os h2 := by
  intro os
  induction os with
  | nil =>
    intro h ext _ c _ _ _
    exact ⟨1, h, rfl, Released.none skip h ext c⟩
  | cons o rest ih =>
    intro h ext hL c htok hal hpro
    obtain ⟨x, hx⟩ := Option.isSome_iff_exists.1 (hal o (by simp))
    have ht := htok o
    rw [List.count_cons_self] at ht
    obtain ⟨f1, h1, e1, r1⟩ := IH h ext o x hL c hx (by omega) (fun hd => by
      have := hpro o hd (by simp)
      rw [List.count_cons_self] at this
      omega)
    have hcnt : ∀ q, (o :: rest).count q = rest.count q + [o].count q := by
      intro q
      simp only [List.count_cons, List.count_nil]
      omega
    obtain ⟨f2, h2, e2, r2⟩ := ih h1 (dropTokens ext [o]) (by rw [r1.length, hL]) r1.counted
      (fun q => by
        have := htok q
        rw [hcnt] at this
        simp only [dropTokens]
        omega)
      (fun q hq => by
        apply r1.kept q (hal q (by simp [hq]))
        have := htok q
        rw [hcnt] at this
        have := List.count_pos_iff.2 hq
        simp only [dropTokens]
        omega)
      (fun d hd hdr => by
        have := hpro d hd (by simp [hdr])
        rw [hcnt] at this
        simp only [dropTokens]
        omega)
    refine ⟨max f1 f2 + 1, h2, ?_, r1.append r2⟩
    rw [releaseEach_succ_cons, release_mono_le e1 (Nat.le_max_left _ _)]
    exact releaseEach_mono_le e2 (Nat.le_max_right _ _)

end SXObject


namespace SXObject

theorem removeAllObjectsFrom_done {skip : List Nat} {h : Heap} {ext : Nat → Nat}
    (c : Counted skip h ext) {this rc cap count i : Nat} {arr : List Nat} (hthis : this ∈ skip)
    (hr : h.read this = some ⟨rc, .array cap count arr⟩) (hi : count ≤ i) :
    removeAllObjectsFrom 1 h this i = .ok (h.write this ⟨rc, .array cap 0 arr⟩) ∧
    Emptied skip h ext this (((arr.take count).drop i).filter (fun p => p ≠ 0))
      (h.write this ⟨rc, .array cap 0 arr⟩) := by
  have hv := Heap.valid_of_read hr
  constructor
  · rw [removeAllObjectsFrom_succ, hr]
    simp only [Nat.not_lt.2 hi, if_false]
  · rw [SXArray.slots_end arr count i hi, List.filter_nil]
    refine ⟨?_, by simp, ?_, ?_, ?_, ?_, ?_⟩
    · rw [dropTokens_nil]; exact c.write_skip hthis hr
    · intro q hq _ _
      rw [Heap.read_write]; simp [hq]
    · intro q
      rw [Heap.inrefs_write_skip skip h this q _ hthis]
    · intro q hq _
      rw [Heap.read_write]
      split
      · rfl
      · exact hq
    · refine ⟨[], by simp, by simp [releasedObjects], ?_⟩
      intro q
      rw [Heap.inrefs_write_skip skip h this q _ hthis]
      simp [releasedObjects]
    · intro rc2 cap2 count2 arr2 hr2
      rw [hr] at hr2
      cases hr2
      exact ⟨rc, arr, by rw [Heap.read_write]; simp [hv], rfl, fun _ _ => rfl⟩

/-- The loop of `SXArray::removeAllObjects` returns when every stored pointer
carries a reference of its own. -/
theorem removeAllObjectsFrom_counted {skip : List Nat} {L : Nat}
    (IH : ∀ (h : Heap) (ext : Nat → Nat) (p : Nat) (x : Cell), h.cells.length = L →
      Counted skip h ext → h.read p = some x → 1 ≤ ext p → (p ∈ skip → 2 ≤ ext p) →
      ∃ fuel h2, release fuel h p = .ok h2 ∧ Released skip h ext [p] h2)
    {this cap count : Nat} (hthis : this ∈ skip) :
    ∀ (k i : Nat) (h : Heap) (ext : Nat → Nat) (rc : Nat) (arr : List Nat), count ≤ i + k →
      h.cells.length = L → Counted skip h ext →
      h.read this = some ⟨rc, .array cap count arr⟩ →
      (∀ o, (((arr.take count).drop i).filter (fun p => p ≠ 0)).count o ≤ ext o) →
      (∀ o ∈ ((arr.take count).drop i).filter (fun p => p ≠ 0), (h.read o).isSome = true) →
      (∀ d ∈ skip, d ∈ ((arr.take count).drop i).filter (fun p => p ≠ 0) →
        (((arr.take count).drop i).filter (fun p => p ≠ 0)).count d + 1 ≤ ext d) →
      ((h.inrefs skip this = 0 ∧ this ∉ ((arr.take count).drop i).filter (fun p => p ≠ 0)) ∨
        1 ≤ dropTokens ext (((arr.take count).drop i).filter (fun p => p ≠ 0)) this) →
      ∃ fuel h2, removeAllObjectsFrom fuel h this i = .ok h2 ∧
        Emptied skip h ext this (((arr.take count).drop i).filter (fun p => p ≠ 0)) h2 := by
  intro k
  induction k with
  | zero =>
    intro i h ext rc arr hk _ c hr _ _ _ _
    exact ⟨1, _, removeAllObjectsFrom_done c hthis hr (by omega)⟩
  | succ k ih =>
    intro i h ext rc arr hk hL c hr htok hal hpro hst
    by_cases hi : i < count
    swap
    · exact ⟨1, _, removeAllObjectsFrom_done c hthis hr (by omega)⟩
    have hstep := SXArray.slots_step arr count i hi
    by_cases hx0 : arr.getD i 0 = 0
    · -- an empty slot
      rw [hx0] at hstep
      simp only [ne_eq, not_true_eq_false, if_false, List.nil_append] at hstep
      rw [hstep] at htok hal hpro hst ⊢
      obtain ⟨f, h2, e, r⟩ := ih (i + 1) h ext rc arr (by omega) hL c hr htok hal hpro hst
      refine ⟨f + 1, h2, ?_, r⟩
      rw [removeAllObjectsFrom_succ, hr]
      simp only [hi, if_true, hx0, ne_eq, not_true_eq_false, if_false]
      exact e
    · -- a stored pointer
      simp only [ne_eq, hx0, not_false_eq_true, if_true, List.singleton_append] at hstep
      rw [hstep] at htok hal hpro hst ⊢
      generalize hxe : arr.getD i 0 = x at *
      generalize hre : ((arr.take count).drop (i + 1)).filter (fun p => p ≠ 0) = rest at *
      obtain ⟨cx, hcx⟩ := Option.isSome_iff_exists.1 (hal x (by simp))
      have ht := htok x
      rw [List.count_cons_self] at ht
      obtain ⟨f1, h1, e1, r1⟩ := IH h ext x cx hL c hcx (by omega) (fun hd => by
        have := hpro x hd (by simp)
        rw [List.count_cons_self] at this
        omega)
      have hcnt : ∀ q, (x :: rest).count q = rest.count q + [x].count q := by
        intro q
        simp only [List.count_cons, List.count_nil]
        omega
      -- the array is still there
      have hthis1 : ∃ rc1, h1.read this = some ⟨rc1, .array cap count arr⟩ ∧
          (h.inrefs skip this = 0 → this ∉ x :: rest → rc1 = rc) := by
        have hal1 : (h1.read this).isSome = true := by
          rcases hst with ⟨h0, hn⟩ | h1'
          · rw [r1.frame this (by
              intro e
              apply hn
              rw [List.mem_singleton] at e
              rw [e]; simp) h0, hr]
            rfl
          · apply r1.kept this (by rw [hr]; rfl)
            have := hcnt this
            simp only [dropTokens] at h1' ⊢
            omega
        obtain ⟨y, hy⟩ := Option.isSome_iff_exists.1 hal1
        obtain ⟨y0, hy0, hb⟩ := release_keeps_bodies e1 this y hy
        rw [hr] at hy0
        cases hy0
        obtain ⟨rc1, b1⟩ := y
        simp only at hb
        subst hb
        refine ⟨rc1, hy, ?_⟩
        intro h0 hn
        have := r1.frame this (by
          intro e
          apply hn
          rw [List.mem_singleton] at e
          rw [e]; simp) h0
        rw [hr, hy] at this
        cases this
        rfl
      obtain ⟨rc1, hr1, hrc1⟩ := hthis1
      have hv1 := Heap.valid_of_read hr1
      have c1 := r1.counted.write_skip (B := .array cap count (arr.set i 0)) hthis hr1
      have hin1 : ∀ q, (h1.write this ⟨rc1, .array cap count (arr.set i 0)⟩).inrefs skip q =
          h1.inrefs skip q := fun q => Heap.inrefs_write_skip skip h1 this q _ hthis
      have hal2 : ∀ q, (h1.read q).isSome = true →
          ((h1.write this ⟨rc1, .array cap count (arr.set i 0)⟩).read q).isSome = true := by
        intro q hq
        rw [Heap.read_write]
        split
        · rfl
        · exact hq
      have hre2 : (((arr.set i 0).take count).drop (i + 1)).filter (fun p => p ≠ 0) = rest := by
        rw [SXArray.slots_set, hre]
      obtain ⟨f2, h2, e2, r2⟩ := ih (i + 1) (h1.write this ⟨rc1, .array cap count (arr.set i 0)⟩)
        (dropTokens ext [x]) rc1 (arr.set i 0) (by omega) (by simp [r1.length, hL]) c1
        (by rw [Heap.read_write]; simp [hv1])
        (by
          rw [hre2]
          intro q
          have := htok q
          rw [hcnt] at this
          simp only [dropTokens]
          omega)
        (by
          rw [hre2]
          intro q hq
          apply hal2
          apply r1.kept q (hal q (by simp [hq]))
          have := htok q
          rw [hcnt] at this
          have := List.count_pos_iff.2 hq
          simp only [dropTokens]
          omega)
        (by
          rw [hre2]
          intro d hd hdr
          have := hpro d hd (by simp [hdr])
          rw [hcnt] at this
          simp only [dropTokens]
          omega)
        (by
          rw [hre2]
          rcases hst with ⟨h0, hn⟩ | h1'
          · left
            refine ⟨?_, fun e => hn (by simp [e])⟩
            rw [hin1]
            have := r1.mono this
            omega
          · right
            rw [dropTokens_cons]
            exact h1')
      rw [hre2] at r2
      refine ⟨max f1 f2 + 1, h2, ?_, ?_⟩
      · rw [removeAllObjectsFrom_succ, hr]
        simp only [hi, if_true, hxe, ne_eq, hx0, not_false_eq_true,
          release_mono_le e1 (Nat.le_max_left f1 f2), hr1]
        exact removeAllObjectsFrom_mono_le e2 (Nat.le_max_right _ _)
      · obtain ⟨evs1, t1, s1, a1⟩ := r1.trace
        obtain ⟨evs2, t2, s2, a2⟩ := r2.trace
        refine ⟨?_, ?_, ?_, ?_, ?_, ?_, ?_⟩
        · rw [← dropTokens_cons]; exact r2.counted
        · rw [r2.length, Heap.length_write, r1.length]
        · intro q hq hqo h0
          have hq1 : q ∉ [x] := fun e => hqo (by
            rw [List.mem_singleton] at e; simp [e])
          have hq2 : q ∉ rest := fun e => hqo (by simp [e])
          have := r1.mono q
          rw [r2.frame q hq hq2 (by rw [hin1]; omega), Heap.read_write]
          simp only [hq, false_and, if_false]
          exact r1.frame q hq1 h0
        · intro q
          have := r2.mono q
          rw [hin1] at this
          exact Nat.le_trans this (r1.mono q)
        · intro q hq h1'
          rw [← dropTokens_cons] at h1'
          apply r2.kept q _ h1'
          apply hal2
          apply r1.kept q hq
          simp only [dropTokens] at h1' ⊢
          omega
        · refine ⟨evs1 ++ evs2, ?_, ?_, ?_⟩
          · rw [t2, Heap.trace_write, t1, List.append_assoc]
          · rw [releasedObjects_app]
            exact List.Sublist.append s1 s2
          · intro q
            have := a1 q
            have := a2 q
            rw [hin1] at this
            have := hcnt q
            rw [releasedObjects_app, List.count_append]
            omega
        · intro rc' cap' count' arr' hr'
          rw [hr] at hr'
          cases hr'
          obtain ⟨rc2, arr2, hr2, hl2, hrc2⟩ := r2.emptied rc1 cap count (arr.set i 0)
            (by rw [Heap.read_write]; simp [hv1])
          refine ⟨rc2, arr2, hr2, by rw [hl2, List.length_set], ?_⟩
          intro hn h0
          have e1' := hrc1 h0 hn
          have e2' := hrc2 (fun e => hn (by simp [e])) (by
            rw [hin1]
            have := r1.mono this
            omega)
          omega

end SXObject


theorem Released.toEmptied {skip : List Nat} {h h2 : Heap} {ext : Nat → Nat} {os : List Nat}
    (r : Released skip h ext os h2) (this : Nat)
    (hna : ∀ rc cap count arr, h.read this ≠ some ⟨rc, .array cap count arr⟩) :
    Emptied skip h ext this os h2 :=
  ⟨r.counted, r.length, fun q _ hq h0 => r.frame q hq h0, r.mono, r.kept, r.trace,
    fun rc cap count arr hr => absurd hr (hna rc cap count arr)⟩

namespace SXObject

/-- The end of a destructor: the references of the fields are given up, the
memory is given back. -/
theorem release_counted_finish {skip : List Nat} {h hD : Heap} {ext : Nat → Nat}
    (c : Counted skip h ext) {p : Nat} {b : Body} (hr : h.read p = some ⟨1, b⟩) (he : 1 ≤ ext p)
    (hs : p ∉ skip)
    (r : Emptied (p :: skip) (((h.write p ⟨0, b⟩).log (.release p 1)).log (.destroy p))
      (fun o => (if o = p then 0 else ext o) + b.owned.count o) p b.owned hD)
    (hp : ∃ x, hD.read p = some x ∧ x.m_referenceCount = 0) :
    Released skip h ext [p] (hD.free p) ∧ (hD.free p).read p = none := by
  obtain ⟨c0, hpo, hpro, hal, hin⟩ := c.dying hr he hs
  obtain ⟨x, hx, hx0⟩ := hp
  have hv := Heap.valid_of_read hr
  have hvD := Heap.valid_of_read hx
  have hbal := c.balance p _ hr
  simp only at hbal
  obtain ⟨evs, t, sl, acc⟩ := r.trace
  refine ⟨⟨?_, ?_, ?_, ?_, ?_, ?_⟩, by rw [Heap.read_free]; simp⟩
  · apply r.counted.buried hx hx0
    intro o ho
    have : [p].count o = 0 := by simp [List.count_cons, Ne.symm ho]
    simp only [dropTokens, ho, if_false, this]
    omega
  · rw [Heap.length_free, r.length]; simp
  · intro q hq h0
    have hqp : q ≠ p := by simpa using hq
    have h1 := hin q
    have hqo : q ∉ b.owned := fun e => by
      have := List.count_pos_iff.2 e
      omega
    rw [Heap.read_free]
    simp only [hqp, if_false]
    rw [r.frame q hqp hqo (by
      show (h.write p ⟨0, b⟩).inrefs (p :: skip) q = 0
      omega)]
    simp only [Heap.read_log]
    rw [Heap.read_write]
    simp [hqp]
  · intro q
    rw [Heap.inrefs_free skip hD p q hvD hs]
    have h1 := hin q
    have h2 := r.mono q
    have h3 : (((h.write p ⟨0, b⟩).log (.release p 1)).log (.destroy p)).inrefs (p :: skip) q =
        (h.write p ⟨0, b⟩).inrefs (p :: skip) q := rfl
    omega
  · intro q hq h1
    have hqp : q ≠ p := by
      intro e
      rw [e] at h1
      simp only [dropTokens, List.count_cons_self, List.count_nil] at h1
      omega
    have hq1 : [p].count q = 0 := by simp [List.count_cons, Ne.symm hqp]
    rw [Heap.read_free]
    simp only [hqp, if_false]
    apply r.kept q
    · simp only [Heap.read_log]
      rw [Heap.read_write]
      split
      · rfl
      · exact hq
    · simp only [dropTokens, hq1, hqp, if_false] at h1 ⊢
      omega
  · refine ⟨[.release p 1, .destroy p] ++ evs, ?_, ?_, ?_⟩
    · rw [Heap.trace_free, t]
      simp
    · simp [releasedObjects]
    · intro q
      rw [Heap.inrefs_free skip hD p q hvD hs]
      have h1 := hin q
      have h2 := acc q
      have h3 : (((h.write p ⟨0, b⟩).log (.release p 1)).log (.destroy p)).inrefs (p :: skip) q =
          (h.write p ⟨0, b⟩).inrefs (p :: skip) q := rfl
      have h4 : releasedObjects ([Event.release p 1, Event.destroy p] ++ evs) =
          p :: releasedObjects evs := by simp [releasedObjects]
      rw [h4, List.count_cons]
      simp only [List.count_cons, List.count_nil]
      omega

end SXObject


namespace SXObject

theorem release_last_eq (fuel : Nat) (h : Heap) (p : Nat) : ∀ b : Body,
    h.read p = some ⟨1, b⟩ →
    release (fuel + 2) h p =
      match b with
      | .pool pObjects =>
        if pObjects ≠ 0 then
          match release fuel (((h.write p ⟨0, b⟩).log (.release p 1)).log (.destroy p)) pObjects with
          | .ok h1 => .ok (h1.free p)
          | .undefined => .undefined
          | .outOfFuel => .outOfFuel
        else .ok ((((h.write p ⟨0, b⟩).log (.release p 1)).log (.destroy p)).free p)
      | .array _ _ _ =>
        match removeAllObjectsFrom fuel
            (((h.write p ⟨0, b⟩).log (.release p 1)).log (.destroy p)) p 0 with
        | .ok h1 => .ok (h1.free p)
        | .undefined => .undefined
        | .outOfFuel => .outOfFuel
      | .dictionary m_pMap =>
        match releaseEach fuel (((h.write p ⟨0, b⟩).log (.release p 1)).log (.destroy p))
            (m_pMap.map Prod.snd) with
        | .ok h1 => .ok (h1.free p)
        | .undefined => .undefined
        | .outOfFuel => .outOfFuel
      | .set m_pSet =>
        match releaseEach fuel (((h.write p ⟨0, b⟩).log (.release p 1)).log (.destroy p))
            m_pSet with
        | .ok h1 => .ok (h1.free p)
        | .undefined => .undefined
        | .outOfFuel => .outOfFuel
      | _ => .ok ((((h.write p ⟨0, b⟩).log (.release p 1)).log (.destroy p)).free p) := by
  intro b hr
  have hv := Heap.valid_of_read hr
  have e0 : wrap (1 + UINT_MAX) = 0 := by decide
  have hB : ((h.write p ⟨0, b⟩).log (.release p 1)).read p = some ⟨0, b⟩ := by
    rw [Heap.read_log, Heap.read_write]; simp [hv]
  rw [release_succ, hr]
  simp only [e0, if_true]
  rw [delete_succ, hB]
  cases b <;> rfl

/-- A call of `release()` that gives up the last reference: the destructor
returns when the induction hypothesis covers the calls it makes. -/
theorem release_counted_last {skip : List Nat} {h : Heap} {ext : Nat → Nat}
    (c : Counted skip h ext) {p : Nat} {b : Body} (hr : h.read p = some ⟨1, b⟩) (he : 1 ≤ ext p)
    (hs : p ∉ skip)
    (IH : ∀ (h2 : Heap) (ext2 : Nat → Nat) (q : Nat) (x : Cell),
      h2.cells.length = h.cells.length → Counted (p :: skip) h2 ext2 → h2.read q = some x →
      1 ≤ ext2 q → (q ∈ p :: skip → 2 ≤ ext2 q) →
      ∃ fuel h3, release fuel h2 q = .ok h3 ∧ Released (p :: skip) h2 ext2 [q] h3) :
    ∃ fuel h2, release fuel h p = .ok h2 ∧ Released skip h ext [p] h2 ∧ h2.read p = none := by
  obtain ⟨c0, hpo, hpro, hal, hin⟩ := c.dying hr he hs
  have hv := Heap.valid_of_read hr
  have hbal := c.balance p _ hr
  simp only at hbal
  have cA : Counted (p :: skip) (((h.write p ⟨0, b⟩).log (.release p 1)).log (.destroy p))
      (fun o => (if o = p then 0 else ext o) + b.owned.count o) := (c0.logged _).logged _
  have hLA : (((h.write p ⟨0, b⟩).log (.release p 1)).log (.destroy p)).cells.length =
      h.cells.length := by simp
  have hrA : (((h.write p ⟨0, b⟩).log (.release p 1)).log (.destroy p)).read p = some ⟨0, b⟩ := by
    simp only [Heap.read_log]; rw [Heap.read_write]; simp [hv]
  have hinA : (((h.write p ⟨0, b⟩).log (.release p 1)).log (.destroy p)).inrefs (p :: skip) p = 0 := by
    have := hin p
    show (h.write p ⟨0, b⟩).inrefs (p :: skip) p = 0
    omega
  have htok : ∀ o, b.owned.count o ≤ (if o = p then 0 else ext o) + b.owned.count o :=
    fun o => Nat.le_add_left _ _
  -- the common end, from what the destructor leaves behind
  have fin : ∀ (fuel : Nat) (hD : Heap),
      Emptied (p :: skip) (((h.write p ⟨0, b⟩).log (.release p 1)).log (.destroy p))
        (fun o => (if o = p then 0 else ext o) + b.owned.count o) p b.owned hD →
      (∃ x, hD.read p = some x ∧ x.m_referenceCount = 0) →
      release fuel h p = .ok (hD.free p) →
      ∃ fuel h2, release fuel h p = .ok h2 ∧ Released skip h ext [p] h2 ∧ h2.read p = none := by
    intro fuel hD r hp e
    obtain ⟨r1, r2⟩ := release_counted_finish c hr he hs r hp
    exact ⟨fuel, _, e, r1, r2⟩
  have finR : ∀ (fuel : Nat) (hD : Heap),
      Released (p :: skip) (((h.write p ⟨0, b⟩).log (.release p 1)).log (.destroy p))
        (fun o => (if o = p then 0 else ext o) + b.owned.count o) b.owned hD →
      (∀ cap count arr, b ≠ .array cap count arr) →
      release fuel h p = .ok (hD.free p) →
      ∃ fuel h2, release fuel h p = .ok h2 ∧ Released skip h ext [p] h2 ∧ h2.read p = none := by
    intro fuel hD r hna e
    refine fin fuel hD (r.toEmptied p ?_) ⟨⟨0, b⟩, ?_, rfl⟩ e
    · intro rc cap count arr hh
      rw [hrA] at hh
      cases hh
      exact hna cap count arr rfl
    · rw [r.frame p hpo hinA, hrA]
  have hleaf : b.owned = [] → (∀ cap count arr, b ≠ .array cap count arr) →
      release 2 h p = .ok ((((h.write p ⟨0, b⟩).log (.release p 1)).log (.destroy p)).free p) →
      ∃ fuel h2, release fuel h p = .ok h2 ∧ Released skip h ext [p] h2 ∧ h2.read p = none := by
    intro ho hna e
    refine finR 2 _ ?_ hna e
    rw [ho]
    exact Released.none _ _ _ (by rw [ho] at cA; exact cA)
  have e2 := release_last_eq 0 h p b hr
  cases b with
  | object => exact hleaf rfl (fun _ _ _ e => by cases e) e2
  | string s => exact hleaf rfl (fun _ _ _ e => by cases e) e2
  | number t v => exact hleaf rfl (fun _ _ _ e => by cases e) e2
  | data d => exact hleaf rfl (fun _ _ _ e => by cases e) e2
  | pool pObjects =>
    by_cases h0 : pObjects = 0
    · apply hleaf (by simp [Body.owned, h0]) (fun _ _ _ e => by cases e)
      rw [e2]; simp [h0]
    · have hown : (Body.pool pObjects).owned = [pObjects] := by simp [Body.owned, h0]
      have hc1 : (Body.pool pObjects).owned.count pObjects = 1 := by rw [hown]; simp
      obtain ⟨x, hx⟩ := Option.isSome_iff_exists.1 (hal pObjects (by rw [hown]; simp))
      have hx' : (((h.write p ⟨0, .pool pObjects⟩).log (.release p 1)).log (.destroy p)).read
          pObjects = some x := hx
      obtain ⟨f, hD, e, r⟩ := IH _ _ pObjects x hLA cA hx'
        (by
          show 1 ≤ (if pObjects = p then 0 else ext pObjects) +
            (Body.pool pObjects).owned.count pObjects
          rw [hc1]; omega)
        (fun hd => by
          have := hpro pObjects hd (by rw [hown]; simp)
          show 2 ≤ (if pObjects = p then 0 else ext pObjects) +
            (Body.pool pObjects).owned.count pObjects
          rw [hc1] at this ⊢
          omega)
      rw [← hown] at r
      apply finR (f + 2) hD r (fun _ _ _ e => by cases e)
      rw [release_last_eq f h p _ hr]
      simp only [ne_eq, h0, not_false_eq_true, if_true, e]
  | array cap count arr =>
    have hown : (Body.array cap count arr).owned =
        ((arr.take count).drop 0).filter (fun q => q ≠ 0) := by simp [Body.owned]
    rw [hown] at hpo hpro hal htok cA fin
    obtain ⟨f, hD, e, r⟩ := removeAllObjectsFrom_counted
      (fun h2 ext2 q x hl c2 hr2 he2 hs2 => IH h2 ext2 q x hl c2 hr2 he2 hs2)
      (List.mem_cons_self p skip) count 0 _ _ 0 arr (by omega) hLA cA hrA htok hal
      (fun d hd hdo => hpro d hd hdo) (Or.inl ⟨hinA, hpo⟩)
    obtain ⟨rc2, arr2, hr2, -, hrc2⟩ := r.emptied 0 cap count arr hrA
    apply fin (f + 2) hD r ⟨_, hr2, hrc2 hpo hinA⟩
    rw [release_last_eq f h p _ hr]
    simp only [e]
  | dictionary m =>
    have hown : (Body.dictionary m).owned = m.map Prod.snd := rfl
    obtain ⟨f, hD, e, r⟩ := releaseEach_counted
      (fun h2 ext2 q x hl c2 hr2 he2 hs2 => IH h2 ext2 q x hl c2 hr2 he2 hs2)
      (Body.dictionary m).owned _ _ hLA cA htok hal (fun d hd hdo => hpro d hd hdo)
    have e' : releaseEach f (((h.write p ⟨0, .dictionary m⟩).log (.release p 1)).log
        (.destroy p)) (m.map Prod.snd) = .ok hD := e
    apply finR (f + 2) hD r (fun _ _ _ e => by cases e)
    rw [release_last_eq f h p _ hr]
    simp only [e']
  | set m =>
    have hown : (Body.set m).owned = m := rfl
    obtain ⟨f, hD, e, r⟩ := releaseEach_counted
      (fun h2 ext2 q x hl c2 hr2 he2 hs2 => IH h2 ext2 q x hl c2 hr2 he2 hs2)
      (Body.set m).owned _ _ hLA cA htok hal (fun d hd hdo => hpro d hd hdo)
    have e' : releaseEach f (((h.write p ⟨0, .set m⟩).log (.release p 1)).log
        (.destroy p)) m = .ok hD := e
    apply finR (f + 2) hD r (fun _ _ _ e => by cases e)
    rw [release_last_eq f h p _ hr]
    simp only [e']

end SXObject


theorem Heap.length_addresses (h : Heap) : h.addresses.length = h.cells.length := by
  simp [Heap.addresses]

namespace SXObject

theorem release_counted_aux (n : Nat) : ∀ (skip : List Nat) (h : Heap) (ext : Nat → Nat)
    (p : Nat) (x : Cell), h.cells.length ≤ n + skip.length → Counted skip h ext →
    h.read p = some x → 1 ≤ ext p → (p ∈ skip → 2 ≤ ext p) →
    ∃ fuel h2, release fuel h p = .ok h2 ∧ Released skip h ext [p] h2 ∧
      h2.read p = (if x.m_referenceCount = 1 then none
        else some ⟨x.m_referenceCount - 1, x.body⟩) := by
  induction n with
  | zero =>
    intro skip h ext p x hn c hr he hs
    obtain ⟨k, b⟩ := x
    have hbal := c.balance p _ hr
    simp only at hbal
    have hv := Heap.valid_of_read hr
    by_cases h1 : k = 1
    · exfalso
      have hps : p ∉ skip := fun e => by have := hs e; omega
      have hnd : (p :: skip).Nodup := List.nodup_cons.2 ⟨hps, c.nodup⟩
      have hsub : p :: skip ⊆ h.addresses := by
        intro d hd
        rw [Heap.mem_addresses]
        rcases List.mem_cons.1 hd with e | e
        · rw [e]; exact hv
        · exact c.valid d e
      have := (List.subperm_of_subset hnd hsub).length_le
      rw [Heap.length_addresses, List.length_cons] at this
      omega
    · obtain ⟨e, r⟩ := release_counted_keep c hr (by omega) he hs 0
      refine ⟨1, _, e, r, ?_⟩
      rw [Heap.read_log, Heap.read_write]
      simp [hv, h1]
  | succ n ih =>
    intro skip h ext p x hn c hr he hs
    obtain ⟨k, b⟩ := x
    have hbal := c.balance p _ hr
    simp only at hbal
    have hv := Heap.valid_of_read hr
    by_cases h1 : k = 1
    · subst h1
      have hps : p ∉ skip := fun e => by have := hs e; omega
      obtain ⟨f, h2, e, r, hd⟩ := release_counted_last c hr he hps
        (fun h2 ext2 q y hl c2 hr2 he2 hs2 => by
          obtain ⟨f, h3, e, r, -⟩ := ih (p :: skip) h2 ext2 q y
            (by rw [hl, List.length_cons]; omega) c2 hr2 he2 hs2
          exact ⟨f, h3, e, r⟩)
      exact ⟨f, h2, e, r, by simpa using hd⟩
    · obtain ⟨e, r⟩ := release_counted_keep c hr (by omega) he hs 0
      refine ⟨1, _, e, r, ?_⟩
      rw [Heap.read_log, Heap.read_write]
      simp [hv, h1]

/-- In a well-counted heap a call of `release()` that gives up a reference held
elsewhere returns, whatever the class of the object and however far the
destructors reach: the object is destroyed when that was its only reference
and keeps its fields otherwise. -/
theorem release_counted {skip : List Nat} {h : Heap} {ext : Nat → Nat} {p : Nat} {x : Cell}
    (c : Counted skip h ext) (hr : h.read p = some x) (he : 1 ≤ ext p)
    (hs : p ∈ skip → 2 ≤ ext p) :
    ∃ fuel h2, release fuel h p = .ok h2 ∧ Released skip h ext [p] h2 ∧
      h2.read p = (if x.m_referenceCount = 1 then none
        else some ⟨x.m_referenceCount - 1, x.body⟩) :=
  release_counted_aux h.cells.length skip h ext p x (Nat.le_add_right _ _) c hr he hs

/-- Calls of `release()` one after the other, each giving up a reference held
elsewhere, return. -/
theorem releaseEach_total {skip : List Nat} {h : Heap} {ext : Nat → Nat} (os : List Nat)
    (c : Counted skip h ext) (htok : ∀ o, os.count o ≤ ext o)
    (hal : ∀ o ∈ os, (h.read o).isSome = true)
    (hpro : ∀ d ∈ skip, d ∈ os → os.count d + 1 ≤ ext d) :
    ∃ fuel h2, releaseEach fuel h os = .ok h2 ∧ Released skip h ext os h2 :=
  releaseEach_counted (L := h.cells.length)
    (fun h2 ext2 q x _ c2 hr2 he2 hs2 => by
      obtain ⟨f, h3, e, r, -⟩ := release_counted c2 hr2 he2 hs2
      exact ⟨f, h3, e, r⟩) os h ext rfl c htok hal hpro

/-- The loop of `SXArray::removeAllObjects` on an array that is set aside
returns when every stored pointer carries a reference. -/
theorem removeAllObjectsFrom_total {skip : List Nat} {h : Heap} {ext : Nat → Nat}
    {this rc cap count : Nat} {arr : List Nat} (i : Nat) (c : Counted skip h ext)
    (hthis : this ∈ skip) (hr : h.read this = some ⟨rc, .array cap count arr⟩)
    (htok : ∀ o, (((arr.take count).drop i).filter (fun p => p ≠ 0)).count o ≤ ext o)
    (hal : ∀ o ∈ ((arr.take count).drop i).filter (fun p => p ≠ 0), (h.read o).isSome = true)
    (hpro : ∀ d ∈ skip, d ∈ ((arr.take count).drop i).filter (fun p => p ≠ 0) →
        (((arr.take count).drop i).filter (fun p => p ≠ 0)).count d + 1 ≤ ext d)
    (hst : (h.inrefs skip this = 0 ∧ this ∉ ((arr.take count).drop i).filter (fun p => p ≠ 0)) ∨
        1 ≤ dropTokens ext (((arr.take count).drop i).filter (fun p => p ≠ 0)) this) :
    ∃ fuel h2, removeAllObjectsFrom fuel h this i = .ok h2 ∧
      Emptied skip h ext this (((arr.take count).drop i).filter (fun p => p ≠ 0)) h2 :=
  removeAllObjectsFrom_counted (L := h.cells.length)
    (fun h2 ext2 q x _ c2 hr2 he2 hs2 => by
      obtain ⟨f, h3, e, r, -⟩ := release_counted c2 hr2 he2 hs2
      exact ⟨f, h3, e, r⟩) hthis count i h ext rc arr (by omega) rfl c hr htok hal hpro hst

end SXObject


/-- The test `Heap.counted` is sound. -/
theorem Counted.of_check {skip : List Nat} {h : Heap} {ext : Nat → Nat}
    (hc : h.counted skip ext = true) : Counted skip h ext := by
  unfold Heap.counted at hc
  simp only [Bool.and_eq_true, decide_eq_true_eq, List.all_eq_true] at hc
  obtain ⟨⟨hnd, hval⟩, hall⟩ := hc
  have key : ∀ p c, h.read p = some c →
      c.m_referenceCount ≤ UINT_MAX ∧
      (p ∉ skip → ∀ o ∈ c.body.owned, (h.read o).isSome = true) ∧
      h.inrefs skip p + ext p = c.m_referenceCount ∧
      (p ∈ skip → c.m_referenceCount = 0 ∨ 1 ≤ ext p) := by
    intro p c hr
    have := hall p ((Heap.mem_addresses h p).2 (Heap.valid_of_read hr))
    unfold Heap.countedAt at this
    rw [hr] at this
    simp only [Bool.and_eq_true, Bool.or_eq_true, decide_eq_true_eq, List.all_eq_true,
      Bool.not_eq_true', decide_eq_false_iff_not] at this
    obtain ⟨⟨⟨h1, h2⟩, h3⟩, h4⟩ := this
    refine ⟨h1, ?_, h3, ?_⟩
    · intro hp
      rcases h2 with h2 | h2
      · exact absurd h2 hp
      · exact h2
    · intro hp
      rcases h4 with (h4 | h4) | h4
      · exact absurd hp h4
      · exact Or.inl h4
      · exact Or.inr h4
  exact ⟨hnd, fun d hd => hval d hd, fun p c hr => (key p c hr).1,
    fun p c hp hr => (key p c hr).2.1 hp, fun o c hr => (key o c hr).2.2.1,
    fun d hd c hr => (key d c hr).2.2.2 hd⟩


/-! ## C4: release and destruction, for every class -/

namespace SXObject

/-- C4: `release()` on a live object with count `c >= 1`. When `c` is not 1 the
call returns and the object stays alive with count `c - 1`. When `c` is 1 the
object is destroyed: in a heap whose counts cover the stored pointers
(`Counted [] h ext`, where `ext o` is the number of references to `o` held
outside the objects of the heap) and for a reference that the caller holds
(`1 <= ext this`), the call returns for an object of any class, however far
the destructors reach, with the object destroyed and the heap well counted
again; for an object that stores no pointer the call returns in any heap; and
in any heap a call that returns has destroyed the object. No call of the
kernel destroys an object in another way: whatever is alive before a call and
destroyed after it was released at count 1 directly before its destruction. -/
theorem release_destroys_iff_last (fuel : Nat) (h : Heap) (this c : Nat) (body : Body)
    (hlive : h.read this = some ⟨c, body⟩) (hc1 : 1 ≤ c) (hmax : c < 2 ^ 32) :
    (c ≠ 1 → release (fuel + 1) h this = .ok ((h.write this ⟨c - 1, body⟩).log (.release this c)) ∧
      ((h.write this ⟨c - 1, body⟩).log (.release this c)).read this = some ⟨c - 1, body⟩) ∧
    (c = 1 → ∀ ext : Nat → Nat, Counted [] h ext → 1 ≤ ext this →
      ∃ fuel2 h2, (∀ k, release (fuel2 + k) h this = .ok h2) ∧ h2.read this = none ∧
        Counted [] h2 (dropTokens ext [this])) ∧
    (c = 1 → body.owned = [] → (∀ cap n arr, body ≠ .array cap n arr) →
      ∃ h2, release (fuel + 3) h this = .ok h2 ∧ h2.read this = none) ∧
    (c = 1 → ∀ h2, release (fuel + 1) h this = .ok h2 → h2.read this = none) ∧
    (∀ (call : Call) (s s2 : State), s.heap.bounded → call.run fuel s = .ok s2 →
      ∃ evs, s2.heap.trace = s.heap.trace ++ evs ∧
        ∀ q, (s.heap.read q).isSome → s2.heap.read q = none → ReleasedToZero q evs) := by
  have hb : c ≤ UINT_MAX := by
    have : UINT_MAX + 1 = 2 ^ 32 := by norm_num [UINT_MAX]
    omega
  have hv := Heap.valid_of_read hlive
  refine ⟨?_, ?_, ?_, ?_, ?_⟩
  · intro hne
    exact ⟨release_keeps fuel h this c body hlive (by omega) hb, by simp [Heap.read_write, hv]⟩
  · intro h1 ext cnt he
    obtain ⟨f, h2, e, r, hd⟩ := release_counted cnt hlive he (by simp)
    refine ⟨f, h2, fun k => release_mono e k, ?_, r.counted⟩
    rw [hd]
    simp [h1]
  · intro h1 ho hna
    subst h1
    have e := release_last_eq (fuel + 1) h this body hlive
    have e3 : fuel + 1 + 2 = fuel + 3 := rfl
    rw [e3] at e
    cases body with
    | object => exact ⟨_, e, by simp [Heap.read_free]⟩
    | string s => exact ⟨_, e, by simp [Heap.read_free]⟩
    | number t v => exact ⟨_, e, by simp [Heap.read_free]⟩
    | data d => exact ⟨_, e, by simp [Heap.read_free]⟩
    | array cap n arr => exact absurd rfl (hna cap n arr)
    | pool pObjects =>
      have h0 : pObjects = 0 := by
        by_contra hne
        simp [Body.owned, hne] at ho
      simp only [h0, ne_eq, not_true_eq_false, if_false] at e
      exact ⟨_, e, by simp [Heap.read_free]⟩
    | dictionary m =>
      have h0 : m.map Prod.snd = [] := ho
      simp only [] at e
      rw [h0, releaseEach_succ_nil] at e
      exact ⟨_, e, by simp [Heap.read_free]⟩
    | set m =>
      have h0 : m = [] := ho
      subst h0
      simp only [] at e
      rw [releaseEach_succ_nil] at e
      exact ⟨_, e, by simp [Heap.read_free]⟩
  · intro h1 h2 e
    subst h1
    rw [release_succ, hlive] at e
    have e0 : wrap (1 + UINT_MAX) = 0 := by decide
    simp only [e0, if_true] at e
    exact delete_ok_dead e
  · intro call s s2 hbd e
    obtain ⟨-, evs, t, d⟩ := Call.accounted_run e hbd
    exact ⟨evs, t, d⟩

/-- Instance of `release_destroys_iff_last`: the caller gives up the only
reference to an array (address 1) that holds a string with no other reference
(address 2) and a plain object that the caller holds as well (address 3). The
array is destroyed and its destructor returns. -/
theorem release_destroys_iff_last_witness :
    (Heap.mk [some ⟨1, .array 2 2 [2, 3]⟩, some ⟨1, .string ['a']⟩, some ⟨2, .object⟩] []).read 1 =
      some ⟨1, .array 2 2 [2, 3]⟩ ∧ 1 ≤ 1 ∧ 1 < 2 ^ 32 ∧
    Counted [] (Heap.mk [some ⟨1, .array 2 2 [2, 3]⟩, some ⟨1, .string ['a']⟩, some ⟨2, .object⟩] [])
      (fun o => if o = 1 ∨ o = 3 then 1 else 0) ∧
    ∃ fuel2 h2, (∀ k, release (fuel2 + k)
        (Heap.mk [some ⟨1, .array 2 2 [2, 3]⟩, some ⟨1, .string ['a']⟩, some ⟨2, .object⟩] []) 1 =
          .ok h2) ∧ h2.read 1 = none ∧
      Counted [] h2 (dropTokens (fun o => if o = 1 ∨ o = 3 then 1 else 0) [1]) :=
  ⟨rfl, by decide, by norm_num, Counted.of_check (by decide),
    (release_destroys_iff_last 0
      (Heap.mk [some ⟨1, .array 2 2 [2, 3]⟩, some ⟨1, .string ['a']⟩, some ⟨2, .object⟩] []) 1 1
      (.array 2 2 [2, 3]) rfl (by decide) (by norm_num)).2.1 rfl
      (fun o => if o = 1 ∨ o = 3 then 1 else 0) (Counted.of_check (by decide)) (by decide)⟩

end SXObject


/-! ## Containers that give up a reference -/

namespace Heap

theorem heldBy_nil (h : Heap) (o : Nat) : h.heldBy [] o = 0 := rfl

theorem heldBy_cons (h : Heap) (a : Nat) (chain : List Nat) (o : Nat) :
    h.heldBy (a :: chain) o = h.refsFrom a o + h.heldBy chain o := by
  simp [heldBy]

theorem refsFrom_le_heldBy (h : Heap) (chain : List Nat) (d o : Nat) (hd : d ∈ chain) :
    h.refsFrom d o ≤ h.heldBy chain o := by
  induction chain with
  | nil => simp at hd
  | cons a rest ih =>
    rw [heldBy_cons]
    rcases List.mem_cons.1 hd with e | e
    · rw [e]; omega
    · have := ih e; omega

theorem heldBy_congr {h h2 : Heap} (chain : List Nat) (o : Nat)
    (hr : ∀ d ∈ chain, h2.refsFrom d o = h.refsFrom d o) : h2.heldBy chain o = h.heldBy chain o := by
  induction chain with
  | nil => rfl
  | cons a rest ih =>
    rw [heldBy_cons, heldBy_cons, hr a (by simp), ih (fun d hd => hr d (by simp [hd]))]

theorem Held.alive {h : Heap} {ext : Nat → Nat} {chain : List Nat} (hh : h.Held ext chain)
    {d : Nat} (hd : d ∈ chain) : (h.read d).isSome = true := by
  induction chain with
  | nil => simp at hd
  | cons a rest ih =>
    rcases List.mem_cons.1 hd with e | e
    · rw [e]; exact hh.1
    · exact ih hh.2.2 e

theorem Held.ge_one {h : Heap} {ext : Nat → Nat} {chain : List Nat} (hh : h.Held ext chain)
    {d : Nat} (hd : d ∈ chain) : 1 ≤ ext d + h.heldBy chain d := by
  induction chain with
  | nil => simp at hd
  | cons a rest ih =>
    rw [heldBy_cons]
    rcases List.mem_cons.1 hd with e | e
    · rw [e]; have := hh.2.1; omega
    · have := ih hh.2.2 e; omega

/-- The count of references depends on the set of objects set aside only. -/
theorem inrefs_of_mem_iff {u v : List Nat} (h : Heap) (o : Nat)
    (hm : ∀ p, p ∈ u ↔ p ∈ v) : h.inrefs u o = h.inrefs v o := by
  unfold inrefs
  congr 1
  apply List.map_congr_left
  intro p _
  by_cases hp : p ∈ u
  · rw [if_pos hp, if_pos ((hm p).1 hp)]
  · rw [if_neg hp, if_neg (fun e => hp ((hm p).2 e))]

/-- The references split into those held by the objects set aside and those
held by the others. -/
theorem inrefs_split (h : Heap) (o : Nat) : ∀ (chain skip : List Nat), chain.Nodup →
    (∀ d ∈ chain, h.valid d ∧ d ∉ skip) →
    h.inrefs skip o = h.heldBy chain o + h.inrefs (chain ++ skip) o := by
  intro chain
  induction chain with
  | nil => intro skip _ _; simp [heldBy]
  | cons a rest ih =>
    intro skip hnd hv
    have hnd2 := List.nodup_cons.1 hnd
    rw [heldBy_cons, inrefs_peel skip h a o (hv a (by simp)).1 (hv a (by simp)).2,
      ih (a :: skip) hnd2.2 (fun d hd => ⟨(hv d (by simp [hd])).1, by
        intro e
        rcases List.mem_cons.1 e with e | e
        · exact hnd2.1 (e ▸ hd)
        · exact (hv d (by simp [hd])).2 e⟩)]
    rw [inrefs_of_mem_iff (u := rest ++ a :: skip) (v := a :: rest ++ skip) h o (by
      intro p; simp only [List.mem_append, List.mem_cons]; tauto)]
    omega

end Heap

namespace Counted

/-- A live object that is held elsewhere is set aside: the references in its
fields count as held elsewhere. -/
theorem setAside {skip : List Nat} {h : Heap} {ext : Nat → Nat} (c : Counted skip h ext)
    {a : Nat} {x : Cell} (hr : h.read a = some x) (he : 1 ≤ ext a) (hs : a ∉ skip) :
    Counted (a :: skip) h (fun o => ext o + h.refsFrom a o) := by
  have hv := Heap.valid_of_read hr
  refine ⟨List.nodup_cons.2 ⟨hs, c.nodup⟩, ?_, c.bounded, ?_, ?_, ?_⟩
  · intro d hd
    rcases List.mem_cons.1 hd with e | e
    · rw [e]; exact hv
    · exact c.valid d e
  · intro p y hp hy o ho
    exact c.alive p y (fun e => hp (by simp [e])) hy o ho
  · intro o y hy
    have := c.balance o y hy
    rw [Heap.inrefs_peel skip h a o hv hs] at this
    omega
  · intro d hd y hy
    rcases List.mem_cons.1 hd with e | e
    · right; rw [e]; omega
    · rcases c.guarded d e y hy with h0 | h1
      · exact Or.inl h0
      · right; omega

/-- The owners of a container are set aside one after the other, from the one
that is held outside the heap on. -/
theorem setAside_chain {h : Heap} {ext : Nat → Nat} (c : Counted [] h ext) :
    ∀ (chain : List Nat), chain.Nodup → h.Held ext chain →
      Counted chain h (fun o => ext o + h.heldBy chain o) := by
  intro chain
  induction chain with
  | nil =>
    intro _ _
    have : (fun o => ext o + h.heldBy [] o) = ext := by funext o; simp [Heap.heldBy]
    rw [this]; exact c
  | cons a rest ih =>
    intro hnd hh
    have hnd2 := List.nodup_cons.1 hnd
    obtain ⟨x, hx⟩ := Option.isSome_iff_exists.1 hh.1
    have := (ih hnd2.2 hh.2.2).setAside hx hh.2.1 hnd2.1
    have e : (fun o => ext o + h.heldBy (a :: rest) o) =
        fun o => ext o + h.heldBy rest o + h.refsFrom a o := by
      funext o; rw [Heap.heldBy_cons]; omega
    rw [e]; exact this

/-- The objects set aside are counted again as the holders of their fields. -/
theorem unAside {chain : List Nat} {h : Heap} {ext ext2 : Nat → Nat}
    (c : Counted chain h ext2) (he : ∀ o, ext2 o = ext o + h.heldBy chain o)
    (hal : ∀ d ∈ chain, ∀ x, h.read d = some x → ∀ o ∈ x.body.owned, (h.read o).isSome = true) :
    Counted [] h ext := by
  refine ⟨List.nodup_nil, by simp, c.bounded, ?_, ?_, by simp⟩
  · intro p x _ hx o ho
    by_cases hp : p ∈ chain
    · exact hal p hp x hx o ho
    · exact c.alive p x hp hx o ho
  · intro o x hx
    have := c.balance o x hx
    rw [he] at this
    rw [Heap.inrefs_split h o chain [] c.nodup (fun d hd => ⟨c.valid d hd, by simp⟩),
      List.append_nil]
    omega

end Counted


namespace SXObject

/-- A container `a` that is held, directly or through its owners `chain`, from
outside the heap calls `release()` on an object that one of its fields points
to: the call returns, the container and its owners stay alive with their
fields, and once the container has dropped the pointer from its fields the
heap is well counted as before. -/
theorem release_held {h : Heap} {ext : Nat → Nat} (c : Counted [] h ext) {a : Nat}
    {chain : List Nat} (hnd : (a :: chain).Nodup) (hh : h.Held ext (a :: chain))
    {rcA : Nat} {bA : Body} (ha : h.read a = some ⟨rcA, bA⟩) {o : Nat} (ho : o ∈ bA.owned) :
    ∃ fuel h1 rc1, release fuel h o = .ok h1 ∧ h1.read a = some ⟨rc1, bA⟩ ∧
      Released (a :: chain) h (fun q => ext q + h.heldBy (a :: chain) q) [o] h1 ∧
      (∀ x, h.read o = some x → h1.read o =
        if x.m_referenceCount = 1 then none else some ⟨x.m_referenceCount - 1, x.body⟩) ∧
      (∀ d ∈ chain, ∃ x x1, h.read d = some x ∧ h1.read d = some x1 ∧ x1.body = x.body) ∧
      (∀ bA2 : Body, (∀ q, bA2.owned.count q + [o].count q = bA.owned.count q) →
        Counted [] (h1.write a ⟨rc1, bA2⟩) ext) := by
  have cS := c.setAside_chain (a :: chain) hnd hh
  have hoa := c.alive a _ (by simp) ha o ho
  obtain ⟨x, hx⟩ := Option.isSome_iff_exists.1 hoa
  have hcnt : 1 ≤ bA.owned.count o := List.count_pos_iff.2 ho
  have hra : h.refsFrom a o = bA.owned.count o := Heap.refsFrom_of_read ha o
  have hge : ∀ d ∈ a :: chain, 1 ≤ ext d + h.heldBy (a :: chain) d := fun d hd => hh.ge_one hd
  have hge2 : o ∈ a :: chain → 2 ≤ ext o + h.heldBy (a :: chain) o := by
    intro hm
    rw [Heap.heldBy_cons, hra]
    rcases List.mem_cons.1 hm with e | e
    · have := hh.2.1
      rw [e]
      rw [e] at hcnt
      omega
    · have := hh.2.2.ge_one e
      omega
  have he1 : 1 ≤ ext o + h.heldBy (a :: chain) o := by
    rw [Heap.heldBy_cons, hra]; omega
  obtain ⟨f, h1, e, r, hfate⟩ := release_counted cS hx he1 hge2
  have hkb := release_keeps_bodies e
  -- the container and its owners stay
  have hstay : ∀ d ∈ a :: chain, ∃ y y1, h.read d = some y ∧ h1.read d = some y1 ∧
      y1.body = y.body := by
    intro d hd
    have hal1 : (h1.read d).isSome = true := by
      apply r.kept d (hh.alive hd)
      by_cases hdo : d = o
      · have := hge2 (hdo ▸ hd)
        simp only [dropTokens, hdo, List.count_cons_self, List.count_nil]
        omega
      · have := hge d hd
        have h0 : [o].count d = 0 := by simp [List.count_cons, Ne.symm hdo]
        simp only [dropTokens, h0]
        omega
    obtain ⟨y1, hy1⟩ := Option.isSome_iff_exists.1 hal1
    obtain ⟨y, hy, hb⟩ := hkb d y1 hy1
    exact ⟨y, y1, hy, hy1, hb.symm⟩
  obtain ⟨y, y1, hy, hy1, hb⟩ := hstay a (by simp)
  rw [ha] at hy
  cases hy
  obtain ⟨rc1, b1⟩ := y1
  simp only at hb
  subst hb
  have hv1 := Heap.valid_of_read hy1
  refine ⟨f, h1, rc1, e, hy1, r, ?_, fun d hd => hstay d (by simp [hd]), ?_⟩
  · intro x2 hx2
    rw [hx] at hx2
    cases hx2
    exact hfate
  · intro bA2 hown
    have c2 := r.counted.write_skip (B := bA2) (List.mem_cons_self a chain) hy1
    have hrefs : ∀ d ∈ chain, ∀ q, (h1.write a ⟨rc1, bA2⟩).refsFrom d q = h.refsFrom d q := by
      intro d hd q
      have hda : d ≠ a := fun e => (List.nodup_cons.1 hnd).1 (e ▸ hd)
      obtain ⟨y, y1, hy, hy1', hb'⟩ := hstay d (by simp [hd])
      rw [Heap.refsFrom_write]
      simp only [hda, false_and, if_false]
      rw [Heap.refsFrom_of_read hy, Heap.refsFrom_of_read hy1', hb']
    have hheld : ∀ q, (h1.write a ⟨rc1, bA2⟩).heldBy (a :: chain) q + [o].count q =
        h.heldBy (a :: chain) q := by
      intro q
      rw [Heap.heldBy_cons, Heap.heldBy_cons, Heap.heldBy_congr chain q (fun d hd => hrefs d hd q),
        Heap.refsFrom_write, Heap.refsFrom_of_read ha]
      simp only [hv1, and_self, if_true]
      have := hown q
      omega
    apply c2.unAside
    · intro q
      have := hheld q
      simp only [dropTokens]
      omega
    · intro d hd y hy q hq
      -- `q` is held in the new heap by `d`
      have hq1 : 1 ≤ (h1.write a ⟨rc1, bA2⟩).heldBy (a :: chain) q := by
        have := Heap.refsFrom_le_heldBy (h1.write a ⟨rc1, bA2⟩) (a :: chain) d q hd
        rw [Heap.refsFrom_of_read hy] at this
        have := List.count_pos_iff.2 hq
        omega
      have hq0 : (h.read q).isSome = true := by
        -- some member of the chain held `q` before
        have hsum := hheld q
        have hpos : 1 ≤ h.heldBy (a :: chain) q := by omega
        by_contra hdead
        have hnone : h.read q = none := by
          cases hrq : h.read q with
          | none => rfl
          | some z => rw [hrq] at hdead; simp at hdead
        have : h.heldBy (a :: chain) q = 0 := by
          unfold Heap.heldBy
          apply List.sum_eq_zero
          intro n hn
          obtain ⟨d2, hd2, rfl⟩ := List.mem_map.1 hn
          obtain ⟨z, hz⟩ := Option.isSome_iff_exists.1 (hh.alive hd2)
          rw [Heap.refsFrom_of_read hz]
          apply List.count_eq_zero_of_not_mem
          intro hm
          have := c.alive d2 z (by simp) hz q hm
          rw [hnone] at this
          simp at this
        omega
      have hq2 : (h1.read q).isSome = true := by
        apply r.kept q hq0
        have := hheld q
        simp only [dropTokens]
        omega
      rw [Heap.read_write]
      split
      · rfl
      · exact hq2

end SXObject


theorem SXArray.owned_split (cap : Nat) (l1 l2 junk : List Nat) (o : Nat) (ho : o ≠ 0) :
    (∀ q, (Body.array cap (l1.length + l2.length) (l1 ++ l2 ++ junk)).owned.count q +
        [o].count q =
      (Body.array cap (l1.length + 1 + l2.length) (l1 ++ o :: l2 ++ junk)).owned.count q) ∧
    o ∈ (Body.array cap (l1.length + 1 + l2.length) (l1 ++ o :: l2 ++ junk)).owned := by
  have e1 : (l1 ++ l2 ++ junk).take (l1.length + l2.length) = l1 ++ l2 :=
    List.take_left' (by simp)
  have e2 : (l1 ++ o :: l2 ++ junk).take (l1.length + 1 + l2.length) = l1 ++ o :: l2 :=
    List.take_left' (by simp; omega)
  constructor
  · intro q
    simp only [Body.owned, e1, e2, List.filter_append, List.filter_cons, List.count_append,
      List.count_cons, List.count_nil]
    simp only [ne_eq, ho, not_false_eq_true, decide_True, if_true, List.count_cons]
    omega
  · simp only [Body.owned, e2]
    simp [ho]

/-- The method `SXArray::removeObject` on an array that is held, directly or
through its owners, from outside the heap, for an object of any class that
occurs in the sequence, with `l1` the entries before its first occurrence. -/
theorem SXArray.removeObject_held {h : Heap} {ext : Nat → Nat} (c : Counted [] h ext) {a : Nat}
    {chain : List Nat} (hnd : (a :: chain).Nodup) (hh : h.Held ext (a :: chain))
    {rcA cap o : Nat} {l1 l2 junk : List Nat}
    (ha : h.read a = some ⟨rcA, .array cap (l1.length + 1 + l2.length) (l1 ++ o :: l2 ++ junk)⟩)
    (hn : o ∉ l1) (ho : o ≠ 0) :
    ∃ fuel h1 rc1, SXObject.release fuel h o = .ok h1 ∧
      h1.read a = some ⟨rc1, .array cap (l1.length + 1 + l2.length) (l1 ++ o :: l2 ++ junk)⟩ ∧
      (∀ k, SXArray.removeObject (fuel + k) h a o = .ok (h1.write a
        ⟨rc1, .array cap (l1.length + l2.length) (l1 ++ l2 ++ l2.getLastD 0 :: junk)⟩)) ∧
      Released (a :: chain) h (fun q => ext q + h.heldBy (a :: chain) q) [o] h1 ∧
      (∀ x, h.read o = some x → h1.read o =
        if x.m_referenceCount = 1 then none else some ⟨x.m_referenceCount - 1, x.body⟩) ∧
      (∀ d ∈ chain, ∃ x x1, h.read d = some x ∧ h1.read d = some x1 ∧ x1.body = x.body) ∧
      Counted [] (h1.write a
        ⟨rc1, .array cap (l1.length + l2.length) (l1 ++ l2 ++ l2.getLastD 0 :: junk)⟩) ext := by
  obtain ⟨hown, hmem⟩ := SXArray.owned_split cap l1 l2 junk o ho
  obtain ⟨f, h1, rc1, e, ha1, r, hfate, hst, hc⟩ := SXObject.release_held c hnd hh ha hmem
  refine ⟨f, h1, rc1, e, ha1, ?_, r, hfate, hst, ?_⟩
  · intro k
    unfold SXArray.removeObject
    simp only [SXArray.indexOfObject, ha, SXArray.indexOfObjectFrom_found o l1 l2 junk hn,
      Outcome.bind, bind, SXObject.release_mono e k]
    exact SXArray.closeGap_shift h1 a _ cap o l1 l2 junk ha1
  · apply hc
    intro q
    have := (SXArray.owned_split cap l1 l2 (l2.getLastD 0 :: junk) o ho).1 q
    have e1 : (Body.array cap (l1.length + 1 + l2.length)
        (l1 ++ o :: l2 ++ l2.getLastD 0 :: junk)).owned =
        (Body.array cap (l1.length + 1 + l2.length) (l1 ++ o :: l2 ++ junk)).owned := by
      simp only [Body.owned]
      rw [@List.take_left' _ (l1 ++ o :: l2) _ _ (by simp; omega),
        @List.take_left' _ (l1 ++ o :: l2) _ _ (by simp; omega)]
    rw [e1] at this
    exact this


/-! ## C18: `removeObject`, for objects of every class -/

/-- C18: `removeObject(o)` on an array whose buffer has `m_capacity` slots, and
on a release pool with such an array. If `o` does not occur in the sequence the
heap is unchanged. If `o` occurs, in a heap whose counts cover the stored
pointers (`Counted [] h ext`) and for an array that is held, directly or
through its owners `chain` (its pool, the stack of the manager), from outside
the heap, the call returns for an object of any class: the new sequence is the
old one without the first occurrence of `o` (the other entries keep their
order, the length drops by one), `release()` is called exactly once on `o`,
which is destroyed when that was its only reference and keeps the other
references otherwise; when `o` stays alive no other call is made and no other
count changes, when `o` is destroyed the objects that no other live object holds
keep their counts, and the heap is well counted as before. -/
theorem removeObject_removes_first_occurrence (fuel : Nat) (h : Heap) (a o rcA cap count : Nat)
    (arr : List Nat) (ha : h.read a = some ⟨rcA, .array cap count arr⟩)
    (hlen : arr.length = cap) (hcount : count ≤ cap) :
    (o ∉ h.elements a → SXArray.removeObject fuel h a o = .ok h ∧
      ∀ p rcP, h.read p = some ⟨rcP, .pool a⟩ →
        SXAutoreleasePool.removeObject fuel h p o = .ok h) ∧
    (o ∈ h.elements a → o ≠ 0 → ∀ (ext : Nat → Nat) (chain : List Nat), Counted [] h ext →
      (a :: chain).Nodup → h.Held ext (a :: chain) →
      ∃ fuel2 h2 evs c body, h.read o = some ⟨c, body⟩ ∧
        (∀ k, SXArray.removeObject (fuel2 + k) h a o = .ok h2) ∧
        h2.elements a = (h.elements a).erase o ∧
        (∀ l1 l2, h.elements a = l1 ++ o :: l2 → o ∉ l1 → h2.elements a = l1 ++ l2) ∧
        (h2.elements a).length + 1 = (h.elements a).length ∧
        h2.trace = h.trace ++ evs ∧ (releasedObjects evs).count o = 1 ∧
        h2.retainCount o = (if c = 1 then none else some (c - 1)) ∧
        (c ≠ 1 → evs = [.release o c] ∧ ∀ q, q ≠ o → h2.retainCount q = h.retainCount q) ∧
        (∀ q, q ≠ o → h.inrefs (a :: chain) q = 0 → h2.retainCount q = h.retainCount q) ∧
        Counted [] h2 ext ∧
        (∀ p rcP, h.read p = some ⟨rcP, .pool a⟩ → p ∈ chain →
          (∀ k, SXAutoreleasePool.removeObject (fuel2 + k) h p o = .ok h2) ∧
          h.registrations p = h.elements a ∧ h2.registrations p = h2.elements a)) := by
  have hel : h.elements a = arr.take count := by simp [Heap.elements, ha]
  refine ⟨?_, ?_⟩
  · intro hn
    have e := SXArray.removeObject_absent fuel h a o rcA cap count arr ha hlen hcount hn
    refine ⟨e, ?_⟩
    intro p rcP hp
    simp [SXAutoreleasePool.removeObject, SXAutoreleasePool.objects, hp, e]
  · intro hm ho0 ext chain cnt hnd hh
    obtain ⟨l1, l2, hsplit, hn⟩ := exists_first_occurrence o _ hm
    have hl1 : (arr.take count).length = count := by simp [hlen, hcount]
    have hcnt : count = l1.length + 1 + l2.length := by
      rw [← hl1, ← hel, hsplit]; simp; omega
    have harr : arr = l1 ++ o :: l2 ++ arr.drop count := by
      rw [← hsplit, hel, List.take_append_drop]
    have ha' : h.read a = some ⟨rcA, .array cap (l1.length + 1 + l2.length)
        (l1 ++ o :: l2 ++ arr.drop count)⟩ := by
      rw [← harr, ← hcnt]; exact ha
    obtain ⟨f, h1, rc1, e, ha1, erem, r, hfate, hst, hc2⟩ :=
      SXArray.removeObject_held cnt hnd hh ha' hn ho0
    have hoa := cnt.alive a _ (by simp) ha' o (SXArray.owned_split cap l1 l2 _ o ho0).2
    obtain ⟨⟨c, body⟩, hx⟩ := Option.isSome_iff_exists.1 hoa
    have hfo := hfate _ hx
    simp only at hfo
    have hv1 := Heap.valid_of_read ha1
    obtain ⟨evs, t, sl, acc⟩ := r.trace
    have cS := cnt.setAside_chain (a :: chain) hnd hh
    have hbal := cS.balance o _ hx
    simp only at hbal
    have hra : h.refsFrom a o = (Body.array cap (l1.length + 1 + l2.length)
        (l1 ++ o :: l2 ++ arr.drop count)).owned.count o := Heap.refsFrom_of_read ha' o
    have hpos := List.count_pos_iff.2 (SXArray.owned_split cap l1 l2 (arr.drop count) o ho0).2
    have hbd := cnt.bounded o _ hx
    simp only at hbd
    have hheld1 : 1 ≤ h.heldBy (a :: chain) o := by
      have := Heap.refsFrom_le_heldBy h (a :: chain) a o (by simp)
      omega
    -- the state when `o` stays alive
    have hkeep : c ≠ 1 → h1 = (h.write o ⟨c - 1, body⟩).log (.release o c) := by
      intro hc1
      have hc2' : 2 ≤ c := by
        have := cnt.balance o _ hx
        have := Heap.inrefs_split h o (a :: chain) [] hnd
          (fun d hd => ⟨Heap.valid_of_read (Option.isSome_iff_exists.1 (hh.alive hd)).choose_spec,
            by simp⟩)
        simp only [List.append_nil] at this
        omega
      have ek := SXObject.release_keeps f h o c body hx hc2' hbd
      have := SXObject.release_mono e 1
      rw [ek] at this
      cases this
      rfl
    have hel2 : (h1.write a ⟨rc1, .array cap (l1.length + l2.length)
        (l1 ++ l2 ++ l2.getLastD 0 :: arr.drop count)⟩).elements a = l1 ++ l2 := by
      simp only [Heap.elements, Heap.read_write, hv1, and_self, if_true]
      rw [show l1 ++ l2 ++ l2.getLastD 0 :: arr.drop count =
        (l1 ++ l2) ++ (l2.getLastD 0 :: arr.drop count) by simp]
      exact List.take_left' (by simp)
    refine ⟨f, _, evs, c, body, hx, erem, ?_, ?_, ?_, by simp [t], ?_, ?_, ?_, ?_, hc2, ?_⟩
    · rw [hel2, hsplit, erase_first_occurrence o l1 l2 hn]
    · intro m1 m2 hm12 hn1
      rw [hel2, ← erase_first_occurrence o l1 l2 hn, ← hsplit, hm12,
        erase_first_occurrence o m1 m2 hn1]
    · rw [hel2, hsplit]; simp; omega
    · have h1' := acc o
      have h2' := r.mono o
      rw [List.count_cons_self, List.count_nil] at h1'
      by_cases hc1 : c = 1
      · omega
      · have := hkeep hc1
        rw [this] at t
        simp only [Heap.trace_log, Heap.trace_write] at t
        have := List.append_cancel_left t
        rw [← this]
        simp [releasedObjects]
    · by_cases hoa' : o = a
      · subst hoa'
        rw [ha1] at hfo
        rw [hx] at ha'
        simp only [Heap.retainCount, Heap.read_write, hv1, and_self, if_true, Option.map_some']
        split at hfo
        · cases hfo
        · rename_i hc1
          cases hfo
          simp [hc1]
      · simp only [Heap.retainCount, Heap.read_write, hoa', false_and, if_false, hfo]
        by_cases hc1 : c = 1 <;> simp [hc1]
    · intro hc1
      have hk := hkeep hc1
      have hvo := Heap.valid_of_read hx
      constructor
      · rw [hk] at t
        simp only [Heap.trace_log, Heap.trace_write] at t
        exact (List.append_cancel_left t).symm
      · intro q hq
        by_cases hqa : q = a
        · subst hqa
          have : h1.read q = h.read q := by
            rw [hk, Heap.read_log, Heap.read_write]; simp [hq]
          rw [ha1, ha'] at this
          cases this
          simp [Heap.retainCount, Heap.read_write, hv1, ha']
        · simp only [Heap.retainCount, Heap.read_write, hqa, false_and, if_false]
          rw [hk, Heap.read_log, Heap.read_write]
          simp [hq]
    · intro q hq h0
      by_cases hqa : q = a
      · subst hqa
        have := r.frame q (by simpa using hq) h0
        rw [ha1, ha'] at this
        cases this
        simp [Heap.retainCount, Heap.read_write, hv1, ha']
      · simp only [Heap.retainCount, Heap.read_write, hqa, false_and, if_false]
        rw [r.frame q (by simpa using hq) h0]
    · intro p rcP hp hpc
      have hpa : p ≠ a := fun e0 => (List.nodup_cons.1 hnd).1 (e0 ▸ hpc)
      obtain ⟨y, y1, hy, hy1, hb⟩ := hst p hpc
      rw [hp] at hy
      cases hy
      obtain ⟨rcP2, bP⟩ := y1
      simp only at hb
      subst hb
      refine ⟨?_, by simp [Heap.registrations, hp], ?_⟩
      · intro k
        simp [SXAutoreleasePool.removeObject, SXAutoreleasePool.objects, hp, erem k]
      · have : (h1.write a ⟨rc1, .array cap (l1.length + l2.length)
            (l1 ++ l2 ++ l2.getLastD 0 :: arr.drop count)⟩).read p = some ⟨rcP2, .pool a⟩ := by
          rw [Heap.read_write]; simp [hpa, hy1]
        unfold Heap.registrations
        rw [this]

/-- Instance of `removeObject_removes_first_occurrence`: the pool of
`poolWithContainer` holds `[3, 5]`; the object 9 does not occur, and removing
the array 3, whose only reference is the registration, destroys it together
with the string that it holds and leaves `[5]`. -/
theorem removeObject_removes_first_occurrence_witness :
    (poolWithContainer.read 2 = some ⟨1, .array 4 2 [3, 5, 0, 0]⟩ ∧
      9 ∉ poolWithContainer.elements 2 ∧
      SXArray.removeObject 0 poolWithContainer 2 9 = .ok poolWithContainer ∧
      ∀ p rcP, poolWithContainer.read p = some ⟨rcP, .pool 2⟩ →
        SXAutoreleasePool.removeObject 0 poolWithContainer p 9 = .ok poolWithContainer) ∧
    (3 ∈ poolWithContainer.elements 2 ∧
      Counted [] poolWithContainer (fun o => if o = 1 ∨ o = 5 then 1 else 0) ∧
      poolWithContainer.Held (fun o => if o = 1 ∨ o = 5 then 1 else 0) [2, 1] ∧
      ∃ fuel2 h2 evs c body, poolWithContainer.read 3 = some ⟨c, body⟩ ∧
        (∀ k, SXArray.removeObject (fuel2 + k) poolWithContainer 2 3 = .ok h2) ∧
        h2.elements 2 = (poolWithContainer.elements 2).erase 3 ∧
        (∀ l1 l2, poolWithContainer.elements 2 = l1 ++ 3 :: l2 → 3 ∉ l1 →
          h2.elements 2 = l1 ++ l2) ∧
        (h2.elements 2).length + 1 = (poolWithContainer.elements 2).length ∧
        h2.trace = poolWithContainer.trace ++ evs ∧ (releasedObjects evs).count 3 = 1 ∧
        h2.retainCount 3 = (if c = 1 then none else some (c - 1)) ∧
        (c ≠ 1 → evs = [.release 3 c] ∧
          ∀ q, q ≠ 3 → h2.retainCount q = poolWithContainer.retainCount q) ∧
        (∀ q, q ≠ 3 → poolWithContainer.inrefs [2, 1] q = 0 →
          h2.retainCount q = poolWithContainer.retainCount q) ∧
        Counted [] h2 (fun o => if o = 1 ∨ o = 5 then 1 else 0) ∧
        (∀ p rcP, poolWithContainer.read p = some ⟨rcP, .pool 2⟩ → p ∈ [1] →
          (∀ k, SXAutoreleasePool.removeObject (fuel2 + k) poolWithContainer p 3 = .ok h2) ∧
          poolWithContainer.registrations p = poolWithContainer.elements 2 ∧
          h2.registrations p = h2.elements 2)) :=
  ⟨⟨rfl, by decide,
      (removeObject_removes_first_occurrence 0 poolWithContainer 2 9 1 4 2 [3, 5, 0, 0] rfl rfl
        (by decide)).1 (by decide)⟩,
    by decide, Counted.of_check (by decide), ⟨rfl, by decide, rfl, by decide, trivial⟩,
    (removeObject_removes_first_occurrence 0 poolWithContainer 2 3 1 4 2 [3, 5, 0, 0] rfl rfl
      (by decide)).2 (by decide) (by decide) _ [1] (Counted.of_check (by decide)) (by decide)
      ⟨rfl, by decide, rfl, by decide, trivial⟩⟩


theorem Heap.write_read_self {h : Heap} {p : Nat} {c : Cell} (hr : h.read p = some c) :
    h.write p c = h := by
  unfold Heap.read at hr
  unfold Heap.write
  split at hr
  · cases hr
  · rename_i hp
    rw [if_neg hp]
    cases h with
    | mk cells trace =>
      simp only [Heap.mk.injEq, and_true]
      simp only at hr
      apply List.ext_getElem?
      intro n
      by_cases hn : n = p - 1
      · subst hn
        rw [List.getD_eq_getElem?_getD] at hr
        cases hg : cells[p - 1]? with
        | none => rw [hg] at hr; cases hr
        | some v =>
          rw [hg] at hr
          simp only [Option.getD_some] at hr
          rw [hr]
          rw [List.getElem?_set_self ((List.getElem?_eq_some_iff.1 hg).1)]
      · rw [List.getElem?_set_ne (Ne.symm hn)]

/-- A container stores one more pointer to `o` and `o` is retained once. -/
theorem Counted.store {h h2 : Heap} {ext : Nat → Nat} (c : Counted [] h ext) {a o : Nat}
    {xa xa2 : Cell} (hl : h2.cells.length = h.cells.length)
    (ha : h.read a = some xa) (ha2 : h2.read a = some xa2)
    (hown : ∀ q, xa2.body.owned.count q = xa.body.owned.count q + [o].count q)
    (hoal : (h.read o).isSome = true)
    (hrd : ∀ q x, h.read q = some x → ∃ x2, h2.read q = some x2 ∧
      x2.m_referenceCount = x.m_referenceCount + [o].count q ∧ (q ≠ a → x2.body = x.body))
    (hdead : ∀ q, h.read q = none → h2.read q = none)
    (hbd : ∀ x, h.read o = some x → x.m_referenceCount < UINT_MAX) :
    Counted [] h2 ext := by
  have hva := Heap.valid_of_read ha
  have hva2 := Heap.valid_of_read ha2
  have halive : ∀ q, (h.read q).isSome = true → (h2.read q).isSome = true := by
    intro q hq
    obtain ⟨x, hx⟩ := Option.isSome_iff_exists.1 hq
    obtain ⟨x2, hx2, -⟩ := hrd q x hx
    rw [hx2]; rfl
  have hback : ∀ q x2, h2.read q = some x2 → ∃ x, h.read q = some x ∧
      x2.m_referenceCount = x.m_referenceCount + [o].count q ∧ (q ≠ a → x2.body = x.body) := by
    intro q x2 hx2
    cases hq : h.read q with
    | none => rw [hdead q hq] at hx2; cases hx2
    | some x =>
      obtain ⟨y, hy, h1, h2'⟩ := hrd q x hq
      rw [hx2] at hy
      cases hy
      exact ⟨x, rfl, h1, h2'⟩
  have hrefs : ∀ p q, p ≠ a → h2.refsFrom p q = h.refsFrom p q := by
    intro p q hp
    cases hq : h.read p with
    | none => rw [Heap.refsFrom_of_none hq, Heap.refsFrom_of_none (hdead p hq)]
    | some x =>
      obtain ⟨y, hy, -, hb⟩ := hrd p x hq
      rw [Heap.refsFrom_of_read hq, Heap.refsFrom_of_read hy, hb hp]
  have hin : ∀ q, h2.inrefs [] q = h.inrefs [] q + [o].count q := by
    intro q
    rw [Heap.inrefs_peel [] h2 a q hva2 (by simp), Heap.inrefs_peel [] h a q hva (by simp),
      Heap.refsFrom_of_read ha, Heap.refsFrom_of_read ha2, hown,
      Heap.inrefs_congr (k := [a]) hl (fun p hp => hrefs p q (by simpa using hp))]
    omega
  refine ⟨List.nodup_nil, by simp, ?_, ?_, ?_, by simp⟩
  · intro p x2 hx2
    obtain ⟨x, hx, hcx, -⟩ := hback p x2 hx2
    have := c.bounded p x hx
    by_cases hpo : p = o
    · subst hpo
      have := hbd x hx
      rw [hcx, List.count_cons_self]
      simp only [List.count_nil]
      omega
    · have h0 : [o].count p = 0 := by simp [List.count_cons, Ne.symm hpo]
      rw [hcx, h0]; omega
  · intro p x2 _ hx2 q hq
    obtain ⟨x, hx, -, hb⟩ := hback p x2 hx2
    by_cases hpa : p = a
    · subst hpa
      rw [ha2] at hx2
      cases hx2
      rw [ha] at hx
      cases hx
      have := hown q
      have hpos := List.count_pos_iff.2 hq
      by_cases hqo : q = o
      · rw [hqo]; exact halive o hoal
      · have h0 : [o].count q = 0 := by simp [List.count_cons, Ne.symm hqo]
        apply halive
        apply c.alive p _ (by simp) ha q
        apply List.count_pos_iff.1
        omega
    · apply halive
      apply c.alive p x (by simp) hx q
      rw [← hb hpa]; exact hq
  · intro q x2 hx2
    obtain ⟨x, hx, hcx, -⟩ := hback q x2 hx2
    have := c.balance q x hx
    rw [hin, hcx]
    omega


/-- The count of a surviving object drops by the number of calls of `release()`
made on it. -/
theorem Released.count_eq {skip : List Nat} {h h2 : Heap} {ext : Nat → Nat} {os : List Nat}
    (c : Counted skip h ext) (r : Released skip h ext os h2) {evs : List Event}
    (t : h2.trace = h.trace ++ evs) {q : Nat} {x x2 : Cell} (hx : h.read q = some x)
    (hx2 : h2.read q = some x2) (htok : os.count q ≤ ext q) :
    x2.m_referenceCount + (releasedObjects evs).count q = x.m_referenceCount := by
  obtain ⟨evs2, t2, -, acc⟩ := r.trace
  rw [t] at t2
  have e := List.append_cancel_left t2
  subst e
  have h1 := c.balance q x hx
  have h2' := r.counted.balance q x2 hx2
  have h3 := acc q
  simp only [dropTokens] at h2'
  omega

/-- A call of `release()` on `o` that gives up a reference held elsewhere makes
one call on `o` in all, and no other call when `o` has further references. -/
theorem Released.once {skip : List Nat} {h h1 : Heap} {ext : Nat → Nat} {o c fuel : Nat}
    {b : Body} (cS : Counted skip h ext) (r : Released skip h ext [o] h1)
    (e : SXObject.release fuel h o = .ok h1) (hx : h.read o = some ⟨c, b⟩) (he : 1 ≤ ext o)
    {evs : List Event} (t : h1.trace = h.trace ++ evs) :
    (releasedObjects evs).count o = 1 ∧
    (c ≠ 1 → evs = [.release o c] ∧ h1 = (h.write o ⟨c - 1, b⟩).log (.release o c)) := by
  obtain ⟨evs2, t2, -, acc⟩ := r.trace
  rw [t] at t2
  have e2 := List.append_cancel_left t2
  subst e2
  have hbal := cS.balance o _ hx
  simp only at hbal
  have hbd := cS.bounded o _ hx
  simp only at hbd
  have hkeep : c ≠ 1 → h1 = (h.write o ⟨c - 1, b⟩).log (.release o c) := by
    intro hc1
    have ek := SXObject.release_keeps fuel h o c b hx (by omega) hbd
    have := SXObject.release_mono e 1
    rw [ek] at this
    cases this
    rfl
  have hevs : c ≠ 1 → evs = [.release o c] := by
    intro hc1
    have hk := hkeep hc1
    rw [hk] at t
    simp only [Heap.trace_log, Heap.trace_write] at t
    exact (List.append_cancel_left t).symm
  refine ⟨?_, fun hc1 => ⟨hevs hc1, hkeep hc1⟩⟩
  by_cases hc1 : c = 1
  · have h1' := acc o
    have h2' := r.mono o
    rw [List.count_cons_self, List.count_nil] at h1'
    omega
  · rw [hevs hc1]
    simp [releasedObjects]

namespace SXDictionary

theorem owned_erase (m : List (List Char × Nat)) (key : List Char) (p : Nat)
    (hnd : (m.map Prod.fst).Nodup) (hl : m.lookup key = some p) :
    ∀ q, ((erase m key).map Prod.snd).count q + [p].count q = (m.map Prod.snd).count q := by
  induction m with
  | nil => simp at hl
  | cons e m ih =>
    obtain ⟨k, w⟩ := e
    simp only [List.map_cons, List.nodup_cons] at hnd
    rw [erase_cons]
    rw [lookup_cons] at hl
    intro q
    by_cases hk : k = key
    · subst hk
      rw [if_pos rfl] at hl
      cases hl
      rw [if_pos rfl, erase_absent m k hnd.1]
      simp only [List.map_cons, List.count_cons, List.count_nil]
      omega
    · rw [if_neg hk]
      rw [if_neg (fun h => hk h.symm)] at hl
      have := ih hnd.2 hl q
      simp only [List.map_cons, List.count_cons] at this ⊢
      omega

theorem mem_values_of_lookup (m : List (List Char × Nat)) (key : List Char) (p : Nat)
    (hl : m.lookup key = some p) : p ∈ m.map Prod.snd := by
  induction m with
  | nil => simp at hl
  | cons e m ih =>
    obtain ⟨k, w⟩ := e
    rw [lookup_cons] at hl
    by_cases hk : key = k
    · rw [if_pos hk] at hl
      cases hl
      simp
    · rw [if_neg hk] at hl
      simp [ih hl]

/-- The method `SXDictionary::removeObjectForKey` on a dictionary that is held,
directly or through its owners, from outside the heap, for a key with a stored
object of any class. -/
theorem removeObjectForKey_held {h : Heap} {ext : Nat → Nat} (c : Counted [] h ext) {d : Nat}
    {chain : List Nat} (hndc : (d :: chain).Nodup) (hh : h.Held ext (d :: chain))
    {rcD p : Nat} {m : List (List Char × Nat)} {key : List Char}
    (hd : h.read d = some ⟨rcD, .dictionary m⟩) (hnd : (m.map Prod.fst).Nodup)
    (hl : m.lookup key = some p) (hp0 : p ≠ 0) :
    ∃ fuel h1 rc1, SXObject.release fuel h p = .ok h1 ∧
      h1.read d = some ⟨rc1, .dictionary m⟩ ∧
      (∀ j, removeObjectForKey (fuel + j) h d key =
        .ok (h1.write d ⟨rc1, .dictionary (erase m key)⟩)) ∧
      Released (d :: chain) h (fun q => ext q + h.heldBy (d :: chain) q) [p] h1 ∧
      (∀ x, h.read p = some x → h1.read p =
        if x.m_referenceCount = 1 then none else some ⟨x.m_referenceCount - 1, x.body⟩) ∧
      Counted [] (h1.write d ⟨rc1, .dictionary (erase m key)⟩) ext := by
  have hmem : p ∈ (Body.dictionary m).owned := mem_values_of_lookup m key p hl
  obtain ⟨f, h1, rc1, e, hd1, r, hfate, -, hc⟩ := SXObject.release_held c hndc hh hd hmem
  refine ⟨f, h1, rc1, e, hd1, ?_, r, hfate, hc _ (owned_erase m key p hnd hl)⟩
  intro j
  have hw : h.write d ⟨rcD, .dictionary m⟩ = h := Heap.write_read_self hd
  simp only [removeObjectForKey, objectForKey, hd, subscript_present m key p hl, hw,
    Outcome.bind, ne_eq, hp0, not_false_eq_true, if_true, SXObject.release_mono e j, hd1]

/-- The tail of `setObject`, `pObject->retain(); (*m_pMap)[rKey] = pObject`,
for any live object below the largest count. -/
theorem retain_assign_any (h1 : Heap) (d o rcD c1 : Nat) (m1 : List (List Char × Nat))
    (key : List Char) (body : Body) (hd : h1.read d = some ⟨rcD, .dictionary m1⟩)
    (ho : h1.read o = some ⟨c1, body⟩) (hc1 : c1 < UINT_MAX) :
    ∃ h3, ((SXObject.retain h1 o).bind fun h2 =>
        match h2.read d with
        | some ⟨rc, .dictionary m_pMap⟩ =>
          Outcome.ok (h2.write d ⟨rc, .dictionary (assign m_pMap key o)⟩)
        | _ => Outcome.undefined) = .ok h3 ∧
      h3.read d = some ⟨rcD + [o].count d, .dictionary (assign m1 key o)⟩ ∧
      h3.cells.length = h1.cells.length ∧ h3.trace = h1.trace ∧
      (∀ q x, h1.read q = some x → ∃ x2, h3.read q = some x2 ∧
        x2.m_referenceCount = x.m_referenceCount + [o].count q ∧ (q ≠ d → x2.body = x.body)) ∧
      (∀ q, h1.read q = none → h3.read q = none) := by
  have hvD := Heap.valid_of_read hd
  have hvO := Heap.valid_of_read ho
  have hw : wrap (c1 + 1) = c1 + 1 := wrap_succ c1 hc1
  have e2 : SXObject.retain h1 o = .ok (h1.write o ⟨c1 + 1, body⟩) := by
    simp [SXObject.retain, ho, hw]
  have rbD : (h1.write o ⟨c1 + 1, body⟩).read d =
      some ⟨rcD + [o].count d, .dictionary m1⟩ := by
    rw [Heap.read_write]
    by_cases hdo : d = o
    · subst hdo
      rw [hd] at ho
      cases ho
      simp [hvO]
    · have h0 : [o].count d = 0 := by simp [List.count_cons, Ne.symm hdo]
      simp [hdo, hd, h0]
  have hvbD := Heap.valid_of_read rbD
  refine ⟨(h1.write o ⟨c1 + 1, body⟩).write d
    ⟨rcD + [o].count d, .dictionary (assign m1 key o)⟩, ?_, ?_, by simp, by simp, ?_, ?_⟩
  · simp only [e2, Outcome.bind, rbD]
  · rw [Heap.read_write]; simp [hvbD]
  · intro q x hx
    by_cases hqd : q = d
    · subst hqd
      rw [hd] at hx
      cases hx
      exact ⟨⟨rcD + [o].count q, .dictionary (assign m1 key o)⟩,
        by rw [Heap.read_write]; simp [hvbD], rfl, fun hne => absurd rfl hne⟩
    · by_cases hqo : q = o
      · subst hqo
        rw [ho] at hx
        cases hx
        refine ⟨⟨c1 + 1, body⟩, ?_, by simp, fun _ => rfl⟩
        rw [Heap.read_write]
        simp only [hqd, false_and, if_false]
        rw [Heap.read_write]
        simp [hvO]
      · refine ⟨x, ?_, by simp [List.count_cons, Ne.symm hqo], fun _ => rfl⟩
        rw [Heap.read_write]
        simp only [hqd, false_and, if_false]
        rw [Heap.read_write]
        simp [hqo, hx]
  · intro q hq
    have hqd : q ≠ d := fun e => by rw [e, hd] at hq; cases hq
    have hqo : q ≠ o := fun e => by rw [e, ho] at hq; cases hq
    rw [Heap.read_write]
    simp only [hqd, false_and, if_false]
    rw [Heap.read_write]
    simp [hqo, hq]

end SXDictionary


/-! ## C31: `setObject`, for stored objects of every class -/

namespace SXDictionary

/-- C31, amended: `setObject(o, k)` on a dictionary with distinct keys and a
live object `o` whose count `c` is below `UINT_MAX`. When `k` is absent or
holds a null pointer the call returns in any heap: `objectForKey(k)` returns
`o`, the entries under all other keys are unchanged, `count()` is one higher if
`k` was absent and unchanged otherwise, the count of `o` is `c + 1`, no call of
`release()` is made and no other object changes. When an object `p` of any
class is stored under `k`, in a heap whose counts cover the stored pointers
(`Counted [] h ext`), for a dictionary that is held, directly or through its
owners `chain`, from outside the heap and an object `o` that the caller holds,
the call returns: `objectForKey(k)` returns `o`, the other entries and
`count()` are unchanged, exactly one call of `release()` is made on `p`, which
is destroyed when that was its only reference (whatever its destructor
releases in turn), and the count of `o` is `c + 1` minus the number of calls
of `release()` made on `o`: it is `c` when `o` itself was stored under `k`, and
`c + 1` when `p` is another object and no live object other than the
dictionary and its owners holds `o`. The heap is well counted as before. -/
theorem setObject_stores (h : Heap) (d o rcD c : Nat)
    (m : List (List Char × Nat)) (k : List Char) (body : Body)
    (hd : h.read d = some ⟨rcD, .dictionary m⟩) (hnd : (m.map Prod.fst).Nodup)
    (ho : h.read o = some ⟨c, body⟩) (hc : c < UINT_MAX) :
    ((m.lookup k = none ∨ m.lookup k = some 0) → ∀ fuel, ∃ h2 m2 rc2,
      setObject fuel h d o k = .ok h2 ∧ h2.read d = some ⟨rc2, .dictionary m2⟩ ∧
      (∃ h3, objectForKey h2 d k = .ok (h3, o)) ∧
      (∀ k2, k2 ≠ k → m2.lookup k2 = m.lookup k2) ∧
      count h2 d = .ok (if m.lookup k = none then m.length + 1 else m.length) ∧
      SXObject.retainCount h2 o = .ok (c + 1) ∧ h2.trace = h.trace ∧
      (∀ q, q ≠ d → q ≠ o → h2.read q = h.read q)) ∧
    (∀ p, m.lookup k = some p → p ≠ 0 → ∀ (ext : Nat → Nat) (chain : List Nat),
      Counted [] h ext → (d :: chain).Nodup → h.Held ext (d :: chain) → 1 ≤ ext o →
      ∃ fuel2 h2 m2 rc2 evs, (∀ j, setObject (fuel2 + j) h d o k = .ok h2) ∧
        h2.read d = some ⟨rc2, .dictionary m2⟩ ∧
        (∃ h3, objectForKey h2 d k = .ok (h3, o)) ∧
        (∀ k2, k2 ≠ k → m2.lookup k2 = m.lookup k2) ∧
        count h2 d = .ok m.length ∧
        h2.trace = h.trace ++ evs ∧ (releasedObjects evs).count p = 1 ∧
        SXObject.retainCount h2 o = .ok (c + 1 - (releasedObjects evs).count o) ∧
        (p = o → evs = [.release o c]) ∧
        (p ≠ o → h.inrefs (d :: chain) o = 0 → (releasedObjects evs).count o = 0) ∧
        (p ≠ o → ∀ cp bp, h.read p = some ⟨cp, bp⟩ →
          h2.retainCount p = if cp = 1 then none else some (cp - 1)) ∧
        Counted [] h2 ext) := by
  have fin : ∀ (h2 : Heap) (m1 : List (List Char × Nat)) (rc : Nat),
      h2.read d = some ⟨rc, .dictionary (assign m1 k o)⟩ →
      ∃ h3, objectForKey h2 d k = .ok (h3, o) := by
    intro h2 m1 rc hd2
    obtain ⟨h3, e3, _⟩ := objectForKey_present h2 d rc _ k o hd2 (assign_spec m1 k o).1
    exact ⟨h3, e3⟩
  refine ⟨?_, ?_⟩
  · -- no object is stored under the key
    intro hlk fuel
    have step : ∀ (h1 : Heap) (m1 : List (List Char × Nat)),
        removeObjectForKey fuel h d k = .ok h1 →
        h1.read d = some ⟨rcD, .dictionary m1⟩ →
        (∀ q, q ≠ d → h1.read q = h.read q) → h1.trace = h.trace →
        h1.cells.length = h.cells.length →
        ∃ h2 rc2, setObject fuel h d o k = .ok h2 ∧
          h2.read d = some ⟨rc2, .dictionary (assign m1 k o)⟩ ∧
          SXObject.retainCount h2 o = .ok (c + 1) ∧ h2.trace = h.trace ∧
          (∀ q, q ≠ d → q ≠ o → h2.read q = h.read q) := by
      intro h1 m1 e1 hd1 fr1 t1 l1
      have ho1 : ∃ b1, h1.read o = some ⟨c, b1⟩ := by
        by_cases hod : o = d
        · subst hod
          rw [hd] at ho
          cases ho
          exact ⟨_, hd1⟩
        · exact ⟨body, by rw [fr1 o hod]; exact ho⟩
      obtain ⟨b1, ho1⟩ := ho1
      obtain ⟨h3, e3, rd3, -, t3, hrd, hdead⟩ :=
        retain_assign_any h1 d o rcD c m1 k b1 hd1 ho1 hc
      refine ⟨h3, _, ?_, rd3, ?_, by rw [t3, t1], ?_⟩
      · simp only [setObject, e1, Outcome.bind]
        exact e3
      · obtain ⟨x2, hx2, hcx, -⟩ := hrd o _ ho1
        simp only [List.count_cons_self, List.count_nil] at hcx
        simp [SXObject.retainCount, hx2, hcx]
      · intro q hqd hqo
        rw [← fr1 q hqd]
        cases hq : h1.read q with
        | none => exact hdead q hq
        | some x =>
          obtain ⟨x2, hx2, hcx, hb⟩ := hrd q x hq
          have h0 : [o].count q = 0 := by simp [List.count_cons, Ne.symm hqo]
          rw [hx2]
          obtain ⟨n2, b2⟩ := x2
          obtain ⟨n, b⟩ := x
          simp only at hcx
          have := hb hqd
          simp only at this
          rw [hcx, h0, this]
          rfl
    rcases hlk with hl | hl
    · obtain ⟨h1, e1, rd1, fr1, t1⟩ := removeObjectForKey_absent fuel h d rcD m k hd hl
      have l1 : h1.cells.length = h.cells.length := by
        have hv := Heap.valid_of_read hd
        have hk := (lookup_none_iff m k).1 hl
        have : removeObjectForKey fuel h d k =
            .ok (h.write d ⟨rcD, .dictionary (m ++ [(k, 0)])⟩) := by
          simp [removeObjectForKey, objectForKey, hd, subscript_absent m k hk, Outcome.bind]
        rw [this] at e1
        cases e1
        simp
      obtain ⟨h2, rc2, e2, rd2, ro2, t2, fr2⟩ := step h1 _ e1 rd1 fr1 t1 l1
      have hk := (lookup_none_iff m k).1 hl
      have hspec := assign_spec (m ++ [(k, 0)]) k o
      refine ⟨h2, _, rc2, e2, rd2, fin h2 _ rc2 rd2, ?_, ?_, ro2, t2, fr2⟩
      · intro k2 hne
        rw [hspec.2.1 k2 hne, lookup_append_ne m k k2 0 hne]
      · simp only [count, rd2]
        rw [hspec.2.2, lookup_last m k 0 hk]
        simp [hl]
    · obtain ⟨h1, e1, r1, t1, l1⟩ := objectForKey_present h d rcD m k 0 hd hl
      have e1' : removeObjectForKey fuel h d k = .ok h1 := by
        simp [removeObjectForKey, e1, Outcome.bind]
      have hd1 : h1.read d = some ⟨rcD, .dictionary m⟩ := by rw [r1]; exact hd
      obtain ⟨h2, rc2, e2, rd2, ro2, t2, fr2⟩ := step h1 _ e1' hd1 (fun q _ => r1 q) t1 l1
      have hspec := assign_spec m k o
      refine ⟨h2, _, rc2, e2, rd2, fin h2 _ rc2 rd2, hspec.2.1, ?_, ro2, t2, fr2⟩
      simp only [count, rd2]
      rw [hspec.2.2, hl]
  · -- an object is stored under the key
    intro p hl hp0 ext chain cnt hndc hh heo
    obtain ⟨f, h1, rc1, e, hd1, erem, r, hfate, c1⟩ :=
      removeObjectForKey_held cnt hndc hh hd hnd hl hp0
    have cS := cnt.setAside_chain (d :: chain) hndc hh
    obtain ⟨evs, t, -, acc⟩ := r.trace
    have hmem : p ∈ (Body.dictionary m).owned := mem_values_of_lookup m k p hl
    obtain ⟨⟨cp, bp⟩, hp⟩ := Option.isSome_iff_exists.1 (cnt.alive d _ (by simp) hd p hmem)
    have hheldp : 1 ≤ h.heldBy (d :: chain) p := by
      have h1' := Heap.refsFrom_le_heldBy h (d :: chain) d p (by simp)
      rw [Heap.refsFrom_of_read hd] at h1'
      have h2' := List.count_pos_iff.2 hmem
      simp only at h1'
      omega
    obtain ⟨honce, hkeep⟩ := Released.once cS r e hp (by omega) t
    -- `o` survives the call of `release()`
    have hext2 : p = o → 2 ≤ ext o + h.heldBy (d :: chain) o := by
      intro hpo; rw [← hpo] at heo ⊢; omega
    have hoal1 : (h1.read o).isSome = true := by
      apply r.kept o (by rw [ho]; rfl)
      by_cases hpo : p = o
      · have := hext2 hpo
        simp only [dropTokens, hpo, List.count_cons_self, List.count_nil]
        omega
      · have h0 : [p].count o = 0 := by simp [List.count_cons, hpo]
        simp only [dropTokens, h0]
        omega
    obtain ⟨⟨co1, bo1⟩, ho1⟩ := Option.isSome_iff_exists.1 hoal1
    have hcnt := Released.count_eq cS r t ho ho1 (by
      by_cases hpo : p = o
      · have := hext2 hpo
        simp only [hpo, List.count_cons_self, List.count_nil]
        omega
      · have h0 : [p].count o = 0 := by simp [List.count_cons, hpo]
        rw [h0]; omega)
    simp only at hcnt
    have hv1 := Heap.valid_of_read hd1
    have hd1' : (h1.write d ⟨rc1, .dictionary (erase m k)⟩).read d =
        some ⟨rc1, .dictionary (erase m k)⟩ := by rw [Heap.read_write]; simp [hv1]
    have ho1' : ∃ b1, (h1.write d ⟨rc1, .dictionary (erase m k)⟩).read o = some ⟨co1, b1⟩ := by
      by_cases hod : o = d
      · subst hod
        rw [hd1] at ho1
        cases ho1
        exact ⟨_, hd1'⟩
      · exact ⟨bo1, by rw [Heap.read_write]; simp [hod, ho1]⟩
    obtain ⟨b1, ho1'⟩ := ho1'
    obtain ⟨h3, e3, rd3, l3, t3, hrd, hdead⟩ :=
      retain_assign_any _ d o rc1 co1 (erase m k) k b1 hd1' ho1' (by omega)
    have hne_none : (erase m k).lookup k = none :=
      (lookup_none_iff _ k).2 (not_mem_keys_erase m k)
    have hspec := assign_spec (erase m k) k o
    have hlen := length_erase m k p hnd hl
    refine ⟨f, h3, _, _, evs, ?_, rd3, fin h3 _ _ rd3, ?_, ?_, by rw [t3]; simp [t], honce, ?_,
      ?_, ?_, ?_, ?_⟩
    · intro j
      simp only [setObject, erem j, Outcome.bind]
      exact e3
    · intro k2 hne
      rw [hspec.2.1 k2 hne, lookup_erase_ne m k k2 hne]
    · simp only [count, rd3]
      rw [hspec.2.2, hne_none]
      simp
      omega
    · obtain ⟨x2, hx2, hcx, -⟩ := hrd o _ ho1'
      simp only [List.count_cons_self, List.count_nil] at hcx
      simp only [SXObject.retainCount, hx2, hcx]
      congr 1
      omega
    · intro hpo
      subst hpo
      rw [hp] at ho
      cases ho
      exact (hkeep (by have := hext2 rfl; have := cS.balance p _ hp; simp only at this; omega)).1
    · intro hpo h0
      have h1' := acc o
      have h0' : [p].count o = 0 := by simp [List.count_cons, hpo]
      omega
    · intro hpo cp2 bp2 hp2
      rw [hp] at hp2
      cases hp2
      have hf := hfate _ hp
      simp only at hf
      by_cases hc1 : cp = 1
      · rw [if_pos hc1] at hf ⊢
        have : (h1.write d ⟨rc1, .dictionary (erase m k)⟩).read p = none := by
          rw [Heap.read_write]
          split
          · rename_i hpd
            rw [hpd.1, hd1] at hf
            cases hf
          · exact hf
        simp [Heap.retainCount, hdead p this]
      · rw [if_neg hc1] at hf ⊢
        have : ∃ b2, (h1.write d ⟨rc1, .dictionary (erase m k)⟩).read p = some ⟨cp - 1, b2⟩ := by
          rw [Heap.read_write]
          split
          · rename_i hpd
            rw [hpd.1, hd1] at hf
            cases hf
            exact ⟨_, rfl⟩
          · exact ⟨_, hf⟩
        obtain ⟨b2, hb2⟩ := this
        obtain ⟨x2, hx2, hcx, -⟩ := hrd p _ hb2
        have h0' : [o].count p = 0 := by simp [List.count_cons, Ne.symm hpo]
        simp only [h0', Nat.add_zero] at hcx
        simp [Heap.retainCount, hx2, hcx]
    · apply c1.store (o := o) l3 hd1' rd3
      · intro q
        simp only [Body.owned]
        rw [assign_absent (erase m k) k o (not_mem_keys_erase m k)]
        simp [List.count_append]
      · rw [ho1']; rfl
      · exact hrd
      · exact hdead
      · intro x hx
        rw [ho1'] at hx
        cases hx
        simp only
        omega

/-- Instance of `setObject_stores`: in `dictionaryWithHolder` the object 3 is
stored under "m", which held the array 2 before; the array, whose only
reference is the dictionary, is destroyed and releases the object 3. -/
theorem setObject_stores_witness :
    dictionaryWithHolder.read 1 = some ⟨1, .dictionary [(['m'], 2)]⟩ ∧
    ([(['m'], 2)].map Prod.fst).Nodup ∧
    dictionaryWithHolder.read 3 = some ⟨2, .object⟩ ∧ 2 < UINT_MAX ∧
    List.lookup ['m'] [(['m'], 2)] = some 2 ∧
    Counted [] dictionaryWithHolder (fun q => if q = 1 ∨ q = 3 then 1 else 0) ∧
    dictionaryWithHolder.Held (fun q => if q = 1 ∨ q = 3 then 1 else 0) [1] ∧
    ∃ fuel2 h2 m2 rc2 evs, (∀ j, setObject (fuel2 + j) dictionaryWithHolder 1 3 ['m'] = .ok h2) ∧
      h2.read 1 = some ⟨rc2, .dictionary m2⟩ ∧
      (∃ h3, objectForKey h2 1 ['m'] = .ok (h3, 3)) ∧
      (∀ k2, k2 ≠ ['m'] → m2.lookup k2 = List.lookup k2 [(['m'], 2)]) ∧
      count h2 1 = .ok [(['m'], 2)].length ∧
      h2.trace = dictionaryWithHolder.trace ++ evs ∧ (releasedObjects evs).count 2 = 1 ∧
      SXObject.retainCount h2 3 = .ok (2 + 1 - (releasedObjects evs).count 3) ∧
      (2 = 3 → evs = [.release 3 2]) ∧
      (2 ≠ 3 → dictionaryWithHolder.inrefs [1] 3 = 0 → (releasedObjects evs).count 3 = 0) ∧
      (2 ≠ 3 → ∀ cp bp, dictionaryWithHolder.read 2 = some ⟨cp, bp⟩ →
        h2.retainCount 2 = if cp = 1 then none else some (cp - 1)) ∧
      Counted [] h2 (fun q => if q = 1 ∨ q = 3 then 1 else 0) :=
  ⟨rfl, by decide, rfl, by decide, by decide, Counted.of_check (by decide),
    ⟨rfl, by decide, trivial⟩,
    (setObject_stores dictionaryWithHolder 1 3 1 2 [(['m'], 2)] ['m'] .object rfl (by decide) rfl
      (by decide)).2 2 (by decide) (by decide) _ [] (Counted.of_check (by decide)) (by decide)
      ⟨rfl, by decide, trivial⟩ (by decide)⟩

end SXDictionary


/-! ## Runs of the cascade on heaps that differ in one object -/

namespace SXObject

/-- The log only grows. -/
theorem cascade_grows (fuel : Nat) :
    (∀ h p h2, release fuel h p = .ok h2 → ∃ evs, h2.trace = h.trace ++ evs) ∧
    (∀ h p h2, delete fuel h p = .ok h2 → ∃ evs, h2.trace = h.trace ++ evs) ∧
    (∀ h a i h2, removeAllObjectsFrom fuel h a i = .ok h2 → ∃ evs, h2.trace = h.trace ++ evs) ∧
    (∀ h ps h2, releaseEach fuel h ps = .ok h2 → ∃ evs, h2.trace = h.trace ++ evs) := by
  induction fuel with
  | zero =>
    refine ⟨?_, ?_, ?_, ?_⟩
    · intro h p h2 e; simp [release] at e
    · intro h p h2 e; simp [delete] at e
    · intro h a i h2 e; simp [removeAllObjectsFrom] at e
    · intro h ps h2 e; simp [releaseEach] at e
  | succ fuel ih =>
    obtain ⟨ihr, ihd, ihl, ihe⟩ := ih
    refine ⟨?_, ?_, ?_, ?_⟩
    · intro h p h2 e
      rw [release_succ] at e
      cases hr : h.read p with
      | none => simp [hr] at e
      | some c =>
        simp only [hr] at e
        split at e
        · obtain ⟨evs, t⟩ := ihd _ _ _ e
          exact ⟨.release p c.m_referenceCount :: evs, by rw [t]; simp⟩
        · cases e
          exact ⟨[.release p c.m_referenceCount], by simp⟩
    · intro h p h2 e
      rw [delete_succ] at e
      cases hr : h.read p with
      | none => simp [hr] at e
      | some c =>
        simp only [hr] at e
        have leaf : ∀ h2, Outcome.ok ((h.log (.destroy p)).free p) = Outcome.ok h2 →
            ∃ evs, h2.trace = h.trace ++ evs := by
          intro h2 e; cases e; exact ⟨[.destroy p], by simp⟩
        have node : ∀ (h1 h2 : Heap), (∃ evs, h1.trace = (h.log (.destroy p)).trace ++ evs) →
            Outcome.ok (h1.free p) = Outcome.ok h2 → ∃ evs, h2.trace = h.trace ++ evs := by
          intro h1 h2 ⟨evs, t⟩ e
          cases e
          exact ⟨.destroy p :: evs, by rw [Heap.trace_free, t]; simp⟩
        split at e
        · exact leaf _ e
        · split at e
          · split at e
            · rename_i h1 e1; exact node _ _ (ihr _ _ _ e1) e
            · simp at e
            · simp at e
          · exact leaf _ e
        · split at e
          · rename_i h1 e1; exact node _ _ (ihl _ _ _ _ e1) e
          · simp at e
          · simp at e
        · exact leaf _ e
        · exact leaf _ e
        · exact leaf _ e
        · split at e
          · rename_i h1 e1; exact node _ _ (ihe _ _ _ e1) e
          · simp at e
          · simp at e
        · split at e
          · rename_i h1 e1; exact node _ _ (ihe _ _ _ e1) e
          · simp at e
          · simp at e
    · intro h a i h2 e
      rw [removeAllObjectsFrom_succ] at e
      split at e
      · rename_i rc cap count arr hr
        split at e
        · split at e
          · split at e
            · rename_i h1 e1
              obtain ⟨evs1, t1⟩ := ihr _ _ _ e1
              split at e
              · obtain ⟨evs2, t2⟩ := ihl _ _ _ _ e
                exact ⟨evs1 ++ evs2, by rw [t2, Heap.trace_write, t1, List.append_assoc]⟩
              · simp at e
            · simp at e
            · simp at e
          · exact ihl _ _ _ _ e
        · cases e
          exact ⟨[], by simp⟩
      · simp at e
    · intro h ps h2 e
      cases ps with
      | nil =>
        rw [releaseEach_succ_nil] at e
        cases e
        exact ⟨[], by simp⟩
      | cons p ps =>
        rw [releaseEach_succ_cons] at e
        split at e
        · rename_i h1 e1
          obtain ⟨evs1, t1⟩ := ihr _ _ _ e1
          obtain ⟨evs2, t2⟩ := ihe _ _ _ e
          exact ⟨evs1 ++ evs2, by rw [t2, t1, List.append_assoc]⟩
        · simp at e
        · simp at e

end SXObject


namespace SameReads

theorem mirror_write {a : Nat} {h k : Heap} (s : SameReads [a] h k) (p : Nat) (c : Cell) :
    SameReads [a] (h.write p c) (k.write p c) := by
  refine ⟨by simp [s.1], ?_⟩
  intro q hq
  rw [Heap.read_write, Heap.read_write, s.2 q hq]
  have : h.valid p ↔ k.valid p := by unfold Heap.valid; rw [s.1]
  simp only [this]

theorem mirror_free {a : Nat} {h k : Heap} (s : SameReads [a] h k) (p : Nat) :
    SameReads [a] (h.free p) (k.free p) := by
  refine ⟨by simp [s.1], ?_⟩
  intro q hq
  rw [Heap.read_free, Heap.read_free, s.2 q hq]

theorem mirror_log {a : Nat} {h k : Heap} (s : SameReads [a] h k) (e1 e2 : Event) :
    SameReads [a] (h.log e1) (k.log e2) :=
  ⟨s.1, fun q hq => s.2 q hq⟩

end SameReads

theorem Heap.read_write_ne (h : Heap) {p q : Nat} (c : Cell) (hq : q ≠ p) :
    (h.write p c).read q = h.read q := by
  rw [Heap.read_write]; simp [hq]

theorem Heap.read_free_ne (h : Heap) {p q : Nat} (hq : q ≠ p) :
    (h.free p).read q = h.read q := by
  rw [Heap.read_free]; simp [hq]

theorem trace_split {t0 t1 pre evs evs2 : List Event} (t : t1 = t0 ++ evs)
    (t2 : t1 = t0 ++ pre ++ evs2) : evs = pre ++ evs2 := by
  rw [t, List.append_assoc] at t2
  exact List.append_cancel_left t2

namespace SXObject

/-- Two heaps that differ in the object `a` only: a run of the cascade that
makes no call of `release()` on `a` leaves `a` alone and is matched, call by
call, by the run on the other heap. -/
theorem cascade_mirror (a : Nat) (fuel : Nat) :
    (∀ h k p h1 evs, SameReads [a] h k → release fuel h p = .ok h1 →
      h1.trace = h.trace ++ evs → a ∉ releasedObjects evs →
      h1.read a = h.read a ∧ ∃ k1, release fuel k p = .ok k1 ∧ SameReads [a] h1 k1 ∧
        k1.trace = k.trace ++ evs ∧ k1.read a = k.read a) ∧
    (∀ h k p h1 evs, p ≠ a → SameReads [a] h k → delete fuel h p = .ok h1 →
      h1.trace = h.trace ++ evs → a ∉ releasedObjects evs →
      h1.read a = h.read a ∧ ∃ k1, delete fuel k p = .ok k1 ∧ SameReads [a] h1 k1 ∧
        k1.trace = k.trace ++ evs ∧ k1.read a = k.read a) ∧
    (∀ h k this i h1 evs, this ≠ a → SameReads [a] h k →
      removeAllObjectsFrom fuel h this i = .ok h1 →
      h1.trace = h.trace ++ evs → a ∉ releasedObjects evs →
      h1.read a = h.read a ∧ ∃ k1, removeAllObjectsFrom fuel k this i = .ok k1 ∧
        SameReads [a] h1 k1 ∧ k1.trace = k.trace ++ evs ∧ k1.read a = k.read a) ∧
    (∀ h k ps h1 evs, SameReads [a] h k → releaseEach fuel h ps = .ok h1 →
      h1.trace = h.trace ++ evs → a ∉ releasedObjects evs →
      h1.read a = h.read a ∧ ∃ k1, releaseEach fuel k ps = .ok k1 ∧ SameReads [a] h1 k1 ∧
        k1.trace = k.trace ++ evs ∧ k1.read a = k.read a) := by
  induction fuel with
  | zero =>
    refine ⟨?_, ?_, ?_, ?_⟩
    · intro h k p h1 evs _ e; simp [release] at e
    · intro h k p h1 evs _ _ e; simp [delete] at e
    · intro h k this i h1 evs _ _ e; simp [removeAllObjectsFrom] at e
    · intro h k ps h1 evs _ e; simp [releaseEach] at e
  | succ fuel ih =>
    obtain ⟨ihr, ihd, ihl, ihe⟩ := ih
    refine ⟨?_, ?_, ?_, ?_⟩
    · -- release
      intro h k p h1 evs sr e t hn
      rw [release_succ] at e
      cases hr : h.read p with
      | none => simp [hr] at e
      | some c =>
        simp only [hr] at e
        have sr0 := (sr.mirror_write p
          ⟨wrap (c.m_referenceCount + UINT_MAX), c.body⟩).mirror_log
          (.release p c.m_referenceCount) (.release p c.m_referenceCount)
        by_cases hz : wrap (c.m_referenceCount + UINT_MAX) = 0
        · rw [if_pos hz] at e
          obtain ⟨evs2, t2⟩ := (cascade_grows fuel).2.1 _ _ _ e
          have hev : evs = [.release p c.m_referenceCount] ++ evs2 :=
            trace_split t (by rw [t2, Heap.trace_log, Heap.trace_write])
          have hpa : p ≠ a := by
            intro hpa
            apply hn
            rw [hev, hpa]
            simp [releasedObjects]
          have hn2 : a ∉ releasedObjects evs2 := by
            intro hm
            apply hn
            rw [hev, releasedObjects_app]
            exact List.mem_append_right _ hm
          have hk : k.read p = some c := by rw [← sr.2 p (by simpa using hpa)]; exact hr
          obtain ⟨ra, k1, ek, sr1, tk, rk⟩ := ihd _ _ p h1 evs2 hpa sr0 e t2 hn2
          refine ⟨?_, k1, ?_, sr1, ?_, ?_⟩
          · rw [ra, Heap.read_log, Heap.read_write_ne _ _ (Ne.symm hpa)]
          · rw [release_succ, hk]
            simp only []
            rw [if_pos hz]
            exact ek
          · rw [tk, hev]
            simp only [Heap.trace_log, Heap.trace_write, List.append_assoc]
          · rw [rk, Heap.read_log, Heap.read_write_ne _ _ (Ne.symm hpa)]
        · rw [if_neg hz] at e
          cases e
          have hev : evs = [.release p c.m_referenceCount] ++ [] :=
            trace_split t (by rw [Heap.trace_log, Heap.trace_write, List.append_nil])
          have hpa : p ≠ a := by
            intro hpa
            apply hn
            rw [hev, hpa]
            simp [releasedObjects]
          have hk : k.read p = some c := by rw [← sr.2 p (by simpa using hpa)]; exact hr
          refine ⟨?_, _, ?_, sr0, ?_, ?_⟩
          · rw [Heap.read_log, Heap.read_write_ne _ _ (Ne.symm hpa)]
          · rw [release_succ, hk]
            simp only []
            rw [if_neg hz]
          · rw [hev]
            simp only [Heap.trace_log, Heap.trace_write, List.append_nil]
          · rw [Heap.read_log, Heap.read_write_ne _ _ (Ne.symm hpa)]
    · -- delete
      intro h k p h1 evs hpa sr e t hn
      rw [delete_succ] at e
      cases hr : h.read p with
      | none => simp [hr] at e
      | some c =>
        have hk : k.read p = some c := by rw [← sr.2 p (by simpa using hpa)]; exact hr
        simp only [hr] at e
        have sr0 := sr.mirror_log (.destroy p) (.destroy p)
        have leaf : ∀ (ek : ∀ k1, Outcome.ok ((k.log (.destroy p)).free p) = Outcome.ok k1 →
              delete (fuel + 1) k p = .ok k1),
            Outcome.ok ((h.log (.destroy p)).free p) = Outcome.ok h1 →
            h1.read a = h.read a ∧ ∃ k1, delete (fuel + 1) k p = .ok k1 ∧ SameReads [a] h1 k1 ∧
              k1.trace = k.trace ++ evs ∧ k1.read a = k.read a := by
          intro ek e
          cases e
          have hev : evs = [.destroy p] ++ [] := trace_split t (by simp)
          refine ⟨?_, _, ek _ rfl, sr0.mirror_free p, ?_, ?_⟩
          · rw [Heap.read_free_ne _ (Ne.symm hpa)]; rfl
          · rw [hev]; simp
          · rw [Heap.read_free_ne _ (Ne.symm hpa)]; rfl
        have node : ∀ (h' : Heap) (evs2 : List Event),
            h'.trace = (h.log (.destroy p)).trace ++ evs2 →
            Outcome.ok (h'.free p) = Outcome.ok h1 →
            (a ∉ releasedObjects evs2 → h'.read a = (h.log (.destroy p)).read a ∧
              ∃ k', (∀ k1, Outcome.ok (k'.free p) = Outcome.ok k1 →
                  delete (fuel + 1) k p = .ok k1) ∧ SameReads [a] h' k' ∧
                k'.trace = (k.log (.destroy p)).trace ++ evs2 ∧
                k'.read a = (k.log (.destroy p)).read a) →
            h1.read a = h.read a ∧ ∃ k1, delete (fuel + 1) k p = .ok k1 ∧ SameReads [a] h1 k1 ∧
              k1.trace = k.trace ++ evs ∧ k1.read a = k.read a := by
          intro h' evs2 t2 e hyp
          cases e
          have hev : evs = [.destroy p] ++ evs2 :=
            trace_split t (by rw [Heap.trace_free, t2]; simp)
          have hn2 : a ∉ releasedObjects evs2 := by
            intro hm
            apply hn
            rw [hev, releasedObjects_app]
            exact List.mem_append_right _ hm
          obtain ⟨ra, k', ek, sr1, tk, rk⟩ := hyp hn2
          refine ⟨?_, _, ek _ rfl, sr1.mirror_free p, ?_, ?_⟩
          · rw [Heap.read_free_ne _ (Ne.symm hpa), ra]; rfl
          · rw [Heap.trace_free, tk, hev]; simp
          · rw [Heap.read_free_ne _ (Ne.symm hpa), rk]; rfl
        cases hb : c.body with
        | object =>
          simp only [hb] at e
          exact leaf (fun k1 e1 => by rw [delete_succ, hk]; simp only [hb]; exact e1) e
        | string s =>
          simp only [hb] at e
          exact leaf (fun k1 e1 => by rw [delete_succ, hk]; simp only [hb]; exact e1) e
        | number ty v =>
          simp only [hb] at e
          exact leaf (fun k1 e1 => by rw [delete_succ, hk]; simp only [hb]; exact e1) e
        | data bs =>
          simp only [hb] at e
          exact leaf (fun k1 e1 => by rw [delete_succ, hk]; simp only [hb]; exact e1) e
        | pool pObjects =>
          simp only [hb] at e
          by_cases h0 : pObjects ≠ 0
          · rw [if_pos h0] at e
            split at e
            · rename_i h' e1
              obtain ⟨evs2, t2⟩ := (cascade_grows fuel).1 _ _ _ e1
              refine node h' evs2 t2 e (fun hn2 => ?_)
              obtain ⟨ra, k', ek, sr1, tk, rk⟩ := ihr _ _ pObjects h' evs2 sr0 e1 t2 hn2
              refine ⟨ra, k', ?_, sr1, tk, rk⟩
              intro k1 e2
              rw [delete_succ, hk]
              simp only [hb, h0, ne_eq, not_false_eq_true, if_true, ek]
              exact e2
            · simp at e
            · simp at e
          · rw [if_neg h0] at e
            exact leaf (fun k1 e1 => by
              rw [delete_succ, hk]; simp only [hb, h0, if_false]; exact e1) e
        | array cap count arr =>
          simp only [hb] at e
          split at e
          · rename_i h' e1
            obtain ⟨evs2, t2⟩ := (cascade_grows fuel).2.2.1 _ _ _ _ e1
            refine node h' evs2 t2 e (fun hn2 => ?_)
            obtain ⟨ra, k', ek, sr1, tk, rk⟩ := ihl _ _ p 0 h' evs2 hpa sr0 e1 t2 hn2
            refine ⟨ra, k', ?_, sr1, tk, rk⟩
            intro k1 e2
            rw [delete_succ, hk]
            simp only [hb, ek]
            exact e2
          · simp at e
          · simp at e
        | dictionary m =>
          simp only [hb] at e
          split at e
          · rename_i h' e1
            obtain ⟨evs2, t2⟩ := (cascade_grows fuel).2.2.2 _ _ _ e1
            refine node h' evs2 t2 e (fun hn2 => ?_)
            obtain ⟨ra, k', ek, sr1, tk, rk⟩ := ihe _ _ _ h' evs2 sr0 e1 t2 hn2
            refine ⟨ra, k', ?_, sr1, tk, rk⟩
            intro k1 e2
            rw [delete_succ, hk]
            simp only [hb, ek]
            exact e2
          · simp at e
          · simp at e
        | set m =>
          simp only [hb] at e
          split at e
          · rename_i h' e1
            obtain ⟨evs2, t2⟩ := (cascade_grows fuel).2.2.2 _ _ _ e1
            refine node h' evs2 t2 e (fun hn2 => ?_)
            obtain ⟨ra, k', ek, sr1, tk, rk⟩ := ihe _ _ _ h' evs2 sr0 e1 t2 hn2
            refine ⟨ra, k', ?_, sr1, tk, rk⟩
            intro k1 e2
            rw [delete_succ, hk]
            simp only [hb, ek]
            exact e2
          · simp at e
          · simp at e
    · -- the loop of removeAllObjects
      intro h k this i h1 evs hta sr e t hn
      rw [removeAllObjectsFrom_succ] at e
      have hkr : k.read this = h.read this := (sr.2 this (by simpa using hta)).symm
      split at e
      · rename_i rc cap count arr hr
        rw [hr] at hkr
        by_cases hi : i < count
        · rw [if_pos hi] at e
          by_cases hx : arr.getD i 0 ≠ 0
          · rw [if_pos hx] at e
            split at e
            · rename_i h' e1
              obtain ⟨evs1, t1⟩ := (cascade_grows fuel).1 _ _ _ e1
              split at e
              · rename_i rc1 cap1 count1 arr1 hr1
                obtain ⟨evs2, t2⟩ := (cascade_grows fuel).2.2.1 _ _ _ _ e
                have hev : evs = evs1 ++ evs2 :=
                  trace_split t (by rw [t2, Heap.trace_write, t1])
                have hn1 : a ∉ releasedObjects evs1 := by
                  intro hm; apply hn
                  rw [hev, releasedObjects_app]
                  exact List.mem_append_left _ hm
                have hn2 : a ∉ releasedObjects evs2 := by
                  intro hm; apply hn
                  rw [hev, releasedObjects_app]
                  exact List.mem_append_right _ hm
                obtain ⟨ra1, k', ek1, sr1, tk1, rk1⟩ := ihr _ _ _ h' evs1 sr e1 t1 hn1
                have hkr1 : k'.read this = some ⟨rc1, .array cap1 count1 arr1⟩ := by
                  rw [← sr1.2 this (by simpa using hta)]; exact hr1
                obtain ⟨ra2, k1, ek2, sr2, tk2, rk2⟩ := ihl _ _ this (i + 1) h1 evs2 hta
                  (sr1.mirror_write this ⟨rc1, .array cap1 count1 (arr1.set i 0)⟩) e
                  (by rw [t2]) hn2
                refine ⟨?_, k1, ?_, sr2, ?_, ?_⟩
                · rw [ra2, Heap.read_write_ne _ _ (Ne.symm hta), ra1]
                · rw [removeAllObjectsFrom_succ, hkr]
                  simp only [hi, if_true, hx, ne_eq, not_false_eq_true, ek1, hkr1]
                  exact ek2
                · rw [tk2, Heap.trace_write, tk1, hev, List.append_assoc]
                · rw [rk2, Heap.read_write_ne _ _ (Ne.symm hta), rk1]
              · simp at e
            · simp at e
            · simp at e
          · rw [if_neg hx] at e
            obtain ⟨ra, k1, ek, sr1, tk, rk⟩ := ihl _ _ this (i + 1) h1 evs hta sr e t hn
            refine ⟨ra, k1, ?_, sr1, tk, rk⟩
            rw [removeAllObjectsFrom_succ, hkr]
            simp only [hi, if_true, hx, if_false]
            exact ek
        · rw [if_neg hi] at e
          cases e
          have hev : evs = [] ++ [] := trace_split t (by simp)
          refine ⟨Heap.read_write_ne _ _ (Ne.symm hta), _, ?_,
            sr.mirror_write this ⟨rc, .array cap 0 arr⟩, ?_, Heap.read_write_ne _ _ (Ne.symm hta)⟩
          · rw [removeAllObjectsFrom_succ, hkr]
            simp only [hi, if_false]
          · rw [hev]; simp
      · simp at e
    · -- the loop of the dictionary and the set
      intro h k ps h1 evs sr e t hn
      cases ps with
      | nil =>
        rw [releaseEach_succ_nil] at e
        cases e
        have hev : evs = [] ++ [] := trace_split t (by simp)
        exact ⟨rfl, k, releaseEach_succ_nil fuel k, sr, by rw [hev]; simp, rfl⟩
      | cons p ps =>
        rw [releaseEach_succ_cons] at e
        split at e
        · rename_i h' e1
          obtain ⟨evs1, t1⟩ := (cascade_grows fuel).1 _ _ _ e1
          obtain ⟨evs2, t2⟩ := (cascade_grows fuel).2.2.2 _ _ _ e
          have hev : evs = evs1 ++ evs2 := trace_split t (by rw [t2, t1])
          have hn1 : a ∉ releasedObjects evs1 := by
            intro hm; apply hn
            rw [hev, releasedObjects_app]
            exact List.mem_append_left _ hm
          have hn2 : a ∉ releasedObjects evs2 := by
            intro hm; apply hn
            rw [hev, releasedObjects_app]
            exact List.mem_append_right _ hm
          obtain ⟨ra1, k', ek1, sr1, tk1, rk1⟩ := ihr _ _ _ h' evs1 sr e1 t1 hn1
          obtain ⟨ra2, k1, ek2, sr2, tk2, rk2⟩ := ihe _ _ ps h1 evs2 sr1 e t2 hn2
          refine ⟨by rw [ra2, ra1], k1, ?_, sr2, ?_, by rw [rk2, rk1]⟩
          · rw [releaseEach_succ_cons, ek1]
            exact ek2
          · rw [tk2, tk1, hev, List.append_assoc]
        · simp at e
        · simp at e

end SXObject


/-! ## C37: cancelling an autorelease, for objects of every class -/

/-- C37: for a live object `o` of any class with count `c >= 1` that has no
registration in the current pool, in a heap whose counts cover the stored
pointers (`Counted [] s.heap ext`), where the array of the current pool is held
through the pool and its owners `chain` from outside the heap and the caller
holds a reference to `o` (which is not the pool, its array or one of their
owners): `o.autorelease()` followed by the manager's `removeObject(o)` returns
and leaves what `o.release()` alone leaves. The current pool has its former
registration sequence, `o` is destroyed if `c == 1` (together with what its
destructor releases) and has count `c - 1` otherwise, every object other than
the pool's array is the same in both final states, the array holds the same
sequence in both, and the log of the first run is that of the second one after
the call of `release()` that `autorelease()` makes. -/
theorem autorelease_removeObject_is_release (s : State) (m : SXPoolManager)
    (top : PoolRep) (o c : Nat) (body : Body) (ext : Nat → Nat) (chain : List Nat)
    (hm : s.pInstance = some m) (hcur : m.m_pCurrentPool = top.pool)
    (htop : top.holds s.heap) (ho : s.heap.read o = some ⟨c, body⟩) (hc1 : 1 ≤ c)
    (hn : o ∉ top.regs) (hcnt : Counted [] s.heap ext)
    (hnd : (top.objects :: top.pool :: chain).Nodup)
    (hh : s.heap.Held ext (top.objects :: top.pool :: chain)) (heo : 1 ≤ ext o)
    (hoc : o ∉ top.objects :: top.pool :: chain) :
    ∃ fuel s1 s2 hr evs, (∀ j, SXObject.autorelease (fuel + j) s o = .ok (s1, o) ∧
        SXPoolManager.removeObject (fuel + j) s1 o = .ok s2 ∧
        SXObject.release (fuel + j) s.heap o = .ok hr) ∧
      s2.pInstance = s.pInstance ∧
      s2.heap.registrations top.pool = s.heap.registrations top.pool ∧
      hr.registrations top.pool = s.heap.registrations top.pool ∧
      (∀ q, q ≠ top.objects → s2.heap.read q = hr.read q) ∧
      s2.heap.elements top.objects = hr.elements top.objects ∧
      hr.read o = (if c = 1 then none else some ⟨c - 1, body⟩) ∧
      s2.heap.read o = (if c = 1 then none else some ⟨c - 1, body⟩) ∧
      hr.trace = s.heap.trace ++ evs ∧
      s2.heap.trace = s.heap.trace ++ .release o (wrap (c + 1)) :: evs ∧
      Counted [] hr (dropTokens ext [o]) := by
  obtain ⟨hP, hA⟩ := htop
  have hc : c ≤ UINT_MAX := hcnt.bounded o _ ho
  have hoa : o ≠ top.objects := fun e => hoc (by simp [e])
  have hop : o ≠ top.pool := fun e => hoc (by simp [e])
  have hPA : top.pool ≠ top.objects := by
    intro e; rw [e, hA] at hP; cases hP
  -- release alone
  have cS := hcnt.setAside_chain _ hnd hh
  obtain ⟨fB, hr, eB, rB, fateB⟩ := SXObject.release_counted cS ho (by omega)
    (fun hmem => absurd hmem hoc)
  simp only at fateB
  obtain ⟨evs, tB, -, acc⟩ := rB.trace
  have hinA : s.heap.inrefs (top.objects :: top.pool :: chain) top.objects = 0 := by
    have h1 := cS.balance top.objects _ hA
    have h2 := Heap.refsFrom_le_heldBy s.heap (top.objects :: top.pool :: chain) top.pool
      top.objects (by simp)
    rw [Heap.refsFrom_of_read hP] at h2
    simp only [Body.owned] at h2
    have h0 : top.objects ≠ 0 := (Heap.valid_of_read hA).1
    simp only [ne_eq, h0, not_false_eq_true, if_true, List.count_cons_self, List.count_nil] at h2
    simp only at h1
    omega
  have hinP : s.heap.inrefs (top.objects :: top.pool :: chain) top.pool = 0 := by
    have h1 := cS.balance top.pool _ hP
    have h2 := hh.ge_one (d := top.pool) (by simp)
    simp only at h1
    omega
  have hnA : top.objects ∉ releasedObjects evs := by
    have h1 := acc top.objects
    have h0 : [o].count top.objects = 0 := by simp [List.count_cons, hoa]
    apply List.count_eq_zero.1
    omega
  have hrA : hr.read top.objects = s.heap.read top.objects :=
    rB.frame _ (by simpa using Ne.symm hoa) hinA
  have hrP : hr.read top.pool = s.heap.read top.pool :=
    rB.frame _ (by simpa using Ne.symm hop) hinP
  -- autorelease
  obtain ⟨h2, e2, t2, l2, fr, r1, r2⟩ :=
    SXArray.addObject_reads s.heap top.objects o 1 c top.regs top.junk body hA ho
  have ho2 := r1 hoa
  rw [if_neg hoa] at r2
  have hw : wrap (wrap (c + 1) + UINT_MAX) = c := wrap_succ_pred c hc1 hc
  have hne : wrap (wrap (c + 1) + UINT_MAX) ≠ 0 := by rw [hw]; omega
  have hfB : 1 ≤ fB := by
    cases fB with
    | zero => simp [SXObject.release] at eB
    | succ n => omega
  have hv2 := Heap.valid_of_read ho2
  obtain ⟨h3, h3def⟩ : ∃ h3, h3 = (h2.write o ⟨c, body⟩).log (.release o (wrap (c + 1))) :=
    ⟨_, rfl⟩
  have e3 : ∀ j, SXObject.release (fB + j) h2 o = .ok h3 := by
    intro j
    have := SXObject.release_alive (fB + j - 1) h2 o _ body ho2 hne
    rw [hw, ← h3def, show fB + j - 1 + 1 = fB + j by omega] at this
    exact this
  have ro3 : h3.read o = some ⟨c, body⟩ := by rw [h3def]; simp [Heap.read_write, hv2]
  have fr3 : ∀ q, q ≠ o → h3.read q = h2.read q := by
    intro q hq; rw [h3def]; simp [Heap.read_write, hq]
  have ra3 : h3.read top.objects = some ⟨1, .array (top.regs.length + 1 + (SXArray.spare top.junk).length)
      (top.regs.length + 1 + ([] : List Nat).length)
      (top.regs ++ o :: [] ++ SXArray.spare top.junk)⟩ := by
    rw [fr3 _ (fun e => hoa e.symm), r2]; simp
  have rp3 : h3.read top.pool = some ⟨1, .pool top.objects⟩ := by
    rw [fr3 _ (Ne.symm hop), fr _ hPA (Ne.symm hop), hP]
  have t3 : h3.trace = s.heap.trace ++ [.release o (wrap (c + 1))] := by
    rw [h3def]; simp [t2]
  have e1 : ∀ j, SXObject.autorelease (fB + j) s o = .ok (⟨h3, s.pInstance⟩, o) := by
    intro j
    simp [SXObject.autorelease, SXPoolManager.sharedPoolManager, hm, SXPoolManager.addObject,
      SXAutoreleasePool.addObject, SXAutoreleasePool.objects, hcur, hP, e2, e3 j]
  -- the two heaps differ in the array of the pool only
  have sr : SameReads [top.objects] s.heap h3 := by
    refine ⟨by rw [h3def]; simp [l2], ?_⟩
    intro q hq
    have hqa : q ≠ top.objects := by simpa using hq
    by_cases hqo : q = o
    · rw [hqo, ro3, ho]
    · rw [fr3 q hqo, fr q hqa hqo]
  -- removeObject
  obtain ⟨-, k1, ek, sr1, tk, rk⟩ :=
    (SXObject.cascade_mirror top.objects fB).1 s.heap h3 o hr evs sr eB tB hnA
  have rak : k1.read top.objects = some ⟨1, .array (top.regs.length + 1 + (SXArray.spare top.junk).length)
      (top.regs.length + 1 + ([] : List Nat).length)
      (top.regs ++ o :: [] ++ SXArray.spare top.junk)⟩ := by rw [rk, ra3]
  have hvk := Heap.valid_of_read rak
  obtain ⟨h4, h4def⟩ : ∃ h4, h4 = k1.write top.objects ⟨1, .array
      (top.regs.length + 1 + (SXArray.spare top.junk).length)
      (top.regs.length + ([] : List Nat).length)
      (top.regs ++ ([] : List Nat) ++ ([] : List Nat).getLastD 0 :: SXArray.spare top.junk)⟩ :=
    ⟨_, rfl⟩
  have e4 : ∀ j, SXArray.removeObject (fB + j) h3 top.objects o = .ok h4 := by
    intro j
    unfold SXArray.removeObject
    simp only [SXArray.indexOfObject, ra3,
      SXArray.indexOfObjectFrom_found o top.regs [] (SXArray.spare top.junk) hn,
      Outcome.bind, bind, SXObject.release_mono ek j]
    rw [h4def]
    exact SXArray.closeGap_shift k1 top.objects _ _ o top.regs [] (SXArray.spare top.junk) rak
  have hobj3 : SXAutoreleasePool.objects h3 top.pool = .ok top.objects := by
    simp only [SXAutoreleasePool.objects, rp3]
  have e5 : ∀ j, SXPoolManager.removeObject (fB + j) ⟨h3, s.pInstance⟩ o =
      .ok ⟨h4, s.pInstance⟩ := by
    intro j
    simp [SXPoolManager.removeObject, hm, SXAutoreleasePool.removeObject, hcur, hobj3, e4 j]
  have hsame : ∀ q, q ≠ top.objects → h4.read q = hr.read q := by
    intro q hq
    rw [h4def, Heap.read_write_ne _ _ hq, ← sr1.2 q (by simpa using hq)]
  have hreg0 : s.heap.registrations top.pool = top.regs := by
    simp [Heap.registrations, Heap.elements, hP, hA, take_length_append]
  have hregr : hr.registrations top.pool = top.regs := by
    simp [Heap.registrations, Heap.elements, hrP, hP, hrA, hA, take_length_append]
  have hel4 : h4.elements top.objects = top.regs := by
    rw [h4def]
    simp only [Heap.elements, Heap.read_write, hvk, and_self, if_true]
    simp
  have hreg4 : h4.registrations top.pool = top.regs := by
    have hP4 : h4.read top.pool = some ⟨1, .pool top.objects⟩ := by
      rw [hsame _ hPA, hrP]; exact hP
    unfold Heap.registrations
    rw [hP4]
    exact hel4
  have hcr : Counted [] hr (dropTokens ext [o]) := by
    obtain ⟨f0, hr0, e0, r0, -⟩ := SXObject.release_counted hcnt ho heo (by simp)
    have h1 := SXObject.release_mono_le e0 (Nat.le_max_left f0 fB)
    have h2 := SXObject.release_mono_le eB (Nat.le_max_right f0 fB)
    rw [h1] at h2
    cases h2
    exact r0.counted
  refine ⟨fB, ⟨h3, s.pInstance⟩, ⟨h4, s.pInstance⟩, hr, evs,
    fun j => ⟨e1 j, e5 j, SXObject.release_mono eB j⟩, rfl, ?_, ?_, hsame, ?_, fateB, ?_, tB, ?_,
    hcr⟩
  · rw [hreg4, hreg0]
  · rw [hregr, hreg0]
  · rw [hel4]
    simp [Heap.elements, hrA, hA, take_length_append]
  · rw [hsame o hoa]; exact fateB
  · rw [h4def, Heap.trace_write, tk, t3]; simp

/-- Instance of `autorelease_removeObject_is_release`: the array (address 4,
count 1) of `freshManagerWithArray`, which holds a string; cancelling its
autorelease destroys the array and the string, as `release()` does. -/
theorem autorelease_removeObject_is_release_witness :
    freshManagerWithArray.pInstance = some ⟨1, 2⟩ ∧
    (PoolRep.mk 2 3 [] [0, 0, 0, 0, 0, 0, 0, 0, 0, 0]).holds freshManagerWithArray.heap ∧
    freshManagerWithArray.heap.read 4 = some ⟨1, .array 1 1 [5]⟩ ∧
    Counted [] freshManagerWithArray.heap (fun q => if q = 1 ∨ q = 4 then 1 else 0) ∧
    freshManagerWithArray.heap.Held (fun q => if q = 1 ∨ q = 4 then 1 else 0) [3, 2, 1] ∧
    ∃ fuel s1 s2 hr evs, (∀ j, SXObject.autorelease (fuel + j) freshManagerWithArray 4 = .ok (s1, 4) ∧
        SXPoolManager.removeObject (fuel + j) s1 4 = .ok s2 ∧
        SXObject.release (fuel + j) freshManagerWithArray.heap 4 = .ok hr) ∧
      s2.pInstance = freshManagerWithArray.pInstance ∧
      s2.heap.registrations 2 = freshManagerWithArray.heap.registrations 2 ∧
      hr.registrations 2 = freshManagerWithArray.heap.registrations 2 ∧
      (∀ q, q ≠ 3 → s2.heap.read q = hr.read q) ∧
      s2.heap.elements 3 = hr.elements 3 ∧
      hr.read 4 = (if 1 = 1 then none else some ⟨1 - 1, .array 1 1 [5]⟩) ∧
      s2.heap.read 4 = (if 1 = 1 then none else some ⟨1 - 1, .array 1 1 [5]⟩) ∧
      hr.trace = freshManagerWithArray.heap.trace ++ evs ∧
      s2.heap.trace = freshManagerWithArray.heap.trace ++ .release 4 (wrap (1 + 1)) :: evs ∧
      Counted [] hr (dropTokens (fun q => if q = 1 ∨ q = 4 then 1 else 0) [4]) :=
  ⟨rfl, ⟨rfl, rfl⟩, rfl, Counted.of_check (by decide),
    ⟨rfl, by decide, rfl, by decide, rfl, by decide, trivial⟩,
    autorelease_removeObject_is_release freshManagerWithArray ⟨1, 2⟩
      (PoolRep.mk 2 3 [] [0, 0, 0, 0, 0, 0, 0, 0, 0, 0]) 4 1 (.array 1 1 [5])
      (fun q => if q = 1 ∨ q = 4 then 1 else 0) [1] rfl rfl ⟨rfl, rfl⟩ rfl (by decide)
      (by simp) (Counted.of_check (by decide)) (by decide)
      ⟨rfl, by decide, rfl, by decide, rfl, by decide, trivial⟩ (by decide) (by decide)⟩


/-! ## Draining a pool with registrations of every class -/

theorem SXObject.release_unique {f1 f2 : Nat} {h h1 h2 : Heap} {p : Nat}
    (e1 : SXObject.release f1 h p = .ok h1) (e2 : SXObject.release f2 h p = .ok h2) : h1 = h2 := by
  have a := SXObject.release_mono_le e1 (Nat.le_max_left f1 f2)
  have b := SXObject.release_mono_le e2 (Nat.le_max_right f1 f2)
  rw [a] at b
  cases b
  rfl

theorem PoolRep.owned_eq {r : PoolRep} (h0 : 0 ∉ r.regs) :
    (Body.array (r.regs.length + r.junk.length) r.regs.length (r.regs ++ r.junk)).owned =
      r.regs := by
  simp only [Body.owned, @List.take_left' _ (r.regs) _ _ rfl]
  apply List.filter_eq_self.2
  intro x hx
  have : x ≠ 0 := fun e => h0 (e ▸ hx)
  simpa using this

/-- The last reference to a pool is given up: the pool and its array are
destroyed, and the destructor of the array calls `release()` on every
registration, in registration order, whatever the classes of the registered
objects. -/
theorem release_pool_counted {skip : List Nat} {h : Heap} {ext : Nat → Nat}
    (c : Counted skip h ext) (r : PoolRep) (hr : r.holds h) (hps : r.pool ∉ skip)
    (has : r.objects ∉ skip) (he : 1 ≤ ext r.pool) (h0 : 0 ∉ r.regs) :
    ∃ fuel h2 evs, SXObject.release fuel h r.pool = .ok h2 ∧
      h2.trace = h.trace ++ [.release r.pool 1, .destroy r.pool, .release r.objects 1,
        .destroy r.objects] ++ evs ∧
      r.regs.Sublist (releasedObjects evs) ∧
      h2.read r.pool = none ∧ h2.read r.objects = none ∧
      Released skip h ext [r.pool] h2 ∧
      (∀ q, (releasedObjects evs).count q + h2.inrefs skip q + [r.objects].count q =
        h.inrefs skip q) := by
  obtain ⟨hP, hA⟩ := hr
  have hPA : r.pool ≠ r.objects := by intro e; rw [e, hA] at hP; cases hP
  have hA0 : r.objects ≠ 0 := (Heap.valid_of_read hA).1
  have hvP := Heap.valid_of_read hP
  have hownP : (Body.pool r.objects).owned = [r.objects] := by simp [Body.owned, hA0]
  have hownA := PoolRep.owned_eq h0
  -- the pool dies
  obtain ⟨c1, -, -, -, hin1⟩ := c.dying hP he hps
  have cA := (c1.logged (.release r.pool 1)).logged (.destroy r.pool)
  have hAr : (((h.write r.pool ⟨0, .pool r.objects⟩).log (.release r.pool 1)).log
      (.destroy r.pool)).read r.objects = some ⟨1, .array (r.regs.length + r.junk.length)
        r.regs.length (r.regs ++ r.junk)⟩ := by
    simp only [Heap.read_log]
    rw [Heap.read_write_ne _ _ (Ne.symm hPA)]
    exact hA
  have he1 : 1 ≤ (fun o => (if o = r.pool then 0 else ext o) +
      (Body.pool r.objects).owned.count o) r.objects := by
    simp only [hownP, List.count_cons_self]
    omega
  have hs1 : r.objects ∉ r.pool :: skip := by
    intro hm
    rcases List.mem_cons.1 hm with e | e
    · exact hPA e.symm
    · exact has e
  -- the array dies
  obtain ⟨c2, hno, hpro, hal, hin2⟩ := cA.dying hAr he1 hs1
  have cAA := (c2.logged (.release r.objects 1)).logged (.destroy r.objects)
  have hbalA := cA.balance r.objects _ hAr
  simp only at hbalA
  have hvA := Heap.valid_of_read hAr
  have hAAr : ((((((h.write r.pool ⟨0, .pool r.objects⟩).log (.release r.pool 1)).log
      (.destroy r.pool)).write r.objects ⟨0, .array (r.regs.length + r.junk.length)
        r.regs.length (r.regs ++ r.junk)⟩).log (.release r.objects 1)).log
      (.destroy r.objects)).read r.objects = some ⟨0, .array (r.regs.length + r.junk.length)
        r.regs.length (r.regs ++ r.junk)⟩ := by
    simp only [Heap.read_log]
    rw [Heap.read_write]
    simp [hvA]
  have hslots : (((r.regs ++ r.junk).take r.regs.length).drop 0).filter (fun p => p ≠ 0) =
      (Body.array (r.regs.length + r.junk.length) r.regs.length (r.regs ++ r.junk)).owned := by
    simp [Body.owned]
  obtain ⟨fL, hL, eL, em⟩ := SXObject.removeAllObjectsFrom_total 0 cAA
    (List.mem_cons_self r.objects (r.pool :: skip)) hAAr
    (by rw [hslots]; intro o; exact Nat.le_add_left _ _)
    (by rw [hslots]; exact hal)
    (by rw [hslots]; exact hpro)
    (Or.inl ⟨by
      have := hin2 r.objects
      have he1b := he1
      beta_reduce at he1b
      show ((((h.write r.pool ⟨0, .pool r.objects⟩).log (.release r.pool 1)).log
        (.destroy r.pool)).write r.objects _).inrefs (r.objects :: r.pool :: skip) r.objects = 0
      omega, by rw [hslots]; exact hno⟩)
  rw [hslots, hownA] at em
  obtain ⟨evsL, tL, sL, -⟩ := em.trace
  -- the run
  have eA : SXObject.release (fL + 2) (((h.write r.pool ⟨0, .pool r.objects⟩).log
      (.release r.pool 1)).log (.destroy r.pool)) r.objects = .ok (hL.free r.objects) := by
    rw [SXObject.release_last_eq fL _ r.objects _ hAr]
    simp only [eL]
  have eP : SXObject.release (fL + 2 + 2) h r.pool = .ok ((hL.free r.objects).free r.pool) := by
    rw [SXObject.release_last_eq (fL + 2) h r.pool _ hP]
    simp only [ne_eq, hA0, not_false_eq_true, if_true, eA]
  obtain ⟨f2, h2, e2, r2, -⟩ := SXObject.release_counted c hP he (fun hm => absurd hm hps)
  have hu := SXObject.release_unique e2 eP
  subst hu
  have tfin : ((hL.free r.objects).free r.pool).trace = h.trace ++ [.release r.pool 1,
      .destroy r.pool, .release r.objects 1, .destroy r.objects] ++ evsL := by
    rw [Heap.trace_free, Heap.trace_free, tL]
    simp only [Heap.trace_log, Heap.trace_write, List.append_assoc, List.cons_append,
      List.nil_append]
  refine ⟨fL + 2 + 2, _, evsL, eP, tfin, sL, ?_, ?_, r2, ?_⟩
  · rw [Heap.read_free]; simp
  · rw [Heap.read_free_ne _ (Ne.symm hPA), Heap.read_free]; simp
  · intro q
    obtain ⟨evs2, t2, -, acc⟩ := r2.trace
    rw [tfin, List.append_assoc] at t2
    have hev := List.append_cancel_left t2
    have := acc q
    rw [← hev] at this
    simp only [releasedObjects_app] at this
    have hre : releasedObjects [Event.release r.pool 1, Event.destroy r.pool,
        Event.release r.objects 1, Event.destroy r.objects] = [r.pool, r.objects] := by
      simp [releasedObjects]
    rw [hre, List.count_append] at this
    simp only [List.count_cons, List.count_nil] at this ⊢
    omega


/-! ## The manager on a stack with registrations of every class -/

theorem Stack.pools_eq {s : State} {st : List PoolRep} {mjunk : List Nat} (hst : Stack s st mjunk) :
    s.pools = st.map PoolRep.pool := by
  obtain ⟨m, hm, hM, -⟩ := hst
  simp [State.pools, hm, Heap.elements, hM]

theorem Stack.currentPool_eq {s : State} {st : List PoolRep} {mjunk : List Nat}
    (hst : Stack s st mjunk) : s.currentPool = (st.map PoolRep.pool).getLastD 0 := by
  obtain ⟨m, hm, -, hcur, -⟩ := hst
  simp [State.currentPool, hm, hcur]

theorem Stack.registrations_eq {s : State} {st : List PoolRep} {mjunk : List Nat}
    (hst : Stack s st mjunk) {r : PoolRep} (hr : r ∈ st) :
    s.heap.registrations r.pool = r.regs := by
  obtain ⟨m, -, -, -, -, hh, -⟩ := hst
  exact (hh r hr).regs_eq

theorem Stack.current_not_new {s : State} {st : List PoolRep} {mjunk : List Nat}
    (hst : Stack s st mjunk) (k : Nat) : s.currentPool ≠ s.heap.cells.length + (k + 1) := by
  rw [hst.currentPool_eq]
  rcases List.eq_nil_or_concat' st with hnil | ⟨l, b, hl⟩
  · subst hnil; simp; omega
  · subst hl
    rw [getLastD_map_append_singleton]
    obtain ⟨m, -, -, -, -, hh, -⟩ := hst
    have hv := Heap.valid_of_read (hh b (by simp)).1
    intro e
    exact not_valid_succ s.heap k (by rw [e] at hv; exact hv)

theorem stack_stackedValues :
    Stack stackedValues ([] ++ [stackedValuesBottom, stackedValuesTop])
      [0, 0, 0, 0, 0, 0, 0, 0, 0] := by
  refine ⟨⟨1, 5⟩, rfl, rfl, rfl, by decide, ?_, by decide, by decide⟩
  intro r hr
  simp at hr
  rcases hr with rfl | rfl
  · exact ⟨rfl, rfl⟩
  · exact ⟨rfl, rfl⟩

/-- `push()` on a stack: a new empty pool in two fresh cells becomes the top of
the stack and the current pool; nothing else changes. -/
theorem push_stack (fuel : Nat) (s : State) (st : List PoolRep) (mjunk : List Nat)
    (hst : Stack s st mjunk) :
    ∃ s2, SXPoolManager.push (fuel + 1) s = .ok s2 ∧
      Stack s2 (st ++ [PoolRep.mk (s.heap.cells.length + 1) (s.heap.cells.length + 2) []
        [0, 0, 0, 0, 0, 0, 0, 0, 0, 0]]) (SXArray.spare mjunk) ∧
      s2.heap.trace = s.heap.trace ++ [.release (s.heap.cells.length + 1) 2] ∧
      (∀ q c, s.heap.read q = some c → (∀ m, s.pInstance = some m → q ≠ m.m_pPools) →
        s2.heap.read q = some c) ∧
      s2.heap.cells.length = s.heap.cells.length + 2 ∧
      (∀ m, s.pInstance = some m →
        s2.pInstance = some ⟨m.m_pPools, s.heap.cells.length + 1⟩) := by
  obtain ⟨m, hm, hM, hcur, hMo, hh, hnp, hno⟩ := hst
  obtain ⟨hn, en, rP, rA, frn, tn, ln⟩ := new_pool s.heap
  have hvM := Heap.valid_of_read hM
  have hMP : m.m_pPools ≠ s.heap.cells.length + 1 := by
    intro e; exact not_valid_succ s.heap 0 (e ▸ hvM)
  have hMA : m.m_pPools ≠ s.heap.cells.length + 2 := by
    intro e; exact not_valid_succ s.heap 1 (e ▸ hvM)
  have hMn : hn.read m.m_pPools = some ⟨1, .array ((st.map PoolRep.pool).length + mjunk.length)
      (st.map PoolRep.pool).length (st.map PoolRep.pool ++ mjunk)⟩ := by
    rw [frn _ hMP hMA, hM]; simp
  obtain ⟨h5, e5, t5, l5, fr5, r5o, r5a⟩ :=
    SXArray.addObject_reads hn m.m_pPools (s.heap.cells.length + 1) 1 1 _ mjunk _ hMn rP
  have hPM : s.heap.cells.length + 1 ≠ m.m_pPools := Ne.symm hMP
  have r5P := r5o hPM
  have hw2 : wrap (1 + 1) = 2 := by decide
  rw [hw2] at r5P
  have e6 := SXObject.release_keeps fuel h5 _ 2 _ r5P (by decide) (by decide)
  have hv5P := Heap.valid_of_read r5P
  have hfr : ∀ q c, s.heap.read q = some c → q ≠ m.m_pPools →
      ((h5.write (s.heap.cells.length + 1) ⟨2 - 1, .pool (s.heap.cells.length + 2)⟩).log
        (.release (s.heap.cells.length + 1) 2)).read q = some c := by
    intro q c hq hqM
    have hv := Heap.valid_of_read hq
    have h1 : q ≠ s.heap.cells.length + 1 := by intro e; exact not_valid_succ s.heap 0 (e ▸ hv)
    have h2 : q ≠ s.heap.cells.length + 2 := by intro e; exact not_valid_succ s.heap 1 (e ▸ hv)
    simp only [Heap.read_log, Heap.read_write, h1, false_and, if_false]
    rw [fr5 q hqM h1, frn q h1 h2, hq]
  refine ⟨⟨(h5.write (s.heap.cells.length + 1) ⟨2 - 1, .pool (s.heap.cells.length + 2)⟩).log
    (.release (s.heap.cells.length + 1) 2), some { m with m_pCurrentPool := s.heap.cells.length + 1 }⟩,
    ?_, ?_, ?_, ?_, ?_, ?_⟩
  · simp only [SXPoolManager.push, hm, Outcome.bind_eq, en, Outcome.bind_ok, e5, e6]
  · have hA6 : ((h5.write (s.heap.cells.length + 1)
        ⟨2 - 1, .pool (s.heap.cells.length + 2)⟩).log (.release (s.heap.cells.length + 1) 2)).read
        (s.heap.cells.length + 2) = some ⟨1, .array 10 0 [0, 0, 0, 0, 0, 0, 0, 0, 0, 0]⟩ := by
      have h1 : s.heap.cells.length + 2 ≠ s.heap.cells.length + 1 := by omega
      simp only [Heap.read_log, Heap.read_write, h1, false_and, if_false]
      rw [fr5 _ (Ne.symm hMA) h1, rA]
    have hP6 : ((h5.write (s.heap.cells.length + 1)
        ⟨2 - 1, .pool (s.heap.cells.length + 2)⟩).log (.release (s.heap.cells.length + 1) 2)).read
        (s.heap.cells.length + 1) = some ⟨1, .pool (s.heap.cells.length + 2)⟩ := by
      simp [Heap.read_write, hv5P]
    refine ⟨_, rfl, ?_, ?_, ?_, ?_, ?_, ?_⟩
    · simp only [Heap.read_log, Heap.read_write, hMP, false_and, if_false]
      rw [r5a, if_neg hPM]
      simp
    · simp [List.getLastD_eq_getLast?]
    · rw [List.map_append]
      intro hmem
      rcases List.mem_append.1 hmem with h1 | h1
      · exact hMo h1
      · simp at h1; exact hMA h1
    · intro r hr
      rcases List.mem_append.1 hr with hr | hr
      · have hr2 := hh r hr
        have hPne : r.pool ≠ m.m_pPools := by
          intro e; have := hr2.1; rw [e, hM] at this; cases this
        have hAne : r.objects ≠ m.m_pPools := by
          intro e; exact hMo (List.mem_map.2 ⟨r, hr, e⟩)
        exact ⟨hfr _ _ hr2.1 hPne, hfr _ _ hr2.2 hAne⟩
      · simp at hr
        subst hr
        exact ⟨hP6, hA6⟩
    · rw [List.map_append, List.nodup_append]
      refine ⟨hnp, by simp, ?_⟩
      intro x hx1 hx2
      simp at hx2
      subst hx2
      obtain ⟨r, hr, e⟩ := List.mem_map.1 hx1
      have hv := Heap.valid_of_read (hh r hr).1
      rw [e] at hv
      exact not_valid_succ s.heap 0 hv
    · rw [List.map_append, List.nodup_append]
      refine ⟨hno, by simp, ?_⟩
      intro x hx1 hx2
      simp at hx2
      subst hx2
      obtain ⟨r, hr, e⟩ := List.mem_map.1 hx1
      have hv := Heap.valid_of_read (hh r hr).2
      rw [e] at hv
      exact not_valid_succ s.heap 1 hv
  · simp [t5, tn]
  · intro q c hq hqM
    exact hfr q c hq (hqM m hm)
  · simp [l5, ln]
  · intro m2 hm2
    rw [hm] at hm2
    cases hm2
    rfl

/-- `pop()` on a stack whose top pool is empty: the pool and its array are
destroyed and the rest of the stack is as before. -/
theorem pop_stack_empty (fuel : Nat) (s : State) (st : List PoolRep) (top : PoolRep)
    (mjunk : List Nat) (hst : Stack s (st ++ [top]) mjunk) (hreg : top.regs = []) :
    ∃ s2, SXPoolManager.pop (fuel + 6) s = .ok s2 ∧
      Stack s2 st (0 :: mjunk) ∧
      s2.heap.trace = s.heap.trace ++ [.release top.pool 1, .destroy top.pool,
        .release top.objects 1, .destroy top.objects] ∧
      (∀ q, q ∉ [top.pool, top.objects] → (∀ m, s.pInstance = some m → q ≠ m.m_pPools) →
        s2.heap.read q = s.heap.read q) ∧
      s2.heap.read top.pool = none ∧ s2.heap.read top.objects = none := by
  obtain ⟨m, hm, hM, hcur, hMo, hh, hnp, hno⟩ := hst
  have hcur2 : m.m_pCurrentPool = top.pool := by rw [hcur, getLastD_map_append_singleton]
  have htop : top.holds s.heap := hh top (by simp)
  have hP0 : top.pool ≠ 0 := (Heap.valid_of_read htop.1).1
  have hMP : m.m_pPools ≠ top.pool := by intro e; rw [e, htop.1] at hM; cases hM
  have hMA : m.m_pPools ≠ top.objects := by
    intro e; apply hMo; rw [e]; simp
  obtain ⟨h1, e1, t1, s1, d1, d2⟩ := release_pool fuel s.heap top htop (hreg ▸ Owned.nil _)
  rw [hreg] at e1 t1 s1
  simp only [List.length_nil, Nat.add_zero, drainPlain_nil] at e1 s1
  have t1' : h1.trace = s.heap.trace ++ [.release top.pool 1, .destroy top.pool,
      .release top.objects 1, .destroy top.objects] := by
    rw [t1]; simp [plainEvents]
  have hM1 : h1.read m.m_pPools = s.heap.read m.m_pPools := s1.2 _ (by simp [hMP, hMA])
  have hvM1 : h1.valid m.m_pPools := Heap.valid_of_read (hM1.trans hM)
  have hlen : (st ++ [top]).length = st.length + 1 := by simp
  have hget : ((st ++ [top]).map PoolRep.pool ++ mjunk).getD ((st ++ [top]).length - 1) 0 =
      top.pool := getD_last_pool st top mjunk
  have hset : ((st ++ [top]).map PoolRep.pool ++ mjunk).set ((st ++ [top]).length - 1) 0 =
      st.map PoolRep.pool ++ 0 :: mjunk := by
    rw [hlen, Nat.add_sub_cancel, List.map_append, List.append_assoc]
    simp
  let h2 : Heap := h1.write m.m_pPools
    ⟨1, .array ((st ++ [top]).length + mjunk.length) st.length (st.map PoolRep.pool ++ 0 :: mjunk)⟩
  have hM2 : h2.read m.m_pPools = some ⟨1, .array (st.length + (0 :: mjunk).length) st.length
      (st.map PoolRep.pool ++ 0 :: mjunk)⟩ := by
    simp [h2, Heap.read_write, hvM1]; omega
  have hM1' : h1.read m.m_pPools = some ⟨1, .array ((st ++ [top]).length + mjunk.length)
      (st ++ [top]).length ((st ++ [top]).map PoolRep.pool ++ mjunk)⟩ := hM1.trans hM
  have hnp2 : (st.map PoolRep.pool).Nodup ∧ top.pool ∉ st.map PoolRep.pool := by
    rw [List.map_append, List.nodup_append] at hnp
    refine ⟨hnp.1, fun hx => hnp.2.2 hx (by simp)⟩
  have hno2 : (st.map PoolRep.objects).Nodup ∧ top.objects ∉ st.map PoolRep.objects := by
    rw [List.map_append, List.nodup_append] at hno
    refine ⟨hno.1, fun hx => hno.2.2 hx (by simp)⟩
  have hfr : ∀ q, q ∉ [top.pool, top.objects] → q ≠ m.m_pPools → h2.read q = s.heap.read q := by
    intro q hq hqM
    simp only [h2, Heap.read_write, hqM, false_and, if_false]
    exact s1.2 q hq
  have hne : ∀ r ∈ st, (r.pool ∉ [top.pool, top.objects] ∧ r.pool ≠ m.m_pPools) ∧
      (r.objects ∉ [top.pool, top.objects] ∧ r.objects ≠ m.m_pPools) := by
    intro r hr
    have hr2 := hh r (List.mem_append_left _ hr)
    have hPne : r.pool ≠ m.m_pPools := by
      intro e; have := hr2.1; rw [e, hM] at this; cases this
    have hAne : r.objects ≠ m.m_pPools := by
      intro e; exact hMo (List.mem_map.2 ⟨r, List.mem_append_left _ hr, e⟩)
    have h1 : r.pool ≠ top.pool := fun e => hnp2.2 (List.mem_map.2 ⟨r, hr, e⟩)
    have h2 : r.objects ≠ top.objects := fun e => hno2.2 (List.mem_map.2 ⟨r, hr, e⟩)
    have h3 : r.pool ≠ top.objects := by
      intro e; have := hr2.1; rw [e, htop.2] at this; cases this
    have h4 : r.objects ≠ top.pool := by
      intro e; have := hr2.2; rw [e, htop.1] at this; cases this
    simp [h1, h2, h3, h4, hPne, hAne]
  have hh2 : ∀ r ∈ st, r.holds h2 := by
    intro r hr
    have hr2 := hh r (List.mem_append_left _ hr)
    obtain ⟨⟨a1, a2⟩, b1, b2⟩ := hne r hr
    exact ⟨(hfr _ a1 a2).trans hr2.1, (hfr _ b1 b2).trans hr2.2⟩
  have hMo1 : m.m_pPools ∉ st.map PoolRep.objects := by
    intro hmem; apply hMo; rw [List.map_append]; exact List.mem_append_left _ hmem
  -- the new current pool
  have hlast : SXArray.lastObject h2 m.m_pPools = .ok ((st.map PoolRep.pool).getLastD 0) := by
    simp only [SXArray.lastObject, hM2]
    congr 1
    rcases List.eq_nil_or_concat' st with hnil | ⟨l, b, hl⟩
    · subst hnil; simp
    · subst hl
      have hpos : (l ++ [b]).length > 0 := by simp
      rw [if_pos hpos, getD_last_pool, getLastD_map_append_singleton]
  have hcast : SXPoolManager.asPool h2 ((st.map PoolRep.pool).getLastD 0) =
      .ok ((st.map PoolRep.pool).getLastD 0) := by
    rcases List.eq_nil_or_concat' st with hnil | ⟨l, b, hl⟩
    · subst hnil; simp [SXPoolManager.asPool]
    · subst hl
      have hb' := hh2 b (by simp)
      have hb0 : b.pool ≠ 0 := (Heap.valid_of_read hb'.1).1
      rw [getLastD_map_append_singleton]
      simp [SXPoolManager.asPool, hb0, hb'.1]
  refine ⟨⟨h2, some { m with m_pCurrentPool := (st.map PoolRep.pool).getLastD 0 }⟩, ?_, ?_, ?_,
    ?_, ?_, ?_⟩
  · have hc0 : m.m_pCurrentPool ≠ 0 := by rw [hcur2]; exact hP0
    have hrl : SXArray.removeLastObject (fuel + 6) s.heap m.m_pPools = .ok h2 := by
      simp only [SXArray.removeLastObject, hM]
      have hpos : (st ++ [top]).length > 0 := by simp
      rw [if_pos hpos]
      simp only [Outcome.bind_eq, hget, e1, Outcome.bind_ok, hM1', hset]
      have : (st ++ [top]).length - 1 = st.length := by simp
      rw [this]
    simp only [SXPoolManager.pop, hm, ne_eq, hc0, not_false_eq_true, if_true, Outcome.bind_eq,
      hrl, Outcome.bind_ok, hlast, hcast]
  · exact ⟨_, rfl, hM2, rfl, hMo1, hh2, hnp2.1, hno2.1⟩
  · simp [h2, t1']
  · intro q hq hqM
    exact hfr q hq (hqM m hm)
  · simp [h2, Heap.read_write, Ne.symm hMP, d1]
  · simp [h2, Heap.read_write, Ne.symm hMA, d2]


/-! ## C12 and C11: `push()`, and `push()` followed by `pop()` -/

/-- C12: `push()` on a manager whose stack has depth `n`, the registrations
being objects of any class, yields depth `n + 1`; the new pool is the last
pool of the stack and the current pool, is empty and has count 1; the pools
already on the stack keep their registrations, every object that existed keeps
its count, and the one `release()` made is on the new pool. -/
theorem push_appends_empty_pool (fuel : Nat) (s : State) (st : List PoolRep)
    (mjunk : List Nat) (hst : Stack s st mjunk) :
    ∃ s2, SXPoolManager.push (fuel + 1) s = .ok s2 ∧
      s2.pools = s.pools ++ [s.heap.cells.length + 1] ∧
      s2.pools.length = s.pools.length + 1 ∧
      s2.currentPool = s.heap.cells.length + 1 ∧
      s.heap.read (s.heap.cells.length + 1) = none ∧
      s2.heap.retainCount (s.heap.cells.length + 1) = some 1 ∧
      s2.heap.registrations (s.heap.cells.length + 1) = [] ∧
      (∀ p ∈ s.pools, s2.heap.registrations p = s.heap.registrations p) ∧
      (∀ q, (s.heap.read q).isSome → s2.heap.retainCount q = s.heap.retainCount q) ∧
      s2.heap.trace = s.heap.trace ++ [.release (s.heap.cells.length + 1) 2] := by
  obtain ⟨s2, e, r2, t2, fr, l2, p2⟩ := push_stack fuel s st mjunk hst
  have hnew : PoolRep.mk (s.heap.cells.length + 1) (s.heap.cells.length + 2) []
      [0, 0, 0, 0, 0, 0, 0, 0, 0, 0] ∈ st ++ [PoolRep.mk (s.heap.cells.length + 1)
        (s.heap.cells.length + 2) [] [0, 0, 0, 0, 0, 0, 0, 0, 0, 0]] := by simp
  have hp2 : s2.pools = s.pools ++ [s.heap.cells.length + 1] := by
    rw [r2.pools_eq, hst.pools_eq]; simp
  refine ⟨s2, e, hp2, by rw [hp2]; simp, ?_, Heap.read_of_not_valid (not_valid_succ s.heap 0),
    ?_, r2.registrations_eq hnew, ?_, ?_, t2⟩
  · rw [r2.currentPool_eq, getLastD_map_append_singleton]
  · obtain ⟨m, -, -, -, -, hh, -⟩ := r2
    simp [Heap.retainCount, (hh _ hnew).1]
  · intro p hp
    rw [hst.pools_eq] at hp
    obtain ⟨r, hr, rfl⟩ := List.mem_map.1 hp
    rw [r2.registrations_eq (List.mem_append_left _ hr), hst.registrations_eq hr]
  · intro q hq
    obtain ⟨m, hm, hM, -⟩ := hst
    by_cases hqM : q = m.m_pPools
    · subst hqM
      obtain ⟨m2, hm2, hM2, -⟩ := r2
      have := p2 m hm
      rw [hm2] at this
      cases this
      simp [Heap.retainCount, hM, hM2]
    · cases hr : s.heap.read q with
      | none => simp [hr] at hq
      | some c =>
        have := fr q c hr (fun m' hm' => by rw [hm] at hm'; cases hm'; exact hqM)
        simp [Heap.retainCount, hr, this]

/-- Instance of `push_appends_empty_pool`: the state with two pools that hold a
string, an array and a plain object. -/
theorem push_appends_empty_pool_witness :
    Stack stackedValues ([] ++ [stackedValuesBottom, stackedValuesTop])
      [0, 0, 0, 0, 0, 0, 0, 0, 0] ∧
    ∃ s2, SXPoolManager.push (0 + 1) stackedValues = .ok s2 ∧
      s2.pools = stackedValues.pools ++ [stackedValues.heap.cells.length + 1] ∧
      s2.pools.length = stackedValues.pools.length + 1 ∧
      s2.currentPool = stackedValues.heap.cells.length + 1 ∧
      stackedValues.heap.read (stackedValues.heap.cells.length + 1) = none ∧
      s2.heap.retainCount (stackedValues.heap.cells.length + 1) = some 1 ∧
      s2.heap.registrations (stackedValues.heap.cells.length + 1) = [] ∧
      (∀ p ∈ stackedValues.pools,
        s2.heap.registrations p = stackedValues.heap.registrations p) ∧
      (∀ q, (stackedValues.heap.read q).isSome →
        s2.heap.retainCount q = stackedValues.heap.retainCount q) ∧
      s2.heap.trace =
        stackedValues.heap.trace ++ [.release (stackedValues.heap.cells.length + 1) 2] :=
  ⟨stack_stackedValues, push_appends_empty_pool 0 stackedValues _ _ stack_stackedValues⟩

/-- C11: on a manager whose stack has any depth, the registrations being
objects of any class, `push()` directly followed by `pop()` restores the
sequence of pools and the current pool; and after `push(); push(); pop()` the
current pool is the pool created by the first `push()`, not the pool that was
current before. -/
theorem push_pop_round_trip (fuel : Nat) (s : State) (st : List PoolRep) (mjunk : List Nat)
    (hst : Stack s st mjunk) :
    (∃ s1 s2, SXPoolManager.push (fuel + 1) s = .ok s1 ∧
      SXPoolManager.pop (fuel + 6) s1 = .ok s2 ∧
      s2.pools = s.pools ∧ s2.currentPool = s.currentPool) ∧
    (∃ s1 s2 s3, SXPoolManager.push (fuel + 1) s = .ok s1 ∧
      SXPoolManager.push (fuel + 1) s1 = .ok s2 ∧
      SXPoolManager.pop (fuel + 6) s2 = .ok s3 ∧
      s1.currentPool = s.heap.cells.length + 1 ∧
      s2.currentPool = s.heap.cells.length + 3 ∧
      s3.currentPool = s1.currentPool ∧ s3.currentPool ≠ s.currentPool ∧
      s3.pools = s1.pools) := by
  obtain ⟨s1, e1, r1, -, -, l1, -⟩ := push_stack fuel s st mjunk hst
  obtain ⟨s2, e2, r2, -⟩ := pop_stack_empty fuel s1 st _ _ r1 rfl
  have hc1 : s1.currentPool = s.heap.cells.length + 1 := by
    rw [r1.currentPool_eq, getLastD_map_append_singleton]
  refine ⟨⟨s1, s2, e1, e2, by rw [r2.pools_eq, hst.pools_eq], by
    rw [r2.currentPool_eq, hst.currentPool_eq]⟩, ?_⟩
  obtain ⟨t2, f2, q2, -, -, l2, -⟩ := push_stack fuel s1 _ _ r1
  obtain ⟨t3, f3, q3, -⟩ := pop_stack_empty fuel t2 _ _ _ q2 rfl
  have hc3 : t3.currentPool = s.heap.cells.length + 1 := by
    rw [q3.currentPool_eq, getLastD_map_append_singleton]
  refine ⟨s1, t2, t3, e1, f2, f3, hc1, ?_, by rw [hc3, hc1], ?_, by rw [q3.pools_eq, r1.pools_eq]⟩
  · rw [q2.currentPool_eq, getLastD_map_append_singleton, l1]
  · rw [hc3]
    exact Ne.symm (hst.current_not_new 0)

/-- Instance of `push_pop_round_trip`: the state with two pools that hold a
string, an array and a plain object. -/
theorem push_pop_round_trip_witness :
    Stack stackedValues ([] ++ [stackedValuesBottom, stackedValuesTop])
      [0, 0, 0, 0, 0, 0, 0, 0, 0] ∧
    ((∃ s1 s2, SXPoolManager.push (0 + 1) stackedValues = .ok s1 ∧
      SXPoolManager.pop (0 + 6) s1 = .ok s2 ∧
      s2.pools = stackedValues.pools ∧ s2.currentPool = stackedValues.currentPool) ∧
    (∃ s1 s2 s3, SXPoolManager.push (0 + 1) stackedValues = .ok s1 ∧
      SXPoolManager.push (0 + 1) s1 = .ok s2 ∧
      SXPoolManager.pop (0 + 6) s2 = .ok s3 ∧
      s1.currentPool = stackedValues.heap.cells.length + 1 ∧
      s2.currentPool = stackedValues.heap.cells.length + 3 ∧
      s3.currentPool = s1.currentPool ∧ s3.currentPool ≠ stackedValues.currentPool ∧
      s3.pools = s1.pools)) :=
  ⟨stack_stackedValues, push_pop_round_trip 0 stackedValues _ _ stack_stackedValues⟩


/-! ## `pop()` on a well-counted stack -/

theorem SXObject.release_untouched {fuel : Nat} {h h1 : Heap} {p : Nat}
    (e : SXObject.release fuel h p = .ok h1) (a : Nat) (evs : List Event)
    (t : h1.trace = h.trace ++ evs) (ha : a ∉ releasedObjects evs) : h1.read a = h.read a :=
  ((SXObject.cascade_mirror a fuel).1 h h p h1 evs ⟨rfl, fun _ _ => rfl⟩ e t ha).1

theorem SXObject.removeAllObjectsFrom_untouched {fuel : Nat} {h h1 : Heap} {this i : Nat}
    (e : SXObject.removeAllObjectsFrom fuel h this i = .ok h1) (a : Nat) (hne : this ≠ a)
    (evs : List Event) (t : h1.trace = h.trace ++ evs) (ha : a ∉ releasedObjects evs) :
    h1.read a = h.read a :=
  ((SXObject.cascade_mirror a fuel).2.2.1 h h this i h1 evs hne ⟨rfl, fun _ _ => rfl⟩ e t ha).1

/-- A pool outside `skip` that is not changed by a run of the cascade keeps its
array as it is: no call of `release()` reaches the array. -/
theorem PoolRep.holds_kept {skip : List Nat} {h h1 : Heap} {ext : Nat → Nat} {os : List Nat}
    (c : Counted skip h ext)
    (tr : ∃ evs, h1.trace = h.trace ++ evs ∧ os.Sublist (releasedObjects evs) ∧
      ∀ q, (releasedObjects evs).count q + h1.inrefs skip q = os.count q + h.inrefs skip q)
    (hun : ∀ a evs, h1.trace = h.trace ++ evs → a ∉ releasedObjects evs →
      h1.read a = h.read a)
    {r : PoolRep} (hr : r.holds h) (hps : r.pool ∉ skip) (hpk : h1.read r.pool = h.read r.pool)
    (hno : r.objects ∉ os) : r.holds h1 := by
  obtain ⟨evs, t, -, acc⟩ := tr
  have hA0 : r.objects ≠ 0 := (Heap.valid_of_read hr.2).1
  have hb := c.balance r.objects _ hr.2
  simp only at hb
  have h1r : h1.refsFrom r.pool r.objects = 1 := by
    rw [Heap.refsFrom_of_read (hpk.trans hr.1)]
    simp [Body.owned, hA0]
  have hle := Heap.refsFrom_le_inrefs skip h1 r.pool r.objects hps
  have ha := acc r.objects
  rw [List.count_eq_zero_of_not_mem hno] at ha
  have hz : (releasedObjects evs).count r.objects = 0 := by omega
  have hnm : r.objects ∉ releasedObjects evs := List.count_eq_zero.1 hz
  exact ⟨hpk.trans hr.1, (hun _ evs t hnm).trans hr.2⟩

theorem Stack.owned_pools {st : List PoolRep} (hz : ∀ r ∈ st, r.pool ≠ 0) (cap : Nat)
    (junk : List Nat) :
    (Body.array cap st.length (st.map PoolRep.pool ++ junk)).owned = st.map PoolRep.pool := by
  have hl : (st.map PoolRep.pool).length = st.length := by simp
  simp only [Body.owned]
  rw [← hl, List.take_left' rfl]
  apply List.filter_eq_self.2
  intro x hx
  obtain ⟨r, hr, rfl⟩ := List.mem_map.1 hx
  simpa using hz r hr

/-- `pop()` on a well-counted stack of depth at least 1, the registrations
being objects of any class: the top pool and its array are destroyed, the
destructor of the array calls `release()` on the registrations in order, and
the rest of the stack is as before. -/
theorem pop_managed (s : State) (st : List PoolRep) (top : PoolRep) (mjunk : List Nat)
    (ext : Nat → Nat) (hman : Managed s (st ++ [top]) mjunk ext) :
    ∃ fuel s2 evs, (∀ k, SXPoolManager.pop (fuel + k) s = .ok s2) ∧
      Managed s2 st (0 :: mjunk) ext ∧
      s2.heap.trace = s.heap.trace ++ [.release top.pool 1, .destroy top.pool,
        .release top.objects 1, .destroy top.objects] ++ evs ∧
      top.regs.Sublist (releasedObjects evs) ∧
      (∀ q, q ∉ [top.pool, top.objects] →
        (releasedObjects evs).count q + s2.heap.inrefs [] q =
          top.regs.count q + s.heap.inrefs [top.objects] q) ∧
      s2.heap.read top.pool = none ∧ s2.heap.read top.objects = none ∧
      (∀ m, s.pInstance = some m →
        s2.pInstance = some ⟨m.m_pPools, (st.map PoolRep.pool).getLastD 0⟩) ∧
      (∀ q x2, s2.heap.read q = some x2 → (∀ m, s.pInstance = some m → q ≠ m.m_pPools) →
        ∃ x, s.heap.read q = some x ∧ x.body = x2.body) := by
  obtain ⟨⟨m, hm, hM, hcur, hMo, hh, hnp, hno⟩, c, hext, h0⟩ := hman
  have hcur2 : m.m_pCurrentPool = top.pool := by rw [hcur, getLastD_map_append_singleton]
  have htop : top.holds s.heap := hh top (by simp)
  have hP0 : top.pool ≠ 0 := (Heap.valid_of_read htop.1).1
  have hvM := Heap.valid_of_read hM
  have hMP : m.m_pPools ≠ top.pool := by intro e; rw [e, htop.1] at hM; cases hM
  have hMA : m.m_pPools ≠ top.objects := by
    intro e; apply hMo; rw [e]; simp
  have hPA : top.pool ≠ top.objects := by
    intro e; have := htop.1; rw [e, htop.2] at this; cases this
  have hz : ∀ r ∈ st ++ [top], r.pool ≠ 0 := fun r hr => (Heap.valid_of_read (hh r hr).1).1
  have hownM := Stack.owned_pools hz ((st ++ [top]).length + mjunk.length) mjunk
  have hnd : ([m.m_pPools] : List Nat).Nodup := by simp
  have hheld : s.heap.Held ext [m.m_pPools] :=
    ⟨by rw [hM]; rfl, by have := hext m hm; omega, trivial⟩
  have cS := c.setAside_chain [m.m_pPools] hnd hheld
  have hby : ∀ q, s.heap.heldBy [m.m_pPools] q = ((st ++ [top]).map PoolRep.pool).count q := by
    intro q
    rw [Heap.heldBy_cons, Heap.heldBy_nil, Heap.refsFrom_of_read hM, hownM]
    rfl
  have hin : top.pool ∈ (Body.array ((st ++ [top]).length + mjunk.length) (st ++ [top]).length
      ((st ++ [top]).map PoolRep.pool ++ mjunk)).owned := by
    rw [hownM]; simp
  obtain ⟨f1, h1, rc1, e1, hM1, rel, -, -, fin⟩ := SXObject.release_held c hnd hheld hM hin
  obtain ⟨f2, h1b, evs, e2, t1, sub, d1, d2, -, acc⟩ := release_pool_counted cS top htop
    (by simp [Ne.symm hMP]) (by simp [Ne.symm hMA])
    (by
      show 1 ≤ ext top.pool + s.heap.heldBy [m.m_pPools] top.pool
      rw [hby]
      have : 0 < ((st ++ [top]).map PoolRep.pool).count top.pool :=
        List.count_pos_iff.2 (by simp)
      omega)
    (h0 top (by simp))
  have hu := SXObject.release_unique e2 e1
  subst hu
  -- the pools array is as before
  have hinM : s.heap.inrefs [m.m_pPools] m.m_pPools = 0 := by
    have := cS.balance _ _ hM
    simp only at this
    have := hext m hm
    omega
  have hM1b : h1b.read m.m_pPools = s.heap.read m.m_pPools :=
    rel.frame _ (by simp [hMP]) hinM
  have hrc : rc1 = 1 := by
    rw [hM1b, hM] at hM1
    cases hM1
    rfl
  subst hrc
  have hvM1 : h1b.valid m.m_pPools := Heap.valid_of_read hM1
  have hlen : (st ++ [top]).length = st.length + 1 := by simp
  have hget : ((st ++ [top]).map PoolRep.pool ++ mjunk).getD ((st ++ [top]).length - 1) 0 =
      top.pool := getD_last_pool st top mjunk
  have hset : ((st ++ [top]).map PoolRep.pool ++ mjunk).set ((st ++ [top]).length - 1) 0 =
      st.map PoolRep.pool ++ 0 :: mjunk := by
    rw [hlen, Nat.add_sub_cancel, List.map_append, List.append_assoc]
    simp
  obtain ⟨h2, hdef⟩ : ∃ h2, h2 = h1b.write m.m_pPools ⟨1, .array ((st ++ [top]).length +
      mjunk.length) st.length (st.map PoolRep.pool ++ 0 :: mjunk)⟩ := ⟨_, rfl⟩
  have hM2 : h2.read m.m_pPools =
      some ⟨1, .array (st.length + (0 :: mjunk).length) st.length
        (st.map PoolRep.pool ++ 0 :: mjunk)⟩ := by
    rw [hdef]
    simp [Heap.read_write, hvM1]; omega
  have hnp2 : (st.map PoolRep.pool).Nodup ∧ top.pool ∉ st.map PoolRep.pool := by
    rw [List.map_append, List.nodup_append] at hnp
    refine ⟨hnp.1, fun hx => hnp.2.2 hx (by simp)⟩
  have hno2 : (st.map PoolRep.objects).Nodup ∧ top.objects ∉ st.map PoolRep.objects := by
    rw [List.map_append, List.nodup_append] at hno
    refine ⟨hno.1, fun hx => hno.2.2 hx (by simp)⟩
  have hz2 : ∀ r ∈ st, r.pool ≠ 0 := fun r hr => hz r (List.mem_append_left _ hr)
  have hownM2 := Stack.owned_pools hz2 ((st ++ [top]).length + mjunk.length) (0 :: mjunk)
  -- the pools below
  have hh1 : ∀ r ∈ st, r.holds h1b := by
    intro r hr
    have hr2 := hh r (List.mem_append_left _ hr)
    have hPne : r.pool ≠ m.m_pPools := by
      intro e; have := hr2.1; rw [e, hM] at this; cases this
    have h1n : r.pool ≠ top.pool := fun e => hnp2.2 (List.mem_map.2 ⟨r, hr, e⟩)
    have h4 : r.objects ≠ top.pool := by
      intro e; have := hr2.2; rw [e, htop.1] at this; cases this
    have hinr : s.heap.inrefs [m.m_pPools] r.pool = 0 := by
      have := cS.balance _ _ hr2.1
      simp only at this
      rw [hby] at this
      have : 0 < ((st ++ [top]).map PoolRep.pool).count r.pool :=
        List.count_pos_iff.2 (List.mem_map.2 ⟨r, List.mem_append_left _ hr, rfl⟩)
      omega
    exact PoolRep.holds_kept cS rel.trace (fun a evs t ha => SXObject.release_untouched e2 a evs t ha)
      hr2 (by simp [hPne]) (rel.frame _ (by simp [h1n]) hinr) (by simp [h4])
  have hh2 : ∀ r ∈ st, r.holds h2 := by
    intro r hr
    rw [hdef]
    have hr1 := hh1 r hr
    have hPne : r.pool ≠ m.m_pPools := by
      intro e; have := hr1.1; rw [e, hM1] at this; cases this
    have hAne : r.objects ≠ m.m_pPools := by
      intro e; exact hMo (List.mem_map.2 ⟨r, List.mem_append_left _ hr, e⟩)
    exact ⟨by rw [Heap.read_write_ne _ _ hPne]; exact hr1.1,
      by rw [Heap.read_write_ne _ _ hAne]; exact hr1.2⟩
  have hMo1 : m.m_pPools ∉ st.map PoolRep.objects := by
    intro hmem; apply hMo; rw [List.map_append]; exact List.mem_append_left _ hmem
  -- the new current pool
  have hlast : SXArray.lastObject h2 m.m_pPools =
      .ok ((st.map PoolRep.pool).getLastD 0) := by
    simp only [SXArray.lastObject, hM2]
    congr 1
    rcases List.eq_nil_or_concat' st with hnil | ⟨l, b, hl⟩
    · subst hnil; simp
    · subst hl
      have hpos : (l ++ [b]).length > 0 := by simp
      rw [if_pos hpos, getD_last_pool, getLastD_map_append_singleton]
  have hcast : SXPoolManager.asPool h2
      ((st.map PoolRep.pool).getLastD 0) = .ok ((st.map PoolRep.pool).getLastD 0) := by
    rcases List.eq_nil_or_concat' st with hnil | ⟨l, b, hl⟩
    · subst hnil; simp [SXPoolManager.asPool]
    · subst hl
      have hb' := hh2 b (by simp)
      have hb0 : b.pool ≠ 0 := (Heap.valid_of_read hb'.1).1
      rw [getLastD_map_append_singleton]
      simp [SXPoolManager.asPool, hb0, hb'.1]
  have cfin : Counted [] h2 ext := by
    rw [hdef]
    apply fin
    intro q
    rw [hownM, hownM2, List.map_append, List.count_append]
    rfl
  refine ⟨f2, ⟨h2, some { m with m_pCurrentPool := (st.map PoolRep.pool).getLastD 0 }⟩, evs,
    ?_, ⟨⟨_, rfl, hM2, rfl, hMo1, hh2, hnp2.1, hno2.1⟩, cfin, ?_, ?_⟩, ?_, sub, ?_, ?_, ?_, ?_,
    ?_⟩
  · intro k
    have hc0 : m.m_pCurrentPool ≠ 0 := by rw [hcur2]; exact hP0
    have ek := SXObject.release_mono_le e2 (Nat.le_add_right f2 k)
    have hrl : SXArray.removeLastObject (f2 + k) s.heap m.m_pPools = .ok h2 := by
      simp only [SXArray.removeLastObject, hM]
      have hpos : (st ++ [top]).length > 0 := by simp
      rw [if_pos hpos]
      simp only [Outcome.bind_eq, hget, ek, Outcome.bind_ok, hM1, hset]
      have : (st ++ [top]).length - 1 = st.length := by simp
      rw [this, hdef]
    simp only [SXPoolManager.pop, hm, ne_eq, hc0, not_false_eq_true, if_true, Outcome.bind_eq,
      hrl, Outcome.bind_ok, hlast, hcast]
  · intro m2 hm2
    cases hm2
    exact hext m hm
  · intro r hr
    exact h0 r (List.mem_append_left _ hr)
  · show h2.trace = _
    rw [hdef, Heap.trace_write, t1]
  · intro q hq
    simp only [List.mem_cons, List.mem_singleton, List.not_mem_nil, or_false, not_or] at hq
    have a1 := acc q
    have hvA := Heap.valid_of_read htop.2
    have e1 := Heap.inrefs_peel [] s.heap m.m_pPools q hvM (by simp)
    have e2 := Heap.inrefs_peel [] s.heap top.objects q hvA (by simp)
    have e3 := Heap.inrefs_peel [] h2 m.m_pPools q (Heap.valid_of_read hM2) (by simp)
    have e4 : h2.inrefs [m.m_pPools] q = h1b.inrefs [m.m_pPools] q := by
      rw [hdef]; exact Heap.inrefs_write_skip _ _ _ _ _ (by simp)
    rw [e4, Heap.refsFrom_of_read hM2] at e3
    simp only at e3
    have hownM3 := Stack.owned_pools hz2 (st.length + (0 :: mjunk).length) (0 :: mjunk)
    rw [hownM3] at e3
    rw [Heap.refsFrom_of_read hM, hownM, List.map_append, List.count_append] at e1
    rw [Heap.refsFrom_of_read htop.2, PoolRep.owned_eq (h0 top (by simp))] at e2
    have hc1 : [top.objects].count q = 0 := by
      simp [List.count_cons, Ne.symm hq.2]
    have hc2 : ([top].map PoolRep.pool).count q = 0 := by
      simp [List.count_cons, Ne.symm hq.1]
    show (releasedObjects evs).count q + h2.inrefs [] q = _
    omega
  · show h2.read _ = _
    rw [hdef, Heap.read_write_ne _ _ (Ne.symm hMP)]; exact d1
  · show h2.read _ = _
    rw [hdef, Heap.read_write_ne _ _ (Ne.symm hMA)]; exact d2
  · intro m2 hm2
    rw [hm] at hm2
    cases hm2
    rfl
  · intro q x2 hx2 hq
    have hqm := hq m hm
    have hx2' : h2.read q = some x2 := hx2
    rw [hdef, Heap.read_write_ne _ _ hqm] at hx2'
    exact SXObject.release_keeps_bodies e2 q x2 hx2'


/-! ## C7 and C8: `pop()` -/

theorem Managed.stack_of {s : State} {st : List PoolRep} {mjunk : List Nat} {ext : Nat → Nat}
    (hman : Managed s st mjunk ext) : Stack s st mjunk := hman.1

theorem pop_stack_nil (fuel : Nat) (s : State) (mjunk : List Nat) (hst : Stack s [] mjunk) :
    SXPoolManager.pop fuel s = .ok s := by
  obtain ⟨m, hm, -, hcur, -⟩ := hst
  simp at hcur
  simp [SXPoolManager.pop, hm, hcur]

theorem managed_stackedValues :
    Managed stackedValues ([] ++ [stackedValuesBottom, stackedValuesTop])
      [0, 0, 0, 0, 0, 0, 0, 0, 0] stackedValuesHeld := by
  refine ⟨stack_stackedValues, Counted.of_check (by decide), ?_, by decide⟩
  intro m hm
  cases hm
  decide

theorem managed_managerWithValues :
    Managed managerWithValues ([] ++ [managerWithValuesPool]) [] managerWithValuesHeld := by
  refine ⟨⟨⟨1, 2⟩, rfl, rfl, rfl, by decide, ?_, by decide, by decide⟩,
    Counted.of_check (by decide), ?_, by decide⟩
  · intro r hr
    simp at hr
    subst hr
    exact ⟨rfl, rfl⟩
  · intro m hm
    cases hm
    decide

/-- The calls of `release()` that drain a pool, counted: an object to which no
live object other than the array of the pool holds a reference is released
exactly once per registration. -/
theorem drain_exact {regs rel : List Nat} {a n : Nat} (sub : regs.Sublist rel) (q : Nat)
    (acc : rel.count q + a = regs.count q + n) (hn : n = 0) : rel.count q = regs.count q := by
  have := sub.count_le q
  omega

/-- C7: `pop()` on a manager whose stack has depth `n > 1`, in a well-counted
heap whose registrations are objects of any class: the call returns, removes
exactly the top pool and leaves depth `n - 1` with the former second pool from
the top as current pool; the popped pool and its array are released at count 1
and destroyed, then the destructor of the array calls `release()` on the
registrations in registration order: the registrations are a subsequence of
the calls logged, the other calls being made by the destructors of objects
that die in the course, and for every object the number of calls is the number
of references to it that were given up, so that an object held by no other
live object is released exactly once per registration; the registrations of
the other pools are as they were, and the heap is well counted again. -/
theorem pop_removes_top (s : State) (st : List PoolRep) (below top : PoolRep)
    (mjunk : List Nat) (ext : Nat → Nat) (hman : Managed s (st ++ [below, top]) mjunk ext) :
    ∃ fuel s2 evs, (∀ k, SXPoolManager.pop (fuel + k) s = .ok s2) ∧
      s.pools = st.map PoolRep.pool ++ [below.pool, top.pool] ∧
      s2.pools = st.map PoolRep.pool ++ [below.pool] ∧
      s2.pools.length + 1 = s.pools.length ∧
      s2.currentPool = below.pool ∧
      s2.heap.trace = s.heap.trace ++ [.release top.pool 1, .destroy top.pool,
        .release top.objects 1, .destroy top.objects] ++ evs ∧
      (s.heap.registrations top.pool).Sublist (releasedObjects evs) ∧
      (∀ q, q ∉ [top.pool, top.objects] →
        (releasedObjects evs).count q + s2.heap.inrefs [] q =
          (s.heap.registrations top.pool).count q + s.heap.inrefs [top.objects] q) ∧
      (∀ q, q ∉ [top.pool, top.objects] → s.heap.inrefs [top.objects] q = 0 →
        (releasedObjects evs).count q = (s.heap.registrations top.pool).count q) ∧
      s2.heap.read top.pool = none ∧ s2.heap.read top.objects = none ∧
      (∀ p ∈ s2.pools, s2.heap.registrations p = s.heap.registrations p) ∧
      Managed s2 (st ++ [below]) (0 :: mjunk) ext := by
  have hman2 : Managed s ((st ++ [below]) ++ [top]) mjunk ext := by
    rw [List.append_assoc]; exact hman
  have hst := hman2.stack_of
  obtain ⟨fuel, s2, evs, e, m2, t, sub, acc, d1, d2, -⟩ := pop_managed s _ top mjunk ext hman2
  have hst2 := m2.stack_of
  have hreg : s.heap.registrations top.pool = top.regs := hst.registrations_eq (by simp)
  have hp : s.pools = st.map PoolRep.pool ++ [below.pool, top.pool] := by
    rw [hst.pools_eq]; simp
  have hp2 : s2.pools = st.map PoolRep.pool ++ [below.pool] := by
    rw [hst2.pools_eq]; simp
  refine ⟨fuel, s2, evs, e, hp, hp2, by rw [hp, hp2]; simp, ?_, t, by rw [hreg]; exact sub,
    by rw [hreg]; exact acc, ?_, d1, d2, ?_, m2⟩
  · rw [hst2.currentPool_eq, getLastD_map_append_singleton]
  · intro q hq hn
    rw [hreg]
    exact drain_exact sub q (acc q hq) hn
  · intro p hp'
    rw [hst2.pools_eq] at hp'
    obtain ⟨r, hr, rfl⟩ := List.mem_map.1 hp'
    rw [hst2.registrations_eq hr, hst.registrations_eq (List.mem_append_left _ hr)]

/-- Instance of `pop_removes_top`: the top pool of `stackedValues` holds an
array, which dies and gives up its reference to the string registered in the
bottom pool, and a plain object, which survives. -/
theorem pop_removes_top_witness :
    Managed stackedValues ([] ++ [stackedValuesBottom, stackedValuesTop])
      [0, 0, 0, 0, 0, 0, 0, 0, 0] stackedValuesHeld ∧
    ∃ fuel s2 evs, (∀ k, SXPoolManager.pop (fuel + k) stackedValues = .ok s2) ∧
      stackedValues.pools = ([] : List PoolRep).map PoolRep.pool ++
        [stackedValuesBottom.pool, stackedValuesTop.pool] ∧
      s2.pools = ([] : List PoolRep).map PoolRep.pool ++ [stackedValuesBottom.pool] ∧
      s2.pools.length + 1 = stackedValues.pools.length ∧
      s2.currentPool = stackedValuesBottom.pool ∧
      s2.heap.trace = stackedValues.heap.trace ++ [.release stackedValuesTop.pool 1,
        .destroy stackedValuesTop.pool, .release stackedValuesTop.objects 1,
        .destroy stackedValuesTop.objects] ++ evs ∧
      (stackedValues.heap.registrations stackedValuesTop.pool).Sublist (releasedObjects evs) ∧
      (∀ q, q ∉ [stackedValuesTop.pool, stackedValuesTop.objects] →
        (releasedObjects evs).count q + s2.heap.inrefs [] q =
          (stackedValues.heap.registrations stackedValuesTop.pool).count q +
            stackedValues.heap.inrefs [stackedValuesTop.objects] q) ∧
      (∀ q, q ∉ [stackedValuesTop.pool, stackedValuesTop.objects] →
        stackedValues.heap.inrefs [stackedValuesTop.objects] q = 0 →
        (releasedObjects evs).count q =
          (stackedValues.heap.registrations stackedValuesTop.pool).count q) ∧
      s2.heap.read stackedValuesTop.pool = none ∧
      s2.heap.read stackedValuesTop.objects = none ∧
      (∀ p ∈ s2.pools, s2.heap.registrations p = stackedValues.heap.registrations p) ∧
      Managed s2 (([] : List PoolRep) ++ [stackedValuesBottom]) (0 :: [0, 0, 0, 0, 0, 0, 0, 0, 0])
        stackedValuesHeld :=
  ⟨managed_stackedValues, pop_removes_top stackedValues [] stackedValuesBottom stackedValuesTop
    _ _ managed_stackedValues⟩

/-- C8 (amended): `pop()` at depth 1, in a well-counted heap whose
registrations are objects of any class, removes and drains the only pool: the
call returns, the pool and its array are released at count 1 and destroyed,
the destructor of the array calls `release()` on the registrations in
registration order (an object held by no other live object exactly once per
registration), the stack is left empty and the current pool is null; a
further `pop()` changes nothing. -/
theorem pop_last_pool_empties_stack (s : State) (top : PoolRep) (mjunk : List Nat)
    (ext : Nat → Nat) (hman : Managed s ([] ++ [top]) mjunk ext) :
    ∃ fuel s2 evs, (∀ k, SXPoolManager.pop (fuel + k) s = .ok s2) ∧
      s.pools = [top.pool] ∧ s.currentPool = top.pool ∧
      s2.pools = [] ∧ s2.currentPool = 0 ∧
      s2.heap.read top.pool = none ∧ s2.heap.read top.objects = none ∧
      s2.heap.trace = s.heap.trace ++ [.release top.pool 1, .destroy top.pool,
        .release top.objects 1, .destroy top.objects] ++ evs ∧
      (s.heap.registrations top.pool).Sublist (releasedObjects evs) ∧
      (∀ q, q ∉ [top.pool, top.objects] →
        (releasedObjects evs).count q + s2.heap.inrefs [] q =
          (s.heap.registrations top.pool).count q + s.heap.inrefs [top.objects] q) ∧
      (∀ q, q ∉ [top.pool, top.objects] → s.heap.inrefs [top.objects] q = 0 →
        (releasedObjects evs).count q = (s.heap.registrations top.pool).count q) ∧
      (∀ fuel2, SXPoolManager.pop fuel2 s2 = .ok s2) := by
  have hst := hman.stack_of
  obtain ⟨fuel, s2, evs, e, m2, t, sub, acc, d1, d2, -⟩ := pop_managed s [] top mjunk ext hman
  have hst2 := m2.stack_of
  have hreg : s.heap.registrations top.pool = top.regs := hst.registrations_eq (by simp)
  refine ⟨fuel, s2, evs, e, by rw [hst.pools_eq]; simp, ?_, by rw [hst2.pools_eq]; simp, ?_, d1, d2, t,
    by rw [hreg]; exact sub, by rw [hreg]; exact acc, ?_, fun fuel2 => pop_stack_nil fuel2 s2 _ hst2⟩
  · rw [hst.currentPool_eq]; simp
  · rw [hst2.currentPool_eq]; simp
  · intro q hq hn
    rw [hreg]
    exact drain_exact sub q (acc q hq) hn

/-- Instance of `pop_last_pool_empties_stack`: the only pool of
`managerWithValues` holds an array and the string that the array holds. -/
theorem pop_last_pool_empties_stack_witness :
    Managed managerWithValues ([] ++ [managerWithValuesPool]) [] managerWithValuesHeld ∧
    ∃ fuel s2 evs, (∀ k, SXPoolManager.pop (fuel + k) managerWithValues = .ok s2) ∧
      managerWithValues.pools = [managerWithValuesPool.pool] ∧
      managerWithValues.currentPool = managerWithValuesPool.pool ∧
      s2.pools = [] ∧ s2.currentPool = 0 ∧
      s2.heap.read managerWithValuesPool.pool = none ∧
      s2.heap.read managerWithValuesPool.objects = none ∧
      s2.heap.trace = managerWithValues.heap.trace ++ [.release managerWithValuesPool.pool 1,
        .destroy managerWithValuesPool.pool, .release managerWithValuesPool.objects 1,
        .destroy managerWithValuesPool.objects] ++ evs ∧
      (managerWithValues.heap.registrations managerWithValuesPool.pool).Sublist
        (releasedObjects evs) ∧
      (∀ q, q ∉ [managerWithValuesPool.pool, managerWithValuesPool.objects] →
        (releasedObjects evs).count q + s2.heap.inrefs [] q =
          (managerWithValues.heap.registrations managerWithValuesPool.pool).count q +
            managerWithValues.heap.inrefs [managerWithValuesPool.objects] q) ∧
      (∀ q, q ∉ [managerWithValuesPool.pool, managerWithValuesPool.objects] →
        managerWithValues.heap.inrefs [managerWithValuesPool.objects] q = 0 →
        (releasedObjects evs).count q =
          (managerWithValues.heap.registrations managerWithValuesPool.pool).count q) ∧
      (∀ fuel2, SXPoolManager.pop fuel2 s2 = .ok s2) :=
  ⟨managed_managerWithValues,
    pop_last_pool_empties_stack managerWithValues managerWithValuesPool _ _
      managed_managerWithValues⟩


/-! ## C19: `clear()`, for registrations of every class -/

/-- A container array `a` that is held, directly or through its owners
`chain`, from outside the heap runs the loop of `removeAllObjects`: the loop
returns, the array (emptied) and its owners stay alive with their fields, every
object that is alive afterwards has lost as many references as calls of
`release()` were made on it, and the heap is well counted as before. -/
theorem SXArray.removeAllObjects_held {h : Heap} {ext : Nat → Nat} (c : Counted [] h ext)
    {a : Nat} {chain : List Nat} (hnd : (a :: chain).Nodup) (hh : h.Held ext (a :: chain))
    {rcA cap count : Nat} {arr : List Nat}
    (ha : h.read a = some ⟨rcA, .array cap count arr⟩) :
    ∃ fuel h1 rc2 arr2, SXObject.removeAllObjectsFrom fuel h a 0 = .ok h1 ∧
      h1.read a = some ⟨rc2, .array cap 0 arr2⟩ ∧ arr2.length = arr.length ∧
      Emptied (a :: chain) h (fun q => ext q + h.heldBy (a :: chain) q) a
        (Body.array cap count arr).owned h1 ∧
      (∀ d ∈ chain, ∃ x x1, h.read d = some x ∧ h1.read d = some x1 ∧ x1.body = x.body) ∧
      (∀ q, h1.heldBy (a :: chain) q = h.heldBy chain q) ∧
      (∀ q x x1 evs, h.read q = some x → h1.read q = some x1 → h1.trace = h.trace ++ evs →
        x1.m_referenceCount + (releasedObjects evs).count q = x.m_referenceCount) ∧
      Counted [] h1 ext := by
  have cS := c.setAside_chain (a :: chain) hnd hh
  have hslots : (((arr.take count).drop 0).filter (fun p => p ≠ 0)) =
      (Body.array cap count arr).owned := by simp [Body.owned]
  have hra : ∀ o, h.refsFrom a o = (Body.array cap count arr).owned.count o :=
    fun o => Heap.refsFrom_of_read ha o
  have hnd2 := List.nodup_cons.1 hnd
  obtain ⟨f, h1, e, em⟩ := SXObject.removeAllObjectsFrom_total 0 cS
    (List.mem_cons_self a chain) ha
    (by
      rw [hslots]; intro o
      show _ ≤ ext o + h.heldBy (a :: chain) o
      rw [Heap.heldBy_cons, hra]; omega)
    (by rw [hslots]; exact c.alive a _ (by simp) ha)
    (by
      rw [hslots]; intro d hd _
      show _ + 1 ≤ ext d + h.heldBy (a :: chain) d
      rw [Heap.heldBy_cons, hra]
      rcases List.mem_cons.1 hd with e | e
      · have := hh.2.1
        rw [e]; omega
      · have := hh.2.2.ge_one e
        omega)
    (Or.inr (by
      rw [hslots]
      show 1 ≤ ext a + h.heldBy (a :: chain) a - _
      rw [Heap.heldBy_cons, hra]
      have := hh.2.1
      omega))
  rw [hslots] at em
  obtain ⟨rc2, arr2, ha1, hl2, -⟩ := em.emptied _ _ _ _ ha
  have hkb := ((SXObject.cascade_bodies f).2.2.1 h a 0 h1 e).1
  have hstay : ∀ d ∈ chain, ∃ y y1, h.read d = some y ∧ h1.read d = some y1 ∧
      y1.body = y.body := by
    intro d hd
    have hda : d ≠ a := fun e => hnd2.1 (e ▸ hd)
    have hal1 : (h1.read d).isSome = true := by
      apply em.kept d (hh.alive (List.mem_cons_of_mem a hd))
      show 1 ≤ ext d + h.heldBy (a :: chain) d - _
      rw [Heap.heldBy_cons, hra]
      have := hh.2.2.ge_one hd
      omega
    obtain ⟨y1, hy1⟩ := Option.isSome_iff_exists.1 hal1
    obtain ⟨y, hy, hb⟩ := hkb d y1 hda hy1
    exact ⟨y, y1, hy, hy1, hb.symm⟩
  have hrefs : ∀ d ∈ chain, ∀ q, h1.refsFrom d q = h.refsFrom d q := by
    intro d hd q
    obtain ⟨y, y1, hy, hy1, hb⟩ := hstay d hd
    rw [Heap.refsFrom_of_read hy, Heap.refsFrom_of_read hy1, hb]
  have hheld : ∀ q, h1.heldBy (a :: chain) q = h.heldBy chain q := by
    intro q
    rw [Heap.heldBy_cons, Heap.heldBy_congr chain q (fun d hd => hrefs d hd q),
      Heap.refsFrom_of_read ha1]
    simp [Body.owned]
  refine ⟨f, h1, rc2, arr2, e, ha1, hl2, em, hstay, hheld, ?_, ?_⟩
  · intro q x x1 evs hx hx1 t
    obtain ⟨evs2, t2, -, acc⟩ := em.trace
    rw [t] at t2
    have hev := List.append_cancel_left t2
    subst hev
    have b1 := cS.balance q x hx
    have b2 := em.counted.balance q x1 hx1
    have := acc q
    simp only [dropTokens] at b2
    simp only at b1
    have hle : (Body.array cap count arr).owned.count q ≤ ext q + h.heldBy (a :: chain) q := by
      rw [Heap.heldBy_cons, hra]; omega
    omega
  · apply em.counted.unAside
    · intro q
      have := hheld q
      simp only [dropTokens]
      rw [this, Heap.heldBy_cons, hra]
      omega
    · intro d hd y hy q hq
      rcases List.mem_cons.1 hd with e0 | e0
      · rw [e0, ha1] at hy
        cases hy
        simp [Body.owned] at hq
      · obtain ⟨z, z1, hz, hz1, hb⟩ := hstay d e0
        rw [hz1] at hy
        cases hy
        rw [hb] at hq
        have hq0 := c.alive d z (by simp) hz q hq
        apply em.kept q hq0
        show 1 ≤ ext q + h.heldBy (a :: chain) q - _
        rw [Heap.heldBy_cons, hra]
        have := Heap.refsFrom_le_heldBy h chain d q e0
        rw [Heap.refsFrom_of_read hz] at this
        have := List.count_pos_iff.2 hq
        omega

/-- C19: `clear()` on a release pool in a well-counted heap, the registrations
being objects of any class and the pool being held by client code or by the
pools array of the manager (`chain`): the call returns; the loop calls
`release()` on the registrations in registration order (index 0 first): the
registrations are a subsequence of the calls logged, the other calls being
made by the destructors of objects that die in the course, for every object
the number of calls is the number of references to it that were given up, and
an object held by no other live object is released exactly once per
registration; the sequence is empty afterwards, the pool is alive with its
array, every object that is alive afterwards has lost one reference per call,
the heap is well counted again, and a following `addObject(o)` registers
`o`. -/
theorem clear_releases_in_order (h : Heap) (p a rcP rcA cap count : Nat)
    (arr : List Nat) (ext : Nat → Nat) (chain : List Nat)
    (hp : h.read p = some ⟨rcP, .pool a⟩)
    (ha : h.read a = some ⟨rcA, .array cap count arr⟩)
    (hlen : arr.length = cap)
    (hc : Counted [] h ext) (hnd : (a :: p :: chain).Nodup)
    (hh : h.Held ext (a :: p :: chain)) (h0 : 0 ∉ h.registrations p) :
    ∃ fuel h2 evs, (∀ k, SXAutoreleasePool.clear (fuel + k) h p = .ok h2) ∧
      h.registrations p = arr.take count ∧
      h2.trace = h.trace ++ evs ∧
      (h.registrations p).Sublist (releasedObjects evs) ∧
      (∀ q, (releasedObjects evs).count q + h2.inrefs [] q =
        (h.registrations p).count q + h.inrefs [a] q) ∧
      (∀ q, h.inrefs [a] q = 0 →
        (releasedObjects evs).count q = (h.registrations p).count q) ∧
      h2.registrations p = [] ∧
      (∃ rcP2, h2.read p = some ⟨rcP2, .pool a⟩) ∧
      (∃ rcA2 arr2, h2.read a = some ⟨rcA2, .array cap 0 arr2⟩) ∧
      (∀ q x x2, h.read q = some x → h2.read q = some x2 →
        x2.m_referenceCount + (releasedObjects evs).count q = x.m_referenceCount) ∧
      Counted [] h2 ext ∧
      (∀ o c body, h2.read o = some ⟨c, body⟩ →
        ∃ h3, SXAutoreleasePool.addObject h2 p o = .ok h3 ∧ h3.registrations p = [o]) := by
  have hreg : h.registrations p = arr.take count := by
    simp [Heap.registrations, hp, Heap.elements, ha]
  rw [hreg] at h0 ⊢
  have hown : (Body.array cap count arr).owned = arr.take count := by
    simp only [Body.owned]
    apply List.filter_eq_self.2
    intro x hx
    have : x ≠ 0 := fun e => h0 (e ▸ hx)
    simpa using this
  obtain ⟨f, h2, rc2, arr2, e, ha2, hl2, em, hstay, hheld, hcnt, c2⟩ :=
    SXArray.removeAllObjects_held hc hnd hh ha
  rw [hown] at em
  obtain ⟨evs, t, sub, acc⟩ := em.trace
  obtain ⟨y, y1, hy, hy1, hb⟩ := hstay p (by simp)
  rw [hp] at hy
  cases hy
  obtain ⟨rcP2, bP2⟩ := y1
  simp only at hb
  subst hb
  have hacc : ∀ q, (releasedObjects evs).count q + h2.inrefs [] q =
      (arr.take count).count q + h.inrefs [a] q := by
    intro q
    have hnd2 := List.nodup_cons.1 hnd
    have hv : ∀ d ∈ a :: p :: chain, h.valid d := fun d hd =>
      Heap.valid_of_read (Option.isSome_iff_exists.1 (hh.alive hd)).choose_spec
    have hv2 : ∀ d ∈ a :: p :: chain, h2.valid d := by
      intro d hd
      have := hv d hd
      exact ⟨this.1, by rw [em.length]; exact this.2⟩
    have s1 := Heap.inrefs_split h2 q (a :: p :: chain) [] hnd
      (fun d hd => ⟨hv2 d hd, by simp⟩)
    have s2 := Heap.inrefs_split h q (p :: chain) [a] hnd2.2
      (fun d hd => ⟨hv d (List.mem_cons_of_mem a hd), by
        intro hm
        simp only [List.mem_singleton] at hm
        exact hnd2.1 (hm ▸ hd)⟩)
    have s3 : h.inrefs ((p :: chain) ++ [a]) q = h.inrefs (a :: p :: chain) q :=
      Heap.inrefs_of_mem_iff h q (fun x => by simp; tauto)
    rw [List.append_nil] at s1
    have := acc q
    have := hheld q
    omega
  refine ⟨f, h2, evs, ?_, rfl, t, sub, hacc, ?_, ?_, ⟨rcP2, hy1⟩, ⟨rc2, arr2, ha2⟩, ?_, c2, ?_⟩
  · intro k
    simp only [SXAutoreleasePool.clear, SXAutoreleasePool.objects, hp, SXArray.removeAllObjects]
    exact SXObject.removeAllObjectsFrom_mono_le e (Nat.le_add_right f k)
  · intro q hq
    exact drain_exact sub q (hacc q) hq
  · simp [Heap.registrations, hy1, Heap.elements, ha2]
  · intro q x x2 hx hx2
    exact hcnt q x x2 evs hx hx2 t
  · intro o c body ho
    have hl : arr2.length = cap := by rw [hl2, hlen]
    obtain ⟨h3, e3, e3', -, r3, -⟩ :=
      SXAutoreleasePool.addObject_registrations h2 p a o rcP2 rc2 cap 0 c _ body hy1 ha2
        hl (Nat.zero_le _) ho
    obtain ⟨h3', e4, -, -, el, -⟩ :=
      SXArray.addObject_elements h2 a o rc2 cap 0 c _ body ha2 hl (Nat.zero_le _) ho
    rw [e3'] at e4
    cases e4
    refine ⟨h3, e3, ?_⟩
    rw [r3, el]
    simp [Heap.elements, ha2]

/-- Instance of `clear_releases_in_order`: the top pool of `stackedValues`,
which holds two registrations: an array, which dies and gives up its reference
to a string, and then a plain object, which survives. -/
theorem clear_releases_in_order_witness :
    (stackedValues.heap.read 5 = some ⟨1, .pool 6⟩ ∧
      stackedValues.heap.read 6 = some ⟨1, .array 10 2 [7, 8, 0, 0, 0, 0, 0, 0, 0, 0]⟩ ∧
      Counted [] stackedValues.heap stackedValuesHeld ∧
      stackedValues.heap.Held stackedValuesHeld [6, 5, 1] ∧
      0 ∉ stackedValues.heap.registrations 5) ∧
    ∃ fuel h2 evs, (∀ k, SXAutoreleasePool.clear (fuel + k) stackedValues.heap 5 = .ok h2) ∧
      stackedValues.heap.registrations 5 = [7, 8, 0, 0, 0, 0, 0, 0, 0, 0].take 2 ∧
      h2.trace = stackedValues.heap.trace ++ evs ∧
      (stackedValues.heap.registrations 5).Sublist (releasedObjects evs) ∧
      (∀ q, (releasedObjects evs).count q + h2.inrefs [] q =
        (stackedValues.heap.registrations 5).count q + stackedValues.heap.inrefs [6] q) ∧
      (∀ q, stackedValues.heap.inrefs [6] q = 0 →
        (releasedObjects evs).count q = (stackedValues.heap.registrations 5).count q) ∧
      h2.registrations 5 = [] ∧
      (∃ rcP2, h2.read 5 = some ⟨rcP2, .pool 6⟩) ∧
      (∃ rcA2 arr2, h2.read 6 = some ⟨rcA2, .array 10 0 arr2⟩) ∧
      (∀ q x x2, stackedValues.heap.read q = some x → h2.read q = some x2 →
        x2.m_referenceCount + (releasedObjects evs).count q = x.m_referenceCount) ∧
      Counted [] h2 stackedValuesHeld ∧
      (∀ o c body, h2.read o = some ⟨c, body⟩ →
        ∃ h3, SXAutoreleasePool.addObject h2 5 o = .ok h3 ∧ h3.registrations 5 = [o]) :=
  ⟨⟨rfl, rfl, Counted.of_check (by decide), ⟨rfl, by decide, rfl, by decide, rfl, by decide,
      trivial⟩, by decide⟩,
    clear_releases_in_order stackedValues.heap 5 6 1 1 10 2 [7, 8, 0, 0, 0, 0, 0, 0, 0, 0]
      stackedValuesHeld [1] rfl rfl rfl (Counted.of_check (by decide)) (by decide)
      ⟨rfl, by decide, rfl, by decide, rfl, by decide, trivial⟩ (by decide)⟩


/-! ## C20: the manager's calls touch the top pool only -/

theorem Stack.top_alive {s : State} {st : List PoolRep} {top : PoolRep} {mjunk : List Nat}
    (hst : Stack s (st ++ [top]) mjunk) :
    s.currentPool = top.pool ∧ top.pool ≠ 0 ∧
    s.heap.read top.pool = some ⟨1, .pool top.objects⟩ ∧
    s.heap.read top.objects =
      some ⟨1, .array (top.regs.length + top.junk.length) top.regs.length (top.regs ++ top.junk)⟩ := by
  have hc := hst.currentPool_eq
  rw [getLastD_map_append_singleton] at hc
  obtain ⟨m, -, -, -, -, hh, -⟩ := hst
  have hh := hh top (by simp)
  exact ⟨hc, (Heap.valid_of_read hh.1).1, hh.1, hh.2⟩

theorem Stack.avoid_top_array {s : State} {st : List PoolRep} {top : PoolRep}
    {mjunk : List Nat} (hst : Stack s (st ++ [top]) mjunk) :
    (∀ m, s.pInstance = some m → m.m_pPools ≠ top.objects) ∧
    ∀ r ∈ st, r.pool ≠ top.objects ∧ r.objects ≠ top.objects := by
  obtain ⟨m, hm, hMr, -, hno, hh, -, hnd⟩ := hst
  have htop := hh top (by simp)
  refine ⟨?_, ?_⟩
  · intro m' hm' e
    rw [hm] at hm'
    cases hm'
    apply hno
    rw [e]
    simp
  · intro r hr
    have hh := hh r (by simp [hr])
    refine ⟨?_, ?_⟩
    · intro e
      have h1 := hh.1
      rw [e, htop.2] at h1
      cases h1
    · intro e
      rw [List.map_append, List.nodup_append] at hnd
      exact hnd.2.2 (List.mem_map.2 ⟨r, hr, rfl⟩) (by simp [e])

theorem Stack.lower_pools_kept {s : State} {st : List PoolRep} {mjunk : List Nat}
    (hst : Stack s st mjunk) {h2 : Heap} {xs : List Nat} (hs : SameBodies xs h2 s.heap)
    (hM : ∀ m, s.pInstance = some m → m.m_pPools ∉ xs) :
    (State.mk h2 s.pInstance).pools = s.pools ∧
    ∀ r ∈ st, r.pool ∉ xs → r.objects ∉ xs →
      h2.registrations r.pool = s.heap.registrations r.pool := by
  obtain ⟨m, hm, hMr, -, -, hh, -⟩ := hst
  refine ⟨?_, ?_⟩
  · simp only [State.pools, hm]
    exact hs.elements (hM m hm)
  · intro r hr h1 h2'
    exact hs.same_registrations (hh r hr).1 h1 h2'

/-- The top pool of a well-counted stack, its array and the pools array form a
chain of owners that ends at the reference held by the manager; no pool below
and no array of a pool below is registered in the top pool. -/
theorem Managed.top_held {s : State} {st : List PoolRep} {top : PoolRep} {mjunk : List Nat}
    {ext : Nat → Nat} (hman : Managed s (st ++ [top]) mjunk ext) :
    ∃ m, s.pInstance = some m ∧ [top.objects, top.pool, m.m_pPools].Nodup ∧
      s.heap.Held ext [top.objects, top.pool, m.m_pPools] ∧
      (∀ r ∈ st, r.pool ∉ [top.objects, top.pool, m.m_pPools] ∧
        s.heap.inrefs [top.objects, top.pool, m.m_pPools] r.pool = 0 ∧
        r.pool ∉ top.regs ∧ r.objects ∉ top.regs ∧ r.objects ≠ top.objects ∧
        r.objects ≠ m.m_pPools) ∧
      s.heap.inrefs [top.objects, top.pool, m.m_pPools] top.pool = 0 ∧
      s.heap.inrefs [top.objects, top.pool, m.m_pPools] top.objects = 0 ∧
      top.pool ∉ top.regs ∧ top.objects ∉ top.regs := by
  obtain ⟨hst, c, hext, h0⟩ := hman
  have hav := hst.avoid_top_array
  obtain ⟨m, hm, hM, hcur, hMo, hh, hnp, hno⟩ := hst
  have htop : top.holds s.heap := hh top (by simp)
  have hMP : m.m_pPools ≠ top.pool := by intro e; rw [e, htop.1] at hM; cases hM
  have hMA : m.m_pPools ≠ top.objects := hav.1 m hm
  have hPA : top.pool ≠ top.objects := by
    intro e; have := htop.1; rw [e, htop.2] at this; cases this
  have hA0 : top.objects ≠ 0 := (Heap.valid_of_read htop.2).1
  have hz : ∀ r ∈ st ++ [top], r.pool ≠ 0 := fun r hr => (Heap.valid_of_read (hh r hr).1).1
  have hownM := Stack.owned_pools hz ((st ++ [top]).length + mjunk.length) mjunk
  have hnd : [top.objects, top.pool, m.m_pPools].Nodup := by
    simp [Ne.symm hPA, Ne.symm hMA, Ne.symm hMP]
  have hrP : ∀ q, s.heap.refsFrom top.pool q = [top.objects].count q := by
    intro q
    rw [Heap.refsFrom_of_read htop.1]
    simp [Body.owned, hA0]
  have hrM : ∀ q, s.heap.refsFrom m.m_pPools q = ((st ++ [top]).map PoolRep.pool).count q := by
    intro q
    rw [Heap.refsFrom_of_read hM, hownM]
  have hrA : ∀ q, s.heap.refsFrom top.objects q = top.regs.count q := by
    intro q
    rw [Heap.refsFrom_of_read htop.2, PoolRep.owned_eq (h0 top (by simp))]
  have hE : ∀ q, s.heap.inrefs [] q = top.regs.count q + [top.objects].count q +
      ((st ++ [top]).map PoolRep.pool).count q +
      s.heap.inrefs [top.objects, top.pool, m.m_pPools] q := by
    intro q
    have := Heap.inrefs_split s.heap q [top.objects, top.pool, m.m_pPools] [] hnd
      (fun d hd => by
        simp only [List.mem_cons, List.mem_singleton, List.not_mem_nil, or_false] at hd
        rcases hd with rfl | rfl | rfl
        · exact ⟨Heap.valid_of_read htop.2, by simp⟩
        · exact ⟨Heap.valid_of_read htop.1, by simp⟩
        · exact ⟨Heap.valid_of_read hM, by simp⟩)
    rw [List.append_nil, Heap.heldBy_cons, Heap.heldBy_cons, Heap.heldBy_cons, Heap.heldBy_nil,
      hrA, hrP, hrM] at this
    omega
  have hbP := c.balance _ _ htop.1
  have hbA := c.balance _ _ htop.2
  have hbM := c.balance _ _ hM
  simp only at hbP hbA hbM
  have hcP : 0 < ((st ++ [top]).map PoolRep.pool).count top.pool :=
    List.count_pos_iff.2 (by simp)
  have hcA : [top.objects].count top.objects = 1 := by simp
  have hEP := hE top.pool
  have hEA := hE top.objects
  refine ⟨m, hm, hnd, ⟨by rw [htop.2]; rfl, ?_, by rw [htop.1]; rfl, ?_, by rw [hM]; rfl, ?_,
    trivial⟩, ?_, by omega, by omega, ?_, ?_⟩
  · rw [Heap.heldBy_cons, hrP]; omega
  · rw [Heap.heldBy_cons, Heap.heldBy_nil, hrM]; omega
  · have := hext m hm
    rw [Heap.heldBy_nil]; omega
  · intro r hr
    have hr2 := hh r (List.mem_append_left _ hr)
    have hb := c.balance _ _ hr2.1
    have hb2 := c.balance _ _ hr2.2
    simp only at hb hb2
    have hc : 0 < ((st ++ [top]).map PoolRep.pool).count r.pool :=
      List.count_pos_iff.2 (List.mem_map.2 ⟨r, List.mem_append_left _ hr, rfl⟩)
    have hEr := hE r.pool
    have hEo := hE r.objects
    have hPne : r.pool ≠ m.m_pPools := by
      intro e; have := hr2.1; rw [e, hM] at this; cases this
    have hAne : r.objects ≠ m.m_pPools := by
      intro e; exact hMo (List.mem_map.2 ⟨r, List.mem_append_left _ hr, e⟩)
    have h1 : r.pool ≠ top.pool := by
      intro e
      rw [List.map_append, List.nodup_append] at hnp
      exact hnp.2.2 (List.mem_map.2 ⟨r, hr, rfl⟩) (by simp [e])
    have hnotin : r.pool ∉ [top.objects, top.pool, m.m_pPools] := by
      simp [(hav.2 r hr).1, h1, hPne]
    have hro : s.heap.refsFrom r.pool r.objects = 1 := by
      rw [Heap.refsFrom_of_read hr2.1]
      simp [Body.owned, (Heap.valid_of_read hr2.2).1]
    have hle := Heap.refsFrom_le_inrefs [top.objects, top.pool, m.m_pPools] s.heap r.pool
      r.objects hnotin
    refine ⟨hnotin, by omega, ?_, ?_, (hav.2 r hr).2, hAne⟩
    · apply List.count_eq_zero.1; omega
    · apply List.count_eq_zero.1; omega
  · apply List.count_eq_zero.1; omega
  · apply List.count_eq_zero.1; omega


/-- C20: on a manager whose stack has the top pool `top`, the registrations
being objects of any class, the manager's `addObject(o)`, an object's
`autorelease()` and the manager's `removeObject(o)` leave the stack and the
registrations of every pool below the top as they are; `addObject` and
`autorelease` append `o` to the top pool, and `removeObject(o)`, when the top
pool holds no registration of `o`, returns the state unchanged (nothing is
removed or released, also when a lower pool holds `o`); when the top pool
holds `o`, in a well-counted heap, the call returns, removes the first
registration of `o` from the top pool and calls `release()` exactly once on
`o` (whose destructor, if that was the last reference, may release further
objects). -/
theorem manager_calls_touch_top_pool_only (fuel : Nat) (s : State) (st : List PoolRep)
    (top : PoolRep) (mjunk : List Nat) (o : Nat) (hst : Stack s (st ++ [top]) mjunk) :
    s.currentPool = top.pool ∧ s.heap.registrations top.pool = top.regs ∧
    (∀ c body, s.heap.read o = some ⟨c, body⟩ →
      (∃ s2, SXPoolManager.addObject s o = .ok s2 ∧
        s2.pools = s.pools ∧ s2.currentPool = s.currentPool ∧
        s2.heap.registrations top.pool = top.regs ++ [o] ∧
        ∀ r ∈ st, s2.heap.registrations r.pool = s.heap.registrations r.pool) ∧
      (1 ≤ c → c ≤ UINT_MAX → ∃ s2, SXObject.autorelease (fuel + 1) s o = .ok (s2, o) ∧
        s2.pools = s.pools ∧ s2.currentPool = s.currentPool ∧
        s2.heap.registrations top.pool = top.regs ++ [o] ∧
        ∀ r ∈ st, s2.heap.registrations r.pool = s.heap.registrations r.pool)) ∧
    (o ∉ top.regs → SXPoolManager.removeObject fuel s o = .ok s) ∧
    (o ∈ top.regs → ∀ ext, Managed s (st ++ [top]) mjunk ext →
      ∃ fuel2 s2 evs, (∀ k, SXPoolManager.removeObject (fuel2 + k) s o = .ok s2) ∧
        s2.pools = s.pools ∧ s2.currentPool = s.currentPool ∧
        s2.heap.trace = s.heap.trace ++ evs ∧ (releasedObjects evs).count o = 1 ∧
        s2.heap.registrations top.pool = top.regs.erase o ∧
        (∀ r ∈ st, s2.heap.registrations r.pool = s.heap.registrations r.pool) ∧
        Counted [] s2.heap ext) := by
  obtain ⟨hcur, hP0, hP, hA⟩ := hst.top_alive
  have hregs : s.heap.registrations top.pool = top.regs := hst.registrations_eq (by simp)
  obtain ⟨hMa, hla⟩ := hst.avoid_top_array
  have hst' := hst
  obtain ⟨m, hm, hMr, hmc, -, hholds, -⟩ := hst'
  have hmcur : m.m_pCurrentPool = top.pool := by
    have := hcur
    simp only [State.currentPool, hm] at this
    exact this
  have hPA : top.pool ≠ top.objects := by intro e; rw [e, hA] at hP; cases hP
  have hlen : (top.regs ++ top.junk).length = top.regs.length + top.junk.length := by simp
  have hel : s.heap.elements top.objects = top.regs := by
    simp [Heap.elements, hA]
  refine ⟨hcur, hregs, ?_, ?_, ?_⟩
  · intro c body ho
    obtain ⟨h2, ep, ea, -, r2, rcP2, hP2⟩ :=
      SXAutoreleasePool.addObject_registrations s.heap top.pool top.objects o 1 1 _ _ c _ body
        hP hA hlen (by omega) ho
    obtain ⟨h2', ea', -, -, el, ⟨cap2, arr2, ha2, -⟩, -, ro, -⟩ :=
      SXArray.addObject_elements s.heap top.objects o 1 _ _ c _ body hA hlen (by omega) ho
    rw [ea] at ea'
    cases ea'
    have hsb : SameBodies [top.objects] h2 s.heap :=
      SXArray.addObject_sameBodies s.heap h2 top.objects o 1 _ _ c _ body hA hlen (by omega) ho ea
    have hlow := hst.lower_pools_kept hsb (fun m' hm' => by simpa using hMa m' hm')
    have htop2 : h2.registrations top.pool = top.regs ++ [o] := by rw [r2, el, hel]
    refine ⟨⟨⟨h2, s.pInstance⟩, ?_, hlow.1, rfl, htop2, ?_⟩, ?_⟩
    · simp only [SXPoolManager.addObject, hm, hmcur, ep, bind, Outcome.bind]
    · intro r hr
      exact hlow.2 r (by simp [hr]) (by simpa using (hla r hr).1) (by simpa using (hla r hr).2)
    · intro hc1 hcm
      have ho2 : ∃ body2, h2.read o = some ⟨wrap (c + 1), body2⟩ := by
        by_cases hoa : o = top.objects
        · subst hoa
          rw [hA] at ho
          cases ho
          exact ⟨.array cap2 (top.regs.length + 1) arr2, by rw [ha2]; simp⟩
        · exact ⟨body, ro hoa⟩
      obtain ⟨body2, ho2⟩ := ho2
      have hw : wrap (wrap (c + 1) + UINT_MAX) = c := wrap_succ_pred c hc1 hcm
      have hne : wrap (wrap (c + 1) + UINT_MAX) ≠ 0 := by rw [hw]; omega
      have e3 := SXObject.release_alive fuel h2 o _ body2 ho2 hne
      have hsb3 : ∀ xs, SameBodies xs
          ((h2.write o ⟨wrap (wrap (c + 1) + UINT_MAX), body2⟩).log
            (.release o (wrap (c + 1)))) h2 := by
        intro xs q hq
        have := @SameBodies.of_write _ _ _ (wrap (wrap (c + 1) + UINT_MAX)) _ ho2 xs q hq
        simpa using this
      have hlow3 := hst.lower_pools_kept ((hsb3 _).compose hsb)
        (fun m' hm' => by simpa using hMa m' hm')
      refine ⟨⟨_, s.pInstance⟩, ?_, hlow3.1, rfl, ?_, ?_⟩
      · simp only [SXObject.autorelease, SXPoolManager.sharedPoolManager, hm,
          SXPoolManager.addObject, hmcur, ep, bind, Outcome.bind, e3]
      · show Heap.registrations _ top.pool = _
        rw [(hsb3 []).same_registrations hP2 (by simp) (by simp), htop2]
      · intro r hr
        exact hlow3.2 r (by simp [hr]) (by simpa using (hla r hr).1)
          (by simpa using (hla r hr).2)
  · intro hn
    have e := SXArray.removeObject_absent fuel s.heap top.objects o 1 _ _ _ hA hlen (by omega)
      (by rw [hel]; exact hn)
    simp only [SXPoolManager.removeObject, hm, hmcur, SXAutoreleasePool.removeObject,
      SXAutoreleasePool.objects, hP, bind, Outcome.bind, e]
    rw [← hm]
  · intro hmem ext hman
    obtain ⟨m', hm', hnd, hheld, hlow, -, -, hPr, hAr⟩ := hman.top_held
    rw [hm] at hm'
    cases hm'
    obtain ⟨-, cnt, -, h0⟩ := hman
    have ho0 : o ≠ 0 := fun e0 => h0 top (by simp) (e0 ▸ hmem)
    obtain ⟨l1, l2, hsplit, hn⟩ := exists_first_occurrence o _ hmem
    have hA' : s.heap.read top.objects = some ⟨1, .array (top.regs.length + top.junk.length)
        (l1.length + 1 + l2.length) (l1 ++ o :: l2 ++ top.junk)⟩ := by
      rw [hA, hsplit]
      simp
      omega
    obtain ⟨f, h1, rc1, e, ha1, erem, rel, -, hstay, c2⟩ :=
      SXArray.removeObject_held cnt hnd hheld hA' hn ho0
    have cS := cnt.setAside_chain _ hnd hheld
    have hoal := cnt.alive top.objects _ (by simp) hA' o
      (SXArray.owned_split _ l1 l2 _ o ho0).2
    obtain ⟨⟨c0, b0⟩, hx⟩ := Option.isSome_iff_exists.1 hoal
    obtain ⟨evs, t, -, -⟩ := rel.trace
    have he1 : 1 ≤ ext o + s.heap.heldBy [top.objects, top.pool, m.m_pPools] o := by
      have h1' := Heap.refsFrom_le_heldBy s.heap [top.objects, top.pool, m.m_pPools] top.objects o
        (by simp)
      rw [Heap.refsFrom_of_read hA'] at h1'
      have h2' : 0 < (Cell.mk 1 (Body.array (top.regs.length + top.junk.length)
          (l1.length + 1 + l2.length) (l1 ++ o :: l2 ++ top.junk))).body.owned.count o :=
        List.count_pos_iff.2 (SXArray.owned_split (top.regs.length + top.junk.length)
          l1 l2 top.junk o ho0).2
      omega
    have honce := (Released.once cS rel e hx he1 t).1
    obtain ⟨h2, hdef⟩ : ∃ h2, h2 = h1.write top.objects ⟨rc1, .array
        (top.regs.length + top.junk.length) (l1.length + l2.length)
        (l1 ++ l2 ++ l2.getLastD 0 :: top.junk)⟩ := ⟨_, rfl⟩
    have hv1 := Heap.valid_of_read ha1
    have hA2 : h2.read top.objects = some ⟨rc1, .array
        (top.regs.length + top.junk.length) (l1.length + l2.length)
        (l1 ++ l2 ++ l2.getLastD 0 :: top.junk)⟩ := by
      rw [hdef, Heap.read_write]; simp [hv1]
    obtain ⟨yP, yP1, hyP, hyP1, hbP⟩ := hstay top.pool (by simp)
    rw [hP] at hyP
    cases hyP
    obtain ⟨rcP1, bP1⟩ := yP1
    simp only at hbP
    subst hbP
    have hP2 : h2.read top.pool = some ⟨rcP1, .pool top.objects⟩ := by
      rw [hdef, Heap.read_write_ne _ _ hPA]; exact hyP1
    obtain ⟨yM, yM1, hyM, hyM1, hbM⟩ := hstay m.m_pPools (by simp)
    rw [hMr] at hyM
    cases hyM
    obtain ⟨rcM1, bM1⟩ := yM1
    simp only at hbM
    subst hbM
    have hM2 : h2.read m.m_pPools = some ⟨rcM1, .array ((st ++ [top]).length + mjunk.length)
        (st ++ [top]).length ((st ++ [top]).map PoolRep.pool ++ mjunk)⟩ := by
      rw [hdef, Heap.read_write_ne _ _ (hMa m hm)]; exact hyM1
    refine ⟨f, ⟨h2, s.pInstance⟩, evs, ?_, ?_, rfl, ?_, honce, ?_, ?_, ?_⟩
    · intro k
      simp only [SXPoolManager.removeObject, hm, hmcur, SXAutoreleasePool.removeObject,
        SXAutoreleasePool.objects, hP, bind, Outcome.bind, erem k, hdef]
    · simp only [State.pools, hm, Heap.elements, hM2, hMr]
    · show h2.trace = _
      rw [hdef, Heap.trace_write, t]
    · show h2.registrations top.pool = _
      simp only [Heap.registrations, hP2, Heap.elements, hA2]
      rw [hsplit, erase_first_occurrence o l1 l2 hn,
        show l1 ++ l2 ++ l2.getLastD 0 :: top.junk = (l1 ++ l2) ++ (l2.getLastD 0 :: top.junk)
          by simp]
      exact List.take_left' (by simp)
    · intro r hr
      obtain ⟨hni, hin0, hrp, hro, hroA, -⟩ := hlow r hr
      have hr2 := hholds r (List.mem_append_left _ hr)
      have hop : r.pool ∉ [o] := by
        intro e0
        simp only [List.mem_singleton] at e0
        exact hrp (e0 ▸ hmem)
      have hoo : r.objects ∉ [o] := by
        intro e0
        simp only [List.mem_singleton] at e0
        exact hro (e0 ▸ hmem)
      have hk1 := PoolRep.holds_kept cS rel.trace
        (fun a evs t ha => SXObject.release_untouched e a evs t ha) hr2 hni
        (rel.frame _ hop hin0) hoo
      have hk2 : r.holds h2 := by
        rw [hdef]
        exact ⟨by rw [Heap.read_write_ne _ _ (hla r hr).1]; exact hk1.1,
          by rw [Heap.read_write_ne _ _ hroA]; exact hk1.2⟩
      show h2.registrations r.pool = _
      rw [hk2.regs_eq, hr2.regs_eq]
    · show Counted [] h2 ext
      rw [hdef]; exact c2

/-- Instance of `manager_calls_touch_top_pool_only`: in `stackedValues` the
string at address 4 is registered in the bottom pool only, and the array at
address 7, whose only reference is its registration in the top pool, dies when
that registration is removed. -/
theorem manager_calls_touch_top_pool_only_witness :
    (Stack stackedValues ([stackedValuesBottom] ++ [stackedValuesTop])
        [0, 0, 0, 0, 0, 0, 0, 0, 0] ∧
      4 ∉ stackedValuesTop.regs ∧
      SXPoolManager.removeObject 0 stackedValues 4 = .ok stackedValues) ∧
    (7 ∈ stackedValuesTop.regs ∧
      Managed stackedValues ([stackedValuesBottom] ++ [stackedValuesTop])
        [0, 0, 0, 0, 0, 0, 0, 0, 0] stackedValuesHeld ∧
      ∃ fuel2 s2 evs, (∀ k, SXPoolManager.removeObject (fuel2 + k) stackedValues 7 = .ok s2) ∧
        s2.pools = stackedValues.pools ∧ s2.currentPool = stackedValues.currentPool ∧
        s2.heap.trace = stackedValues.heap.trace ++ evs ∧ (releasedObjects evs).count 7 = 1 ∧
        s2.heap.registrations stackedValuesTop.pool = stackedValuesTop.regs.erase 7 ∧
        (∀ r ∈ [stackedValuesBottom],
          s2.heap.registrations r.pool = stackedValues.heap.registrations r.pool) ∧
        Counted [] s2.heap stackedValuesHeld) :=
  ⟨⟨stack_stackedValues, by decide,
      (manager_calls_touch_top_pool_only 0 stackedValues [stackedValuesBottom] stackedValuesTop
        _ 4 stack_stackedValues).2.2.2.1 (by decide)⟩,
    by decide, managed_stackedValues,
    (manager_calls_touch_top_pool_only 0 stackedValues [stackedValuesBottom] stackedValuesTop
      _ 7 stack_stackedValues).2.2.2.2 (by decide) _ managed_stackedValues⟩


/-! ## Tearing the manager down, for registrations of every class -/

/-- The loop of `removeAllObjects` over the pools array of a well-counted
stack, the array being in the course of its destruction: the pools are
destroyed in index order, bottom pool first. -/
theorem removeAllObjectsFrom_stack (m cap : Nat) : ∀ (rest : List PoolRep) (pre junk : List Nat)
    (H : Heap) (ext : Nat → Nat), Counted [m] H ext →
    H.read m = some ⟨0, .array cap (pre.length + rest.length)
      (pre ++ rest.map PoolRep.pool ++ junk)⟩ →
    (∀ r ∈ rest, r.holds H) → (∀ r ∈ rest, 1 ≤ ext r.pool) →
    (rest.map PoolRep.pool).Nodup → (∀ r ∈ rest, 0 ∉ r.regs) →
    ∃ fuel H2 evs, SXObject.removeAllObjectsFrom fuel H m pre.length = .ok H2 ∧
      H2.trace = H.trace ++ evs ∧ drainedInOrder rest evs ∧
      (∀ r ∈ rest, H2.read r.pool = none ∧ H2.read r.objects = none) := by
  intro rest
  induction rest with
  | nil =>
    intro pre junk H ext c hM _ _ _ _
    refine ⟨1, H.write m ⟨0, .array cap 0 (pre ++ ([] : List PoolRep).map PoolRep.pool ++ junk)⟩,
      [], ?_, by simp, rfl, by simp⟩
    rw [SXObject.removeAllObjectsFrom_succ]
    simp [hM]
  | cons r rest ih =>
    intro pre junk H ext c hM hh htok hnd h0
    have hr := hh r (by simp)
    have hvM := Heap.valid_of_read hM
    have hP0 : r.pool ≠ 0 := (Heap.valid_of_read hr.1).1
    have hMP : m ≠ r.pool := by intro e; rw [e, hr.1] at hM; cases hM
    have hMA : m ≠ r.objects := by intro e; rw [e, hr.2] at hM; cases hM
    have hnd2 := List.nodup_cons.1 hnd
    obtain ⟨f1, H1, e1evs, e1, t1, sub1, d1, d2, rel1, acc1⟩ := release_pool_counted c r hr
      (by simp [Ne.symm hMP]) (by simp [Ne.symm hMA]) (htok r (by simp)) (h0 r (by simp))
    have hinM : H.inrefs [m] m = 0 := by
      have := c.balance _ _ hM
      simp only at this
      omega
    have hM1 : H1.read m = some ⟨0, .array cap (pre.length + (r :: rest).length)
        (pre ++ (r :: rest).map PoolRep.pool ++ junk)⟩ :=
      (rel1.frame m (by simp [hMP]) hinM).trans hM
    have hv1 := Heap.valid_of_read hM1
    obtain ⟨H1w, hdef⟩ : ∃ H1w, H1w = H1.write m ⟨0, .array cap
        (pre.length + (r :: rest).length) ((pre ++ [0]) ++ rest.map PoolRep.pool ++ junk)⟩ :=
      ⟨_, rfl⟩
    have hM1w : H1w.read m = some ⟨0, .array cap ((pre ++ [0]).length + rest.length)
        ((pre ++ [0]) ++ rest.map PoolRep.pool ++ junk)⟩ := by
      rw [hdef, Heap.read_write]
      simp [hv1]; omega
    have c1w : Counted [m] H1w (dropTokens ext [r.pool]) := by
      rw [hdef]
      exact rel1.counted.write_skip (List.mem_singleton_self m) hM1
    -- the pools further up are as before
    have hfacts : ∀ q ∈ rest, q.pool ≠ r.pool ∧ q.pool ≠ m ∧ q.objects ≠ m ∧
        H.inrefs [m] q.pool = 0 ∧ q.objects ≠ r.pool := by
      intro q hq
      have hq2 := hh q (List.mem_cons_of_mem r hq)
      have hb := c.balance _ _ hq2.1
      simp only at hb
      have := htok q (List.mem_cons_of_mem r hq)
      refine ⟨fun e => hnd2.1 (List.mem_map.2 ⟨q, hq, e⟩), ?_, ?_, by omega, ?_⟩
      · intro e; have := hq2.1; rw [e, hM] at this; cases this
      · intro e; have := hq2.2; rw [e, hM] at this; cases this
      · intro e; have := hq2.2; rw [e, hr.1] at this; cases this
    have hh1 : ∀ q ∈ rest, q.holds H1 := by
      intro q hq
      obtain ⟨a1, a2, a3, a4, a5⟩ := hfacts q hq
      exact PoolRep.holds_kept c rel1.trace
        (fun a evs t ha => SXObject.release_untouched e1 a evs t ha)
        (hh q (List.mem_cons_of_mem r hq)) (by simp [a2])
        (rel1.frame _ (by simp [a1]) a4) (by simp [a5])
    have hh1w : ∀ q ∈ rest, q.holds H1w := by
      intro q hq
      obtain ⟨a1, a2, a3, a4, a5⟩ := hfacts q hq
      have := hh1 q hq
      rw [hdef]
      exact ⟨by rw [Heap.read_write_ne _ _ a2]; exact this.1,
        by rw [Heap.read_write_ne _ _ a3]; exact this.2⟩
    have htok1 : ∀ q ∈ rest, 1 ≤ dropTokens ext [r.pool] q.pool := by
      intro q hq
      obtain ⟨a1, -⟩ := hfacts q hq
      have := htok q (List.mem_cons_of_mem r hq)
      have h0' : [r.pool].count q.pool = 0 := by simp [List.count_cons, Ne.symm a1]
      simp only [dropTokens, h0']
      omega
    obtain ⟨f2, H2, evs2, e2, t2, dr2, dead2⟩ := ih (pre ++ [0]) junk H1w _ c1w hM1w hh1w htok1
      hnd2.2 (fun q hq => h0 q (List.mem_cons_of_mem r hq))
    have hget : (pre ++ (r :: rest).map PoolRep.pool ++ junk).getD pre.length 0 = r.pool := by
      rw [List.getD_eq_getElem?_getD, List.append_assoc,
        List.getElem?_append_right (Nat.le_refl _)]
      simp
    have hset : (pre ++ (r :: rest).map PoolRep.pool ++ junk).set pre.length 0 =
        (pre ++ [0]) ++ rest.map PoolRep.pool ++ junk := by simp
    have hkb := ((SXObject.cascade_bodies f2).2.2.1 H1w m (pre ++ [0]).length H2 e2).1
    have hdead : ∀ p, p ≠ m → H1.read p = none → H2.read p = none := by
      intro p hpm hp
      cases hr2 : H2.read p with
      | none => rfl
      | some x2 =>
        obtain ⟨x, hx, -⟩ := hkb p x2 hpm hr2
        rw [hdef, Heap.read_write_ne _ _ hpm, hp] at hx
        cases hx
    refine ⟨max f1 f2 + 1, H2, [.release r.pool 1, .destroy r.pool, .release r.objects 1,
      .destroy r.objects] ++ e1evs ++ evs2, ?_, ?_, ⟨e1evs, evs2, rfl, sub1, ?_, dr2⟩, ?_⟩
    · rw [SXObject.removeAllObjectsFrom_succ]
      simp only [hM, hget]
      have hlt : pre.length < pre.length + (r :: rest).length := by simp
      rw [if_pos hlt, if_pos hP0, SXObject.release_mono_le e1 (Nat.le_max_left f1 f2)]
      simp only [hM1, hset]
      have : (pre ++ [0]).length = pre.length + 1 := by simp
      rw [this] at e2
      rw [← hdef]
      exact SXObject.removeAllObjectsFrom_mono_le e2 (Nat.le_max_right f1 f2)
    · rw [t2, hdef, Heap.trace_write, t1]
      simp only [List.append_assoc]
    · intro q hq
      obtain ⟨a1, a2, a3, a4, a5⟩ := hfacts q hq
      have hq2 := hh q (List.mem_cons_of_mem r hq)
      have hq1 := hh1 q hq
      have hA0 : q.objects ≠ 0 := (Heap.valid_of_read hq2.2).1
      have hAne : q.objects ≠ r.objects := by
        intro e
        have := hq1.2
        rw [e, d2] at this
        cases this
      have hb := c.balance _ _ hq2.2
      simp only at hb
      have h1r : H1.refsFrom q.pool q.objects = 1 := by
        rw [Heap.refsFrom_of_read hq1.1]
        simp [Body.owned, hA0]
      have hle := Heap.refsFrom_le_inrefs [m] H1 q.pool q.objects (by simp [a2])
      have ac1 := acc1 q.pool
      have ac2 := acc1 q.objects
      have hPne : q.pool ≠ r.objects := by
        intro e
        have := hq1.1
        rw [e, d2] at this
        cases this
      have hz1 : q.pool ∉ releasedObjects e1evs := by
        apply List.count_eq_zero.1; omega
      have hz2 : q.objects ∉ releasedObjects e1evs := by
        apply List.count_eq_zero.1
        have : [r.objects].count q.objects = 0 := by simp [List.count_cons, Ne.symm hAne]
        omega
      simp [a1, a5, hPne, hAne, hz1, hz2]
    · intro q hq
      rcases List.mem_cons.1 hq with e | e
      · subst e
        exact ⟨hdead _ (Ne.symm hMP) d1, hdead _ (Ne.symm hMA) d2⟩
      · exact dead2 q e


theorem drainedInOrder_sublist : ∀ (st : List PoolRep) (evs : List Event),
    drainedInOrder st evs →
    (st.flatMap (fun r => r.pool :: r.objects :: r.regs)).Sublist (releasedObjects evs) := by
  intro st
  induction st with
  | nil => intro evs _; simp
  | cons r rest ih =>
    intro evs hd
    obtain ⟨e1, e2, rfl, sub, -, dr⟩ := hd
    have hre : releasedObjects [Event.release r.pool 1, Event.destroy r.pool,
        Event.release r.objects 1, Event.destroy r.objects] = [r.pool, r.objects] := by
      simp [releasedObjects]
    rw [releasedObjects_app, releasedObjects_app, hre, List.flatMap_cons]
    have := (sub.append (ih e2 dr))
    simpa using this

theorem drainedInOrder_split : ∀ (below above : List PoolRep) (evs : List Event),
    drainedInOrder (below ++ above) evs →
    ∃ e1 e2, evs = e1 ++ e2 ∧
      (below.flatMap (fun r => r.pool :: r.objects :: r.regs)).Sublist (releasedObjects e1) ∧
      (∀ r ∈ above, r.pool ∉ releasedObjects e1 ∧ r.objects ∉ releasedObjects e1) ∧
      drainedInOrder above e2 := by
  intro below
  induction below with
  | nil =>
    intro above evs hd
    exact ⟨[], evs, rfl, by simp, by simp [releasedObjects], hd⟩
  | cons r rest ih =>
    intro above evs hd
    obtain ⟨e1, e2, rfl, sub, hno, dr⟩ := hd
    obtain ⟨f1, f2, rfl, sub2, hno2, dr2⟩ := ih above e2 dr
    have hre : releasedObjects [Event.release r.pool 1, Event.destroy r.pool,
        Event.release r.objects 1, Event.destroy r.objects] = [r.pool, r.objects] := by
      simp [releasedObjects]
    refine ⟨[.release r.pool 1, .destroy r.pool, .release r.objects 1, .destroy r.objects] ++
      e1 ++ f1, f2, by simp, ?_, ?_, dr2⟩
    · rw [releasedObjects_app, releasedObjects_app, hre, List.flatMap_cons]
      have := sub.append sub2
      simpa using this
    · intro q hq
      have h1 := hno q (List.mem_append_right _ hq)
      have h2 := hno2 q hq
      rw [releasedObjects_app, releasedObjects_app, hre]
      simp only [List.cons_append, List.nil_append, List.mem_cons, List.mem_append, not_or] at h1 ⊢
      exact ⟨⟨h1.1.1, h1.1.2.1, h1.1.2.2, h2.1⟩, h1.2.1, h1.2.2.1, h1.2.2.2, h2.2⟩

theorem drainedInOrder_pools : ∀ (st : List PoolRep) (evs : List Event),
    drainedInOrder st evs → ∀ r ∈ st, ReleasedToZero r.pool evs := by
  intro st
  induction st with
  | nil => intro evs _ r hr; simp at hr
  | cons a rest ih =>
    intro evs hd r hr
    obtain ⟨e1, e2, rfl, -, -, dr⟩ := hd
    rcases List.mem_cons.1 hr with e | e
    · subst e
      exact ⟨[], [.release r.objects 1, .destroy r.objects] ++ e1 ++ e2, by simp⟩
    · obtain ⟨pre, post, e0⟩ := ih e2 dr r e
      exact ⟨[.release a.pool 1, .destroy a.pool, .release a.objects 1, .destroy a.objects] ++
        e1 ++ pre, post, by rw [← e0]; simp⟩


theorem Stack.registrations_flat {s : State} {st : List PoolRep} {mjunk : List Nat}
    (hst : Stack s st mjunk) : s.registrations = st.flatMap PoolRep.regs := by
  have hreg : ∀ r ∈ st, s.heap.registrations r.pool = r.regs := fun r hr => hst.registrations_eq hr
  rw [State.registrations, hst.pools_eq]
  clear hst
  induction st with
  | nil => rfl
  | cons r rest ih =>
    simp only [List.map_cons, List.flatMap_cons]
    rw [hreg r (by simp), ih (fun q hq => hreg q (by simp [hq]))]

/-- The references that the arrays of the pools hold are the registrations. -/
theorem heldBy_objects (h : Heap) (q : Nat) : ∀ (st : List PoolRep), (∀ r ∈ st, r.holds h) →
    (∀ r ∈ st, 0 ∉ r.regs) →
    h.heldBy (st.map PoolRep.objects) q = (st.flatMap PoolRep.regs).count q := by
  intro st
  induction st with
  | nil => intro _ _; rfl
  | cons r rest ih =>
    intro hh h0
    rw [List.map_cons, Heap.heldBy_cons, List.flatMap_cons, List.count_append,
      ih (fun x hx => hh x (by simp [hx])) (fun x hx => h0 x (by simp [hx])),
      Heap.refsFrom_of_read (hh r (by simp)).2, PoolRep.owned_eq (h0 r (by simp))]

/-- The teardown of a manager in a well-counted heap, the registrations being
objects of any class: the pools array is released at count 1 and destroyed,
its pools are destroyed bottom pool first, and the singleton is reset. -/
theorem purge_managed (s : State) (st : List PoolRep) (mjunk : List Nat) (ext : Nat → Nat)
    (hman : Managed s st mjunk ext) :
    ∃ m fuel h2 evs, s.pInstance = some m ∧
      (∀ k, SXPoolManager.purgePoolManager (fuel + k) s = .ok ⟨h2, none⟩) ∧
      h2.trace = s.heap.trace ++ [.release m.m_pPools 1, .destroy m.m_pPools] ++ evs ∧
      drainedInOrder st evs ∧
      h2.read m.m_pPools = none ∧
      (∀ r ∈ st, h2.read r.pool = none ∧ h2.read r.objects = none) ∧
      Released [] s.heap ext [m.m_pPools] h2 := by
  obtain ⟨⟨m, hm, hM, hcur, hMo, hh, hnp, hno⟩, c, hext, h0⟩ := hman
  have hvM := Heap.valid_of_read hM
  have hM0 : m.m_pPools ≠ 0 := hvM.1
  have hz : ∀ r ∈ st, r.pool ≠ 0 := fun r hr => (Heap.valid_of_read (hh r hr).1).1
  have hownM := Stack.owned_pools hz (st.length + mjunk.length) mjunk
  obtain ⟨c1, -, -, -, -⟩ := c.dying hM (hext m hm) (by simp)
  have cA := (c1.logged (.release m.m_pPools 1)).logged (.destroy m.m_pPools)
  have hMA : (((s.heap.write m.m_pPools ⟨0, .array (st.length + mjunk.length) st.length
      (st.map PoolRep.pool ++ mjunk)⟩).log (.release m.m_pPools 1)).log
      (.destroy m.m_pPools)).read m.m_pPools = some ⟨0, .array (st.length + mjunk.length)
        (([] : List Nat).length + st.length) ([] ++ st.map PoolRep.pool ++ mjunk)⟩ := by
    simp only [Heap.read_log]
    rw [Heap.read_write]
    simp [hvM]
  obtain ⟨f, H2, evs, e, t, dr, dead⟩ := removeAllObjectsFrom_stack m.m_pPools
    (st.length + mjunk.length) st [] mjunk _ _ cA hMA
    (by
      intro r hr
      have hr2 := hh r hr
      have hPne : r.pool ≠ m.m_pPools := by
        intro e; have := hr2.1; rw [e, hM] at this; cases this
      have hAne : r.objects ≠ m.m_pPools := by
        intro e; exact hMo (List.mem_map.2 ⟨r, hr, e⟩)
      refine ⟨?_, ?_⟩
      · simp only [Heap.read_log]
        rw [Heap.read_write_ne _ _ hPne]; exact hr2.1
      · simp only [Heap.read_log]
        rw [Heap.read_write_ne _ _ hAne]; exact hr2.2)
    (by
      intro r hr
      show 1 ≤ (if r.pool = m.m_pPools then 0 else ext r.pool) +
        (Body.array (st.length + mjunk.length) st.length
          (st.map PoolRep.pool ++ mjunk)).owned.count r.pool
      rw [hownM]
      have : 0 < (st.map PoolRep.pool).count r.pool :=
        List.count_pos_iff.2 (List.mem_map.2 ⟨r, hr, rfl⟩)
      omega)
    hnp h0
  simp only [List.length_nil] at e
  have eR : SXObject.release (f + 2) s.heap m.m_pPools = .ok (H2.free m.m_pPools) := by
    rw [SXObject.release_last_eq f s.heap m.m_pPools _ hM]
    simp only [e]
  obtain ⟨f2, h2, e2, r2, -⟩ := SXObject.release_counted c hM (hext m hm) (by simp)
  have hu := SXObject.release_unique e2 eR
  subst hu
  refine ⟨m, f + 2, H2.free m.m_pPools, evs, hm, ?_, ?_, dr, ?_, ?_, r2⟩
  · intro k
    simp only [SXPoolManager.purgePoolManager, hm, ne_eq, hM0, not_false_eq_true, if_true,
      Outcome.bind_eq, SXObject.release_mono eR k, Outcome.bind_ok]
  · rw [Heap.trace_free, t]
    simp only [Heap.trace_log, Heap.trace_write, List.append_assoc, List.cons_append,
      List.nil_append]
  · rw [Heap.read_free]; simp
  · intro r hr
    have hr2 := hh r hr
    have hPne : r.pool ≠ m.m_pPools := by
      intro e; have := hr2.1; rw [e, hM] at this; cases this
    have hAne : r.objects ≠ m.m_pPools := by
      intro e; exact hMo (List.mem_map.2 ⟨r, hr, e⟩)
    rw [Heap.read_free_ne _ hPne, Heap.read_free_ne _ hAne]
    exact dead r hr

/-! ## C15 and C14: `purgePoolManager()` -/

/-- C15: `purgePoolManager()` without a manager changes nothing; on an active
manager in a well-counted heap, the registrations being objects of any class,
it returns, resets the singleton, releases the pools array at count 1 and
destroys it together with every pool of the stack (each released at count 1);
the registrations of the stack, bottom pool first, are a subsequence of the
calls of `release()` logged, the other calls being made by the destructors of
objects that die in the course; for every object the number of calls is the
number of references to it that were given up, so that an object held by no
live object other than the arrays of the pools is released exactly once per
registration; the heap is well counted again. -/
theorem purge_releases_each_registration_once (s : State) :
    (s.pInstance = none → ∀ fuel, SXPoolManager.purgePoolManager fuel s = .ok s) ∧
    (∀ st mjunk ext, Managed s st mjunk ext → ∃ fuel s2 evs m,
      s.pInstance = some m ∧
      (∀ k, SXPoolManager.purgePoolManager (fuel + k) s = .ok s2) ∧
      s2.pInstance = none ∧ s2.pools = [] ∧ s2.currentPool = 0 ∧
      s2.heap.trace = s.heap.trace ++ [.release m.m_pPools 1, .destroy m.m_pPools] ++ evs ∧
      s2.heap.read m.m_pPools = none ∧
      (∀ p ∈ s.pools, s2.heap.read p = none ∧ ReleasedToZero p evs) ∧
      s.registrations.Sublist (releasedObjects evs) ∧
      (∀ q, (releasedObjects evs).count q + s2.heap.inrefs [] q = s.heap.inrefs [] q) ∧
      (∀ q, s.heap.inrefs (st.map PoolRep.objects) q = 0 →
        (releasedObjects evs).count q = s.registrations.count q) ∧
      Counted [] s2.heap (dropTokens ext [m.m_pPools])) := by
  refine ⟨?_, ?_⟩
  · intro hn fuel
    simp [SXPoolManager.purgePoolManager, hn]
  · intro st mjunk ext hman
    obtain ⟨m, fuel, h2, evs, hm, e, t, dr, dM, dead, rel⟩ := purge_managed s st mjunk ext hman
    have hst := hman.stack_of
    obtain ⟨-, c, -, h0⟩ := hman
    have hregs := hst.registrations_flat
    have hsub : s.registrations.Sublist (releasedObjects evs) := by
      rw [hregs]
      refine List.Sublist.trans ?_ (drainedInOrder_sublist st evs dr)
      clear dr dead hst hregs h0
      induction st with
      | nil => simp
      | cons r rest ih =>
        rw [List.flatMap_cons, List.flatMap_cons]
        exact List.Sublist.append
          ((List.sublist_cons_self r.objects r.regs).trans (List.sublist_cons_self r.pool _)) ih
    have hacc : ∀ q, (releasedObjects evs).count q + h2.inrefs [] q = s.heap.inrefs [] q := by
      intro q
      obtain ⟨evs2, t2, -, acc⟩ := rel.trace
      rw [t, List.append_assoc] at t2
      have hev := List.append_cancel_left t2
      have := acc q
      rw [← hev, releasedObjects_app] at this
      have hre : releasedObjects [Event.release m.m_pPools 1, Event.destroy m.m_pPools] =
          [m.m_pPools] := by simp [releasedObjects]
      rw [hre, List.count_append] at this
      omega
    refine ⟨fuel, ⟨h2, none⟩, evs, m, hm, e, rfl, rfl, rfl, t, dM, ?_, hsub, hacc, ?_, rel.counted⟩
    · intro p hp
      rw [hst.pools_eq] at hp
      obtain ⟨r, hr, rfl⟩ := List.mem_map.1 hp
      exact ⟨(dead r hr).1, drainedInOrder_pools st evs dr r hr⟩
    · intro q hq
      obtain ⟨m', hm', hM, -, -, hh, -, hno⟩ := hst
      have hs := Heap.inrefs_split s.heap q (st.map PoolRep.objects) [] hno
        (fun d hd => by
          obtain ⟨r, hr, rfl⟩ := List.mem_map.1 hd
          exact ⟨Heap.valid_of_read (hh r hr).2, by simp⟩)
      rw [List.append_nil, heldBy_objects s.heap q st hh h0, ← hregs] at hs
      have := hacc q
      have := hsub.count_le q
      omega

/-- Instance of `purge_releases_each_registration_once`: the state before the
first access has no manager, and the pools of `stackedValues` hold a string, an
array that holds the string, and a plain object. -/
theorem purge_releases_each_registration_once_witness :
    (SXPoolManager.initial.pInstance = none ∧
      ∀ fuel, SXPoolManager.purgePoolManager fuel SXPoolManager.initial =
        .ok SXPoolManager.initial) ∧
    (Managed stackedValues ([] ++ [stackedValuesBottom, stackedValuesTop])
      [0, 0, 0, 0, 0, 0, 0, 0, 0] stackedValuesHeld ∧
    ∃ fuel s2 evs m, stackedValues.pInstance = some m ∧
      (∀ k, SXPoolManager.purgePoolManager (fuel + k) stackedValues = .ok s2) ∧
      s2.pInstance = none ∧ s2.pools = [] ∧ s2.currentPool = 0 ∧
      s2.heap.trace = stackedValues.heap.trace ++
        [.release m.m_pPools 1, .destroy m.m_pPools] ++ evs ∧
      s2.heap.read m.m_pPools = none ∧
      (∀ p ∈ stackedValues.pools, s2.heap.read p = none ∧ ReleasedToZero p evs) ∧
      stackedValues.registrations.Sublist (releasedObjects evs) ∧
      (∀ q, (releasedObjects evs).count q + s2.heap.inrefs [] q =
        stackedValues.heap.inrefs [] q) ∧
      (∀ q, stackedValues.heap.inrefs
          (([] ++ [stackedValuesBottom, stackedValuesTop]).map PoolRep.objects) q = 0 →
        (releasedObjects evs).count q = stackedValues.registrations.count q) ∧
      Counted [] s2.heap (dropTokens stackedValuesHeld [m.m_pPools])) :=
  ⟨⟨rfl, (purge_releases_each_registration_once SXPoolManager.initial).1 rfl⟩,
    managed_stackedValues,
    (purge_releases_each_registration_once stackedValues).2 _ _ _ managed_stackedValues⟩

/-- C14 (amended): `purgePoolManager()` on an active manager in a well-counted
heap, the registrations being objects of any class, drains the pools from
bottom to top: after the release of the pools array, for every split of the
stack into a lower and an upper part, the log splits into two parts; the first
holds, in order, the releases for the pools of the lower part (each pool, its
array, then its registrations in registration order) and no call on a pool of
the upper part or on the array of such a pool, which are released, with their
registrations, in the second part. -/
theorem purge_drains_bottom_to_top (s : State) (st : List PoolRep) (mjunk : List Nat)
    (ext : Nat → Nat) (hman : Managed s st mjunk ext) :
    ∃ m fuel s2 evs, s.pInstance = some m ∧
      (∀ k, SXPoolManager.purgePoolManager (fuel + k) s = .ok s2) ∧
      s2.heap.trace = s.heap.trace ++ [.release m.m_pPools 1, .destroy m.m_pPools] ++ evs ∧
      s.pools = st.map PoolRep.pool ∧ (∀ r ∈ st, s.heap.registrations r.pool = r.regs) ∧
      ∀ below above, st = below ++ above → ∃ e1 e2, evs = e1 ++ e2 ∧
        (below.flatMap (fun r => r.pool :: r.objects :: r.regs)).Sublist (releasedObjects e1) ∧
        (above.flatMap (fun r => r.pool :: r.objects :: r.regs)).Sublist (releasedObjects e2) ∧
        ∀ r ∈ above, r.pool ∉ releasedObjects e1 ∧ r.objects ∉ releasedObjects e1 := by
  obtain ⟨m, fuel, h2, evs, hm, e, t, dr, -, -, -⟩ := purge_managed s st mjunk ext hman
  have hst := hman.stack_of
  refine ⟨m, fuel, ⟨h2, none⟩, evs, hm, e, t, hst.pools_eq, fun r hr => hst.registrations_eq hr, ?_⟩
  intro below above hsplit
  subst hsplit
  obtain ⟨e1, e2, he, s1, hno, dr2⟩ := drainedInOrder_split below above evs dr
  exact ⟨e1, e2, he, s1, drainedInOrder_sublist above e2 dr2, hno⟩

/-- Instance of `purge_drains_bottom_to_top`: the two pools of
`stackedValues`. -/
theorem purge_drains_bottom_to_top_witness :
    Managed stackedValues ([] ++ [stackedValuesBottom, stackedValuesTop])
      [0, 0, 0, 0, 0, 0, 0, 0, 0] stackedValuesHeld ∧
    ∃ m fuel s2 evs, stackedValues.pInstance = some m ∧
      (∀ k, SXPoolManager.purgePoolManager (fuel + k) stackedValues = .ok s2) ∧
      s2.heap.trace = stackedValues.heap.trace ++
        [.release m.m_pPools 1, .destroy m.m_pPools] ++ evs ∧
      stackedValues.pools =
        ([] ++ [stackedValuesBottom, stackedValuesTop]).map PoolRep.pool ∧
      (∀ r ∈ [] ++ [stackedValuesBottom, stackedValuesTop],
        stackedValues.heap.registrations r.pool = r.regs) ∧
      ∀ below above, [] ++ [stackedValuesBottom, stackedValuesTop] = below ++ above →
        ∃ e1 e2, evs = e1 ++ e2 ∧
        (below.flatMap (fun r => r.pool :: r.objects :: r.regs)).Sublist (releasedObjects e1) ∧
        (above.flatMap (fun r => r.pool :: r.objects :: r.regs)).Sublist (releasedObjects e2) ∧
        ∀ r ∈ above, r.pool ∉ releasedObjects e1 ∧ r.objects ∉ releasedObjects e1 :=
  ⟨managed_stackedValues, purge_drains_bottom_to_top stackedValues _ _ _ managed_stackedValues⟩


/-! ## The ownership invariant, for objects of every class -/

namespace Heap

/-- The addresses of `skip` outside the heap do not matter. -/
theorem inrefs_skip_congr {s1 s2 : List Nat} (h : Heap) (o : Nat)
    (hm : ∀ p, h.valid p → (p ∈ s1 ↔ p ∈ s2)) : h.inrefs s1 o = h.inrefs s2 o := by
  unfold inrefs
  congr 1
  apply List.map_congr_left
  intro p hp
  have := hm p ((mem_addresses h p).1 hp)
  by_cases h1 : p ∈ s1
  · rw [if_pos h1, if_pos (this.1 h1)]
  · rw [if_neg h1, if_neg (fun h2 => h1 (this.2 h2))]

/-- The references are counted alike in a heap and in a larger heap whose
objects outside `skip` hold the same references to `o`. -/
theorem inrefs_grow {skip : List Nat} {h h2 : Heap} {o : Nat}
    (hle : h.cells.length ≤ h2.cells.length)
    (hr : ∀ p, p ∉ skip → h2.refsFrom p o = h.refsFrom p o) :
    h2.inrefs skip o = h.inrefs skip o := by
  obtain ⟨k, hk⟩ : ∃ k, h2.cells.length = h.cells.length + k := ⟨_, (Nat.add_sub_cancel' hle).symm⟩
  unfold inrefs addresses
  rw [hk, List.range_add, List.map_append, List.map_append, List.sum_append]
  have h1 : (List.map (fun p => if p ∈ skip then 0 else h2.refsFrom p o)
      (List.map (fun x => x + 1) (List.range h.cells.length))) =
      (List.map (fun p => if p ∈ skip then 0 else h.refsFrom p o)
      (List.map (fun x => x + 1) (List.range h.cells.length))) := by
    apply List.map_congr_left
    intro p _
    by_cases hp : p ∈ skip
    · rw [if_pos hp, if_pos hp]
    · rw [if_neg hp, if_neg hp, hr p hp]
  have h2' : (List.map (fun p => if p ∈ skip then 0 else h2.refsFrom p o)
      (List.map (fun x => x + 1) (List.map (fun x => h.cells.length + x) (List.range k)))).sum
      = 0 := by
    apply List.sum_eq_zero
    intro n hn
    simp only [List.mem_map, List.mem_range] at hn
    obtain ⟨p, ⟨i, ⟨j, hj, rfl⟩, rfl⟩, rfl⟩ := hn
    by_cases hp : h.cells.length + j + 1 ∈ skip
    · rw [if_pos hp]
    · rw [if_neg hp, hr _ hp]
      apply refsFrom_of_none
      apply read_of_not_valid
      intro hv
      have := hv.2
      omega
  rw [h1, h2', Nat.add_zero]

end Heap

/-- No live object holds a reference to an address outside the heap. -/
theorem Counted.inrefs_invalid {h : Heap} {ext : Nat → Nat} (c : Counted [] h ext) {q : Nat}
    (hq : (h.read q) = none) : h.inrefs [] q = 0 := by
  unfold Heap.inrefs
  apply List.sum_eq_zero
  intro n hn
  obtain ⟨p, -, rfl⟩ := List.mem_map.1 hn
  simp only [List.not_mem_nil, if_false]
  cases hp : h.read p with
  | none => exact Heap.refsFrom_of_none hp q
  | some x =>
    rw [Heap.refsFrom_of_read hp]
    apply List.count_eq_zero_of_not_mem
    intro hm
    have := c.alive p x (by simp) hp q hm
    rw [hq] at this
    cases this

/-- The objects of the manager of a stack. -/
theorem Stack.internals_eq {s : State} {st : List PoolRep} {mjunk : List Nat}
    (hst : Stack s st mjunk) :
    ∃ m, s.pInstance = some m ∧
      s.internals = m.m_pPools :: (st.map PoolRep.pool ++ st.map PoolRep.objects) := by
  have hp := hst.pools_eq
  obtain ⟨m, hm, -, -, -, hh, -⟩ := hst
  refine ⟨m, hm, ?_⟩
  simp only [State.internals, hm]
  rw [hp, List.map_map]
  congr 2
  apply List.map_congr_left
  intro r hr
  simp [Heap.poolArray, (hh r hr).1]

/-- A stack is as before in a heap that holds the objects of the manager as
before. -/
theorem Stack.framed {s : State} {st : List PoolRep} {mjunk : List Nat} (hst : Stack s st mjunk)
    (h2 : Heap) (hfr : ∀ q ∈ s.internals, h2.read q = s.heap.read q) :
    Stack ⟨h2, s.pInstance⟩ st mjunk := by
  obtain ⟨m, hm, hint⟩ := hst.internals_eq
  obtain ⟨m', hm', hM, hcur, hMo, hh, hnp, hno⟩ := hst
  rw [hm] at hm'
  cases hm'
  rw [hint] at hfr
  refine ⟨m, hm, ?_, hcur, hMo, ?_, hnp, hno⟩
  · rw [hfr _ (by simp)]; exact hM
  · intro r hr
    have := hh r hr
    exact ⟨by
      rw [hfr _ (List.mem_cons_of_mem _ (List.mem_append_left _ (List.mem_map.2 ⟨r, hr, rfl⟩)))]
      exact this.1, by
      rw [hfr _ (List.mem_cons_of_mem _ (List.mem_append_right _ (List.mem_map.2 ⟨r, hr, rfl⟩)))]
      exact this.2⟩

/-- The statement `new SXObject()` keeps the manager well counted: the caller
holds the reference to the new object. -/
theorem Managed.constructed {s : State} {st : List PoolRep} {mjunk : List Nat} {ext : Nat → Nat}
    (hman : Managed s st mjunk ext) :
    Managed { s with heap := (SXObject.new s.heap).1 } st mjunk
      (fun q => if q = s.heap.cells.length + 1 then 1 else ext q) := by
  obtain ⟨hst, c, hext, h0⟩ := hman
  have hrd : ∀ q, (SXObject.new s.heap).1.read q =
      if q = s.heap.cells.length + 1 then some ⟨1, .object⟩ else s.heap.read q := by
    intro q
    exact Heap.read_alloc s.heap _ q
  have hold : ∀ q x, s.heap.read q = some x → q ≠ s.heap.cells.length + 1 := by
    intro q x hq e
    exact not_valid_succ s.heap 0 (e ▸ Heap.valid_of_read hq)
  have hfr : ∀ q x, s.heap.read q = some x → (SXObject.new s.heap).1.read q = some x := by
    intro q x hq
    rw [hrd, if_neg (hold q x hq)]; exact hq
  have hnew : s.heap.read (s.heap.cells.length + 1) = none :=
    Heap.read_of_not_valid (not_valid_succ s.heap 0)
  have hin : ∀ q, (SXObject.new s.heap).1.inrefs [] q = s.heap.inrefs [] q := by
    intro q
    apply Heap.inrefs_grow (by simp [SXObject.new, Heap.alloc])
    intro p _
    unfold Heap.refsFrom
    rw [hrd]
    by_cases hp : p = s.heap.cells.length + 1
    · rw [if_pos hp, hp, hnew]
      rfl
    · rw [if_neg hp]
  refine ⟨?_, ⟨List.nodup_nil, by simp, ?_, ?_, ?_, by simp⟩, ?_, h0⟩
  · apply hst.framed
    intro q hq
    obtain ⟨m, hm, hint⟩ := hst.internals_eq
    obtain ⟨m', hm', hM, -, -, hh, -⟩ := hst
    rw [hm] at hm'
    cases hm'
    rw [hint] at hq
    have hal : ∃ x, s.heap.read q = some x := by
      simp only [List.mem_cons, List.mem_append, List.mem_map] at hq
      rcases hq with rfl | ⟨r, hr, rfl⟩ | ⟨r, hr, rfl⟩
      · exact ⟨_, hM⟩
      · exact ⟨_, (hh r hr).1⟩
      · exact ⟨_, (hh r hr).2⟩
    obtain ⟨x, hx⟩ := hal
    rw [hfr q x hx, hx]
  · intro p x hx
    rw [hrd] at hx
    split at hx
    · cases hx
      show 1 ≤ UINT_MAX
      decide
    · exact c.bounded p x hx
  · intro p x _ hx o ho
    rw [hrd] at hx
    split at hx
    · cases hx
      simp [Body.owned] at ho
    · obtain ⟨y, hy⟩ := Option.isSome_iff_exists.1 (c.alive p x (by simp) hx o ho)
      rw [hfr o y hy]; rfl
  · intro o x hx
    rw [hin]
    rw [hrd] at hx
    by_cases ho : o = s.heap.cells.length + 1
    · rw [if_pos ho] at hx
      cases hx
      rw [ho, c.inrefs_invalid hnew]
      simp
    · rw [if_neg ho] at hx
      simp only [ho, if_false]
      exact c.balance o x hx
  · intro m hm
    have := hext m hm
    obtain ⟨m', hm', hM, -⟩ := hst
    have hm2 : s.pInstance = some m := hm
    rw [hm2] at hm'
    cases hm'
    have hne := hold _ _ hM
    simp only [hne, if_false]
    exact this

/-- A call of `retain()` below the largest count on an object that is not one
of the manager keeps the manager well counted: the caller holds one more
reference. -/
theorem Managed.retain {s : State} {st : List PoolRep} {mjunk : List Nat} {ext : Nat → Nat}
    (hman : Managed s st mjunk ext) {o c : Nat} {body : Body}
    (ho : s.heap.read o = some ⟨c, body⟩) (hi : o ∉ s.internals) (hc : c < UINT_MAX) :
    SXObject.retain s.heap o = .ok (s.heap.write o ⟨c + 1, body⟩) ∧
    Managed { s with heap := s.heap.write o ⟨c + 1, body⟩ } st mjunk
      (fun q => ext q + [o].count q) := by
  obtain ⟨hst, cnt, hext, h0⟩ := hman
  have hv := Heap.valid_of_read ho
  have hw : wrap (c + 1) = c + 1 := by
    unfold wrap
    apply Nat.mod_eq_of_lt
    omega
  have hrd : ∀ q, (s.heap.write o ⟨c + 1, body⟩).read q =
      if q = o then some ⟨c + 1, body⟩ else s.heap.read q := by
    intro q
    rw [Heap.read_write]
    by_cases hq : q = o
    · simp [hq, hv]
    · simp [hq]
  have hin : ∀ q, (s.heap.write o ⟨c + 1, body⟩).inrefs [] q = s.heap.inrefs [] q :=
    fun q => Heap.inrefs_write_same [] s.heap o q _ _ ho rfl
  refine ⟨by simp [SXObject.retain, ho, hw], ?_,
    ⟨List.nodup_nil, by simp, ?_, ?_, ?_, by simp⟩, ?_, h0⟩
  · apply hst.framed
    intro q hq
    have : q ≠ o := fun e => hi (e ▸ hq)
    rw [hrd, if_neg this]
  · intro p x hx
    rw [hrd] at hx
    split at hx
    · cases hx
      show c + 1 ≤ UINT_MAX
      omega
    · exact cnt.bounded p x hx
  · intro p x _ hx q hq
    have hal : (s.heap.read q).isSome = true := by
      rw [hrd] at hx
      split at hx
      · rename_i hp
        cases hx
        exact cnt.alive o _ (by simp) ho q hq
      · exact cnt.alive p x (by simp) hx q hq
    rw [hrd]
    split
    · rfl
    · exact hal
  · intro q x hx
    rw [hin]
    rw [hrd] at hx
    by_cases hq : q = o
    · rw [if_pos hq] at hx
      cases hx
      have := cnt.balance o _ ho
      simp only at this ⊢
      rw [hq, List.count_cons_self, List.count_nil]
      omega
    · rw [if_neg hq] at hx
      have := cnt.balance q x hx
      have h0' : [o].count q = 0 := by simp [List.count_cons, Ne.symm hq]
      simp only [h0']
      omega
  · intro m hm
    have := hext m hm
    show 1 ≤ ext m.m_pPools + _
    omega


/-- A call of `release()` that gives up a reference of the caller, on an object
of any class that is not one of the manager, keeps the manager well counted:
the cascade of destructors reaches none of the objects of the manager. -/
theorem Managed.release {s : State} {st : List PoolRep} {mjunk : List Nat} {ext : Nat → Nat}
    (hman : Managed s st mjunk ext) {o c : Nat} {body : Body}
    (ho : s.heap.read o = some ⟨c, body⟩) (hi : o ∉ s.internals)
    (hc : s.heap.inrefs [] o < c) :
    ∃ fuel h2, SXObject.release fuel s.heap o = .ok h2 ∧
      Managed ⟨h2, s.pInstance⟩ st mjunk (dropTokens ext [o]) := by
  obtain ⟨hst, cnt, hext, h0⟩ := hman
  have hb := cnt.balance o _ ho
  simp only at hb
  obtain ⟨f, h2, e, rel, -⟩ := SXObject.release_counted cnt ho (by omega) (by simp)
  obtain ⟨evs, t, -, acc⟩ := rel.trace
  obtain ⟨m, hm, hint⟩ := hst.internals_eq
  have hst' := hst
  obtain ⟨m', hm', hM, -, hMo, hh, -, -⟩ := hst'
  rw [hm] at hm'
  cases hm'
  rw [hint] at hi
  simp only [List.mem_cons, List.mem_append, List.mem_map, not_or, not_exists, not_and] at hi
  have hun : ∀ a, a ∉ releasedObjects evs → h2.read a = s.heap.read a :=
    fun a ha => SXObject.release_untouched e a evs t ha
  have hz : ∀ r ∈ st, r.pool ≠ 0 := fun r hr => (Heap.valid_of_read (hh r hr).1).1
  have hownM := Stack.owned_pools hz (st.length + mjunk.length) mjunk
  -- the pools array
  have hM2 : h2.read m.m_pPools = s.heap.read m.m_pPools := by
    apply hun
    apply List.count_eq_zero.1
    have := acc m.m_pPools
    have hbM := cnt.balance _ _ hM
    simp only at hbM
    have := hext m hm
    have h0' : [o].count m.m_pPools = 0 := by
      simp [List.count_cons, hi.1]
    omega
  have hpk : ∀ r ∈ st, h2.read r.pool = s.heap.read r.pool := by
    intro r hr
    have hr2 := hh r hr
    apply hun
    apply List.count_eq_zero.1
    have := acc r.pool
    have hbP := cnt.balance _ _ hr2.1
    simp only at hbP
    have hle := Heap.refsFrom_le_inrefs [] h2 m.m_pPools r.pool (by simp)
    rw [Heap.refsFrom_of_read (hM2.trans hM), hownM] at hle
    have hpos : 0 < (st.map PoolRep.pool).count r.pool :=
      List.count_pos_iff.2 (List.mem_map.2 ⟨r, hr, rfl⟩)
    have h0' : [o].count r.pool = 0 := by
      have := hi.2.1 r hr
      simp [List.count_cons, this]
    omega
  refine ⟨f, h2, e, ?_, rel.counted, ?_, h0⟩
  · apply hst.framed
    intro q hq
    rw [hint] at hq
    simp only [List.mem_cons, List.mem_append, List.mem_map] at hq
    rcases hq with rfl | ⟨r, hr, rfl⟩ | ⟨r, hr, rfl⟩
    · exact hM2
    · exact hpk r hr
    · have hk := PoolRep.holds_kept cnt rel.trace (fun a evs t ha =>
        SXObject.release_untouched e a evs t ha) (hh r hr) (by simp) (hpk r hr)
        (by
          have := hi.2.2 r hr
          simp only [List.mem_singleton]
          exact fun e => this e)
      exact hk.2.trans (hh r hr).2.symm
  · intro m2 hm2
    have hm3 : s.pInstance = some m2 := hm2
    rw [hm] at hm3
    cases hm3
    have := hext m hm
    have h0' : [o].count m.m_pPools = 0 := by
      simp [List.count_cons, hi.1]
    simp only [dropTokens, h0']
    omega

/-- A container stores one more pointer to `o`, taking over a reference that
was held elsewhere. -/
theorem Counted.register {h h2 : Heap} {ext : Nat → Nat} (c : Counted [] h ext) {a o rcA : Nat}
    {bA bA2 : Body} (hl : h2.cells.length = h.cells.length)
    (ha : h.read a = some ⟨rcA, bA⟩) (ha2 : h2.read a = some ⟨rcA, bA2⟩)
    (hown : ∀ q, bA2.owned.count q = bA.owned.count q + [o].count q)
    (hoal : (h.read o).isSome = true) (he : 1 ≤ ext o)
    (hrd : ∀ q, q ≠ a → h2.read q = h.read q) :
    Counted [] h2 (dropTokens ext [o]) := by
  have hva := Heap.valid_of_read ha
  have hva2 := Heap.valid_of_read ha2
  have hin : ∀ q, h2.inrefs [] q = h.inrefs [] q + [o].count q := by
    intro q
    rw [Heap.inrefs_peel [] h2 a q hva2 (by simp), Heap.inrefs_peel [] h a q hva (by simp),
      Heap.refsFrom_of_read ha, Heap.refsFrom_of_read ha2]
    simp only
    rw [hown, Heap.inrefs_congr (k := [a]) hl (fun p hp => by
      unfold Heap.refsFrom
      rw [hrd p (by simpa using hp)])]
    omega
  have hal2 : ∀ q, (h.read q).isSome = true → (h2.read q).isSome = true := by
    intro q hq
    by_cases hqa : q = a
    · rw [hqa, ha2]; rfl
    · rw [hrd q hqa]; exact hq
  refine ⟨List.nodup_nil, by simp, ?_, ?_, ?_, by simp⟩
  · intro p x hx
    by_cases hpa : p = a
    · rw [hpa, ha2] at hx
      cases hx
      exact c.bounded a ⟨rcA, bA⟩ ha
    · rw [hrd p hpa] at hx
      exact c.bounded p x hx
  · intro p x _ hx q hq
    by_cases hpa : p = a
    · rw [hpa, ha2] at hx
      cases hx
      have := hown q
      have hpos := List.count_pos_iff.2 hq
      by_cases hqo : q = o
      · rw [hqo]; exact hal2 o hoal
      · have h0 : [o].count q = 0 := by simp [List.count_cons, Ne.symm hqo]
        apply hal2
        apply c.alive a ⟨rcA, bA⟩ (by simp) ha q
        apply List.count_pos_iff.1
        show 0 < bA.owned.count q
        have hpos' : 0 < bA2.owned.count q := hpos
        omega
    · rw [hrd p hpa] at hx
      exact hal2 q (c.alive p x (by simp) hx q hq)
  · intro q x hx
    rw [hin]
    simp only [dropTokens]
    by_cases hqa : q = a
    · rw [hqa, ha2] at hx
      cases hx
      have := c.balance a _ ha
      simp only at this ⊢
      by_cases hqo : a = o
      · rw [← hqo] at he ⊢
        rw [hqa]
        simp only [List.count_cons_self, List.count_nil]
        omega
      · have h0 : [o].count a = 0 := by simp [List.count_cons, hqo]
        rw [hqa, h0]
        omega
    · rw [hrd q hqa] at hx
      have := c.balance q x hx
      by_cases hqo : q = o
      · rw [hqo] at this ⊢
        simp only [List.count_cons_self, List.count_nil]
        omega
      · have h0 : [o].count q = 0 := by simp [List.count_cons, Ne.symm hqo]
        rw [h0]
        omega


/-- A call of `autorelease()` that hands a reference of the caller over to the
top pool, on an object of any class that is not one of the manager, keeps the
manager well counted: the count is as before and the top pool holds one more
registration. -/
theorem Managed.autorelease {s : State} {st : List PoolRep} {top : PoolRep} {mjunk : List Nat}
    {ext : Nat → Nat} (hman : Managed s (st ++ [top]) mjunk ext) {o c : Nat} {body : Body}
    (ho : s.heap.read o = some ⟨c, body⟩) (hi : o ∉ s.internals)
    (hc : s.heap.inrefs [] o < c) (fuel : Nat) :
    ∃ s2, SXObject.autorelease (fuel + 1) s o = .ok (s2, o) ∧
      Managed s2 (st ++ [⟨top.pool, top.objects, top.regs ++ [o], SXArray.spare top.junk⟩])
        mjunk (dropTokens ext [o]) ∧
      (∀ q, q ≠ top.objects → s2.heap.read q = s.heap.read q) ∧
      s2.pInstance = s.pInstance := by
  obtain ⟨hst, cnt, hext, h0⟩ := hman
  obtain ⟨hcur, hP0, hP, hA⟩ := hst.top_alive
  obtain ⟨m, hm, hint⟩ := hst.internals_eq
  have hst' := hst
  obtain ⟨m', hm', hM, hmc, hMo, hh, hnp, hno⟩ := hst'
  rw [hm] at hm'
  cases hm'
  rw [hint] at hi
  simp only [List.mem_cons, List.mem_append, List.mem_map, not_or, not_exists, not_and] at hi
  have hmcur : m.m_pCurrentPool = top.pool := by
    have := hcur
    simp only [State.currentPool, hm] at this
    exact this
  have hoA : o ≠ top.objects := fun e => hi.2.2 top (by simp) e.symm
  have hoP : o ≠ top.pool := fun e => hi.2.1 top (by simp) e.symm
  have hoM : o ≠ m.m_pPools := hi.1
  have hb := cnt.balance o _ ho
  have hbd := cnt.bounded o _ ho
  simp only at hb hbd
  have hc1 : 1 ≤ c := by omega
  have hvo := Heap.valid_of_read ho
  obtain ⟨h2, ea, t2, l2, fr2, ro2, ra2⟩ :=
    SXArray.addObject_reads s.heap top.objects o 1 c top.regs top.junk body hA ho
  have ho2 := ro2 hoA
  rw [if_neg hoA] at ra2
  have hw : wrap (wrap (c + 1) + UINT_MAX) = c := wrap_succ_pred c hc1 hbd
  have hne : wrap (wrap (c + 1) + UINT_MAX) ≠ 0 := by rw [hw]; omega
  have e3 := SXObject.release_alive fuel h2 o _ body ho2 hne
  rw [hw] at e3
  have hv2 : h2.valid o := Heap.valid_of_read ho2
  obtain ⟨hF, hdef⟩ : ∃ hF, hF = (h2.write o ⟨c, body⟩).log (.release o (wrap (c + 1))) :=
    ⟨_, rfl⟩
  have hrdF : ∀ q, q ≠ top.objects → hF.read q = s.heap.read q := by
    intro q hq
    rw [hdef, Heap.read_log, Heap.read_write]
    by_cases hqo : q = o
    · simp [hqo, hv2, ho]
    · simp only [hqo, false_and, if_false]
      exact fr2 q hq hqo
  have hAF : hF.read top.objects = some ⟨1, .array ((top.regs ++ [o]).length +
      (SXArray.spare top.junk).length) (top.regs ++ [o]).length
      ((top.regs ++ [o]) ++ SXArray.spare top.junk)⟩ := by
    rw [hdef, Heap.read_log, Heap.read_write]
    simp only [Ne.symm hoA, false_and, if_false]
    rw [ra2]
    simp
  have hlF : hF.cells.length = s.heap.cells.length := by
    rw [hdef]; simp [l2]
  have hmap1 : (st ++ [PoolRep.mk top.pool top.objects (top.regs ++ [o])
      (SXArray.spare top.junk)]).map PoolRep.pool = (st ++ [top]).map PoolRep.pool := by simp
  have hmap2 : (st ++ [PoolRep.mk top.pool top.objects (top.regs ++ [o])
      (SXArray.spare top.junk)]).map PoolRep.objects = (st ++ [top]).map PoolRep.objects := by
    simp
  have hlen2 : (st ++ [PoolRep.mk top.pool top.objects (top.regs ++ [o])
      (SXArray.spare top.junk)]).length = (st ++ [top]).length := by simp
  have h0o : (0 : Nat) ∉ top.regs ++ [o] := by
    intro hm0
    rcases List.mem_append.1 hm0 with e | e
    · exact h0 top (by simp) e
    · simp only [List.mem_singleton] at e
      exact hvo.1 e.symm
  refine ⟨⟨hF, s.pInstance⟩, ?_, ⟨⟨m, hm, ?_, ?_, ?_, ?_, ?_, ?_⟩, ?_, ?_, ?_⟩, hrdF, rfl⟩
  · simp only [SXObject.autorelease, SXPoolManager.sharedPoolManager, hm,
      SXPoolManager.addObject, hmcur, SXAutoreleasePool.addObject, SXAutoreleasePool.objects, hP,
      ea, bind, Outcome.bind, e3, hdef]
  · show hF.read m.m_pPools = _
    rw [hrdF _ (fun e => hoA (by
      exfalso
      exact hMo (by rw [e]; simp))), hlen2, hmap1]
    exact hM
  · rw [hmap1]; exact hmc
  · rw [hmap2]; exact hMo
  · intro r hr
    rcases List.mem_append.1 hr with hr1 | hr1
    · have hr2 := hh r (List.mem_append_left _ hr1)
      have hav := hst.avoid_top_array.2 r hr1
      exact ⟨(hrdF _ hav.1).trans hr2.1, (hrdF _ hav.2).trans hr2.2⟩
    · simp only [List.mem_singleton] at hr1
      subst hr1
      have hPA : top.pool ≠ top.objects := by intro e; rw [e, hA] at hP; cases hP
      exact ⟨(hrdF _ hPA).trans hP, hAF⟩
  · rw [hmap1]; exact hnp
  · rw [hmap2]; exact hno
  · show Counted [] hF (dropTokens ext [o])
    refine Counted.register cnt hlF hA hAF ?_ (by rw [ho]; rfl) (by omega) hrdF
    intro q
    have e1 := PoolRep.owned_eq (r := top) (h0 top (by simp))
    have e2 := PoolRep.owned_eq (r := PoolRep.mk top.pool top.objects (top.regs ++ [o])
      (SXArray.spare top.junk)) h0o
    simp only at e2
    rw [e1, e2, List.count_append]
  · intro m2 hm2
    have hm3 : s.pInstance = some m2 := hm2
    rw [hm] at hm3
    cases hm3
    have := hext m hm
    have h0' : [o].count m.m_pPools = 0 := by
      simp [List.count_cons, hoM]
    simp only [dropTokens, h0']
    omega
  · intro r hr
    rcases List.mem_append.1 hr with hr1 | hr1
    · exact h0 r (List.mem_append_left _ hr1)
    · simp only [List.mem_singleton] at hr1
      subst hr1
      exact h0o


/-- The cells that `push()` leaves alone. -/
theorem push_frame (fuel : Nat) (s : State) (st : List PoolRep) (mjunk : List Nat)
    (hst : Stack s st mjunk) {s2 : State} (e : SXPoolManager.push (fuel + 1) s = .ok s2) :
    ∀ q, q ≠ s.heap.cells.length + 1 → q ≠ s.heap.cells.length + 2 →
      (∀ m, s.pInstance = some m → q ≠ m.m_pPools) → s2.heap.read q = s.heap.read q := by
  obtain ⟨m, hm, hM, hcur, hMo, hh, hnp, hno⟩ := hst
  obtain ⟨hn, en, rP, rA, frn, tn, ln⟩ := new_pool s.heap
  have hvM := Heap.valid_of_read hM
  have hMP : m.m_pPools ≠ s.heap.cells.length + 1 := by
    intro e; exact not_valid_succ s.heap 0 (e ▸ hvM)
  have hMA : m.m_pPools ≠ s.heap.cells.length + 2 := by
    intro e; exact not_valid_succ s.heap 1 (e ▸ hvM)
  have hMn : hn.read m.m_pPools = some ⟨1, .array ((st.map PoolRep.pool).length + mjunk.length)
      (st.map PoolRep.pool).length (st.map PoolRep.pool ++ mjunk)⟩ := by
    rw [frn _ hMP hMA, hM]; simp
  obtain ⟨h5, e5, t5, l5, fr5, r5o, r5a⟩ :=
    SXArray.addObject_reads hn m.m_pPools (s.heap.cells.length + 1) 1 1 _ mjunk _ hMn rP
  have hPM : s.heap.cells.length + 1 ≠ m.m_pPools := Ne.symm hMP
  have r5P := r5o hPM
  have hw2 : wrap (1 + 1) = 2 := by decide
  rw [hw2] at r5P
  have e6 := SXObject.release_keeps fuel h5 _ 2 _ r5P (by decide) (by decide)
  have erun : SXPoolManager.push (fuel + 1) s = .ok
      ⟨(h5.write (s.heap.cells.length + 1) ⟨2 - 1, .pool (s.heap.cells.length + 2)⟩).log
        (.release (s.heap.cells.length + 1) 2),
        some { m with m_pCurrentPool := s.heap.cells.length + 1 }⟩ := by
    simp only [SXPoolManager.push, hm, Outcome.bind_eq, en, Outcome.bind_ok, e5, e6]
  rw [erun] at e
  cases e
  intro q h1 h2 h3
  simp only [Heap.read_log, Heap.read_write, h1, false_and, if_false]
  rw [fr5 q (h3 m hm) h1, frn q h1 h2]

/-- A call of `push()` keeps the manager well counted: the pools array holds
the new pool and the new pool holds its array. -/
theorem Managed.pushed {s : State} {st : List PoolRep} {mjunk : List Nat} {ext : Nat → Nat}
    (hman : Managed s st mjunk ext) (fuel : Nat) :
    ∃ s2, SXPoolManager.push (fuel + 1) s = .ok s2 ∧
      Managed s2 (st ++ [PoolRep.mk (s.heap.cells.length + 1) (s.heap.cells.length + 2) []
        [0, 0, 0, 0, 0, 0, 0, 0, 0, 0]]) (SXArray.spare mjunk)
        (fun q => if q = s.heap.cells.length + 1 ∨ q = s.heap.cells.length + 2 then 0
          else ext q) ∧
      (∀ m, s.pInstance = some m →
        s2.pInstance = some ⟨m.m_pPools, s.heap.cells.length + 1⟩) ∧
      (∀ q, q ≠ s.heap.cells.length + 1 → q ≠ s.heap.cells.length + 2 →
        (∀ m, s.pInstance = some m → q ≠ m.m_pPools) → s2.heap.read q = s.heap.read q) := by
  obtain ⟨hst, cnt, hext, h0⟩ := hman
  obtain ⟨s2, e, st2, -, -, l2, p2⟩ := push_stack fuel s st mjunk hst
  have hfr0 := push_frame fuel s st mjunk hst e
  have hst2 := st2
  have hst1 := hst
  obtain ⟨m, hm, hM, -, hMo, hh, hnp, hno⟩ := hst
  obtain ⟨m2, hm2, hM2, -, -, hh2, hnp2, hno2⟩ := st2
  have hpm := p2 m hm
  rw [hm2] at hpm
  cases hpm
  simp only at hM2
  have hvM := Heap.valid_of_read hM
  have hnew := hh2 ⟨s.heap.cells.length + 1, s.heap.cells.length + 2, [],
    [0, 0, 0, 0, 0, 0, 0, 0, 0, 0]⟩ (by simp)
  obtain ⟨hPn, hAn⟩ := hnew
  simp only at hPn hAn
  have hMP : m.m_pPools ≠ s.heap.cells.length + 1 := by
    intro e; exact not_valid_succ s.heap 0 (e ▸ hvM)
  have hMA : m.m_pPools ≠ s.heap.cells.length + 2 := by
    intro e; exact not_valid_succ s.heap 1 (e ▸ hvM)
  have hPA : s.heap.cells.length + 1 ≠ s.heap.cells.length + 2 := by omega
  have hold : ∀ q x, s.heap.read q = some x →
      q ≠ s.heap.cells.length + 1 ∧ q ≠ s.heap.cells.length + 2 := by
    intro q x hq
    have hv := Heap.valid_of_read hq
    exact ⟨fun e => not_valid_succ s.heap 0 (e ▸ hv), fun e => not_valid_succ s.heap 1 (e ▸ hv)⟩
  have hfr : ∀ q, q ≠ m.m_pPools → q ≠ s.heap.cells.length + 1 → q ≠ s.heap.cells.length + 2 →
      s2.heap.read q = s.heap.read q := by
    intro q h1 h2 h3
    exact hfr0 q h2 h3 (fun m' hm' => by rw [hm] at hm'; cases hm'; exact h1)
  have hd1 : s.heap.read (s.heap.cells.length + 1) = none :=
    Heap.read_of_not_valid (not_valid_succ s.heap 0)
  have hd2 : s.heap.read (s.heap.cells.length + 2) = none :=
    Heap.read_of_not_valid (not_valid_succ s.heap 1)
  have hz : ∀ r ∈ st, r.pool ≠ 0 := fun r hr => (Heap.valid_of_read (hh r hr).1).1
  have hz2 : ∀ r ∈ st ++ [PoolRep.mk (s.heap.cells.length + 1) (s.heap.cells.length + 2) []
      [0, 0, 0, 0, 0, 0, 0, 0, 0, 0]], r.pool ≠ 0 :=
    fun r hr => (Heap.valid_of_read (hh2 r hr).1).1
  have hownM := Stack.owned_pools hz (st.length + mjunk.length) mjunk
  have hownM2 := Stack.owned_pools hz2 ((st ++ [PoolRep.mk (s.heap.cells.length + 1)
    (s.heap.cells.length + 2) [] [0, 0, 0, 0, 0, 0, 0, 0, 0, 0]]).length +
      (SXArray.spare mjunk).length) (SXArray.spare mjunk)
  -- the references in the new heap
  have hnd3 : [m.m_pPools, s.heap.cells.length + 1, s.heap.cells.length + 2].Nodup := by
    simp [hMP, hMA]
  have hin : ∀ q, s2.heap.inrefs [] q =
      s.heap.inrefs [] q + [s.heap.cells.length + 1, s.heap.cells.length + 2].count q := by
    intro q
    have s1 := Heap.inrefs_split s2.heap q
      [m.m_pPools, s.heap.cells.length + 1, s.heap.cells.length + 2] [] hnd3
      (fun d hd => by
        simp only [List.mem_cons, List.mem_singleton, List.not_mem_nil, or_false] at hd
        rcases hd with rfl | rfl | rfl
        · exact ⟨Heap.valid_of_read hM2, by simp⟩
        · exact ⟨Heap.valid_of_read hPn, by simp⟩
        · exact ⟨Heap.valid_of_read hAn, by simp⟩)
    rw [List.append_nil, Heap.heldBy_cons, Heap.heldBy_cons, Heap.heldBy_cons, Heap.heldBy_nil,
      Heap.refsFrom_of_read hM2, Heap.refsFrom_of_read hPn, Heap.refsFrom_of_read hAn,
      hownM2] at s1
    have g1 : s2.heap.inrefs [m.m_pPools, s.heap.cells.length + 1, s.heap.cells.length + 2] q =
        s.heap.inrefs [m.m_pPools, s.heap.cells.length + 1, s.heap.cells.length + 2] q := by
      apply Heap.inrefs_grow (by omega)
      intro p hp
      simp only [List.mem_cons, List.mem_singleton, List.not_mem_nil, or_false, not_or] at hp
      unfold Heap.refsFrom
      rw [hfr p hp.1 hp.2.1 hp.2.2]
    have g2 : s.heap.inrefs [m.m_pPools, s.heap.cells.length + 1, s.heap.cells.length + 2] q =
        s.heap.inrefs [m.m_pPools] q := by
      apply Heap.inrefs_skip_congr
      intro p hp
      have h1 : p ≠ s.heap.cells.length + 1 := fun e => not_valid_succ s.heap 0 (e ▸ hp)
      have h2 : p ≠ s.heap.cells.length + 2 := fun e => not_valid_succ s.heap 1 (e ▸ hp)
      simp [h1, h2]
    have s3 := Heap.inrefs_peel [] s.heap m.m_pPools q hvM (by simp)
    rw [Heap.refsFrom_of_read hM, hownM] at s3
    have hA0 : s.heap.cells.length + 2 ≠ 0 := by omega
    have o1 : (Body.pool (s.heap.cells.length + 2)).owned = [s.heap.cells.length + 2] := by
      simp [Body.owned]
    have o2 : (Body.array (([] : List Nat).length + [0, 0, 0, 0, 0, 0, 0, 0, 0, 0].length)
        ([] : List Nat).length ([] ++ [0, 0, 0, 0, 0, 0, 0, 0, 0, 0])).owned = [] := by
      simp [Body.owned]
    simp only at s1
    rw [o1, o2, g1, g2, List.map_append, List.count_append] at s1
    simp only [List.map_cons, List.map_nil, List.count_nil, Nat.add_zero] at s1
    simp only [List.count_cons, List.count_nil] at s1 ⊢
    omega
  refine ⟨s2, e, ⟨hst2, ⟨List.nodup_nil, by simp, ?_, ?_, ?_, by simp⟩, ?_, ?_⟩, p2, hfr0⟩
  · intro p x hx
    by_cases h1 : p = m.m_pPools
    · rw [h1, hM2] at hx; cases hx; show 1 ≤ UINT_MAX; decide
    · by_cases h2 : p = s.heap.cells.length + 1
      · rw [h2, hPn] at hx; cases hx; show 1 ≤ UINT_MAX; decide
      · by_cases h3 : p = s.heap.cells.length + 2
        · rw [h3, hAn] at hx; cases hx; show 1 ≤ UINT_MAX; decide
        · rw [hfr p h1 h2 h3] at hx
          exact cnt.bounded p x hx
  · have hal : ∀ q, (s.heap.read q).isSome = true → (s2.heap.read q).isSome = true := by
      intro q hq
      by_cases h1 : q = m.m_pPools
      · rw [h1, hM2]; rfl
      · obtain ⟨x, hx⟩ := Option.isSome_iff_exists.1 hq
        rw [hfr q h1 (hold q x hx).1 (hold q x hx).2]
        exact hq
    intro p x _ hx q hq
    by_cases h1 : p = m.m_pPools
    · rw [h1, hM2] at hx
      cases hx
      rw [hownM2] at hq
      obtain ⟨r, hr, rfl⟩ := List.mem_map.1 hq
      rw [(hh2 r hr).1]; rfl
    · by_cases h2 : p = s.heap.cells.length + 1
      · rw [h2, hPn] at hx
        cases hx
        simp only [Body.owned] at hq
        split at hq
        · simp only [List.mem_singleton] at hq
          rw [hq, hAn]; rfl
        · simp at hq
      · by_cases h3 : p = s.heap.cells.length + 2
        · rw [h3, hAn] at hx
          cases hx
          simp [Body.owned] at hq
        · rw [hfr p h1 h2 h3] at hx
          exact hal q (cnt.alive p x (by simp) hx q hq)
  · intro q x hx
    rw [hin]
    by_cases h2 : q = s.heap.cells.length + 1
    · rw [h2, hPn] at hx
      cases hx
      rw [h2, cnt.inrefs_invalid hd1]
      simp
    · by_cases h3 : q = s.heap.cells.length + 2
      · rw [h3, hAn] at hx
        cases hx
        rw [h3, cnt.inrefs_invalid hd2]
        simp
      · have hc0 : [s.heap.cells.length + 1, s.heap.cells.length + 2].count q = 0 := by
          simp [List.count_cons, Ne.symm h2, Ne.symm h3]
        simp only [h2, h3, or_self, if_false, hc0, Nat.add_zero]
        by_cases h1 : q = m.m_pPools
        · rw [h1, hM2] at hx
          cases hx
          rw [h1]
          have := cnt.balance m.m_pPools ⟨1, _⟩ hM
          exact this
        · rw [hfr q h1 h2 h3] at hx
          exact cnt.balance q x hx
  · intro m3 hm3
    rw [hm2] at hm3
    cases hm3
    simp only [hMP, hMA, or_self, if_false]
    exact hext m hm
  · intro r hr
    rcases List.mem_append.1 hr with hr1 | hr1
    · exact h0 r hr1
    · simp only [List.mem_singleton] at hr1
      subst hr1
      simp


/-- The pool ownership invariant holds for a manager in a well-counted heap. -/
theorem Managed.owns {s : State} {st : List PoolRep} {mjunk : List Nat}
    {ext : Nat → Nat} (hman : Managed s st mjunk ext) : PoolOwnership s := by
  obtain ⟨hst, cnt, -, h0⟩ := hman
  have hregs := hst.registrations_flat
  obtain ⟨m, hm, hM, -, -, hh, -, hno⟩ := hst
  refine ⟨?_, ?_⟩
  · intro o c hc
    rw [hregs]
    simp only [Heap.retainCount, Option.map_eq_some'] at hc
    obtain ⟨cell, hr, rfl⟩ := hc
    have hb := cnt.balance o cell hr
    have hs := Heap.inrefs_split s.heap o (st.map PoolRep.objects) [] hno
      (fun d hd => by
        obtain ⟨r, hr, rfl⟩ := List.mem_map.1 hd
        exact ⟨Heap.valid_of_read (hh r hr).2, by simp⟩)
    rw [List.append_nil, heldBy_objects s.heap o st hh h0] at hs
    omega
  · intro o ho
    rw [hregs] at ho
    obtain ⟨r, hr, hor⟩ := List.mem_flatMap.1 ho
    have := cnt.alive r.objects _ (by simp) (hh r hr).2 o (by
      rw [PoolRep.owned_eq (h0 r hr)]; exact hor)
    simpa [Heap.alive] using this

theorem Stack.internals_at {s : State} {st : List PoolRep} {mjunk : List Nat}
    (hst : Stack s st mjunk) {m : SXPoolManager} (hm : s.pInstance = some m) :
    s.internals = m.m_pPools :: (st.map PoolRep.pool ++ st.map PoolRep.objects) := by
  obtain ⟨m', hm', hint⟩ := hst.internals_eq
  rw [hm] at hm'
  cases hm'
  exact hint

/-- An admitted call keeps the manager well counted and its stack non-empty;
the objects of the new state that are not the manager's are new plain objects
or objects of the old state that were not the manager's. -/
theorem HeldCall.keeps {s s2 : State} {st : List PoolRep} {top : PoolRep} {mjunk : List Nat}
    {ext : Nat → Nat} (hman : Managed s (st ++ [top]) mjunk ext) {call : Call}
    (ha : HeldCall s call) {fuel : Nat} (e : call.run fuel s = .ok s2) :
    (∃ st2 top2 mjunk2 ext2, Managed s2 (st2 ++ [top2]) mjunk2 ext2) ∧
    (∀ q x2, s2.heap.read q = some x2 → q ∉ s2.internals →
      x2.body = .object ∨ ∃ x, s.heap.read q = some x ∧ x.body = x2.body ∧ q ∉ s.internals) := by
  obtain ⟨m, hm, hint⟩ := hman.stack_of.internals_eq
  have hshared : ∀ f, SXPoolManager.sharedPoolManager f s = .ok s := by
    intro f; simp [SXPoolManager.sharedPoolManager, hm]
  cases call with
  | construct =>
    have e' : s2 = { s with heap := (SXObject.new s.heap).1 } := by
      simp only [Call.run] at e
      cases e
      rfl
    subst e'
    have m2 := hman.constructed
    refine ⟨⟨st, top, mjunk, _, m2⟩, ?_⟩
    intro q x2 hx2 hq
    rw [m2.stack_of.internals_at (m := m) hm] at hq
    rw [hint]
    have hrd : (SXObject.new s.heap).1.read q =
        if q = s.heap.cells.length + 1 then some ⟨1, .object⟩ else s.heap.read q :=
      Heap.read_alloc s.heap _ q
    have hx2' : (SXObject.new s.heap).1.read q = some x2 := hx2
    rw [hrd] at hx2'
    split at hx2'
    · cases hx2'
      exact Or.inl rfl
    · exact Or.inr ⟨x2, hx2', rfl, hq⟩
  | retain o =>
    obtain ⟨hi, c, body, ho, hc⟩ := ha
    obtain ⟨er, m2⟩ := hman.retain ho hi hc
    have e' : s2 = { s with heap := s.heap.write o ⟨c + 1, body⟩ } := by
      simp only [Call.run, er, Outcome.bind] at e
      cases e
      rfl
    subst e'
    refine ⟨⟨st, top, mjunk, _, m2⟩, ?_⟩
    intro q x2 hx2 hq
    rw [m2.stack_of.internals_at (m := m) hm] at hq
    rw [hint]
    have hx2' : (s.heap.write o ⟨c + 1, body⟩).read q = some x2 := hx2
    rw [Heap.read_write] at hx2'
    split at hx2'
    · rename_i hqo
      obtain ⟨rfl, -⟩ := hqo
      cases hx2'
      exact Or.inr ⟨_, ho, rfl, hq⟩
    · exact Or.inr ⟨x2, hx2', rfl, hq⟩
  | release o =>
    obtain ⟨hi, c, body, ho, hc⟩ := ha
    obtain ⟨f, h2, er, m2⟩ := hman.release ho hi hc
    cases hrun : SXObject.release fuel s.heap o with
    | ok h2' =>
      have hu := SXObject.release_unique hrun er
      subst hu
      have e' : s2 = ⟨h2', s.pInstance⟩ := by
        simp only [Call.run, hrun, Outcome.bind] at e
        cases e
        rfl
      subst e'
      refine ⟨⟨st, top, mjunk, _, m2⟩, ?_⟩
      intro q x2 hx2 hq
      rw [m2.stack_of.internals_at (m := m) hm] at hq
      rw [hint]
      obtain ⟨x, hx, hb⟩ := SXObject.release_keeps_bodies hrun q x2 hx2
      exact Or.inr ⟨x, hx, hb, hq⟩
    | undefined => simp [Call.run, hrun, Outcome.bind] at e
    | outOfFuel => simp [Call.run, hrun, Outcome.bind] at e
  | autorelease o =>
    obtain ⟨hi, c, body, ho, hc⟩ := ha
    obtain ⟨s3, er, m2, hrd, hp3⟩ := hman.autorelease ho hi hc fuel
    have e1 := Call.run_mono e 1
    simp only [Call.run, er, Outcome.bind] at e1
    cases e1
    refine ⟨⟨st, _, mjunk, _, m2⟩, ?_⟩
    intro q x2 hx2 hq
    rw [m2.stack_of.internals_at (m := m) (hp3.trans hm)] at hq
    rw [hint]
    have hqa : q ≠ top.objects := by
      intro e0
      apply hq
      rw [e0]
      simp
    rw [hrd q hqa] at hx2
    refine Or.inr ⟨x2, hx2, rfl, ?_⟩
    simpa using hq
  | push =>
    obtain ⟨s3, er, m2, p2, hfr⟩ := hman.pushed fuel
    have e1 := Call.run_mono e 1
    simp only [Call.run, hshared, Outcome.bind, er] at e1
    cases e1
    refine ⟨⟨st ++ [top], _, _, _, m2⟩, ?_⟩
    intro q x2 hx2 hq
    rw [m2.stack_of.internals_at (p2 m hm)] at hq
    rw [hint]
    simp only [List.map_append, List.map_cons, List.map_nil, List.mem_cons, List.mem_append,
      List.mem_singleton, List.not_mem_nil, or_false, not_or] at hq
    rw [hfr q hq.2.1.2 hq.2.2.2 (fun m' hm' => by rw [hm] at hm'; cases hm'; exact hq.1)] at hx2
    refine Or.inr ⟨x2, hx2, rfl, ?_⟩
    simp only [List.map_append, List.map_cons, List.map_nil, List.mem_cons, List.mem_append,
      List.mem_singleton, List.not_mem_nil, or_false, not_or]
    exact ⟨hq.1, hq.2.1.1, hq.2.2.1⟩
  | pop =>
    obtain ⟨f, s3, evs, er, m2, -, -, -, d1, d2, p2, hkb⟩ :=
      pop_managed s st top mjunk ext hman
    have e1 := Call.run_mono e f
    simp only [Call.run, hshared, Outcome.bind, Nat.add_comm fuel f, er fuel] at e1
    cases e1
    have hlen : 1 < s.pools.length := ha
    rw [hman.stack_of.pools_eq] at hlen
    rcases List.eq_nil_or_concat' st with hnil | ⟨l, b, hl⟩
    · subst hnil
      simp at hlen
    · subst hl
      refine ⟨⟨l, b, _, _, m2⟩, ?_⟩
      intro q x2 hx2 hq
      rw [m2.stack_of.internals_at (p2 m hm)] at hq
      rw [hint]
      have hqM : q ≠ m.m_pPools := fun e0 => hq (by rw [e0]; simp)
      obtain ⟨x, hx, hb⟩ := hkb q x2 hx2 (fun m' hm' => by rw [hm] at hm'; cases hm'; exact hqM)
      refine Or.inr ⟨x, hx, hb, ?_⟩
      have hqP : q ≠ top.pool := by
        intro e0; rw [e0, d1] at hx2; cases hx2
      have hqA : q ≠ top.objects := by
        intro e0; rw [e0, d2] at hx2; cases hx2
      simp only [List.map_append, List.map_cons, List.map_nil, List.mem_cons, List.mem_append,
        List.mem_singleton, List.not_mem_nil, or_false, not_or] at hq ⊢
      exact ⟨hq.1, ⟨hq.2.1, hqP⟩, hq.2.2, hqA⟩
  | addObject o => exact absurd ha (by simp [HeldCall])
  | removeObject o => exact absurd ha (by simp [HeldCall])
  | sharedPoolManager => exact absurd ha (by simp [HeldCall])
  | purgePoolManager => exact absurd ha (by simp [HeldCall])

/-- A new object that holds no references, in a new cell, keeps the manager
well counted: the caller holds the reference to the new object. -/
theorem Managed.allocated {s : State} {st : List PoolRep} {mjunk : List Nat} {ext : Nat → Nat}
    (hman : Managed s st mjunk ext) (h1 : Heap) (b : Body) (hown : b.owned = [])
    (hnw : h1.read (s.heap.cells.length + 1) = some ⟨1, b⟩)
    (hsame : ∀ q, q ≠ s.heap.cells.length + 1 → h1.read q = s.heap.read q)
    (hlen : s.heap.cells.length ≤ h1.cells.length) :
    Managed ⟨h1, s.pInstance⟩ st mjunk
      (fun q => if q = s.heap.cells.length + 1 then 1 else ext q) := by
  obtain ⟨hst, c, hext, h0⟩ := hman
  have hrd : ∀ q, h1.read q =
      if q = s.heap.cells.length + 1 then some ⟨1, b⟩ else s.heap.read q := by
    intro q
    by_cases hq : q = s.heap.cells.length + 1
    · rw [if_pos hq, hq, hnw]
    · rw [if_neg hq, hsame q hq]
  have hold : ∀ q x, s.heap.read q = some x → q ≠ s.heap.cells.length + 1 := by
    intro q x hq e
    exact not_valid_succ s.heap 0 (e ▸ Heap.valid_of_read hq)
  have hfr : ∀ q x, s.heap.read q = some x → h1.read q = some x := by
    intro q x hq
    rw [hrd, if_neg (hold q x hq)]; exact hq
  have hnew : s.heap.read (s.heap.cells.length + 1) = none :=
    Heap.read_of_not_valid (not_valid_succ s.heap 0)
  have hin : ∀ q, h1.inrefs [] q = s.heap.inrefs [] q := by
    intro q
    apply Heap.inrefs_grow hlen
    intro p _
    unfold Heap.refsFrom
    rw [hrd]
    by_cases hp : p = s.heap.cells.length + 1
    · rw [if_pos hp, hp, hnew]
      simp [hown]
    · rw [if_neg hp]
  refine ⟨?_, ⟨List.nodup_nil, by simp, ?_, ?_, ?_, by simp⟩, ?_, h0⟩
  · apply hst.framed
    intro q hq
    obtain ⟨m, hm, hint⟩ := hst.internals_eq
    obtain ⟨m', hm', hM, -, -, hh, -⟩ := hst
    rw [hm] at hm'
    cases hm'
    rw [hint] at hq
    have hal : ∃ x, s.heap.read q = some x := by
      simp only [List.mem_cons, List.mem_append, List.mem_map] at hq
      rcases hq with rfl | ⟨r, hr, rfl⟩ | ⟨r, hr, rfl⟩
      · exact ⟨_, hM⟩
      · exact ⟨_, (hh r hr).1⟩
      · exact ⟨_, (hh r hr).2⟩
    obtain ⟨x, hx⟩ := hal
    rw [hfr q x hx, hx]
  · intro p x hx
    rw [hrd] at hx
    split at hx
    · cases hx
      show 1 ≤ UINT_MAX
      decide
    · exact c.bounded p x hx
  · intro p x _ hx o ho
    rw [hrd] at hx
    split at hx
    · cases hx
      rw [hown] at ho
      simp at ho
    · obtain ⟨y, hy⟩ := Option.isSome_iff_exists.1 (c.alive p x (by simp) hx o ho)
      rw [hfr o y hy]; rfl
  · intro o x hx
    rw [hin]
    rw [hrd] at hx
    by_cases ho : o = s.heap.cells.length + 1
    · rw [if_pos ho] at hx
      cases hx
      rw [ho, c.inrefs_invalid hnew]
      simp
    · rw [if_neg ho] at hx
      simp only [ho, if_false]
      exact c.balance o x hx
  · intro m hm
    have := hext m hm
    obtain ⟨m', hm', hM, -⟩ := hst
    have hm2 : s.pInstance = some m := hm
    rw [hm2] at hm'
    cases hm'
    have hne := hold _ _ hM
    simp only [hne, if_false]
    exact this

/-- A new instance of any class holds no references. -/
theorem Factory.body_owned (f : Factory) : f.body.owned = [] := by
  cases f <;> simp [Factory.body, Body.owned]

/-- Every `create` factory constructs its object in the next cell and calls
`autorelease()` on it. -/
theorem Factory.constructs (f : Factory) (s : State) :
    ∃ h1, h1.read (s.heap.cells.length + 1) = some ⟨1, f.body⟩ ∧
      (∀ q, q ≠ s.heap.cells.length + 1 → h1.read q = s.heap.read q) ∧
      s.heap.cells.length ≤ h1.cells.length ∧
      ∀ fuel, f.create fuel s =
        (SXObject.autorelease fuel ⟨h1, s.pInstance⟩ (s.heap.cells.length + 1)).bind
          fun a => .ok (a.1, s.heap.cells.length + 1) := by
  have hal : ∀ c : Cell, s.heap.cells.length ≤ (s.heap.alloc c).1.cells.length := by
    intro c; simp [Heap.alloc]
  cases f with
  | string pString =>
    obtain ⟨a1, a2, _⟩ := alloc_new_cell s.heap ⟨1, .string (cstr pString)⟩
    refine ⟨_, a1, a2, hal _, ?_⟩
    intro fuel
    simp only [Factory.create, SXString.create, SXString.new, Heap.alloc_snd]
    rw [if_pos (by omega)]
  | number type value =>
    obtain ⟨a1, a2, _⟩ := alloc_new_cell s.heap ⟨1, .number type value⟩
    refine ⟨_, a1, a2, hal _, ?_⟩
    intro fuel
    simp only [Factory.create, SXNumber.create, SXNumber.new, Heap.alloc_snd]
    rw [if_pos (by omega)]
  | array =>
    obtain ⟨h1, e1, e2, a1, a2, a3, _⟩ :=
      initWithCapacity_new s.heap SX_ARRAY_DEFAULT_CAPACITY_INCREMENT
    refine ⟨h1, a1, a2, by omega, ?_⟩
    intro fuel
    simp only [Factory.create, SXArray.create, SXArray.createWithCapacity]
    rw [e1]
    simp only [Outcome.bind, if_true]
    rw [e2]
  | arrayWithCapacity capacity =>
    obtain ⟨h1, e1, e2, a1, a2, a3, _⟩ := initWithCapacity_new s.heap capacity
    refine ⟨h1, a1, a2, by omega, ?_⟩
    intro fuel
    simp only [Factory.create, SXArray.createWithCapacity]
    rw [e1]
    simp only [Outcome.bind, if_true]
    rw [e2]
  | dictionary =>
    obtain ⟨a1, a2, _⟩ := alloc_new_cell s.heap ⟨1, .dictionary []⟩
    refine ⟨_, a1, a2, hal _, ?_⟩
    intro fuel
    simp only [Factory.create, SXDictionary.create, SXDictionary.new, Heap.alloc_snd]
    rw [if_pos (by omega)]
  | set =>
    obtain ⟨a1, a2, _⟩ := alloc_new_cell s.heap ⟨1, .set []⟩
    refine ⟨_, a1, a2, hal _, ?_⟩
    intro fuel
    simp only [Factory.create, SXSet.create, SXSet.new, Heap.alloc_snd]
    rw [if_pos (by omega)]
  | data =>
    obtain ⟨a1, a2, _⟩ := alloc_new_cell s.heap ⟨1, .data []⟩
    refine ⟨_, a1, a2, hal _, ?_⟩
    intro fuel
    simp only [Factory.create, SXData.create, SXData.new, Heap.alloc_snd]
    rw [if_pos (by omega)]

/-- A `create` factory keeps the manager well counted and its stack non-empty:
the new object, which holds no references, is registered in the top pool, which
owns its one reference; the other objects are as before. -/
theorem Factory.keeps_managed {s s2 : State} {st : List PoolRep} {top : PoolRep} {mjunk : List Nat}
    {ext : Nat → Nat} (hman : Managed s (st ++ [top]) mjunk ext) {f : Factory} {fuel o : Nat}
    (e : f.create fuel s = .ok (s2, o)) :
    (∃ st2 top2 mjunk2 ext2, Managed s2 (st2 ++ [top2]) mjunk2 ext2) ∧
    (∀ q x2, s2.heap.read q = some x2 → q ∉ s2.internals →
      x2.body.owned = [] ∨ ∃ x, s.heap.read q = some x ∧ x.body = x2.body ∧ q ∉ s.internals) := by
  obtain ⟨m, hm, hint⟩ := hman.stack_of.internals_eq
  obtain ⟨h1, hnw, hsame, hlen, hrun⟩ := f.constructs s
  have m1 := hman.allocated h1 f.body f.body_owned hnw hsame hlen
  have hnone : s.heap.read (s.heap.cells.length + 1) = none :=
    Heap.read_of_not_valid (not_valid_succ s.heap 0)
  have hint1 : (State.mk h1 s.pInstance).internals = s.internals := by
    rw [m1.stack_of.internals_at (m := m) hm, hint]
  have hi : s.heap.cells.length + 1 ∉ (State.mk h1 s.pInstance).internals := by
    rw [hint1, hint]
    obtain ⟨m', hm', hM, -, -, hh, -⟩ := hman.stack_of
    rw [hm] at hm'
    cases hm'
    intro hq
    rcases List.mem_cons.1 hq with e0 | hq2
    · rw [e0, hM] at hnone; cases hnone
    · rcases List.mem_append.1 hq2 with h3 | h3
      · obtain ⟨r, hr, e0⟩ := List.mem_map.1 h3
        rw [← e0, (hh r hr).1] at hnone; cases hnone
      · obtain ⟨r, hr, e0⟩ := List.mem_map.1 h3
        rw [← e0, (hh r hr).2] at hnone; cases hnone
  have hbal := m1.2.1.balance (s.heap.cells.length + 1) ⟨1, f.body⟩ hnw
  have hc : (State.mk h1 s.pInstance).heap.inrefs [] (s.heap.cells.length + 1) < 1 := by
    have hb2 : h1.inrefs [] (s.heap.cells.length + 1) + 1 = 1 := by simpa using hbal
    show h1.inrefs [] (s.heap.cells.length + 1) < 1
    omega
  obtain ⟨s3, er, m2, hrd, hp3⟩ := m1.autorelease (o := s.heap.cells.length + 1) hnw hi hc fuel
  rw [hrun fuel] at e
  obtain ⟨a, ea, eb⟩ := Outcome.bind_eq_ok e
  have ea1 := SXObject.autorelease_mono ea 1
  rw [er] at ea1
  cases ea1
  cases eb
  refine ⟨⟨st, _, mjunk, _, m2⟩, ?_⟩
  intro q x2 hx2 hq
  rw [m2.stack_of.internals_at (m := m) (hp3.trans hm)] at hq
  rw [hint]
  have hqa : q ≠ top.objects := by
    intro e0
    apply hq
    rw [e0]
    simp
  rw [hrd q hqa] at hx2
  have hx2' : h1.read q = some x2 := hx2
  by_cases hqn : q = s.heap.cells.length + 1
  · rw [hqn, hnw] at hx2'
    cases hx2'
    exact Or.inl f.body_owned
  · rw [hsame q hqn] at hx2'
    refine Or.inr ⟨x2, hx2', rfl, ?_⟩
    simpa using hq

theorem HolderReachable.is_managed {s : State} (hr : HolderReachable s) :
    ∃ st top mjunk ext, Managed s (st ++ [top]) mjunk ext := by
  induction hr with
  | start s st mjunk ext hman hlen =>
    rcases List.eq_nil_or_concat' st with hnil | ⟨l, b, hl⟩
    · subst hnil; simp at hlen
    · subst hl; exact ⟨l, b, mjunk, ext, hman⟩
  | step fuel c s s2 _ ha e ih =>
    obtain ⟨st, top, mj, ext, hman⟩ := ih
    exact (HeldCall.keeps hman ha e).1
  | create fuel f s s2 o _ _ e ih =>
    obtain ⟨st, top, mj, ext, hman⟩ := ih
    exact (Factory.keeps_managed hman e).1


/-- In a heap whose objects hold no references, no reference is counted. -/
theorem Heap.inrefs_of_leaves {h : Heap} (hl : ∀ p x, h.read p = some x → x.body.owned = [])
    (skip : List Nat) (q : Nat) : h.inrefs skip q = 0 := by
  unfold Heap.inrefs
  apply List.sum_eq_zero
  intro n hn
  obtain ⟨p, -, rfl⟩ := List.mem_map.1 hn
  split
  · rfl
  · cases hp : h.read p with
    | none => exact Heap.refsFrom_of_none hp q
    | some x =>
      rw [Heap.refsFrom_of_read hp, hl p x hp]
      rfl

/-- The constructor of the manager in a heap whose objects hold no references
leaves a manager with one empty pool in a well-counted heap: client code holds
every reference to the objects. -/
theorem create_managed (fuel : Nat) (s : State) (hb : s.heap.bounded)
    (hpl : ∀ q x, s.heap.read q = some x → x.body.owned = []) :
    ∃ s2 ext, SXPoolManager.create (fuel + 1) s = .ok s2 ∧
      Managed s2 ([] ++ [PoolRep.mk (s.heap.cells.length + 2) (s.heap.cells.length + 3) []
        [0, 0, 0, 0, 0, 0, 0, 0, 0, 0]]) (SXArray.spare [0]) ext ∧
      (∀ q x, s2.heap.read q = some x → q ∉ s2.internals → x.body.owned = []) := by
  have hcopy : ∀ arr : List Nat, SXArray.copyElements 0 arr 1 = [0] := fun _ => rfl
  have hrep10 : List.replicate 10 0 = [0, 0, 0, 0, 0, 0, 0, 0, 0, 0] := rfl
  obtain ⟨h2, hdef⟩ : ∃ h2, h2 = (((s.heap.alloc ⟨1, .array 10 0
      [0, 0, 0, 0, 0, 0, 0, 0, 0, 0]⟩).1.write
    (s.heap.cells.length + 1) ⟨1, .array 1 0 [0]⟩).write (s.heap.cells.length + 1)
    ⟨1, .array 1 0 [0]⟩) := ⟨_, rfl⟩
  have hinit : SXArray.initWithCapacity (SXArray.new s.heap).1 (SXArray.new s.heap).2 1 =
      .ok (h2, true) := by
    simp [SXArray.initWithCapacity, SXArray.new, SXArray.resizeArray, hrep10,
      SX_ARRAY_DEFAULT_CAPACITY_INCREMENT, Heap.read_alloc, Heap.read_write, Heap.valid_alloc,
      hcopy, hdef]
  have hl2 : h2.cells.length = s.heap.cells.length + 1 := by simp [hdef]
  have hrd : ∀ q, h2.read q = if q = s.heap.cells.length + 1 then some ⟨1, .array 1 0 [0]⟩
      else s.heap.read q := by
    intro q
    rw [hdef]
    by_cases hq : q = s.heap.cells.length + 1
    · simp [hq, Heap.read_write, Heap.valid_alloc]
    · simp [hq, Heap.read_write, Heap.read_alloc]
  have hM2 : h2.read (s.heap.cells.length + 1) = some ⟨1, .array 1 0 [0]⟩ := by
    rw [hrd]; simp
  have hleaf : ∀ p x, h2.read p = some x → x.body.owned = [] := by
    intro p x hx
    rw [hrd] at hx
    split at hx
    · cases hx; rfl
    · exact hpl p x hx
  have hman1 : Managed ⟨h2, some ⟨s.heap.cells.length + 1, 0⟩⟩ [] [0]
      (fun q => if q = s.heap.cells.length + 1 then 1
        else ((s.heap.read q).map Cell.m_referenceCount).getD 0) := by
    refine ⟨⟨⟨s.heap.cells.length + 1, 0⟩, rfl, by simpa using hM2, rfl, by simp, by simp,
      by simp, by simp⟩, ⟨List.nodup_nil, by simp, ?_, ?_, ?_, by simp⟩, ?_, by simp⟩
    · intro p x hx
      rw [hrd] at hx
      split at hx
      · cases hx; show 1 ≤ UINT_MAX; decide
      · have hmem : some x ∈ s.heap.cells := by
          unfold Heap.read at hx
          split at hx
          · cases hx
          · rw [List.getD_eq_getElem?_getD] at hx
            cases hg : s.heap.cells[p - 1]? with
            | none => rw [hg] at hx; cases hx
            | some y =>
              rw [hg] at hx
              simp only [Option.getD_some] at hx
              rw [hx] at hg
              exact List.getElem?_mem hg
        exact hb (some x) hmem x rfl
    · intro p x _ hx o ho
      rw [hleaf p x hx] at ho
      simp at ho
    · intro o x hx
      rw [Heap.inrefs_of_leaves hleaf]
      rw [hrd] at hx
      split at hx
      · rename_i ho
        cases hx
        simp [ho]
      · rename_i ho
        simp [ho, hx]
    · intro m hm
      cases hm
      simp
  obtain ⟨s2, er, m2, p2, hfr⟩ := hman1.pushed fuel
  rw [hl2] at m2 p2 hfr
  refine ⟨s2, _, ?_, m2, ?_⟩
  · simp only [SXPoolManager.create, hinit, Outcome.bind_eq, Outcome.bind_ok]
    exact er
  · intro q x hx hq
    rw [m2.stack_of.internals_at (p2 _ rfl)] at hq
    simp only [List.nil_append, List.map_cons, List.map_nil, List.mem_cons, List.mem_append,
      List.mem_singleton, List.not_mem_nil, or_false, not_or] at hq
    have h1 : q ≠ s.heap.cells.length + 1 := hq.1
    rw [hfr q (by omega) (by omega) (fun m' hm' => by cases hm'; exact h1)] at hx
    have hx' : h2.read q = some x := hx
    rw [hrd, if_neg h1] at hx'
    exact hpl q x hx'

/-- When no object outside the manager holds a reference, the references that
live objects hold to an object that is not the manager's are its
registrations. -/
theorem Managed.inrefs_plain {s : State} {st : List PoolRep} {mjunk : List Nat}
    {ext : Nat → Nat} (hman : Managed s st mjunk ext)
    (hpl : ∀ q x, s.heap.read q = some x → q ∉ s.internals → x.body.owned = [])
    {o : Nat} (ho : o ∉ s.internals) : s.heap.inrefs [] o = s.registrations.count o := by
  obtain ⟨hst, cnt, -, h0⟩ := hman
  have hregs := hst.registrations_flat
  obtain ⟨m, hm, hint⟩ := hst.internals_eq
  obtain ⟨m', hm', hM, -, -, hh, -, hno⟩ := hst
  rw [hm] at hm'
  cases hm'
  have hs := Heap.inrefs_split s.heap o (st.map PoolRep.objects) [] hno
    (fun d hd => by
      obtain ⟨r, hr, rfl⟩ := List.mem_map.1 hd
      exact ⟨Heap.valid_of_read (hh r hr).2, by simp⟩)
  rw [List.append_nil, heldBy_objects s.heap o st hh h0, ← hregs] at hs
  have hz : ∀ r ∈ st, r.pool ≠ 0 := fun r hr => (Heap.valid_of_read (hh r hr).1).1
  have hownM := Stack.owned_pools hz (st.length + mjunk.length) mjunk
  have hzero : s.heap.inrefs (st.map PoolRep.objects) o = 0 := by
    unfold Heap.inrefs
    apply List.sum_eq_zero
    intro n hn
    obtain ⟨p, -, rfl⟩ := List.mem_map.1 hn
    split
    · rfl
    · rename_i hp
      cases hr : s.heap.read p with
      | none => exact Heap.refsFrom_of_none hr o
      | some x =>
        rw [Heap.refsFrom_of_read hr]
        apply List.count_eq_zero_of_not_mem
        rw [hint] at ho
        simp only [List.mem_cons, List.mem_append, List.mem_map, not_or, not_exists,
          not_and] at ho
        by_cases hpi : p ∈ s.internals
        · rw [hint] at hpi
          simp only [List.mem_cons, List.mem_append, List.mem_map] at hpi
          rcases hpi with rfl | ⟨r, hr1, rfl⟩ | ⟨r, hr1, rfl⟩
          · rw [hM] at hr
            cases hr
            rw [hownM]
            intro hmem
            obtain ⟨r, hr1, e0⟩ := List.mem_map.1 hmem
            exact ho.2.1 r hr1 e0
          · rw [(hh r hr1).1] at hr
            cases hr
            intro hmem
            simp only [Body.owned] at hmem
            split at hmem
            · simp only [List.mem_singleton] at hmem
              exact ho.2.2 r hr1 hmem.symm
            · simp at hmem
          · exact absurd (List.mem_map.2 ⟨r, hr1, rfl⟩) hp
        · rw [hpl p x hr hpi]
          simp
  omega

/-- A call admitted by `OwnedCall` is admitted by `HeldCall` when no object
outside the manager holds a reference. -/
theorem OwnedCall.held {s : State} {st : List PoolRep} {mjunk : List Nat} {ext : Nat → Nat}
    (hman : Managed s st mjunk ext)
    (hpl : ∀ q x, s.heap.read q = some x → q ∉ s.internals → x.body.owned = [])
    {call : Call} (ha : OwnedCall true s call) : HeldCall s call := by
  cases call with
  | construct => trivial
  | retain o =>
    obtain ⟨hi, c, body, ho, hc⟩ := ha
    exact ⟨hi, c, body, ho, hc rfl⟩
  | release o =>
    obtain ⟨hi, c, body, ho, hc⟩ := ha
    exact ⟨hi, c, body, ho, by rw [hman.inrefs_plain hpl hi]; exact hc⟩
  | autorelease o =>
    obtain ⟨hi, c, body, ho, hc⟩ := ha
    exact ⟨hi, c, body, ho, by rw [hman.inrefs_plain hpl hi]; exact hc⟩
  | push => trivial
  | pop => exact ha
  | addObject o => exact absurd ha (by simp [OwnedCall])
  | removeObject o => exact absurd ha (by simp [OwnedCall])
  | sharedPoolManager => exact absurd ha (by simp [OwnedCall])
  | purgePoolManager => exact absurd ha (by simp [OwnedCall])

theorem OwnerReachable.is_managed_plain {s : State} (hr : OwnerReachable true s) :
    ∃ st top mjunk ext, Managed s (st ++ [top]) mjunk ext ∧
      ∀ q x, s.heap.read q = some x → q ∉ s.internals → x.body.owned = [] := by
  induction hr with
  | fresh fuel s0 s hnone hb hpl e =>
    obtain ⟨s2, ext, e2, m2, hp2⟩ := create_managed fuel s0 hb hpl
    have e' : SXPoolManager.create fuel s0 = .ok s := by
      simpa [SXPoolManager.sharedPoolManager, hnone] using e
    have := SXPoolManager.create_mono e' 1
    rw [e2] at this
    cases this
    exact ⟨[], _, _, ext, m2, hp2⟩
  | step fuel c s s2 _ ha e ih =>
    obtain ⟨st, top, mj, ext, hman, hpl⟩ := ih
    obtain ⟨hk1, hk2⟩ := HeldCall.keeps hman (OwnedCall.held hman hpl ha) e
    obtain ⟨st2, top2, mj2, ext2, hman2⟩ := hk1
    refine ⟨st2, top2, mj2, ext2, hman2, ?_⟩
    intro q x2 hx2 hq
    rcases hk2 q x2 hx2 hq with h1 | ⟨x, hx, hb', hqi⟩
    · rw [h1]; rfl
    · rw [← hb']
      exact hpl q x hx hqi
  | create fuel f s s2 o _ _ e ih =>
    obtain ⟨st, top, mj, ext, hman, hpl⟩ := ih
    obtain ⟨hk1, hk2⟩ := Factory.keeps_managed hman e
    obtain ⟨st2, top2, mj2, ext2, hman2⟩ := hk1
    refine ⟨st2, top2, mj2, ext2, hman2, ?_⟩
    intro q x2 hx2 hq
    rcases hk2 q x2 hx2 hq with h1 | ⟨x, hx, hb', hqi⟩
    · exact h1
    · rw [← hb']
      exact hpl q x hx hqi

/-! ## C6: the pool ownership invariant -/

/-- C6 (amended): in every state reached from a fresh manager by construction
of objects (plain objects and the `create` factories of all classes),
`retain()` on an object whose count is below `UINT_MAX`, `release()` and
`autorelease()` on an object whose count exceeds the number of its
registrations, `push()`, and `pop()` at depth above 1, the calls being made on
objects other than the private pools array, pools and pool arrays of the
manager, the count of every live object covers its registrations in the pools
of the stack, every registered object is alive, and the stack is not empty.
The same holds in every state reached by such calls from a manager in any
well-counted heap, whose containers may hold objects, when `release()` and
`autorelease()` are called only on an object whose count exceeds the number of
references that live containers hold to it. -/
theorem ownership_invariant (s : State) :
    (OwnerReachable true s → PoolOwnership s ∧ 1 ≤ s.pools.length) ∧
    (HolderReachable s → PoolOwnership s ∧ 1 ≤ s.pools.length) := by
  refine ⟨?_, ?_⟩
  · intro hr
    obtain ⟨st, top, mj, ext, hman, -⟩ := hr.is_managed_plain
    exact ⟨hman.owns, by rw [hman.stack_of.pools_eq]; simp⟩
  · intro hr
    obtain ⟨st, top, mj, ext, hman⟩ := hr.is_managed
    exact ⟨hman.owns, by rw [hman.stack_of.pools_eq]; simp⟩

/-- Instance of `ownership_invariant`: the fresh manager after the construction
and the `autorelease()` of one object; the fresh manager after
`SXArray::create()`; and the state after `pop()` on `stackedValues`, whose
pools hold a string, an array and a plain object. -/
theorem ownership_invariant_witness :
    (OwnerReachable true registeredObject ∧
      (PoolOwnership registeredObject ∧ 1 ≤ registeredObject.pools.length)) ∧
    (∃ s o, Factory.create 5 freshManager .array = .ok (s, o) ∧ OwnerReachable true s ∧
      (PoolOwnership s ∧ 1 ≤ s.pools.length)) ∧
    ∃ s, Call.run 20 .pop stackedValues = .ok s ∧ HolderReachable s ∧
      (PoolOwnership s ∧ 1 ≤ s.pools.length) :=
  ⟨⟨reachable_registeredObject true,
      (ownership_invariant registeredObject).1 (reachable_registeredObject true)⟩,
    ⟨_, _, rfl,
      .create 5 .array freshManager _ _
        (.fresh 1 SXPoolManager.initial freshManager rfl (by decide)
          (fun q x hq => by simp [SXPoolManager.initial, Heap.empty, Heap.read] at hq) rfl)
        (fun capacity hc => by cases hc) rfl,
      (ownership_invariant _).1
        (.create 5 .array freshManager _ _
          (.fresh 1 SXPoolManager.initial freshManager rfl (by decide)
            (fun q x hq => by simp [SXPoolManager.initial, Heap.empty, Heap.read] at hq) rfl)
          (fun capacity hc => by cases hc) rfl)⟩,
    _, rfl,
    .step 20 .pop stackedValues _
      (.start stackedValues ([] ++ [stackedValuesBottom, stackedValuesTop]) _ stackedValuesHeld
        managed_stackedValues (Nat.le_add_left 1 1))
      (Nat.lt_succ_self 1) rfl,
    (ownership_invariant _).2
      (.step 20 .pop stackedValues _
        (.start stackedValues ([] ++ [stackedValuesBottom, stackedValuesTop]) _ stackedValuesHeld
          managed_stackedValues (Nat.le_add_left 1 1))
        (Nat.lt_succ_self 1) rfl)⟩

/-- C6 (as stated) fails in two ways. From the fresh manager, construct an
object (address 4), autorelease it (count 1, one registration) and call
`retain()` on it `2 ^ 32 - 1` times: the count wraps to 0 while the pool still
holds the registration, so the count no longer covers the registrations. And
in the well-counted state `heldInArray`, where the object at address 5 (count
2) is registered once and is held by the array at address 4, the count of the
object exceeds the number of its registrations, so `OwnedCall` admits
`release()` on it, and then `release()` on the array (count 1, no
registration), whose destructor releases the object a second time: the
registered object is destroyed. -/
theorem ownership_needs_bound_and_holders :
    (∃ s, OwnerReachable false s ∧ s.registrations = [4] ∧
      s.heap.retainCount 4 = some 0 ∧ s.registrations.count 4 = 1 ∧ ¬ PoolOwnership s) ∧
    (∃ s1 s2, Managed heldInArray ([] ++ [heldInArrayPool]) [] heldInArrayHeld ∧
      PoolOwnership heldInArray ∧
      OwnedCall true heldInArray (.release 5) ∧ Call.run 20 (.release 5) heldInArray = .ok s1 ∧
      OwnedCall true s1 (.release 4) ∧ Call.run 20 (.release 4) s1 = .ok s2 ∧
      s2.registrations = [5] ∧ s2.heap.alive 5 = false ∧ ¬ PoolOwnership s2) := by
  have hm : Managed heldInArray ([] ++ [heldInArrayPool]) [] heldInArrayHeld := by
    refine ⟨⟨⟨1, 2⟩, rfl, rfl, rfl, by decide, ?_, by decide, by decide⟩,
      Counted.of_check (by decide), ?_, by decide⟩
    · intro r hr
      simp at hr
      subst hr
      exact ⟨rfl, rfl⟩
    · intro m hm
      cases hm
      decide
  exact ⟨⟨⟨registeredObject.heap.write 4 ⟨wrap (1 + (4294967294 + 1)), .object⟩,
      registeredObject.pInstance⟩,
    OwnerReachable.retain_many (reachable_registeredObject false) (o := 4) (c := 1) rfl
      (by decide) 4294967294,
    by decide, by decide, by decide,
    fun hp => absurd (hp.1 4 0 (by decide)) (by decide)⟩,
   _, _, hm, hm.owns,
   ⟨by decide, 2, .object, rfl, by decide⟩, rfl,
   ⟨by decide, 1, .array 1 1 [5], rfl, by decide⟩, rfl,
   by decide, by decide,
   fun hp => absurd (hp.2 5 (by decide)) (by decide)⟩

end spalx
